import Mathlib

/-!
# A shallow embedding of the variation-graph engine (`src/src/vg.cpp`)

The node/edge store, the side index and the graph mutators of class `VG`
are embedded as pure functions on an explicit state record.

Conventions of the embedding

* `id_t` (a signed 64 bit integer) is `Int`; `std::string` is `List Char`.
* `graph.node` and `graph.edge` (protobuf repeated fields) are lists.
* A handle `Node*` / `Edge*` is represented by the record it points to.  The
  records of an indexed edge are never mutated by the functions embedded here,
  and two distinct objects with equal fields are not told apart.
* `hash_map` and `std::map` are association lists with at most one entry per
  key (`map_find`, `map_insert`, `map_erase`); `std::set` is a strictly
  sorted list (`set_insert`).
-/

namespace vg

/-! ## Protobuf records -/

/-- Record `Node` of the graph: `id` and `sequence`. -/
structure Node where
  id : Int
  sequence : List Char
deriving DecidableEq, Repr

/-- Record `Edge` of the graph: `from`, `to`, `from_start`, `to_end`. -/
structure Edge where
  from_ : Int
  to_ : Int
  from_start : Bool
  to_end : Bool
deriving DecidableEq, Repr

/-- Record `Position` of a mapping: `node_id`, `offset`, `is_reverse`. -/
structure Position where
  node_id : Int
  offset : Int
  is_reverse : Bool
deriving DecidableEq, Repr

/-- Record `Edit`: `from_length`, `to_length`, `sequence`. -/
structure Edit where
  from_length : Int
  to_length : Int
  sequence : List Char
deriving DecidableEq, Repr

/-- Record `Mapping`: `position`, the list of `edit`s, `rank`. -/
structure Mapping where
  position : Position
  edit : List Edit
  rank : Int
deriving DecidableEq, Repr

/-! ## Node sides -/

/-- Modelled from the spec: type `NodeSide` is declared in a header that is not
under `src/`.  The spec (section 3) describes a node side as a pair
(node-id, end-flag); the code builds it as `NodeSide(id, is_end)`. -/
structure NodeSide where
  node : Int
  is_end : Bool
deriving DecidableEq, Repr

/-- Modelled from the spec: `operator<` of `NodeSide` (header not under `src/`),
the lexicographic order on (node-id, end-flag) used by `minmax` and by the
ordered containers keyed by sides. -/
def NodeSide.lt (a b : NodeSide) : Bool :=
  decide (a.node < b.node) || (decide (a.node = b.node) && (!a.is_end && b.is_end))

/-- The C++ `std::minmax(a, b)`: the pair `(b, a)` when `b < a`, else `(a, b)`. -/
def minmax (a b : NodeSide) : NodeSide × NodeSide :=
  if NodeSide.lt b a then (b, a) else (a, b)

/-- Modelled from the spec: `NodeSide::pair_from_edge` (header not under `src/`).
An edge connects side from-start-if-flag-else-from-end to side
to-end-if-flag-else-to-start (spec section 3); `create_edge` looks the edge up
under `NodeSide(from, !from_start)` and `NodeSide(to, to_end)`. -/
def pair_from_edge (e : Edge) : NodeSide × NodeSide :=
  minmax ⟨e.from_, !e.from_start⟩ ⟨e.to_, e.to_end⟩

/-- Modelled from the spec: `NodeSide::pair_from_start_edge` (header not under
`src/`): the side pair of the edge that a side-index entry
(neighbour id, relative orientation) on the start of node `start_id` stands for. -/
def pair_from_start_edge (start_id : Int) (oriented_other : Int × Bool) :
    NodeSide × NodeSide :=
  minmax ⟨start_id, false⟩ ⟨oriented_other.1, !oriented_other.2⟩

/-- Modelled from the spec: `NodeSide::pair_from_end_edge` (header not under
`src/`): the side pair of the edge that a side-index entry on the end of node
`end_id` stands for. -/
def pair_from_end_edge (end_id : Int) (oriented_other : Int × Bool) :
    NodeSide × NodeSide :=
  minmax ⟨end_id, true⟩ ⟨oriented_other.1, oriented_other.2⟩

/-! ## Containers -/

/-- Lookup `m.find(k)` in a map. -/
def map_find {κ ν : Type} [DecidableEq κ] (m : List (κ × ν)) (k : κ) : Option ν :=
  match m with
  | [] => none
  | (k1, v) :: rest => if k1 = k then some v else map_find rest k

/-- Removal `m.erase(k)` of a key. -/
def map_erase {κ ν : Type} [DecidableEq κ] (m : List (κ × ν)) (k : κ) : List (κ × ν) :=
  m.filter (fun p => decide (p.1 ≠ k))

/-- Assignment `m[k] = v`. -/
def map_insert {κ ν : Type} [DecidableEq κ] (m : List (κ × ν)) (k : κ) (v : ν) :
    List (κ × ν) :=
  (k, v) :: map_erase m k

/-- Insertion into a `std::set` kept as a strictly sorted list: an element
equivalent to one already present is not inserted. -/
def set_insert {α : Type} (lt : α → α → Bool) (x : α) : List α → List α
  | [] => [x]
  | y :: rest =>
    if lt x y then x :: y :: rest
    else if lt y x then y :: set_insert lt x rest
    else y :: rest

/-- The C++ `operator<` of `std::pair`. -/
def pair_lt {α β : Type} (lta : α → α → Bool) (ltb : β → β → Bool)
    (a b : α × β) : Bool :=
  lta a.1 b.1 || (!lta b.1 a.1 && ltb a.2 b.2)

/-- Order of `pair<NodeSide, NodeSide>`. -/
def side_pair_lt : NodeSide × NodeSide → NodeSide × NodeSide → Bool :=
  pair_lt NodeSide.lt NodeSide.lt

/-- Order of `pair<id_t, bool>` (with `false < true`). -/
def id_bool_lt : Int × Bool → Int × Bool → Bool :=
  pair_lt (fun a b => decide (a < b)) (fun a b => !a && b)

/-- Order of `pair<pair<id_t, bool>, pair<id_t, bool>>`. -/
def id_bool_pair_lt : (Int × Bool) × (Int × Bool) → (Int × Bool) × (Int × Bool) → Bool :=
  pair_lt id_bool_lt id_bool_lt

/-- The protobuf `SwapElements(i, j)` on a repeated field. -/
def swap_elements {α : Type} (l : List α) (i j : Nat) : List α :=
  match l.get? i, l.get? j with
  | some a, some b => (l.set i b).set j a
  | _, _ => l

/-- Modelled from the spec: `swap_remove` (utility header, not under `src/`)
removes the first element equal to `e` from a vector by swapping it with the
last element and popping the back; the spec describes the unindexing of an
edge as an O(degree) removal from the side lists. -/
def swap_remove {α : Type} [DecidableEq α] (v : List α) (e : α) : List α :=
  if v.indexOf e < v.length then
    (swap_elements v (v.indexOf e) (v.length - 1)).dropLast
  else v

/-- The C++ `std::string::substr(pos, len)` with `pos <= size`, the length
argument being an `int` expression converted to `size_t`. -/
def substr (s : List Char) (pos : Nat) (len : Int) : List Char :=
  (s.drop pos).take (len % 2 ^ 64).toNat

/-! ## The graph state -/

/-- The path index: path name to the ordered list of its mappings.
Modelled from the spec: class `Paths` is not under `src/`; the spec
(section 3) describes a path as an ordered list of mappings kept per name. -/
abbrev Paths := List (String × List Mapping)

/-- State of class `VG`. -/
structure VG where
  node : List Node
  edge : List Edge
  node_by_id : List (Int × Node)
  node_index : List (Node × Nat)
  edge_index : List (Edge × Nat)
  edge_by_sides : List ((NodeSide × NodeSide) × Edge)
  edges_on_start : List (Int × List (Int × Bool))
  edges_on_end : List (Int × List (Int × Bool))
  current_id : Int
  paths : Paths
deriving DecidableEq

/-- The graph after `VG::VG(void)` / `VG::init`. -/
def VG.empty : VG :=
  { node := [], edge := [], node_by_id := [], node_index := [], edge_index := [],
    edge_by_sides := [], edges_on_start := [], edges_on_end := [],
    current_id := 1, paths := [] }

/-- `VG::node_count`. -/
def node_count (g : VG) : Nat := g.node.length

/-- `VG::edge_count`. -/
def edge_count (g : VG) : Nat := g.edge.length

/-- `VG::has_node(id_t)`. -/
def has_node (g : VG) (id : Int) : Bool := (map_find g.node_by_id id).isSome

/-- `VG::get_node(id_t)`; `none` stands for the thrown `runtime_error`. -/
def get_node (g : VG) (id : Int) : Option Node := map_find g.node_by_id id

/-- `VG::has_edge(const Edge&)`. -/
def has_edge_rec (g : VG) (e : Edge) : Bool :=
  (map_find g.edge_by_sides (pair_from_edge e)).isSome

/-- `VG::has_edge(const NodeSide&, const NodeSide&)`. -/
def has_edge (g : VG) (side1 side2 : NodeSide) : Bool :=
  (map_find g.edge_by_sides (minmax side1 side2)).isSome

/-- `VG::get_edge(const NodeSide&, const NodeSide&)`; `none` is `NULL`. -/
def get_edge (g : VG) (side1 side2 : NodeSide) : Option Edge :=
  map_find g.edge_by_sides (minmax side1 side2)

/-- `VG::edges_start(id_t)`. -/
def edges_start (g : VG) (id : Int) : List (Int × Bool) :=
  (map_find g.edges_on_start id).getD []

/-- `VG::edges_end(id_t)`. -/
def edges_end (g : VG) (id : Int) : List (Int × Bool) :=
  (map_find g.edges_on_end id).getD []

/-- `VG::max_node_id`. -/
def max_node_id (g : VG) : Int :=
  g.node.foldl (fun max_id n => if n.id > max_id then n.id else max_id) 0

/-! ## Edge store and side index -/

/-- The statement `m[id].emplace_back(entry)` on a side-index map. -/
def push_side (m : List (Int × List (Int × Bool))) (id : Int) (entry : Int × Bool) :
    List (Int × List (Int × Bool)) :=
  map_insert m id ((map_find m id).getD [] ++ [entry])

/-- `VG::index_edge_by_node_sides`. -/
def index_edge_by_node_sides (g : VG) (edge : Edge) : VG :=
  let g1 := { g with edge_by_sides := map_insert g.edge_by_sides (pair_from_edge edge) edge }
  let relative_orientation := edge.from_start != edge.to_end
  let g2 :=
    if edge.from_start then
      { g1 with edges_on_start :=
                  push_side g1.edges_on_start edge.from_ (edge.to_, relative_orientation) }
    else
      { g1 with edges_on_end :=
                  push_side g1.edges_on_end edge.from_ (edge.to_, relative_orientation) }
  if edge.from_ ≠ edge.to_ ∨ edge.from_start = edge.to_end then
    if edge.to_end then
      { g2 with edges_on_end :=
                  push_side g2.edges_on_end edge.to_ (edge.from_, relative_orientation) }
    else
      { g2 with edges_on_start :=
                  push_side g2.edges_on_start edge.to_ (edge.from_, relative_orientation) }
  else g2

/-- `VG::set_edge`. -/
def set_edge (g : VG) (edge : Edge) : VG :=
  if !has_edge_rec g edge then index_edge_by_node_sides g edge else g

/-- `VG::create_edge(id_t from, id_t to, bool from_start, bool to_end)`: the
graph after the call and the returned edge. -/
def create_edge (g : VG) (from_ to_ : Int) (from_start to_end : Bool) : VG × Edge :=
  match get_edge g ⟨from_, !from_start⟩ ⟨to_, to_end⟩ with
  | some edge => (g, edge)
  | none =>
    let edge : Edge := ⟨from_, to_, from_start, to_end⟩
    let g1 := { g with edge := g.edge ++ [edge] }
    let g2 := set_edge g1 edge
    ({ g2 with edge_index := map_insert g2.edge_index edge (g2.edge.length - 1) }, edge)

/-- `VG::create_edge(NodeSide side1, NodeSide side2)`. -/
def create_edge_sides (g : VG) (side1 side2 : NodeSide) : VG × Edge :=
  create_edge g side1.node side2.node (!side1.is_end) side2.is_end

/-- One of the four removals of `VG::unindex_edge_by_node_sides`: `swap_remove`
on the side list of `id`, then erasure of the list from the map when it is empty. -/
def unindex_side (m : List (Int × List (Int × Bool))) (id : Int) (to_remove : Int × Bool) :
    List (Int × List (Int × Bool)) :=
  match map_find m id with
  | none => m
  | some v =>
    let v1 := swap_remove v to_remove
    if v1.isEmpty then map_erase m id else map_insert m id v1

/-- `VG::unindex_edge_by_node_sides(Edge*)`. -/
def unindex_edge_by_node_sides (g : VG) (edge : Edge) : VG :=
  if !has_edge_rec g edge then g else
  let g1 := { g with edge_by_sides := map_erase g.edge_by_sides (pair_from_edge edge) }
  let relative_orientation := edge.from_start != edge.to_end
  let g2 :=
    if edge.from_start then
      { g1 with edges_on_start :=
                  unindex_side g1.edges_on_start edge.from_ (edge.to_, relative_orientation) }
    else
      { g1 with edges_on_end :=
                  unindex_side g1.edges_on_end edge.from_ (edge.to_, relative_orientation) }
  if edge.from_ ≠ edge.to_ ∨ edge.from_start = edge.to_end then
    if edge.to_end then
      { g2 with edges_on_end :=
                  unindex_side g2.edges_on_end edge.to_ (edge.from_, relative_orientation) }
    else
      { g2 with edges_on_start :=
                  unindex_side g2.edges_on_start edge.to_ (edge.from_, relative_orientation) }
  else g2

/-- `VG::destroy_edge(Edge*)` on a non-null handle. -/
def destroy_edge_rec (g : VG) (edge : Edge) : VG :=
  if !has_edge_rec g edge then g else
  let g1 := unindex_edge_by_node_sides g edge
  let lei := g1.edge.length - 1
  let tei := (map_find g1.edge_index edge).getD 0
  let g2 := { g1 with edge_index := map_erase g1.edge_index edge }
  let g3 :=
    if lei ≠ tei then
      match g2.edge.get? lei with
      | some last =>
        let g2a := { g2 with edge_index := map_erase g2.edge_index last }
        let g2b := { g2a with edge := swap_elements g2a.edge tei lei }
        let g2c := { g2b with edge_index := map_insert g2b.edge_index last tei }
        set_edge g2c last
      | none => g2
    else g2
  { g3 with edge := g3.edge.dropLast }

/-- `VG::destroy_edge(Edge*)`, where `none` is the `NULL` handle. -/
def destroy_edge_ptr (g : VG) (edge : Option Edge) : VG :=
  match edge with
  | none => g
  | some e => destroy_edge_rec g e

/-- `VG::destroy_edge(const NodeSide&, const NodeSide&)`. -/
def destroy_edge (g : VG) (side1 side2 : NodeSide) : VG :=
  destroy_edge_ptr g (get_edge g side1 side2)

/-! ## Node store -/

/-- `VG::create_node(const string& seq, id_t id)`; `id = 0` asks for a fresh id. -/
def create_node (g : VG) (seq : List Char) (id : Int) : VG × Node :=
  let g1 := { g with node := g.node ++ [(⟨0, seq⟩ : Node)] }
  let g2 :=
    if id = 0 ∧ g1.current_id = 1 then { g1 with current_id := max_node_id g1 + 1 } else g1
  let new_id := if id = 0 then g2.current_id else id
  let g3 := if id = 0 then { g2 with current_id := g2.current_id + 1 } else g2
  let node : Node := ⟨new_id, seq⟩
  let g4 := { g3 with node := g.node ++ [node] }
  let g5 := { g4 with node_by_id := map_insert g4.node_by_id node.id node }
  ({ g5 with node_index := map_insert g5.node_index node (g5.node.length - 1) }, node)

/-- The loop of `VG::destroy_node` over `edges_to_destroy`. -/
def destroy_edges (g : VG) (edges_to_destroy : List (NodeSide × NodeSide)) : VG :=
  edges_to_destroy.foldl (fun g e => destroy_edge g e.1 e.2) g

/-- The set `edges_to_destroy` that `VG::destroy_node` collects from the two
side lists of the node. -/
def edges_to_destroy_of (g : VG) (id : Int) : List (NodeSide × NodeSide) :=
  (edges_end g id).foldl
    (fun s other_end => set_insert side_pair_lt (pair_from_end_edge id other_end) s)
    ((edges_start g id).foldl
      (fun s other_end => set_insert side_pair_lt (pair_from_start_edge id other_end) s)
      [])

/-- `VG::destroy_node(Node*)` on a non-null handle. -/
def destroy_node (g : VG) (node : Node) : VG :=
  if !has_node g node.id then g else
  let g1 := destroy_edges g (edges_to_destroy_of g node.id)
  let g2 := { g1 with edges_on_start := map_erase g1.edges_on_start node.id }
  let g3 := { g2 with edges_on_end := map_erase g2.edges_on_end node.id }
  let lni := g3.node.length - 1
  let tni := (map_find g3.node_index node).getD 0
  let g4 :=
    if lni ≠ tni then
      match g3.node.get? lni with
      | some last =>
        let g3a := { g3 with node := swap_elements g3.node tni lni }
        let g3b := { g3a with node_by_id := map_insert g3a.node_by_id last.id last }
        let g3c := { g3b with node_index := map_erase g3b.node_index last }
        { g3c with node_index := map_insert g3c.node_index last tni }
      | none => g3
    else g3
  let g5 := { g4 with node_by_id := map_erase g4.node_by_id node.id }
  let g6 := { g5 with node_index := map_erase g5.node_index node }
  { g6 with node := g6.node.dropLast }

/-! ## Node division -/

/-- Modelled from the spec: `edit_is_match` (path module, not under `src/`):
an edit with from-length = to-length and no sequence is a match. -/
def edit_is_match (e : Edit) : Bool :=
  decide (e.from_length = e.to_length) && e.sequence.isEmpty

/-- Modelled from the spec: `mapping_is_match` (path module, not under `src/`):
every edit of the mapping is a match. -/
def mapping_is_match (m : Mapping) : Bool := m.edit.all edit_is_match

/-- Modelled from the spec: `from_length(const Mapping&)` (path module, not
under `src/`): the sum of the from-lengths of the edits. -/
def from_length (m : Mapping) : Int := (m.edit.map (fun e => e.from_length)).sum

/-- The three assertions `VG::divide_node` makes on a mapping before cutting it. -/
def divide_assertions (node : Node) (m : Mapping) : Bool :=
  decide (m.position.offset = 0) && mapping_is_match m &&
    (decide (m.edit.length = 0) || decide (from_length m = (node.sequence.length : Int)))

/-- The statements `mutable_position()->set_node_id(id); set_offset(0)`. -/
def place_on (m : Mapping) (id : Int) : Mapping :=
  { m with position := { m.position with node_id := id, offset := 0 } }

/-- The loop of `VG::divide_node` that cuts one mapping at the positions:
`i` counts the positions done, `rem` is `remainder`.  Function `cut_mapping`
is declared outside `src/` and is a parameter. -/
def mapping_parts_loop (cut_mapping : Mapping → Int → Mapping × Mapping)
    (node : Node) (parts : List Node) :
    List Int → Nat → Mapping → Int → List Mapping → List Mapping × Mapping
  | [], _, rem, _, mapping_parts => (mapping_parts, rem)
  | pos :: rest, i, rem, local_offset, mapping_parts =>
    let halves :=
      if rem.position.is_reverse then
        let h := cut_mapping rem ((node.sequence.length : Int) - pos)
        (h.2, h.1)
      else cut_mapping rem (pos - local_offset)
    let chunk := place_on halves.1 (parts.getD i ⟨0, []⟩).id
    mapping_parts_loop cut_mapping node parts rest (i + 1) halves.2 pos (mapping_parts ++ [chunk])

/-- The vector `mapping_parts` that `VG::divide_node` builds for one mapping. -/
def mapping_parts_of (cut_mapping : Mapping → Int → Mapping × Mapping)
    (node : Node) (positions : List Int) (parts : List Node) (m : Mapping) : List Mapping :=
  let r := mapping_parts_loop cut_mapping node parts positions 0 m 0 []
  r.1 ++ [place_on r.2 (parts.getLastD ⟨0, []⟩).id]

/-- Division of the mappings of one path.  Modelled from the spec:
`Paths::remove_mapping` and `Paths::insert_mapping` are not under `src/`;
`remove_mapping` returns the cursor of the element that followed and
`insert_mapping` inserts before the cursor, so a forward mapping is replaced in
place by its parts in order and a reverse mapping by its parts in reverse
order.  The flag is `false` when an assertion failed; the mappings from the
failing one on are then left as they were. -/
def divide_path_mappings (cut_mapping : Mapping → Int → Mapping × Mapping)
    (node : Node) (positions : List Int) (parts : List Node) :
    List Mapping → Bool × List Mapping
  | [] => (true, [])
  | m :: rest =>
    if m.position.node_id = node.id then
      if divide_assertions node m then
        let mapping_parts := mapping_parts_of cut_mapping node positions parts m
        let r := divide_path_mappings cut_mapping node positions parts rest
        (r.1, (if m.position.is_reverse then mapping_parts.reverse else mapping_parts) ++ r.2)
      else (false, m :: rest)
    else
      let r := divide_path_mappings cut_mapping node positions parts rest
      (r.1, m :: r.2)

/-- Division of the mappings of all paths (the block `// divide paths` of
`VG::divide_node`).  The source visits the mappings of the node in the order of
a `std::set<Mapping*>`; the embedding visits them in path order, which gives
the same path index whenever the block completes. -/
def divide_paths (cut_mapping : Mapping → Int → Mapping × Mapping)
    (node : Node) (positions : List Int) (parts : List Node) : Paths → Bool × Paths
  | [] => (true, [])
  | (name, ms) :: rest =>
    let r := divide_path_mappings cut_mapping node positions parts ms
    if r.1 then
      let r2 := divide_paths cut_mapping node positions parts rest
      (r2.1, (name, r.2) :: r2.2)
    else (false, (name, r.2) :: rest)

/-- How a call of `VG::divide_node` ends: it returns, it prints the
position error and calls `exit(1)`, or an `assert` aborts it. -/
inductive Outcome where
  | returned
  | position_out_of_range
  | assertion_failed
deriving DecidableEq, Repr

/-- The first loop of `VG::divide_node`: one new node per position, holding
the substring between the previous position and this one. -/
def create_parts (node : Node) : List Int → Int → VG → List Node → VG × Int × List Node
  | [], last_pos, g, parts => (g, last_pos, parts)
  | pos :: rest, last_pos, g, parts =>
    let r := create_node g (substr node.sequence last_pos.toNat (pos - last_pos)) 0
    create_parts node rest pos r.1 (parts ++ [r.2])

/-- The entry that `VG::divide_node` records for an edge on the start of the
node, with self loops redirected to the new parts. -/
def reroute_start (node : Node) (parts : List Node) (e : Int × Bool) : Int × Bool :=
  if e.1 = node.id then
    if e.2 then ((parts.headD ⟨0, []⟩).id, e.2) else ((parts.getLastD ⟨0, []⟩).id, e.2)
  else e

/-- The entry that `VG::divide_node` records for an edge on the end of the
node, with self loops redirected to the new parts. -/
def reroute_end (node : Node) (parts : List Node) (e : Int × Bool) : Int × Bool :=
  if e.1 = node.id then
    if e.2 then ((parts.getLastD ⟨0, []⟩).id, e.2) else ((parts.headD ⟨0, []⟩).id, e.2)
  else e

/-- The set `edges_to_create` of `VG::divide_node`. -/
def edges_to_create_of (g : VG) (node : Node) (parts : List Node) :
    List ((Int × Bool) × (Int × Bool)) :=
  (edges_end g node.id).foldl
    (fun s e => set_insert id_bool_pair_lt
      (((parts.getLastD ⟨0, []⟩).id, false), reroute_end node parts e) s)
    ((edges_start g node.id).foldl
      (fun s e => set_insert id_bool_pair_lt
        (reroute_start node parts e, ((parts.headD ⟨0, []⟩).id, false)) s)
      [])

/-- The loop of `VG::divide_node` that creates the edges of `edges_to_create`. -/
def create_edges (g : VG) (edges_to_create : List ((Int × Bool) × (Int × Bool))) : VG :=
  edges_to_create.foldl (fun g e => (create_edge g e.1.1 e.2.1 e.1.2 e.2.2).1) g

/-- The loop of `VG::divide_node` that connects the parts left to right by
edges from end to start. -/
def connect_parts (g : VG) : List Node → VG
  | a :: b :: rest => connect_parts (create_edge g a.id b.id false false).1 (b :: rest)
  | _ => g

/-- The first part of `VG::divide_node`, after the range check: the new nodes
are created, one per position and one for the remaining sequence, and
appended to `parts`. -/
def make_parts (g : VG) (node : Node) (positions : List Int) (parts : List Node) :
    VG × List Node :=
  let r := create_parts node positions 0 g parts
  let last := create_node r.1 (node.sequence.drop r.2.1.toNat) 0
  (last.1, r.2.2 ++ [last.2])

/-- The second part of `VG::divide_node`: the edges of `edges_to_create` are
created, then the parts are connected left to right. -/
def wire_parts (g : VG) (node : Node) (parts : List Node) : VG :=
  connect_parts (create_edges g (edges_to_create_of g node parts)) parts

/-- `VG::divide_node(Node* node, vector<int> positions, vector<Node*>& parts)`:
how the call ends, the graph at that point, and the vector `parts`. -/
def divide_node (cut_mapping : Mapping → Int → Mapping × Mapping)
    (g : VG) (node : Node) (positions : List Int) (parts : List Node) :
    Outcome × VG × List Node :=
  if positions.any (fun pos => decide (pos < 0) || decide (pos > (node.sequence.length : Int)))
  then (Outcome.position_out_of_range, g, parts)
  else
    let s := make_parts g node positions parts
    let g3 := wire_parts s.1 node s.2
    let d := divide_paths cut_mapping node positions s.2 g3.paths
    let g4 := { g3 with paths := d.2 }
    if d.1 then (Outcome.returned, destroy_node g4 node, s.2)
    else (Outcome.assertion_failed, g4, s.2)

/-! ## Reference definitions taken from the spec's wording -/

/-- The substring `s[a, b)`. -/
def between (s : List Char) (a b : Int) : List Char := (s.take b.toNat).drop a.toNat

/-- The sequences `s[last, p1), s[p1, p2), ..., s[pk, |s|)` that the spec
promises for the parts of a division at `p1, ..., pk`. -/
def expected_sequences (s : List Char) : List Int → Int → List (List Char)
  | [], last => [between s last s.length]
  | p :: rest, last => between s last p :: expected_sequences s rest p

/-! ## Preconditions of node division -/

/-- Every mapping of the path index that lies on the node passes the three
assertions of `VG::divide_node` (offset 0, perfect match, full length). -/
def mappings_divisible (paths : Paths) (node : Node) : Prop :=
  ∀ p ∈ paths, ∀ m ∈ p.2, m.position.node_id = node.id → divide_assertions node m = true

/-! ## Consistency of the edge store with its indexes -/

/-- The entries that `VG::index_edge_by_node_sides` appends to the start list
of node `n` when it indexes `e`. -/
def start_entries (e : Edge) (n : Int) : List (Int × Bool) :=
  (if e.from_start = true ∧ e.from_ = n then [(e.to_, e.from_start != e.to_end)] else []) ++
  (if (e.from_ ≠ e.to_ ∨ e.from_start = e.to_end) ∧ e.to_end = false ∧ e.to_ = n
    then [(e.from_, e.from_start != e.to_end)] else [])

/-- The entries that `VG::index_edge_by_node_sides` appends to the end list
of node `n` when it indexes `e`. -/
def end_entries (e : Edge) (n : Int) : List (Int × Bool) :=
  (if e.from_start = false ∧ e.from_ = n then [(e.to_, e.from_start != e.to_end)] else []) ++
  (if (e.from_ ≠ e.to_ ∨ e.from_start = e.to_end) ∧ e.to_end = true ∧ e.to_ = n
    then [(e.from_, e.from_start != e.to_end)] else [])

/-- The edge store and the indexes built on it agree: `edge_by_sides` maps
exactly the side pairs of the stored edges to these edges, no edge is stored
twice, `edge_index` gives the position of every stored edge, and the side
lists hold, without repetition, exactly the entries that stand for an indexed
side pair. -/
structure edges_consistent (g : VG) : Prop where
  by_sides_sound : ∀ p e, map_find g.edge_by_sides p = some e →
    e ∈ g.edge ∧ pair_from_edge e = p
  by_sides_complete : ∀ e ∈ g.edge, map_find g.edge_by_sides (pair_from_edge e) = some e
  edge_nodup : g.edge.Nodup
  edge_index_ok : ∀ e ∈ g.edge, ∃ i, map_find g.edge_index e = some i ∧ g.edge.get? i = some e
  start_nodup : ∀ n, (edges_start g n).Nodup
  start_iff : ∀ n x, x ∈ edges_start g n ↔
    (map_find g.edge_by_sides (pair_from_start_edge n x)).isSome = true
  end_nodup : ∀ n, (edges_end g n).Nodup
  end_iff : ∀ n x, x ∈ edges_end g n ↔
    (map_find g.edge_by_sides (pair_from_end_edge n x)).isSome = true

/-- The node store and the indexes built on it agree: `node_by_id` maps exactly
the ids of the stored nodes to these nodes, no node is stored twice, and
`node_index` gives the position of every stored node. -/
structure nodes_consistent (g : VG) : Prop where
  by_id_sound : ∀ id nd, map_find g.node_by_id id = some nd → nd ∈ g.node ∧ nd.id = id
  by_id_complete : ∀ nd ∈ g.node, map_find g.node_by_id nd.id = some nd
  node_nodup : g.node.Nodup
  node_index_ok : ∀ nd ∈ g.node, ∃ i, map_find g.node_index nd = some i ∧ g.node.get? i = some nd

/-! ## Sequences of mutator calls -/

/-- A call of one of the mutators of the node/edge store. -/
inductive Mutation where
  | create_node (seq : List Char) (id : Int)
  | create_edge (from_ to_ : Int) (from_start to_end : Bool)
  | destroy_edge (side1 side2 : NodeSide)
  | destroy_node (node : Node)
  | destroy_node_id (id : Int)

/-- The graph after one mutator call; `none` when `VG::destroy_node(id_t)` is
called with an id that `get_node` does not find (it throws). -/
def apply_mutation (g : VG) : Mutation → Option VG
  | Mutation.create_node seq id => some (create_node g seq id).1
  | Mutation.create_edge a b fs te => some (create_edge g a b fs te).1
  | Mutation.destroy_edge s1 s2 => some (destroy_edge g s1 s2)
  | Mutation.destroy_node node => some (destroy_node g node)
  | Mutation.destroy_node_id id => (get_node g id).map (destroy_node g)

/-- The graph after a sequence of mutator calls. -/
def run_mutations : List Mutation → VG → Option VG
  | [], g => some g
  | m :: rest, g => (apply_mutation g m).bind (run_mutations rest)

/-- Edge `e` is incident to the start side of node `n`, its other endpoint lies
on node `m`, and `r` is its relative-orientation flag `from_start != to_end`. -/
def incident_start (e : Edge) (n m : Int) (r : Bool) : Bool :=
  ((decide (e.from_ = n) && e.from_start && decide (e.to_ = m))
    || (decide (e.to_ = n) && !e.to_end && decide (e.from_ = m)))
  && (r == (e.from_start != e.to_end))

/-- Edge `e` is incident to the end side of node `n`, its other endpoint lies
on node `m`, and `r` is its relative-orientation flag `from_start != to_end`. -/
def incident_end (e : Edge) (n m : Int) (r : Bool) : Bool :=
  ((decide (e.from_ = n) && !e.from_start && decide (e.to_ = m))
    || (decide (e.to_ = n) && e.to_end && decide (e.from_ = m)))
  && (r == (e.from_start != e.to_end))

/-! ## Rebuilding the edge indexes -/

/-- `VG::clear_edge_indexes` (and its `_no_resize` variant). -/
def clear_edge_indexes (g : VG) : VG :=
  { g with edge_by_sides := [], edge_index := [], edges_on_start := [], edges_on_end := [] }

/-- The loop of `VG::build_edge_indexes`, at edge number `i`. -/
def build_edge_indexes_loop (g : VG) : List Edge → Nat → VG
  | [], _ => g
  | e :: rest, i =>
    build_edge_indexes_loop (set_edge { g with edge_index := map_insert g.edge_index e i } e)
      rest (i + 1)

/-- `VG::build_edge_indexes`. -/
def build_edge_indexes (g : VG) : VG := build_edge_indexes_loop g g.edge 0

/-- `VG::rebuild_edge_indexes`. -/
def rebuild_edge_indexes (g : VG) : VG := build_edge_indexes (clear_edge_indexes g)

/-- The body of the loop of `VG::flip_doubly_reversed_edges` on one edge. -/
def flip_edge (e : Edge) : Edge :=
  if e.from_start && e.to_end then
    { from_ := e.to_, to_ := e.from_, from_start := false, to_end := false }
  else e

/-- `VG::flip_doubly_reversed_edges`. -/
def flip_doubly_reversed_edges (g : VG) : VG :=
  rebuild_edge_indexes { g with edge := g.edge.map flip_edge }

/-! ## Fresh ids -/

/-- The id that the next call of `create_node` without an id gives to its node. -/
def next_id (g : VG) : Int :=
  if g.current_id = 1 then max_node_id g + 1 else g.current_id

/-- The id counter is ahead of every id in use: the counter is at least its
initial value 1, and every id found in `node_by_id` or on a side of an indexed
edge is below the next id that `create_node` allocates. -/
def allocator_fresh (g : VG) : Prop :=
  1 ≤ g.current_id
  ∧ (∀ id nd, map_find g.node_by_id id = some nd → id < next_id g)
  ∧ (∀ p e, map_find g.edge_by_sides p = some e → p.1.node < next_id g ∧ p.2.node < next_id g)

/-- The pairs of consecutive elements of a list. -/
def adjacent_pairs {α : Type} (l : List α) : List (α × α) := l.zip l.tail

/-- The nodes of the list carry the consecutive ids `c`, `c + 1`, ... -/
def ids_from (c : Int) : List Node → Prop
  | [] => True
  | a :: rest => a.id = c ∧ ids_from (c + 1) rest

/-! ## Sample graphs -/

/-- The graph with the nodes 1 = `AC`, 2 = `GTAC`, 3 = `T` and the plain edges
from node 1 to node 2 and from node 2 to node 3. -/
def chain_graph : VG :=
  (create_edge
    (create_edge
      (create_node (create_node (create_node VG.empty "AC".toList 0).1 "GTAC".toList 0).1
        "T".toList 0).1
      1 2 false false).1
    2 3 false false).1

/-! ## Adding records: `add_node`, `add_edge`, `extend` -/

/-- `VG::add_node(const Node&)`. -/
def add_node (g : VG) (node : Node) : VG :=
  if !has_node g node.id then
    let g1 := { g with node := g.node ++ [node] }
    let g2 := { g1 with node_by_id := map_insert g1.node_by_id node.id node }
    { g2 with node_index := map_insert g2.node_index node (g2.node.length - 1) }
  else g

/-- `VG::add_edge(const Edge&)`. -/
def add_edge (g : VG) (edge : Edge) : VG :=
  if !has_edge_rec g edge then
    let g1 := { g with edge := g.edge ++ [edge] }
    let g2 := set_edge g1 edge
    { g2 with edge_index := map_insert g2.edge_index edge (g2.edge.length - 1) }
  else g

/-- The first loop of `VG::extend`: a node with id 0 is skipped with a warning,
a node whose id is present is skipped, any other node is added. -/
def extend_nodes (g : VG) (nodes : List Node) : VG :=
  nodes.foldl (fun g n => if n.id = 0 then g else if !has_node g n.id then add_node g n else g) g

/-- The second loop of `VG::extend`. -/
def extend_edges (g : VG) (edges : List Edge) : VG :=
  edges.foldl (fun g e => if !has_edge_rec g e then add_edge g e else g) g

/-- `VG::extend(VG& g, bool warn_on_duplicates)`.  The last statement is
`paths.append(g.paths)`; class `Paths` is not under `src/` and its `append` is
the parameter `paths_append`. -/
def extend (paths_append : Paths → Paths → Paths) (g other : VG) : VG :=
  let g1 := extend_edges (extend_nodes g other.node) other.edge
  { g1 with paths := paths_append g1.paths other.paths }

/-! ## Rebuilding all indexes and compacting the ids -/

/-- `VG::clear_node_indexes` (and its `_no_resize` variant). -/
def clear_node_indexes (g : VG) : VG := { g with node_index := [], node_by_id := [] }

/-- The loop of `VG::build_node_indexes`, at node number `i`. -/
def build_node_indexes_loop (g : VG) : List Node → Nat → VG
  | [], _ => g
  | n :: rest, i =>
    let g1 := { g with node_index := map_insert g.node_index n i }
    build_node_indexes_loop { g1 with node_by_id := map_insert g1.node_by_id n.id n } rest (i + 1)

/-- `VG::build_node_indexes`. -/
def build_node_indexes (g : VG) : VG := build_node_indexes_loop g g.node 0

/-- `VG::rebuild_indexes`: `clear_indexes_no_resize`, `build_indexes`, then
`paths.rebuild_node_mapping()`, which rebuilds the inverse index of class
`Paths` and leaves the path lists as they are. -/
def rebuild_indexes (g : VG) : VG :=
  build_edge_indexes (build_node_indexes (clear_edge_indexes (clear_node_indexes g)))

/-- The C++ `m[k]` on a `hash_map<id_t, id_t>` read as a value: the stored
value, or 0 after the default entry has been inserted. -/
def id_map_at (m : List (Int × Int)) (k : Int) : Int := (map_find m k).getD 0

/-- The map after the C++ expression `m[k]`: an absent key gets the value 0. -/
def id_map_touch (m : List (Int × Int)) (k : Int) : List (Int × Int) :=
  match map_find m k with
  | some _ => m
  | none => map_insert m k 0

/-- The first loop of `VG::compact_ids`: `new_id[n->id()] = id++` for the
nodes in store order; the state is the map and the counter `id`. -/
def assign_new_ids (nodes : List Node) (new_id : List (Int × Int)) (id : Int) :
    List (Int × Int) × Int :=
  nodes.foldl (fun s n => (map_insert s.1 n.id s.2, s.2 + 1)) (new_id, id)

/-- The second loop of `VG::compact_ids`: `n->set_id(new_id[n->id()])`. -/
def renumber_nodes (new_id : List (Int × Int)) (nodes : List Node) : List Node :=
  nodes.map (fun n => { n with id := id_map_at new_id n.id })

/-- The third loop of `VG::compact_ids` on one edge:
`e->set_from(new_id[e->from()]); e->set_to(new_id[e->to()])`. -/
def renumber_edge (new_id : List (Int × Int)) (e : Edge) : Edge × List (Int × Int) :=
  let m1 := id_map_touch new_id e.from_
  let e1 := { e with from_ := id_map_at new_id e.from_ }
  ({ e1 with to_ := id_map_at m1 e1.to_ }, id_map_touch m1 e1.to_)

/-- The third loop of `VG::compact_ids`. -/
def renumber_edges (new_id : List (Int × Int)) : List Edge → List Edge × List (Int × Int)
  | [] => ([], new_id)
  | e :: rest =>
    let r := renumber_edge new_id e
    let r2 := renumber_edges r.2 rest
    (r.1 :: r2.1, r2.2)

/-- Modelled from the spec: `Paths::swap_node_ids` (class `Paths` is not under
`src/`), the bulk rewrite of the mappings for compaction: the node id of a
mapping is replaced by its image when the map has one. -/
def swap_node_ids (new_id : List (Int × Int)) (paths : Paths) : Paths :=
  paths.map (fun p => (p.1, p.2.map (fun m =>
    match map_find new_id m.position.node_id with
    | some id => { m with position := { m.position with node_id := id } }
    | none => m)))

/-- `VG::compact_ids`. -/
def compact_ids (g : VG) : VG :=
  let new_id := (assign_new_ids g.node [] 1).1
  let g1 := { g with node := renumber_nodes new_id g.node }
  let r := renumber_edges new_id g1.edge
  let g2 := { g1 with edge := r.1 }
  rebuild_indexes { g2 with paths := swap_node_ids r.2 g2.paths }

/-! ## The validity audit -/

/-- The checks that `VG::is_valid` makes on one stored edge: both endpoints
are in the id index, and each endpoint has a list in one of the side indexes. -/
def valid_edge (g : VG) (e : Edge) : Bool :=
  if (map_find g.node_by_id e.from_).isNone then false
  else if (map_find g.node_by_id e.to_).isNone then false
  else if (map_find g.edges_on_start e.from_).isNone && (map_find g.edges_on_end e.from_).isNone
    then false
  else if (map_find g.edges_on_start e.to_).isNone && (map_find g.edges_on_end e.to_).isNone
    then false
  else true

/-- The checks that `VG::is_valid` makes on one entry `edge_destination` of
the start list of node `first`. -/
def valid_start_entry (g : VG) (first : Int) (edge_destination : Int × Bool) : Bool :=
  match get_edge g (pair_from_start_edge first edge_destination).1
      (pair_from_start_edge first edge_destination).2 with
  | none => false
  | some e =>
    if first ≠ e.to_ ∧ first ≠ e.from_ then false
    else if edge_destination.1 ≠ e.to_ ∧ edge_destination.1 ≠ e.from_ then false
    else if ¬ ((first = e.to_ ∧ e.to_end = false) ∨ (first = e.from_ ∧ e.from_start = true))
      then false
    else if !has_node g e.from_ then false
    else if !has_node g e.to_ then false
    else true

/-- The checks that `VG::is_valid` makes on one entry `edge_destination` of
the end list of node `first`. -/
def valid_end_entry (g : VG) (first : Int) (edge_destination : Int × Bool) : Bool :=
  match get_edge g (pair_from_end_edge first edge_destination).1
      (pair_from_end_edge first edge_destination).2 with
  | none => false
  | some e =>
    if first ≠ e.to_ ∧ first ≠ e.from_ then false
    else if edge_destination.1 ≠ e.to_ ∧ edge_destination.1 ≠ e.from_ then false
    else if ¬ ((first = e.to_ ∧ e.to_end = true) ∨ (first = e.from_ ∧ e.from_start = false))
      then false
    else if !has_node g e.from_ then false
    else if !has_node g e.to_ then false
    else true

/-- `VG::is_valid(check_nodes, check_edges, check_paths, check_orphans)` with
`check_paths = false` (the flag `check_orphans` is not read by the code).  The
size of a map is the number of its entries. -/
def is_valid (g : VG) (check_nodes check_edges : Bool) : Bool :=
  if check_nodes && (decide (g.node_by_id.length ≠ g.node.length)
      || !(g.node.all (fun n => (map_find g.node_by_id n.id).isSome))) then false
  else if check_edges && !(g.edge.all (valid_edge g)) then false
  else if check_edges
      && !(g.edges_on_start.all (fun kv => kv.2.all (valid_start_entry g kv.1))) then false
  else if check_edges
      && !(g.edges_on_end.all (fun kv => kv.2.all (valid_end_entry g kv.1))) then false
  else true

/-- A map holds at most one entry per key. -/
def keys_nodup {κ ν : Type} (m : List (κ × ν)) : Prop := (m.map (fun p => p.1)).Nodup

/-- The stores and all their indexes agree, no key occurs twice in the id
index or in a side index, no side list is empty, and the endpoints of every
stored edge are in the id index. -/
structure store_consistent (g : VG) : Prop where
  edges_ok : edges_consistent g
  nodes_ok : nodes_consistent g
  by_id_keys : keys_nodup g.node_by_id
  start_keys : keys_nodup g.edges_on_start
  end_keys : keys_nodup g.edges_on_end
  endpoints : ∀ e ∈ g.edge, has_node g e.from_ = true ∧ has_node g e.to_ = true

/-- The id counter is ahead of the stored nodes: it is at least its initial
value 1, and every stored node has an id below the next id that `create_node`
allocates. -/
def counter_ahead (g : VG) : Prop :=
  1 ≤ g.current_id ∧ ∀ nd ∈ g.node, nd.id < next_id g

/-! ## Removing null nodes with forwarding of their edges -/

/-- The set `edges_to_create` of `VG::remove_node_forwarding_edges`: the cross
product of the start list and the end list of the node. -/
def forwarding_edges_of (g : VG) (id : Int) : List ((Int × Bool) × (Int × Bool)) :=
  (edges_start g id).foldl
    (fun s start_pair =>
      (edges_end g id).foldl
        (fun s end_pair => set_insert id_bool_pair_lt (start_pair, end_pair) s) s)
    []

/-- The first part of `VG::remove_node_forwarding_edges`: the edges of the
cross product are created (the loop has the body of the loop `create_edges`). -/
def forward_edges (g : VG) (node : Node) : VG :=
  create_edges g (forwarding_edges_of g node.id)

/-- Modelled from the spec: `Paths::get_node_mapping` and
`Paths::remove_mapping` are not under `src/`; the block
`// remove the node from paths` removes every mapping that lies on the node. -/
def remove_node_mappings (paths : Paths) (id : Int) : Paths :=
  paths.map (fun p => (p.1, p.2.filter (fun m => decide (m.position.node_id ≠ id))))

/-- `VG::remove_node_forwarding_edges(Node*)`. -/
def remove_node_forwarding_edges (g : VG) (node : Node) : VG :=
  let g1 := forward_edges g node
  destroy_node { g1 with paths := remove_node_mappings g1.paths node.id } node

/-- The numbering of the mappings of one path by `compact_ranks`. -/
def rank_from : Int → List Mapping → List Mapping
  | _, [] => []
  | r, m :: rest => { m with rank := r } :: rank_from (r + 1) rest

/-- Modelled from the spec: `Paths::compact_ranks` (class `Paths` is not under
`src/`) renumbers the ranks of every path 1..n preserving the order. -/
def compact_ranks (paths : Paths) : Paths := paths.map (fun p => (p.1, rank_from 1 p.2))

/-- `VG::remove_null_nodes_forwarding_edges`. -/
def remove_null_nodes_forwarding_edges (g : VG) : VG :=
  let to_remove := g.node.filter (fun node => decide (node.sequence.length = 0))
  let g1 := to_remove.foldl remove_node_forwarding_edges g
  { g1 with paths := compact_ranks g1.paths }

/-- The graph with the nodes 1 = `A`, 2 = the empty sequence, 3 = `C` and the
plain edges from node 1 to node 2 and from node 2 to node 3. -/
def null_graph : VG :=
  (create_edge
    (create_edge
      (create_node (create_node (create_node VG.empty "A".toList 0).1 [] 0).1 "C".toList 0).1
      1 2 false false).1
    2 3 false false).1

/-! ## Simple components: the walk to the left -/

/-- `VG::edges_of_node(Node*, vector<Edge*>&)`; `none` stands for `exit(1)`
after the message `nonexistent start edge` or `nonexistent end edge`. -/
def edges_of_node (g : VG) (node : Node) : Option (List Edge) :=
  let on_start := (edges_start g node.id).map
    (fun off_start => map_find g.edge_by_sides (pair_from_start_edge node.id off_start))
  let on_end := (edges_end g node.id).map
    (fun off_end => map_find g.edge_by_sides (pair_from_end_edge node.id off_end))
  if on_start.all Option.isSome && on_end.all Option.isSome then
    some (on_start.filterMap id ++
      (on_end.filterMap id).filter
        (fun edge => !(decide (edge.from_ = edge.to_) && (edge.from_start == edge.to_end))))
  else none

/-- `VG::sides_to(NodeSide)`; `none` when `get_node` throws or `edges_of_node`
exits. -/
def sides_to (g : VG) (side : NodeSide) : Option (List NodeSide) :=
  match get_node g side.node with
  | none => none
  | some node =>
    match edges_of_node g node with
    | none => none
    | some edges =>
      some (edges.foldl
        (fun other_sides edge =>
          if edge.to_ = side.node ∧ edge.to_end = side.is_end
          then set_insert NodeSide.lt ⟨edge.from_, !edge.from_start⟩ other_sides
          else other_sides) [])

/-- `VG::start_degree(Node*)`. -/
def start_degree (g : VG) (node : Node) : Nat := (edges_start g node.id).length

/-- `VG::end_degree(Node*)`. -/
def end_degree (g : VG) (node : Node) : Nat := (edges_end g node.id).length

/-- Modelled from the spec: `Paths::get_node_mapping` (class `Paths` is not
under `src/`), the inverse index from a node to the mappings on it, per path
name: the paths that have a mapping on the node, each with these mappings. -/
def get_node_mapping (paths : Paths) (id : Int) : List (String × List Mapping) :=
  paths.filterMap (fun p =>
    let ms := p.2.filter (fun m => decide (m.position.node_id = id))
    if ms.isEmpty then none else some (p.1, ms))

/-- Modelled from the spec: `Paths::of_node` (class `Paths` is not under
`src/`): the paths on a node with the count of their traversals of it. -/
def of_node (paths : Paths) (id : Int) : List (String × Nat) :=
  (get_node_mapping paths id).map (fun p => (p.1, p.2.length))

/-- `VG::mapping_is_total_match`; `mapping_is_simple_match` is declared outside
`src/` and is a parameter, and `none` stands for the throw of `get_node`. -/
def mapping_is_total_match (simple_match : Mapping → Bool) (g : VG) (m : Mapping) :
    Option Bool :=
  if simple_match m then
    match get_node g m.position.node_id with
    | none => none
    | some node => some (decide (from_length m = (node.sequence.length : Int)))
  else some false

/-- The check of `VG::nodes_are_perfect_path_neighbors` that every mapping of
the first node, in rank order, is followed (forward) or preceded (reverse) in
rank by a mapping of the second node with the same orientation; the matched
mappings of the second node are erased, and the rest is returned. -/
def match_ranks : List Mapping → List Mapping → Option (List Mapping)
  | [], ranked2 => some ranked2
  | m :: rest, ranked2 =>
    let wanted := m.rank + (if !m.position.is_reverse then 1 else -1)
    match ranked2.find? (fun m2 => decide (m2.rank = wanted)) with
    | none => none
    | some f =>
      if f.position.is_reverse ≠ m.position.is_reverse then none
      else match_ranks rest (ranked2.filter (fun m2 => decide (m2.rank ≠ wanted)))

/-- The map `r[name]` of `VG::nodes_are_perfect_path_neighbors`: the mappings
of one path on a node keyed by rank, kept as a list in rank order with one
mapping per rank (a later mapping of the same rank replaces the earlier). -/
def by_rank (ms : List Mapping) : List Mapping :=
  ms.foldl (fun r m =>
    set_insert (fun a b => decide (a.rank < b.rank)) m
      (r.filter (fun m2 => decide (m2.rank ≠ m.rank)))) []

/-- `VG::nodes_are_perfect_path_neighbors(id1, id2)`; `none` stands for a
throw of `get_node`. -/
def nodes_are_perfect_path_neighbors (simple_match : Mapping → Bool) (g : VG)
    (id1 id2 : Int) : Option Bool :=
  if of_node g.paths id1 ≠ of_node g.paths id2 then some false
  else
    let m1 := get_node_mapping g.paths id1
    let m2 := get_node_mapping g.paths id2
    let all_total := fun (ms : List (String × List Mapping)) =>
      (ms.flatMap (fun p => p.2)).foldl
        (fun (acc : Option Bool) m =>
          match acc with
          | some true => mapping_is_total_match simple_match g m
          | other => other) (some true)
    match all_total m1 with
    | none => none
    | some false => some false
    | some true =>
      match all_total m2 with
      | none => none
      | some false => some false
      | some true =>
        let matched := m1.map (fun p =>
          match_ranks (by_rank p.2) (by_rank ((map_find m2 p.1).getD [])))
        some (matched.all (fun r => r == some []))

/-- The state of the block `// go left` of `VG::simple_components`: the node
`l`, the set `sides`, the list `c` built so far and the set `seen`. -/
structure LeftWalk where
  l : Node
  sides : List NodeSide
  c : List Node
  seen : List Node
deriving DecidableEq

/-- How one test and one pass of the loop of the block `// go left` end. -/
inductive WalkStep where
  | running (w : LeftWalk)
  | finished (w : LeftWalk)
  | thrown
deriving DecidableEq

/-- The loop condition of the block `// go left`, then its body when the
condition holds.  The walk is finished when the condition fails or the body
breaks, and thrown when `get_node` throws or `edges_of_node` exits. -/
def go_left_step (simple_match : Mapping → Bool) (g : VG) (w : LeftWalk) : WalkStep :=
  match w.sides with
  | [first] =>
    if start_degree g w.l = 1 then
      match get_node g first.node with
      | none => WalkStep.thrown
      | some left =>
        if end_degree g left = 1 ∧ first.is_end = true then
          let last_id := w.l.id
          let seen := if left ∈ w.seen then w.seen else left :: w.seen
          match nodes_are_perfect_path_neighbors simple_match g left.id last_id with
          | none => WalkStep.thrown
          | some false => WalkStep.finished { w with l := left, seen := seen }
          | some true =>
            match sides_to g ⟨left.id, false⟩ with
            | none => WalkStep.thrown
            | some sides =>
              WalkStep.running { l := left, sides := sides, c := left :: w.c, seen := seen }
        else WalkStep.finished w
    else WalkStep.finished w
  | _ => WalkStep.finished w

/-- The block `// go left` after at most `n` passes of its loop: `running`
when the loop has made `n` passes and has not been left. -/
def go_left_passes (simple_match : Mapping → Bool) (g : VG) : Nat → LeftWalk → WalkStep
  | 0, w => WalkStep.running w
  | n + 1, w =>
    match go_left_step simple_match g w with
    | WalkStep.running w2 => go_left_passes simple_match g n w2
    | r => r

/-- The state in which `VG::simple_components` enters the block `// go left`
for the node `n`, with the set `seen` after `seen.insert(n)`; `none` when
`sides_to` does not return. -/
def go_left_start (g : VG) (n : Node) (seen : List Node) : Option LeftWalk :=
  (sides_to g ⟨n.id, false⟩).map
    (fun sides => { l := n, sides := sides, c := [], seen := n :: seen })

/-- The graph with the single node 1 = `A` and the plain self loop from the
end of node 1 to its start, without paths. -/
def loop_graph : VG := (create_edge (create_node VG.empty "A".toList 0).1 1 1 false false).1

/-! ## Breakpoints -/

/-- Modelled from the spec: type `pos_t` is declared in a header that is not
under `src/`; a position is a node id, a strand flag and an offset
(spec section 3: position = (node-id, orientation, offset)). -/
structure pos_t where
  id : Int
  is_rev : Bool
  offset : Int
deriving DecidableEq, Repr

/-- Modelled from the spec: `operator<` of `pos_t` (header not under `src/`),
the lexicographic order on (id, strand, offset) with forward before reverse. -/
def pos_t.lt (a b : pos_t) : Bool :=
  decide (a.id < b.id) || (decide (a.id = b.id) &&
    ((!a.is_rev && b.is_rev) || ((a.is_rev == b.is_rev) && decide (a.offset < b.offset))))

/-- Modelled from the spec: `make_pos_t(const Position&)` (header not under
`src/`). -/
def make_pos_t (p : Position) : pos_t := ⟨p.node_id, p.is_reverse, p.offset⟩

/-- Modelled from the spec: `make_position(const pos_t&)` (header not under
`src/`). -/
def make_position (p : pos_t) : Position := ⟨p.id, p.offset, p.is_rev⟩

/-- Modelled from the spec: `reverse(const pos_t&, size_t node_length)` (header
not under `src/`): the same point seen from the other strand of a node of the
given length (spec section 4.4: reverse-strand positions are canonicalized to
forward). -/
def reverse (pos : pos_t) (node_length : Int) : pos_t :=
  ⟨pos.id, !pos.is_rev, node_length - pos.offset⟩

/-- The conversion of an `id_t` value to the `int` parameter of
`divide_node(Node*, int, Node*&, Node*&)`. -/
def to_int (x : Int) : Int := (x + 2 ^ 31) % 2 ^ 32 - 2 ^ 31

/-- `VG::divide_node(Node* node, int pos, Node*& left, Node*& right)`: the
graph and the nodes `left` and `right`, or `none` when the division does not
return. -/
def divide_node_at (cut_mapping : Mapping → Int → Mapping × Mapping) (g : VG) (node : Node)
    (pos : Int) : Option (VG × Node × Node) :=
  let r := divide_node cut_mapping g node [pos] []
  if r.1 = Outcome.returned then
    some (r.2.1, r.2.2.headD ⟨0, []⟩, r.2.2.getLastD ⟨0, []⟩)
  else none

/-- The variables of the loop of `VG::ensure_breakpoints` over the
breakpoints of one node, with the graph and the map `toReturn`. -/
structure BreakState where
  g : VG
  toReturn : List (pos_t × Option Node)
  right_part : Node
  left_part : Option Node
  last_bp : pos_t
  current_offset : Int

/-- The body of the loop of `VG::ensure_breakpoints` over the breakpoints of
one node; `none` when an assertion fails or `divide_node` does not return. -/
def ensure_breakpoint (cut_mapping : Mapping → Int → Mapping × Mapping)
    (original_node_length : Int) (s : BreakState) (breakpoint : pos_t) : Option BreakState :=
  if breakpoint.is_rev then none
  else if breakpoint.offset = 0 ∨ breakpoint.offset = original_node_length then some s
  else
    let divide_offset := breakpoint.offset - s.current_offset
    if ¬ (breakpoint.offset > 0) then none
    else if ¬ (breakpoint.offset < original_node_length) then none
    else
      match divide_node_at cut_mapping s.g s.right_part (to_int divide_offset) with
      | none => none
      | some r =>
        let t1 := map_insert s.toReturn s.last_bp (some r.2.1)
        let t2 := map_insert t1 (reverse breakpoint original_node_length) (some r.2.1)
        some { g := r.1, toReturn := t2, right_part := r.2.2, left_part := some r.2.1,
               last_bp := breakpoint, current_offset := s.current_offset + divide_offset }

/-- The loop of `VG::ensure_breakpoints` over the breakpoints of one node. -/
def ensure_breakpoint_loop (cut_mapping : Mapping → Int → Mapping × Mapping)
    (original_node_length : Int) : BreakState → List pos_t → Option BreakState
  | s, [] => some s
  | s, breakpoint :: rest =>
    match ensure_breakpoint cut_mapping original_node_length s breakpoint with
    | none => none
    | some s2 => ensure_breakpoint_loop cut_mapping original_node_length s2 rest

/-- The body of the outer loop of `VG::ensure_breakpoints`: the breakpoints
`kv.2` of the node `kv.1`, in ascending order; `none` when `get_node` throws,
an assertion fails or `divide_node` does not return. -/
def ensure_node_breakpoints (cut_mapping : Mapping → Int → Mapping × Mapping)
    (g : VG) (toReturn : List (pos_t × Option Node)) (kv : Int × List pos_t) :
    Option (VG × List (pos_t × Option Node)) :=
  match get_node g kv.1 with
  | none => none
  | some node =>
    let original_node_length : Int := node.sequence.length
    match ensure_breakpoint_loop cut_mapping original_node_length
        { g := g, toReturn := toReturn, right_part := node, left_part := none,
          last_bp := ⟨kv.1, false, 0⟩, current_offset := 0 } kv.2 with
    | none => none
    | some s =>
      let t1 := map_insert s.toReturn s.last_bp (some s.right_part)
      let t2 := map_insert t1 ⟨kv.1, true, 0⟩ (some s.right_part)
      let t3 := map_insert t2 ⟨kv.1, true, original_node_length⟩ none
      some (s.g, map_insert t3 ⟨kv.1, false, original_node_length⟩ none)

/-- The outer loop of `VG::ensure_breakpoints`. -/
def ensure_breakpoints_loop (cut_mapping : Mapping → Int → Mapping × Mapping) :
    VG → List (pos_t × Option Node) → List (Int × List pos_t) →
    Option (VG × List (pos_t × Option Node))
  | g, toReturn, [] => some (g, toReturn)
  | g, toReturn, kv :: rest =>
    match ensure_node_breakpoints cut_mapping g toReturn kv with
    | none => none
    | some r => ensure_breakpoints_loop cut_mapping r.1 r.2 rest

/-- `VG::ensure_breakpoints`: the graph after the call and the returned map
from positions on the original nodes to the new nodes (`none` is the null
pointer); the breakpoints are given per node in ascending order of node id,
each set in ascending order. -/
def ensure_breakpoints (cut_mapping : Mapping → Int → Mapping × Mapping) (g : VG)
    (breakpoints : List (Int × List pos_t)) : Option (VG × List (pos_t × Option Node)) :=
  ensure_breakpoints_loop cut_mapping g [] breakpoints

/-- The offsets strictly inside a node of length `n` among the breakpoints. -/
def inner_offsets (n : Int) (breakpoints : List pos_t) : List Int :=
  (breakpoints.map (fun b => b.offset)).filter (fun b => decide (0 < b) && decide (b < n))

/-- The conditions under which the loop of `ensure_breakpoints` over the
breakpoints of one node keeps going. -/
structure break_inv (g0 : VG) (i : Int) (S : List Char) (s : BreakState) : Prop where
  store : store_consistent s.g
  ahead : counter_ahead s.g
  right_mem : s.right_part ∈ s.g.node
  right_seq : s.right_part.sequence = S.drop s.current_offset.toNat
  last : s.last_bp = ⟨i, false, s.current_offset⟩
  offset_lo : 0 ≤ s.current_offset
  offset_hi : s.current_offset = 0 ∨ s.current_offset < (S.length : Int)
  paths_eq : s.g.paths = g0.paths
  next_ge : next_id g0 ≤ next_id s.g
  right_free : ∀ p ∈ g0.paths, ∀ m ∈ p.2, m.position.node_id ≠ s.right_part.id

/-! ## Topological sort -/

/-- Modelled from the spec: type `NodeTraversal` is declared in a header that
is not under `src/`; a node traversal is a node handle with an orientation
(spec section 3). -/
structure NodeTraversal where
  node : Node
  backward : Bool
deriving DecidableEq, Repr

/-- The list of the values when none is missing. -/
def all_some {α : Type} : List (Option α) → Option (List α)
  | [] => some []
  | none :: _ => none
  | some a :: rest =>
    match all_some rest with
    | none => none
    | some l => some (a :: l)

/-- `VG::nodes_prev(NodeTraversal, vector<NodeTraversal>&)`; `none` when
`get_node` throws. -/
def nodes_prev (g : VG) (node : NodeTraversal) : Option (List NodeTraversal) :=
  let left_nodes := if node.backward then edges_end g node.node.id else edges_start g node.node.id
  all_some (left_nodes.map (fun prev =>
    (get_node g prev.1).map (fun nd => (⟨nd, prev.2 != node.backward⟩ : NodeTraversal))))

/-- `VG::nodes_next(NodeTraversal, vector<NodeTraversal>&)`; `none` when
`get_node` throws. -/
def nodes_next (g : VG) (node : NodeTraversal) : Option (List NodeTraversal) :=
  let right_nodes := if node.backward then edges_start g node.node.id else edges_end g node.node.id
  all_some (right_nodes.map (fun next =>
    (get_node g next.1).map (fun nd => (⟨nd, next.2 != node.backward⟩ : NodeTraversal))))

/-- `VG::node_count_prev`; `none` when `get_node` throws. -/
def node_count_prev (g : VG) (n : NodeTraversal) : Option Nat :=
  (nodes_prev g n).map List.length

/-- `VG::get_edge(const NodeTraversal& left, const NodeTraversal& right)`. -/
def get_edge_trav (g : VG) (left right : NodeTraversal) : Option Edge :=
  get_edge g ⟨left.node.id, !left.backward⟩ ⟨right.node.id, right.backward⟩

/-- `VG::unindex_edge_by_node_sides(Edge*)`, where `none` is the `NULL`
handle. -/
def unindex_edge_ptr (g : VG) (edge : Option Edge) : VG :=
  match edge with
  | none => g
  | some e => unindex_edge_by_node_sides g e

/-- `VG::head_nodes`: the nodes without an edge on their start, in store
order. -/
def head_nodes (g : VG) : List Node := g.node.filter (fun n => decide (start_degree g n = 0))

/-- The first entry `m.begin()` of a `std::map` with integer keys: the entry
with the least key. -/
def map_begin {ν : Type} : List (Int × ν) → Option (Int × ν)
  | [] => none
  | p :: rest =>
    match map_begin rest with
    | none => some p
    | some q => if q.1 < p.1 then some q else some p

/-- The variables of `VG::topological_sort`: the graph with its edge indexes,
the maps `s`, `seeds` and `unvisited`, and the output `l`. -/
structure TopoState where
  g : VG
  s : List (Int × NodeTraversal)
  seeds : List (Int × NodeTraversal)
  unvisited : List (Int × Node)
  l : List NodeTraversal

/-- The loop `while(s.empty() && !seeds.empty())` of `VG::topological_sort`;
every pass erases one seed, and `fuel` counts the passes allowed. -/
def take_seeds : Nat → TopoState → TopoState
  | 0, st => st
  | fuel + 1, st =>
    if st.s.isEmpty then
      match map_begin st.seeds with
      | none => st
      | some first_seed =>
        let st1 :=
          if (map_find st.unvisited first_seed.2.node.id).isSome then
            { st with s := map_insert st.s first_seed.2.node.id first_seed.2,
                      unvisited := map_erase st.unvisited first_seed.2.node.id }
          else st
        take_seeds fuel { st1 with seeds := map_erase st1.seeds first_seed.1 }
    else st

/-- The loop of `VG::topological_sort` over the nodes `prev` on the left of
the node `n` taken from `s`: the edge to a node that is not unvisited is
unindexed. -/
def unindex_prev (n : NodeTraversal) (st : TopoState) (prev : List NodeTraversal) : TopoState :=
  prev.foldl
    (fun st prev_node =>
      if (map_find st.unvisited prev_node.node.id).isNone then
        { st with g := unindex_edge_ptr st.g (get_edge_trav st.g prev_node n) }
      else st) st

/-- The loop of `VG::topological_sort` over the nodes `next` on the right of
the node `n`; `none` when `get_node` throws inside `node_count_prev`. -/
def visit_next (n : NodeTraversal) : TopoState → List NodeTraversal → Option TopoState
  | st, [] => some st
  | st, next_node :: rest =>
    let st1 := { st with g := unindex_edge_ptr st.g (get_edge_trav st.g n next_node) }
    if (map_find st1.unvisited next_node.node.id).isSome then
      match node_count_prev st1.g next_node with
      | none => none
      | some count =>
        if count = 0 then
          visit_next n
            { st1 with s := map_insert st1.s next_node.node.id next_node,
                       unvisited := map_erase st1.unvisited next_node.node.id } rest
        else if (map_find st1.seeds next_node.node.id).isNone then
          visit_next n { st1 with seeds := map_insert st1.seeds next_node.node.id next_node } rest
        else visit_next n st1 rest
    else visit_next n st1 rest

/-- The loop `while (!s.empty())` of `VG::topological_sort`; `none` when
`get_node` throws or the passes allowed by `fuel` are used up. -/
def drain : Nat → TopoState → Option TopoState
  | 0, st => if st.s.isEmpty then some st else none
  | fuel + 1, st =>
    match map_begin st.s with
    | none => some st
    | some first =>
      let n := first.2
      let st1 := { st with s := map_erase st.s n.node.id, l := st.l ++ [n] }
      match nodes_prev st1.g n with
      | none => none
      | some prev =>
        let st2 := unindex_prev n st1 prev
        match nodes_next st2.g n with
        | none => none
        | some next =>
          match visit_next n st2 next with
          | none => none
          | some st3 => drain fuel st3

/-- The loop `while(!unvisited.empty())` of `VG::topological_sort`; `none`
when `get_node` throws or the passes allowed by `fuel` are used up. -/
def topological_loop : Nat → TopoState → Option TopoState
  | 0, st => if st.unvisited.isEmpty then some st else none
  | fuel + 1, st =>
    if st.unvisited.isEmpty then some st
    else
      let st1 := take_seeds st.seeds.length st
      let st2 :=
        if st1.s.isEmpty then
          match map_begin st1.unvisited with
          | none => st1
          | some first =>
            { st1 with s := map_insert st1.s first.1 ⟨first.2, false⟩,
                       unvisited := map_erase st1.unvisited first.1 }
        else st1
      match drain (st2.s.length + st2.unvisited.length) st2 with
      | none => none
      | some st3 => topological_loop fuel st3

/-- `VG::topological_sort`: the graph with its indexes rebuilt and the sorted
traversals; `none` when `get_node` throws or the call exits because edges
remain in the side indexes.  Every pass of the outer loop takes a node out of
`unvisited` and every pass of the inner loop takes one out of `s`, which gives
the numbers of passes allowed. -/
def topological_sort (g : VG) : Option (VG × List NodeTraversal) :=
  let seeds := (head_nodes g).foldl
    (fun seeds head => map_insert seeds head.id (⟨head, false⟩ : NodeTraversal)) []
  let unvisited := g.node.foldl (fun unvisited node => map_insert unvisited node.id node) []
  match topological_loop unvisited.length
      { g := g, s := [], seeds := seeds, unvisited := unvisited, l := [] } with
  | none => none
  | some st =>
    if !st.g.edges_on_start.isEmpty || !st.g.edges_on_end.isEmpty then none
    else some (rebuild_indexes st.g, st.l)

/-- `VG::swap_nodes(Node* a, Node* b)`. -/
def swap_nodes (g : VG) (a b : Node) : VG :=
  let aidx := (map_find g.node_index a).getD 0
  let g1 := if (map_find g.node_index a).isNone
    then { g with node_index := map_insert g.node_index a 0 } else g
  let bidx := (map_find g1.node_index b).getD 0
  let g2 := { g1 with node := swap_elements g1.node aidx bidx }
  let g3 := { g2 with node_index := map_insert g2.node_index a bidx }
  { g3 with node_index := map_insert g3.node_index b aidx }

/-- The loop of `VG::sort` that puts the nodes in the order of the sorted
traversals, at position `i`. -/
def sort_loop (g : VG) : Nat → List NodeTraversal → VG
  | _, [] => g
  | i, n :: rest =>
    match g.node.get? i with
    | none => g
    | some node => sort_loop (swap_nodes g node n.node) (i + 1) rest

/-- `VG::sort`; `none` when `topological_sort` does not return. -/
def sort (g : VG) : Option VG :=
  if g.node.length ≤ 1 then some g
  else
    match topological_sort g with
    | none => none
    | some r => some (sort_loop r.1 0 r.2)

/-! ## Construction from alleles -/

/-- The record `vcflib::VariantAllele` as `VG::from_alleles` reads it: the
fields `ref`, `alt` and `position`. -/
structure VariantAllele where
  ref : List Char
  alt : List Char
  position : Int
deriving DecidableEq, Repr

/-- The entry of a `std::map` with integer keys reached by
`m.upper_bound(pos)` followed by `--`: the entry with the greatest key that is
at most `pos`; `none` when the iterator decremented is `m.begin()`. -/
def map_floor {ν : Type} : List (Int × ν) → Int → Option (Int × ν)
  | [], _ => none
  | p :: rest, pos =>
    match map_floor rest pos with
    | none => if p.1 ≤ pos then some p else none
    | some q => if p.1 ≤ pos ∧ q.1 < p.1 then some p else some q

/-- The entry before the entry with key `key` in a `std::map` with integer
keys (`--` on the iterator of that entry): the entry with the greatest key
below `key`; `none` when the iterator decremented is `m.begin()`. -/
def map_pred {ν : Type} : List (Int × ν) → Int → Option (Int × ν)
  | [], _ => none
  | p :: rest, key =>
    match map_pred rest key with
    | none => if p.1 < key then some p else none
    | some q => if p.1 < key ∧ q.1 < p.1 then some p else some q

/-- The last entry `*m.rbegin()` of a `std::map` with integer keys: the entry
with the greatest key. -/
def map_rbegin {ν : Type} : List (Int × ν) → Option (Int × ν)
  | [] => none
  | p :: rest =>
    match map_rbegin rest with
    | none => some p
    | some q => if q.1 < p.1 then some p else some q

/-- Insertion of an entry into a list of entries in increasing key order. -/
def entry_insert {ν : Type} (p : Int × ν) : List (Int × ν) → List (Int × ν)
  | [] => [p]
  | q :: rest => if p.1 < q.1 then p :: q :: rest else q :: entry_insert p rest

/-- The entries of a `std::map` with integer keys in the order of a `for`
loop over it, which is the increasing key order. -/
def map_entries {ν : Type} (m : List (Int × ν)) : List (Int × ν) :=
  m.foldr entry_insert []

/-- `VG::divide_path`: the graph, the path map and the nodes `left` and
`right`; `none` when `get_node` throws or the division of the node does not
return.  Where the source decrements an iterator at `begin()` its behaviour is
undefined; the embedding gives `none` there as well, and no statement about the
code is drawn from that case. -/
def divide_path (cut_mapping : Mapping → Int → Mapping × Mapping) (g : VG)
    (path : List (Int × Int)) (pos : Int) : Option (VG × List (Int × Int) × Node × Node) :=
  match map_floor path pos with
  | none => none
  | some target =>
    let node_pos := target.1
    match get_node g target.2 with
    | none => none
    | some old =>
      if node_pos = pos then
        match map_pred path target.1 with
        | none => none
        | some n =>
          match get_node g n.2 with
          | none => none
          | some left => some (g, path, left, old)
      else
        let diff := to_int (pos - node_pos)
        match divide_node_at cut_mapping g old diff with
        | none => none
        | some r =>
          some (r.1, map_insert (map_insert path node_pos r.2.1.id) pos r.2.2.id, r.2.1, r.2.2)

/-- Modelled from the spec: `Paths::append_mapping(name, mapping)` (class
`Paths` is not under `src/`) puts the mapping at the end of the path with the
given name, which is created when the index does not have it. -/
def append_mapping : Paths → String → Mapping → Paths
  | [], name, m => [(name, [m])]
  | p :: rest, name, m =>
    if p.1 = name then (p.1, p.2 ++ [m]) :: rest else p :: append_mapping rest name m

/-- Modelled from the spec: `Paths::append_mapping(name, id)` (class `Paths`
is not under `src/`) appends a mapping at the start of the forward strand of
the node `id`, without edits; ranks count the mappings of a path from 1. -/
def append_mapping_id (paths : Paths) (name : String) (id : Int) : Paths :=
  append_mapping paths name
    ⟨⟨id, 0, false⟩, [], (((map_find paths name).getD []).length : Int) + 1⟩

/-- `VG::force_path_match`. -/
def force_path_match (g : VG) : VG :=
  g.node.foldl
    (fun g n =>
      let seq_len : Int := n.sequence.length
      { g with paths := g.paths.map (fun p =>
          (p.1, p.2.map (fun m =>
            if m.position.node_id = n.id then { m with edit := m.edit ++ [⟨seq_len, seq_len, []⟩] }
            else m))) }) g

/-- Insertion into a `std::set<Node*>`.  The set is kept in the order of the
insertions; the source orders it by the addresses of the nodes. -/
def node_set_insert (s : List Node) (node : Node) : List Node :=
  if node ∈ s then s else s ++ [node]

/-- The statement `nodes[pos].insert(node)` on a map from positions to sets of
nodes. -/
def position_insert (m : List (Int × List Node)) (pos : Int) (node : Node) :
    List (Int × List Node) :=
  map_insert m pos (node_set_insert ((map_find m pos).getD []) node)

/-- The loop `while (!m.empty() && m.begin()->first < pos) m.erase(m.begin()->first)`:
the entries with a key below `pos` are erased. -/
def erase_below {ν : Type} (m : List (Int × ν)) (pos : Int) : List (Int × ν) :=
  m.filter (fun p => decide (¬ p.1 < pos))

/-- Insertion of an allele number before the first number whose allele has a
longer reference sequence. -/
def number_insert (alleles : List VariantAllele) (a : Nat) : List Nat → List Nat
  | [] => [a]
  | b :: rest =>
    if ((alleles.get? a).map (fun x => x.ref.length)).getD 0
        < ((alleles.get? b).map (fun x => x.ref.length)).getD 0
    then a :: b :: rest
    else b :: number_insert alleles a rest

/-- The vector `allele_numbers_by_ref_length`: the allele numbers sorted by
the length of the reference sequence, ascending.  Numbers with reference
sequences of the same length keep their order, which `std::sort` leaves
open. -/
def allele_numbers_by_ref_length (alleles : List VariantAllele) : List Nat :=
  (List.range alleles.length).foldl (fun sorted a => number_insert alleles a sorted) []

/-- The walk of `VG::from_alleles` that collects the middle nodes: the entries
of the primary path before the target, from right to left, up to the left
node; `none` when `get_node` throws. -/
def middle_walk (g : VG) (left : Node) : List (Int × Int) → List Node → Option (List Node)
  | [], middle_seq_nodes => some middle_seq_nodes
  | target :: rest, middle_seq_nodes =>
    if target.2 = left.id then some middle_seq_nodes
    else
      match get_node g target.2 with
      | none => none
      | some node => middle_walk g left rest (node :: middle_seq_nodes)

/-- The variables of `VG::from_alleles` that live across the alleles. -/
structure AlleleState where
  g : VG
  seq_node_ids : List (Int × Int)
  nodes_by_end_position : List (Int × List Node)
  nodes_by_start_position : List (Int × List Node)
  last_variant_end : Int
  first_allele_processed : Bool

/-- The block of `VG::from_alleles` that cuts the primary path for one allele:
the state with the left node, the middle nodes and the right node; `none` when
a cut does not return, `get_node` throws or an `assert` fails. -/
def cut_allele (cut_mapping : Mapping → Int → Mapping × Mapping) (st : AlleleState)
    (allele : VariantAllele) : Option (AlleleState × Node × List Node × Node) :=
  let allele_start_pos := allele.position
  let allele_end_pos := allele_start_pos + (allele.ref.length : Int)
  let st1 :=
    if allele_start_pos = 0 then
      let r := create_node st.g [] 0
      { st with g := r.1,
                seq_node_ids := map_insert st.seq_node_ids (-1) r.2.id,
                nodes_by_start_position := position_insert st.nodes_by_start_position (-1) r.2,
                nodes_by_end_position := position_insert st.nodes_by_end_position 0 r.2 }
    else st
  match divide_path cut_mapping st1.g st1.seq_node_ids allele_start_pos with
  | none => none
  | some d1 =>
    let st2 := { st1 with g := d1.1, seq_node_ids := d1.2.1 }
    let left_seq_node := d1.2.2.1
    if !allele.ref.isEmpty then
      match divide_path cut_mapping st2.g st2.seq_node_ids allele_end_pos with
      | none => none
      | some d2 =>
        let st3 := { st2 with g := d2.1, seq_node_ids := d2.2.1 }
        let right_seq_node := d2.2.2.2
        match map_floor st3.seq_node_ids allele_end_pos with
        | none => none
        | some target =>
          if target.2 ≠ right_seq_node.id then none
          else
            match middle_walk st3.g left_seq_node
                ((map_entries st3.seq_node_ids).filter (fun p => decide (p.1 < target.1))).reverse
                [] with
            | none => none
            | some middle_seq_nodes =>
              if middle_seq_nodes.length = 0 then none
              else some (st3, left_seq_node, middle_seq_nodes, right_seq_node)
    else some (st2, left_seq_node, [], d1.2.2.2)

/-- The block of `VG::from_alleles` that makes the nodes of the alt allele and
wires them: the state and the list `alt_nodes`. -/
def place_allele (st : AlleleState) (allele : VariantAllele) (left_seq_node : Node)
    (middle_seq_nodes : List Node) (right_seq_node : Node) : AlleleState × List Node :=
  let allele_start_pos := allele.position
  let allele_end_pos := allele_start_pos + (allele.ref.length : Int)
  let null_node : Node := ⟨0, []⟩
  if !allele.alt.isEmpty && !allele.ref.isEmpty then
    let r : VG × List Node :=
      if allele.ref = allele.alt then (st.g, middle_seq_nodes)
      else
        let c := create_node st.g allele.alt 0
        let g1 := (create_edge c.1 left_seq_node.id c.2.id false false).1
        ((create_edge g1 c.2.id right_seq_node.id false false).1, [c.2])
    let alt_nodes := r.2
    let ends1 := position_insert st.nodes_by_end_position allele_end_pos (alt_nodes.getLastD null_node)
    let ends2 := position_insert ends1 allele_end_pos (middle_seq_nodes.getLastD null_node)
    let starts1 := position_insert st.nodes_by_start_position allele_start_pos (alt_nodes.headD null_node)
    let starts2 := position_insert starts1 allele_start_pos (middle_seq_nodes.headD null_node)
    ({ st with g := r.1, nodes_by_end_position := ends2, nodes_by_start_position := starts2 },
      alt_nodes)
  else if !allele.alt.isEmpty then
    let c := create_node st.g allele.alt 0
    let g1 := (create_edge c.1 left_seq_node.id c.2.id false false).1
    let g2 := (create_edge g1 c.2.id right_seq_node.id false false).1
    let ends1 := position_insert st.nodes_by_end_position allele_end_pos c.2
    let ends2 := position_insert ends1 allele_end_pos left_seq_node
    let starts1 := position_insert st.nodes_by_start_position allele_start_pos c.2
    ({ st with g := g2, nodes_by_end_position := ends2, nodes_by_start_position := starts1 },
      [c.2])
  else
    let g1 := (create_edge st.g left_seq_node.id right_seq_node.id false false).1
    ({ st with g := g1,
               nodes_by_end_position :=
                 position_insert st.nodes_by_end_position allele_end_pos left_seq_node,
               nodes_by_start_position :=
                 position_insert st.nodes_by_start_position allele_start_pos left_seq_node },
      [])

/-- The name `"_phase" + to_string(i)` of the path of a phasing. -/
def phase_name (i : Nat) : String := "_phase" ++ toString i

/-- The blocks of `VG::from_alleles` that put the mappings of the phasings and
of the alt paths of one allele. -/
def thread_allele (visits : List ((Int × Int) × List Bool)) (num_phasings : Nat)
    (variant_alts : List ((Int × Int) × List (String × Int))) (allele_key : Int × Int)
    (st : AlleleState) (allele : VariantAllele) (left_seq_node : Node)
    (alt_nodes : List Node) : AlleleState :=
  let intervening_space := allele.position - st.last_variant_end
  let st1 :=
    if st.first_allele_processed ∧ num_phasings > 0 ∧ intervening_space > 0 then
      { st with
          g := { st.g with paths := ((List.range num_phasings).foldl
                  (fun paths i => append_mapping_id paths (phase_name i) left_seq_node.id)
                  st.g.paths) },
          first_allele_processed := false }
    else st
  let st2 :=
    match map_find visits allele_key with
    | none => st1
    | some visit_vector =>
      if alt_nodes.isEmpty then st1
      else
        { st1 with
            g := { st1.g with paths := ((List.range visit_vector.length).foldl
                    (fun paths i =>
                      if visit_vector.getD i false then
                        alt_nodes.foldl
                          (fun paths alt_node =>
                            if (map_find (get_node_mapping paths alt_node.id) (phase_name i)).isNone
                            then append_mapping_id paths (phase_name i) alt_node.id
                            else paths) paths
                      else paths) st1.g.paths) } }
  match map_find variant_alts allele_key with
  | none => st2
  | some alts =>
    { st2 with
        g := { st2.g with paths := (alts.foldl
                (fun paths name_and_alt =>
                  let path_name := "_alt_" ++ name_and_alt.1 ++ "_" ++ toString name_and_alt.2
                  alt_nodes.foldl
                    (fun paths alt_node => append_mapping_id paths path_name alt_node.id) paths)
                st2.g.paths) } }

/-- The block of `VG::from_alleles` for an allele that ends at the end of the
reference sequence. -/
def close_allele (seq : List Char) (st : AlleleState) (allele : VariantAllele)
    (middle_seq_nodes alt_nodes : List Node) : AlleleState :=
  let allele_end_pos := allele.position + (allele.ref.length : Int)
  let null_node : Node := ⟨0, []⟩
  if allele_end_pos = (seq.length : Int) then
    let c := create_node st.g [] 0
    let g1 :=
      if alt_nodes.length > 0 then
        (create_edge c.1 (alt_nodes.getLastD null_node).id c.2.id false false).1
      else c.1
    let g2 :=
      if middle_seq_nodes.length > 0 then
        (create_edge g1 (middle_seq_nodes.getLastD null_node).id c.2.id false false).1
      else g1
    { st with g := g2, seq_node_ids := map_insert st.seq_node_ids allele_end_pos c.2.id }
  else st

/-- The body of the loop of `VG::from_alleles` over the alleles of one site,
for the allele with the given number. -/
def process_allele (cut_mapping : Mapping → Int → Mapping × Mapping)
    (visits : List ((Int × Int) × List Bool)) (num_phasings : Nat)
    (variant_alts : List ((Int × Int) × List (String × Int))) (seq : List Char)
    (site : Int) (alleles : List VariantAllele) (st : AlleleState) (allele_number : Nat) :
    Option AlleleState :=
  match alleles.get? allele_number with
  | none => none
  | some allele =>
    let allele_key : Int × Int := (site, (allele_number : Int))
    if allele.ref = allele.alt ∧ (map_find visits allele_key).isNone
        ∧ (map_find variant_alts allele_key).isNone then some st
    else
      match cut_allele cut_mapping st allele with
      | none => none
      | some c =>
        let p := place_allele c.1 allele c.2.1 c.2.2.1 c.2.2.2
        let st1 := thread_allele visits num_phasings variant_alts allele_key p.1 allele c.2.1 p.2
        some (close_allele seq st1 allele c.2.2.1 p.2)

/-- The loop of `VG::from_alleles` over the alleles of one site. -/
def process_alleles (cut_mapping : Mapping → Int → Mapping × Mapping)
    (visits : List ((Int × Int) × List Bool)) (num_phasings : Nat)
    (variant_alts : List ((Int × Int) × List (String × Int))) (seq : List Char)
    (site : Int) (alleles : List VariantAllele) : AlleleState → List Nat → Option AlleleState
  | st, [] => some st
  | st, allele_number :: rest =>
    match process_allele cut_mapping visits num_phasings variant_alts seq site alleles st
        allele_number with
    | none => none
    | some st1 =>
      process_alleles cut_mapping visits num_phasings variant_alts seq site alleles st1 rest

/-- The block of `VG::from_alleles` that connects the nodes that end at a site
to the nodes that start there. -/
def connect_abutting (st : AlleleState) (site : Int) : AlleleState :=
  match map_find st.nodes_by_end_position site, map_find st.nodes_by_start_position site with
  | some previous_nodes, some current_nodes =>
    { st with g := (previous_nodes.foldl
        (fun g n =>
          current_nodes.foldl
            (fun g m =>
              if (map_find g.node_index n).isSome ∧ (map_find g.node_index m).isSome
                  ∧ ¬ (n ∈ previous_nodes ∧ n ∈ current_nodes
                        ∧ m ∈ previous_nodes ∧ m ∈ current_nodes)
              then (create_edge g n.id m.id false false).1
              else g) g) st.g) }
  | _, _ => st

/-- The body of the loop of `VG::from_alleles` over the sites `va` of
`altp`. -/
def process_site (cut_mapping : Mapping → Int → Mapping × Mapping)
    (visits : List ((Int × Int) × List Bool)) (num_phasings : Nat)
    (variant_alts : List ((Int × Int) × List (String × Int))) (seq : List Char)
    (st : AlleleState) (va : Int × List VariantAllele) : Option AlleleState :=
  let alleles := va.2
  let cut : Option AlleleState :=
    if alleles.isEmpty then
      match divide_path cut_mapping st.g st.seq_node_ids va.1 with
      | none => none
      | some d => some { st with g := d.1, seq_node_ids := d.2.1 }
    else some st
  match cut with
  | none => none
  | some st1 =>
    let all_perfect_matches := alleles.all (fun allele => decide (allele.ref = allele.alt))
    let no_variant_visits := (List.range alleles.length).all
      (fun allele_number => (map_find variant_alts (va.1, (allele_number : Int))).isNone)
    if all_perfect_matches && no_variant_visits then some st1
    else
      match process_alleles cut_mapping visits num_phasings variant_alts seq va.1 alleles
          { st1 with first_allele_processed := true } (allele_numbers_by_ref_length alleles) with
      | none => none
      | some st2 =>
        let st3 := connect_abutting st2 va.1
        let st4 := { st3 with
          nodes_by_end_position := erase_below st3.nodes_by_end_position va.1,
          nodes_by_start_position := erase_below st3.nodes_by_start_position va.1 }
        match map_rbegin st4.seq_node_ids with
        | none => none
        | some last =>
          match get_node st4.g last.2 with
          | none => none
          | some node =>
            some { st4 with
              last_variant_end := (seq.length : Int) - (node.sequence.length : Int) }

/-- The loop of `VG::from_alleles` over the sites of `altp`. -/
def process_sites (cut_mapping : Mapping → Int → Mapping × Mapping)
    (visits : List ((Int × Int) × List Bool)) (num_phasings : Nat)
    (variant_alts : List ((Int × Int) × List (String × Int))) (seq : List Char) :
    AlleleState → List (Int × List VariantAllele) → Option AlleleState
  | st, [] => some st
  | st, va :: rest =>
    match process_site cut_mapping visits num_phasings variant_alts seq st va with
    | none => none
    | some st1 => process_sites cut_mapping visits num_phasings variant_alts seq st1 rest

/-- The part of `VG::from_alleles` before `sort()`: the graph with the cuts,
the alt nodes and the paths, with the edits set by `force_path_match`. -/
def alleles_graph (cut_mapping : Mapping → Int → Mapping × Mapping) (g : VG)
    (altp : List (Int × List VariantAllele)) (visits : List ((Int × Int) × List Bool))
    (num_phasings : Nat) (variant_alts : List ((Int × Int) × List (String × Int)))
    (seq : List Char) (name : String) : Option VG :=
  let seq_node := create_node g seq 0
  match process_sites cut_mapping visits num_phasings variant_alts seq
      { g := seq_node.1, seq_node_ids := [(0, seq_node.2.id)], nodes_by_end_position := [],
        nodes_by_start_position := [], last_variant_end := -1,
        first_allele_processed := true }
      (map_entries altp) with
  | none => none
  | some st =>
    let phased : Option Paths :=
      if num_phasings > 0 then
        match map_rbegin st.seq_node_ids with
        | none => none
        | some last =>
          some ((List.range num_phasings).foldl
            (fun paths i => append_mapping_id paths (phase_name i) last.2) st.g.paths)
      else some st.g.paths
    match phased with
    | none => none
    | some paths1 =>
      let paths2 := (map_entries st.seq_node_ids).foldl
        (fun paths p => append_mapping_id paths name p.2) paths1
      some (force_path_match { st.g with paths := paths2 })

/-- `VG::from_alleles` on the graph `g`; `none` when the call does not
return.  The member `name` of the graph is not part of the state. -/
def from_alleles (cut_mapping : Mapping → Int → Mapping × Mapping) (g : VG)
    (altp : List (Int × List VariantAllele)) (visits : List ((Int × Int) × List Bool))
    (num_phasings : Nat) (variant_alts : List ((Int × Int) × List (String × Int)))
    (seq : List Char) (name : String) : Option VG :=
  match alleles_graph cut_mapping g altp visits num_phasings variant_alts seq name with
  | none => none
  | some g1 =>
    match sort g1 with
    | none => none
    | some g2 => some (compact_ids g2)

/-! ## The states of the construction of a bubble

The graphs that `VG::from_alleles` goes through on the reference sequence
`L ++ R ++ T` with the allele that replaces `R` by `A`. -/

/-- The graph with the node of the whole reference sequence. -/
def bubble_start (L R T : List Char) : VG :=
  { node := [{ id := 1, sequence := L ++ (R ++ T) }],
    edge := [],
    node_by_id := [(1, { id := 1, sequence := L ++ (R ++ T) })],
    node_index := [({ id := 1, sequence := L ++ (R ++ T) }, 0)],
    edge_index := [],
    edge_by_sides := [],
    edges_on_start := [],
    edges_on_end := [],
    current_id := 2,
    paths := [] }

/-- The graph after the cut at the start of the allele. -/
def bubble_left_cut (L R T : List Char) : VG :=
  { node := [{ id := 3, sequence := R ++ T }, { id := 2, sequence := L }],
    edge := [{ from_ := 2, to_ := 3, from_start := false, to_end := false }],
    node_by_id := [(3, { id := 3, sequence := R ++ T }), (2, { id := 2, sequence := L })],
    node_index := [({ id := 3, sequence := R ++ T }, 0), ({ id := 2, sequence := L }, 1)],
    edge_index := [({ from_ := 2, to_ := 3, from_start := false, to_end := false }, 0)],
    edge_by_sides := [(({ node := 2, is_end := true }, { node := 3, is_end := false }),
                       { from_ := 2, to_ := 3, from_start := false, to_end := false })],
    edges_on_start := [(3, [(2, false)])],
    edges_on_end := [(2, [(3, false)])],
    current_id := 4,
    paths := [] }

/-- The graph after the cut at the end of the allele. -/
def bubble_right_cut (L R T : List Char) : VG :=
  { node := [{ id := 5, sequence := T }, { id := 2, sequence := L }, { id := 4, sequence := R }],
    edge := [{ from_ := 4, to_ := 5, from_start := false, to_end := false },
             { from_ := 2, to_ := 4, from_start := false, to_end := false }],
    node_by_id := [(5, { id := 5, sequence := T }),
                   (4, { id := 4, sequence := R }),
                   (2, { id := 2, sequence := L })],
    node_index := [({ id := 5, sequence := T }, 0),
                   ({ id := 4, sequence := R }, 2),
                   ({ id := 2, sequence := L }, 1)],
    edge_index := [({ from_ := 4, to_ := 5, from_start := false, to_end := false }, 0),
                   ({ from_ := 2, to_ := 4, from_start := false, to_end := false }, 1)],
    edge_by_sides := [(({ node := 4, is_end := true }, { node := 5, is_end := false }),
                       { from_ := 4, to_ := 5, from_start := false, to_end := false }),
                      (({ node := 2, is_end := true }, { node := 4, is_end := false }),
                       { from_ := 2, to_ := 4, from_start := false, to_end := false })],
    edges_on_start := [(5, [(4, false)]), (4, [(2, false)])],
    edges_on_end := [(2, [(4, false)]), (4, [(5, false)])],
    current_id := 6,
    paths := [] }

/-- The graph after the node of the alt allele was made and wired. -/
def bubble_wired (L R A T : List Char) : VG :=
  { node := [{ id := 5, sequence := T },
             { id := 2, sequence := L },
             { id := 4, sequence := R },
             { id := 6, sequence := A }],
    edge := [{ from_ := 4, to_ := 5, from_start := false, to_end := false },
             { from_ := 2, to_ := 4, from_start := false, to_end := false },
             { from_ := 2, to_ := 6, from_start := false, to_end := false },
             { from_ := 6, to_ := 5, from_start := false, to_end := false }],
    node_by_id := [(6, { id := 6, sequence := A }),
                   (5, { id := 5, sequence := T }),
                   (4, { id := 4, sequence := R }),
                   (2, { id := 2, sequence := L })],
    node_index := [({ id := 6, sequence := A }, 3),
                   ({ id := 5, sequence := T }, 0),
                   ({ id := 4, sequence := R }, 2),
                   ({ id := 2, sequence := L }, 1)],
    edge_index := [({ from_ := 6, to_ := 5, from_start := false, to_end := false }, 3),
                   ({ from_ := 2, to_ := 6, from_start := false, to_end := false }, 2),
                   ({ from_ := 4, to_ := 5, from_start := false, to_end := false }, 0),
                   ({ from_ := 2, to_ := 4, from_start := false, to_end := false }, 1)],
    edge_by_sides := [(({ node := 5, is_end := false }, { node := 6, is_end := true }),
                       { from_ := 6, to_ := 5, from_start := false, to_end := false }),
                      (({ node := 2, is_end := true }, { node := 6, is_end := false }),
                       { from_ := 2, to_ := 6, from_start := false, to_end := false }),
                      (({ node := 4, is_end := true }, { node := 5, is_end := false }),
                       { from_ := 4, to_ := 5, from_start := false, to_end := false }),
                      (({ node := 2, is_end := true }, { node := 4, is_end := false }),
                       { from_ := 2, to_ := 4, from_start := false, to_end := false })],
    edges_on_start := [(5, [(4, false), (6, false)]), (6, [(2, false)]), (4, [(2, false)])],
    edges_on_end := [(6, [(5, false)]), (2, [(4, false), (6, false)]), (4, [(5, false)])],
    current_id := 7,
    paths := [] }

/-- The graph after the topological sort, which rebuilds the indexes. -/
def bubble_reindexed (L R A T : List Char) (paths : Paths) : VG :=
  { node := [{ id := 5, sequence := T },
             { id := 2, sequence := L },
             { id := 4, sequence := R },
             { id := 6, sequence := A }],
    edge := [{ from_ := 4, to_ := 5, from_start := false, to_end := false },
             { from_ := 2, to_ := 4, from_start := false, to_end := false },
             { from_ := 2, to_ := 6, from_start := false, to_end := false },
             { from_ := 6, to_ := 5, from_start := false, to_end := false }],
    node_by_id := [(6, { id := 6, sequence := A }),
                   (4, { id := 4, sequence := R }),
                   (2, { id := 2, sequence := L }),
                   (5, { id := 5, sequence := T })],
    node_index := [({ id := 6, sequence := A }, 3),
                   ({ id := 4, sequence := R }, 2),
                   ({ id := 2, sequence := L }, 1),
                   ({ id := 5, sequence := T }, 0)],
    edge_index := [({ from_ := 6, to_ := 5, from_start := false, to_end := false }, 3),
                   ({ from_ := 2, to_ := 6, from_start := false, to_end := false }, 2),
                   ({ from_ := 2, to_ := 4, from_start := false, to_end := false }, 1),
                   ({ from_ := 4, to_ := 5, from_start := false, to_end := false }, 0)],
    edge_by_sides := [(({ node := 5, is_end := false }, { node := 6, is_end := true }),
                       { from_ := 6, to_ := 5, from_start := false, to_end := false }),
                      (({ node := 2, is_end := true }, { node := 6, is_end := false }),
                       { from_ := 2, to_ := 6, from_start := false, to_end := false }),
                      (({ node := 2, is_end := true }, { node := 4, is_end := false }),
                       { from_ := 2, to_ := 4, from_start := false, to_end := false }),
                      (({ node := 4, is_end := true }, { node := 5, is_end := false }),
                       { from_ := 4, to_ := 5, from_start := false, to_end := false })],
    edges_on_start := [(5, [(4, false), (6, false)]), (6, [(2, false)]), (4, [(2, false)])],
    edges_on_end := [(6, [(5, false)]), (2, [(4, false), (6, false)]), (4, [(5, false)])],
    current_id := 7,
    paths := paths }

/-- The primary path of the bubble on the nodes `left`, `ref` and `right`:
three forward mappings at offset 0, each with the match of its whole node. -/
def bubble_path (L R T : List Char) (name : String) (left ref right : Int) : Paths :=
  [(name,
    [{ position := { node_id := left, offset := 0, is_reverse := false },
       edit := [{ from_length := (L.length : Int), to_length := (L.length : Int), sequence := [] }],
       rank := 1 },
     { position := { node_id := ref, offset := 0, is_reverse := false },
       edit := [{ from_length := (R.length : Int), to_length := (R.length : Int), sequence := [] }],
       rank := 2 },
     { position := { node_id := right, offset := 0, is_reverse := false },
       edit := [{ from_length := (T.length : Int), to_length := (T.length : Int), sequence := [] }],
       rank := 3 }])]

/-- The bubble: left flank 1, ref node 2, alt node 3 and right flank 4, the
four plain edges, and the primary path over the nodes 1, 2 and 4. -/
def bubble (L R A T : List Char) (name : String) : VG :=
  { node := [{ id := 1, sequence := L },
             { id := 2, sequence := R },
             { id := 3, sequence := A },
             { id := 4, sequence := T }],
    edge := [{ from_ := 2, to_ := 4, from_start := false, to_end := false },
             { from_ := 1, to_ := 2, from_start := false, to_end := false },
             { from_ := 1, to_ := 3, from_start := false, to_end := false },
             { from_ := 3, to_ := 4, from_start := false, to_end := false }],
    node_by_id := [(4, { id := 4, sequence := T }),
                   (3, { id := 3, sequence := A }),
                   (2, { id := 2, sequence := R }),
                   (1, { id := 1, sequence := L })],
    node_index := [({ id := 4, sequence := T }, 3),
                   ({ id := 3, sequence := A }, 2),
                   ({ id := 2, sequence := R }, 1),
                   ({ id := 1, sequence := L }, 0)],
    edge_index := [({ from_ := 3, to_ := 4, from_start := false, to_end := false }, 3),
                   ({ from_ := 1, to_ := 3, from_start := false, to_end := false }, 2),
                   ({ from_ := 1, to_ := 2, from_start := false, to_end := false }, 1),
                   ({ from_ := 2, to_ := 4, from_start := false, to_end := false }, 0)],
    edge_by_sides := [(({ node := 3, is_end := true }, { node := 4, is_end := false }),
                       { from_ := 3, to_ := 4, from_start := false, to_end := false }),
                      (({ node := 1, is_end := true }, { node := 3, is_end := false }),
                       { from_ := 1, to_ := 3, from_start := false, to_end := false }),
                      (({ node := 1, is_end := true }, { node := 2, is_end := false }),
                       { from_ := 1, to_ := 2, from_start := false, to_end := false }),
                      (({ node := 2, is_end := true }, { node := 4, is_end := false }),
                       { from_ := 2, to_ := 4, from_start := false, to_end := false })],
    edges_on_start := [(4, [(2, false), (3, false)]), (3, [(1, false)]), (2, [(1, false)])],
    edges_on_end := [(3, [(4, false)]), (1, [(2, false), (3, false)]), (2, [(4, false)])],
    current_id := 7,
    paths := bubble_path L R T name 1 2 4 }

/-! ## Overlay of node translations -/

/-- `VG::overlay_node_translations`: a translation maps a node id to the pair
(node id, orientation flag). -/
def overlay_node_translations (over under : List (Int × (Int × Bool))) :
    List (Int × (Int × Bool)) :=
  (map_entries over).foldl
    (fun overlay o =>
      let new_id := o.1
      let old_id := o.2.1
      let is_rev := o.2.2
      match map_find under old_id with
      | some u =>
        let oldest_id := u.1
        let was_rev := u.2
        map_insert overlay new_id (oldest_id, xor is_rev was_rev)
      | none => map_insert overlay o.1 o.2)
    under

/-! ## The context of a k-mer -/

/-- The conversion of an `int` value to `size_t`. -/
def to_size (x : Int) : Int := x % 2 ^ 64

/-- The character `s[i]` of a `std::string`, the index being a `size_t`
value: the null character at `i = s.size()`, and `none` beyond, where the
access is undefined. -/
def char_at (s : List Char) (i : Int) : Option Char :=
  if 0 ≤ i ∧ i < (s.length : Int) then s.get? i.toNat
  else if i = (s.length : Int) then some (Char.ofNat 0)
  else none

/-- The C++ `operator<` of `std::tuple<char, id_t, bool, int32_t>`. -/
def kmer_position_lt (a b : Char × Int × Bool × Int) : Bool :=
  decide (a.1 < b.1) || (decide (a.1 = b.1) &&
    (decide (a.2.1 < b.2.1) || (decide (a.2.1 = b.2.1) &&
      ((!a.2.2.1 && b.2.2.1) || (decide (a.2.2.1 = b.2.2.1) && decide (a.2.2.2 < b.2.2.2))))))

/-- The loop of `VG::kmer_context` that follows the path over its edges from
the start node on (`paths.over_edge` is a function of class `Paths`, which is
not under `src/`, and a parameter). -/
def follow_path (over_edge : Int → Bool → Int → Bool → List String → List String) :
    List NodeTraversal → List String → List String
  | n1 :: n2 :: rest, followed =>
    follow_path over_edge (n2 :: rest)
      (over_edge n1.node.id n1.backward n2.node.id n2.backward followed)
  | _, followed => followed

/-- The block of `VG::kmer_context` for `start_offset == 0`: a position for
every node before the start node; `none` when a character access is
undefined. -/
def prev_of_neighbours (reverse_complement : Char → Char)
    (over_edge : Int → Bool → Int → Bool → List String → List String) (path_only : Bool)
    (start_node : NodeTraversal) (followed : List String) :
    List NodeTraversal → List (Char × Int × Bool × Int) → Option (List (Char × Int × Bool × Int))
  | [], prev_positions => some prev_positions
  | n :: rest, prev_positions =>
    if path_only ∧ (over_edge n.node.id n.backward start_node.node.id start_node.backward
        followed).isEmpty then
      prev_of_neighbours reverse_complement over_edge path_only start_node followed rest
        prev_positions
    else
      let seq := n.node.sequence
      match (if n.backward then (char_at seq 0).map reverse_complement
             else char_at seq (to_size ((seq.length : Int) - 1))) with
      | none => none
      | some c =>
        prev_of_neighbours reverse_complement over_edge path_only start_node followed rest
          (set_insert kmer_position_lt
            (c, n.node.id, n.backward, to_int (to_size ((n.node.sequence.length : Int) - 1)))
            prev_positions)

/-- The loop of `VG::kmer_context` over the nodes after the node on which the
k-mer ends at the end of the node; `none` when a character access is
undefined. -/
def next_of_neighbours (reverse_complement : Char → Char)
    (over_edge : Int → Bool → Int → Bool → List String → List String) (path_only : Bool)
    (end_node : NodeTraversal) (followed : List String) :
    List NodeTraversal → List (Char × Int × Bool × Int) → Option (List (Char × Int × Bool × Int))
  | [], next_positions => some next_positions
  | m :: rest, next_positions =>
    if path_only ∧ (over_edge end_node.node.id end_node.backward m.node.id m.backward
        followed).isEmpty then
      next_of_neighbours reverse_complement over_edge path_only end_node followed rest
        next_positions
    else
      let node_length : Int := m.node.sequence.length
      match (if m.backward then (char_at m.node.sequence (to_size (node_length - 1))).map
               reverse_complement
             else char_at m.node.sequence 0) with
      | none => none
      | some c =>
        next_of_neighbours reverse_complement over_edge path_only end_node followed rest
          (set_insert kmer_position_lt (c, m.node.id, m.backward, 0) next_positions)

/-- What `VG::kmer_context` writes to its reference parameters: the index of
`end_node` in the path, `end_offset`, and the two sets of positions. -/
structure KmerContext where
  end_node : Nat
  end_offset : Int
  prev_positions : List (Char × Int × Bool × Int)
  next_positions : List (Char × Int × Bool × Int)

/-- The loop `while (np != path.end())` of `VG::kmer_context`, with `np` at
index `i` of the path; `none` when the end of the path is reached without an
end node (the `assert(false)`), a character access is undefined or `get_node`
throws. -/
def find_kmer_end (reverse_complement : Char → Char)
    (over_edge : Int → Bool → Int → Bool → List String → List String) (g : VG)
    (kmer : List Char) (path_only : Bool) (followed : List String)
    (prev_positions next_positions : List (Char × Int × Bool × Int)) :
    List NodeTraversal → Nat → Int → Bool → Option KmerContext
  | [], _, _, _ => none
  | n :: rest, i, pos, first_in_path =>
    let newpos :=
      if first_in_path then to_int (to_size ((n.node.sequence.length : Int) - pos))
      else to_int (to_size (pos + (n.node.sequence.length : Int)))
    if to_size newpos = (kmer.length : Int) then
      match nodes_next g n with
      | none => none
      | some next_nodes =>
        match next_of_neighbours reverse_complement over_edge path_only n followed next_nodes
            next_positions with
        | none => none
        | some next_positions1 => some ⟨i, 0, prev_positions, next_positions1⟩
    else if to_size newpos > (kmer.length : Int) then
      let node_length : Int := n.node.sequence.length
      let off := to_int (to_size (node_length - to_size (to_size newpos - (kmer.length : Int))))
      let end_offset := to_int (to_size (node_length - off))
      match (if n.backward then
               (char_at n.node.sequence (to_size (node_length - off - 1))).map reverse_complement
             else char_at n.node.sequence (to_size off)) with
      | none => none
      | some c =>
        some ⟨i, end_offset, prev_positions,
          set_insert kmer_position_lt (c, n.node.id, n.backward, off) next_positions⟩
    else
      find_kmer_end reverse_complement over_edge g kmer path_only followed prev_positions
        next_positions rest (i + 1) newpos false

/-- `VG::kmer_context`, with the iterator `start_node` given by its index in
`path` and the two sets as they are before the call.  The functions
`reverse_complement(char)`, `paths.node_path_traversals` and `paths.over_edge`
are declared outside `src/` and are parameters; `kmer_size`, `edge_max` and
`forward_only` are not read by the function. -/
def kmer_context (reverse_complement : Char → Char)
    (node_path_traversals : Int → Bool → List String)
    (over_edge : Int → Bool → Int → Bool → List String → List String) (g : VG)
    (kmer : List Char) (path_only : Bool) (path : List NodeTraversal) (start_node : Nat)
    (start_offset : Int) (prev_positions next_positions : List (Char × Int × Bool × Int)) :
    Option KmerContext :=
  match path.get? start_node with
  | none => none
  | some start =>
    let followed : List String :=
      if path_only then
        follow_path over_edge (path.drop start_node) (node_path_traversals start.node.id start.backward)
      else []
    let prev : Option (List (Char × Int × Bool × Int)) :=
      if start_offset = 0 then
        match nodes_prev g start with
        | none => none
        | some prev_nodes =>
          prev_of_neighbours reverse_complement over_edge path_only start followed prev_nodes
            prev_positions
      else
        let seq := start.node.sequence
        match (if start.backward then
                 (char_at seq (to_size ((seq.length : Int) - start_offset))).map
                   reverse_complement
               else char_at seq (to_size (start_offset - 1))) with
        | none => none
        | some c =>
          some (set_insert kmer_position_lt
            (c, start.node.id, start.backward, to_int (start_offset - 1)) prev_positions)
    match prev with
    | none => none
    | some prev_positions1 =>
      find_kmer_end reverse_complement over_edge g kmer path_only followed prev_positions1
        next_positions (path.drop start_node) start_node start_offset true

/-- The graph with the single node 1 = `ACGT`. -/
def acgt_graph : VG := (create_node VG.empty "ACGT".toList 0).1

/-- The acyclic graph with the nodes 1 = `A`, 2 = `C`, 3 = `G` and the plain
edges from node 1 to node 2 and from node 3 to node 2. -/
def fork_graph : VG :=
  (create_edge
    (create_edge
      (create_node (create_node (create_node VG.empty "A".toList 0).1 "C".toList 0).1
        "G".toList 0).1
      1 2 false false).1
    3 2 false false).1

/-! ## Unfolding of inversions -/

/-- Modelled from the spec: `operator<` of `NodeTraversal` (header not under
`src/`); a traversal is the pair (node id, orientation) (spec section 3), and
the order is the lexicographic one with forward before reverse. -/
def NodeTraversal.lt (a b : NodeTraversal) : Bool :=
  decide (a.node.id < b.node.id) || (decide (a.node.id = b.node.id) && (!a.backward && b.backward))

/-- The C++ `operator<` of `std::pair<NodeTraversal, NodeTraversal>`. -/
def trav_pair_lt : NodeTraversal × NodeTraversal → NodeTraversal × NodeTraversal → Bool :=
  pair_lt NodeTraversal.lt NodeTraversal.lt

/-- `VG::travs_to`; `none` when `get_node` throws. -/
def travs_to (g : VG) (node : NodeTraversal) : Option (List NodeTraversal) :=
  (nodes_prev g node).map (fun tov => tov.foldl (fun tos t => set_insert NodeTraversal.lt t tos) [])

/-- `VG::travs_from`; `none` when `get_node` throws. -/
def travs_from (g : VG) (node : NodeTraversal) : Option (List NodeTraversal) :=
  (nodes_next g node).map
    (fun fromv => fromv.foldl (fun froms t => set_insert NodeTraversal.lt t froms) [])

/-- `VG::travs_of`: the union of `travs_to` and `travs_from`. -/
def travs_of (g : VG) (node : NodeTraversal) : Option (List NodeTraversal) :=
  match travs_to g node, travs_from g node with
  | some tos, some froms => some (froms.foldl (fun ofs t => set_insert NodeTraversal.lt t ofs) tos)
  | _, _ => none

/-- The test of `VG::has_inverting_edges` and `VG::remove_inverting_edges` on
one edge: exactly one of `from_start` and `to_end` is set. -/
def is_inverting (edge : Edge) : Bool :=
  !(edge.from_start && edge.to_end) && (edge.from_start || edge.to_end)

/-- `VG::has_inverting_edges`. -/
def has_inverting_edges (g : VG) : Bool := g.edge.any is_inverting

/-- `VG::remove_inverting_edges`. -/
def remove_inverting_edges (g : VG) : VG :=
  let edges := g.edge.foldl
    (fun edges edge =>
      if is_inverting edge then set_insert side_pair_lt (pair_from_edge edge) edges else edges) []
  edges.foldl (fun g edge => destroy_edge g edge.1 edge.2) g

/-- The sets and the map that the closure `walk` of `VG::unfold` fills. -/
structure WalkState where
  travs_to_flip : List NodeTraversal
  edges_to_flip : List (NodeTraversal × NodeTraversal)
  edges_to_forward : List (NodeTraversal × NodeTraversal)
  edges_from_forward : List (NodeTraversal × NodeTraversal)
  seen : List (NodeTraversal × Int)

/-- The closure `walk` of `VG::unfold` on the graph `g`; `fuel` bounds the
depth of the recursion, and `none` stands for a recursion deeper than that or
a throw of `get_node`. -/
def walk (g : VG) : Nat → NodeTraversal → Int → WalkState → Option WalkState
  | 0, _, _, _ => none
  | fuel + 1, curr, length, st =>
    let st1 := { st with travs_to_flip := set_insert NodeTraversal.lt curr st.travs_to_flip }
    if length ≤ 0 ∨ (match map_find st1.seen curr with
                     | some seen_length => decide (seen_length < length)
                     | none => false) = true then some st1
    else
      let st2 := { st1 with seen := map_insert st1.seen curr length }
      match travs_from g curr, travs_to g curr with
      | some froms, some tos =>
        let st3 := froms.foldl
          (fun (acc : Option WalkState) trav =>
            match acc with
            | none => none
            | some s =>
              if trav.backward then
                walk g fuel trav (to_int (length - (trav.node.sequence.length : Int)))
                  { s with edges_to_flip := set_insert trav_pair_lt (curr, trav) s.edges_to_flip }
              else
                some { s with
                  edges_to_forward := set_insert trav_pair_lt (curr, trav) s.edges_to_forward })
          (some st2)
        tos.foldl
          (fun (acc : Option WalkState) trav =>
            match acc with
            | none => none
            | some s =>
              if trav.backward then
                walk g fuel trav (to_int (length - (trav.node.sequence.length : Int)))
                  { s with edges_to_flip := set_insert trav_pair_lt (trav, curr) s.edges_to_flip }
              else
                some { s with
                  edges_from_forward :=
                    set_insert trav_pair_lt (trav, curr) s.edges_from_forward })
          st3
      | _, _ => none

/-- The loop of `VG::unfold` that starts a walk at every reversed traversal
next to a node. -/
def walk_all (g : VG) (fuel : Nat) (max_length : Int) : List Node → WalkState → Option WalkState
  | [], st => some st
  | node :: rest, st =>
    match travs_of g ⟨node, false⟩ with
    | none => none
    | some travs =>
      match travs.foldl
          (fun (acc : Option WalkState) trav =>
            match acc with
            | none => none
            | some s => if trav.backward then walk g fuel trav (to_int max_length) s else some s)
          (some st) with
      | none => none
      | some st1 => walk_all g fuel max_length rest st1

/-- The loop of `VG::unfold` that makes a node for every flipped traversal:
the graph, the translation and the map `inv_translation`. -/
def add_flipped (reverse_complement : List Char → List Char) :
    List NodeTraversal → VG × List (Int × (Int × Bool)) × List (NodeTraversal × Int) →
      VG × List (Int × (Int × Bool)) × List (NodeTraversal × Int)
  | [], s => s
  | t :: rest, s =>
    let seq := reverse_complement t.node.sequence
    let r := create_node s.1 seq 0
    let i := r.2.id
    add_flipped reverse_complement rest
      (r.1, map_insert s.2.1 i (t.node.id, t.backward), map_insert s.2.2 t i)

/-- The value `inv_translation[t]`: 0 when the map has no entry for `t`. -/
def inv_at (inv_translation : List (NodeTraversal × Int)) (t : NodeTraversal) : Int :=
  (map_find inv_translation t).getD 0

/-- `VG::unfold(max_length, node_translation)`: the unfolded graph and the
translation; the function `reverse_complement` is declared outside `src/` and
is a parameter.  `none` when a walk is deeper than `fuel` or `get_node`
throws. -/
def unfold (reverse_complement : List Char → List Char) (fuel : Nat) (g : VG) (max_length : Int)
    (node_translation : List (Int × (Int × Bool))) :
    Option (VG × List (Int × (Int × Bool))) :=
  let unfolded := flip_doubly_reversed_edges g
  if !has_inverting_edges unfolded then some (unfolded, node_translation)
  else
    match walk_all g fuel max_length g.node ⟨[], [], [], [], []⟩ with
    | none => none
    | some st =>
      let s := add_flipped reverse_complement st.travs_to_flip (unfolded, node_translation, [])
      let inv_translation := s.2.2
      let g1 := st.edges_to_flip.foldl
        (fun u e => add_edge u ⟨inv_at inv_translation e.1, inv_at inv_translation e.2, false, false⟩)
        s.1
      let g2 := st.edges_to_forward.foldl
        (fun u e => add_edge u ⟨inv_at inv_translation e.1, e.2.node.id, false, false⟩) g1
      let g3 := st.edges_from_forward.foldl
        (fun u e => add_edge u ⟨e.1.node.id, inv_at inv_translation e.2, false, false⟩) g2
      some (remove_inverting_edges g3, s.2.1)

/-- Modelled from the spec: the complement of a base (the function
`reverse_complement` is declared outside `src/`): `A` and `T` are exchanged,
`C` and `G` are exchanged, any other character stays. -/
def complement (c : Char) : Char :=
  if c = 'A' then 'T' else if c = 'T' then 'A' else if c = 'C' then 'G'
  else if c = 'G' then 'C' else c

/-- Modelled from the spec: the reverse complement of a sequence, the
complements of its bases read backwards. -/
def dna_reverse_complement (s : List Char) : List Char := (s.map complement).reverse

/-- The graph with the nodes 1 = `AAAA` and 2 = `CCCC` joined by the
reversing edge from the end of node 1 to the end of node 2. -/
def inversion_graph : VG :=
  (create_edge
    (create_node (create_node VG.empty "AAAA".toList 0).1 "CCCC".toList 0).1 1 2 false true).1

/-- No stored edge has both flags set. -/
def no_doubly_reversed (g : VG) : Prop := ∀ e ∈ g.edge, (e.from_start && e.to_end) = false

/-- Every entry of a side list names a node that `get_node` finds. -/
def sides_resolvable (g : VG) : Prop :=
  ∀ n x, (x ∈ edges_start g n ∨ x ∈ edges_end g n) → ∃ nd, get_node g x.1 = some nd

/-! ## Invariants of the topological sort -/

/-- The side index taken alone (the state that `VG::topological_sort` works
on, where edges are unindexed but stay in the edge store): every entry of
`edge_by_sides` stands under the side pair of its edge, the side lists hold,
without repetition, exactly the entries that stand for an indexed side pair,
no side list kept in a map is empty, every entry of a side list names a node
that `get_node` finds, and `get_node` finds a node under its id. -/
structure index_consistent (g : VG) : Prop where
  by_sides_pair : ∀ p e, map_find g.edge_by_sides p = some e → pair_from_edge e = p
  start_nodup : ∀ n, (edges_start g n).Nodup
  start_iff : ∀ n x, x ∈ edges_start g n ↔
    (map_find g.edge_by_sides (pair_from_start_edge n x)).isSome = true
  end_nodup : ∀ n, (edges_end g n).Nodup
  end_iff : ∀ n x, x ∈ edges_end g n ↔
    (map_find g.edge_by_sides (pair_from_end_edge n x)).isSome = true
  start_nonempty : ∀ p ∈ g.edges_on_start, p.2 ≠ []
  end_nonempty : ∀ p ∈ g.edges_on_end, p.2 ≠ []
  resolvable : sides_resolvable g
  by_id_sound : ∀ id nd, get_node g id = some nd → nd.id = id

/-- The side of a traversal that is entered first: the start of a forward
node, the end of a reversed one. -/
def left_side (n : NodeTraversal) : NodeSide := ⟨n.node.id, n.backward⟩

/-- The side of a traversal that is left last. -/
def right_side (n : NodeTraversal) : NodeSide := ⟨n.node.id, !n.backward⟩

/-- The maps of a state of `VG::topological_sort` are keyed by the ids of
their values, and no node is both in `s` and unvisited. -/
structure topo_inv (st : TopoState) : Prop where
  idx : index_consistent st.g
  s_keys : ∀ p ∈ st.s, p.2.node.id = p.1
  u_keys : ∀ p ∈ st.unvisited, p.2.id = p.1
  disjoint : ∀ k, (map_find st.s k).isSome = true → map_find st.unvisited k = none

/-- A node id is done in a state of `VG::topological_sort`: it is neither
unvisited nor waiting in `s`. -/
def topo_done (st : TopoState) (k : Int) : Prop :=
  map_find st.unvisited k = none ∧ map_find st.s k = none

/-- No indexed side pair joins two nodes that are both done. -/
def no_done_pair (st : TopoState) : Prop :=
  ∀ p e, map_find st.g.edge_by_sides p = some e →
    ¬ (topo_done st p.1.node ∧ topo_done st p.2.node)

/-- The state `st2` comes after the state `st1` without a node having been
taken out of `s`: the id index is the same, indexed side pairs and unvisited
nodes can only have gone, and a node that is done was done before. -/
structure topo_le (st1 st2 : TopoState) : Prop where
  by_id : st2.g.node_by_id = st1.g.node_by_id
  sides : ∀ p e, map_find st2.g.edge_by_sides p = some e →
    map_find st1.g.edge_by_sides p = some e
  done : ∀ k, topo_done st2 k → topo_done st1 k
  unv : st2.unvisited.length ≤ st1.unvisited.length
  measure : st2.s.length + st2.unvisited.length ≤ st1.s.length + st1.unvisited.length

/-- No side list kept in the side maps is empty. -/
def sides_nonempty (g : VG) : Prop :=
  (∀ p ∈ g.edges_on_start, p.2 ≠ []) ∧ (∀ p ∈ g.edges_on_end, p.2 ≠ [])

/-- The graph with the nodes 1 = `A` and 2 = `C`, the cycle of the plain
edges 1 → 2 and 2 → 1, and the reversing self loop on the end of node 2. -/
def knot_graph : VG :=
  (create_edge
    (create_edge
      (create_edge
        (create_node (create_node VG.empty "A".toList 0).1 "C".toList 0).1
        1 2 false false).1
      2 1 false false).1
    2 2 false true).1

/-! ## Depth-first search and strongly connected components -/

/-- Membership `s.count(x)` in a `std::set` ordered by `lt`: an element
equivalent to `x` is present. -/
def set_mem {α : Type} (lt : α → α → Bool) (x : α) (s : List α) : Bool :=
  s.any (fun y => !lt x y && !lt y x)

/-- Removal `s.erase(x)` from a `std::set` ordered by `lt`. -/
def set_erase {α : Type} (lt : α → α → Bool) (x : α) (s : List α) : List α :=
  s.filter (fun y => lt x y || lt y x)

/-- Order of node ids. -/
def id_lt (a b : Int) : Bool := decide (a < b)

/-- The C++ `operator<` of `std::set<id_t>`: lexicographic comparison of the
sorted elements. -/
def id_set_lt : List Int → List Int → Bool
  | [], [] => false
  | [], _ :: _ => true
  | _ :: _, [] => false
  | a :: as, b :: bs => decide (a < b) || (!decide (b < a) && id_set_lt as bs)

/-- The variables of `VG::dfs`: the map `state` (0 is `PRE`, 1 is `CURR`, 2 is
`POST`; a missing entry reads as `PRE`) and the variables captured by the
callbacks.  The cache `edges` of the C++ code only backs the iterators of the
frames; a frame holds its remaining edges here. -/
structure DfsState (σ : Type) where
  state : List (NodeTraversal × Nat)
  user : σ

/-- The edges that `VG::dfs` collects for a traversal: one per traversal that
follows it; `none` when `get_node` throws or the assertion
`edge != nullptr` fails. -/
def frame_edges (g : VG) (trav : NodeTraversal) : Option (List Edge) :=
  match travs_from g trav with
  | none => none
  | some nexts => all_some (nexts.map (fun next => get_edge_trav g trav next))

/-- The traversal that `VG::dfs` reaches from `trav` over `edge`; `none` when
`get_node` throws. -/
def dfs_target (g : VG) (trav : NodeTraversal) (edge : Edge) : Option NodeTraversal :=
  let is_reversing := edge.from_start != edge.to_end
  if edge.from_ = trav.node.id ∧ edge.to_ ≠ trav.node.id then
    (get_node g edge.to_).map (fun n => (⟨n, trav.backward != is_reversing⟩ : NodeTraversal))
  else if edge.to_ = trav.node.id ∧ edge.from_ ≠ trav.node.id then
    (get_node g edge.from_).map (fun n => (⟨n, trav.backward != is_reversing⟩ : NodeTraversal))
  else some ⟨trav.node, trav.backward != is_reversing⟩

/-- The loop `while (!todo.empty())` of `VG::dfs` with its inner loop over the
edges of the current frame: `trav` and `rest` are the traversal in focus and
its edges still to handle, `todo` the stack of the suspended frames (the back
of the deque first).  `fuel` bounds the number of steps; `none` when it is
used up or a callee does not return. -/
def dfs_walk {σ : Type} (g : VG) (node_begin_fn : σ → NodeTraversal → σ)
    (node_end_fn : σ → NodeTraversal → Option σ) :
    Nat → NodeTraversal → List Edge → List (NodeTraversal × List Edge) → DfsState σ →
      Option (DfsState σ)
  | 0, _, _, _, _ => none
  | fuel + 1, trav, [], todo, st =>
    match node_end_fn st.user trav with
    | none => none
    | some user =>
      let st1 : DfsState σ := { state := map_insert st.state trav 2, user := user }
      match todo with
      | [] => some st1
      | frame :: todo1 => dfs_walk g node_begin_fn node_end_fn fuel frame.1 frame.2 todo1 st1
  | fuel + 1, trav, edge :: rest, todo, st =>
    match dfs_target g trav edge with
    | none => none
    | some target =>
      if (map_find st.state target).getD 0 = 0 then
        match frame_edges g target with
        | none => none
        | some es =>
          dfs_walk g node_begin_fn node_end_fn fuel target es ((trav, rest) :: todo)
            { state := map_insert st.state target 1, user := node_begin_fn st.user target }
      else dfs_walk g node_begin_fn node_end_fn fuel trav rest todo st

/-- The search of `VG::dfs` rooted at one traversal. -/
def dfs_root {σ : Type} (g : VG) (node_begin_fn : σ → NodeTraversal → σ)
    (node_end_fn : σ → NodeTraversal → Option σ) (fuel : Nat) (st : DfsState σ)
    (root : NodeTraversal) : Option (DfsState σ) :=
  if (map_find st.state root).getD 0 = 0 then
    match frame_edges g root with
    | none => none
    | some es =>
      dfs_walk g node_begin_fn node_end_fn fuel root es []
        { state := map_insert st.state root 1, user := node_begin_fn st.user root }
  else some st

/-- `VG::dfs(node_begin_fn, node_end_fn)`: the search rooted at both
orientations of every node, in store order; the callbacks act on the
variables `σ` that they capture. -/
def dfs {σ : Type} (g : VG) (node_begin_fn : σ → NodeTraversal → σ)
    (node_end_fn : σ → NodeTraversal → Option σ) (fuel : Nat) (init : σ) : Option σ :=
  (g.node.foldl
    (fun (acc : Option (DfsState σ)) root_node =>
      match acc with
      | none => none
      | some st =>
        match dfs_root g node_begin_fn node_end_fn fuel st ⟨root_node, false⟩ with
        | none => none
        | some st1 => dfs_root g node_begin_fn node_end_fn fuel st1 ⟨root_node, true⟩)
    (some { state := [], user := init })).map (fun st => st.user)

/-- The variables of `VG::strongly_connected_components`; the back of the
deque `stack` is the head of the list. -/
structure SccState where
  index : Int
  roots : List (NodeTraversal × NodeTraversal)
  discover_idx : List (NodeTraversal × Int)
  stack : List NodeTraversal
  on_stack : List NodeTraversal
  components : List (List Int)

/-- The `do ... while (other != trav)` loop of
`VG::strongly_connected_components`; `none` when the stack runs empty. -/
def pop_component (trav : NodeTraversal) :
    List NodeTraversal → List NodeTraversal → List Int →
      Option (List NodeTraversal × List NodeTraversal × List Int)
  | [], _, _ => none
  | other :: rest, on_stack, component =>
    let on_stack1 := set_erase NodeTraversal.lt other on_stack
    let component1 := set_insert id_lt other.node.id component
    if other = trav then some (rest, on_stack1, component1)
    else pop_component trav rest on_stack1 component1

/-- The first callback of `VG::strongly_connected_components`. -/
def scc_begin (st : SccState) (trav : NodeTraversal) : SccState :=
  { st with roots := map_insert st.roots trav trav,
            discover_idx := map_insert st.discover_idx trav st.index,
            index := st.index + 1,
            stack := trav :: st.stack,
            on_stack := set_insert NodeTraversal.lt trav st.on_stack }

/-- The second callback of `VG::strongly_connected_components`; a missing map
entry reads as the default-constructed value, as with `operator[]`. -/
def scc_end (g : VG) (st : SccState) (trav : NodeTraversal) : Option SccState :=
  match travs_from g trav with
  | none => none
  | some nexts =>
    let st1 := nexts.foldl
      (fun (st : SccState) next =>
        if set_mem NodeTraversal.lt next st.on_stack then
          let node_root := (map_find st.roots trav).getD ⟨⟨0, []⟩, false⟩
          let next_root := (map_find st.roots next).getD ⟨⟨0, []⟩, false⟩
          let root :=
            if (map_find st.discover_idx node_root).getD 0
                < (map_find st.discover_idx next_root).getD 0
            then node_root else next_root
          { st with roots := map_insert st.roots trav root }
        else st) st
    if (map_find st1.roots trav).getD ⟨⟨0, []⟩, false⟩ = trav then
      match pop_component trav st1.stack st1.on_stack [] with
      | none => none
      | some r =>
        some { st1 with stack := r.1, on_stack := r.2.1,
                        components := set_insert id_set_lt r.2.2 st1.components }
    else some st1

/-- `VG::strongly_connected_components`.  The search takes one step per
traversal that it finishes and one per edge of a frame; every edge stands in
at most two frames, which gives the number of steps allowed. -/
def strongly_connected_components (g : VG) : Option (List (List Int)) :=
  (dfs g scc_begin (scc_end g) (2 * g.node.length + 2 * g.edge.length + 1)
    ⟨0, [], [], [], [], []⟩).map (fun st => st.components)

/-- `VG::is_self_looping(Node*)`; `none` when `edges_of` exits. -/
def is_self_looping (g : VG) (node : Node) : Option Bool :=
  (edges_of_node g node).map
    (fun edges => edges.any (fun edge => decide (edge.from_ = node.id ∧ edge.to_ = node.id)))

/-! ## Dagify -/

/-- The variables of `VG::dagify` while one component is unrolled. -/
structure UnrollState where
  dag : VG
  node_translation : List (Int × (Int × Bool))
  min_return_length : List (Node × Nat)
  component_length : Nat
  last : List (Int × Node)

/-- The variables of one pass of the loop over the copies in `VG::dagify`. -/
structure CopyState where
  dag : VG
  node_translation : List (Int × (Int × Bool))
  min_return_length : List (Node × Nat)
  component_length : Nat
  curr : List (Int × Node)
  seen : List Int
  curr_min_min_return_length : Nat

/-- The first loop of `VG::dagify`: a component of one node without a self
loop is copied into `dag` and recorded as weak, any other component is kept
for unrolling.  The result holds `dag`, the translation, the set
`weak_components` and the set of the other components. -/
def dagify_classify (g : VG) :
    List (List Int) → VG × List (Int × (Int × Bool)) × List Int × List (List Int) →
      Option (VG × List (Int × (Int × Bool)) × List Int × List (List Int))
  | [], s => some s
  | component :: rest, s =>
    match component with
    | [id] =>
      match get_node g id with
      | none => none
      | some node =>
        match is_self_looping g node with
        | none => none
        | some true =>
          dagify_classify g rest (s.1, s.2.1, s.2.2.1, set_insert id_set_lt component s.2.2.2)
        | some false =>
          dagify_classify g rest
            (add_node s.1 node, map_insert s.2.1 id (node.id, false),
              set_insert id_lt id s.2.2.1, s.2.2.2)
    | _ =>
      dagify_classify g rest (s.1, s.2.1, s.2.2.1, set_insert id_set_lt component s.2.2.2)

/-- The second loop of `VG::dagify`: the edges between weak components. -/
def dagify_weak_edges (g : VG) (weak_components : List Int) : List Int → VG → Option VG
  | [], dag => some dag
  | id :: rest, dag =>
    match get_node g id with
    | none => none
    | some node =>
      match edges_of_node g node with
      | none => none
      | some edges =>
        dagify_weak_edges g weak_components rest
          (edges.foldl
            (fun dag e =>
              if set_mem id_lt e.from_ weak_components && set_mem id_lt e.to_ weak_components
              then add_edge dag e else dag) dag)

/-- The third loop of `VG::dagify`: the nodes of the other components are
created in `dag` under their ids. -/
def dagify_base_nodes (g : VG) : List Int → VG → Option VG
  | [], dag => some dag
  | id :: rest, dag =>
    match get_node g id with
    | none => none
    | some node => dagify_base_nodes g rest (create_node dag node.sequence id).1

/-- The loop of `VG::dagify` that fills `base`, `min_return_length` and
`component_length` for one component; `none` when `dag.get_node` throws. -/
def dagify_base (dag : VG) :
    List Int → List (Int × Node) × List (Node × Nat) × Nat →
      Option (List (Int × Node) × List (Node × Nat) × Nat)
  | [], s => some s
  | id :: rest, s =>
    match get_node dag id with
    | none => none
    | some node =>
      dagify_base dag rest
        (map_insert s.1 id node, map_insert s.2.1 node node.sequence.length,
          s.2.2 + node.sequence.length)

/-- The loop of one pass of `VG::dagify` that makes (or, with `last` empty,
looks up) the copy of every node of the component. -/
def dagify_copy_nodes (g : VG) (last : List (Int × Node)) : List Int → CopyState → Option CopyState
  | [], st => some st
  | id :: rest, st =>
    if last.isEmpty then
      match get_node st.dag id with
      | none => none
      | some node =>
        dagify_copy_nodes g last rest
          { st with curr := map_insert st.curr id node,
                    node_translation := map_insert st.node_translation node.id (id, false) }
    else
      match get_node g id with
      | none => none
      | some orig =>
        let r := create_node st.dag orig.sequence 0
        dagify_copy_nodes g last rest
          { st with dag := r.1,
                    component_length := st.component_length + r.2.sequence.length,
                    curr := map_insert st.curr id r.2,
                    node_translation := map_insert st.node_translation r.2.id (id, false) }

/-- The update of `min_return_length[curr[id]]` and of
`curr_min_min_return_length` in `VG::dagify`. -/
def dagify_min_return (st : CopyState) (curr_node last_node : Node) : CopyState :=
  let mm0 := (map_find st.min_return_length curr_node).getD 0
  let inmm := curr_node.sequence.length + (map_find st.min_return_length last_node).getD 0
  let mm := if mm0 ≠ 0 then min mm0 inmm else inmm
  { st with min_return_length := map_insert st.min_return_length curr_node mm,
            curr_min_min_return_length :=
              if st.curr_min_min_return_length ≠ 0 then min mm st.curr_min_min_return_length
              else mm }

/-- The edge from the last copy to the current one that `VG::dagify` adds for
an edge `e` that enters node `id` from inside the component; `none` when a
map has no node under the id (a null pointer is dereferenced). -/
def dagify_back_edge (last : List (Int × Node)) (id : Int) (st : CopyState) (e : Edge) :
    Option CopyState :=
  match map_find st.curr id, map_find last e.from_ with
  | some c, some l =>
    some (dagify_min_return
      { st with dag := add_edge st.dag { e with to_ := c.id, from_ := l.id } } c l)
  | _, _ => none

/-- The body of the loop of `VG::dagify` over the edges `e` of the node `id`
of the component. -/
def dagify_edge (component : List Int) (last : List (Int × Node)) (id : Int) (st : CopyState)
    (e : Edge) : Option CopyState :=
  if e.from_ = id ∧ e.to_ ≠ id then
    if !set_mem id_lt e.to_ component then
      match map_find st.curr id with
      | some c => some { st with dag := add_edge st.dag { e with from_ := c.id } }
      | none => none
    else if !set_mem id_lt e.to_ st.seen then
      match map_find st.curr id, map_find st.curr e.to_ with
      | some c, some d =>
        some { st with dag := add_edge st.dag { e with from_ := c.id, to_ := d.id },
                       seen := set_insert id_lt e.to_ st.seen }
      | _, _ => none
    else some st
  else if e.to_ = id ∧ e.from_ ≠ id then
    let st1 :=
      if !set_mem id_lt e.from_ component then
        match map_find st.curr id with
        | some c => some { st with dag := add_edge st.dag { e with to_ := c.id } }
        | none => none
      else if !set_mem id_lt e.from_ st.seen then
        match map_find st.curr id, map_find st.curr e.from_ with
        | some c, some d =>
          some { st with dag := add_edge st.dag { e with to_ := c.id, from_ := d.id },
                         seen := set_insert id_lt e.from_ st.seen }
        | _, _ => none
      else some st
    match st1 with
    | none => none
    | some st2 =>
      if !last.isEmpty && set_mem id_lt e.from_ component then dagify_back_edge last id st2 e
      else some st2
  else if e.to_ = id ∧ e.from_ = id then
    if !last.isEmpty then dagify_back_edge last id st e else some st
  else some st

/-- The loop of one pass of `VG::dagify` over the nodes of the component and
their edges in the input graph. -/
def dagify_edges (g : VG) (component : List Int) (last : List (Int × Node)) :
    List Int → CopyState → Option CopyState
  | [], st => some st
  | id :: rest, st =>
    match get_node g id with
    | none => none
    | some node =>
      match edges_of_node g node with
      | none => none
      | some edges =>
        match edges.foldl
            (fun (acc : Option CopyState) e =>
              match acc with
              | none => none
              | some s => dagify_edge component last id s e)
            (some { st with seen := set_insert id_lt id st.seen }) with
        | none => none
        | some st1 => dagify_edges g component last rest st1

/-- The loop `for (i = 0; i < expand_scc_steps+1; ++i)` of `VG::dagify` for
one component, with `steps` passes left. -/
def dagify_unroll (g : VG) (component : List Int) (base : List (Int × Node))
    (target_min_walk_length component_length_max : Nat) : Nat → UnrollState → Option UnrollState
  | 0, st => some st
  | steps + 1, st =>
    match dagify_copy_nodes g st.last component
        { dag := st.dag, node_translation := st.node_translation,
          min_return_length := st.min_return_length,
          component_length := st.component_length,
          curr := base, seen := [], curr_min_min_return_length := 0 } with
    | none => none
    | some c1 =>
      match dagify_edges g component st.last component c1 with
      | none => none
      | some c2 =>
        let st1 : UnrollState :=
          { dag := c2.dag, node_translation := c2.node_translation,
            min_return_length := c2.min_return_length,
            component_length := c2.component_length, last := st.last }
        if target_min_walk_length ≠ 0
            ∧ c2.curr_min_min_return_length ≥ target_min_walk_length then some st1
        else
          let st2 := { st1 with last := c2.curr }
          if component_length_max ≠ 0 ∧ st2.component_length ≥ component_length_max
          then some st2
          else dagify_unroll g component base target_min_walk_length component_length_max
            steps st2

/-- The last loop of `VG::dagify`, over the components to unroll. -/
def dagify_components (g : VG) (expand_scc_steps target_min_walk_length
    component_length_max : Nat) :
    List (List Int) → VG × List (Int × (Int × Bool)) → Option (VG × List (Int × (Int × Bool)))
  | [], s => some s
  | component :: rest, s =>
    match dagify_base s.1 component ([], [], 0) with
    | none => none
    | some b =>
      match dagify_unroll g component b.1 target_min_walk_length component_length_max
          ((expand_scc_steps + 1) % 2 ^ 32)
          { dag := s.1, node_translation := s.2, min_return_length := b.2.1,
            component_length := b.2.2, last := b.1 } with
      | none => none
      | some st => dagify_components g expand_scc_steps target_min_walk_length
          component_length_max rest (st.dag, st.node_translation)

/-- `VG::dagify(expand_scc_steps, node_translation, target_min_walk_length,
component_length_max)`: the unrolled graph and the translation; `none` when a
callee does not return. -/
def dagify (g : VG) (expand_scc_steps : Nat) (node_translation : List (Int × (Int × Bool)))
    (target_min_walk_length component_length_max : Nat) :
    Option (VG × List (Int × (Int × Bool))) :=
  match strongly_connected_components g with
  | none => none
  | some strong_components =>
    match dagify_classify g strong_components (VG.empty, node_translation, [], []) with
    | none => none
    | some c =>
      match dagify_weak_edges g c.2.2.1 c.2.2.1 c.1 with
      | none => none
      | some dag1 =>
        match dagify_base_nodes g c.2.2.2.flatten dag1 with
        | none => none
        | some dag2 =>
          match dagify_components g expand_scc_steps target_min_walk_length
              component_length_max c.2.2.2 (dag2, c.2.1) with
          | none => none
          | some r => some (flip_doubly_reversed_edges r.1, r.2)

/-- The graph with the nodes 1 = `A` and 2 = `C` and the plain edge from the
end of node 2 to the start of node 1. -/
def back_graph : VG :=
  (create_edge (create_node (create_node VG.empty "A".toList 0).1 "C".toList 0).1
    2 1 false false).1

/-- The graph with the single node 1 = `ACGT` and three self loops on it: the
plain loop from its end to its start, the loop from its start to its start and
the loop from its end to its end. -/
def self_loops_graph : VG :=
  (create_edge
    (create_edge
      (create_edge (create_node VG.empty "ACGT".toList 0).1 1 1 false false).1
      1 1 true false).1
    1 1 false true).1

/-! ## Sibling sets -/

/-- The C++ `operator<` of `std::set<NodeTraversal>`: lexicographic comparison
of the sorted elements. -/
def trav_set_lt : List NodeTraversal → List NodeTraversal → Bool
  | [], [] => false
  | [], _ :: _ => true
  | _ :: _, [] => false
  | a :: as, b :: bs => NodeTraversal.lt a b || (!NodeTraversal.lt b a && trav_set_lt as bs)

/-- The body of the counting loop of `VG::transitive_sibling_sets`: the entry
of the node of `t` in `membership` is set to 1 when it is missing and
incremented otherwise. -/
def membership_step (membership : List (Node × Int)) (t : NodeTraversal) : List (Node × Int) :=
  match map_find membership t.node with
  | none => map_insert membership t.node 1
  | some c => map_insert membership t.node (c + 1)

/-- The first loop of `VG::transitive_sibling_sets`: the map `membership`
after all traversals of all sets have been counted. -/
def count_membership (sibs : List (List NodeTraversal)) : List (Node × Int) :=
  sibs.foldl (fun membership s => s.foldl membership_step membership) []

/-- The flag `is_transitive` of `VG::transitive_sibling_sets` after the loop
over the members of `s`; a missing entry of `membership` reads as 0. -/
def is_transitive (membership : List (Node × Int)) (s : List NodeTraversal) : Bool :=
  !s.any (fun t => decide ((map_find membership t.node).getD 0 > 1))

/-- `VG::transitive_sibling_sets`; the sets are sorted lists, `sibs` is given
in its iteration order. -/
def transitive_sibling_sets (sibs : List (List NodeTraversal)) : List (List NodeTraversal) :=
  let membership := count_membership sibs
  sibs.foldl
    (fun trans_sibs s =>
      if is_transitive membership s then set_insert trav_set_lt s trans_sibs else trans_sibs) []

/-- The number of traversals, over all sets of `sibs`, whose node is `n`. -/
def node_occurrences (sibs : List (List NodeTraversal)) (n : Node) : Nat :=
  (sibs.flatten.map (fun t => t.node)).count n

/-- The graph of one node with the sequence `seq`, created under `id` (a
fresh id when `id` is 0), and the plain self loop from the end of the node to
its start. -/
def self_loop_graph (seq : List Char) (id : Int) : VG :=
  let r := create_node VG.empty seq id
  (create_edge r.1 r.2.id r.2.id false false).1

/-! ## Adjacency of positions -/

/-- `VG::adjacent(const Position&, const Position&)`; `none` when `get_node`
throws.  The offsets are 64-bit signed integers; the comparison of
`pos1.offset()` with `node1->sequence().size()-1` is made on unsigned 64-bit
values. -/
def adjacent (g : VG) (pos1 pos2 : Position) : Option Bool :=
  if pos1.node_id = pos2.node_id then
    if pos1.offset = pos1.offset + 1 then some true else some false
  else
    match get_node g pos1.node_id, get_node g pos2.node_id with
    | some node1, some _ =>
      if pos1.offset % 2 ^ 64 = ((node1.sequence.length : Int) - 1) % 2 ^ 64 ∧ pos2.offset = 0 then
        some (has_edge g ⟨pos1.node_id, true⟩ ⟨pos2.node_id, false⟩)
      else some false
    | _, _ => none

/-- The nodes of the graph `g0` are split between the output `l`, the map `s`
and the map `unvisited` of a state of `VG::topological_sort`: the three hold,
taken together, every stored node exactly once; the maps are keyed by the ids
of their values and share no key, and the seeds are stored nodes. -/
structure topo_part (g0 : VG) (st : TopoState) : Prop where
  by_id : st.g.node_by_id = g0.node_by_id
  nodes : st.g.node = g0.node
  s_vals : ∀ p ∈ st.s, p.2.node.id = p.1 ∧ p.2.node ∈ g0.node
  u_vals : ∀ p ∈ st.unvisited, p.2.id = p.1 ∧ p.2 ∈ g0.node
  seed_vals : ∀ p ∈ st.seeds, p.2.node ∈ g0.node
  s_nodup : keys_nodup st.s
  u_nodup : keys_nodup st.unvisited
  disjoint : ∀ k, (map_find st.s k).isSome = true → map_find st.unvisited k = none
  perm : (st.l.map (fun t => t.node) ++ st.s.map (fun p => p.2.node)
    ++ st.unvisited.map (fun p => p.2)).Perm g0.node

/-! ## Dicing of nodes -/

/-- Modelled from the spec: `Paths::clear_mapping_ranks` (class `Paths` is
not under `src/`) resets the rank of every mapping. -/
def clear_mapping_ranks (paths : Paths) : Paths :=
  paths.map (fun p => (p.1, p.2.map (fun m => { m with rank := 0 })))

/-- The loop `while (node_size/div > max_node_size) ++div` of
`VG::dice_nodes` on `int` values; `fuel` counts the tests allowed, and `none`
stands for a loop that is still running when they are used up. -/
def dice_div : Nat → Int → Int → Int → Option Int
  | 0, _, _, _ => none
  | fuel + 1, node_size, max_node_size, div =>
    if Int.tdiv node_size div > max_node_size then
      dice_div fuel node_size max_node_size (to_int (div + 1))
    else some div

/-- The loop `while (last_division + segment_size < node_size)` of
`VG::dice_nodes` that collects the division points. -/
def dice_divisions : Nat → Int → Int → Int → List Int → Option (List Int)
  | 0, _, _, _, _ => none
  | fuel + 1, node_size, segment_size, last_division, divisions =>
    if to_int (last_division + segment_size) < node_size then
      dice_divisions fuel node_size segment_size (to_int (last_division + segment_size))
        (divisions ++ [to_int (last_division + segment_size)])
    else some divisions

/-- The closure that `VG::dice_nodes` applies to every node; `none` when a
loop does not end within `fuel` tests or `divide_node` does not return. -/
def dice_node (cut_mapping : Mapping → Int → Mapping × Mapping) (max_node_size : Int)
    (fuel : Nat) (g : VG) (n : Node) : Option VG :=
  let node_size := to_int n.sequence.length
  if node_size > max_node_size then
    match dice_div fuel node_size max_node_size 2 with
    | none => none
    | some div =>
      let segment_size := Int.tdiv node_size div
      match dice_divisions fuel node_size segment_size 0 [] with
      | none => none
      | some divisions =>
        let r := divide_node cut_mapping g n divisions []
        if r.1 = Outcome.returned then some r.2.1 else none
  else some g

/-- One pass of the loop of `VG::dice_nodes` over the vector `nodes`; `none`
once a call of the closure did not return. -/
def dice_step (cut_mapping : Mapping → Int → Mapping × Mapping) (max_node_size : Int)
    (fuel : Nat) (acc : Option VG) (n : Node) : Option VG :=
  match acc with
  | none => none
  | some g => dice_node cut_mapping max_node_size fuel g n

/-- The loop of `VG::dice_nodes` over the vector `nodes`. -/
def dice_loop (cut_mapping : Mapping → Int → Mapping × Mapping) (max_node_size : Int)
    (fuel : Nat) (nodes : List Node) (g : VG) : Option VG :=
  nodes.foldl (dice_step cut_mapping max_node_size fuel) (some g)

/-- `VG::dice_nodes(int max_node_size)`.  The auxiliary indexes of class
`Paths` that `rebuild_mapping_aux` restores are not part of the state here. -/
def dice_nodes (cut_mapping : Mapping → Int → Mapping × Mapping) (fuel : Nat) (g : VG)
    (max_node_size : Int) : Option VG :=
  let g1 := { g with paths := clear_mapping_ranks g.paths }
  let r := if max_node_size ≠ 0 then dice_loop cut_mapping max_node_size fuel g1.node g1
    else some g1
  r.map (fun g2 => { g2 with paths := compact_ranks g2.paths })

/-- The graph with the nodes 1 = `ACGTACGTAC` and 2 = `GG`, without edges
and paths. -/
def long_node_graph : VG :=
  (create_node (create_node VG.empty "ACGTACGTAC".toList 0).1 "GG".toList 0).1

/-! ## Simplification of sibling nodes -/

/-- Assignment to the sequence of a stored node through its handle
(`*node->mutable_sequence() = seq`).  A handle is the node record here, so the
record is replaced in the node store and in both node indexes. -/
def set_node_sequence (g : VG) (node : Node) (seq : List Char) : VG :=
  { g with
    node := g.node.map (fun n => if n = node then ⟨node.id, seq⟩ else n),
    node_by_id := g.node_by_id.map
      (fun p => if p.2 = node then (p.1, (⟨node.id, seq⟩ : Node)) else p),
    node_index := g.node_index.map
      (fun p => if p.1 = node then ((⟨node.id, seq⟩ : Node), p.2) else p) }

/-- The loop of `VG::simplify_to_siblings` that finds `min_seq_size`. -/
def min_seq_size (seqs : List (List Char)) : Nat :=
  seqs.foldl (fun m s => if s.length < m then s.length else m) (seqs.headD []).length

/-- The loop of `VG::simplify_to_siblings` that counts the shared characters:
`k` positions are left to look at and `j` characters are shared so far (the
counters `i` and `j` of the source move together). -/
def shared_loop (seqs : List (List Char)) : Nat → Nat → Nat
  | 0, j => j
  | k + 1, j =>
    if seqs.all (fun s => decide (s.get? j = (seqs.headD []).get? j)) then shared_loop seqs k (j + 1)
    else j

/-- The body of the loop of `VG::simplify_to_siblings` that removes the shared
prefix from a sibling and hands the cut mappings to the new node.  The node is
read through the handle, which is the node stored under its id.  The division
and reassignment of the mappings are functions of class `Paths`, which is not
under `src/`; `reassign` stands for them. -/
def shorten_sibling (reassign : Paths → Node → Nat → Int → Paths) (shared_start : Nat)
    (new_id : Int) (g : VG) (sib : NodeTraversal) : VG :=
  match get_node g sib.node.id with
  | none => g
  | some node =>
    let g1 := set_node_sequence g node (node.sequence.drop shared_start)
    { g1 with paths := reassign g1.paths node shared_start new_id }

/-- The body of the last loop of `VG::simplify_to_siblings`: the edges from
the sides in front of the sibling are destroyed and the new node is connected
to the sibling; `none` when `sides_to` does not return. -/
def reconnect_sibling (new_right_side : NodeSide) (acc : Option VG) (sib : NodeTraversal) :
    Option VG :=
  match acc with
  | none => none
  | some g =>
    let old_side : NodeSide := ⟨sib.node.id, sib.backward⟩
    match sides_to g old_side with
    | none => none
    | some sides =>
      let g1 := sides.foldl (fun g side => destroy_edge g side old_side) g
      some (create_edge_sides g1 new_right_side old_side).1

/-- The body of the loop of `VG::simplify_to_siblings` for one set of
siblings; `none` when the set is empty (`sibs.begin()` is dereferenced), a
handle names no stored node, or `sides_to` does not return. -/
def simplify_to_sibling_set (reassign : Paths → Node → Nat → Int → Paths) (g : VG)
    (sibs : List NodeTraversal) : Option VG :=
  match sibs with
  | [] => none
  | first :: _ =>
    match all_some (sibs.map (fun sib => (get_node g sib.node.id).map (fun n => n.sequence))) with
    | none => none
    | some seqs =>
      let shared_start := shared_loop seqs (min_seq_size seqs) 0
      if shared_start = 0 then some g
      else
        let seq := (seqs.headD []).take shared_start
        let r := create_node g seq 0
        let g1 := sibs.foldl (shorten_sibling reassign shared_start r.2.id) r.1
        let new_left_side : NodeSide := ⟨r.2.id, false⟩
        let new_right_side : NodeSide := ⟨r.2.id, true⟩
        match sides_to g1 ⟨first.node.id, first.backward⟩ with
        | none => none
        | some sides =>
          let g2 := sides.foldl (fun g side => (create_edge_sides g side new_left_side).1) g1
          sibs.foldl (reconnect_sibling new_right_side) (some g2)

/-- One pass of the loop of `VG::simplify_to_siblings` over the sets. -/
def simplify_to_step (reassign : Paths → Node → Nat → Int → Paths) (acc : Option VG)
    (sibs : List NodeTraversal) : Option VG :=
  match acc with
  | none => none
  | some g => simplify_to_sibling_set reassign g sibs

/-- `VG::simplify_to_siblings`. -/
def simplify_to_siblings (reassign : Paths → Node → Nat → Int → Paths) (g : VG)
    (to_sibs : List (List NodeTraversal)) : Option VG :=
  (to_sibs.foldl (simplify_to_step reassign) (some g)).map
    (fun g1 => { g1 with paths := compact_ranks g1.paths })

/-- The edge index holds an edge that leads from the side `s` into the side
`side`: an edge stored under the pair of the two sides whose `to` end is `side`
and whose `from` end is `s`. -/
def enters (g : VG) (s side : NodeSide) : Prop :=
  ∃ e, map_find g.edge_by_sides (minmax s side) = some e ∧ e.to_ = side.node
    ∧ e.to_end = side.is_end ∧ e.from_ = s.node ∧ e.from_start = !s.is_end

/-- The id index gives every node under its own id. -/
def by_id_sound (g : VG) : Prop := ∀ id nd, get_node g id = some nd → nd.id = id

/-- The sequence `p` is the longest common prefix of the sequences `seqs`. -/
def is_longest_common_prefix (p : List Char) (seqs : List (List Char)) : Prop :=
  (∀ s ∈ seqs, p <+: s) ∧ ∀ q : List Char, (∀ s ∈ seqs, q <+: s) → q.length ≤ p.length

/-- The graph with the parent 1 = `T`, the siblings 2 = `ACG` and 3 = `ACT` and
the plain edges from node 1 to both siblings. -/
def sibling_graph : VG :=
  (create_edge
    (create_edge
      (create_node (create_node (create_node VG.empty "T".toList 0).1 "ACG".toList 0).1
        "ACT".toList 0).1
      1 2 false false).1
    1 3 false false).1

/-! ## Test for cycles -/

/-- The loop `while (!todo.empty())` of the `VG::dfs` that takes a
`break_fn`, with its inner loop over the edges of the current frame, for
callbacks that may not return: `trav` and `rest` are the traversal in focus
and its edges still to handle, `todo` the stack of the suspended frames (the
back of the deque first).  `break_fn` is not called inside this loop.  `fuel`
bounds the number of steps; `none` when it is used up or a callee does not
return. -/
def dfs_break_walk {σ : Type} (g : VG) (node_begin_fn : σ → NodeTraversal → Option σ)
    (node_end_fn : σ → NodeTraversal → Option σ) :
    Nat → NodeTraversal → List Edge → List (NodeTraversal × List Edge) → DfsState σ →
      Option (DfsState σ)
  | 0, _, _, _, _ => none
  | fuel + 1, trav, [], todo, st =>
    match node_end_fn st.user trav with
    | none => none
    | some user =>
      let st1 : DfsState σ := { state := map_insert st.state trav 2, user := user }
      match todo with
      | [] => some st1
      | frame :: todo1 =>
        dfs_break_walk g node_begin_fn node_end_fn fuel frame.1 frame.2 todo1 st1
  | fuel + 1, trav, edge :: rest, todo, st =>
    match dfs_target g trav edge with
    | none => none
    | some target =>
      if (map_find st.state target).getD 0 = 0 then
        match frame_edges g target with
        | none => none
        | some es =>
          match node_begin_fn st.user target with
          | none => none
          | some user =>
            dfs_break_walk g node_begin_fn node_end_fn fuel target es ((trav, rest) :: todo)
              { state := map_insert st.state target 1, user := user }
      else dfs_break_walk g node_begin_fn node_end_fn fuel trav rest todo st

/-- The search of `VG::dfs` rooted at one traversal; the flag of the result
tells that `break_fn` asked to stop, in which case the frame of the root is not
searched. -/
def dfs_break_root {σ : Type} (g : VG) (node_begin_fn : σ → NodeTraversal → Option σ)
    (node_end_fn : σ → NodeTraversal → Option σ) (break_fn : σ → Bool) (fuel : Nat)
    (st : DfsState σ) (root : NodeTraversal) : Option (DfsState σ × Bool) :=
  if (map_find st.state root).getD 0 = 0 then
    match frame_edges g root with
    | none => none
    | some es =>
      match node_begin_fn st.user root with
      | none => none
      | some user =>
        let st1 : DfsState σ := { state := map_insert st.state root 1, user := user }
        if break_fn user then some (st1, true)
        else (dfs_break_walk g node_begin_fn node_end_fn fuel root es [] st1).map
          (fun st2 => (st2, false))
  else some (st, false)

/-- The body of the loop of `VG::dfs` over the nodes: the search rooted at the
forward and then at the reverse traversal of `root_node`; `break` leaves the
loop over the two orientations only. -/
def dfs_break_node {σ : Type} (g : VG) (node_begin_fn : σ → NodeTraversal → Option σ)
    (node_end_fn : σ → NodeTraversal → Option σ) (break_fn : σ → Bool) (fuel : Nat)
    (acc : Option (DfsState σ)) (root_node : Node) : Option (DfsState σ) :=
  match acc with
  | none => none
  | some st =>
    match dfs_break_root g node_begin_fn node_end_fn break_fn fuel st ⟨root_node, false⟩ with
    | none => none
    | some r =>
      if r.2 then some r.1
      else
        (dfs_break_root g node_begin_fn node_end_fn break_fn fuel r.1 ⟨root_node, true⟩).map
          (fun r2 => r2.1)

/-- `VG::dfs(node_begin_fn, node_end_fn, break_fn)`: the search rooted at both
orientations of every node, in store order; the callbacks act on the
variables `σ` that they capture. -/
def dfs_break {σ : Type} (g : VG) (node_begin_fn : σ → NodeTraversal → Option σ)
    (node_end_fn : σ → NodeTraversal → Option σ) (break_fn : σ → Bool) (fuel : Nat)
    (init : σ) : Option σ :=
  (g.node.foldl (dfs_break_node g node_begin_fn node_end_fn break_fn fuel)
    (some { state := [], user := init })).map (fun st => st.user)

/-- The variables of `VG::is_acyclic` that its callbacks capture. -/
structure AcyclicState where
  seen : List NodeTraversal
  acyclic : Bool
deriving DecidableEq, Repr

/-- The first callback of `VG::is_acyclic`; `none` when `edges_of` exits or
`get_node` throws. -/
def acyclic_begin (g : VG) (st : AcyclicState) (trav : NodeTraversal) : Option AcyclicState :=
  match is_self_looping g trav.node with
  | none => none
  | some looping =>
    match travs_from g trav with
    | none => none
    | some nexts =>
      let acyclic1 := if looping then false else st.acyclic
      let acyclic2 :=
        if nexts.any (fun next => set_mem NodeTraversal.lt next st.seen) then false else acyclic1
      some { seen := if acyclic2 then set_insert NodeTraversal.lt trav st.seen else st.seen,
             acyclic := acyclic2 }

/-- The second callback of `VG::is_acyclic`. -/
def acyclic_end (st : AcyclicState) (trav : NodeTraversal) : Option AcyclicState :=
  some { st with seen := set_erase NodeTraversal.lt trav st.seen }

/-- `VG::is_acyclic`; `fuel` is the number of steps allowed to each search of
`VG::dfs` from a root. -/
def is_acyclic (g : VG) (fuel : Nat) : Option Bool :=
  (dfs_break g (acyclic_begin g) acyclic_end (fun st => !st.acyclic) fuel ⟨[], true⟩).map
    (fun st => st.acyclic)

/-- The traversal `u` is among `travs_from(t)`. -/
def follows (g : VG) (t u : NodeTraversal) : Prop :=
  ∃ nexts, travs_from g t = some nexts ∧ u ∈ nexts

/-- The graph with the nodes 1 = `A` and 2 = `C` and the plain edges from 1 to 2
and from 2 to 1. -/
def two_cycle_graph : VG :=
  (create_edge
    (create_edge (create_node (create_node VG.empty "A".toList 0).1 "C".toList 0).1
      1 2 false false).1
    2 1 false false).1

/-- The entry of the map `state` of `VG::dfs` for a traversal. -/
def search_state {σ : Type} (st : DfsState σ) (t : NodeTraversal) : Nat :=
  (map_find st.state t).getD 0

/-- Every traversal that follows the traversal of a frame is no longer `PRE`
or is reached over an edge that the frame still holds. -/
def frame_pending {σ : Type} (g : VG) (st : DfsState σ) (frame : NodeTraversal × List Edge) :
    Prop :=
  ∀ u, follows g frame.1 u →
    search_state st u ≠ 0 ∨ ∃ e ∈ frame.2, dfs_target g frame.1 e = some u

/-- The state of the search of `VG::is_acyclic` while `acyclic` is set, with
`stack` the traversals of the frames: the traversals in state `CURR` are those
of the stack, each once, and are in `seen`; a traversal that was met is a
stored node that has no self loop; what follows a traversal in state `POST` is
in state `POST`, and no walk leads from such a traversal back to it; no
traversal of the stack is followed by itself or by one further down. -/
structure acyclic_inv (g : VG) (st : DfsState AcyclicState) (stack : List NodeTraversal) :
    Prop where
  curr : ∀ t, search_state st t = 1 ↔ t ∈ stack
  range : ∀ t, search_state st t ≤ 2
  nodup : stack.Nodup
  seen : ∀ t ∈ stack, set_mem NodeTraversal.lt t st.user.seen = true
  stored : ∀ t, search_state st t ≠ 0 → get_node g t.node.id = some t.node
  no_loop : ∀ t, search_state st t ≠ 0 → is_self_looping g t.node = some false
  closed : ∀ t u, search_state st t = 2 → follows g t u → search_state st u = 2
  post_acyclic : ∀ t, search_state st t = 2 → ¬ Relation.TransGen (follows g) t t
  above : stack.Pairwise (fun a b => ¬ follows g a b)

/-! ## Editing paths into the graph -/

/-- Record `Path`: `name` and the list of `mapping`s. -/
structure Path where
  name : String
  mapping : List Mapping
deriving DecidableEq, Repr

/-- Record `Translation`: the paths `from` and `to`. -/
structure Translation where
  from_ : Path
  to_ : Path
deriving DecidableEq, Repr

/-- Modelled from the spec: `edit_is_insertion` (path module, not under
`src/`): an edit with from-length 0 that yields sequence is an insertion
(spec section 3). -/
def edit_is_insertion (e : Edit) : Bool :=
  decide (e.from_length = 0) && decide (0 < e.to_length)

/-- Modelled from the spec: `edit_is_sub` (path module, not under `src/`): an
edit with from-length = to-length = length of its sequence is a substitution
(spec section 3). -/
def edit_is_sub (e : Edit) : Bool :=
  decide (e.from_length = e.to_length) && decide (e.to_length = (e.sequence.length : Int))
    && !e.sequence.isEmpty

/-- The merge of the adjacent match edits of one mapping; `pending` is the
match edit that is being grown. -/
def merge_match_edits : Option Edit → List Edit → List Edit
  | none, [] => []
  | some p, [] => [p]
  | none, e :: rest =>
    if edit_is_match e then merge_match_edits (some e) rest
    else e :: merge_match_edits none rest
  | some p, e :: rest =>
    if edit_is_match e then
      merge_match_edits (some ⟨p.from_length + e.from_length, p.to_length + e.to_length, []⟩) rest
    else p :: e :: merge_match_edits none rest

/-- Modelled from the spec: `simplify(const Path&)` (path module, not under
`src/`) merges the adjacent match edits within each mapping (spec section
4.4, step 1). -/
def simplify (path : Path) : Path :=
  { path with mapping := path.mapping.map (fun m => { m with edit := merge_match_edits none m.edit }) }

/-- Modelled from the spec: `Paths::has_path` (class `Paths` is not under
`src/`): the index has a path of that name. -/
def has_path (paths : Paths) (name : String) : Bool := (map_find paths name).isSome

/-- The statement `breakpoints[node_id].insert(pos)`. -/
def breakpoint_insert (breakpoints : List (Int × List pos_t)) (node_id : Int) (pos : pos_t) :
    List (Int × List pos_t) :=
  map_insert breakpoints node_id (set_insert pos_t.lt pos ((map_find breakpoints node_id).getD []))

/-- The loop of `VG::find_breakpoints` over the edits of one mapping, at edit
number `j`. -/
def find_breakpoints_edits (node_id : Int) :
    Nat → pos_t → List Edit → List (Int × List pos_t) → List (Int × List pos_t)
  | _, _, [], breakpoints => breakpoints
  | j, edit_first_position, e :: rest, breakpoints =>
    let edit_last_position : pos_t :=
      if e.from_length ≠ 0 then
        { edit_first_position with offset := edit_first_position.offset + e.from_length }
      else edit_first_position
    let b1 :=
      if !edit_is_match e || decide (j = 0) then
        breakpoint_insert breakpoints node_id edit_first_position
      else breakpoints
    let b2 :=
      if !edit_is_match e || rest.isEmpty then breakpoint_insert b1 node_id edit_last_position
      else b1
    find_breakpoints_edits node_id (j + 1) edit_last_position rest b2

/-- `VG::find_breakpoints`. -/
def find_breakpoints (path : Path) (breakpoints : List (Int × List pos_t)) :
    List (Int × List pos_t) :=
  path.mapping.foldl
    (fun breakpoints m =>
      if m.position.node_id = 0 then breakpoints
      else find_breakpoints_edits m.position.node_id 0 (make_pos_t m.position) m.edit breakpoints)
    breakpoints

/-- The loop of `VG::forwardize_breakpoints` over the breakpoints of one
node; `none` when the assertion fails. -/
def forwardize_node (node_id : Int) (node_length : Int) :
    List pos_t → List (Int × List pos_t) → Option (List (Int × List pos_t))
  | [], fwd => some fwd
  | pos :: rest, fwd =>
    if pos.offset = node_length then forwardize_node node_id node_length rest fwd
    else if pos.offset > node_length then none
    else if pos.is_rev then
      forwardize_node node_id node_length rest
        (breakpoint_insert fwd node_id (reverse pos node_length))
    else forwardize_node node_id node_length rest (breakpoint_insert fwd node_id pos)

/-- `VG::forwardize_breakpoints`; `none` when an assertion fails. -/
def forwardize_breakpoints (g : VG) (breakpoints : List (Int × List pos_t)) :
    Option (List (Int × List pos_t)) :=
  (map_entries breakpoints).foldl
    (fun (acc : Option (List (Int × List pos_t))) p =>
      match acc with
      | none => none
      | some fwd =>
        match get_node g p.1 with
        | none => none
        | some node => forwardize_node p.1 node.sequence.length p.2 fwd)
    (some [])

/-- The entries of a `std::map` keyed by `pos_t` in the order of its keys. -/
def pos_entries {ν : Type} (m : List (pos_t × ν)) : List (pos_t × ν) :=
  m.foldr (fun p acc => set_insert (fun a b => pos_t.lt a.1 b.1) p acc) []

/-- The entry before the first entry whose key is greater than `pos`, in a
list of entries in key order, with that first entry: `upper_bound` followed by
`--found`.  The result is `none` when no key is greater than `pos`; its first
component is `none` when the entry found is the first one. -/
def upper_bound_prev {ν : Type} (pos : pos_t) :
    Option (pos_t × ν) → List (pos_t × ν) → Option (Option (pos_t × ν) × (pos_t × ν))
  | _, [] => none
  | before, p :: rest =>
    if pos_t.lt pos p.1 then some (before, p) else upper_bound_prev pos (some p) rest

/-- The closure `find_new_node` of `VG::add_nodes_and_edges`: the node that
holds a position of an original node.  The outer `none` stands for a thrown
exception, a failed assertion or an iterator moved before `begin()`, the
inner one for the null pointer. -/
def find_new_node (g : VG) (node_translation : List (pos_t × Option Node)) (old_pos : pos_t) :
    Option (Option Node) :=
  if (map_find node_translation ⟨old_pos.id, false, 0⟩).isNone then
    (get_node g old_pos.id).map some
  else
    match upper_bound_prev old_pos none (pos_entries node_translation) with
    | none => none
    | some (before, found) =>
      if found.1.id ≠ old_pos.id ∨ found.1.is_rev ≠ old_pos.is_rev then some none
      else
        match before with
        | none => none
        | some b =>
          match b.2 with
          | none => none
          | some n => some (some n)

/-- The grouping loop of the closure `create_new_mappings`: one mapping per
run of equal nodes, with a match edit of the length of the run. -/
def group_mappings (is_rev : Bool) : Option (Node × Int) → List Node → List Mapping
  | none, [] => []
  | some r, [] => [⟨⟨r.1.id, 0, is_rev⟩, [⟨r.2, r.2, []⟩], 0⟩]
  | none, n :: rest => group_mappings is_rev (some (n, 1)) rest
  | some r, n :: rest =>
    if r.1 = n then group_mappings is_rev (some (r.1, r.2 + 1)) rest
    else ⟨⟨r.1.id, 0, is_rev⟩, [⟨r.2, r.2, []⟩], 0⟩ :: group_mappings is_rev (some (n, 1)) rest

/-- The closure `create_new_mappings` of `VG::add_nodes_and_edges` for the
positions `p1` to `p2` of one strand of one node; `none` when an assertion
fails. -/
def create_new_mappings (g : VG) (node_translation : List (pos_t × Option Node))
    (p1 p2 : pos_t) (is_rev : Bool) : Option (List Mapping) :=
  let offsets := (List.range (p2.offset - p1.offset + 1).toNat).map (fun k => p1.offset + (k : Int))
  match all_some (offsets.map (fun o =>
      match find_new_node g node_translation { p1 with offset := o } with
      | some (some n) => some n
      | _ => none)) with
  | none => none
  | some nodes => some (group_mappings is_rev none nodes)

/-- The variables of `VG::add_nodes_and_edges`: the graph, the maps
`added_seqs` and `added_nodes`, and the side `dangling` (node 0 when nothing
is dangling). -/
structure EditState where
  g : VG
  added_seqs : List ((pos_t × List Char) × Node)
  added_nodes : List (Node × Path)
  dangling : NodeSide

/-- The part of the loop body of `VG::add_nodes_and_edges` for an edit that
brings new sequence.  `next_position` is the position of the mapping that is
added to `from_path` after the edit, if any.  `none` when a callee does not
return. -/
def add_novel_edit (reverse_complement : List Char → List Char)
    (reverse_complement_path : Path → (Int → Option Int) → Option Path)
    (path : Path) (orig_node_sizes : List (Int × Int)) (m : Mapping) (e : Edit)
    (edit_first_position : pos_t) (next_position : Option Position) (st : EditState) :
    Option EditState :=
  let prev_position := edit_first_position
  let from_path0 : Path :=
    { name := "",
      mapping := ⟨make_position prev_position, [⟨e.from_length, e.to_length, e.sequence⟩], 0⟩ ::
        (match next_position with
         | some p => [⟨p, [], 0⟩]
         | none => []) }
  let from_path1 :=
    if prev_position.is_rev then
      (reverse_complement_path from_path0 (fun id => map_find orig_node_sizes id)).map simplify
    else some from_path0
  match from_path1 with
  | none => none
  | some from_path =>
    match from_path.mapping.head? with
    | none => none
    | some first =>
      let start_pos := make_pos_t first.position
      let fwd_seq := if m.position.is_reverse then reverse_complement e.sequence else e.sequence
      let r : VG × Node × List ((pos_t × List Char) × Node) × List (Node × Path) :=
        match map_find st.added_seqs (start_pos, fwd_seq) with
        | some added => (st.g, added, st.added_seqs, st.added_nodes)
        | none =>
          let c := create_node st.g fwd_seq 0
          (c.1, c.2, map_insert st.added_seqs (start_pos, fwd_seq) c.2,
            map_insert st.added_nodes c.2 from_path)
      let new_node := r.2.1
      let g1 :=
        if !path.name.isEmpty then
          let nm : Mapping :=
            ⟨⟨new_node.id, 0, m.position.is_reverse⟩,
              [⟨new_node.sequence.length, new_node.sequence.length, []⟩], 0⟩
          { r.1 with paths := append_mapping r.1.paths path.name nm }
        else r.1
      let g2 :=
        if st.dangling.node ≠ 0 then
          (create_edge_sides g1 st.dangling ⟨new_node.id, m.position.is_reverse⟩).1
        else g1
      some { g := g2, added_seqs := r.2.2.1, added_nodes := r.2.2.2,
             dangling := ⟨new_node.id, !m.position.is_reverse⟩ }

/-- The part of the loop body of `VG::add_nodes_and_edges` for a match edit;
`none` when a callee does not return or a null pointer is dereferenced. -/
def add_match_edit (node_translation : List (pos_t × Option Node)) (path : Path) (m : Mapping)
    (edit_first_position edit_last_position : pos_t) (st : EditState) : Option EditState :=
  match find_new_node st.g node_translation edit_first_position,
      find_new_node st.g node_translation edit_last_position with
  | some left_node, some right_node =>
    let g1 :=
      if !path.name.isEmpty then
        (create_new_mappings st.g node_translation edit_first_position edit_last_position
            m.position.is_reverse).map
          (fun nms =>
            let paths := nms.foldl (fun paths nm => append_mapping paths path.name nm) st.g.paths
            { st.g with paths := paths })
      else some st.g
    match g1 with
    | none => none
    | some g2 =>
      let g3 :=
        if st.dangling.node ≠ 0 then
          left_node.map (fun l =>
            (create_edge_sides g2 st.dangling ⟨l.id, m.position.is_reverse⟩).1)
        else some g2
      match g3 with
      | none => none
      | some g4 =>
        let dangling : NodeSide :=
          match right_node with
          | some r => ⟨r.id, !m.position.is_reverse⟩
          | none => st.dangling
        some { st with g := g4, dangling := dangling }
  | _, _ => none

/-- The loop of `VG::add_nodes_and_edges` over the edits of the mapping `m`;
`next_mapping` is the mapping after `m` in the path, if there is one. -/
def add_edits (reverse_complement : List Char → List Char)
    (reverse_complement_path : Path → (Int → Option Int) → Option Path)
    (node_translation : List (pos_t × Option Node)) (path : Path)
    (orig_node_sizes : List (Int × Int)) (m : Mapping) (next_mapping : Option Mapping) :
    pos_t → List Edit → EditState → Option EditState
  | _, [], st => some st
  | edit_first_position, e :: rest, st =>
    let edit_last_position : pos_t :=
      { edit_first_position with
          offset := edit_first_position.offset
            + (if e.from_length ≠ 0 then e.from_length - 1 else 0) }
    let st1 :=
      if edit_is_insertion e || edit_is_sub e then
        add_novel_edit reverse_complement reverse_complement_path path orig_node_sizes m e
          edit_first_position
          (if !rest.isEmpty then
            some (make_position
              { edit_first_position with
                  offset := edit_first_position.offset + e.from_length })
           else next_mapping.map (fun nm => nm.position))
          st
      else if edit_is_match e then
        add_match_edit node_translation path m edit_first_position edit_last_position st
      else some st
    match st1 with
    | none => none
    | some st2 =>
      add_edits reverse_complement reverse_complement_path node_translation path
        orig_node_sizes m next_mapping
        { edit_first_position with offset := edit_first_position.offset + e.from_length }
        rest st2

/-- The loop of `VG::add_nodes_and_edges` over the mappings of the path. -/
def add_mappings (reverse_complement : List Char → List Char)
    (reverse_complement_path : Path → (Int → Option Int) → Option Path)
    (node_translation : List (pos_t × Option Node)) (path : Path)
    (orig_node_sizes : List (Int × Int)) : List Mapping → EditState → Option EditState
  | [], st => some st
  | m :: rest, st =>
    match add_edits reverse_complement reverse_complement_path node_translation path
        orig_node_sizes m rest.head? (make_pos_t m.position) m.edit st with
    | none => none
    | some st1 =>
      add_mappings reverse_complement reverse_complement_path node_translation path
        orig_node_sizes rest st1

/-- `VG::add_nodes_and_edges`: the graph and the maps `added_seqs` and
`added_nodes`; `none` when an assertion fails or a callee does not return. -/
def add_nodes_and_edges (reverse_complement : List Char → List Char)
    (reverse_complement_path : Path → (Int → Option Int) → Option Path)
    (g : VG) (path : Path) (node_translation : List (pos_t × Option Node))
    (added_seqs : List ((pos_t × List Char) × Node)) (added_nodes : List (Node × Path))
    (orig_node_sizes : List (Int × Int)) :
    Option (VG × List ((pos_t × List Char) × Node) × List (Node × Path)) :=
  if !path.name.isEmpty && has_path g.paths path.name then none
  else
    (add_mappings reverse_complement reverse_complement_path node_translation path
      orig_node_sizes path.mapping
      { g := g, added_seqs := added_seqs, added_nodes := added_nodes, dangling := ⟨0, false⟩ }).map
      (fun st => (st.g, st.added_seqs, st.added_nodes))

/-- The translation of one node in `VG::make_translation`. -/
def node_translation_of (inv_node_trans : List (Option Node × pos_t))
    (added_nodes : List (Node × Path)) (node : Node) : Translation :=
  let match_length : Int := node.sequence.length
  match map_find inv_node_trans (some node) with
  | some pos =>
    { from_ := ⟨"", [⟨make_position pos, [⟨match_length, match_length, []⟩], 0⟩]⟩,
      to_ := ⟨"", [⟨⟨node.id, 0, pos.is_rev⟩, [⟨match_length, match_length, []⟩], 0⟩]⟩ }
  | none =>
    match map_find added_nodes node with
    | some from_path =>
      { from_ := from_path,
        to_ := ⟨"", [⟨⟨node.id, 0, false⟩, [⟨match_length, match_length, []⟩], 0⟩]⟩ }
    | none =>
      { from_ := ⟨"", [⟨⟨node.id, 0, false⟩, [⟨match_length, match_length, []⟩], 0⟩]⟩,
        to_ := ⟨"", [⟨⟨node.id, 0, false⟩, [⟨match_length, match_length, []⟩], 0⟩]⟩ }

/-- The comparison that `VG::make_translation` gives to `std::sort`. -/
def translation_lt (t1 t2 : Translation) : Bool :=
  match t1.from_.mapping.head?, t2.from_.mapping.head? with
  | none, none =>
    match t1.to_.mapping.head?, t2.to_.mapping.head? with
    | some a, some b => pos_t.lt (make_pos_t a.position) (make_pos_t b.position)
    | _, _ => false
  | none, some _ => true
  | some _, none => false
  | some a, some b => pos_t.lt (make_pos_t a.position) (make_pos_t b.position)

/-- Insertion into a list sorted by `translation_lt`, before the elements
that are not smaller. -/
def translation_insert (t : Translation) : List Translation → List Translation
  | [] => [t]
  | u :: rest => if translation_lt u t then u :: translation_insert t rest else t :: u :: rest

/-- The call of `std::sort` in `VG::make_translation`; elements that the
comparison does not separate keep their order here (the C++ call leaves
their order open). -/
def sort_translations (l : List Translation) : List Translation :=
  l.foldr translation_insert []

/-- The first part of `VG::make_translation`: the translations of the nodes
of the graph, sorted. -/
def forward_translations (g : VG) (node_translation : List (pos_t × Option Node))
    (added_nodes : List (Node × Path)) : List Translation :=
  let inv_node_trans := (pos_entries node_translation).foldl
    (fun (inv : List (Option Node × pos_t)) t =>
      if !t.1.is_rev then map_insert inv t.2 t.1 else inv) []
  sort_translations (g.node.map (node_translation_of inv_node_trans added_nodes))

/-- The translation that `VG::make_translation` appends for the reverse
strand of `trans`; `none` when `reverse_complement_path` does not return. -/
def reverse_translation_of
    (reverse_complement_path : Path → (Int → Option Int) → Option Path)
    (g : VG) (orig_node_sizes : List (Int × Int)) (trans : Translation) : Option Translation :=
  match reverse_complement_path trans.to_
      (fun id => (get_node g id).map (fun n => (n.sequence.length : Int))),
    reverse_complement_path trans.from_ (fun id => map_find orig_node_sizes id) with
  | some t, some f => some { from_ := simplify f, to_ := simplify t }
  | _, _ => none

/-- `VG::make_translation`; `reverse_complement_path` is declared outside
`src/` and is a parameter: it gets the path and the function that looks up
the length of a node (`none` when that function throws or exits), and gives
`none` when it does not return. -/
def make_translation (reverse_complement_path : Path → (Int → Option Int) → Option Path)
    (g : VG) (node_translation : List (pos_t × Option Node)) (added_nodes : List (Node × Path))
    (orig_node_sizes : List (Int × Int)) : Option (List Translation) :=
  let translation := forward_translations g node_translation added_nodes
  match all_some (translation.map
      (reverse_translation_of reverse_complement_path g orig_node_sizes)) with
  | none => none
  | some reverse_translation => some (translation ++ reverse_translation)

/-- The loop of `VG::edit` that checks the edges along one path of the graph
and creates the missing ones; `adjacent_mappings` is declared outside `src/`
and is a parameter. -/
def check_path_edges (adjacent_mappings : Mapping → Mapping → Bool) (g : VG) :
    List Mapping → VG
  | m1 :: m2 :: rest =>
    let g1 :=
      if !adjacent_mappings m1 m2 then g
      else
        let s1 : NodeSide := ⟨m1.position.node_id, !m1.position.is_reverse⟩
        let s2 : NodeSide := ⟨m2.position.node_id, m2.position.is_reverse⟩
        if !has_edge g s1 s2 then (create_edge_sides g s1 s2).1 else g
    check_path_edges adjacent_mappings g1 (m2 :: rest)
  | _ => g

/-- The variables of `VG::edit` at the call of `make_translation`: the graph
after `sort()`, the map returned by `ensure_breakpoints`, the map
`added_nodes` and the map `orig_node_sizes`. -/
structure EditGraph where
  g : VG
  node_translation : List (pos_t × Option Node)
  added_nodes : List (Node × Path)
  orig_node_sizes : List (Int × Int)
deriving DecidableEq

/-- The body of the loop of `VG::edit` that adds the nodes and edges of one
path; `acc` holds the graph and the maps `added_seqs` and `added_nodes`. -/
def add_path (reverse_complement : List Char → List Char)
    (reverse_complement_path : Path → (Int → Option Int) → Option Path)
    (node_translation : List (pos_t × Option Node)) (orig_node_sizes : List (Int × Int))
    (acc : Option (VG × List ((pos_t × List Char) × Node) × List (Node × Path))) (path : Path) :
    Option (VG × List ((pos_t × List Char) × Node) × List (Node × Path)) :=
  match acc with
  | none => none
  | some s =>
    add_nodes_and_edges reverse_complement reverse_complement_path s.1 path node_translation
      s.2.1 s.2.2 orig_node_sizes

/-- The part of `VG::edit` before the call of `make_translation`.  The functions `cut_mapping`,
`reverse_complement`, `reverse_complement_path` and `adjacent_mappings` are
declared outside `src/` and are parameters.  `none` when an assertion fails
or a callee does not return. -/
def edit_graph (cut_mapping : Mapping → Int → Mapping × Mapping)
    (reverse_complement : List Char → List Char)
    (reverse_complement_path : Path → (Int → Option Int) → Option Path)
    (adjacent_mappings : Mapping → Mapping → Bool)
    (g : VG) (paths_to_add : List Path) : Option EditGraph :=
  let simplified_paths := paths_to_add.map simplify
  let breakpoints := simplified_paths.foldl (fun b path => find_breakpoints path b) []
  match forwardize_breakpoints g breakpoints with
  | none => none
  | some fwd =>
    let g1 := { g with paths := clear_mapping_ranks g.paths }
    let orig_node_sizes : List (Int × Int) :=
      g1.node.foldl (fun sizes node => map_insert sizes node.id (node.sequence.length : Int)) []
    match ensure_breakpoints cut_mapping g1 (map_entries fwd) with
    | none => none
    | some b =>
      match simplified_paths.foldl
          (add_path reverse_complement reverse_complement_path b.2 orig_node_sizes)
          (some (b.1, [], [])) with
      | none => none
      | some s =>
        let g2 := { s.1 with paths := compact_ranks s.1.paths }
        let g3 := g2.paths.foldl (fun g p => check_path_edges adjacent_mappings g p.2) g2
        match sort g3 with
        | none => none
        | some g4 => some ⟨g4, b.2, s.2.2, orig_node_sizes⟩

/-- `VG::edit`: the graph after the call and the returned translations. -/
def edit (cut_mapping : Mapping → Int → Mapping × Mapping)
    (reverse_complement : List Char → List Char)
    (reverse_complement_path : Path → (Int → Option Int) → Option Path)
    (adjacent_mappings : Mapping → Mapping → Bool)
    (g : VG) (paths_to_add : List Path) : Option (VG × List Translation) :=
  match edit_graph cut_mapping reverse_complement reverse_complement_path adjacent_mappings g
      paths_to_add with
  | none => none
  | some s =>
    (make_translation reverse_complement_path s.g s.node_translation s.added_nodes
      s.orig_node_sizes).map (fun translation => (s.g, translation))

/-- The alignment path of the insertion example: one mapping at the start of
the forward strand of node 1 with the edits match 3, insertion `TT`,
match 1. -/
def insertion_path : Path :=
  ⟨"", [⟨⟨1, 0, false⟩, [⟨3, 3, []⟩, ⟨0, 2, "TT".toList⟩, ⟨1, 1, []⟩], 0⟩]⟩

/-- The state of `VG::edit` before `make_translation` in the insertion
example, computed with stand-ins for the functions declared outside `src/`. -/
def insertion_state : Option EditGraph :=
  edit_graph (fun m _ => (m, m)) (fun s => s) (fun p _ => some p) (fun _ _ => false)
    acgt_graph [insertion_path]

/-- The value of `insertion_state`. -/
def insertion_result : EditGraph :=
  match insertion_state with
  | some s => s
  | none => ⟨VG.empty, [], [], []⟩

/-! ## Normalization -/

/-- `VG::length`. -/
def length (g : VG) : Nat := g.node.foldl (fun l n => l + n.sequence.length) 0

/-- The graph built by `create_node("A")` and `create_node("C", 2)`: the
nodes 1 = `A` and 2 = `C`; the id counter is 2. -/
def lagging_graph : VG :=
  (create_node (create_node VG.empty "A".toList 0).1 "C".toList 2).1

/-- The graph built by `create_node("AC")`, `create_node("T", 5)`,
`create_node("G", 2)` and `create_edge(5, 2)`: the nodes 1 = `AC`, 5 = `T` and
2 = `G` with the plain edge 5 → 2; the id counter is 2. -/
def lagging_edge_graph : VG :=
  (create_edge
    (create_node
      (create_node (create_node VG.empty "AC".toList 0).1 "T".toList 5).1 "G".toList 2).1
    5 2 false false).1

/-- The graph built by `create_node("A")`, `create_node("ACGT", 2)` and
`create_edge(2, 2)`: the nodes 1 = `A` and 2 = `ACGT` with the plain self loop
2 → 2; the id counter is 2. -/
def lagging_loop_graph : VG :=
  (create_edge
    (create_node (create_node VG.empty "A".toList 0).1 "ACGT".toList 2).1 2 2 false false).1

/-- The graph built by `create_node("T")`, `create_node("ACG", 2)`,
`create_node("ACT", 3)`, `create_edge(1, 2)` and `create_edge(1, 3)`: the
parent 1 = `T` with the siblings 2 = `ACG` and 3 = `ACT`; the id counter
is 2. -/
def lagging_sibling_graph : VG :=
  (create_edge
    (create_edge
      (create_node
        (create_node (create_node VG.empty "T".toList 0).1 "ACG".toList 2).1 "ACT".toList 3).1
      1 2 false false).1
    1 3 false false).1

/-- The graph built by `create_node("GG")` and `create_node("ACGTACGTAC", 2)`:
the nodes 1 = `GG` and 2 = `ACGTACGTAC` without edges; the id counter is 2. -/
def lagging_long_node_graph : VG :=
  (create_node (create_node VG.empty "GG".toList 0).1 "ACGTACGTAC".toList 2).1

/-- The graph built by `create_node("GG")` and `create_node("ACGTACGT", 3)`:
the nodes 1 = `GG` and 3 = `ACGTACGT` without edges; the id counter is 2. -/
def lagging_break_graph : VG :=
  (create_node (create_node VG.empty "GG".toList 0).1 "ACGTACGT".toList 3).1

/-! ## Graphs that are the same up to a renaming of the node ids -/

/-- The entry of the map `discover_idx` for a traversal. -/
def scc_disc (st : SccState) (t : NodeTraversal) : Int := (map_find st.discover_idx t).getD 0

/-- The entry of the map `roots` for a traversal. -/
def scc_root (st : SccState) (t : NodeTraversal) : NodeTraversal :=
  (map_find st.roots t).getD ⟨⟨0, []⟩, false⟩

/-- The walks along `travs_from`: `u` is reached from `t` in any number of
steps. -/
def reaches (g : VG) (t u : NodeTraversal) : Prop := Relation.ReflTransGen (follows g) t u

/-- The list `c` holds exactly the ids of the stored traversals that are
reached from `t` and lead back to it. -/
def component_of (g : VG) (t : NodeTraversal) (c : List Int) : Prop :=
  ∀ id, id ∈ c ↔
    ∃ u : NodeTraversal, u.node.id = id ∧ get_node g u.node.id = some u.node
      ∧ reaches g t u ∧ reaches g u t

/-- Every edge that a frame holds leads to a traversal that follows the
traversal of the frame. -/
def frame_valid (g : VG) (frame : NodeTraversal × List Edge) : Prop :=
  ∀ e ∈ frame.2, ∃ u, dfs_target g frame.1 e = some u ∧ follows g frame.1 u

/-- The state of the search of `strongly_connected_components`, with `gray`
the traversals of the frames of `VG::dfs` (the one in focus first).

The traversals in state `CURR` are those of `gray`; each is followed by the
one above it and was discovered after the ones below it.  The deque `stack`
is ordered by discovery, `on_stack` holds its elements, and it holds the
traversals of `gray` and traversals in state `POST`.  A traversal of `gray`
is its own root.  A traversal in state `POST` on the stack has a root on the
stack that was discovered earlier and is reached from it; what follows it on
the stack was discovered no earlier than its root; and it has a parent on the
stack, discovered earlier with no traversal of `gray` discovered in between,
whose root, once the parent is in state `POST`, was discovered no later than
its own root.  Every traversal on the stack was discovered no earlier than
some traversal of `gray`.  The traversals in state `POST` that left the stack
are closed under `travs_from`, the component of each of them is in
`components`, and `components` holds nothing else. -/
structure scc_inv (g : VG) (st : DfsState SccState) (gray : List NodeTraversal) : Prop where
  curr : ∀ t, search_state st t = 1 ↔ t ∈ gray
  range : ∀ t, search_state st t ≤ 2
  stored : ∀ t, search_state st t ≠ 0 → get_node g t.node.id = some t.node
  black_next : ∀ t u, search_state st t = 2 → follows g t u → search_state st u ≠ 0
  chain : gray.Chain' (fun a b => follows g b a)
  gray_sorted : gray.Pairwise (fun a b => scc_disc st.user b < scc_disc st.user a)
  sorted : st.user.stack.Pairwise (fun a b => scc_disc st.user b < scc_disc st.user a)
  on_stack : ∀ y, y ∈ st.user.on_stack ↔ y ∈ st.user.stack
  met : ∀ t ∈ st.user.stack, search_state st t ≠ 0
  gray_on : ∀ t ∈ gray, t ∈ st.user.stack
  index : ∀ t ∈ st.user.stack, scc_disc st.user t < st.user.index
  gray_root : ∀ t ∈ gray, scc_root st.user t = t
  black_root : ∀ t ∈ st.user.stack, search_state st t = 2 →
    scc_root st.user t ∈ st.user.stack
      ∧ scc_disc st.user (scc_root st.user t) < scc_disc st.user t
      ∧ reaches g t (scc_root st.user t)
  low : ∀ t ∈ st.user.stack, search_state st t = 2 → ∀ u ∈ st.user.stack, follows g t u →
    scc_disc st.user (scc_root st.user t) ≤ scc_disc st.user u
  parent : ∀ v ∈ st.user.stack, search_state st v = 2 →
    ∃ u ∈ st.user.stack, follows g u v ∧ scc_disc st.user u < scc_disc st.user v
      ∧ (∀ z ∈ gray, ¬ (scc_disc st.user u < scc_disc st.user z
          ∧ scc_disc st.user z < scc_disc st.user v))
      ∧ (search_state st u = 2 →
          scc_disc st.user (scc_root st.user u) ≤ scc_disc st.user (scc_root st.user v))
  gray_below : ∀ v ∈ st.user.stack, ∃ z ∈ gray, scc_disc st.user z ≤ scc_disc st.user v
  closed : ∀ t u, search_state st t = 2 → t ∉ st.user.stack → follows g t u →
    search_state st u = 2 ∧ u ∉ st.user.stack
  found : ∀ t, search_state st t = 2 → t ∉ st.user.stack →
    ∃ c ∈ st.user.components, component_of g t c
  sound : ∀ c ∈ st.user.components,
    ∃ t, get_node g t.node.id = some t.node ∧ component_of g t c

/-! ## The search of `strongly_connected_components`: the number of steps -/

/-- Both orientations of every stored node. -/
def all_travs (g : VG) : List NodeTraversal :=
  g.node.flatMap (fun n => [⟨n, false⟩, ⟨n, true⟩])

/-- The steps that `VG::dfs` spends on a traversal: one per edge of its frame
and one to finish it. -/
def trav_cost (g : VG) (t : NodeTraversal) : Nat := 1 + ((frame_edges g t).getD []).length

/-- The steps that `VG::dfs` has yet to spend on the traversals in state
`PRE`. -/
def white_cost {σ : Type} (g : VG) (st : DfsState σ) : Nat :=
  (((all_travs g).filter (fun t => decide (search_state st t = 0))).map (trav_cost g)).sum

/-- A bound on the steps that the loop of `VG::dfs` takes from a state: one
per frame, one per edge that a frame still holds, and the steps for the
traversals in state `PRE`. -/
def walk_cost {σ : Type} (g : VG) (st : DfsState σ) (rest : List Edge)
    (todo : List (NodeTraversal × List Edge)) : Nat :=
  1 + rest.length + (todo.map (fun f => 1 + f.2.length)).sum + white_cost g st

/-- A bound on the steps that one search of `VG::dfs` from a root takes. -/
def total_cost (g : VG) : Nat := ((all_travs g).map (trav_cost g)).sum

/-- The body of the loop of `VG::dfs` over the nodes: the search rooted at the
forward and then at the reverse traversal of a node. -/
def dfs_node {σ : Type} (g : VG) (node_begin_fn : σ → NodeTraversal → σ)
    (node_end_fn : σ → NodeTraversal → Option σ) (fuel : Nat)
    (acc : Option (DfsState σ)) (root_node : Node) : Option (DfsState σ) :=
  match acc with
  | none => none
  | some st =>
    match dfs_root g node_begin_fn node_end_fn fuel st ⟨root_node, false⟩ with
    | none => none
    | some st1 => dfs_root g node_begin_fn node_end_fn fuel st1 ⟨root_node, true⟩

/-- The entries of the side lists of a node, each as the pair of its own side
and the side that the entry names. -/
def side_slots (g : VG) (n : Node) : List (NodeSide × NodeSide) :=
  (edges_start g n.id).map (fun x => ((⟨n.id, false⟩ : NodeSide), (⟨x.1, !x.2⟩ : NodeSide)))
    ++ (edges_end g n.id).map (fun x => ((⟨n.id, true⟩ : NodeSide), (⟨x.1, x.2⟩ : NodeSide)))

/-- The two sides of an edge, in both orders. -/
def edge_slots (e : Edge) : List (NodeSide × NodeSide) :=
  [(⟨e.from_, !e.from_start⟩, ⟨e.to_, e.to_end⟩), (⟨e.to_, e.to_end⟩, ⟨e.from_, !e.from_start⟩)]

/-! ## Graphs without reversing edges -/

/-- Every edge leaves the end of its first node and enters the start of its
second node. -/
def plain_edges (g : VG) : Prop := ∀ e ∈ g.edge, e.from_start = false ∧ e.to_end = false

/-- An edge of the graph leads from node `a` to node `b`. -/
def edge_rel (g : VG) (a b : Int) : Prop := ∃ e ∈ g.edge, e.from_ = a ∧ e.to_ = b

/-- A walk along the edges leads from node `a` to node `b`. -/
def id_reaches (g : VG) (a b : Int) : Prop := Relation.ReflTransGen (edge_rel g) a b

/-! ## Acyclic graphs and ranks of nodes -/

/-- The graph has no closed walk along its edges, each followed from its
`from` node to its `to` node; in particular it has no self loop. -/
def acyclic (g : VG) : Prop := ∀ a, ¬ Relation.TransGen (edge_rel g) a a

/-- The order of the keys that rank the nodes of an unrolled graph: a key is
smaller when its first component is smaller, or the first components agree and
its second component is greater, or the first two components agree and its
third component is smaller. -/
def key_lt (a b : Int × Int × Int) : Prop :=
  a.1 < b.1 ∨ (a.1 = b.1 ∧ (b.2.1 < a.2.1 ∨ (b.2.1 = a.2.1 ∧ a.2.2 < b.2.2)))

/-- Every edge of the graph is plain, leads to a node of smaller key and joins
ids below the next id of the counter; the counter is at least 1 and the id
index leads to nodes that carry the id they are filed under. -/
structure dag_ranked (dag : VG) (K : Int → Int × Int × Int) : Prop where
  plain : ∀ e ∈ dag.edge, e.from_start = false ∧ e.to_end = false
  mono : ∀ e ∈ dag.edge, key_lt (K e.to_) (K e.from_)
  bound : ∀ e ∈ dag.edge, e.from_ < next_id dag ∧ e.to_ < next_id dag
  counter : 1 ≤ dag.current_id
  by_id : ∀ id nd, map_find dag.node_by_id id = some nd → nd.id = id

/-- What the unrolling of one component uses of the input graph: the edges
are plain and join ids below `n0`, the rank is the same on the component and
falls along every edge that crosses its border. -/
structure comp_ctx (g : VG) (rank : Int → Int) (component : List Int) (n0 : Int) : Prop where
  plain : plain_edges g
  below : ∀ e ∈ g.edge, e.from_ < n0 ∧ e.to_ < n0
  level : ∀ a ∈ component, ∀ b ∈ component, rank a = rank b
  cross : ∀ e ∈ g.edge,
    ((e.from_ ∈ component ∧ e.to_ ∉ component) ∨ (e.to_ ∈ component ∧ e.from_ ∉ component)) →
      rank e.to_ < rank e.from_

/-- The state of one pass of the loop over the copies in `VG::dagify`: the
graph is ranked by `K`, which gives rank and level 0 to the ids below `n0`;
the nodes of `last` have ids below `n1` and level `lv`, the nodes of `curr`
have distinct ids from `n1` on and level `lv + 1`, and no edge touches the
copy of a node that is not in `seen`. -/
structure copy_inv (rank : Int → Int) (component : List Int) (n0 n1 lv : Int)
    (last : List (Int × Node)) (K : Int → Int × Int × Int) (dag : VG)
    (curr : List (Int × Node)) (seen : List Int) : Prop where
  ranked : dag_ranked dag K
  orig : ∀ x, x < n0 → K x = (rank x, 0, 0)
  n0_le : n0 ≤ n1
  n1_le : n1 ≤ next_id dag
  last_ok : ∀ x ∈ component, ∃ l, map_find last x = some l ∧ l.id < n1
    ∧ (K l.id).1 = rank x ∧ (K l.id).2.1 = lv
  curr_ok : ∀ x ∈ component, ∃ c, map_find curr x = some c ∧ n1 ≤ c.id ∧ c.id < next_id dag
    ∧ (K c.id).1 = rank x ∧ (K c.id).2.1 = lv + 1
  curr_inj : ∀ x ∈ component, ∀ y ∈ component, ∀ c d, map_find curr x = some c →
    map_find curr y = some d → c.id = d.id → x = y
  isolated : ∀ x ∈ component, x ∉ seen → ∀ c, map_find curr x = some c →
    ∀ e ∈ dag.edge, e.from_ ≠ c.id ∧ e.to_ ≠ c.id

/-- The state between two passes of the loop over the copies in
`VG::dagify`: the graph is ranked by `K`, which gives rank and level 0 to the
ids below `n0`, and the nodes of `last` have level `lv`. -/
structure unroll_inv (rank : Int → Int) (component : List Int) (n0 lv : Int)
    (K : Int → Int × Int × Int) (dag : VG) (last : List (Int × Node)) : Prop where
  ranked : dag_ranked dag K
  orig : ∀ x, x < n0 → K x = (rank x, 0, 0)
  n0_le : n0 ≤ next_id dag
  last_ok : ∀ x ∈ component, ∃ l, map_find last x = some l ∧ l.id < next_id dag
    ∧ (K l.id).1 = rank x ∧ (K l.id).2.1 = lv

/-- The state of the loop of `VG::dagify` that makes the copies of one pass:
the graph is ranked by `K`, its edges join ids below `n1`, the nodes of `last`
have ids below `n1` and level `lv`, and the copies made so far, of the nodes
in `P`, have distinct ids from `n1` on and level `lv + 1`. -/
structure copy_pre (rank : Int → Int) (component : List Int) (n0 n1 lv : Int)
    (last : List (Int × Node)) (K : Int → Int × Int × Int) (dag : VG)
    (curr : List (Int × Node)) (P : Int → Prop) : Prop where
  ranked : dag_ranked dag K
  orig : ∀ x, x < n0 → K x = (rank x, 0, 0)
  n0_le : n0 ≤ n1
  n1_le : n1 ≤ next_id dag
  fresh : ∀ e ∈ dag.edge, e.from_ < n1 ∧ e.to_ < n1
  last_ok : ∀ x ∈ component, ∃ l, map_find last x = some l ∧ l.id < n1
    ∧ (K l.id).1 = rank x ∧ (K l.id).2.1 = lv
  curr_ok : ∀ x, P x → ∃ c, map_find curr x = some c ∧ n1 ≤ c.id ∧ c.id < next_id dag
    ∧ (K c.id).1 = rank x ∧ (K c.id).2.1 = lv + 1
  curr_inj : ∀ x y, P x → P y → ∀ c d, map_find curr x = some c →
    map_find curr y = some d → c.id = d.id → x = y

/-- The counter is at least 1 and no node is filed under the id 0. -/
def no_zero_node (dag : VG) : Prop := 1 ≤ dag.current_id ∧ has_node dag 0 = false

/-- The state of the first loop of `VG::dagify`: `dag` has no edge and an
untouched counter, its id index is sound, its nodes are the weak components,
each of which is a component of one node without a self loop, and the other
components kept for unrolling are components that are not of this kind. -/
structure classify_inv (g : VG) (comps : List (List Int))
    (s : VG × List (Int × (Int × Bool)) × List Int × List (List Int)) : Prop where
  no_edge : s.1.edge = []
  counter : s.1.current_id = 1
  in_store : ∀ x, has_node s.1 x = true → ∃ m ∈ s.1.node, m.id = x
  by_id : ∀ id nd, map_find s.1.node_by_id id = some nd → nd.id = id
  weak_ok : ∀ w ∈ s.2.2.1, [w] ∈ comps ∧ has_node s.1 w = true
    ∧ ∃ node, get_node g w = some node ∧ is_self_looping g node = some false
  scc_ok : ∀ c ∈ s.2.2.2, c ∈ comps
    ∧ ∀ id, c = [id] → ∀ node, get_node g id = some node → is_self_looping g node = some true
  only_weak : ∀ x, has_node s.1 x = true → x ∈ s.2.2.1


/-! # Theorems -/

/-! ## Frame lemmas: fields untouched by the mutators -/

@[simp] theorem create_node_paths (g : VG) (seq : List Char) (id : Int) :
    (create_node g seq id).1.paths = g.paths := by
  unfold create_node; simp only []; split_ifs <;> rfl

@[simp] theorem create_node_sequence (g : VG) (seq : List Char) (id : Int) :
    (create_node g seq id).2.sequence = seq := rfl

theorem index_edge_paths (g : VG) (e : Edge) :
    (index_edge_by_node_sides g e).paths = g.paths := by
  unfold index_edge_by_node_sides; simp only []; split_ifs <;> rfl

theorem set_edge_paths (g : VG) (e : Edge) : (set_edge g e).paths = g.paths := by
  unfold set_edge; split_ifs
  · exact index_edge_paths g e
  · rfl

@[simp] theorem create_edge_paths (g : VG) (a b : Int) (fs te : Bool) :
    (create_edge g a b fs te).1.paths = g.paths := by
  unfold create_edge
  split
  · rfl
  · simp only [set_edge_paths]

theorem create_edges_paths (l : List ((Int × Bool) × (Int × Bool))) (g : VG) :
    (create_edges g l).paths = g.paths := by
  unfold create_edges
  induction l generalizing g with
  | nil => rfl
  | cons e rest ih => simp only [List.foldl_cons]; rw [ih]; simp

theorem connect_parts_paths (parts : List Node) (g : VG) :
    (connect_parts g parts).paths = g.paths := by
  induction parts generalizing g with
  | nil => rfl
  | cons a rest ih =>
    cases rest with
    | nil => rfl
    | cons b rest2 => simp only [connect_parts]; rw [ih]; simp

theorem create_parts_paths (node : Node) (positions : List Int) (last_pos : Int) (g : VG)
    (parts : List Node) :
    (create_parts node positions last_pos g parts).1.paths = g.paths := by
  induction positions generalizing last_pos g parts with
  | nil => rfl
  | cons p rest ih => simp only [create_parts]; rw [ih]; simp

/-! ## Sequences of the parts of a division -/

theorem substr_eq_between (s : List Char) (a b : Int) (ha : 0 ≤ a) (hab : a ≤ b)
    (hb : b ≤ s.length) (hs : s.length < 2 ^ 64) :
    substr s a.toNat (b - a) = between s a b := by
  unfold substr between
  have h1 : (b - a) % 2 ^ 64 = b - a := by
    apply Int.emod_eq_of_lt <;> omega
  rw [h1, List.drop_take]
  congr 1
  omega

theorem create_parts_spec (node : Node) (positions : List Int) :
    ∀ (last_pos : Int) (g : VG) (parts : List Node),
      0 ≤ last_pos → List.Chain (· ≤ ·) last_pos positions →
      (∀ p ∈ positions, p ≤ node.sequence.length) → last_pos ≤ node.sequence.length →
      node.sequence.length < 2 ^ 64 →
      ((create_parts node positions last_pos g parts).2.2.map (fun n => n.sequence)
          ++ [node.sequence.drop (create_parts node positions last_pos g parts).2.1.toNat]
        = parts.map (fun n => n.sequence) ++ expected_sequences node.sequence positions last_pos)
      ∧ (create_parts node positions last_pos g parts).2.2.length
          = parts.length + positions.length := by
  induction positions with
  | nil =>
    intro last_pos g parts h0 _ _ hl _
    simp [create_parts, expected_sequences, between]
  | cons p rest ih =>
    intro last_pos g parts h0 hc hhi hl hs
    rw [List.chain_cons] at hc
    have hp : p ≤ node.sequence.length := hhi p (List.mem_cons_self _ _)
    have ih2 := ih p (create_node g (substr node.sequence last_pos.toNat (p - last_pos)) 0).1
      (parts ++ [(create_node g (substr node.sequence last_pos.toNat (p - last_pos)) 0).2])
      (le_trans h0 hc.1) hc.2 (fun q hq => hhi q (List.mem_cons_of_mem _ hq)) hp hs
    simp only [create_parts]
    refine ⟨?_, ?_⟩
    · rw [ih2.1]
      simp [expected_sequences, substr_eq_between _ _ _ h0 hc.1 hp hs]
    · rw [ih2.2]; simp; omega

theorem flatten_expected_sequences (s : List Char) (positions : List Int) :
    ∀ (last_pos : Int), 0 ≤ last_pos → List.Chain (· ≤ ·) last_pos positions →
      (∀ p ∈ positions, p ≤ s.length) → last_pos ≤ s.length →
      (expected_sequences s positions last_pos).flatten = s.drop last_pos.toNat := by
  induction positions with
  | nil =>
    intro last_pos _ _ _ _
    simp [expected_sequences, between]
  | cons p rest ih =>
    intro last_pos h0 hc hhi hl
    rw [List.chain_cons] at hc
    have hp : p ≤ s.length := hhi p (List.mem_cons_self _ _)
    simp only [expected_sequences, List.flatten_cons]
    rw [ih p (le_trans h0 hc.1) hc.2 (fun q hq => hhi q (List.mem_cons_of_mem _ hq)) hp]
    unfold between
    have : s.drop last_pos.toNat = (s.drop last_pos.toNat).take (p.toNat - last_pos.toNat)
        ++ (s.drop last_pos.toNat).drop (p.toNat - last_pos.toNat) :=
      (List.take_append_drop _ _).symm
    rw [this, List.drop_take, List.drop_drop]
    have h1 := hc.1
    congr 2
    omega

theorem divide_path_mappings_flag (cut_mapping : Mapping → Int → Mapping × Mapping)
    (node : Node) (positions : List Int) (parts : List Node) (ms : List Mapping)
    (h : ∀ m ∈ ms, m.position.node_id = node.id → divide_assertions node m = true) :
    (divide_path_mappings cut_mapping node positions parts ms).1 = true := by
  induction ms with
  | nil => rfl
  | cons m rest ih =>
    have ih2 := ih (fun m2 hm2 => h m2 (List.mem_cons_of_mem _ hm2))
    unfold divide_path_mappings
    by_cases hn : m.position.node_id = node.id
    · simp only [hn, if_true, h m (List.mem_cons_self _ _) hn]
      exact ih2
    · simp only [hn, if_false]
      exact ih2

theorem divide_paths_flag (cut_mapping : Mapping → Int → Mapping × Mapping)
    (node : Node) (positions : List Int) (parts : List Node) (paths : Paths)
    (h : mappings_divisible paths node) :
    (divide_paths cut_mapping node positions parts paths).1 = true := by
  induction paths with
  | nil => rfl
  | cons p rest ih =>
    obtain ⟨name, ms⟩ := p
    have h1 := divide_path_mappings_flag cut_mapping node positions parts ms
      (fun m hm => h (name, ms) (List.mem_cons_self _ _) m hm)
    have ih2 := ih (fun q hq => h q (List.mem_cons_of_mem _ hq))
    simp only [divide_paths, h1, if_true]
    exact ih2

theorem range_check_passes (node : Node) (positions : List Int)
    (hasc : List.Chain (· ≤ ·) 0 positions)
    (hhi : ∀ p ∈ positions, p ≤ node.sequence.length) :
    positions.any (fun pos => decide (pos < 0) || decide (pos > (node.sequence.length : Int)))
      = false := by
  rw [Bool.eq_false_iff]
  intro hany
  rw [List.any_eq_true] at hany
  obtain ⟨p, hp, hbad⟩ := hany
  have h0 : (0 : Int) ≤ p := List.Chain.rel hasc hp
  have h1 := hhi p hp
  simp at hbad
  omega

/-- C1: dividing a node with sequence `S` at an ascending list of offsets
`0 <= p1 <= ... <= pk <= |S|` passes the range check and puts into `parts`, in
order, exactly `k + 1` parts whose sequences are `S[0,p1), S[p1,p2), ...,
S[pk,|S|)`; their concatenation is `S`.  The call returns whenever the mappings
on the node are such as the function's own assertions require.  (`|S|` fits
the `size_t` of the substring arithmetic.) -/
theorem divide_node_parts (cut_mapping : Mapping → Int → Mapping × Mapping)
    (g : VG) (node : Node) (positions : List Int)
    (hasc : List.Chain (· ≤ ·) 0 positions)
    (hhi : ∀ p ∈ positions, p ≤ node.sequence.length)
    (hsize : node.sequence.length < 2 ^ 64) :
    (divide_node cut_mapping g node positions []).1 ≠ Outcome.position_out_of_range
    ∧ (divide_node cut_mapping g node positions []).2.2.length = positions.length + 1
    ∧ (divide_node cut_mapping g node positions []).2.2.map (fun n => n.sequence)
        = expected_sequences node.sequence positions 0
    ∧ ((divide_node cut_mapping g node positions []).2.2.map (fun n => n.sequence)).flatten
        = node.sequence
    ∧ (mappings_divisible g.paths node →
        (divide_node cut_mapping g node positions []).1 = Outcome.returned) := by
  have hspec := create_parts_spec node positions 0 g [] (le_refl _) hasc hhi
    (Int.ofNat_nonneg _) hsize
  have hflat := flatten_expected_sequences node.sequence positions 0 (le_refl _) hasc hhi
    (Int.ofNat_nonneg _)
  have hseq : (divide_node cut_mapping g node positions []).2.2.map (fun n => n.sequence)
      = expected_sequences node.sequence positions 0 := by
    unfold divide_node make_parts
    rw [range_check_passes node positions hasc hhi]
    simp only [Bool.false_eq_true, if_false]
    split_ifs <;>
    · simp only [List.map_append, List.map_cons, List.map_nil, create_node_sequence]
      simpa using hspec.1
  refine ⟨?_, ?_, hseq, ?_, ?_⟩
  · unfold divide_node
    rw [range_check_passes node positions hasc hhi]
    simp only [Bool.false_eq_true, if_false]
    split_ifs <;> simp
  · unfold divide_node make_parts
    rw [range_check_passes node positions hasc hhi]
    simp only [Bool.false_eq_true, if_false]
    split_ifs <;>
    · simp only [List.length_append, List.length_cons, List.length_nil]
      rw [hspec.2]; simp
  · rw [hseq, hflat]; simp
  · intro hmap
    unfold divide_node
    rw [range_check_passes node positions hasc hhi]
    simp only [Bool.false_eq_true, if_false]
    rw [divide_paths_flag]
    · simp
    · simpa [wire_parts, make_parts, connect_parts_paths, create_edges_paths,
        create_parts_paths] using hmap

/-- Witness for C1: the node `ACGTACGT`, covered by a forward mapping of the path
`ref`, divided at offsets 3 and 5 gives the parts `ACG`, `TA`, `CGT`. -/
theorem divide_node_parts_witness :
    expected_sequences "ACGTACGT".toList [3, 5] 0
        = ["ACG".toList, "TA".toList, "CGT".toList]
    ∧ (divide_node (fun m _ => (m, m))
          { (create_node VG.empty "ACGTACGT".toList 0).1 with
            paths := [("ref", [⟨⟨1, 0, false⟩, [], 1⟩])] }
          ⟨1, "ACGTACGT".toList⟩ [3, 5] []).2.2.map (fun n => n.sequence)
        = expected_sequences "ACGTACGT".toList [3, 5] 0 :=
  ⟨by decide,
   (divide_node_parts (fun m _ => (m, m))
      { (create_node VG.empty "ACGTACGT".toList 0).1 with
        paths := [("ref", [⟨⟨1, 0, false⟩, [], 1⟩])] }
      ⟨1, "ACGTACGT".toList⟩ [3, 5] (by simp) (by decide) (by decide)).2.2.1⟩

/-! ## Containers -/

theorem map_find_erase {κ ν : Type} [DecidableEq κ] (m : List (κ × ν)) (k k2 : κ) :
    map_find (map_erase m k) k2 = if k = k2 then none else map_find m k2 := by
  induction m with
  | nil => simp [map_erase, map_find]
  | cons p rest ih =>
    obtain ⟨k1, v⟩ := p
    unfold map_erase at ih ⊢
    by_cases h1 : k1 = k
    · subst h1
      simp only [List.filter_cons, ne_eq, not_true_eq_false, decide_False, Bool.false_eq_true,
        if_false, ih, map_find]
      by_cases h2 : k1 = k2 <;> simp [h2]
    · simp only [List.filter_cons, ne_eq, h1, not_false_eq_true, decide_True, if_true, map_find, ih]
      by_cases h2 : k1 = k2
      · subst h2
        have : ¬ k = k1 := fun h => h1 h.symm
        simp [this]
      · simp [h2]

theorem map_find_insert {κ ν : Type} [DecidableEq κ] (m : List (κ × ν)) (k k2 : κ) (v : ν) :
    map_find (map_insert m k v) k2 = if k = k2 then some v else map_find m k2 := by
  unfold map_insert
  by_cases h : k = k2
  · simp [map_find, h]
  · simp [map_find, h, map_find_erase]

theorem map_find_mem {κ ν : Type} [DecidableEq κ] (m : List (κ × ν)) (k : κ) (v : ν)
    (h : map_find m k = some v) : (k, v) ∈ m := by
  induction m with
  | nil => simp [map_find] at h
  | cons p rest ih =>
    obtain ⟨k1, v1⟩ := p
    simp only [map_find] at h
    by_cases h1 : k1 = k
    · simp only [h1, if_true, Option.some.injEq] at h
      simp [h1, h]
    · simp only [h1, if_false] at h
      exact List.mem_cons_of_mem _ (ih h)

/-! ## Order of node sides -/

theorem NodeSide.lt_asymm (a b : NodeSide) (h : NodeSide.lt a b = true) :
    NodeSide.lt b a = false := by
  obtain ⟨an, ae⟩ := a
  obtain ⟨bn, be⟩ := b
  simp only [NodeSide.lt, Bool.or_eq_true, decide_eq_true_eq, Bool.and_eq_true,
    Bool.not_eq_true'] at h
  simp only [NodeSide.lt, Bool.or_eq_false_iff, decide_eq_false_iff_not, Bool.and_eq_false_imp,
    decide_eq_true_eq, Bool.not_eq_true', Bool.and_eq_true, not_and, Bool.not_eq_true]
  rcases h with h | ⟨h1, h2, h3⟩
  · refine ⟨by omega, fun h2 => by omega⟩
  · subst h1
    refine ⟨by omega, fun _ => ?_⟩
    simp [h2, h3]

theorem NodeSide.lt_total (a b : NodeSide) (h1 : NodeSide.lt a b = false)
    (h2 : NodeSide.lt b a = false) : a = b := by
  obtain ⟨an, ae⟩ := a
  obtain ⟨bn, be⟩ := b
  simp only [NodeSide.lt, Bool.or_eq_false_iff, decide_eq_false_iff_not, Bool.and_eq_false_imp,
    decide_eq_true_eq, Bool.not_eq_true', Bool.and_eq_true, not_and, Bool.not_eq_true] at h1 h2
  have hn : an = bn := by omega
  subst hn
  have := h1.2 rfl
  have := h2.2 rfl
  cases ae <;> cases be <;> simp_all

theorem minmax_comm (a b : NodeSide) : minmax a b = minmax b a := by
  unfold minmax
  by_cases h1 : NodeSide.lt b a = true
  · have h2 := NodeSide.lt_asymm b a h1
    simp [h1, h2]
  · by_cases h2 : NodeSide.lt a b = true
    · simp [h1, h2]
    · have := NodeSide.lt_total a b (by simpa using h2) (by simpa using h1)
      subst this
      simp

theorem minmax_eq_iff (a b c d : NodeSide) :
    minmax a b = minmax c d ↔ (a = c ∧ b = d) ∨ (a = d ∧ b = c) := by
  constructor
  · intro h
    unfold minmax at h
    split_ifs at h <;> simp only [Prod.mk.injEq] at h <;> tauto
  · rintro (⟨h1, h2⟩ | ⟨h1, h2⟩)
    · rw [h1, h2]
    · rw [h1, h2, minmax_comm]

theorem minmax_self_pair (a b : NodeSide) :
    minmax (minmax a b).1 (minmax a b).2 = minmax a b := by
  rw [minmax_eq_iff]
  unfold minmax
  split_ifs <;> simp

theorem swap_last_dropLast_append {α : Type} (a b : List α) (x : α) :
    ∃ r, (swap_elements (a ++ x :: b) a.length ((a ++ x :: b).length - 1)).dropLast = r
      ∧ (r ++ [x]).Perm (a ++ x :: b) := by
  rcases List.eq_nil_or_concat b with hb | ⟨b2, y, hb⟩
  · subst hb
    refine ⟨a, ?_, List.Perm.refl _⟩
    simp [swap_elements]
  · rw [List.concat_eq_append] at hb
    subst hb
    refine ⟨a ++ y :: b2, ?_, ?_⟩
    · have h1 : (a ++ x :: (b2 ++ [y])).length - 1 = a.length + (b2.length + 1) := by
        simp
      rw [h1]
      unfold swap_elements
      have h2 : (a ++ x :: (b2 ++ [y])).get? a.length = some x := by
        rw [List.get?_eq_getElem?, List.getElem?_append_right (le_refl _)]
        simp
      have h3 : (a ++ x :: (b2 ++ [y])).get? (a.length + (b2.length + 1)) = some y := by
        rw [List.get?_eq_getElem?, List.getElem?_append_right (by omega)]
        have : a.length + (b2.length + 1) - a.length = b2.length + 1 := by omega
        rw [this, List.getElem?_cons_succ, List.getElem?_append_right (le_refl _)]
        simp
      rw [h2, h3]
      simp only []
      have h4 : (a ++ x :: (b2 ++ [y])).set a.length y = a ++ y :: (b2 ++ [y]) := by simp
      rw [h4]
      have h5 : (a ++ y :: (b2 ++ [y])).set (a.length + (b2.length + 1)) x
          = a ++ y :: (b2 ++ [x]) := by
        rw [List.set_append_right _ _ (by omega)]
        simp
      rw [h5]
      have : a ++ y :: (b2 ++ [x]) = (a ++ y :: b2) ++ [x] := by simp
      rw [this, List.dropLast_concat]
    · have h1 : a ++ y :: b2 ++ [x] = a ++ (y :: b2 ++ [x]) := by simp
      rw [h1]
      apply List.Perm.append_left
      have h2 : y :: b2 ++ [x] = (y :: b2) ++ [x] := rfl
      rw [h2]
      refine List.Perm.trans List.perm_append_comm ?_
      simp only [List.singleton_append]
      apply List.Perm.cons
      refine List.Perm.trans ?_ List.perm_append_comm
      simp

theorem swap_last_dropLast_perm {α : Type} (l : List α) (i : Nat) (x : α)
    (h : l.get? i = some x) :
    ((swap_elements l i (l.length - 1)).dropLast ++ [x]).Perm l := by
  have hi : i < l.length := by
    rw [List.get?_eq_getElem?] at h
    exact (List.getElem?_eq_some_iff.mp h).1
  have hx : l[i] = x := by
    rw [List.get?_eq_getElem?] at h
    exact (List.getElem?_eq_some_iff.mp h).2
  have hd : l = l.take i ++ x :: l.drop (i + 1) := by
    rw [← hx]; simp
  have hl : (l.take i).length = i := by simp; omega
  obtain ⟨r, hr, hp⟩ := swap_last_dropLast_append (l.take i) (l.drop (i + 1)) x
  rw [hl, ← hd] at hr
  rw [hr]
  rw [← hd] at hp
  exact hp

theorem removed_of_perm {α : Type} (r l : List α) (x : α)
    (hp : (r ++ [x]).Perm l) (hn : l.Nodup) :
    r.Nodup ∧ ∀ y, y ∈ r ↔ (y ∈ l ∧ y ≠ x) := by
  have hn2 : (r ++ [x]).Nodup := hp.nodup_iff.mpr hn
  rw [List.nodup_append] at hn2
  obtain ⟨hr, _, hdis⟩ := hn2
  refine ⟨hr, fun y => ⟨fun hy => ⟨hp.mem_iff.mp (by simp [hy]), ?_⟩, ?_⟩⟩
  · intro hyx
    subst hyx
    exact hdis hy (by simp)
  · rintro ⟨hy, hyx⟩
    have := hp.mem_iff.mpr hy
    simp only [List.mem_append, List.mem_singleton] at this
    tauto

theorem swap_remove_not_mem {α : Type} [DecidableEq α] (v : List α) (e : α) (h : e ∉ v) :
    swap_remove v e = v := by
  unfold swap_remove
  have : ¬ v.indexOf e < v.length := by rw [List.indexOf_lt_length]; exact h
  simp [this]

theorem swap_remove_perm {α : Type} [DecidableEq α] (v : List α) (e : α) (h : e ∈ v) :
    (swap_remove v e ++ [e]).Perm v := by
  unfold swap_remove
  have h1 : v.indexOf e < v.length := List.indexOf_lt_length.mpr h
  simp only [h1, if_true]
  exact swap_last_dropLast_perm v _ e (List.indexOf_get? h)

theorem swap_remove_spec {α : Type} [DecidableEq α] (v : List α) (e : α) (hn : v.Nodup) :
    (swap_remove v e).Nodup ∧ ∀ y, y ∈ swap_remove v e ↔ (y ∈ v ∧ y ≠ e) := by
  by_cases h : e ∈ v
  · exact removed_of_perm _ _ _ (swap_remove_perm v e h) hn
  · rw [swap_remove_not_mem v e h]
    refine ⟨hn, fun y => ⟨fun hy => ⟨hy, fun hye => h (hye ▸ hy)⟩, fun hy => hy.1⟩⟩

/-! ## The side lists as functions of the node id -/

theorem side_list_push (m : List (Int × List (Int × Bool))) (id n : Int) (x : Int × Bool) :
    (map_find (push_side m id x) n).getD []
      = if id = n then (map_find m n).getD [] ++ [x] else (map_find m n).getD [] := by
  unfold push_side
  rw [map_find_insert]
  by_cases h : id = n
  · subst h; simp
  · simp [h]

theorem side_list_unindex (m : List (Int × List (Int × Bool))) (id n : Int) (x : Int × Bool) :
    (map_find (unindex_side m id x) n).getD []
      = if id = n then swap_remove ((map_find m n).getD []) x else (map_find m n).getD [] := by
  unfold unindex_side
  by_cases h : id = n
  · subst h
    cases hf : map_find m id with
    | none => simp [swap_remove, swap_elements, hf]
    | some v =>
      simp only [if_true, Option.getD_some]
      by_cases he : (swap_remove v x).isEmpty = true
      · simp only [he, if_true, map_find_erase]
        simp only [List.isEmpty_iff] at he
        simp [he]
      · simp [he, map_find_insert]
  · simp only [h, if_false]
    cases hf : map_find m id with
    | none => rfl
    | some v =>
      simp only []
      split_ifs
      · simp [map_find_erase, h]
      · simp [map_find_insert, h]

theorem side_list_erase (m : List (Int × List (Int × Bool))) (id n : Int) :
    (map_find (map_erase m id) n).getD []
      = if id = n then [] else (map_find m n).getD [] := by
  rw [map_find_erase]
  by_cases h : id = n <;> simp [h]

/-! ## Side-list entries of an edge -/

theorem mem_start_entries (e : Edge) (n : Int) (x : Int × Bool) :
    x ∈ start_entries e n ↔ pair_from_start_edge n x = pair_from_edge e := by
  obtain ⟨f, t, fs, te⟩ := e
  obtain ⟨m, r⟩ := x
  simp only [pair_from_start_edge, pair_from_edge, minmax_eq_iff, NodeSide.mk.injEq,
    start_entries, List.mem_append]
  cases fs <;> cases te <;> cases r <;> by_cases h1 : f = n <;> by_cases h2 : t = n <;>
    by_cases h3 : f = t <;> simp_all <;> omega

theorem mem_end_entries (e : Edge) (n : Int) (x : Int × Bool) :
    x ∈ end_entries e n ↔ pair_from_end_edge n x = pair_from_edge e := by
  obtain ⟨f, t, fs, te⟩ := e
  obtain ⟨m, r⟩ := x
  simp only [pair_from_end_edge, pair_from_edge, minmax_eq_iff, NodeSide.mk.injEq,
    end_entries, List.mem_append]
  cases fs <;> cases te <;> cases r <;> by_cases h1 : f = n <;> by_cases h2 : t = n <;>
    by_cases h3 : f = t <;> simp_all <;> omega

theorem start_entries_length (e : Edge) (n : Int) : (start_entries e n).length ≤ 1 := by
  obtain ⟨f, t, fs, te⟩ := e
  simp only [start_entries]
  cases fs <;> cases te <;> by_cases h1 : f = n <;> by_cases h2 : t = n <;> simp_all

theorem end_entries_length (e : Edge) (n : Int) : (end_entries e n).length ≤ 1 := by
  obtain ⟨f, t, fs, te⟩ := e
  simp only [end_entries]
  cases fs <;> cases te <;> by_cases h1 : f = n <;> by_cases h2 : t = n <;> simp_all

/-! ## Effect of indexing and unindexing an edge -/

theorem index_edge_fields (g : VG) (e : Edge) :
    (index_edge_by_node_sides g e).edge = g.edge
    ∧ (index_edge_by_node_sides g e).node = g.node
    ∧ (index_edge_by_node_sides g e).node_by_id = g.node_by_id
    ∧ (index_edge_by_node_sides g e).node_index = g.node_index
    ∧ (index_edge_by_node_sides g e).edge_index = g.edge_index
    ∧ (index_edge_by_node_sides g e).current_id = g.current_id
    ∧ (index_edge_by_node_sides g e).edge_by_sides
        = map_insert g.edge_by_sides (pair_from_edge e) e := by
  unfold index_edge_by_node_sides
  simp only []
  split_ifs <;> simp

theorem index_edge_start (g : VG) (e : Edge) (n : Int) :
    edges_start (index_edge_by_node_sides g e) n = edges_start g n ++ start_entries e n := by
  obtain ⟨f, t, fs, te⟩ := e
  unfold index_edge_by_node_sides edges_start start_entries
  simp only []
  cases fs <;> cases te <;> by_cases h1 : f = n <;> by_cases h2 : t = n <;>
    by_cases h3 : f = t <;> simp_all [side_list_push]

theorem index_edge_end (g : VG) (e : Edge) (n : Int) :
    edges_end (index_edge_by_node_sides g e) n = edges_end g n ++ end_entries e n := by
  obtain ⟨f, t, fs, te⟩ := e
  unfold index_edge_by_node_sides edges_end end_entries
  simp only []
  cases fs <;> cases te <;> by_cases h1 : f = n <;> by_cases h2 : t = n <;>
    by_cases h3 : f = t <;> simp_all [side_list_push]

theorem unindex_edge_fields (g : VG) (e : Edge) (h : has_edge_rec g e = true) :
    (unindex_edge_by_node_sides g e).edge = g.edge
    ∧ (unindex_edge_by_node_sides g e).node = g.node
    ∧ (unindex_edge_by_node_sides g e).node_by_id = g.node_by_id
    ∧ (unindex_edge_by_node_sides g e).node_index = g.node_index
    ∧ (unindex_edge_by_node_sides g e).edge_index = g.edge_index
    ∧ (unindex_edge_by_node_sides g e).current_id = g.current_id
    ∧ (unindex_edge_by_node_sides g e).paths = g.paths
    ∧ (unindex_edge_by_node_sides g e).edge_by_sides
        = map_erase g.edge_by_sides (pair_from_edge e) := by
  unfold unindex_edge_by_node_sides
  simp only [h, Bool.not_true, Bool.false_eq_true, if_false]
  split_ifs <;> simp

theorem unindex_edge_start (g : VG) (e : Edge) (n : Int) (h : has_edge_rec g e = true) :
    edges_start (unindex_edge_by_node_sides g e) n
      = (start_entries e n).foldl swap_remove (edges_start g n) := by
  obtain ⟨f, t, fs, te⟩ := e
  unfold unindex_edge_by_node_sides edges_start start_entries
  simp only [h, Bool.not_true, Bool.false_eq_true, if_false]
  cases fs <;> cases te <;> by_cases h1 : f = n <;> by_cases h2 : t = n <;>
    by_cases h3 : f = t <;> simp_all [side_list_unindex]

theorem unindex_edge_end (g : VG) (e : Edge) (n : Int) (h : has_edge_rec g e = true) :
    edges_end (unindex_edge_by_node_sides g e) n
      = (end_entries e n).foldl swap_remove (edges_end g n) := by
  obtain ⟨f, t, fs, te⟩ := e
  unfold unindex_edge_by_node_sides edges_end end_entries
  simp only [h, Bool.not_true, Bool.false_eq_true, if_false]
  cases fs <;> cases te <;> by_cases h1 : f = n <;> by_cases h2 : t = n <;>
    by_cases h3 : f = t <;> simp_all [side_list_unindex]

/-! ## `create_edge` -/

theorem create_edge_existing (g : VG) (a b : Int) (fs te : Bool) (e : Edge)
    (h : get_edge g ⟨a, !fs⟩ ⟨b, te⟩ = some e) :
    create_edge g a b fs te = (g, e) := by
  unfold create_edge; rw [h]

theorem create_edge_fresh (g : VG) (a b : Int) (fs te : Bool)
    (h : get_edge g ⟨a, !fs⟩ ⟨b, te⟩ = none) :
    (create_edge g a b fs te).2 = ⟨a, b, fs, te⟩
    ∧ (create_edge g a b fs te).1.edge = g.edge ++ [⟨a, b, fs, te⟩]
    ∧ (create_edge g a b fs te).1.edge_by_sides
        = map_insert g.edge_by_sides (pair_from_edge ⟨a, b, fs, te⟩) ⟨a, b, fs, te⟩
    ∧ (create_edge g a b fs te).1.edge_index
        = map_insert g.edge_index ⟨a, b, fs, te⟩ g.edge.length
    ∧ (∀ n, edges_start (create_edge g a b fs te).1 n
        = edges_start g n ++ start_entries ⟨a, b, fs, te⟩ n)
    ∧ (∀ n, edges_end (create_edge g a b fs te).1 n
        = edges_end g n ++ end_entries ⟨a, b, fs, te⟩ n) := by
  have hne : has_edge_rec { g with edge := g.edge ++ [(⟨a, b, fs, te⟩ : Edge)] } ⟨a, b, fs, te⟩
      = false := by
    unfold has_edge_rec pair_from_edge
    unfold get_edge at h
    simp [h]
  have hf := index_edge_fields { g with edge := g.edge ++ [(⟨a, b, fs, te⟩ : Edge)] }
    ⟨a, b, fs, te⟩
  unfold create_edge
  rw [h]
  simp only [set_edge, hne, Bool.not_false, if_true]
  refine ⟨trivial, hf.1, hf.2.2.2.2.2.2, ?_, ?_, ?_⟩
  · simp [hf.1, hf.2.2.2.2.1]
  · intro n
    exact index_edge_start { g with edge := g.edge ++ [(⟨a, b, fs, te⟩ : Edge)] } _ n
  · intro n
    exact index_edge_end { g with edge := g.edge ++ [(⟨a, b, fs, te⟩ : Edge)] } _ n

theorem create_edge_frame (g : VG) (a b : Int) (fs te : Bool) :
    (create_edge g a b fs te).1.node = g.node
    ∧ (create_edge g a b fs te).1.node_by_id = g.node_by_id
    ∧ (create_edge g a b fs te).1.node_index = g.node_index
    ∧ (create_edge g a b fs te).1.current_id = g.current_id := by
  unfold create_edge
  split
  · simp
  · unfold set_edge
    simp only []
    split_ifs
    · have hf := index_edge_fields { g with edge := g.edge ++ [(⟨a, b, fs, te⟩ : Edge)] }
        ⟨a, b, fs, te⟩
      exact ⟨hf.2.1, hf.2.2.1, hf.2.2.2.1, hf.2.2.2.2.2.1⟩
    · exact ⟨rfl, rfl, rfl, rfl⟩

theorem create_edge_consistent (g : VG) (a b : Int) (fs te : Bool)
    (hc : edges_consistent g) : edges_consistent (create_edge g a b fs te).1 := by
  cases h : get_edge g ⟨a, !fs⟩ ⟨b, te⟩ with
  | some e => rw [create_edge_existing g a b fs te e h]; exact hc
  | none =>
    obtain ⟨_, hedge, hsides, hidx, hstart, hend⟩ := create_edge_fresh g a b fs te h
    have hnone : map_find g.edge_by_sides (pair_from_edge ⟨a, b, fs, te⟩) = none := h
    have hnot : (⟨a, b, fs, te⟩ : Edge) ∉ g.edge := fun hm => by
      have := hc.by_sides_complete _ hm
      rw [hnone] at this
      exact Option.noConfusion this
    refine ⟨?_, ?_, ?_, ?_, ?_, ?_, ?_, ?_⟩
    · intro p e hp
      rw [hsides, map_find_insert] at hp
      rw [hedge]
      by_cases hpe : pair_from_edge ⟨a, b, fs, te⟩ = p
      · simp only [hpe, if_true, Option.some.injEq] at hp
        subst hp
        exact ⟨by simp, hpe⟩
      · simp only [hpe, if_false] at hp
        have := hc.by_sides_sound p e hp
        exact ⟨List.mem_append_left _ this.1, this.2⟩
    · intro e he
      rw [hedge, List.mem_append, List.mem_singleton] at he
      rw [hsides, map_find_insert]
      rcases he with he | he
      · have hf := hc.by_sides_complete e he
        have hpe : pair_from_edge ⟨a, b, fs, te⟩ ≠ pair_from_edge e := fun heq => by
          rw [← heq, hnone] at hf
          exact Option.noConfusion hf
        simp only [hpe, if_false]
        exact hf
      · subst he; simp
    · rw [hedge]
      exact List.Nodup.append hc.edge_nodup (List.nodup_singleton _)
        (by simpa using hnot)
    · intro e he
      rw [hedge, List.mem_append, List.mem_singleton] at he
      rw [hidx, hedge]
      rcases he with he | he
      · obtain ⟨i, hi, hget⟩ := hc.edge_index_ok e he
        have hne : (⟨a, b, fs, te⟩ : Edge) ≠ e := fun heq => hnot (heq ▸ he)
        refine ⟨i, by rw [map_find_insert]; simp [hne, hi], ?_⟩
        rw [List.get?_eq_getElem?] at hget ⊢
        have hlt : i < g.edge.length := (List.getElem?_eq_some_iff.mp hget).1
        rw [List.getElem?_append_left hlt]
        exact hget
      · subst he
        refine ⟨g.edge.length, by rw [map_find_insert]; simp, ?_⟩
        rw [List.get?_eq_getElem?, List.getElem?_append_right (le_refl _)]
        simp
    · intro n
      rw [hstart]
      refine List.Nodup.append (hc.start_nodup n) ?_ ?_
      · have := start_entries_length ⟨a, b, fs, te⟩ n
        match hl : start_entries ⟨a, b, fs, te⟩ n with
        | [] => exact List.nodup_nil
        | [x] => exact List.nodup_singleton x
        | x :: y :: rest => rw [hl] at this; simp at this
      · intro x hx1 hx2
        rw [mem_start_entries] at hx2
        have := (hc.start_iff n x).mp hx1
        rw [hx2, hnone] at this
        simp at this
    · intro n x
      rw [hstart, List.mem_append, hsides, map_find_insert, mem_start_entries, hc.start_iff]
      by_cases hpe : pair_from_edge ⟨a, b, fs, te⟩ = pair_from_start_edge n x
      · simp [hpe]
      · have : ¬ pair_from_start_edge n x = pair_from_edge ⟨a, b, fs, te⟩ := fun h2 => hpe h2.symm
        simp [hpe, this]
    · intro n
      rw [hend]
      refine List.Nodup.append (hc.end_nodup n) ?_ ?_
      · have := end_entries_length ⟨a, b, fs, te⟩ n
        match hl : end_entries ⟨a, b, fs, te⟩ n with
        | [] => exact List.nodup_nil
        | [x] => exact List.nodup_singleton x
        | x :: y :: rest => rw [hl] at this; simp at this
      · intro x hx1 hx2
        rw [mem_end_entries] at hx2
        have := (hc.end_iff n x).mp hx1
        rw [hx2, hnone] at this
        simp at this
    · intro n x
      rw [hend, List.mem_append, hsides, map_find_insert, mem_end_entries, hc.end_iff]
      by_cases hpe : pair_from_edge ⟨a, b, fs, te⟩ = pair_from_end_edge n x
      · simp [hpe]
      · have : ¬ pair_from_end_edge n x = pair_from_edge ⟨a, b, fs, te⟩ := fun h2 => hpe h2.symm
        simp [hpe, this]

/-! ## Removal of one element of a repeated field by swap and drop -/

theorem nodup_get?_inj {α : Type} (l : List α) (i j : Nat) (x : α) (hn : l.Nodup)
    (h1 : l.get? i = some x) (h2 : l.get? j = some x) : i = j := by
  rw [List.get?_eq_getElem?] at h1 h2
  obtain ⟨hi, hxi⟩ := List.getElem?_eq_some_iff.mp h1
  obtain ⟨hj, hxj⟩ := List.getElem?_eq_some_iff.mp h2
  exact (List.Nodup.getElem_inj_iff hn).mp (hxi.trans hxj.symm)

theorem swap_last_dropLast_get? {α : Type} (l : List α) (i k : Nat) (x y : α)
    (hi : l.get? i = some x) (hl : l.get? (l.length - 1) = some y) :
    ((swap_elements l i (l.length - 1)).dropLast).get? k
      = if k < l.length - 1 then (if k = i then some y else l.get? k) else none := by
  have hilt : i < l.length := by
    rw [List.get?_eq_getElem?] at hi
    exact (List.getElem?_eq_some_iff.mp hi).1
  unfold swap_elements
  rw [hi, hl]
  simp only [List.get?_eq_getElem?, List.getElem?_dropLast, List.length_set]
  by_cases hk : k < l.length - 1
  · simp only [hk, if_true]
    have hne : l.length - 1 ≠ k := by omega
    rw [List.getElem?_set_ne hne, List.getElem?_set]
    by_cases hki : k = i
    · subst hki; simp [hilt]
    · have : ¬ i = k := fun h => hki h.symm
      simp [hki, this]
  · simp [hk]

theorem destroyed_list_spec {α : Type} (l : List α) (i : Nat) (x : α) (hn : l.Nodup)
    (hi : l.get? i = some x) :
    ((swap_elements l i (l.length - 1)).dropLast).Nodup
    ∧ (∀ y, y ∈ (swap_elements l i (l.length - 1)).dropLast ↔ (y ∈ l ∧ y ≠ x))
    ∧ (swap_elements l i (l.length - 1)).dropLast.length + 1 = l.length :=
  have hp := swap_last_dropLast_perm l i x hi
  ⟨(removed_of_perm _ _ _ hp hn).1, (removed_of_perm _ _ _ hp hn).2, by
    have := hp.length_eq
    simpa using this⟩

/-! ## `destroy_edge` -/

theorem si_start_congr (g1 g2 : VG) (h : g1.edges_on_start = g2.edges_on_start) (n : Int) :
    edges_start g1 n = edges_start g2 n := by
  unfold edges_start; rw [h]

theorem si_end_congr (g1 g2 : VG) (h : g1.edges_on_end = g2.edges_on_end) (n : Int) :
    edges_end g1 n = edges_end g2 n := by
  unfold edges_end; rw [h]

theorem destroy_edge_rec_eq (g : VG) (hc : edges_consistent g) (e : Edge) (he : e ∈ g.edge) :
    ∃ i last, g.edge.get? i = some e ∧ map_find g.edge_index e = some i
      ∧ g.edge.get? (g.edge.length - 1) = some last ∧
      destroy_edge_rec g e =
        { unindex_edge_by_node_sides g e with
          edge := (swap_elements g.edge i (g.edge.length - 1)).dropLast
          edge_index :=
            if g.edge.length - 1 ≠ i then
              map_insert (map_erase (map_erase g.edge_index e) last) last i
            else map_erase g.edge_index e } := by
  have hhas : has_edge_rec g e = true := by
    unfold has_edge_rec; rw [hc.by_sides_complete e he]; rfl
  obtain ⟨i, hidx, hget⟩ := hc.edge_index_ok e he
  have hilt : i < g.edge.length := by
    rw [List.get?_eq_getElem?] at hget
    exact (List.getElem?_eq_some_iff.mp hget).1
  have hlast : ∃ last, g.edge.get? (g.edge.length - 1) = some last := by
    have hlt : g.edge.length - 1 < g.edge.length := by omega
    exact ⟨g.edge.get ⟨g.edge.length - 1, hlt⟩, List.get?_eq_get hlt⟩
  obtain ⟨last, hlast⟩ := hlast
  refine ⟨i, last, hget, hidx, hlast, ?_⟩
  obtain ⟨hu1, hu2, hu3, hu4, hu5, hu6, hu7, hu8⟩ := unindex_edge_fields g e hhas
  unfold destroy_edge_rec
  simp only [hhas, Bool.not_true, Bool.false_eq_true, if_false, hu1, hu5, hidx, Option.getD_some,
    hlast]
  by_cases hle : g.edge.length - 1 = i
  · have hsw : swap_elements g.edge i i = g.edge := by
      unfold swap_elements
      rw [hget]
      simp only []
      apply List.ext_getElem?
      intro k
      rw [List.getElem?_set, List.getElem?_set]
      by_cases hk : i = k
      · subst hk
        rw [List.get?_eq_getElem?] at hget
        simp [hilt, hget]
      · simp [hk]
    simp [hle, hsw]
  · have hlast_mem : last ∈ g.edge := by
      exact List.get?_mem hlast
    have hne : last ≠ e := fun h => by
      subst h
      exact hle (nodup_get?_inj g.edge _ _ _ hc.edge_nodup hlast hget)
    have hpair : pair_from_edge e ≠ pair_from_edge last := fun h => by
      have h1 := hc.by_sides_complete e he
      have h2 := hc.by_sides_complete last hlast_mem
      rw [h, h2] at h1
      exact hne (Option.some.inj h1)
    have hhas2 : ∀ (g2 : VG), g2.edge_by_sides = map_erase g.edge_by_sides (pair_from_edge e) →
        set_edge g2 last = g2 := by
      intro g2 h2
      unfold set_edge has_edge_rec
      rw [h2, map_find_erase]
      simp [hpair, hc.by_sides_complete last hlast_mem]
    simp only [ne_eq, hle, not_false_eq_true, if_true]
    rw [hhas2]
    exact hu8

theorem foldl_swap_remove_spec {α : Type} [DecidableEq α] (es : List α) :
    ∀ (v : List α), v.Nodup →
      (es.foldl swap_remove v).Nodup ∧ ∀ x, x ∈ es.foldl swap_remove v ↔ (x ∈ v ∧ x ∉ es) := by
  induction es with
  | nil => intro v hv; simp [hv]
  | cons y rest ih =>
    intro v hv
    obtain ⟨h1, h2⟩ := swap_remove_spec v y hv
    obtain ⟨h3, h4⟩ := ih (swap_remove v y) h1
    simp only [List.foldl_cons]
    refine ⟨h3, fun x => ?_⟩
    rw [h4, h2]
    simp only [List.mem_cons, not_or]
    tauto

theorem destroy_edge_rec_consistent (g : VG) (hc : edges_consistent g) (e : Edge)
    (he : e ∈ g.edge) : edges_consistent (destroy_edge_rec g e) := by
  have hhas : has_edge_rec g e = true := by
    unfold has_edge_rec; rw [hc.by_sides_complete e he]; rfl
  obtain ⟨i, last, hget, hidx, hlast, heq⟩ := destroy_edge_rec_eq g hc e he
  obtain ⟨hu1, hu2, hu3, hu4, hu5, hu6, hu7, hu8⟩ := unindex_edge_fields g e hhas
  obtain ⟨hn, hmem, hlen⟩ := destroyed_list_spec g.edge i e hc.edge_nodup hget
  have hilt : i < g.edge.length := by
    rw [List.get?_eq_getElem?] at hget
    exact (List.getElem?_eq_some_iff.mp hget).1
  have hsides : (destroy_edge_rec g e).edge_by_sides
      = map_erase g.edge_by_sides (pair_from_edge e) := by rw [heq]; exact hu8
  have hedge : (destroy_edge_rec g e).edge
      = (swap_elements g.edge i (g.edge.length - 1)).dropLast := by rw [heq]
  have hstart : ∀ n, edges_start (destroy_edge_rec g e) n
      = (start_entries e n).foldl swap_remove (edges_start g n) := by
    intro n
    rw [← unindex_edge_start g e n hhas, heq]
    exact si_start_congr _ _ rfl n
  have hend : ∀ n, edges_end (destroy_edge_rec g e) n
      = (end_entries e n).foldl swap_remove (edges_end g n) := by
    intro n
    rw [← unindex_edge_end g e n hhas, heq]
    exact si_end_congr _ _ rfl n
  have hpair_ne : ∀ e2 ∈ g.edge, e2 ≠ e → pair_from_edge e ≠ pair_from_edge e2 := by
    intro e2 he2 hne h
    have h1 := hc.by_sides_complete e he
    have h2 := hc.by_sides_complete e2 he2
    rw [h, h2] at h1
    exact hne (Option.some.inj h1)
  refine ⟨?_, ?_, ?_, ?_, ?_, ?_, ?_, ?_⟩
  · intro p e2 hp
    rw [hsides, map_find_erase] at hp
    by_cases hpe : pair_from_edge e = p
    · simp [hpe] at hp
    · simp only [hpe, if_false] at hp
      obtain ⟨h1, h2⟩ := hc.by_sides_sound p e2 hp
      rw [hedge, hmem]
      refine ⟨⟨h1, fun h => hpe ?_⟩, h2⟩
      rw [← h, h2]
  · intro e2 he2
    rw [hedge, hmem] at he2
    rw [hsides, map_find_erase]
    simp only [hpair_ne e2 he2.1 he2.2, if_false]
    exact hc.by_sides_complete e2 he2.1
  · rw [hedge]; exact hn
  · intro e2 he2
    rw [hedge, hmem] at he2
    obtain ⟨j, hj, hgetj⟩ := hc.edge_index_ok e2 he2.1
    have hjlt : j < g.edge.length := by
      rw [List.get?_eq_getElem?] at hgetj
      exact (List.getElem?_eq_some_iff.mp hgetj).1
    have hji : j ≠ i := fun h => by
      subst h
      rw [hget] at hgetj
      exact he2.2 (Option.some.inj hgetj).symm
    have hne : ¬ e = e2 := fun h => he2.2 h.symm
    rw [hedge]
    by_cases hle : g.edge.length - 1 = i
    · refine ⟨j, ?_, ?_⟩
      · rw [heq]
        simp only [hle, ne_eq, not_true_eq_false, if_false, map_find_erase, hne]
        exact hj
      · rw [swap_last_dropLast_get? g.edge i j e last hget hlast]
        have : j < g.edge.length - 1 := by omega
        simp [this, hji]
        simpa using hgetj
    · by_cases hl2 : last = e2
      · subst hl2
        refine ⟨i, ?_, ?_⟩
        · rw [heq]
          simp only [ne_eq, hle, not_false_eq_true, if_true, map_find_insert]
        · rw [swap_last_dropLast_get? g.edge i i e last hget hlast]
          have : i < g.edge.length - 1 := by omega
          simp [this]
      · refine ⟨j, ?_, ?_⟩
        · rw [heq]
          simp only [ne_eq, hle, not_false_eq_true, if_true, map_find_insert, hl2, if_false,
            map_find_erase, hne]
          exact hj
        · rw [swap_last_dropLast_get? g.edge i j e last hget hlast]
          have hjl : j ≠ g.edge.length - 1 := fun h => by
            rw [h, hlast] at hgetj
            exact hl2 (Option.some.inj hgetj)
          have : j < g.edge.length - 1 := by omega
          simp [this, hji]
          simpa using hgetj
  · intro n
    rw [hstart]
    exact (foldl_swap_remove_spec _ _ (hc.start_nodup n)).1
  · intro n x
    rw [hstart, (foldl_swap_remove_spec _ _ (hc.start_nodup n)).2, mem_start_entries, hsides,
      map_find_erase, hc.start_iff]
    by_cases hpe : pair_from_start_edge n x = pair_from_edge e
    · simp [hpe]
    · have : ¬ pair_from_edge e = pair_from_start_edge n x := fun h => hpe h.symm
      simp [hpe, this]
  · intro n
    rw [hend]
    exact (foldl_swap_remove_spec _ _ (hc.end_nodup n)).1
  · intro n x
    rw [hend, (foldl_swap_remove_spec _ _ (hc.end_nodup n)).2, mem_end_entries, hsides,
      map_find_erase, hc.end_iff]
    by_cases hpe : pair_from_end_edge n x = pair_from_edge e
    · simp [hpe]
    · have : ¬ pair_from_edge e = pair_from_end_edge n x := fun h => hpe h.symm
      simp [hpe, this]

theorem destroy_edge_spec (g : VG) (hc : edges_consistent g) (s1 s2 : NodeSide) :
    edges_consistent (destroy_edge g s1 s2)
    ∧ (∀ p, map_find (destroy_edge g s1 s2).edge_by_sides p
        = if minmax s1 s2 = p then none else map_find g.edge_by_sides p)
    ∧ (∀ e2, e2 ∈ (destroy_edge g s1 s2).edge ↔ (e2 ∈ g.edge ∧ pair_from_edge e2 ≠ minmax s1 s2))
    ∧ (destroy_edge g s1 s2).edge.length + (if has_edge g s1 s2 = true then 1 else 0)
        = g.edge.length
    ∧ (destroy_edge g s1 s2).node = g.node
    ∧ (destroy_edge g s1 s2).node_by_id = g.node_by_id
    ∧ (destroy_edge g s1 s2).node_index = g.node_index
    ∧ (destroy_edge g s1 s2).current_id = g.current_id
    ∧ (destroy_edge g s1 s2).paths = g.paths := by
  cases h : get_edge g s1 s2 with
  | none =>
    have hd : destroy_edge g s1 s2 = g := by unfold destroy_edge; rw [h]; rfl
    have hfind : map_find g.edge_by_sides (minmax s1 s2) = none := h
    rw [hd]
    refine ⟨hc, ?_, ?_, ?_, rfl, rfl, rfl, rfl, rfl⟩
    · intro p
      by_cases hp : minmax s1 s2 = p
      · simp [hp, ← hfind]
      · simp [hp]
    · intro e2
      refine ⟨fun he2 => ⟨he2, fun hp => ?_⟩, fun he2 => he2.1⟩
      have := hc.by_sides_complete e2 he2
      rw [hp, hfind] at this
      exact Option.noConfusion this
    · unfold has_edge; rw [hfind]; simp
  | some e =>
    have hd : destroy_edge g s1 s2 = destroy_edge_rec g e := by
      unfold destroy_edge; rw [h]; rfl
    have hfind : map_find g.edge_by_sides (minmax s1 s2) = some e := h
    obtain ⟨he, hpe⟩ := hc.by_sides_sound _ _ hfind
    have hhas : has_edge_rec g e = true := by
      unfold has_edge_rec; rw [hc.by_sides_complete e he]; rfl
    obtain ⟨i, last, hget, hidx, hlast, heq⟩ := destroy_edge_rec_eq g hc e he
    obtain ⟨hu1, hu2, hu3, hu4, hu5, hu6, hu7, hu8⟩ := unindex_edge_fields g e hhas
    obtain ⟨hn, hmem, hlen⟩ := destroyed_list_spec g.edge i e hc.edge_nodup hget
    rw [hd]
    refine ⟨destroy_edge_rec_consistent g hc e he, ?_, ?_, ?_, ?_, ?_, ?_, ?_, ?_⟩
    · intro p
      rw [heq]
      show map_find (unindex_edge_by_node_sides g e).edge_by_sides p = _
      rw [hu8, map_find_erase, hpe]
    · intro e2
      rw [heq]
      show e2 ∈ (swap_elements g.edge i (g.edge.length - 1)).dropLast ↔ _
      rw [hmem]
      refine ⟨fun h2 => ⟨h2.1, fun hp => h2.2 ?_⟩, fun h2 => ⟨h2.1, fun hp => h2.2 ?_⟩⟩
      · have h3 := hc.by_sides_complete e2 h2.1
        rw [hp, hfind] at h3
        exact (Option.some.inj h3).symm
      · rw [hp, hpe]
    · rw [heq]
      show (swap_elements g.edge i (g.edge.length - 1)).dropLast.length + _ = _
      unfold has_edge
      rw [hfind]
      simpa using hlen
    · rw [heq]; exact hu2
    · rw [heq]; exact hu3
    · rw [heq]; exact hu4
    · rw [heq]; exact hu6
    · rw [heq]; exact hu7

theorem create_edge_spec (g : VG) (hc : edges_consistent g) (a b : Int) (fs te : Bool) :
    edges_consistent (create_edge g a b fs te).1
    ∧ (∀ p, map_find (create_edge g a b fs te).1.edge_by_sides p
        = if minmax ⟨a, !fs⟩ ⟨b, te⟩ = p then some (create_edge g a b fs te).2
          else map_find g.edge_by_sides p)
    ∧ (∀ e2, e2 ∈ (create_edge g a b fs te).1.edge ↔
        (e2 ∈ g.edge ∨ e2 = (create_edge g a b fs te).2))
    ∧ (create_edge g a b fs te).1.edge.length
        = g.edge.length + (if has_edge g ⟨a, !fs⟩ ⟨b, te⟩ = true then 0 else 1)
    ∧ pair_from_edge (create_edge g a b fs te).2 = minmax ⟨a, !fs⟩ ⟨b, te⟩ := by
  refine ⟨create_edge_consistent g a b fs te hc, ?_⟩
  cases h : get_edge g ⟨a, !fs⟩ ⟨b, te⟩ with
  | some e =>
    have hfind : map_find g.edge_by_sides (minmax ⟨a, !fs⟩ ⟨b, te⟩) = some e := h
    obtain ⟨he, hpe⟩ := hc.by_sides_sound _ _ hfind
    rw [create_edge_existing g a b fs te e h]
    refine ⟨?_, ?_, ?_, hpe⟩
    · intro p
      by_cases hp : minmax ⟨a, !fs⟩ ⟨b, te⟩ = p
      · simp [hp, ← hfind]
      · simp [hp]
    · intro e2
      refine ⟨fun h2 => Or.inl h2, fun h2 => ?_⟩
      rcases h2 with h2 | h2
      · exact h2
      · rw [h2]; exact he
    · unfold has_edge; rw [hfind]; simp
  | none =>
    have hfind : map_find g.edge_by_sides (minmax ⟨a, !fs⟩ ⟨b, te⟩) = none := h
    obtain ⟨h2, hedge, hsides, hidx, hstart, hend⟩ := create_edge_fresh g a b fs te h
    refine ⟨?_, ?_, ?_, ?_⟩
    · intro p
      rw [hsides, map_find_insert, h2]
      rfl
    · intro e2
      rw [hedge, h2]
      simp
    · rw [hedge]
      unfold has_edge
      rw [hfind]
      simp
    · rw [h2]; rfl

theorem empty_consistent : edges_consistent VG.empty := by
  refine ⟨?_, ?_, ?_, ?_, ?_, ?_, ?_, ?_⟩ <;> simp [VG.empty, map_find, edges_start, edges_end]

/-- C5: `create_edge` is idempotent.  In a graph whose edge store and indexes
agree, if an edge joining the unordered side pair {s1, s2} is stored, either as
the edge `create_edge(s1, s2)` would build or as that edge with endpoints
swapped and both flags flipped, the call returns this edge and leaves the whole
graph (edge list and side index included) unchanged; a second call for the same
pair returns what the first returned and changes nothing, so two successive
calls add one edge in total when none joined the pair before, and none
otherwise. -/
theorem create_edge_idempotent (g : VG) (hc : edges_consistent g) (s1 s2 : NodeSide) :
    (∀ e ∈ g.edge,
        (e = ⟨s1.node, s2.node, !s1.is_end, s2.is_end⟩
          ∨ e = ⟨s2.node, s1.node, !s2.is_end, s1.is_end⟩) →
        create_edge_sides g s1 s2 = (g, e))
    ∧ create_edge_sides (create_edge_sides g s1 s2).1 s1 s2 = create_edge_sides g s1 s2
    ∧ edge_count (create_edge_sides (create_edge_sides g s1 s2).1 s1 s2).1
        = edge_count g + (if has_edge g s1 s2 = true then 0 else 1) := by
  have hs1 : (⟨s1.node, !(!s1.is_end)⟩ : NodeSide) = s1 := by cases s1; simp
  have hs2 : (⟨s2.node, s2.is_end⟩ : NodeSide) = s2 := by cases s2; rfl
  have hsecond : create_edge_sides (create_edge_sides g s1 s2).1 s1 s2
      = create_edge_sides g s1 s2 := by
    obtain ⟨_, hfind, _, _, _⟩ := create_edge_spec g hc s1.node s2.node (!s1.is_end) s2.is_end
    unfold create_edge_sides
    have h := create_edge_existing (create_edge g s1.node s2.node (!s1.is_end) s2.is_end).1
      s1.node s2.node (!s1.is_end) s2.is_end
      (create_edge g s1.node s2.node (!s1.is_end) s2.is_end).2
      (by unfold get_edge; rw [hfind, if_pos rfl])
    rw [h]
  refine ⟨?_, hsecond, ?_⟩
  · intro e he hform
    have hfind := hc.by_sides_complete e he
    unfold create_edge_sides
    apply create_edge_existing
    unfold get_edge
    rw [hs1, hs2, ← hfind]
    congr 1
    rcases hform with hform | hform
    · rw [hform]; unfold pair_from_edge; rw [hs1]
    · rw [hform]; unfold pair_from_edge
      rw [minmax_comm]
      cases s1; cases s2; simp
  · rw [hsecond]
    obtain ⟨_, _, _, hlen, _⟩ := create_edge_spec g hc s1.node s2.node (!s1.is_end) s2.is_end
    unfold edge_count create_edge_sides
    rw [hlen, hs1, hs2]

/-- Witness for C5: in the graph holding the doubly reversed edge from node 2 to
node 1, `create_edge` for the end of node 1 and the start of node 2 returns that
edge and changes nothing. -/
theorem create_edge_idempotent_witness :
    create_edge_sides (create_edge VG.empty 2 1 true true).1 ⟨1, true⟩ ⟨2, false⟩
      = ((create_edge VG.empty 2 1 true true).1, ⟨2, 1, true, true⟩) :=
  (create_edge_idempotent (create_edge VG.empty 2 1 true true).1
    (create_edge_consistent VG.empty 2 1 true true empty_consistent)
    ⟨1, true⟩ ⟨2, false⟩).1 ⟨2, 1, true, true⟩ (by decide) (Or.inr rfl)

/-! ## Ordered sets -/

theorem set_insert_mem {α : Type} (lt : α → α → Bool)
    (htotal : ∀ a b, lt a b = false → lt b a = false → a = b) (x : α) (l : List α) (y : α) :
    y ∈ set_insert lt x l ↔ (y = x ∨ y ∈ l) := by
  induction l with
  | nil => simp [set_insert]
  | cons z rest ih =>
    unfold set_insert
    by_cases h1 : lt x z = true
    · simp [h1]
    · by_cases h2 : lt z x = true
      · simp only [h1, h2, if_true, Bool.false_eq_true, if_false, List.mem_cons, ih]
        tauto
      · have hxz : x = z := htotal x z (by simpa using h1) (by simpa using h2)
        subst hxz
        simp [h1]

theorem side_pair_lt_total (a b : NodeSide × NodeSide) (h1 : side_pair_lt a b = false)
    (h2 : side_pair_lt b a = false) : a = b := by
  obtain ⟨a1, a2⟩ := a
  obtain ⟨b1, b2⟩ := b
  unfold side_pair_lt pair_lt at h1 h2
  simp only [Bool.or_eq_false_iff, Bool.and_eq_false_imp, Bool.not_eq_true'] at h1 h2
  have e1 : a1 = b1 := NodeSide.lt_total a1 b1 h1.1 h2.1
  subst e1
  have e2 : a2 = b2 := NodeSide.lt_total a2 b2 (h1.2 h1.1) (h2.2 h1.1)
  subst e2
  rfl

theorem foldl_set_insert_mem {α β : Type} (lt : α → α → Bool)
    (htotal : ∀ a b, lt a b = false → lt b a = false → a = b) (f : β → α) (l : List β) :
    ∀ (init : List α) (y : α),
      y ∈ l.foldl (fun s b => set_insert lt (f b) s) init ↔ (y ∈ init ∨ ∃ b ∈ l, y = f b) := by
  induction l with
  | nil => intro init y; simp
  | cons b rest ih =>
    intro init y
    simp only [List.foldl_cons, ih, set_insert_mem lt htotal, List.mem_cons, exists_eq_or_imp]
    tauto

theorem mem_edges_to_destroy_of (g : VG) (id : Int) (p : NodeSide × NodeSide) :
    p ∈ edges_to_destroy_of g id ↔
      ((∃ x ∈ edges_start g id, p = pair_from_start_edge id x)
        ∨ (∃ x ∈ edges_end g id, p = pair_from_end_edge id x)) := by
  unfold edges_to_destroy_of
  rw [foldl_set_insert_mem side_pair_lt side_pair_lt_total,
    foldl_set_insert_mem side_pair_lt side_pair_lt_total]
  simp

/-- A side pair touches node `id` when one of its two sides lies on it. -/
theorem touches_iff (id : Int) (p : NodeSide × NodeSide) (hp : minmax p.1 p.2 = p) :
    (p.1.node = id ∨ p.2.node = id) ↔
      ((∃ x, p = pair_from_start_edge id x) ∨ (∃ x, p = pair_from_end_edge id x)) := by
  obtain ⟨⟨n1, e1⟩, ⟨n2, e2⟩⟩ := p
  constructor
  · rintro (h | h)
    · simp only at h
      subst h
      cases e1
      · left
        refine ⟨(n2, !e2), ?_⟩
        unfold pair_from_start_edge
        simp [hp]
      · right
        refine ⟨(n2, e2), ?_⟩
        unfold pair_from_end_edge
        simp [hp]
    · simp only at h
      subst h
      cases e2
      · left
        refine ⟨(n1, !e1), ?_⟩
        unfold pair_from_start_edge
        rw [minmax_comm]
        simp [hp]
      · right
        refine ⟨(n1, e1), ?_⟩
        unfold pair_from_end_edge
        rw [minmax_comm]
        simp [hp]
  · rintro (⟨x, hx⟩ | ⟨x, hx⟩)
    · unfold pair_from_start_edge minmax at hx
      split_ifs at hx <;> simp only [Prod.mk.injEq, NodeSide.mk.injEq] at hx <;> simp [hx]
    · unfold pair_from_end_edge minmax at hx
      split_ifs at hx <;> simp only [Prod.mk.injEq, NodeSide.mk.injEq] at hx <;> simp [hx]

/-! ## `destroy_node` -/

theorem destroy_edges_spec (l : List (NodeSide × NodeSide)) :
    ∀ (g : VG), edges_consistent g →
      edges_consistent (destroy_edges g l)
      ∧ (∀ p, (∃ q ∈ l, minmax q.1 q.2 = p) → map_find (destroy_edges g l).edge_by_sides p = none)
      ∧ (∀ p, (∀ q ∈ l, minmax q.1 q.2 ≠ p) →
          map_find (destroy_edges g l).edge_by_sides p = map_find g.edge_by_sides p)
      ∧ (∀ e2, e2 ∈ (destroy_edges g l).edge ↔
          (e2 ∈ g.edge ∧ ∀ q ∈ l, pair_from_edge e2 ≠ minmax q.1 q.2))
      ∧ (destroy_edges g l).node = g.node
      ∧ (destroy_edges g l).node_by_id = g.node_by_id
      ∧ (destroy_edges g l).node_index = g.node_index
      ∧ (destroy_edges g l).current_id = g.current_id
      ∧ (destroy_edges g l).paths = g.paths := by
  induction l with
  | nil =>
    intro g hc
    simp [destroy_edges, hc]
  | cons q rest ih =>
    intro g hc
    obtain ⟨hc1, hf1, hm1, _, hn1, hb1, hi1, hcur1, hp1⟩ := destroy_edge_spec g hc q.1 q.2
    obtain ⟨hc2, hnone, hsame, hm2, hn2, hb2, hi2, hcur2, hp2⟩ := ih (destroy_edge g q.1 q.2) hc1
    have hunf : destroy_edges g (q :: rest) = destroy_edges (destroy_edge g q.1 q.2) rest := rfl
    rw [hunf]
    refine ⟨hc2, ?_, ?_, ?_, hn2.trans hn1, hb2.trans hb1, hi2.trans hi1, hcur2.trans hcur1,
      hp2.trans hp1⟩
    · intro p hp
      by_cases hr : ∃ q2 ∈ rest, minmax q2.1 q2.2 = p
      · exact hnone p hr
      · have hr2 : ∀ q2 ∈ rest, minmax q2.1 q2.2 ≠ p := fun q2 hq2 h => hr ⟨q2, hq2, h⟩
        rw [hsame p hr2, hf1]
        obtain ⟨q3, hq3, hq3p⟩ := hp
        rcases List.mem_cons.mp hq3 with h | h
        · subst h; simp [hq3p]
        · exact absurd hq3p (hr2 q3 h)
    · intro p hp
      rw [hsame p (fun q2 hq2 => hp q2 (List.mem_cons_of_mem _ hq2)), hf1]
      simp [hp q (List.mem_cons_self _ _)]
    · intro e2
      rw [hm2, hm1]
      simp only [List.mem_cons, forall_eq_or_imp]
      tauto

theorem destroy_node_absent (g : VG) (node : Node) (h : has_node g node.id = false) :
    destroy_node g node = g := by
  unfold destroy_node; simp [h]

theorem destroy_node_edge_fields (g : VG) (node : Node) (h : has_node g node.id = true) :
    (destroy_node g node).edge = (destroy_edges g (edges_to_destroy_of g node.id)).edge
    ∧ (destroy_node g node).edge_by_sides
        = (destroy_edges g (edges_to_destroy_of g node.id)).edge_by_sides
    ∧ (destroy_node g node).edge_index
        = (destroy_edges g (edges_to_destroy_of g node.id)).edge_index
    ∧ (destroy_node g node).edges_on_start
        = map_erase (destroy_edges g (edges_to_destroy_of g node.id)).edges_on_start node.id
    ∧ (destroy_node g node).edges_on_end
        = map_erase (destroy_edges g (edges_to_destroy_of g node.id)).edges_on_end node.id
    ∧ (destroy_node g node).paths = (destroy_edges g (edges_to_destroy_of g node.id)).paths
    ∧ (destroy_node g node).current_id
        = (destroy_edges g (edges_to_destroy_of g node.id)).current_id := by
  unfold destroy_node
  simp only [h, Bool.not_true, Bool.false_eq_true, if_false]
  split_ifs
  · split <;> exact ⟨rfl, rfl, rfl, rfl, rfl, rfl, rfl⟩
  · exact ⟨rfl, rfl, rfl, rfl, rfl, rfl, rfl⟩

theorem pair_from_edge_touch (e : Edge) (id : Int) :
    ((pair_from_edge e).1.node = id ∨ (pair_from_edge e).2.node = id) ↔
      (e.from_ = id ∨ e.to_ = id) := by
  unfold pair_from_edge minmax
  split_ifs <;> (simp; try tauto)

theorem minmax_touch (s1 s2 : NodeSide) (id : Int) :
    ((minmax s1 s2).1.node = id ∨ (minmax s1 s2).2.node = id) ↔
      (s1.node = id ∨ s2.node = id) := by
  unfold minmax
  split_ifs <;> (simp; try tauto)

theorem pair_from_edge_minmax (e : Edge) :
    minmax (pair_from_edge e).1 (pair_from_edge e).2 = pair_from_edge e :=
  minmax_self_pair _ _

theorem destroy_node_edges_spec (g : VG) (hc : edges_consistent g) (node : Node)
    (h : has_node g node.id = true) :
    edges_consistent (destroy_node g node)
    ∧ (∀ p, map_find (destroy_node g node).edge_by_sides p
        = if p.1.node = node.id ∨ p.2.node = node.id then none else map_find g.edge_by_sides p)
    ∧ (∀ e2, e2 ∈ (destroy_node g node).edge ↔
        (e2 ∈ g.edge ∧ e2.from_ ≠ node.id ∧ e2.to_ ≠ node.id)) := by
  obtain ⟨hf1, hf2, hf3, hf4, hf5, _, _⟩ := destroy_node_edge_fields g node h
  obtain ⟨hc1, hnone, hsame, hmem, _, _, _, _, _⟩ :=
    destroy_edges_spec (edges_to_destroy_of g node.id) g hc
  -- every indexed pair that touches the node is destroyed
  have hlist_touch : ∀ q ∈ edges_to_destroy_of g node.id,
      minmax q.1 q.2 = q ∧ (q.1.node = node.id ∨ q.2.node = node.id) := by
    intro q hq
    rw [mem_edges_to_destroy_of] at hq
    rcases hq with ⟨x, _, hx⟩ | ⟨x, _, hx⟩
    · have hmm : minmax q.1 q.2 = q := by
        rw [hx]; exact minmax_self_pair _ _
      exact ⟨hmm, (touches_iff node.id q hmm).mpr (Or.inl ⟨x, hx⟩)⟩
    · have hmm : minmax q.1 q.2 = q := by
        rw [hx]; exact minmax_self_pair _ _
      exact ⟨hmm, (touches_iff node.id q hmm).mpr (Or.inr ⟨x, hx⟩)⟩
  have hfind : ∀ p, map_find (destroy_edges g (edges_to_destroy_of g node.id)).edge_by_sides p
      = if p.1.node = node.id ∨ p.2.node = node.id then none else map_find g.edge_by_sides p := by
    intro p
    by_cases ht : p.1.node = node.id ∨ p.2.node = node.id
    · simp only [ht, if_true]
      by_cases hq : ∃ q ∈ edges_to_destroy_of g node.id, minmax q.1 q.2 = p
      · exact hnone p hq
      · have hq2 : ∀ q ∈ edges_to_destroy_of g node.id, minmax q.1 q.2 ≠ p :=
          fun q hq1 hq3 => hq ⟨q, hq1, hq3⟩
        rw [hsame p hq2]
        cases hfp : map_find g.edge_by_sides p with
        | none => rfl
        | some e =>
          exfalso
          obtain ⟨_, hpe⟩ := hc.by_sides_sound p e hfp
          have hmm : minmax p.1 p.2 = p := by rw [← hpe]; exact pair_from_edge_minmax e
          have hin : p ∈ edges_to_destroy_of g node.id := by
            rw [mem_edges_to_destroy_of]
            rcases (touches_iff node.id p hmm).mp ht with ⟨x, hx⟩ | ⟨x, hx⟩
            · left
              refine ⟨x, ?_, hx⟩
              rw [hc.start_iff, ← hx, hfp]; rfl
            · right
              refine ⟨x, ?_, hx⟩
              rw [hc.end_iff, ← hx, hfp]; rfl
          exact hq2 p hin hmm
    · simp only [ht, if_false]
      apply hsame
      intro q hq hqp
      obtain ⟨hmm, htq⟩ := hlist_touch q hq
      rw [hmm] at hqp
      rw [hqp] at htq
      exact ht htq
  have hstart : ∀ n, edges_start (destroy_node g node) n
      = if node.id = n then [] else
          edges_start (destroy_edges g (edges_to_destroy_of g node.id)) n := by
    intro n
    unfold edges_start
    rw [hf4, side_list_erase]
  have hend : ∀ n, edges_end (destroy_node g node) n
      = if node.id = n then [] else
          edges_end (destroy_edges g (edges_to_destroy_of g node.id)) n := by
    intro n
    unfold edges_end
    rw [hf5, side_list_erase]
  refine ⟨⟨?_, ?_, ?_, ?_, ?_, ?_, ?_, ?_⟩, ?_, ?_⟩
  · intro p e hp
    rw [hf2] at hp
    rw [hf1]
    exact hc1.by_sides_sound p e hp
  · intro e he
    rw [hf1] at he
    rw [hf2]
    exact hc1.by_sides_complete e he
  · rw [hf1]; exact hc1.edge_nodup
  · intro e he
    rw [hf1] at he
    rw [hf1, hf3]
    exact hc1.edge_index_ok e he
  · intro n
    rw [hstart]
    split_ifs
    · exact List.nodup_nil
    · exact hc1.start_nodup n
  · intro n x
    rw [hstart, hf2]
    by_cases hn : node.id = n
    · subst hn
      simp only [if_true, List.not_mem_nil, false_iff]
      rw [hfind]
      have := (touches_iff node.id (pair_from_start_edge node.id x)
        (minmax_self_pair _ _)).mpr (Or.inl ⟨x, rfl⟩)
      simp [this]
    · simp only [hn, if_false]
      exact hc1.start_iff n x
  · intro n
    rw [hend]
    split_ifs
    · exact List.nodup_nil
    · exact hc1.end_nodup n
  · intro n x
    rw [hend, hf2]
    by_cases hn : node.id = n
    · subst hn
      simp only [if_true, List.not_mem_nil, false_iff]
      rw [hfind]
      have := (touches_iff node.id (pair_from_end_edge node.id x)
        (minmax_self_pair _ _)).mpr (Or.inr ⟨x, rfl⟩)
      simp [this]
    · simp only [hn, if_false]
      exact hc1.end_iff n x
  · intro p
    rw [hf2]
    exact hfind p
  · intro e2
    rw [hf1, hmem]
    constructor
    · rintro ⟨he2, hq⟩
      refine ⟨he2, ?_⟩
      by_contra hcon
      have ht : e2.from_ = node.id ∨ e2.to_ = node.id := by tauto
      have ht2 := (pair_from_edge_touch e2 node.id).mpr ht
      have h1 := hfind (pair_from_edge e2)
      simp only [ht2, if_true] at h1
      have h2 := hc1.by_sides_complete e2 ((hmem e2).mpr ⟨he2, hq⟩)
      rw [h1] at h2
      exact Option.noConfusion h2
    · rintro ⟨he2, hfrom, hto⟩
      refine ⟨he2, fun q hq hqe => ?_⟩
      obtain ⟨hmm, htq⟩ := hlist_touch q hq
      rw [hmm] at hqe
      rw [← hqe, pair_from_edge_touch] at htq
      tauto

theorem destroy_node_consistent (g : VG) (hc : edges_consistent g) (node : Node) :
    edges_consistent (destroy_node g node) := by
  by_cases h : has_node g node.id = true
  · exact (destroy_node_edges_spec g hc node h).1
  · rw [destroy_node_absent g node (by simpa using h)]
    exact hc

/-! ## The side-index invariant -/

theorem incident_start_iff (e : Edge) (n m : Int) (r : Bool) :
    incident_start e n m r = true ↔ pair_from_edge e = pair_from_start_edge n (m, r) := by
  obtain ⟨f, t, fs, te⟩ := e
  simp only [pair_from_start_edge, pair_from_edge, minmax_eq_iff, NodeSide.mk.injEq,
    incident_start]
  cases fs <;> cases te <;> cases r <;> by_cases h1 : f = n <;> by_cases h2 : t = n <;>
    by_cases h3 : f = m <;> by_cases h4 : t = m <;> simp_all

theorem incident_end_iff (e : Edge) (n m : Int) (r : Bool) :
    incident_end e n m r = true ↔ pair_from_edge e = pair_from_end_edge n (m, r) := by
  obtain ⟨f, t, fs, te⟩ := e
  simp only [pair_from_end_edge, pair_from_edge, minmax_eq_iff, NodeSide.mk.injEq,
    incident_end]
  cases fs <;> cases te <;> cases r <;> by_cases h1 : f = n <;> by_cases h2 : t = n <;>
    by_cases h3 : f = m <;> by_cases h4 : t = m <;> simp_all

theorem count_one_of_nodup {α : Type} [BEq α] [LawfulBEq α] (l : List α) (x : α)
    (hn : l.Nodup) (h : x ∈ l) : l.count x = 1 := by
  induction l with
  | nil => simp at h
  | cons a t ih =>
    rw [List.nodup_cons] at hn
    rw [List.count_cons]
    by_cases hax : a = x
    · subst hax
      rw [List.count_eq_zero_of_not_mem hn.1]
      simp
    · have hx : x ∈ t := by
        rcases List.mem_cons.mp h with h1 | h1
        · exact absurd h1.symm hax
        · exact h1
      rw [ih hn.2 hx]
      simp [hax]

theorem count_of_nodup_iff {α : Type} [BEq α] [LawfulBEq α] (l : List α) (x : α) (P : Prop)
    [Decidable P] (hn : l.Nodup) (h : x ∈ l ↔ P) : l.count x = if P then 1 else 0 := by
  by_cases hp : P
  · simp only [hp, if_true]
    exact count_one_of_nodup l x hn (h.mpr hp)
  · simp only [hp, if_false]
    exact List.count_eq_zero_of_not_mem (fun hx => hp (h.mp hx))

theorem countP_pair (g : VG) (hc : edges_consistent g) (q : Edge → Bool)
    (p : NodeSide × NodeSide) (hq : ∀ e, q e = true ↔ pair_from_edge e = p) :
    g.edge.countP q = if (map_find g.edge_by_sides p).isSome = true then 1 else 0 := by
  cases hf : map_find g.edge_by_sides p with
  | none =>
    simp only [Option.isSome_none, Bool.false_eq_true, if_false]
    rw [List.countP_eq_zero]
    intro e he hqe
    have h1 := hc.by_sides_complete e he
    rw [(hq e).mp hqe, hf] at h1
    exact Option.noConfusion h1
  | some e0 =>
    obtain ⟨he0, hp0⟩ := hc.by_sides_sound p e0 hf
    simp only [Option.isSome_some, if_true]
    have hcongr : g.edge.countP q = g.edge.countP (fun e => e == e0) := by
      apply List.countP_congr
      intro e he
      simp only [beq_iff_eq]
      rw [hq e]
      constructor
      · intro hpe
        have h1 := hc.by_sides_complete e he
        rw [hpe, hf] at h1
        exact (Option.some.inj h1).symm
      · intro hee; rw [hee, hp0]
    rw [hcongr]
    have : g.edge.countP (fun e => e == e0) = g.edge.count e0 := rfl
    rw [this]
    exact count_one_of_nodup _ _ hc.edge_nodup he0

theorem side_index_of_consistent (g : VG) (hc : edges_consistent g) (n m : Int) (r : Bool) :
    (edges_start g n).count (m, r) = g.edge.countP (fun e => incident_start e n m r)
    ∧ (edges_end g n).count (m, r) = g.edge.countP (fun e => incident_end e n m r) := by
  constructor
  · rw [countP_pair g hc _ (pair_from_start_edge n (m, r)) (fun e => incident_start_iff e n m r)]
    exact count_of_nodup_iff _ _ _ (hc.start_nodup n) (hc.start_iff n (m, r))
  · rw [countP_pair g hc _ (pair_from_end_edge n (m, r)) (fun e => incident_end_iff e n m r)]
    exact count_of_nodup_iff _ _ _ (hc.end_nodup n) (hc.end_iff n (m, r))

theorem edges_consistent_congr (g g2 : VG) (hc : edges_consistent g)
    (h1 : g2.edge = g.edge) (h2 : g2.edge_by_sides = g.edge_by_sides)
    (h3 : g2.edge_index = g.edge_index) (h4 : g2.edges_on_start = g.edges_on_start)
    (h5 : g2.edges_on_end = g.edges_on_end) : edges_consistent g2 := by
  have hs : ∀ n, edges_start g2 n = edges_start g n := si_start_congr g2 g h4
  have he : ∀ n, edges_end g2 n = edges_end g n := si_end_congr g2 g h5
  refine ⟨?_, ?_, ?_, ?_, ?_, ?_, ?_, ?_⟩
  · intro p e hp; rw [h2] at hp; rw [h1]; exact hc.by_sides_sound p e hp
  · intro e he2; rw [h1] at he2; rw [h2]; exact hc.by_sides_complete e he2
  · rw [h1]; exact hc.edge_nodup
  · intro e he2; rw [h1] at he2; rw [h1, h3]; exact hc.edge_index_ok e he2
  · intro n; rw [hs]; exact hc.start_nodup n
  · intro n x; rw [hs, h2]; exact hc.start_iff n x
  · intro n; rw [he]; exact hc.end_nodup n
  · intro n x; rw [he, h2]; exact hc.end_iff n x

theorem create_node_edge_fields (g : VG) (seq : List Char) (id : Int) :
    (create_node g seq id).1.edge = g.edge
    ∧ (create_node g seq id).1.edge_by_sides = g.edge_by_sides
    ∧ (create_node g seq id).1.edge_index = g.edge_index
    ∧ (create_node g seq id).1.edges_on_start = g.edges_on_start
    ∧ (create_node g seq id).1.edges_on_end = g.edges_on_end := by
  unfold create_node
  simp only []
  split_ifs <;> exact ⟨rfl, rfl, rfl, rfl, rfl⟩

theorem create_node_consistent (g : VG) (seq : List Char) (id : Int)
    (hc : edges_consistent g) : edges_consistent (create_node g seq id).1 := by
  obtain ⟨h1, h2, h3, h4, h5⟩ := create_node_edge_fields g seq id
  exact edges_consistent_congr g _ hc h1 h2 h3 h4 h5

theorem apply_mutation_consistent (g g2 : VG) (m : Mutation) (hc : edges_consistent g)
    (h : apply_mutation g m = some g2) : edges_consistent g2 := by
  cases m with
  | create_node seq id =>
    simp only [apply_mutation, Option.some.injEq] at h
    rw [← h]; exact create_node_consistent g seq id hc
  | create_edge a b fs te =>
    simp only [apply_mutation, Option.some.injEq] at h
    rw [← h]; exact create_edge_consistent g a b fs te hc
  | destroy_edge s1 s2 =>
    simp only [apply_mutation, Option.some.injEq] at h
    rw [← h]; exact (destroy_edge_spec g hc s1 s2).1
  | destroy_node node =>
    simp only [apply_mutation, Option.some.injEq] at h
    rw [← h]; exact destroy_node_consistent g hc node
  | destroy_node_id id =>
    simp only [apply_mutation, Option.map_eq_some'] at h
    obtain ⟨node, _, hg⟩ := h
    rw [← hg]; exact destroy_node_consistent g hc node

theorem run_mutations_consistent (ms : List Mutation) :
    ∀ (g g2 : VG), edges_consistent g → run_mutations ms g = some g2 → edges_consistent g2 := by
  induction ms with
  | nil =>
    intro g g2 hc h
    simp only [run_mutations, Option.some.injEq] at h
    rw [← h]; exact hc
  | cons m rest ih =>
    intro g g2 hc h
    simp only [run_mutations, Option.bind_eq_some] at h
    obtain ⟨g1, h1, h2⟩ := h
    exact ih g1 g2 (apply_mutation_consistent g g1 m hc h1) h2

/-- C6 (side-index invariant): after any sequence of `create_node`,
`create_edge`, `destroy_edge` and `destroy_node` calls from the empty graph, for
every node id `n` the list `edges_start(n)` (resp. `edges_end(n)`) contains the
entry `(m, r)` once for each stored edge that is incident to the start (resp.
end) side of `n`, has its other endpoint on `m` and has relative orientation
`r = (from_start != to_end)`, and contains no other entry; a stored self loop
joining one side of a node to that same side is listed once. -/
theorem side_index_invariant (ms : List Mutation) (g : VG)
    (h : run_mutations ms VG.empty = some g) :
    (∀ (n m : Int) (r : Bool),
      (edges_start g n).count (m, r) = g.edge.countP (fun e => incident_start e n m r)
      ∧ (edges_end g n).count (m, r) = g.edge.countP (fun e => incident_end e n m r))
    ∧ (∀ e ∈ g.edge, e.from_ = e.to_ → e.from_start = true → e.to_end = false →
        (edges_start g e.from_).count (e.from_, true) = 1)
    ∧ (∀ e ∈ g.edge, e.from_ = e.to_ → e.from_start = false → e.to_end = true →
        (edges_end g e.from_).count (e.from_, true) = 1) := by
  have hc := run_mutations_consistent ms VG.empty g empty_consistent h
  refine ⟨fun n m r => side_index_of_consistent g hc n m r, ?_, ?_⟩
  · intro e he hft hfs hte
    apply count_one_of_nodup _ _ (hc.start_nodup _)
    rw [hc.start_iff]
    have : pair_from_start_edge e.from_ (e.from_, true) = pair_from_edge e := by
      rw [← mem_start_entries]
      simp [start_entries, hft, hfs, hte]
    rw [this, hc.by_sides_complete e he]
    rfl
  · intro e he hft hfs hte
    apply count_one_of_nodup _ _ (hc.end_nodup _)
    rw [hc.end_iff]
    have : pair_from_end_edge e.from_ (e.from_, true) = pair_from_edge e := by
      rw [← mem_end_entries]
      simp [end_entries, hft, hfs, hte]
    rw [this, hc.by_sides_complete e he]
    rfl

/-- Witness for C6: two nodes, an edge between them, a self loop on the start
of node 1, a second edge that is then destroyed, and the destruction of node 2. -/
theorem side_index_invariant_witness :
    (edges_start
        ((run_mutations
          [Mutation.create_node "AC".toList 0, Mutation.create_node "GT".toList 0,
           Mutation.create_edge 1 2 false false, Mutation.create_edge 1 1 true false,
           Mutation.create_edge 2 1 false false, Mutation.destroy_edge ⟨2, true⟩ ⟨1, false⟩,
           Mutation.destroy_node_id 2] VG.empty).getD VG.empty) 1).count (1, true) = 1 := by
  have h := (side_index_invariant
    [Mutation.create_node "AC".toList 0, Mutation.create_node "GT".toList 0,
     Mutation.create_edge 1 2 false false, Mutation.create_edge 1 1 true false,
     Mutation.create_edge 2 1 false false, Mutation.destroy_edge ⟨2, true⟩ ⟨1, false⟩,
     Mutation.destroy_node_id 2]
    ((run_mutations
      [Mutation.create_node "AC".toList 0, Mutation.create_node "GT".toList 0,
       Mutation.create_edge 1 2 false false, Mutation.create_edge 1 1 true false,
       Mutation.create_edge 2 1 false false, Mutation.destroy_edge ⟨2, true⟩ ⟨1, false⟩,
       Mutation.destroy_node_id 2] VG.empty).getD VG.empty) (by decide)).2.1
    ⟨1, 1, true, false⟩ (by decide) rfl rfl rfl
  exact h

theorem destroy_node_node_fields (g : VG) (hc : edges_consistent g) (hn : nodes_consistent g)
    (node : Node) (hmem : node ∈ g.node) :
    ∃ i last, g.node.get? i = some node ∧ g.node.get? (g.node.length - 1) = some last
      ∧ (destroy_node g node).node = (swap_elements g.node i (g.node.length - 1)).dropLast
      ∧ (destroy_node g node).node_by_id
          = map_erase (if g.node.length - 1 ≠ i then map_insert g.node_by_id last.id last
              else g.node_by_id) node.id := by
  have hhas : has_node g node.id = true := by
    unfold has_node; rw [hn.by_id_complete node hmem]; rfl
  obtain ⟨i, hidx, hget⟩ := hn.node_index_ok node hmem
  have hilt : i < g.node.length := by
    rw [List.get?_eq_getElem?] at hget
    exact (List.getElem?_eq_some_iff.mp hget).1
  have hlt : g.node.length - 1 < g.node.length := by omega
  have hlast : g.node.get? (g.node.length - 1) = some (g.node.get ⟨g.node.length - 1, hlt⟩) :=
    List.get?_eq_get hlt
  obtain ⟨_, _, _, _, h1, h2, h3, _, _⟩ :=
    destroy_edges_spec (edges_to_destroy_of g node.id) g hc
  refine ⟨i, _, hget, hlast, ?_, ?_⟩
  · unfold destroy_node
    simp only [hhas, Bool.not_true, Bool.false_eq_true, if_false, h1, h3, hidx,
      Option.getD_some, hlast]
    by_cases hle : g.node.length - 1 = i
    · have hsw : swap_elements g.node i i = g.node := by
        unfold swap_elements
        rw [hget]
        simp only []
        apply List.ext_getElem?
        intro k
        rw [List.getElem?_set, List.getElem?_set]
        by_cases hk : i = k
        · subst hk
          rw [List.get?_eq_getElem?] at hget
          simp [hilt, hget]
        · simp [hk]
      simp [hle, hsw, h1]
    · simp [hle]
  · unfold destroy_node
    simp only [hhas, Bool.not_true, Bool.false_eq_true, if_false, h1, h3, hidx,
      Option.getD_some, hlast]
    by_cases hle : g.node.length - 1 = i
    · simp [hle, h2]
    · simp [hle, h2]

/-- C8: in a graph whose stores and indexes agree, after `destroy_node` of a
present node with id `n`: `has_node(n)` is false, no stored edge has `n` as its
from or to endpoint, `node_count` has decreased by exactly 1, every other node
is still stored and found under its id with the same record (id and sequence),
and `has_edge` is unchanged for every pair of sides not on `n`; `destroy_node`
of an absent node changes nothing. -/
theorem destroy_node_spec (g : VG) (hc : edges_consistent g) (hn : nodes_consistent g)
    (n : Int) (node : Node) (hget : get_node g n = some node) :
    has_node (destroy_node g node) n = false
    ∧ (∀ e ∈ (destroy_node g node).edge, e.from_ ≠ n ∧ e.to_ ≠ n)
    ∧ node_count (destroy_node g node) + 1 = node_count g
    ∧ (∀ nd ∈ g.node, nd ≠ node →
        nd ∈ (destroy_node g node).node ∧ get_node (destroy_node g node) nd.id = some nd)
    ∧ (∀ nd ∈ (destroy_node g node).node, nd ∈ g.node ∧ nd ≠ node)
    ∧ (∀ s1 s2 : NodeSide, s1.node ≠ n → s2.node ≠ n →
        has_edge (destroy_node g node) s1 s2 = has_edge g s1 s2)
    ∧ (∀ absent : Node, has_node g absent.id = false → destroy_node g absent = g) := by
  obtain ⟨hmem, hid⟩ := hn.by_id_sound n node hget
  have hhas : has_node g node.id = true := by
    unfold has_node; rw [hn.by_id_complete node hmem]; rfl
  obtain ⟨_, hfind, hedges⟩ := destroy_node_edges_spec g hc node hhas
  obtain ⟨i, last, hgeti, hlast, hnodes, hbyid⟩ := destroy_node_node_fields g hc hn node hmem
  obtain ⟨_, hmem2, hlen⟩ := destroyed_list_spec g.node i node hn.node_nodup hgeti
  have hlast_mem : last ∈ g.node := List.get?_mem hlast
  refine ⟨?_, ?_, ?_, ?_, ?_, ?_, ?_⟩
  · unfold has_node
    rw [hbyid, map_find_erase, hid]
    simp
  · intro e he
    rw [hedges, hid] at he
    exact he.2
  · unfold node_count
    rw [hnodes]
    exact hlen
  · intro nd hnd hne
    refine ⟨?_, ?_⟩
    · rw [hnodes, hmem2]; exact ⟨hnd, hne⟩
    · have hidne : node.id ≠ nd.id := fun h => by
        have h1 := hn.by_id_complete nd hnd
        rw [← h, hn.by_id_complete node hmem] at h1
        exact hne (Option.some.inj h1).symm
      unfold get_node
      rw [hbyid, map_find_erase]
      simp only [hidne, if_false]
      by_cases hle : g.node.length - 1 = i
      · simp only [hle, ne_eq, not_true_eq_false, if_false]
        exact hn.by_id_complete nd hnd
      · simp only [ne_eq, hle, not_false_eq_true, if_true, map_find_insert]
        by_cases hl : last.id = nd.id
        · simp only [hl, if_true]
          have h1 := hn.by_id_complete nd hnd
          rw [← hl, hn.by_id_complete last hlast_mem] at h1
          exact h1
        · simp only [hl, if_false]
          exact hn.by_id_complete nd hnd
  · intro nd hnd
    rw [hnodes, hmem2] at hnd
    exact hnd
  · intro s1 s2 h1 h2
    unfold has_edge
    rw [hfind]
    have : ¬ ((minmax s1 s2).1.node = node.id ∨ (minmax s1 s2).2.node = node.id) := by
      rw [minmax_touch, hid]
      tauto
    simp [this]
  · intro absent hab
    exact destroy_node_absent g absent hab

theorem create_node_node_fields (g : VG) (seq : List Char) (id : Int) :
    (create_node g seq id).1.node = g.node ++ [(create_node g seq id).2]
    ∧ (create_node g seq id).1.node_by_id
        = map_insert g.node_by_id (create_node g seq id).2.id (create_node g seq id).2
    ∧ (create_node g seq id).1.node_index
        = map_insert g.node_index (create_node g seq id).2 g.node.length := by
  unfold create_node
  simp only []
  split_ifs <;> simp

theorem empty_nodes_consistent : nodes_consistent VG.empty := by
  refine ⟨?_, ?_, ?_, ?_⟩ <;> simp [VG.empty, map_find]

theorem create_node_nodes_consistent (g : VG) (hn : nodes_consistent g) (seq : List Char)
    (id : Int) (hfresh : ∀ nd ∈ g.node, nd.id ≠ (create_node g seq id).2.id) :
    nodes_consistent (create_node g seq id).1 := by
  obtain ⟨h1, h2, h3⟩ := create_node_node_fields g seq id
  have hnot : (create_node g seq id).2 ∉ g.node := fun h => hfresh _ h rfl
  refine ⟨?_, ?_, ?_, ?_⟩
  · intro id2 nd hf
    rw [h2, map_find_insert] at hf
    rw [h1]
    by_cases hid : (create_node g seq id).2.id = id2
    · simp only [hid, if_true, Option.some.injEq] at hf
      subst hf
      exact ⟨by simp, hid⟩
    · simp only [hid, if_false] at hf
      obtain ⟨ha, hb⟩ := hn.by_id_sound id2 nd hf
      exact ⟨List.mem_append_left _ ha, hb⟩
  · intro nd hnd
    rw [h1, List.mem_append, List.mem_singleton] at hnd
    rw [h2, map_find_insert]
    rcases hnd with hnd | hnd
    · have : ¬ (create_node g seq id).2.id = nd.id := fun h => hfresh nd hnd h.symm
      simp only [this, if_false]
      exact hn.by_id_complete nd hnd
    · rw [hnd]; simp
  · rw [h1]
    exact List.Nodup.append hn.node_nodup (List.nodup_singleton _) (by simpa using hnot)
  · intro nd hnd
    rw [h1, List.mem_append, List.mem_singleton] at hnd
    rw [h3, h1]
    rcases hnd with hnd | hnd
    · obtain ⟨i, hi, hget⟩ := hn.node_index_ok nd hnd
      have hne : (create_node g seq id).2 ≠ nd := fun heq => hnot (heq ▸ hnd)
      refine ⟨i, by rw [map_find_insert]; simp [hne, hi], ?_⟩
      rw [List.get?_eq_getElem?] at hget ⊢
      have hlt : i < g.node.length := (List.getElem?_eq_some_iff.mp hget).1
      rw [List.getElem?_append_left hlt]
      exact hget
    · rw [hnd]
      refine ⟨g.node.length, by rw [map_find_insert]; simp, ?_⟩
      rw [List.get?_eq_getElem?, List.getElem?_append_right (le_refl _)]
      simp

theorem create_edge_nodes_consistent (g : VG) (hn : nodes_consistent g) (a b : Int)
    (fs te : Bool) : nodes_consistent (create_edge g a b fs te).1 := by
  obtain ⟨h1, h2, h3, _⟩ := create_edge_frame g a b fs te
  refine ⟨?_, ?_, ?_, ?_⟩
  · intro id nd hf; rw [h2] at hf; rw [h1]; exact hn.by_id_sound id nd hf
  · intro nd hnd; rw [h1] at hnd; rw [h2]; exact hn.by_id_complete nd hnd
  · rw [h1]; exact hn.node_nodup
  · intro nd hnd; rw [h1] at hnd; rw [h1, h3]; exact hn.node_index_ok nd hnd

/-- Witness for C8: the graph with the nodes 1 = `AC`, 2 = `GT` and the edge from
the end of node 1 to the start of node 2; node 2 is destroyed. -/
theorem destroy_node_spec_witness :
    has_node (destroy_node
      (create_edge (create_node (create_node VG.empty "AC".toList 0).1 "GT".toList 0).1
        1 2 false false).1 ⟨2, "GT".toList⟩) 2 = false
    ∧ node_count (destroy_node
      (create_edge (create_node (create_node VG.empty "AC".toList 0).1 "GT".toList 0).1
        1 2 false false).1 ⟨2, "GT".toList⟩) + 1 = 2 :=
  have h := destroy_node_spec
    (create_edge (create_node (create_node VG.empty "AC".toList 0).1 "GT".toList 0).1
      1 2 false false).1
    (create_edge_consistent _ 1 2 false false
      (create_node_consistent _ _ 0 (create_node_consistent _ _ 0 empty_consistent)))
    (create_edge_nodes_consistent _
      (create_node_nodes_consistent _
        (create_node_nodes_consistent _ empty_nodes_consistent _ 0 (by decide)) _ 0 (by decide))
      1 2 false false)
    2 ⟨2, "GT".toList⟩ (by decide)
  ⟨h.1, h.2.2.1⟩

/-! ## `flip_doubly_reversed_edges` -/

theorem set_edge_fields (g : VG) (e : Edge) :
    (set_edge g e).edge = g.edge
    ∧ (∀ p, (map_find (set_edge g e).edge_by_sides p).isSome
        = (decide (pair_from_edge e = p) || (map_find g.edge_by_sides p).isSome)) := by
  unfold set_edge
  by_cases h : has_edge_rec g e = true
  · simp only [h, Bool.not_true, Bool.false_eq_true, if_false, true_and]
    intro p
    by_cases hp : pair_from_edge e = p
    · subst hp
      unfold has_edge_rec at h
      simp [h]
    · simp [hp]
  · have hf := index_edge_fields g e
    simp only [Bool.not_eq_true] at h
    simp only [h, Bool.not_false, if_true]
    refine ⟨hf.1, fun p => ?_⟩
    rw [hf.2.2.2.2.2.2, map_find_insert]
    by_cases hp : pair_from_edge e = p <;> simp [hp]

theorem build_edge_indexes_loop_spec (l : List Edge) :
    ∀ (g : VG) (i : Nat),
      (build_edge_indexes_loop g l i).edge = g.edge
      ∧ (∀ p, (map_find (build_edge_indexes_loop g l i).edge_by_sides p).isSome = true ↔
          ((map_find g.edge_by_sides p).isSome = true ∨ ∃ e ∈ l, pair_from_edge e = p)) := by
  induction l with
  | nil => intro g i; simp [build_edge_indexes_loop]
  | cons e rest ih =>
    intro g i
    obtain ⟨h1, h2⟩ := ih (set_edge { g with edge_index := map_insert g.edge_index e i } e) (i + 1)
    obtain ⟨h3, h4⟩ := set_edge_fields { g with edge_index := map_insert g.edge_index e i } e
    simp only [build_edge_indexes_loop]
    refine ⟨h1.trans h3, fun p => ?_⟩
    rw [h2, h4]
    simp only [Bool.or_eq_true, decide_eq_true_eq, List.mem_cons, exists_eq_or_imp]
    tauto

theorem pair_from_edge_flip (e : Edge) : pair_from_edge (flip_edge e) = pair_from_edge e := by
  obtain ⟨f, t, fs, te⟩ := e
  unfold flip_edge pair_from_edge
  cases fs <;> cases te <;> simp
  exact minmax_comm _ _

/-- C7: in a graph whose edge store and indexes agree, after
`flip_doubly_reversed_edges` no stored edge has both `from_start` and `to_end`
set, the number of stored edges is unchanged, `has_edge(s1, s2)` has the value it
had before for every pair of sides, and every doubly reversed edge from `a` to
`b` has been replaced by the plain edge from `b` to `a`. -/
theorem flip_doubly_reversed_edges_spec (g : VG) (hc : edges_consistent g) :
    (∀ e ∈ (flip_doubly_reversed_edges g).edge, ¬ (e.from_start = true ∧ e.to_end = true))
    ∧ edge_count (flip_doubly_reversed_edges g) = edge_count g
    ∧ (∀ s1 s2 : NodeSide,
        has_edge (flip_doubly_reversed_edges g) s1 s2 = has_edge g s1 s2)
    ∧ (flip_doubly_reversed_edges g).edge
        = g.edge.map (fun e => if e.from_start = true ∧ e.to_end = true
            then ⟨e.to_, e.from_, false, false⟩ else e) := by
  obtain ⟨h1, h2⟩ := build_edge_indexes_loop_spec (g.edge.map flip_edge)
    (clear_edge_indexes { g with edge := g.edge.map flip_edge }) 0
  have hedge : (flip_doubly_reversed_edges g).edge = g.edge.map flip_edge := h1
  refine ⟨?_, ?_, ?_, ?_⟩
  · intro e he
    rw [hedge, List.mem_map] at he
    obtain ⟨e0, _, rfl⟩ := he
    obtain ⟨f, t, fs, te⟩ := e0
    unfold flip_edge
    cases fs <;> cases te <;> simp
  · unfold edge_count
    rw [hedge, List.length_map]
  · intro s1 s2
    have hiff : (map_find (flip_doubly_reversed_edges g).edge_by_sides (minmax s1 s2)).isSome = true
        ↔ (map_find g.edge_by_sides (minmax s1 s2)).isSome = true := by
      have h3 := h2 (minmax s1 s2)
      have h4 : (flip_doubly_reversed_edges g).edge_by_sides
          = (build_edge_indexes_loop (clear_edge_indexes { g with edge := g.edge.map flip_edge })
              (g.edge.map flip_edge) 0).edge_by_sides := rfl
      rw [h4, h3]
      simp only [clear_edge_indexes, map_find, Option.isSome_none, Bool.false_eq_true, false_or,
        List.mem_map]
      constructor
      · rintro ⟨e, ⟨e0, he0, rfl⟩, hp⟩
        rw [pair_from_edge_flip] at hp
        rw [← hp, hc.by_sides_complete e0 he0]
        rfl
      · intro h
        cases hf : map_find g.edge_by_sides (minmax s1 s2) with
        | none => rw [hf] at h; simp at h
        | some e0 =>
          obtain ⟨he0, hp⟩ := hc.by_sides_sound _ _ hf
          exact ⟨flip_edge e0, ⟨e0, he0, rfl⟩, by rw [pair_from_edge_flip, hp]⟩
    unfold has_edge
    exact Bool.eq_iff_iff.mpr hiff
  · rw [hedge]
    apply List.map_congr_left
    intro e _
    obtain ⟨f, t, fs, te⟩ := e
    unfold flip_edge
    cases fs <;> cases te <;> simp

/-- Witness for C7: the graph holding the doubly reversed edge from node 2 to
node 1 and a plain edge from node 2 to node 3. -/
theorem flip_doubly_reversed_edges_witness :
    (flip_doubly_reversed_edges
      (create_edge (create_edge VG.empty 2 1 true true).1 2 3 false false).1).edge
      = [⟨1, 2, false, false⟩, ⟨2, 3, false, false⟩] :=
  ((flip_doubly_reversed_edges_spec
    (create_edge (create_edge VG.empty 2 1 true true).1 2 3 false false).1
    (create_edge_consistent _ 2 3 false false
      (create_edge_consistent _ 2 1 true true empty_consistent))).2.2.2).trans (by decide)

/-! ## `destroy_node` and the path index -/

theorem unindex_edge_paths (g : VG) (e : Edge) :
    (unindex_edge_by_node_sides g e).paths = g.paths := by
  by_cases h : has_edge_rec g e = true
  · exact (unindex_edge_fields g e h).2.2.2.2.2.2.1
  · unfold unindex_edge_by_node_sides
    simp [h]

theorem destroy_edge_rec_paths (g : VG) (e : Edge) : (destroy_edge_rec g e).paths = g.paths := by
  unfold destroy_edge_rec
  by_cases h : has_edge_rec g e = true
  · simp only [h, Bool.not_true, Bool.false_eq_true, if_false]
    split_ifs
    · split
      · simp only [set_edge_paths]
        exact unindex_edge_paths g e
      · exact unindex_edge_paths g e
    · exact unindex_edge_paths g e
  · simp [h]

theorem destroy_edge_paths (g : VG) (s1 s2 : NodeSide) : (destroy_edge g s1 s2).paths = g.paths := by
  unfold destroy_edge destroy_edge_ptr
  split
  · rfl
  · exact destroy_edge_rec_paths g _

theorem destroy_edges_paths (l : List (NodeSide × NodeSide)) (g : VG) :
    (destroy_edges g l).paths = g.paths := by
  unfold destroy_edges
  induction l generalizing g with
  | nil => rfl
  | cons q rest ih => simp only [List.foldl_cons]; rw [ih]; exact destroy_edge_paths g q.1 q.2

/-- C9 as amended: `destroy_node` leaves the path index as it was; the mappings
that refer to the destroyed node stay in their paths. -/
theorem destroy_node_paths (g : VG) (node : Node) : (destroy_node g node).paths = g.paths := by
  unfold destroy_node
  by_cases h : has_node g node.id = true
  · simp only [h, Bool.not_true, Bool.false_eq_true, if_false]
    split_ifs
    · split <;> exact destroy_edges_paths _ g
    · exact destroy_edges_paths _ g
  · simp [h]

/-- Counterexample to C9: node 1 = `ACGT` carries a mapping of the path `ref`;
after `destroy_node` the node is gone and the path still holds the mapping
whose position refers to node 1. -/
theorem destroy_node_keeps_mappings :
    has_node (destroy_node
        { (create_node VG.empty "ACGT".toList 0).1 with
          paths := [("ref", [⟨⟨1, 0, false⟩, [], 1⟩])] } ⟨1, "ACGT".toList⟩) 1 = false
    ∧ ∃ p ∈ (destroy_node
        { (create_node VG.empty "ACGT".toList 0).1 with
          paths := [("ref", [⟨⟨1, 0, false⟩, [], 1⟩])] } ⟨1, "ACGT".toList⟩).paths,
        ∃ m ∈ p.2, m.position.node_id = 1 := by
  decide

/-! ## Ids allocated by `create_node` -/

theorem foldl_max_id_ge (l : List Node) :
    ∀ (init : Int),
      init ≤ l.foldl (fun max_id n => if n.id > max_id then n.id else max_id) init
      ∧ ∀ nd ∈ l, nd.id ≤ l.foldl (fun max_id n => if n.id > max_id then n.id else max_id) init := by
  induction l with
  | nil => intro init; simp
  | cons a rest ih =>
    intro init
    simp only [List.foldl_cons, List.mem_cons, forall_eq_or_imp]
    obtain ⟨h1, h2⟩ := ih (if a.id > init then a.id else init)
    refine ⟨?_, ?_, h2⟩
    · by_cases h : a.id > init <;> simp only [h, if_true, if_false] at h1 ⊢ <;> omega
    · by_cases h : a.id > init <;> simp only [h, if_true, if_false] at h1 ⊢ <;> omega

theorem max_node_id_ge (g : VG) : 0 ≤ max_node_id g ∧ ∀ nd ∈ g.node, nd.id ≤ max_node_id g :=
  foldl_max_id_ge g.node 0

theorem max_node_id_append_zero (g g1 : VG) (seq : List Char)
    (h1 : g1.node = g.node ++ [(⟨0, seq⟩ : Node)]) : max_node_id g1 = max_node_id g := by
  unfold max_node_id
  rw [h1]
  simp only [List.foldl_append, List.foldl_cons, List.foldl_nil]
  have := (foldl_max_id_ge g.node 0).1
  split_ifs with h
  · omega
  · rfl

/-- The id that `create_node` gives to a node created without an id. -/
theorem create_node_id (g : VG) (seq : List Char) :
    (create_node g seq 0).2.id
        = (if g.current_id = 1 then max_node_id g + 1 else g.current_id)
    ∧ (create_node g seq 0).1.current_id = (create_node g seq 0).2.id + 1 := by
  unfold create_node
  simp only [true_and, if_true]
  by_cases h : g.current_id = 1
  · simp only [h, and_self, if_true]
    rw [max_node_id_append_zero g _ seq rfl]
    simp
  · simp [h]

/-- The id counter of `create_node`: called without an id it returns a node
whose id is the id counter `current_id`, which it then increments; when the
counter still has its initial value 1 it is first set to 1 + the maximum node
id present, and the returned id is then used by no existing node. -/
theorem create_node_allocates_counter (g : VG) (seq : List Char) :
    (g.current_id = 1 →
      (create_node g seq 0).2.id = 1 + max_node_id g
      ∧ ∀ nd ∈ g.node, nd.id ≠ (create_node g seq 0).2.id)
    ∧ (g.current_id ≠ 1 → (create_node g seq 0).2.id = g.current_id)
    ∧ (create_node g seq 0).1.current_id = (create_node g seq 0).2.id + 1 := by
  obtain ⟨h1, h2⟩ := create_node_id g seq
  refine ⟨fun hcur => ?_, fun hcur => ?_, h2⟩
  · rw [h1]
    simp only [hcur, if_true]
    refine ⟨by omega, fun nd hnd => ?_⟩
    have := (max_node_id_ge g).2 nd hnd
    omega
  · rw [h1]; simp [hcur]

/-- An instance of `create_node_allocates_counter`: in the graph holding the
nodes 4 and 7 added with explicit ids and an untouched counter, the new node
gets id 8. -/
theorem create_node_allocates_counter_witness :
    (create_node (create_node (create_node VG.empty "A".toList 4).1 "C".toList 7).1
      "G".toList 0).2.id = 1 + 7 :=
  ((create_node_allocates_counter
    (create_node (create_node VG.empty "A".toList 4).1 "C".toList 7).1 "G".toList).1
    (by decide)).1

/-- Two runs of the id counter: after `create_node("A")`, `create_node("C")`
and the destruction of the second node, `create_node("G")` returns id 3
although the maximum id present is 1; after `create_node("A")` and
`create_node("C", 2)`, `create_node("G")` returns id 2 although the maximum id
present is 2, and a stored node already has id 2. -/
theorem create_node_id_not_max_plus_one :
    ((create_node
        (destroy_node (create_node (create_node VG.empty "A".toList 0).1 "C".toList 0).1
          ⟨2, "C".toList⟩) "G".toList 0).2.id = 3
      ∧ max_node_id
        (destroy_node (create_node (create_node VG.empty "A".toList 0).1 "C".toList 0).1
          ⟨2, "C".toList⟩) = 1)
    ∧ ((create_node (create_node (create_node VG.empty "A".toList 0).1 "C".toList 2).1
          "G".toList 0).2.id = 2
      ∧ max_node_id (create_node (create_node VG.empty "A".toList 0).1 "C".toList 2).1 = 2
      ∧ ∃ nd ∈ (create_node (create_node VG.empty "A".toList 0).1 "C".toList 2).1.node,
          nd.id = 2) := by
  decide

/-! ## Ways `divide_node` ends -/

theorem divide_path_mappings_flag_false (cut_mapping : Mapping → Int → Mapping × Mapping)
    (node : Node) (positions : List Int) (parts : List Node) (ms : List Mapping)
    (h : (divide_path_mappings cut_mapping node positions parts ms).1 = false) :
    ∃ m ∈ ms, m.position.node_id = node.id ∧ divide_assertions node m = false := by
  induction ms with
  | nil => simp [divide_path_mappings] at h
  | cons m rest ih =>
    unfold divide_path_mappings at h
    by_cases hn : m.position.node_id = node.id
    · by_cases ha : divide_assertions node m = true
      · simp only [hn, if_true, ha] at h
        obtain ⟨m2, hm2, h2⟩ := ih h
        exact ⟨m2, List.mem_cons_of_mem _ hm2, h2⟩
      · exact ⟨m, List.mem_cons_self _ _, hn, by simpa using ha⟩
    · simp only [hn, if_false] at h
      obtain ⟨m2, hm2, h2⟩ := ih h
      exact ⟨m2, List.mem_cons_of_mem _ hm2, h2⟩

theorem divide_paths_flag_false (cut_mapping : Mapping → Int → Mapping × Mapping)
    (node : Node) (positions : List Int) (parts : List Node) (paths : Paths)
    (h : (divide_paths cut_mapping node positions parts paths).1 = false) :
    ¬ mappings_divisible paths node := by
  induction paths with
  | nil => simp [divide_paths] at h
  | cons p rest ih =>
    obtain ⟨name, ms⟩ := p
    simp only [divide_paths] at h
    by_cases h1 : (divide_path_mappings cut_mapping node positions parts ms).1 = true
    · simp only [h1, if_true] at h
      intro hd
      exact ih h (fun q hq => hd q (List.mem_cons_of_mem _ hq))
    · obtain ⟨m, hm, hn, ha⟩ := divide_path_mappings_flag_false cut_mapping node positions parts
        ms (by simpa using h1)
      intro hd
      have := hd (name, ms) (List.mem_cons_self _ _) m hm hn
      rw [ha] at this
      exact Bool.noConfusion this

/-- The range check of `divide_node`: the call ends with the position error
if and only if some requested offset is < 0 or > |sequence of N|; this check
comes before any change, so the graph and the vector `parts` are then as they
were.  When all offsets are in range the call returns if every mapping on the
node passes the function's assertions (offset 0, perfect match, full length);
it is aborted by an assertion only if some mapping on the node does not pass
them. -/
theorem divide_node_outcome (cut_mapping : Mapping → Int → Mapping × Mapping)
    (g : VG) (node : Node) (positions : List Int) (parts : List Node) :
    ((divide_node cut_mapping g node positions parts).1 = Outcome.position_out_of_range
      ↔ ∃ p ∈ positions, p < 0 ∨ p > (node.sequence.length : Int))
    ∧ ((divide_node cut_mapping g node positions parts).1 = Outcome.position_out_of_range →
        (divide_node cut_mapping g node positions parts).2 = (g, parts))
    ∧ ((∀ p ∈ positions, 0 ≤ p ∧ p ≤ (node.sequence.length : Int)) →
        mappings_divisible g.paths node →
        (divide_node cut_mapping g node positions parts).1 = Outcome.returned)
    ∧ ((divide_node cut_mapping g node positions parts).1 = Outcome.assertion_failed →
        ¬ mappings_divisible g.paths node) := by
  have hpaths : (wire_parts (make_parts g node positions parts).1 node
      (make_parts g node positions parts).2).paths = g.paths := by
    unfold wire_parts make_parts
    rw [connect_parts_paths, create_edges_paths, create_node_paths, create_parts_paths]
  by_cases hany : positions.any
      (fun pos => decide (pos < 0) || decide (pos > (node.sequence.length : Int))) = true
  · have hex : ∃ p ∈ positions, p < 0 ∨ p > (node.sequence.length : Int) := by
      rw [List.any_eq_true] at hany
      obtain ⟨p, hp, hbad⟩ := hany
      exact ⟨p, hp, by simpa using hbad⟩
    have hout : divide_node cut_mapping g node positions parts
        = (Outcome.position_out_of_range, g, parts) := by
      unfold divide_node; simp only [hany, if_true]
    rw [hout]
    refine ⟨⟨fun _ => hex, fun _ => rfl⟩, fun _ => rfl, ?_, ?_⟩
    · intro hin
      obtain ⟨p, hp, hbad⟩ := hex
      have := hin p hp
      omega
    · intro h; exact Outcome.noConfusion h
  · have hnex : ¬ ∃ p ∈ positions, p < 0 ∨ p > (node.sequence.length : Int) := by
      rintro ⟨p, hp, hbad⟩
      apply hany
      rw [List.any_eq_true]
      exact ⟨p, hp, by simpa using hbad⟩
    have hne : (divide_node cut_mapping g node positions parts).1
        ≠ Outcome.position_out_of_range := by
      unfold divide_node
      simp only [hany, Bool.false_eq_true, if_false]
      split_ifs <;> simp
    refine ⟨⟨fun h => absurd h hne, fun h => absurd h hnex⟩, fun h => absurd h hne, ?_, ?_⟩
    · intro _ hd
      unfold divide_node
      simp only [hany, Bool.false_eq_true, if_false]
      rw [divide_paths_flag]
      · simp
      · rw [hpaths]
        exact hd
    · intro hfail hd
      unfold divide_node at hfail
      simp only [hany, Bool.false_eq_true, if_false] at hfail
      split_ifs at hfail with hflag
      exact divide_paths_flag_false _ _ _ _ _ (by simpa using hflag)
        (by rw [hpaths]; exact hd)

/-- An instance of `divide_node_outcome`: on the one-node graph `ACGT`, whose
path `ref` maps the whole node, the offsets 1 and 3 are in range and the call
returns. -/
theorem divide_node_outcome_witness :
    (divide_node (fun m _ => (m, m))
      { (create_node VG.empty "ACGT".toList 0).1 with
        paths := [("ref", [⟨⟨1, 0, false⟩, [], 1⟩])] }
      ⟨1, "ACGT".toList⟩ [1, 3] []).1 = Outcome.returned :=
  (divide_node_outcome (fun m _ => (m, m))
    { (create_node VG.empty "ACGT".toList 0).1 with
      paths := [("ref", [⟨⟨1, 0, false⟩, [], 1⟩])] }
    ⟨1, "ACGT".toList⟩ [1, 3] []).2.2.1 (by decide) (by unfold mappings_divisible; decide)

/-- Counterexample to C3: node 1 = `ACGT` carries a mapping that starts at offset 1;
dividing it at offset 2, which lies in range, is aborted by an assertion, and
at that point the store already holds the two new parts. -/
theorem divide_node_fails_in_range :
    (0 ≤ (2 : Int) ∧ (2 : Int) ≤ ("ACGT".toList.length : Int))
    ∧ (divide_node (fun m _ => (m, m))
        { (create_node VG.empty "ACGT".toList 0).1 with
          paths := [("ref", [⟨⟨1, 1, false⟩, [], 1⟩])] }
        ⟨1, "ACGT".toList⟩ [2] []).1 = Outcome.assertion_failed
    ∧ node_count (divide_node (fun m _ => (m, m))
        { (create_node VG.empty "ACGT".toList 0).1 with
          paths := [("ref", [⟨⟨1, 1, false⟩, [], 1⟩])] }
        ⟨1, "ACGT".toList⟩ [2] []).2.1 = 3 := by
  decide

/-! ## Node division: the parts and their ids -/

theorem next_id_pos (g : VG) (hcur : 1 ≤ g.current_id) : 1 ≤ next_id g := by
  unfold next_id
  have := (max_node_id_ge g).1
  split_ifs <;> omega

theorem create_node_alloc (g : VG) (seq : List Char) (hcur : 1 ≤ g.current_id) :
    (create_node g seq 0).2.id = next_id g
    ∧ next_id (create_node g seq 0).1 = next_id g + 1
    ∧ 1 ≤ (create_node g seq 0).1.current_id := by
  obtain ⟨h1, h2⟩ := create_node_id g seq
  have h3 := next_id_pos g hcur
  have h4 : (create_node g seq 0).2.id = next_id g := h1
  refine ⟨h4, ?_, ?_⟩
  · unfold next_id
    rw [h2, h4]
    have : ¬ next_id g + 1 = 1 := by omega
    simp only [this, if_false]
    rfl
  · rw [h2, h4]; omega

theorem create_node_has_node (g : VG) (seq : List Char) (id0 id : Int) :
    has_node (create_node g seq id0).1 id
      = (decide ((create_node g seq id0).2.id = id) || has_node g id) := by
  unfold has_node
  rw [(create_node_node_fields g seq id0).2.1, map_find_insert]
  by_cases h : (create_node g seq id0).2.id = id <;> simp [h]

theorem ids_from_append (l1 l2 : List Node) :
    ∀ (c : Int), ids_from c (l1 ++ l2) ↔ (ids_from c l1 ∧ ids_from (c + l1.length) l2) := by
  induction l1 with
  | nil => intro c; simp [ids_from]
  | cons a rest ih =>
    intro c
    have h1 := ih (c + 1)
    have h2 : c + 1 + (rest.length : Int) = c + ((rest.length : Int) + 1) := by omega
    rw [h2] at h1
    have h3 : ids_from c (a :: rest ++ l2) ↔ (a.id = c ∧ ids_from (c + 1) (rest ++ l2)) :=
      Iff.rfl
    have h4 : ids_from c (a :: rest) ↔ (a.id = c ∧ ids_from (c + 1) rest) := Iff.rfl
    rw [h3, h4, h1]
    simp only [List.length_cons, Nat.cast_succ]
    tauto

theorem create_parts_ids (node : Node) (positions : List Int) :
    ∀ (last_pos : Int) (g : VG) (parts : List Node), 1 ≤ g.current_id →
      ∃ news : List Node,
        (create_parts node positions last_pos g parts).2.2 = parts ++ news
        ∧ ids_from (next_id g) news
        ∧ news.length = positions.length
        ∧ next_id (create_parts node positions last_pos g parts).1
            = next_id g + positions.length
        ∧ 1 ≤ (create_parts node positions last_pos g parts).1.current_id
        ∧ (create_parts node positions last_pos g parts).1.edge = g.edge
        ∧ (create_parts node positions last_pos g parts).1.edge_by_sides = g.edge_by_sides
        ∧ (create_parts node positions last_pos g parts).1.edge_index = g.edge_index
        ∧ (create_parts node positions last_pos g parts).1.edges_on_start = g.edges_on_start
        ∧ (create_parts node positions last_pos g parts).1.edges_on_end = g.edges_on_end
        ∧ (∀ id, has_node g id = true →
            has_node (create_parts node positions last_pos g parts).1 id = true) := by
  induction positions with
  | nil =>
    intro last_pos g parts hcur
    exact ⟨[], by simp [create_parts], trivial, rfl, by simp [create_parts], hcur,
      rfl, rfl, rfl, rfl, rfl, fun _ h => h⟩
  | cons p rest ih =>
    intro last_pos g parts hcur
    obtain ⟨ha, hb, hc⟩ :=
      create_node_alloc g (substr node.sequence last_pos.toNat (p - last_pos)) hcur
    obtain ⟨he1, he2, he3, he4, he5⟩ :=
      create_node_edge_fields g (substr node.sequence last_pos.toNat (p - last_pos)) 0
    obtain ⟨news, h1, h2, hlen, h3, h4, h5, h6, h7, h8, h9, h10⟩ :=
      ih p (create_node g (substr node.sequence last_pos.toNat (p - last_pos)) 0).1
        (parts ++ [(create_node g (substr node.sequence last_pos.toNat (p - last_pos)) 0).2]) hc
    simp only [create_parts]
    refine ⟨(create_node g (substr node.sequence last_pos.toNat (p - last_pos)) 0).2 :: news,
      ?_, ?_, ?_, ?_, h4, h5.trans he1, h6.trans he2, h7.trans he3, h8.trans he4,
      h9.trans he5, ?_⟩
    · rw [h1]; simp
    · rw [hb] at h2
      exact ⟨ha, h2⟩
    · simp [hlen]
    · rw [h3, hb]; simp only [List.length_cons, Nat.cast_succ]; omega
    · intro id hid
      apply h10
      rw [create_node_has_node]
      simp [hid]

/-! ## Node division: the edges created -/

theorem create_edge_summary (g : VG) (hc : edges_consistent g) (a b : Int) (fs te : Bool) :
    edges_consistent (create_edge g a b fs te).1
    ∧ (∀ p, (map_find (create_edge g a b fs te).1.edge_by_sides p).isSome = true ↔
        ((map_find g.edge_by_sides p).isSome = true ∨ minmax ⟨a, !fs⟩ ⟨b, te⟩ = p))
    ∧ (∀ e ∈ (create_edge g a b fs te).1.edge, e ∈ g.edge ∨ e = ⟨a, b, fs, te⟩)
    ∧ (create_edge g a b fs te).1.node_by_id = g.node_by_id := by
  obtain ⟨h1, h2, h3, _, _⟩ := create_edge_spec g hc a b fs te
  refine ⟨h1, ?_, ?_, (create_edge_frame g a b fs te).2.1⟩
  · intro p
    rw [h2]
    by_cases hp : minmax ⟨a, !fs⟩ ⟨b, te⟩ = p <;> simp [hp]
  · intro e he
    rw [h3] at he
    rcases he with he | he
    · exact Or.inl he
    · cases h : get_edge g ⟨a, !fs⟩ ⟨b, te⟩ with
      | some e0 =>
        rw [create_edge_existing g a b fs te e0 h] at he
        left
        rw [he]
        exact (hc.by_sides_sound _ _ h).1
      | none =>
        right
        rw [he]
        exact (create_edge_fresh g a b fs te h).1

theorem create_edges_spec (l : List ((Int × Bool) × (Int × Bool))) :
    ∀ (g : VG), edges_consistent g →
      edges_consistent (create_edges g l)
      ∧ (∀ p, (map_find (create_edges g l).edge_by_sides p).isSome = true ↔
          ((map_find g.edge_by_sides p).isSome = true
            ∨ ∃ q ∈ l, minmax ⟨q.1.1, !q.1.2⟩ ⟨q.2.1, q.2.2⟩ = p))
      ∧ (∀ e ∈ (create_edges g l).edge,
          e ∈ g.edge ∨ ∃ q ∈ l, e = ⟨q.1.1, q.2.1, q.1.2, q.2.2⟩)
      ∧ (create_edges g l).node_by_id = g.node_by_id := by
  induction l with
  | nil => intro g hc; simp [create_edges, hc]
  | cons q rest ih =>
    intro g hc
    obtain ⟨h1, h2, h3, h4⟩ := create_edge_summary g hc q.1.1 q.2.1 q.1.2 q.2.2
    obtain ⟨h5, h6, h7, h8⟩ := ih (create_edge g q.1.1 q.2.1 q.1.2 q.2.2).1 h1
    have hunf : create_edges g (q :: rest)
        = create_edges (create_edge g q.1.1 q.2.1 q.1.2 q.2.2).1 rest := rfl
    rw [hunf]
    refine ⟨h5, ?_, ?_, h8.trans h4⟩
    · intro p
      rw [h6, h2]
      simp only [List.mem_cons, exists_eq_or_imp]
      tauto
    · intro e he
      rcases h7 e he with h | ⟨q2, hq2, h⟩
      · rcases h3 e h with h | h
        · exact Or.inl h
        · exact Or.inr ⟨q, List.mem_cons_self _ _, h⟩
      · exact Or.inr ⟨q2, List.mem_cons_of_mem _ hq2, h⟩

theorem connect_parts_spec (parts : List Node) :
    ∀ (g : VG), edges_consistent g →
      edges_consistent (connect_parts g parts)
      ∧ (∀ p, (map_find (connect_parts g parts).edge_by_sides p).isSome = true ↔
          ((map_find g.edge_by_sides p).isSome = true
            ∨ ∃ ab ∈ adjacent_pairs parts, minmax ⟨ab.1.id, true⟩ ⟨ab.2.id, false⟩ = p))
      ∧ (∀ e ∈ (connect_parts g parts).edge,
          e ∈ g.edge ∨ ∃ ab ∈ adjacent_pairs parts, e = ⟨ab.1.id, ab.2.id, false, false⟩)
      ∧ (connect_parts g parts).node_by_id = g.node_by_id := by
  induction parts with
  | nil => intro g hc; simp [connect_parts, adjacent_pairs, hc]
  | cons a rest ih =>
    cases rest with
    | nil => intro g hc; simp [connect_parts, adjacent_pairs, hc]
    | cons b rest2 =>
      intro g hc
      obtain ⟨h1, h2, h3, h4⟩ := create_edge_summary g hc a.id b.id false false
      obtain ⟨h5, h6, h7, h8⟩ := ih (create_edge g a.id b.id false false).1 h1
      have hunf : connect_parts g (a :: b :: rest2)
          = connect_parts (create_edge g a.id b.id false false).1 (b :: rest2) := rfl
      have hadj : adjacent_pairs (a :: b :: rest2) = (a, b) :: adjacent_pairs (b :: rest2) := rfl
      rw [hunf, hadj]
      refine ⟨h5, ?_, ?_, h8.trans h4⟩
      · intro p
        rw [h6, h2]
        simp only [List.mem_cons, exists_eq_or_imp, Bool.not_false]
        tauto
      · intro e he
        rcases h7 e he with h | ⟨q2, hq2, h⟩
        · rcases h3 e h with h | h
          · exact Or.inl h
          · exact Or.inr ⟨(a, b), List.mem_cons_self _ _, h⟩
        · exact Or.inr ⟨q2, List.mem_cons_of_mem _ hq2, h⟩

theorem ids_from_mem (l : List Node) :
    ∀ (c : Int), ids_from c l → ∀ nd ∈ l, c ≤ nd.id ∧ nd.id < c + l.length := by
  induction l with
  | nil => intro c _ nd hnd; simp at hnd
  | cons a rest ih =>
    intro c h nd hnd
    obtain ⟨h1, h2⟩ := h
    simp only [List.length_cons, Nat.cast_succ]
    rcases List.mem_cons.mp hnd with hx | hx
    · rw [hx, h1]; omega
    · have := ih (c + 1) h2 nd hx
      omega

theorem ids_from_adjacent (l : List Node) :
    ∀ (c : Int), ids_from c l → ∀ ab ∈ adjacent_pairs l,
      c ≤ ab.1.id ∧ ab.2.id = ab.1.id + 1 ∧ ab.2.id < c + l.length := by
  induction l with
  | nil => intro c _ ab hab; simp [adjacent_pairs] at hab
  | cons a rest ih =>
    cases rest with
    | nil => intro c _ ab hab; simp [adjacent_pairs] at hab
    | cons b rest2 =>
      intro c h ab hab
      obtain ⟨h1, h2, h3⟩ := h
      have hadj : adjacent_pairs (a :: b :: rest2) = (a, b) :: adjacent_pairs (b :: rest2) := rfl
      rw [hadj] at hab
      simp only [List.length_cons, Nat.cast_succ]
      rcases List.mem_cons.mp hab with hx | hx
      · rw [hx]; simp only; omega
      · have := ih (c + 1) ⟨h2, h3⟩ ab hx
        simp only [List.length_cons, Nat.cast_succ] at this
        omega

theorem ids_from_head_last (l : List Node) (d : Node) (hne : l ≠ []) :
    ∀ (c : Int), ids_from c l →
      (l.headD d).id = c ∧ (l.getLastD d).id = c + l.length - 1 := by
  induction l with
  | nil => exact absurd rfl hne
  | cons a rest ih =>
    intro c h
    obtain ⟨h1, h2⟩ := h
    refine ⟨h1, ?_⟩
    cases rest with
    | nil => simp [h1]
    | cons b rest2 =>
      have := (ih (by simp) (c + 1) h2).2
      simp only [List.getLastD_cons, List.length_cons, Nat.cast_succ] at this ⊢
      rw [this]
      omega

theorem id_bool_pair_lt_total (a b : (Int × Bool) × (Int × Bool))
    (h1 : id_bool_pair_lt a b = false) (h2 : id_bool_pair_lt b a = false) : a = b := by
  obtain ⟨⟨a1, a2⟩, ⟨a3, a4⟩⟩ := a
  obtain ⟨⟨b1, b2⟩, ⟨b3, b4⟩⟩ := b
  unfold id_bool_pair_lt id_bool_lt pair_lt at h1 h2
  simp only [Bool.or_eq_false_iff, Bool.and_eq_false_imp, Bool.not_eq_true',
    decide_eq_false_iff_not, Bool.and_eq_true, decide_eq_true_eq, Bool.not_eq_true,
    Bool.or_eq_true, not_or, not_and, Bool.not_eq_false, and_imp] at h1 h2
  have e1 : a1 = b1 := by omega
  subst e1
  have e2 : a2 = b2 := by
    cases a2 <;> cases b2 <;> simp_all
  subst e2
  have e3 : a3 = b3 := by
    have := h1.2
    have := h2.2
    simp_all
    omega
  subst e3
  have e4 : a4 = b4 := by
    cases a4 <;> cases b4 <;> simp_all
  subst e4
  rfl

theorem mem_edges_to_create_of (g : VG) (node : Node) (parts : List Node)
    (q : (Int × Bool) × (Int × Bool)) :
    q ∈ edges_to_create_of g node parts ↔
      ((∃ x ∈ edges_start g node.id,
          q = (reroute_start node parts x, ((parts.headD ⟨0, []⟩).id, false)))
        ∨ (∃ x ∈ edges_end g node.id,
          q = (((parts.getLastD ⟨0, []⟩).id, false), reroute_end node parts x))) := by
  unfold edges_to_create_of
  rw [foldl_set_insert_mem id_bool_pair_lt id_bool_pair_lt_total,
    foldl_set_insert_mem id_bool_pair_lt id_bool_pair_lt_total]
  simp

theorem make_parts_spec (g : VG) (hcur : 1 ≤ g.current_id) (node : Node)
    (positions : List Int) :
    ids_from (next_id g) (make_parts g node positions []).2
    ∧ (make_parts g node positions []).2.length = positions.length + 1
    ∧ (make_parts g node positions []).1.edge = g.edge
    ∧ (make_parts g node positions []).1.edge_by_sides = g.edge_by_sides
    ∧ (make_parts g node positions []).1.edge_index = g.edge_index
    ∧ (make_parts g node positions []).1.edges_on_start = g.edges_on_start
    ∧ (make_parts g node positions []).1.edges_on_end = g.edges_on_end
    ∧ (∀ id, has_node g id = true → has_node (make_parts g node positions []).1 id = true) := by
  obtain ⟨news, h1, h2, hlen, h3, h4, h5, h6, h7, h8, h9, h10⟩ :=
    create_parts_ids node positions 0 g [] hcur
  obtain ⟨ha, _, _⟩ := create_node_alloc (create_parts node positions 0 g []).1
    (node.sequence.drop (create_parts node positions 0 g []).2.1.toNat) h4
  obtain ⟨he1, he2, he3, he4, he5⟩ := create_node_edge_fields
    (create_parts node positions 0 g []).1
    (node.sequence.drop (create_parts node positions 0 g []).2.1.toNat) 0
  unfold make_parts
  simp only []
  refine ⟨?_, ?_, he1.trans h5, he2.trans h6, he3.trans h7, he4.trans h8, he5.trans h9, ?_⟩
  · rw [h1, List.nil_append, ids_from_append]
    refine ⟨h2, ?_, trivial⟩
    rw [ha, h3, hlen]
  · rw [h1]; simp [hlen]
  · intro id hid
    rw [create_node_has_node]
    simp [h10 id hid]

theorem wire_parts_spec (g : VG) (hc : edges_consistent g) (node : Node) (parts : List Node)
    (hls : ∀ x ∈ edges_start g node.id, x.1 ≠ node.id)
    (hle : ∀ x ∈ edges_end g node.id, x.1 ≠ node.id) :
    edges_consistent (wire_parts g node parts)
    ∧ (∀ p, (map_find (wire_parts g node parts).edge_by_sides p).isSome = true ↔
        ((map_find g.edge_by_sides p).isSome = true
          ∨ (∃ x ∈ edges_start g node.id,
              pair_from_start_edge (parts.headD ⟨0, []⟩).id x = p)
          ∨ (∃ x ∈ edges_end g node.id,
              pair_from_end_edge (parts.getLastD ⟨0, []⟩).id x = p)
          ∨ (∃ ab ∈ adjacent_pairs parts, minmax ⟨ab.1.id, true⟩ ⟨ab.2.id, false⟩ = p)))
    ∧ (∀ e ∈ (wire_parts g node parts).edge,
        e ∈ g.edge
          ∨ (∃ x ∈ edges_start g node.id, e = ⟨x.1, (parts.headD ⟨0, []⟩).id, x.2, false⟩)
          ∨ (∃ x ∈ edges_end g node.id, e = ⟨(parts.getLastD ⟨0, []⟩).id, x.1, false, x.2⟩)
          ∨ (∃ ab ∈ adjacent_pairs parts, e = ⟨ab.1.id, ab.2.id, false, false⟩))
    ∧ (wire_parts g node parts).node_by_id = g.node_by_id := by
  obtain ⟨h1, h2, h3, h4⟩ := create_edges_spec (edges_to_create_of g node parts) g hc
  obtain ⟨h5, h6, h7, h8⟩ := connect_parts_spec parts
    (create_edges g (edges_to_create_of g node parts)) h1
  have hrs : ∀ x ∈ edges_start g node.id, reroute_start node parts x = x := by
    intro x hx
    unfold reroute_start
    simp [hls x hx]
  have hre : ∀ x ∈ edges_end g node.id, reroute_end node parts x = x := by
    intro x hx
    unfold reroute_end
    simp [hle x hx]
  have hq : ∀ p, (∃ q ∈ edges_to_create_of g node parts,
        minmax ⟨q.1.1, !q.1.2⟩ ⟨q.2.1, q.2.2⟩ = p) ↔
      ((∃ x ∈ edges_start g node.id, pair_from_start_edge (parts.headD ⟨0, []⟩).id x = p)
        ∨ (∃ x ∈ edges_end g node.id, pair_from_end_edge (parts.getLastD ⟨0, []⟩).id x = p)) := by
    intro p
    constructor
    · rintro ⟨q, hq, hp⟩
      rw [mem_edges_to_create_of] at hq
      rcases hq with ⟨x, hx, rfl⟩ | ⟨x, hx, rfl⟩
      · left
        refine ⟨x, hx, ?_⟩
        rw [hrs x hx] at hp
        rw [← hp]
        unfold pair_from_start_edge
        exact minmax_comm _ _
      · right
        refine ⟨x, hx, ?_⟩
        rw [hre x hx] at hp
        rw [← hp]
        rfl
    · rintro (⟨x, hx, hp⟩ | ⟨x, hx, hp⟩)
      · refine ⟨(x, ((parts.headD ⟨0, []⟩).id, false)), ?_, ?_⟩
        · rw [mem_edges_to_create_of]
          left
          exact ⟨x, hx, by rw [hrs x hx]⟩
        · rw [← hp]
          unfold pair_from_start_edge
          exact minmax_comm _ _
      · refine ⟨(((parts.getLastD ⟨0, []⟩).id, false), x), ?_, ?_⟩
        · rw [mem_edges_to_create_of]
          right
          exact ⟨x, hx, by rw [hre x hx]⟩
        · rw [← hp]
          rfl
  unfold wire_parts
  refine ⟨h5, ?_, ?_, h8.trans h4⟩
  · intro p
    rw [h6, h2, hq]
    simp only [or_assoc]
  · intro e he
    rcases h7 e he with h | h
    · rcases h3 e h with h | ⟨q, hq2, h⟩
      · exact Or.inl h
      · rw [mem_edges_to_create_of] at hq2
        rcases hq2 with ⟨x, hx, rfl⟩ | ⟨x, hx, rfl⟩
        · right; left
          refine ⟨x, hx, ?_⟩
          rw [h, hrs x hx]
        · right; right; left
          refine ⟨x, hx, ?_⟩
          rw [h, hre x hx]
    · exact Or.inr (Or.inr (Or.inr h))

theorem no_loop_entries (g : VG) (hc : edges_consistent g) (id : Int)
    (hloop : ∀ e ∈ g.edge, ¬ (e.from_ = id ∧ e.to_ = id)) :
    (∀ x ∈ edges_start g id, x.1 ≠ id) ∧ (∀ x ∈ edges_end g id, x.1 ≠ id) := by
  constructor
  · intro x hx hxid
    rw [hc.start_iff] at hx
    cases hf : map_find g.edge_by_sides (pair_from_start_edge id x) with
    | none => rw [hf] at hx; simp at hx
    | some e =>
      obtain ⟨he, hp⟩ := hc.by_sides_sound _ _ hf
      apply hloop e he
      unfold pair_from_edge pair_from_start_edge at hp
      rw [minmax_eq_iff] at hp
      simp only [NodeSide.mk.injEq] at hp
      omega
  · intro x hx hxid
    rw [hc.end_iff] at hx
    cases hf : map_find g.edge_by_sides (pair_from_end_edge id x) with
    | none => rw [hf] at hx; simp at hx
    | some e =>
      obtain ⟨he, hp⟩ := hc.by_sides_sound _ _ hf
      apply hloop e he
      unfold pair_from_edge pair_from_end_edge at hp
      rw [minmax_eq_iff] at hp
      simp only [NodeSide.mk.injEq] at hp
      omega

theorem divide_node_edges (cut_mapping : Mapping → Int → Mapping × Mapping)
    (g : VG) (node : Node) (positions : List Int)
    (hc : edges_consistent g) (hN : has_node g node.id = true) (hcur : 1 ≤ g.current_id)
    (hloop : ∀ e ∈ g.edge, ¬ (e.from_ = node.id ∧ e.to_ = node.id))
    (hasc : List.Chain (· ≤ ·) 0 positions)
    (hhi : ∀ p ∈ positions, p ≤ node.sequence.length)
    (hmap : mappings_divisible g.paths node) :
    (divide_node cut_mapping g node positions []).1 = Outcome.returned
    ∧ ids_from (next_id g) (divide_node cut_mapping g node positions []).2.2
    ∧ (divide_node cut_mapping g node positions []).2.2.length = positions.length + 1
    ∧ has_node (divide_node cut_mapping g node positions []).2.1 node.id = false
    ∧ edges_consistent (divide_node cut_mapping g node positions []).2.1
    ∧ (∀ p, (map_find (divide_node cut_mapping g node positions []).2.1.edge_by_sides p).isSome
          = true ↔
        (¬ (p.1.node = node.id ∨ p.2.node = node.id)
          ∧ ((map_find g.edge_by_sides p).isSome = true
            ∨ (∃ x ∈ edges_start g node.id,
                pair_from_start_edge
                  ((divide_node cut_mapping g node positions []).2.2.headD ⟨0, []⟩).id x = p)
            ∨ (∃ x ∈ edges_end g node.id,
                pair_from_end_edge
                  ((divide_node cut_mapping g node positions []).2.2.getLastD ⟨0, []⟩).id x = p)
            ∨ (∃ ab ∈ adjacent_pairs (divide_node cut_mapping g node positions []).2.2,
                minmax ⟨ab.1.id, true⟩ ⟨ab.2.id, false⟩ = p))))
    ∧ (∀ e ∈ (divide_node cut_mapping g node positions []).2.1.edge,
        e ∈ g.edge
          ∨ (∃ x ∈ edges_start g node.id,
              e = ⟨x.1, ((divide_node cut_mapping g node positions []).2.2.headD ⟨0, []⟩).id,
                    x.2, false⟩)
          ∨ (∃ x ∈ edges_end g node.id,
              e = ⟨((divide_node cut_mapping g node positions []).2.2.getLastD ⟨0, []⟩).id,
                    x.1, false, x.2⟩)
          ∨ (∃ ab ∈ adjacent_pairs (divide_node cut_mapping g node positions []).2.2,
              e = ⟨ab.1.id, ab.2.id, false, false⟩)) := by
  obtain ⟨hids, hlen, hm1, hm2, hm3, hm4, hm5, hm6⟩ := make_parts_spec g hcur node positions
  have hc1 : edges_consistent (make_parts g node positions []).1 :=
    edges_consistent_congr g _ hc hm1 hm2 hm3 hm4 hm5
  have hs1 : ∀ n, edges_start (make_parts g node positions []).1 n = edges_start g n :=
    si_start_congr _ _ hm4
  have he1 : ∀ n, edges_end (make_parts g node positions []).1 n = edges_end g n :=
    si_end_congr _ _ hm5
  obtain ⟨hls, hle⟩ := no_loop_entries g hc node.id hloop
  obtain ⟨hw1, hw2, hw3, hw4⟩ := wire_parts_spec (make_parts g node positions []).1 hc1 node
    (make_parts g node positions []).2 (by rw [hs1]; exact hls) (by rw [he1]; exact hle)
  have hpaths : (wire_parts (make_parts g node positions []).1 node
      (make_parts g node positions []).2).paths = g.paths := by
    unfold wire_parts make_parts
    rw [connect_parts_paths, create_edges_paths, create_node_paths, create_parts_paths]
  have hflag := divide_paths_flag cut_mapping node positions (make_parts g node positions []).2
    (wire_parts (make_parts g node positions []).1 node (make_parts g node positions []).2).paths
    (by rw [hpaths]; exact hmap)
  have heq : divide_node cut_mapping g node positions []
      = (Outcome.returned,
          destroy_node
            { wire_parts (make_parts g node positions []).1 node
                (make_parts g node positions []).2 with
              paths := (divide_paths cut_mapping node positions
                (make_parts g node positions []).2
                (wire_parts (make_parts g node positions []).1 node
                  (make_parts g node positions []).2).paths).2 } node,
          (make_parts g node positions []).2) := by
    unfold divide_node
    rw [range_check_passes node positions hasc hhi]
    simp only [Bool.false_eq_true, if_false, hflag, if_true]
  have hc4 : edges_consistent
      { wire_parts (make_parts g node positions []).1 node
          (make_parts g node positions []).2 with
        paths := (divide_paths cut_mapping node positions
          (make_parts g node positions []).2
          (wire_parts (make_parts g node positions []).1 node
            (make_parts g node positions []).2).paths).2 } :=
    edges_consistent_congr _ _ hw1 rfl rfl rfl rfl rfl
  have hhas4 : has_node
      { wire_parts (make_parts g node positions []).1 node
          (make_parts g node positions []).2 with
        paths := (divide_paths cut_mapping node positions
          (make_parts g node positions []).2
          (wire_parts (make_parts g node positions []).1 node
            (make_parts g node positions []).2).paths).2 } node.id = true := by
    have := hm6 node.id hN
    unfold has_node at this ⊢
    show (map_find (wire_parts (make_parts g node positions []).1 node
      (make_parts g node positions []).2).node_by_id node.id).isSome = true
    rw [hw4]
    exact this
  obtain ⟨hd1, hd2, hd3⟩ := destroy_node_edges_spec _ hc4 node hhas4
  rw [heq]
  refine ⟨rfl, hids, hlen, ?_, hd1, ?_, ?_⟩
  · have hhn : has_node g node.id = true := hN
    unfold has_node
    unfold destroy_node
    simp only [hhas4, Bool.not_true, Bool.false_eq_true, if_false]
    split_ifs
    · split <;> simp [map_find_erase]
    · simp [map_find_erase]
  · intro p
    simp only []
    rw [hd2 p]
    by_cases ht : p.1.node = node.id ∨ p.2.node = node.id
    · simp [ht]
    · simp only [ht, if_false, not_false_eq_true, true_and]
      show (map_find (wire_parts (make_parts g node positions []).1 node
        (make_parts g node positions []).2).edge_by_sides p).isSome = true ↔ _
      rw [hw2 p, hm2, hs1, he1]
  · intro e he
    simp only [] at he ⊢
    rw [hd3] at he
    have := hw3 e he.1
    rw [hm1, hs1, he1] at this
    exact this

theorem headD_mem {α : Type} (l : List α) (d : α) (h : l ≠ []) : l.headD d ∈ l := by
  cases l with
  | nil => exact absurd rfl h
  | cons a rest => simp

theorem getLastD_mem {α : Type} (l : List α) :
    ∀ (d : α), l ≠ [] → l.getLastD d ∈ l := by
  induction l with
  | nil => intro d h; exact absurd rfl h
  | cons a rest ih =>
    intro d _
    rw [List.getLastD_cons]
    cases rest with
    | nil => simp
    | cons b rest2 => exact List.mem_cons_of_mem _ (ih a (by simp))

theorem adjacent_pairs_mem {α : Type} (l : List α) (ab : α × α) (h : ab ∈ adjacent_pairs l) :
    ab.1 ∈ l ∧ ab.2 ∈ l := by
  unfold adjacent_pairs at h
  obtain ⟨a, b⟩ := ab
  have := List.of_mem_zip h
  exact ⟨this.1, List.mem_of_mem_tail this.2⟩

theorem minmax_nodes_lt (a b : NodeSide) (c : Int) :
    ((minmax a b).1.node < c ∧ (minmax a b).2.node < c) ↔ (a.node < c ∧ b.node < c) := by
  unfold minmax
  split_ifs
  · simp only; tauto
  · simp only

theorem entries_fresh (g : VG) (hc : edges_consistent g) (c : Int)
    (hfresh : ∀ p e, map_find g.edge_by_sides p = some e → p.1.node < c ∧ p.2.node < c)
    (id : Int) :
    (∀ x ∈ edges_start g id, x.1 < c) ∧ (∀ x ∈ edges_end g id, x.1 < c) := by
  constructor
  · intro x hx
    rw [hc.start_iff] at hx
    cases hf : map_find g.edge_by_sides (pair_from_start_edge id x) with
    | none => rw [hf] at hx; simp at hx
    | some e =>
      have := hfresh _ _ hf
      unfold pair_from_start_edge at this
      rw [minmax_nodes_lt] at this
      exact this.2
  · intro x hx
    rw [hc.end_iff] at hx
    cases hf : map_find g.edge_by_sides (pair_from_end_edge id x) with
    | none => rw [hf] at hx; simp at hx
    | some e =>
      have := hfresh _ _ hf
      unfold pair_from_end_edge at this
      rw [minmax_nodes_lt] at this
      exact this.2

theorem indexed_fresh (g : VG) (c : Int)
    (hfresh : ∀ p e, map_find g.edge_by_sides p = some e → p.1.node < c ∧ p.2.node < c)
    (s1 s2 : NodeSide) (h : (map_find g.edge_by_sides (minmax s1 s2)).isSome = true) :
    s1.node < c ∧ s2.node < c := by
  cases hf : map_find g.edge_by_sides (minmax s1 s2) with
  | none => rw [hf] at h; simp at h
  | some e => exact (minmax_nodes_lt s1 s2 c).mp (hfresh _ _ hf)

/-- Rewiring by `divide_node` when the id counter is ahead: let `N` be a node
of a graph whose edge store and indexes agree and whose id counter is ahead of
every id in use, let `N` have no self loop, and let the
cut offsets be ascending and in range (the mappings on `N` being such as the
function's assertions require).  After `divide_node`: `N` is no longer in the
graph; a side `X` is connected to the start of the first part iff `X` was
connected to the start of `N`, and to the end of the last part iff `X` was
connected to the end of `N`; each consecutive pair of parts is joined by
exactly one edge, the plain edge from the end of the left part to the start of
the right part; and `has_edge` is unchanged for every pair of sides neither of
which lies on `N` or on a part. -/
theorem divide_node_rewires (cut_mapping : Mapping → Int → Mapping × Mapping)
    (g : VG) (node : Node) (positions : List Int)
    (hc : edges_consistent g) (hN : has_node g node.id = true) (hfresh : allocator_fresh g)
    (hloop : ∀ e ∈ g.edge, ¬ (e.from_ = node.id ∧ e.to_ = node.id))
    (hasc : List.Chain (· ≤ ·) 0 positions)
    (hhi : ∀ p ∈ positions, p ≤ node.sequence.length)
    (hmap : mappings_divisible g.paths node) :
    (divide_node cut_mapping g node positions []).1 = Outcome.returned
    ∧ has_node (divide_node cut_mapping g node positions []).2.1 node.id = false
    ∧ (∀ X : NodeSide,
        has_edge (divide_node cut_mapping g node positions []).2.1 X
            ⟨((divide_node cut_mapping g node positions []).2.2.headD ⟨0, []⟩).id, false⟩
          = has_edge g X ⟨node.id, false⟩)
    ∧ (∀ X : NodeSide,
        has_edge (divide_node cut_mapping g node positions []).2.1 X
            ⟨((divide_node cut_mapping g node positions []).2.2.getLastD ⟨0, []⟩).id, true⟩
          = has_edge g X ⟨node.id, true⟩)
    ∧ (∀ ab ∈ adjacent_pairs (divide_node cut_mapping g node positions []).2.2,
        get_edge (divide_node cut_mapping g node positions []).2.1
            ⟨ab.1.id, true⟩ ⟨ab.2.id, false⟩ = some ⟨ab.1.id, ab.2.id, false, false⟩
        ∧ (divide_node cut_mapping g node positions []).2.1.edge.countP
            (fun e => decide (pair_from_edge e = minmax ⟨ab.1.id, true⟩ ⟨ab.2.id, false⟩)) = 1)
    ∧ (∀ s1 s2 : NodeSide, s1.node ≠ node.id → s2.node ≠ node.id →
        (∀ part ∈ (divide_node cut_mapping g node positions []).2.2,
          s1.node ≠ part.id ∧ s2.node ≠ part.id) →
        has_edge (divide_node cut_mapping g node positions []).2.1 s1 s2 = has_edge g s1 s2) := by
  obtain ⟨hcur, hfn, hfe⟩ := hfresh
  obtain ⟨hret, hids, hlen, hhas, hcons, hidx, hmem⟩ :=
    divide_node_edges cut_mapping g node positions hc hN hcur hloop hasc hhi hmap
  generalize divide_node cut_mapping g node positions [] = r at hret hids hlen hhas hcons hidx hmem ⊢
  obtain ⟨out, g2, parts⟩ := r
  simp only at hret hids hlen hhas hcons hidx hmem ⊢
  have hne : parts ≠ [] := by
    intro h; rw [h] at hlen; simp at hlen
  obtain ⟨hP0, hPk⟩ := ids_from_head_last parts ⟨0, []⟩ hne (next_id g) hids
  have hlenpos : (0 : Int) < parts.length := by
    have : 0 < parts.length := List.length_pos.mpr hne
    omega
  have hNc : node.id < next_id g := by
    unfold has_node at hN
    cases hf : map_find g.node_by_id node.id with
    | none => rw [hf] at hN; simp at hN
    | some nd => exact hfn _ _ hf
  obtain ⟨hls, hle⟩ := no_loop_entries g hc node.id hloop
  obtain ⟨hfs, hfend⟩ := entries_fresh g hc (next_id g) hfe node.id
  have hadj := ids_from_adjacent parts (next_id g) hids
  have hparts := ids_from_mem parts (next_id g) hids
  refine ⟨hret, hhas, ?_, ?_, ?_, ?_⟩
  · -- the start of the first part
    intro X
    apply Bool.eq_iff_iff.mpr
    unfold has_edge
    rw [hidx, hP0]
    have hrhs : minmax X ⟨node.id, false⟩ = pair_from_start_edge node.id (X.node, !X.is_end) := by
      unfold pair_from_start_edge
      rw [minmax_comm]
      cases X; simp
    rw [hrhs, ← hc.start_iff]
    constructor
    · rintro ⟨_, h | ⟨x, hx, hp⟩ | ⟨x, hx, hp⟩ | ⟨ab, hab, hp⟩⟩
      · have := (indexed_fresh g (next_id g) hfe _ _ h).2
        simp at this
      · unfold pair_from_start_edge at hp
        rw [minmax_eq_iff] at hp
        have := hfs x hx
        rcases hp with ⟨_, h2⟩ | ⟨_, h2⟩
        · simp only [NodeSide.mk.injEq] at h2; omega
        · rw [← h2]
          simpa using hx
      · unfold pair_from_end_edge at hp
        rw [minmax_eq_iff] at hp
        have := hfend x hx
        rcases hp with ⟨_, h2⟩ | ⟨h1, _⟩
        · simp only [NodeSide.mk.injEq] at h2; omega
        · simp only [NodeSide.mk.injEq] at h1; simp at h1
      · rw [minmax_eq_iff] at hp
        have := hadj ab hab
        rcases hp with ⟨_, h2⟩ | ⟨h1, _⟩
        · simp only [NodeSide.mk.injEq] at h2; omega
        · simp only [NodeSide.mk.injEq] at h1; simp at h1
    · intro hx
      refine ⟨?_, Or.inr (Or.inl ⟨(X.node, !X.is_end), hx, ?_⟩)⟩
      · rw [minmax_touch]
        have := hls _ hx
        simp only at this ⊢
        rintro (h | h)
        · exact this h
        · omega
      · unfold pair_from_start_edge
        rw [minmax_comm]
        cases X; simp
  · -- the end of the last part
    intro X
    apply Bool.eq_iff_iff.mpr
    unfold has_edge
    rw [hidx, hPk]
    have hrhs : minmax X ⟨node.id, true⟩ = pair_from_end_edge node.id (X.node, X.is_end) := by
      unfold pair_from_end_edge
      rw [minmax_comm]
    rw [hrhs, ← hc.end_iff]
    constructor
    · rintro ⟨_, h | ⟨x, hx, hp⟩ | ⟨x, hx, hp⟩ | ⟨ab, hab, hp⟩⟩
      · have := (indexed_fresh g (next_id g) hfe _ _ h).2
        simp only at this
        omega
      · unfold pair_from_start_edge at hp
        rw [minmax_eq_iff] at hp
        have := hfs x hx
        rcases hp with ⟨_, h2⟩ | ⟨h1, _⟩
        · simp only [NodeSide.mk.injEq] at h2; omega
        · simp only [NodeSide.mk.injEq] at h1; simp at h1
      · unfold pair_from_end_edge at hp
        rw [minmax_eq_iff] at hp
        have := hfend x hx
        rcases hp with ⟨_, h2⟩ | ⟨_, h2⟩
        · simp only [NodeSide.mk.injEq] at h2; omega
        · rw [← h2]
          simpa using hx
      · rw [minmax_eq_iff] at hp
        have := hadj ab hab
        rcases hp with ⟨_, h2⟩ | ⟨h1, _⟩
        · simp only [NodeSide.mk.injEq] at h2; simp at h2
        · simp only [NodeSide.mk.injEq] at h1
          omega
    · intro hx
      refine ⟨?_, Or.inr (Or.inr (Or.inl ⟨(X.node, X.is_end), hx, ?_⟩))⟩
      · rw [minmax_touch]
        have := hle _ hx
        simp only at this ⊢
        rintro (h | h)
        · exact this h
        · omega
      · unfold pair_from_end_edge
        rw [minmax_comm]
  · -- consecutive parts
    intro ab hab
    obtain ⟨ha1, ha2, ha3⟩ := hadj ab hab
    have hix : (map_find g2.edge_by_sides (minmax ⟨ab.1.id, true⟩ ⟨ab.2.id, false⟩)).isSome
        = true := by
      rw [hidx]
      refine ⟨?_, Or.inr (Or.inr (Or.inr ⟨ab, hab, rfl⟩))⟩
      rw [minmax_touch]
      simp only
      omega
    refine ⟨?_, ?_⟩
    · unfold get_edge
      cases hf : map_find g2.edge_by_sides (minmax ⟨ab.1.id, true⟩ ⟨ab.2.id, false⟩) with
      | none => rw [hf] at hix; simp at hix
      | some e =>
        obtain ⟨he, hp⟩ := hcons.by_sides_sound _ _ hf
        congr 1
        rcases hmem e he with h | ⟨x, hx, h⟩ | ⟨x, hx, h⟩ | ⟨cd, hcd, h⟩
        · exfalso
          have h1 := hc.by_sides_complete e h
          have h2 := hfe _ _ h1
          rw [hp, minmax_nodes_lt] at h2
          simp only at h2
          omega
        · exfalso
          have := hfs x hx
          rw [h] at hp
          unfold pair_from_edge at hp
          rw [minmax_eq_iff] at hp
          simp only [NodeSide.mk.injEq] at hp
          omega
        · exfalso
          have := hfend x hx
          rw [h] at hp
          unfold pair_from_edge at hp
          rw [minmax_eq_iff] at hp
          simp only [NodeSide.mk.injEq] at hp
          omega
        · rw [h] at hp ⊢
          unfold pair_from_edge at hp
          rw [minmax_eq_iff] at hp
          simp only [NodeSide.mk.injEq, Bool.not_false, and_true, Bool.true_eq_false,
            and_false, Bool.false_eq_true, or_false] at hp
          rw [hp.1, hp.2]
    · rw [countP_pair g2 hcons _ (minmax ⟨ab.1.id, true⟩ ⟨ab.2.id, false⟩)
        (fun e => by simp)]
      simp [hix]
  · -- all other pairs of sides
    intro s1 s2 h1 h2 hp
    apply Bool.eq_iff_iff.mpr
    unfold has_edge
    rw [hidx]
    have hP0m := hp _ (headD_mem parts ⟨0, []⟩ hne)
    have hPkm := hp _ (getLastD_mem parts ⟨0, []⟩ hne)
    constructor
    · rintro ⟨_, h | ⟨x, hx, hq⟩ | ⟨x, hx, hq⟩ | ⟨ab, hab, hq⟩⟩
      · exact h
      · exfalso
        have : (minmax s1 s2).1.node = (parts.headD ⟨0, []⟩).id
            ∨ (minmax s1 s2).2.node = (parts.headD ⟨0, []⟩).id := by
          rw [← hq]
          exact (touches_iff _ _ (minmax_self_pair _ _)).mpr (Or.inl ⟨x, rfl⟩)
        rw [minmax_touch] at this
        tauto
      · exfalso
        have : (minmax s1 s2).1.node = (parts.getLastD ⟨0, []⟩).id
            ∨ (minmax s1 s2).2.node = (parts.getLastD ⟨0, []⟩).id := by
          rw [← hq]
          exact (touches_iff _ _ (minmax_self_pair _ _)).mpr (Or.inr ⟨x, rfl⟩)
        rw [minmax_touch] at this
        tauto
      · exfalso
        have hm := hp _ (adjacent_pairs_mem parts ab hab).1
        have : (minmax s1 s2).1.node = ab.1.id ∨ (minmax s1 s2).2.node = ab.1.id := by
          rw [← hq, minmax_touch]
          exact Or.inl rfl
        rw [minmax_touch] at this
        tauto
    · intro h
      refine ⟨?_, Or.inl h⟩
      rw [minmax_touch]
      tauto

theorem allocator_fresh_of_lists (g : VG) (h1 : 1 ≤ g.current_id)
    (h2 : ∀ x ∈ g.node_by_id, x.1 < next_id g)
    (h3 : ∀ x ∈ g.edge_by_sides, x.1.1.node < next_id g ∧ x.1.2.node < next_id g) :
    allocator_fresh g :=
  ⟨h1, fun id nd hf => h2 (id, nd) (map_find_mem _ _ _ hf),
    fun p e hf => h3 (p, e) (map_find_mem _ _ _ hf)⟩

theorem chain_graph_consistent : edges_consistent chain_graph :=
  create_edge_consistent _ 2 3 false false
    (create_edge_consistent _ 1 2 false false
      (create_node_consistent _ _ 0
        (create_node_consistent _ _ 0 (create_node_consistent _ _ 0 empty_consistent))))

/-- An instance of `divide_node_rewires`: node 2 = `GTAC` of the chain
1 - 2 - 3 is divided at offset 2;
the end of node 1 is connected to the start of the first part as it was to
the start of node 2. -/
theorem divide_node_rewires_witness :
    has_edge (divide_node (fun m _ => (m, m)) chain_graph ⟨2, "GTAC".toList⟩ [2] []).2.1
        ⟨1, true⟩
        ⟨((divide_node (fun m _ => (m, m)) chain_graph ⟨2, "GTAC".toList⟩ [2] []).2.2.headD
            ⟨0, []⟩).id, false⟩
      = has_edge chain_graph ⟨1, true⟩ ⟨2, false⟩ :=
  (divide_node_rewires (fun m _ => (m, m)) chain_graph ⟨2, "GTAC".toList⟩ [2]
    chain_graph_consistent (by decide)
    (allocator_fresh_of_lists chain_graph (by decide) (by decide) (by decide))
    (by decide) (by simp) (by decide)
    (by unfold mappings_divisible; decide)).2.2.1 ⟨1, true⟩

theorem add_edge_node_fields (g : VG) (e : Edge) :
    (add_edge g e).node = g.node ∧ (add_edge g e).node_by_id = g.node_by_id := by
  unfold add_edge
  split_ifs
  · simp only [set_edge]
    split_ifs
    · have h := index_edge_fields { g with edge := g.edge ++ [e] } e
      exact ⟨h.2.1, h.2.2.1⟩
    · exact ⟨rfl, rfl⟩
  · exact ⟨rfl, rfl⟩

theorem extend_edges_node_fields (edges : List Edge) :
    ∀ (g : VG), (extend_edges g edges).node = g.node
      ∧ (extend_edges g edges).node_by_id = g.node_by_id := by
  induction edges with
  | nil => intro g; exact ⟨rfl, rfl⟩
  | cons e rest ih =>
    intro g
    simp only [extend_edges, List.foldl_cons]
    have h := ih (if (!has_edge_rec g e) = true then add_edge g e else g)
    simp only [extend_edges] at h
    rw [h.1, h.2]
    split_ifs
    · exact add_edge_node_fields g e
    · exact ⟨rfl, rfl⟩

theorem add_node_has_node (g : VG) (node : Node) (id : Int) :
    has_node (add_node g node) id = (decide (node.id = id) || has_node g id) := by
  unfold add_node
  by_cases h : has_node g node.id = true
  · simp only [h, Bool.not_true, Bool.false_eq_true, if_false]
    by_cases h2 : node.id = id
    · subst h2; simp [h]
    · simp [h2]
  · simp only [h, Bool.not_eq_true] at *
    simp only [h, Bool.not_false, if_true, has_node, map_find_insert]
    by_cases h2 : node.id = id
    · simp [h2]
    · simp [h2]

theorem extend_nodes_spec (nodes : List Node) :
    ∀ (g : VG), has_node (extend_nodes g nodes) 0 = has_node g 0
      ∧ ∀ nd ∈ (extend_nodes g nodes).node, nd ∈ g.node ∨ (nd ∈ nodes ∧ nd.id ≠ 0) := by
  induction nodes with
  | nil => intro g; exact ⟨rfl, fun nd h => Or.inl h⟩
  | cons n rest ih =>
    intro g
    simp only [extend_nodes, List.foldl_cons]
    have h := ih (if n.id = 0 then g else if (!has_node g n.id) = true then add_node g n else g)
    simp only [extend_nodes] at h
    by_cases h0 : n.id = 0
    · simp only [h0, if_true] at h ⊢
      refine ⟨h.1, fun nd hnd => ?_⟩
      rcases h.2 nd hnd with h1 | h1
      · exact Or.inl h1
      · exact Or.inr ⟨List.mem_cons_of_mem _ h1.1, h1.2⟩
    · simp only [h0, if_false] at h ⊢
      by_cases hp : has_node g n.id = true
      · simp only [hp, Bool.not_true, Bool.false_eq_true, if_false] at h ⊢
        refine ⟨h.1, fun nd hnd => ?_⟩
        rcases h.2 nd hnd with h1 | h1
        · exact Or.inl h1
        · exact Or.inr ⟨List.mem_cons_of_mem _ h1.1, h1.2⟩
      · simp only [Bool.not_eq_true] at hp
        simp only [hp, Bool.not_false, if_true] at h ⊢
        refine ⟨?_, fun nd hnd => ?_⟩
        · rw [h.1, add_node_has_node]; simp [h0]
        · rcases h.2 nd hnd with h1 | h1
          · have hn : (add_node g n).node = g.node ++ [n] := by
              simp [add_node, hp]
            rw [hn, List.mem_append, List.mem_singleton] at h1
            rcases h1 with h1 | h1
            · exact Or.inl h1
            · subst h1; exact Or.inr ⟨List.mem_cons_self _ _, h0⟩
          · exact Or.inr ⟨List.mem_cons_of_mem _ h1.1, h1.2⟩

/-- C11 (amended): `add_node` makes no check of the id.  A node whose id is not
in the id index is appended to the node store and indexed under its id,
whatever the id, 0 included; a node whose id is present leaves the graph as it
was.  The rejection of id 0 is made by `extend`, which skips such nodes: after
`extend` id 0 is in the id index only if it was there before, and every stored
node was there before or is a node of the other graph with a nonzero id. -/
theorem add_node_spec (paths_append : Paths → Paths → Paths) (g other : VG) (node : Node) :
    (has_node g node.id = false →
      (add_node g node).node = g.node ++ [node]
      ∧ get_node (add_node g node) node.id = some node
      ∧ node_count (add_node g node) = node_count g + 1)
    ∧ (has_node g node.id = true → add_node g node = g)
    ∧ has_node (extend paths_append g other) 0 = has_node g 0
    ∧ (∀ nd ∈ (extend paths_append g other).node,
        nd ∈ g.node ∨ (nd ∈ other.node ∧ nd.id ≠ 0)) := by
  refine ⟨fun h => ?_, fun h => ?_, ?_, ?_⟩
  · simp [add_node, h, get_node, map_find_insert, node_count]
  · simp [add_node, h]
  · have h1 := extend_edges_node_fields other.edge (extend_nodes g other.node)
    have h2 := extend_nodes_spec other.node g
    simp only [extend, has_node] at h1 h2 ⊢
    rw [h1.2]; exact h2.1
  · have h1 := extend_edges_node_fields other.edge (extend_nodes g other.node)
    have h2 := extend_nodes_spec other.node g
    simp only [extend] at h1 h2 ⊢
    rw [h1.1]; exact h2.2

/-- C11, witness: on the graph with node 1, `add_node` appends a node with the
unused id 2, and `extend` by a graph holding a node with id 0 and a node with
id 3 takes over node 3 only. -/
theorem add_node_spec_witness :
    (add_node (create_node VG.empty "A".toList 0).1 ⟨2, "C".toList⟩).node
        = [⟨1, "A".toList⟩, ⟨2, "C".toList⟩]
    ∧ (extend (fun p _ => p) (create_node VG.empty "A".toList 0).1
        (add_node (add_node VG.empty ⟨0, "G".toList⟩) ⟨3, "T".toList⟩)).node
        = [⟨1, "A".toList⟩, ⟨3, "T".toList⟩] :=
  ⟨((add_node_spec (fun p _ => p) (create_node VG.empty "A".toList 0).1 VG.empty
      ⟨2, "C".toList⟩).1 (by decide)).1, by decide⟩

/-- C11, counterexample: `add_node` on the empty graph with a node of id 0 does
not fail: the node is appended to the node store and id 0 is in the id index. -/
theorem add_node_accepts_id_zero :
    (add_node VG.empty ⟨0, "A".toList⟩).node = [⟨0, "A".toList⟩]
    ∧ has_node (add_node VG.empty ⟨0, "A".toList⟩) 0 = true
    ∧ get_node (add_node VG.empty ⟨0, "A".toList⟩) 0 = some ⟨0, "A".toList⟩ := by
  decide

theorem assign_new_ids_spec (nodes : List Node) :
    ∀ (new_id : List (Int × Int)) (id : Int), (nodes.map (fun n => n.id)).Nodup →
      (∀ (j : Nat) (nd : Node), nodes.get? j = some nd →
        map_find (assign_new_ids nodes new_id id).1 nd.id = some (id + (j : Int)))
      ∧ (∀ k, (∀ nd ∈ nodes, nd.id ≠ k) →
        map_find (assign_new_ids nodes new_id id).1 k = map_find new_id k) := by
  induction nodes with
  | nil =>
    intro new_id id _
    exact ⟨fun j nd h => by simp at h, fun k _ => rfl⟩
  | cons n rest ih =>
    intro new_id id hd
    rw [List.map_cons, List.nodup_cons] at hd
    have h := ih (map_insert new_id n.id id) (id + 1) hd.2
    have hstep : assign_new_ids (n :: rest) new_id id
        = assign_new_ids rest (map_insert new_id n.id id) (id + 1) := rfl
    rw [hstep]
    refine ⟨fun j nd hj => ?_, fun k hk => ?_⟩
    · cases j with
      | zero =>
        simp only [List.get?_cons_zero, Option.some.injEq] at hj
        subst hj
        rw [h.2 n.id (fun nd hnd heq => hd.1 (List.mem_map.mpr ⟨nd, hnd, heq⟩)),
          map_find_insert]
        simp
      | succ j =>
        simp only [List.get?_cons_succ] at hj
        rw [h.1 j nd hj]
        congr 1
        push_cast
        ring
    · rw [h.2 k (fun nd hnd => hk nd (List.mem_cons_of_mem _ hnd)), map_find_insert]
      have : n.id ≠ k := hk n (List.mem_cons_self _ _)
      simp [this]

theorem build_node_indexes_loop_spec (l : List Node) :
    ∀ (g : VG) (i : Nat),
      (build_node_indexes_loop g l i).node = g.node
      ∧ (build_node_indexes_loop g l i).edge = g.edge
      ∧ (build_node_indexes_loop g l i).edge_by_sides = g.edge_by_sides
      ∧ (build_node_indexes_loop g l i).edge_index = g.edge_index
      ∧ (build_node_indexes_loop g l i).edges_on_start = g.edges_on_start
      ∧ (build_node_indexes_loop g l i).edges_on_end = g.edges_on_end
      ∧ (build_node_indexes_loop g l i).paths = g.paths
      ∧ (build_node_indexes_loop g l i).current_id = g.current_id
      ∧ (∀ id, (map_find (build_node_indexes_loop g l i).node_by_id id).isSome = true ↔
          ((map_find g.node_by_id id).isSome = true ∨ ∃ nd ∈ l, nd.id = id)) := by
  induction l with
  | nil =>
    intro g i
    simp [build_node_indexes_loop]
  | cons n rest ih =>
    intro g i
    simp only [build_node_indexes_loop]
    obtain ⟨h1, h2, h3, h4, h5, h6, h7, h8, h9⟩ := ih
      { g with node_index := map_insert g.node_index n i,
               node_by_id := map_insert g.node_by_id n.id n } (i + 1)
    refine ⟨h1, h2, h3, h4, h5, h6, h7, h8, fun id => ?_⟩
    rw [h9 id]
    simp only [map_find_insert, List.mem_cons, exists_eq_or_imp]
    by_cases hid : n.id = id
    · simp [hid]
    · simp [hid]

theorem build_edge_indexes_loop_frame (l : List Edge) :
    ∀ (g : VG) (i : Nat),
      (build_edge_indexes_loop g l i).node = g.node
      ∧ (build_edge_indexes_loop g l i).node_by_id = g.node_by_id
      ∧ (build_edge_indexes_loop g l i).node_index = g.node_index
      ∧ (build_edge_indexes_loop g l i).paths = g.paths
      ∧ (build_edge_indexes_loop g l i).current_id = g.current_id := by
  induction l with
  | nil => intro g i; simp [build_edge_indexes_loop]
  | cons e rest ih =>
    intro g i
    simp only [build_edge_indexes_loop]
    obtain ⟨h1, h2, h3, h4, h5⟩ :=
      ih (set_edge { g with edge_index := map_insert g.edge_index e i } e) (i + 1)
    rw [h1, h2, h3, h4, h5]
    unfold set_edge
    split_ifs
    · have h := index_edge_fields { g with edge_index := map_insert g.edge_index e i } e
      exact ⟨h.2.1, h.2.2.1, h.2.2.2.1, index_edge_paths _ _, h.2.2.2.2.2.1⟩
    · exact ⟨rfl, rfl, rfl, rfl, rfl⟩

theorem rebuild_indexes_nodes (g : VG) :
    (rebuild_indexes g).node = g.node
    ∧ (rebuild_indexes g).edge = g.edge
    ∧ (rebuild_indexes g).paths = g.paths
    ∧ (rebuild_indexes g).current_id = g.current_id
    ∧ (∀ id, has_node (rebuild_indexes g) id = true ↔ ∃ nd ∈ g.node, nd.id = id) := by
  unfold rebuild_indexes build_edge_indexes build_node_indexes
  have hn := build_node_indexes_loop_spec
    (clear_edge_indexes (clear_node_indexes g)).node (clear_edge_indexes (clear_node_indexes g)) 0
  have he := build_edge_indexes_loop_frame
    (build_node_indexes_loop (clear_edge_indexes (clear_node_indexes g))
      (clear_edge_indexes (clear_node_indexes g)).node 0).edge
    (build_node_indexes_loop (clear_edge_indexes (clear_node_indexes g))
      (clear_edge_indexes (clear_node_indexes g)).node 0) 0
  have hb := build_edge_indexes_loop_spec
    (build_node_indexes_loop (clear_edge_indexes (clear_node_indexes g))
      (clear_edge_indexes (clear_node_indexes g)).node 0).edge
    (build_node_indexes_loop (clear_edge_indexes (clear_node_indexes g))
      (clear_edge_indexes (clear_node_indexes g)).node 0) 0
  obtain ⟨h1, h2, h3, h4, h5, h6, h7, h8, h9⟩ := hn
  obtain ⟨e1, e2, e3, e4, e5⟩ := he
  refine ⟨by rw [e1, h1]; rfl, by rw [hb.1, h2]; rfl, by rw [e4, h7]; rfl,
    by rw [e5, h8]; rfl, fun id => ?_⟩
  simp only [has_node]
  rw [e2, h9 id]
  simp [clear_edge_indexes, clear_node_indexes, map_find]

/-- C12: on a graph whose N nodes carry pairwise distinct ids, `compact_ids`
gives the node at store position i (counted from 0, the order of
`for_each_node`) the id i + 1 and keeps its sequence; the store still holds N
nodes, and the ids found in the store and in the id index are exactly
1, ..., N. -/
theorem compact_ids_spec (g : VG) (hd : (g.node.map (fun n => n.id)).Nodup) :
    node_count (compact_ids g) = node_count g
    ∧ (∀ (i : Nat) (nd : Node), g.node.get? i = some nd →
        (compact_ids g).node.get? i = some ⟨(i : Int) + 1, nd.sequence⟩)
    ∧ (∀ id : Int, (∃ nd ∈ (compact_ids g).node, nd.id = id) ↔
        (1 ≤ id ∧ id ≤ (node_count g : Int)))
    ∧ (∀ id : Int, has_node (compact_ids g) id = true ↔ (1 ≤ id ∧ id ≤ (node_count g : Int))) := by
  have hnode : (compact_ids g).node = renumber_nodes (assign_new_ids g.node [] 1).1 g.node := by
    unfold compact_ids
    exact (rebuild_indexes_nodes _).1
  have hget : ∀ (i : Nat) (nd : Node), g.node.get? i = some nd →
      (compact_ids g).node.get? i = some ⟨(i : Int) + 1, nd.sequence⟩ := by
    intro i nd hi
    rw [hnode]
    simp only [renumber_nodes, List.get?_eq_getElem?, List.getElem?_map] at hi ⊢
    rw [hi]
    simp only [Option.map_some', Option.some.injEq, id_map_at]
    rw [(assign_new_ids_spec g.node [] 1 hd).1 i nd (by simpa using hi)]
    simp [add_comm]
  have hlen : (compact_ids g).node.length = g.node.length := by
    rw [hnode]; simp [renumber_nodes]
  have hids : ∀ id : Int, (∃ nd ∈ (compact_ids g).node, nd.id = id) ↔
      (1 ≤ id ∧ id ≤ (node_count g : Int)) := by
    intro id
    constructor
    · rintro ⟨nd, hnd, rfl⟩
      obtain ⟨i, hi⟩ := List.get?_of_mem hnd
      have hlt : i < g.node.length := by
        rw [← hlen]
        by_contra hcon
        rw [List.get?_eq_none.mpr (by omega)] at hi
        exact Option.noConfusion hi
      have h0 := hget i (g.node.get ⟨i, hlt⟩) (List.get?_eq_get hlt)
      rw [hi] at h0
      simp only [Option.some.injEq] at h0
      rw [h0]
      simp only [node_count]
      constructor <;> omega
    · rintro ⟨h1, h2⟩
      simp only [node_count] at h2
      have hlt : (id - 1).toNat < g.node.length := by omega
      have h0 := hget (id - 1).toNat (g.node.get ⟨(id - 1).toNat, hlt⟩) (List.get?_eq_get hlt)
      refine ⟨_, List.get?_mem h0, ?_⟩
      simp only
      omega
  refine ⟨by simp only [node_count]; exact hlen, hget, hids, fun id => ?_⟩
  obtain ⟨g1, hg1⟩ : ∃ g1, compact_ids g = rebuild_indexes g1 := ⟨_, rfl⟩
  rw [← hids id, hg1, (rebuild_indexes_nodes g1).2.2.2.2 id, (rebuild_indexes_nodes g1).1]

/-- C12, witness: the nodes with ids 4, 9 and 2 get the ids 1, 2 and 3 in
store order. -/
theorem compact_ids_spec_witness :
    ((add_node (add_node (add_node VG.empty ⟨4, "A".toList⟩) ⟨9, "C".toList⟩)
        ⟨2, "G".toList⟩).node.map (fun n => n.id)).Nodup
    ∧ (compact_ids (add_node (add_node (add_node VG.empty ⟨4, "A".toList⟩) ⟨9, "C".toList⟩)
        ⟨2, "G".toList⟩)).node.get? 1 = some ⟨((1 : Nat) : Int) + 1, "C".toList⟩ :=
  ⟨by decide,
   (compact_ids_spec (add_node (add_node (add_node VG.empty ⟨4, "A".toList⟩) ⟨9, "C".toList⟩)
      ⟨2, "G".toList⟩) (by decide)).2.1 1 ⟨9, "C".toList⟩ (by decide)⟩

theorem keys_nodup_erase {κ ν : Type} [DecidableEq κ] (m : List (κ × ν)) (k : κ)
    (h : keys_nodup m) : keys_nodup (map_erase m k) := by
  unfold keys_nodup map_erase at *
  exact (List.Nodup.sublist (List.Sublist.map _ (List.filter_sublist m)) h)

theorem map_erase_keys {κ ν : Type} [DecidableEq κ] (m : List (κ × ν)) (k : κ) :
    ∀ p ∈ map_erase m k, p.1 ≠ k := by
  intro p hp
  unfold map_erase at hp
  simpa using (List.mem_filter.mp hp).2

theorem keys_nodup_insert {κ ν : Type} [DecidableEq κ] (m : List (κ × ν)) (k : κ) (v : ν)
    (h : keys_nodup m) : keys_nodup (map_insert m k v) := by
  have h1 := keys_nodup_erase m k h
  unfold keys_nodup map_insert at *
  rw [List.map_cons, List.nodup_cons]
  refine ⟨?_, h1⟩
  intro hmem
  obtain ⟨p, hp, hpk⟩ := List.mem_map.mp hmem
  exact map_erase_keys m k p hp hpk

theorem map_find_of_mem {κ ν : Type} [DecidableEq κ] (m : List (κ × ν)) (k : κ) (v : ν)
    (hk : keys_nodup m) (h : (k, v) ∈ m) : map_find m k = some v := by
  induction m with
  | nil => simp at h
  | cons p rest ih =>
    obtain ⟨k1, v1⟩ := p
    unfold keys_nodup at hk
    rw [List.map_cons, List.nodup_cons] at hk
    rcases List.mem_cons.mp h with h1 | h1
    · cases h1
      simp [map_find]
    · have hne : k1 ≠ k := by
        intro heq
        apply hk.1
        subst heq
        exact List.mem_map.mpr ⟨(k1, v), h1, rfl⟩
      simp only [map_find, hne, if_false]
      exact ih hk.2 h1

theorem has_node_iff (g : VG) (id : Int) :
    has_node g id = true ↔ ∃ nd, get_node g id = some nd := by
  unfold has_node get_node
  cases map_find g.node_by_id id <;> simp

theorem pair_start_cases (n : Int) (x : Int × Bool) (e : Edge)
    (h : pair_from_edge e = pair_from_start_edge n x) :
    ((n = e.to_ ∧ e.to_end = false) ∨ (n = e.from_ ∧ e.from_start = true))
    ∧ (x.1 = e.to_ ∨ x.1 = e.from_) := by
  have h1 := (incident_start_iff e n x.1 x.2).mpr h
  simp only [incident_start, Bool.and_eq_true, Bool.or_eq_true, decide_eq_true_eq,
    Bool.not_eq_true'] at h1
  rcases h1.1 with ⟨⟨a, b⟩, c⟩ | ⟨⟨a, b⟩, c⟩
  · exact ⟨Or.inr ⟨a.symm, b⟩, Or.inl c.symm⟩
  · exact ⟨Or.inl ⟨a.symm, b⟩, Or.inr c.symm⟩

theorem pair_end_cases (n : Int) (x : Int × Bool) (e : Edge)
    (h : pair_from_edge e = pair_from_end_edge n x) :
    ((n = e.to_ ∧ e.to_end = true) ∨ (n = e.from_ ∧ e.from_start = false))
    ∧ (x.1 = e.to_ ∨ x.1 = e.from_) := by
  have h1 := (incident_end_iff e n x.1 x.2).mpr h
  simp only [incident_end, Bool.and_eq_true, Bool.or_eq_true, decide_eq_true_eq,
    Bool.not_eq_true'] at h1
  rcases h1.1 with ⟨⟨a, b⟩, c⟩ | ⟨⟨a, b⟩, c⟩
  · exact ⟨Or.inr ⟨a.symm, b⟩, Or.inl c.symm⟩
  · exact ⟨Or.inl ⟨a.symm, b⟩, Or.inr c.symm⟩

theorem push_side_keys (m : List (Int × List (Int × Bool))) (id : Int) (x : Int × Bool)
    (h : keys_nodup m) : keys_nodup (push_side m id x) :=
  keys_nodup_insert _ _ _ h

theorem unindex_side_keys (m : List (Int × List (Int × Bool))) (id : Int) (x : Int × Bool)
    (h : keys_nodup m) : keys_nodup (unindex_side m id x) := by
  unfold unindex_side
  cases map_find m id with
  | none => exact h
  | some v =>
    simp only []
    split_ifs
    · exact keys_nodup_erase _ _ h
    · exact keys_nodup_insert _ _ _ h

theorem index_edge_side_keys (g : VG) (e : Edge)
    (h : keys_nodup g.edges_on_start ∧ keys_nodup g.edges_on_end) :
    keys_nodup (index_edge_by_node_sides g e).edges_on_start
    ∧ keys_nodup (index_edge_by_node_sides g e).edges_on_end := by
  obtain ⟨hs, he⟩ := h
  unfold index_edge_by_node_sides
  simp only []
  split_ifs <;>
    first
    | exact ⟨hs, he⟩
    | exact ⟨push_side_keys _ _ _ hs, he⟩
    | exact ⟨hs, push_side_keys _ _ _ he⟩
    | exact ⟨push_side_keys _ _ _ hs, push_side_keys _ _ _ he⟩
    | exact ⟨push_side_keys _ _ _ (push_side_keys _ _ _ hs), he⟩
    | exact ⟨hs, push_side_keys _ _ _ (push_side_keys _ _ _ he)⟩

theorem unindex_edge_side_keys (g : VG) (e : Edge)
    (h : keys_nodup g.edges_on_start ∧ keys_nodup g.edges_on_end) :
    keys_nodup (unindex_edge_by_node_sides g e).edges_on_start
    ∧ keys_nodup (unindex_edge_by_node_sides g e).edges_on_end := by
  obtain ⟨hs, he⟩ := h
  unfold unindex_edge_by_node_sides
  simp only []
  split_ifs <;>
    first
    | exact ⟨hs, he⟩
    | exact ⟨unindex_side_keys _ _ _ hs, he⟩
    | exact ⟨hs, unindex_side_keys _ _ _ he⟩
    | exact ⟨unindex_side_keys _ _ _ hs, unindex_side_keys _ _ _ he⟩
    | exact ⟨unindex_side_keys _ _ _ (unindex_side_keys _ _ _ hs), he⟩
    | exact ⟨hs, unindex_side_keys _ _ _ (unindex_side_keys _ _ _ he)⟩

theorem set_edge_side_keys (g : VG) (e : Edge)
    (h : keys_nodup g.edges_on_start ∧ keys_nodup g.edges_on_end) :
    keys_nodup (set_edge g e).edges_on_start ∧ keys_nodup (set_edge g e).edges_on_end := by
  unfold set_edge
  split_ifs
  · exact index_edge_side_keys g e h
  · exact h

theorem create_edge_side_keys (g : VG) (a b : Int) (fs te : Bool)
    (h : keys_nodup g.edges_on_start ∧ keys_nodup g.edges_on_end) :
    keys_nodup (create_edge g a b fs te).1.edges_on_start
    ∧ keys_nodup (create_edge g a b fs te).1.edges_on_end := by
  unfold create_edge
  cases get_edge g ⟨a, !fs⟩ ⟨b, te⟩ with
  | some e => exact h
  | none => exact set_edge_side_keys { g with edge := g.edge ++ [⟨a, b, fs, te⟩] } _ h

theorem destroy_edge_rec_side_keys (g : VG) (e : Edge)
    (h : keys_nodup g.edges_on_start ∧ keys_nodup g.edges_on_end) :
    keys_nodup (destroy_edge_rec g e).edges_on_start
    ∧ keys_nodup (destroy_edge_rec g e).edges_on_end := by
  unfold destroy_edge_rec
  split_ifs with h1
  · exact h
  · have hu := unindex_edge_side_keys g e h
    simp only []
    split_ifs with h2
    · cases hl : (unindex_edge_by_node_sides g e).edge.get?
          ((unindex_edge_by_node_sides g e).edge.length - 1) with
      | none => exact hu
      | some last => exact set_edge_side_keys _ last hu
    · exact hu

theorem destroy_edge_side_keys (g : VG) (s1 s2 : NodeSide)
    (h : keys_nodup g.edges_on_start ∧ keys_nodup g.edges_on_end) :
    keys_nodup (destroy_edge g s1 s2).edges_on_start
    ∧ keys_nodup (destroy_edge g s1 s2).edges_on_end := by
  unfold destroy_edge destroy_edge_ptr
  cases get_edge g s1 s2 with
  | none => exact h
  | some e => exact destroy_edge_rec_side_keys g e h

theorem destroy_edges_side_keys (l : List (NodeSide × NodeSide)) :
    ∀ (g : VG), (keys_nodup g.edges_on_start ∧ keys_nodup g.edges_on_end) →
      keys_nodup (destroy_edges g l).edges_on_start
      ∧ keys_nodup (destroy_edges g l).edges_on_end := by
  induction l with
  | nil => intro g h; exact h
  | cons p rest ih =>
    intro g h
    exact ih (destroy_edge g p.1 p.2) (destroy_edge_side_keys g p.1 p.2 h)

theorem destroy_node_side_keys (g : VG) (node : Node)
    (h : keys_nodup g.edges_on_start ∧ keys_nodup g.edges_on_end) :
    keys_nodup (destroy_node g node).edges_on_start
    ∧ keys_nodup (destroy_node g node).edges_on_end := by
  by_cases hh : has_node g node.id = true
  · obtain ⟨_, _, _, h4, h5, _, _⟩ := destroy_node_edge_fields g node hh
    rw [h4, h5]
    have hd := destroy_edges_side_keys (edges_to_destroy_of g node.id) g h
    exact ⟨keys_nodup_erase _ _ hd.1, keys_nodup_erase _ _ hd.2⟩
  · rw [destroy_node_absent g node (by simpa using hh)]
    exact h

theorem destroy_edge_rec_by_id (g : VG) (e : Edge) :
    (destroy_edge_rec g e).node_by_id = g.node_by_id := by
  unfold destroy_edge_rec
  split_ifs with h1
  · rfl
  · have hu := (unindex_edge_fields g e (by simpa using h1)).2.2.1
    simp only []
    split_ifs with h2
    · cases hl : (unindex_edge_by_node_sides g e).edge.get?
          ((unindex_edge_by_node_sides g e).edge.length - 1) with
      | none => exact hu
      | some last =>
        simp only []
        unfold set_edge
        split_ifs
        · rw [(index_edge_fields _ last).2.2.1]; exact hu
        · exact hu
    · exact hu

theorem destroy_edges_spec_frame_by_id (g : VG) (l : List (NodeSide × NodeSide)) :
    (destroy_edges g l).node_by_id = g.node_by_id := by
  induction l generalizing g with
  | nil => rfl
  | cons p rest ih =>
    simp only [destroy_edges, List.foldl_cons] at ih ⊢
    rw [ih]
    unfold destroy_edge destroy_edge_ptr
    cases get_edge g p.1 p.2 with
    | none => rfl
    | some e => exact destroy_edge_rec_by_id g e

theorem destroy_node_index_field (g : VG) (hc : edges_consistent g) (hn : nodes_consistent g)
    (node : Node) (hmem : node ∈ g.node) :
    ∃ i last, g.node.get? i = some node ∧ g.node.get? (g.node.length - 1) = some last
      ∧ (destroy_node g node).node = (swap_elements g.node i (g.node.length - 1)).dropLast
      ∧ (destroy_node g node).node_by_id
          = map_erase (if g.node.length - 1 ≠ i then map_insert g.node_by_id last.id last
              else g.node_by_id) node.id
      ∧ (destroy_node g node).node_index
          = map_erase (if g.node.length - 1 ≠ i
              then map_insert (map_erase g.node_index last) last i
              else g.node_index) node := by
  obtain ⟨i, last, h1, h2, h3, h4⟩ := destroy_node_node_fields g hc hn node hmem
  refine ⟨i, last, h1, h2, h3, h4, ?_⟩
  have hhas : has_node g node.id = true := by
    unfold has_node; rw [hn.by_id_complete node hmem]; rfl
  obtain ⟨j, hidx, hget⟩ := hn.node_index_ok node hmem
  have hij : j = i := nodup_get?_inj g.node j i node hn.node_nodup hget h1
  subst hij
  obtain ⟨_, _, _, _, e1, e2, e3, _, _⟩ :=
    destroy_edges_spec (edges_to_destroy_of g node.id) g hc
  unfold destroy_node
  simp only [hhas, Bool.not_true, Bool.false_eq_true, if_false, e1, e3, hidx,
    Option.getD_some, h2]
  by_cases hle : g.node.length - 1 = j
  · simp [hle]
  · simp [hle]

theorem destroy_node_nodes_consistent (g : VG) (hc : edges_consistent g)
    (hn : nodes_consistent g) (node : Node) (hmem : node ∈ g.node) :
    nodes_consistent (destroy_node g node)
    ∧ (∀ id, has_node (destroy_node g node) id = (!decide (node.id = id) && has_node g id))
    ∧ (∀ nd, nd ∈ (destroy_node g node).node ↔ (nd ∈ g.node ∧ nd ≠ node)) := by
  obtain ⟨i, last, hi, hl, hnode, hbyid, hindex⟩ := destroy_node_index_field g hc hn node hmem
  obtain ⟨dn, dmem, dlen⟩ := destroyed_list_spec g.node i node hn.node_nodup hi
  have hget := swap_last_dropLast_get? g.node i
  have hilt : i < g.node.length := by
    rw [List.get?_eq_getElem?] at hi
    exact (List.getElem?_eq_some_iff.mp hi).1
  have hlastmem : last ∈ g.node := List.get?_mem hl
  have hfind : ∀ id, map_find (destroy_node g node).node_by_id id
      = if node.id = id then none else map_find g.node_by_id id := by
    intro id
    rw [hbyid, map_find_erase]
    by_cases hid : node.id = id
    · simp [hid]
    · simp only [hid, if_false]
      split_ifs with hne
      · rw [map_find_insert]
        by_cases hlid : last.id = id
        · subst hlid
          simp [hn.by_id_complete last hlastmem]
        · simp [hlid]
      · rfl
  have hids : ∀ nd ∈ g.node, nd.id = node.id → nd = node := by
    intro nd hnd heq
    have h1 := hn.by_id_complete nd hnd
    rw [heq, hn.by_id_complete node hmem] at h1
    exact (Option.some.inj h1).symm
  refine ⟨⟨?_, ?_, ?_, ?_⟩, ?_, ?_⟩
  · intro id nd hfound
    rw [hfind id] at hfound
    by_cases hid : node.id = id
    · simp [hid] at hfound
    · simp only [hid, if_false] at hfound
      obtain ⟨h1, h2⟩ := hn.by_id_sound id nd hfound
      refine ⟨?_, h2⟩
      rw [hnode, dmem]
      refine ⟨h1, fun heq => hid ?_⟩
      rw [← heq, h2]
  · intro nd hnd
    rw [hnode, dmem] at hnd
    rw [hfind nd.id]
    have hne : node.id ≠ nd.id := fun heq => hnd.2 (hids nd hnd.1 heq.symm)
    simp only [hne, if_false]
    exact hn.by_id_complete nd hnd.1
  · rw [hnode]; exact dn
  · intro nd hnd
    rw [hnode, dmem] at hnd
    obtain ⟨hnd1, hnd2⟩ := hnd
    obtain ⟨j, hj1, hj2⟩ := hn.node_index_ok nd hnd1
    have hj3 : g.node[j]? = some nd := by rw [← List.get?_eq_getElem?]; exact hj2
    have hjlt : j < g.node.length := by
      rw [List.get?_eq_getElem?] at hj2
      exact (List.getElem?_eq_some_iff.mp hj2).1
    have hji : j ≠ i := by
      intro heq
      subst heq
      rw [hi] at hj2
      exact hnd2 (Option.some.inj hj2).symm
    rw [hindex, hnode, map_find_erase]
    have hnn : node ≠ nd := fun h => hnd2 h.symm
    simp only [hnn, if_false]
    by_cases hle : g.node.length - 1 = i
    · have hjl : j < g.node.length - 1 := by omega
      refine ⟨j, ?_, ?_⟩
      · simp [hle, hj1]
      · rw [hget j node last hi hl]
        simp [hjl, hji, hj3]
    · simp only [hle, ne_eq, not_false_eq_true, if_true, map_find_insert, map_find_erase]
      by_cases hlast : last = nd
      · subst hlast
        refine ⟨i, by simp, ?_⟩
        rw [hget i node last hi hl]
        have : i < g.node.length - 1 := by omega
        simp [this]
      · have hjl : j ≠ g.node.length - 1 := by
          intro heq
          rw [heq, hl] at hj2
          exact hlast (Option.some.inj hj2)
        refine ⟨j, by simp [hlast, hj1], ?_⟩
        rw [hget j node last hi hl]
        have : j < g.node.length - 1 := by omega
        simp [this, hji, hj3]
  · intro id
    unfold has_node
    rw [hfind id]
    by_cases hid : node.id = id
    · simp [hid]
    · simp [hid]
  · intro nd
    rw [hnode, dmem]

theorem destroy_node_by_id_keys (g : VG) (node : Node) (h : keys_nodup g.node_by_id) :
    keys_nodup (destroy_node g node).node_by_id := by
  unfold destroy_node
  split_ifs with h1
  · exact h
  · simp only []
    have e2 := (destroy_edges_spec_frame_by_id g (edges_to_destroy_of g node.id))
    apply keys_nodup_erase
    split_ifs with h2
    · cases hl : (destroy_edges g (edges_to_destroy_of g node.id)).node.get?
          ((destroy_edges g (edges_to_destroy_of g node.id)).node.length - 1) with
      | none => simp only []; rw [e2]; exact h
      | some last => simp only []; rw [e2]; exact keys_nodup_insert _ _ _ h
    · rw [e2]; exact h

theorem next_id_congr (g g2 : VG) (h1 : g2.node = g.node) (h2 : g2.current_id = g.current_id) :
    next_id g2 = next_id g := by
  unfold next_id max_node_id
  rw [h1, h2]

theorem nodes_consistent_congr (g g2 : VG) (hn : nodes_consistent g) (h1 : g2.node = g.node)
    (h2 : g2.node_by_id = g.node_by_id) (h3 : g2.node_index = g.node_index) :
    nodes_consistent g2 := by
  refine ⟨?_, ?_, ?_, ?_⟩
  · rw [h1, h2]; exact hn.by_id_sound
  · rw [h1, h2]; exact hn.by_id_complete
  · rw [h1]; exact hn.node_nodup
  · rw [h1, h3]; exact hn.node_index_ok

theorem counter_ahead_of_one (g : VG) (h : g.current_id = 1) : counter_ahead g := by
  refine ⟨by omega, fun nd hnd => ?_⟩
  unfold next_id
  rw [if_pos h]
  have := (max_node_id_ge g).2 nd hnd
  omega

theorem counter_ahead_fresh (g : VG) (hs : store_consistent g) (ha : counter_ahead g) :
    allocator_fresh g := by
  refine ⟨ha.1, fun id nd hf => ?_, fun p e hf => ?_⟩
  · obtain ⟨h1, h2⟩ := hs.nodes_ok.by_id_sound id nd hf
    rw [← h2]; exact ha.2 nd h1
  · obtain ⟨h1, h2⟩ := hs.edges_ok.by_sides_sound p e hf
    obtain ⟨hf1, hf2⟩ := hs.endpoints e h1
    obtain ⟨n1, hn1⟩ := (has_node_iff g e.from_).mp hf1
    obtain ⟨n2, hn2⟩ := (has_node_iff g e.to_).mp hf2
    obtain ⟨m1, i1⟩ := hs.nodes_ok.by_id_sound _ _ hn1
    obtain ⟨m2, i2⟩ := hs.nodes_ok.by_id_sound _ _ hn2
    have b1 := ha.2 n1 m1
    have b2 := ha.2 n2 m2
    rw [i1] at b1
    rw [i2] at b2
    rw [← h2]
    unfold pair_from_edge
    rw [minmax_nodes_lt]
    exact ⟨b1, b2⟩

theorem fresh_counter_ahead (g : VG) (hs : store_consistent g) (ha : allocator_fresh g) :
    counter_ahead g :=
  ⟨ha.1, fun nd hnd => ha.2.1 nd.id nd (hs.nodes_ok.by_id_complete nd hnd)⟩

theorem create_node_explicit (g : VG) (seq : List Char) (id : Int) (h : id ≠ 0) :
    (create_node g seq id).2 = ⟨id, seq⟩
    ∧ (create_node g seq id).1.current_id = g.current_id := by
  simp [create_node, h]

theorem create_node_frame_other (g : VG) (seq : List Char) (id : Int) :
    (create_node g seq id).1.paths = g.paths := by
  unfold create_node
  simp only []
  split_ifs <;> rfl

theorem create_node_inv (g : VG) (seq : List Char) (id : Int) (hs : store_consistent g)
    (ha : counter_ahead g)
    (hok : id = 0 ∨ (has_node g id = false ∧ (g.current_id = 1 ∨ id < g.current_id))) :
    store_consistent (create_node g seq id).1 ∧ counter_ahead (create_node g seq id).1 := by
  obtain ⟨hnode, hbyid, hindex⟩ := create_node_node_fields g seq id
  obtain ⟨e1, e2, e3, e4, e5⟩ := create_node_edge_fields g seq id
  have hnewid : ∀ nd ∈ g.node, nd.id ≠ (create_node g seq id).2.id := by
    intro nd hnd heq
    by_cases h0 : id = 0
    · subst h0
      have := ha.2 nd hnd
      rw [heq, (create_node_alloc g seq ha.1).1] at this
      omega
    · rcases hok with h | h
      · exact h0 h
      · have h1 := hs.nodes_ok.by_id_complete nd hnd
        rw [heq, (create_node_explicit g seq id h0).1] at h1
        have h2 := h.1
        unfold has_node at h2
        simp only at h1
        rw [h1] at h2
        simp at h2
  refine ⟨⟨create_node_consistent g seq id hs.edges_ok,
    create_node_nodes_consistent g hs.nodes_ok seq id hnewid, ?_, ?_, ?_, ?_⟩, ?_⟩
  · rw [hbyid]; exact keys_nodup_insert _ _ _ hs.by_id_keys
  · rw [e4]; exact hs.start_keys
  · rw [e5]; exact hs.end_keys
  · intro e he
    rw [e1] at he
    obtain ⟨h1, h2⟩ := hs.endpoints e he
    rw [create_node_has_node, create_node_has_node, h1, h2]
    simp
  · by_cases h0 : id = 0
    · subst h0
      obtain ⟨a1, a2, a3⟩ := create_node_alloc g seq ha.1
      refine ⟨a3, fun nd hnd => ?_⟩
      rw [a2]
      rw [hnode, List.mem_append, List.mem_singleton] at hnd
      rcases hnd with h | h
      · have := ha.2 nd h; omega
      · rw [h, a1]; omega
    · obtain ⟨x1, x2⟩ := create_node_explicit g seq id h0
      by_cases hone : g.current_id = 1
      · exact counter_ahead_of_one _ (by rw [x2]; exact hone)
      · rcases hok with h | h
        · exact absurd h h0
        · have hlt : id < g.current_id := by
            rcases h.2 with h2 | h2
            · exact absurd h2 hone
            · exact h2
          refine ⟨by rw [x2]; exact ha.1, fun nd hnd => ?_⟩
          have hnext : next_id (create_node g seq id).1 = g.current_id := by
            unfold next_id; rw [x2, if_neg hone]
          have hnext0 : next_id g = g.current_id := by
            unfold next_id; rw [if_neg hone]
          rw [hnext]
          rw [hnode, List.mem_append, List.mem_singleton] at hnd
          rcases hnd with h3 | h3
          · have := ha.2 nd h3; omega
          · rw [h3, x1]; exact hlt

theorem create_edge_inv (g : VG) (a b : Int) (fs te : Bool) (hs : store_consistent g)
    (ha : counter_ahead g) (hpa : has_node g a = true) (hpb : has_node g b = true) :
    store_consistent (create_edge g a b fs te).1 ∧ counter_ahead (create_edge g a b fs te).1 := by
  obtain ⟨f1, f2, f3, f4⟩ := create_edge_frame g a b fs te
  obtain ⟨s1, _, s3, _⟩ := create_edge_summary g hs.edges_ok a b fs te
  have hk := create_edge_side_keys g a b fs te ⟨hs.start_keys, hs.end_keys⟩
  refine ⟨⟨s1, create_edge_nodes_consistent g hs.nodes_ok a b fs te, ?_, hk.1, hk.2, ?_⟩, ?_⟩
  · rw [f2]; exact hs.by_id_keys
  · intro e he
    unfold has_node
    rw [f2]
    rcases s3 e he with h | h
    · exact hs.endpoints e h
    · subst h; exact ⟨hpa, hpb⟩
  · refine ⟨by rw [f4]; exact ha.1, fun nd hnd => ?_⟩
    rw [next_id_congr g _ f1 f4]
    rw [f1] at hnd
    exact ha.2 nd hnd

theorem destroy_node_inv (g : VG) (node : Node) (hs : store_consistent g)
    (ha : counter_ahead g) (hmem : node ∈ g.node) :
    store_consistent (destroy_node g node) ∧ counter_ahead (destroy_node g node) := by
  have hhas : has_node g node.id = true := by
    unfold has_node; rw [hs.nodes_ok.by_id_complete node hmem]; rfl
  obtain ⟨n1, n2, n3⟩ := destroy_node_nodes_consistent g hs.edges_ok hs.nodes_ok node hmem
  obtain ⟨c1, _, c3⟩ := destroy_node_edges_spec g hs.edges_ok node hhas
  have hk := destroy_node_side_keys g node ⟨hs.start_keys, hs.end_keys⟩
  have hcur : (destroy_node g node).current_id = g.current_id := by
    rw [(destroy_node_edge_fields g node hhas).2.2.2.2.2.2]
    exact (destroy_edges_spec (edges_to_destroy_of g node.id) g hs.edges_ok).2.2.2.2.2.2.2.1
  refine ⟨⟨c1, n1, destroy_node_by_id_keys g node hs.by_id_keys, hk.1, hk.2, ?_⟩, ?_⟩
  · intro e he
    obtain ⟨h1, h2, h3⟩ := (c3 e).mp he
    obtain ⟨p1, p2⟩ := hs.endpoints e h1
    rw [n2, n2, p1, p2]
    simp [Ne.symm h2, Ne.symm h3]
  · by_cases hone : g.current_id = 1
    · exact counter_ahead_of_one _ (by rw [hcur]; exact hone)
    · refine ⟨by rw [hcur]; exact ha.1, fun nd hnd => ?_⟩
      have hnext : next_id (destroy_node g node) = g.current_id := by
        unfold next_id; rw [hcur, if_neg hone]
      have hnext0 : next_id g = g.current_id := by
        unfold next_id; rw [if_neg hone]
      rw [hnext, ← hnext0]
      exact ha.2 nd ((n3 nd).mp hnd).1

theorem mem_has_node (g : VG) (hn : nodes_consistent g) (nd : Node) (h : nd ∈ g.node) :
    has_node g nd.id = true := by
  unfold has_node; rw [hn.by_id_complete nd h]; rfl

theorem create_parts_inv (node : Node) (positions : List Int) :
    ∀ (last_pos : Int) (g : VG) (parts : List Node),
      store_consistent g → counter_ahead g → (∀ p ∈ parts, p ∈ g.node) →
      store_consistent (create_parts node positions last_pos g parts).1
      ∧ counter_ahead (create_parts node positions last_pos g parts).1
      ∧ (∀ nd ∈ g.node, nd ∈ (create_parts node positions last_pos g parts).1.node)
      ∧ (∀ p ∈ (create_parts node positions last_pos g parts).2.2,
          p ∈ (create_parts node positions last_pos g parts).1.node) := by
  induction positions with
  | nil => intro last_pos g parts hs ha hp; exact ⟨hs, ha, fun nd h => h, hp⟩
  | cons pos rest ih =>
    intro last_pos g parts hs ha hp
    simp only [create_parts]
    obtain ⟨i1, i2⟩ := create_node_inv g
      (substr node.sequence last_pos.toNat (pos - last_pos)) 0 hs ha (Or.inl rfl)
    have hnode := (create_node_node_fields g
      (substr node.sequence last_pos.toNat (pos - last_pos)) 0).1
    obtain ⟨j1, j2, j3, j4⟩ := ih pos _ (parts ++ [(create_node g
      (substr node.sequence last_pos.toNat (pos - last_pos)) 0).2]) i1 i2 (by
        intro p hp2
        rw [hnode]
        rcases List.mem_append.mp hp2 with h | h
        · exact List.mem_append_left _ (hp p h)
        · exact List.mem_append_right _ h)
    refine ⟨j1, j2, fun nd hnd => j3 nd ?_, j4⟩
    rw [hnode]
    exact List.mem_append_left _ hnd

theorem make_parts_inv (g : VG) (node : Node) (positions : List Int)
    (hs : store_consistent g) (ha : counter_ahead g) :
    store_consistent (make_parts g node positions []).1
    ∧ counter_ahead (make_parts g node positions []).1
    ∧ (∀ nd ∈ g.node, nd ∈ (make_parts g node positions []).1.node)
    ∧ (∀ p ∈ (make_parts g node positions []).2, p ∈ (make_parts g node positions []).1.node)
    ∧ (make_parts g node positions []).2 ≠ [] := by
  obtain ⟨j1, j2, j3, j4⟩ := create_parts_inv node positions 0 g [] hs ha (by simp)
  unfold make_parts
  simp only []
  obtain ⟨i1, i2⟩ := create_node_inv (create_parts node positions 0 g []).1
    (node.sequence.drop (create_parts node positions 0 g []).2.1.toNat) 0 j1 j2 (Or.inl rfl)
  have hnode := (create_node_node_fields (create_parts node positions 0 g []).1
    (node.sequence.drop (create_parts node positions 0 g []).2.1.toNat) 0).1
  refine ⟨i1, i2, fun nd hnd => ?_, fun p hp => ?_, by simp⟩
  · rw [hnode]; exact List.mem_append_left _ (j3 nd hnd)
  · rw [hnode]
    rcases List.mem_append.mp hp with h | h
    · exact List.mem_append_left _ (j4 p h)
    · exact List.mem_append_right _ h

theorem create_edges_inv (l : List ((Int × Bool) × (Int × Bool))) :
    ∀ (g : VG), store_consistent g → counter_ahead g →
      (∀ q ∈ l, has_node g q.1.1 = true ∧ has_node g q.2.1 = true) →
      store_consistent (create_edges g l) ∧ counter_ahead (create_edges g l)
      ∧ (create_edges g l).node = g.node
      ∧ (create_edges g l).node_by_id = g.node_by_id
      ∧ (create_edges g l).paths = g.paths := by
  induction l with
  | nil => intro g hs ha _; exact ⟨hs, ha, rfl, rfl, rfl⟩
  | cons q rest ih =>
    intro g hs ha hq
    simp only [create_edges, List.foldl_cons]
    obtain ⟨h1, h2⟩ := hq q (List.mem_cons_self _ _)
    obtain ⟨i1, i2⟩ := create_edge_inv g q.1.1 q.2.1 q.1.2 q.2.2 hs ha h1 h2
    obtain ⟨f1, f2, _, _⟩ := create_edge_frame g q.1.1 q.2.1 q.1.2 q.2.2
    obtain ⟨j1, j2, j3, j4, j5⟩ := ih (create_edge g q.1.1 q.2.1 q.1.2 q.2.2).1 i1 i2 (by
      intro q2 hq2
      unfold has_node
      rw [f2]
      exact hq q2 (List.mem_cons_of_mem _ hq2))
    simp only [create_edges] at j1 j2 j3 j4 j5
    refine ⟨j1, j2, by rw [j3, f1], by rw [j4, f2], ?_⟩
    rw [j5]
    have := create_edges_paths [q] g
    simp only [create_edges, List.foldl_cons, List.foldl_nil] at this
    exact this

theorem connect_parts_inv (parts : List Node) :
    ∀ (g : VG), store_consistent g → counter_ahead g →
      (∀ p ∈ parts, has_node g p.id = true) →
      store_consistent (connect_parts g parts) ∧ counter_ahead (connect_parts g parts)
      ∧ (connect_parts g parts).node = g.node
      ∧ (connect_parts g parts).node_by_id = g.node_by_id := by
  induction parts with
  | nil => intro g hs ha _; exact ⟨hs, ha, rfl, rfl⟩
  | cons a rest ih =>
    intro g hs ha hp
    cases rest with
    | nil => exact ⟨hs, ha, rfl, rfl⟩
    | cons b rest2 =>
      simp only [connect_parts]
      have h1 := hp a (List.mem_cons_self _ _)
      have h2 := hp b (List.mem_cons_of_mem _ (List.mem_cons_self _ _))
      obtain ⟨i1, i2⟩ := create_edge_inv g a.id b.id false false hs ha h1 h2
      obtain ⟨f1, f2, _, _⟩ := create_edge_frame g a.id b.id false false
      obtain ⟨j1, j2, j3, j4⟩ := ih (create_edge g a.id b.id false false).1 i1 i2 (by
        intro p hp2
        unfold has_node
        rw [f2]
        exact hp p (List.mem_cons_of_mem _ hp2))
      exact ⟨j1, j2, by rw [j3, f1], by rw [j4, f2]⟩

theorem start_neighbour_present (g : VG) (hs : store_consistent g) (n : Int) (x : Int × Bool)
    (hx : x ∈ edges_start g n) : has_node g x.1 = true := by
  have h1 := (hs.edges_ok.start_iff n x).mp hx
  obtain ⟨e, he⟩ := Option.isSome_iff_exists.mp h1
  obtain ⟨hmem, hpair⟩ := hs.edges_ok.by_sides_sound _ e he
  obtain ⟨hf, ht⟩ := hs.endpoints e hmem
  rcases (pair_start_cases n x e hpair).2 with h | h <;> rw [h] <;> assumption

theorem end_neighbour_present (g : VG) (hs : store_consistent g) (n : Int) (x : Int × Bool)
    (hx : x ∈ edges_end g n) : has_node g x.1 = true := by
  have h1 := (hs.edges_ok.end_iff n x).mp hx
  obtain ⟨e, he⟩ := Option.isSome_iff_exists.mp h1
  obtain ⟨hmem, hpair⟩ := hs.edges_ok.by_sides_sound _ e he
  obtain ⟨hf, ht⟩ := hs.endpoints e hmem
  rcases (pair_end_cases n x e hpair).2 with h | h <;> rw [h] <;> assumption

theorem wire_parts_inv (g : VG) (node : Node) (parts : List Node) (hs : store_consistent g)
    (ha : counter_ahead g) (hne : parts ≠ []) (hp : ∀ p ∈ parts, p ∈ g.node) :
    store_consistent (wire_parts g node parts) ∧ counter_ahead (wire_parts g node parts)
    ∧ (wire_parts g node parts).node = g.node
    ∧ (wire_parts g node parts).paths = g.paths := by
  have hhead : has_node g (parts.headD ⟨0, []⟩).id = true :=
    mem_has_node g hs.nodes_ok _ (hp _ (headD_mem parts _ hne))
  have hlast : has_node g (parts.getLastD ⟨0, []⟩).id = true :=
    mem_has_node g hs.nodes_ok _ (hp _ (getLastD_mem parts _ hne))
  have hq : ∀ q ∈ edges_to_create_of g node parts,
      has_node g q.1.1 = true ∧ has_node g q.2.1 = true := by
    intro q hq
    rcases (mem_edges_to_create_of g node parts q).mp hq with ⟨x, hx, rfl⟩ | ⟨x, hx, rfl⟩
    · refine ⟨?_, hhead⟩
      unfold reroute_start
      split_ifs
      · exact hhead
      · exact hlast
      · exact start_neighbour_present g hs node.id x hx
    · refine ⟨hlast, ?_⟩
      unfold reroute_end
      split_ifs
      · exact hlast
      · exact hhead
      · exact end_neighbour_present g hs node.id x hx
  obtain ⟨i1, i2, i3, i4, i5⟩ := create_edges_inv (edges_to_create_of g node parts) g hs ha hq
  obtain ⟨j1, j2, j3, j4⟩ := connect_parts_inv parts
    (create_edges g (edges_to_create_of g node parts)) i1 i2 (by
      intro p hpp
      unfold has_node
      rw [i4]
      exact mem_has_node g hs.nodes_ok p (hp p hpp))
  unfold wire_parts
  exact ⟨j1, j2, by rw [j3, i3], by rw [connect_parts_paths, i5]⟩

theorem store_consistent_paths (g : VG) (paths : Paths) (hs : store_consistent g)
    (ha : counter_ahead g) :
    store_consistent { g with paths := paths } ∧ counter_ahead { g with paths := paths } :=
  ⟨⟨edges_consistent_congr g _ hs.edges_ok rfl rfl rfl rfl rfl,
    nodes_consistent_congr g _ hs.nodes_ok rfl rfl rfl, hs.by_id_keys, hs.start_keys,
    hs.end_keys, hs.endpoints⟩, ⟨ha.1, ha.2⟩⟩

theorem divide_node_inv (cut_mapping : Mapping → Int → Mapping × Mapping) (g : VG)
    (node : Node) (positions : List Int) (hs : store_consistent g) (ha : counter_ahead g)
    (hmem : node ∈ g.node)
    (hret : (divide_node cut_mapping g node positions []).1 = Outcome.returned) :
    store_consistent (divide_node cut_mapping g node positions []).2.1
    ∧ counter_ahead (divide_node cut_mapping g node positions []).2.1 := by
  obtain ⟨m1, m2, m3, m4, m5⟩ := make_parts_inv g node positions hs ha
  obtain ⟨w1, w2, w3, _⟩ := wire_parts_inv (make_parts g node positions []).1 node
    (make_parts g node positions []).2 m1 m2 m5 m4
  unfold divide_node at hret ⊢
  simp only [] at hret ⊢
  split_ifs at hret ⊢
  obtain ⟨p1, p2⟩ := store_consistent_paths
    (wire_parts (make_parts g node positions []).1 node (make_parts g node positions []).2)
    (divide_paths cut_mapping node positions (make_parts g node positions []).2
      (wire_parts (make_parts g node positions []).1 node
        (make_parts g node positions []).2).paths).2 w1 w2
  exact destroy_node_inv _ node p1 p2 (by
    show node ∈ (wire_parts (make_parts g node positions []).1 node
      (make_parts g node positions []).2).node
    rw [w3]; exact m3 node hmem)

theorem empty_store_consistent : store_consistent VG.empty :=
  ⟨empty_consistent, empty_nodes_consistent, by simp [keys_nodup, VG.empty],
    by simp [keys_nodup, VG.empty], by simp [keys_nodup, VG.empty],
    fun e he => by simp [VG.empty] at he⟩

theorem mem_forwarding_edges_of (g : VG) (id : Int) (q : (Int × Bool) × (Int × Bool)) :
    q ∈ forwarding_edges_of g id ↔ (q.1 ∈ edges_start g id ∧ q.2 ∈ edges_end g id) := by
  unfold forwarding_edges_of
  have hinner : ∀ (sp : Int × Bool) (ends : List (Int × Bool))
      (init : List ((Int × Bool) × (Int × Bool))),
      q ∈ ends.foldl (fun s end_pair => set_insert id_bool_pair_lt (sp, end_pair) s) init
        ↔ (q ∈ init ∨ (q.1 = sp ∧ q.2 ∈ ends)) := by
    intro sp ends init
    rw [foldl_set_insert_mem id_bool_pair_lt id_bool_pair_lt_total (fun ep => (sp, ep)) ends
      init q]
    constructor
    · rintro (h | ⟨b, hb, rfl⟩)
      · exact Or.inl h
      · exact Or.inr ⟨rfl, hb⟩
    · rintro (h | ⟨h1, h2⟩)
      · exact Or.inl h
      · exact Or.inr ⟨q.2, h2, by rw [← h1]⟩
  have houter : ∀ (starts : List (Int × Bool)) (init : List ((Int × Bool) × (Int × Bool))),
      q ∈ starts.foldl (fun s start_pair =>
          (edges_end g id).foldl
            (fun s end_pair => set_insert id_bool_pair_lt (start_pair, end_pair) s) s) init
        ↔ (q ∈ init ∨ (q.1 ∈ starts ∧ q.2 ∈ edges_end g id)) := by
    intro starts
    induction starts with
    | nil => intro init; simp
    | cons sp rest ih =>
      intro init
      rw [List.foldl_cons, ih, hinner]
      simp only [List.mem_cons]
      constructor
      · rintro ((h | ⟨h1, h2⟩) | ⟨h1, h2⟩)
        · exact Or.inl h
        · exact Or.inr ⟨Or.inl h1, h2⟩
        · exact Or.inr ⟨Or.inr h1, h2⟩
      · rintro (h | ⟨h1 | h1, h2⟩)
        · exact Or.inl (Or.inl h)
        · exact Or.inl (Or.inr ⟨h1, h2⟩)
        · exact Or.inr ⟨h1, h2⟩
  rw [houter]
  simp

theorem create_edges_frame (l : List ((Int × Bool) × (Int × Bool))) :
    ∀ (g : VG), (create_edges g l).node = g.node
      ∧ (create_edges g l).node_by_id = g.node_by_id
      ∧ (create_edges g l).node_index = g.node_index
      ∧ (create_edges g l).current_id = g.current_id := by
  induction l with
  | nil => intro g; exact ⟨rfl, rfl, rfl, rfl⟩
  | cons q rest ih =>
    intro g
    simp only [create_edges, List.foldl_cons]
    obtain ⟨f1, f2, f3, f4⟩ := create_edge_frame g q.1.1 q.2.1 q.1.2 q.2.2
    obtain ⟨j1, j2, j3, j4⟩ := ih (create_edge g q.1.1 q.2.1 q.1.2 q.2.2).1
    simp only [create_edges] at j1 j2 j3 j4
    exact ⟨by rw [j1, f1], by rw [j2, f2], by rw [j3, f3], by rw [j4, f4]⟩

theorem attached_start_iff (g : VG) (hc : edges_consistent g) (id : Int) (a : NodeSide) :
    has_edge g a ⟨id, false⟩ = true ↔ (a.node, !a.is_end) ∈ edges_start g id := by
  rw [hc.start_iff]
  unfold has_edge pair_from_start_edge
  rw [minmax_comm]
  simp

theorem attached_end_iff (g : VG) (hc : edges_consistent g) (id : Int) (b : NodeSide) :
    has_edge g b ⟨id, true⟩ = true ↔ (b.node, b.is_end) ∈ edges_end g id := by
  rw [hc.end_iff]
  unfold has_edge pair_from_end_edge
  rw [minmax_comm]

theorem forward_edges_spec (g : VG) (hc : edges_consistent g) (node : Node) :
    edges_consistent (forward_edges g node)
    ∧ (∀ s1 s2 : NodeSide, has_edge (forward_edges g node) s1 s2 = true ↔
        (has_edge g s1 s2 = true
          ∨ (has_edge g s1 ⟨node.id, false⟩ = true ∧ has_edge g s2 ⟨node.id, true⟩ = true)
          ∨ (has_edge g s2 ⟨node.id, false⟩ = true ∧ has_edge g s1 ⟨node.id, true⟩ = true)))
    ∧ (forward_edges g node).node = g.node
    ∧ (forward_edges g node).node_by_id = g.node_by_id
    ∧ (forward_edges g node).node_index = g.node_index
    ∧ (forward_edges g node).paths = g.paths := by
  obtain ⟨c1, c2, _, _⟩ := create_edges_spec (forwarding_edges_of g node.id) g hc
  obtain ⟨f1, f2, f3, _⟩ := create_edges_frame (forwarding_edges_of g node.id) g
  refine ⟨c1, fun s1 s2 => ?_, f1, f2, f3, create_edges_paths _ g⟩
  unfold forward_edges has_edge
  rw [c2]
  apply or_congr Iff.rfl
  simp only [← has_edge.eq_1]
  rw [attached_start_iff g hc, attached_end_iff g hc, attached_start_iff g hc,
    attached_end_iff g hc]
  constructor
  · rintro ⟨q, hq, hmm⟩
    rw [mem_forwarding_edges_of] at hq
    rcases (minmax_eq_iff _ _ _ _).mp hmm with ⟨h1, h2⟩ | ⟨h1, h2⟩
    · left
      rw [← h1, ← h2]
      simpa using hq
    · right
      rw [← h1, ← h2]
      simpa using hq
  · rintro (⟨h1, h2⟩ | ⟨h1, h2⟩)
    · refine ⟨((s1.node, !s1.is_end), (s2.node, s2.is_end)),
        (mem_forwarding_edges_of g node.id _).mpr ⟨h1, h2⟩, ?_⟩
      simp
    · refine ⟨((s2.node, !s2.is_end), (s1.node, s1.is_end)),
        (mem_forwarding_edges_of g node.id _).mpr ⟨h1, h2⟩, ?_⟩
      rw [minmax_comm]
      simp

theorem remove_node_forwarding_edges_spec (g : VG) (hc : edges_consistent g)
    (hn : nodes_consistent g) (node : Node) (hmem : node ∈ g.node) :
    edges_consistent (remove_node_forwarding_edges g node)
    ∧ nodes_consistent (remove_node_forwarding_edges g node)
    ∧ (∀ nd, nd ∈ (remove_node_forwarding_edges g node).node ↔ (nd ∈ g.node ∧ nd ≠ node))
    ∧ (∀ id, has_node (remove_node_forwarding_edges g node) id
        = (!decide (node.id = id) && has_node g id))
    ∧ (∀ e ∈ (remove_node_forwarding_edges g node).edge, e.from_ ≠ node.id ∧ e.to_ ≠ node.id)
    ∧ (∀ s1 s2 : NodeSide, has_edge (remove_node_forwarding_edges g node) s1 s2 = true ↔
        (s1.node ≠ node.id ∧ s2.node ≠ node.id ∧ has_edge (forward_edges g node) s1 s2 = true)) := by
  obtain ⟨f1, _, f3, f4, f5, _⟩ := forward_edges_spec g hc node
  have hc1 : edges_consistent
      { forward_edges g node with
        paths := remove_node_mappings (forward_edges g node).paths node.id } :=
    edges_consistent_congr _ _ f1 rfl rfl rfl rfl rfl
  have hn1 : nodes_consistent
      { forward_edges g node with
        paths := remove_node_mappings (forward_edges g node).paths node.id } :=
    nodes_consistent_congr g _ hn f3 f4 f5
  have hhas : has_node
      { forward_edges g node with
        paths := remove_node_mappings (forward_edges g node).paths node.id } node.id = true :=
    mem_has_node _ hn1 node (by show node ∈ (forward_edges g node).node; rw [f3]; exact hmem)
  obtain ⟨d1, d2, d3⟩ := destroy_node_edges_spec _ hc1 node hhas
  obtain ⟨n1, n2, n3⟩ := destroy_node_nodes_consistent _ hc1 hn1 node
    (by show node ∈ (forward_edges g node).node; rw [f3]; exact hmem)
  unfold remove_node_forwarding_edges
  simp only []
  refine ⟨d1, n1, fun nd => ?_, fun id => ?_, fun e he => ((d3 e).mp he).2, fun s1 s2 => ?_⟩
  · rw [n3 nd]
    show (nd ∈ (forward_edges g node).node ∧ nd ≠ node) ↔ _
    rw [f3]
  · rw [n2 id]
    show (!decide (node.id = id) && (map_find (forward_edges g node).node_by_id id).isSome) = _
    rw [f4]; rfl
  · unfold has_edge
    rw [d2]
    have ht := minmax_touch s1 s2 node.id
    by_cases h : s1.node = node.id ∨ s2.node = node.id
    · rw [if_pos (ht.mpr h)]
      simp only [Option.isSome_none, Bool.false_eq_true, ne_eq, false_iff, not_and]
      intro a b
      rcases h with h | h
      · exact absurd h a
      · exact absurd h b
    · rw [if_neg (fun hh => h (ht.mp hh))]
      push_neg at h
      simp [h.1, h.2]

theorem remove_all_forwarding_spec (l : List Node) :
    ∀ (g : VG), edges_consistent g → nodes_consistent g → l.Nodup → (∀ z ∈ l, z ∈ g.node) →
      edges_consistent (l.foldl remove_node_forwarding_edges g)
      ∧ nodes_consistent (l.foldl remove_node_forwarding_edges g)
      ∧ (∀ nd, nd ∈ (l.foldl remove_node_forwarding_edges g).node ↔ (nd ∈ g.node ∧ nd ∉ l)) := by
  induction l with
  | nil => intro g hc hn _ _; exact ⟨hc, hn, fun nd => by simp⟩
  | cons z rest ih =>
    intro g hc hn hd hz
    rw [List.nodup_cons] at hd
    obtain ⟨r1, r2, r3, _⟩ :=
      remove_node_forwarding_edges_spec g hc hn z (hz z (List.mem_cons_self _ _))
    obtain ⟨i1, i2, i3⟩ := ih (remove_node_forwarding_edges g z) r1 r2 hd.2 (by
      intro y hy
      rw [r3]
      refine ⟨hz y (List.mem_cons_of_mem _ hy), fun heq => hd.1 ?_⟩
      rw [← heq]; exact hy)
    rw [List.foldl_cons]
    refine ⟨i1, i2, fun nd => ?_⟩
    rw [i3, r3, List.mem_cons]
    tauto

/-- C14: in a graph whose stores and indexes agree, for a stored node Z (in
particular one with an empty sequence), `remove_node_forwarding_edges` first
creates, for every side a attached to the start of Z and every side b attached
to the end of Z, an edge joining a and b (`forward_edges`), and then removes Z
with all edges incident to it: Z is no longer stored or indexed, no stored
edge has Z as an endpoint, the other nodes stay, and two sides not on Z are
joined afterwards exactly when they were joined before or one was attached to
the start of Z and the other to its end.  After
`remove_null_nodes_forwarding_edges` no stored node has an empty sequence, and
the stored nodes are the nodes with a nonempty sequence stored before. -/
theorem remove_node_forwarding_edges_forwards (g : VG) (hc : edges_consistent g)
    (hn : nodes_consistent g) (Z : Node) (hZ : Z ∈ g.node) :
    (∀ a b : NodeSide, has_edge g a ⟨Z.id, false⟩ = true → has_edge g b ⟨Z.id, true⟩ = true →
        has_edge (forward_edges g Z) a b = true)
    ∧ (∀ a b : NodeSide, has_edge g a ⟨Z.id, false⟩ = true → has_edge g b ⟨Z.id, true⟩ = true →
        a.node ≠ Z.id → b.node ≠ Z.id →
        has_edge (remove_node_forwarding_edges g Z) a b = true)
    ∧ has_node (remove_node_forwarding_edges g Z) Z.id = false
    ∧ Z ∉ (remove_node_forwarding_edges g Z).node
    ∧ (∀ e ∈ (remove_node_forwarding_edges g Z).edge, e.from_ ≠ Z.id ∧ e.to_ ≠ Z.id)
    ∧ (∀ nd ∈ g.node, nd ≠ Z → nd ∈ (remove_node_forwarding_edges g Z).node)
    ∧ (∀ s1 s2 : NodeSide, s1.node ≠ Z.id → s2.node ≠ Z.id →
        (has_edge (remove_node_forwarding_edges g Z) s1 s2 = true ↔
          (has_edge g s1 s2 = true
            ∨ (has_edge g s1 ⟨Z.id, false⟩ = true ∧ has_edge g s2 ⟨Z.id, true⟩ = true)
            ∨ (has_edge g s2 ⟨Z.id, false⟩ = true ∧ has_edge g s1 ⟨Z.id, true⟩ = true))))
    ∧ (∀ nd, nd ∈ (remove_null_nodes_forwarding_edges g).node ↔
        (nd ∈ g.node ∧ nd.sequence ≠ [])) := by
  obtain ⟨_, f2, _⟩ := forward_edges_spec g hc Z
  obtain ⟨_, _, r3, r4, r5, r6⟩ := remove_node_forwarding_edges_spec g hc hn Z hZ
  refine ⟨fun a b ha hb => (f2 a b).mpr (Or.inr (Or.inl ⟨ha, hb⟩)),
    fun a b ha hb hza hzb => (r6 a b).mpr ⟨hza, hzb, (f2 a b).mpr (Or.inr (Or.inl ⟨ha, hb⟩))⟩,
    by rw [r4]; simp, fun h => ((r3 Z).mp h).2 rfl, r5, fun nd h1 h2 => (r3 nd).mpr ⟨h1, h2⟩,
    fun s1 s2 h1 h2 => ?_, fun nd => ?_⟩
  · rw [r6, f2]
    simp [h1, h2]
  · unfold remove_null_nodes_forwarding_edges
    simp only []
    obtain ⟨_, _, i3⟩ := remove_all_forwarding_spec
      (g.node.filter (fun node => decide (node.sequence.length = 0))) g hc hn
      (hn.node_nodup.filter _) (fun z hz => (List.mem_filter.mp hz).1)
    rw [i3 nd]
    simp only [List.mem_filter, decide_eq_true_eq, List.length_eq_zero, not_and]
    constructor
    · rintro ⟨h1, h2⟩; exact ⟨h1, h2 h1⟩
    · rintro ⟨h1, h2⟩; exact ⟨h1, fun _ => h2⟩

theorem null_graph_store : store_consistent null_graph ∧ counter_ahead null_graph := by
  have h0 : store_consistent VG.empty ∧ counter_ahead VG.empty :=
    ⟨empty_store_consistent, counter_ahead_of_one _ rfl⟩
  have h1 := create_node_inv VG.empty "A".toList 0 h0.1 h0.2 (Or.inl rfl)
  have h2 := create_node_inv _ [] 0 h1.1 h1.2 (Or.inl rfl)
  have h3 := create_node_inv _ "C".toList 0 h2.1 h2.2 (Or.inl rfl)
  have h4 := create_edge_inv _ 1 2 false false h3.1 h3.2 (by decide) (by decide)
  exact create_edge_inv _ 2 3 false false h4.1 h4.2 (by decide) (by decide)

/-- C14, witness: in the graph 1 - 2 - 3 with the null node 2, the end of
node 1 is attached to the start of node 2 and the start of node 3 to its end;
after `remove_node_forwarding_edges` of node 2 the end of node 1 is joined to
the start of node 3. -/
theorem remove_node_forwarding_edges_forwards_witness :
    (has_edge null_graph ⟨1, true⟩ ⟨2, false⟩ = true
      ∧ has_edge null_graph ⟨3, false⟩ ⟨2, true⟩ = true)
    ∧ has_edge (remove_node_forwarding_edges null_graph ⟨2, []⟩) ⟨1, true⟩ ⟨3, false⟩ = true
    ∧ (remove_null_nodes_forwarding_edges null_graph).node = [⟨1, "A".toList⟩, ⟨3, "C".toList⟩] :=
  ⟨⟨by decide, by decide⟩,
   (remove_node_forwarding_edges_forwards null_graph null_graph_store.1.edges_ok
      null_graph_store.1.nodes_ok ⟨2, []⟩ (by decide)).2.1 ⟨1, true⟩ ⟨3, false⟩
      (by decide) (by decide) (by decide) (by decide),
   by decide⟩

theorem loop_walk_step (simple_match : Mapping → Bool) (c seen : List Node) :
    go_left_step simple_match (flip_doubly_reversed_edges loop_graph)
        { l := ⟨1, "A".toList⟩, sides := [⟨1, true⟩], c := c, seen := seen }
      = WalkStep.running
          { l := ⟨1, "A".toList⟩, sides := [⟨1, true⟩], c := ⟨1, "A".toList⟩ :: c,
            seen := if (⟨1, "A".toList⟩ : Node) ∈ seen then seen else ⟨1, "A".toList⟩ :: seen } := by
  have h1 : start_degree (flip_doubly_reversed_edges loop_graph) ⟨1, "A".toList⟩ = 1 := by
    decide
  have h2 : get_node (flip_doubly_reversed_edges loop_graph) 1 = some ⟨1, "A".toList⟩ := by
    decide
  have h3 : end_degree (flip_doubly_reversed_edges loop_graph) ⟨1, "A".toList⟩ = 1 := by
    decide
  have h4 : nodes_are_perfect_path_neighbors simple_match
      (flip_doubly_reversed_edges loop_graph) 1 1 = some true := rfl
  have h5 : sides_to (flip_doubly_reversed_edges loop_graph) ⟨1, false⟩ = some [⟨1, true⟩] := by
    decide
  simp only [go_left_step, h1, h2, h3, h4, h5, if_true, and_self]

/-- C15: `normalize` does not return on the graph with the single node 1 and
the plain self loop from its end to its start, without paths.  Its first step
`flip_doubly_reversed_edges` leaves the loop as it is, and the second step
`unchop` calls `simple_components`, whose block `// go left` starts at node 1
with the set `sides` holding the end of node 1; whatever the number `n`, after
`n` passes the loop is still running, with `n` copies of node 1 pushed to the
front of the component list. -/
theorem simple_components_walk_diverges (simple_match : Mapping → Bool) :
    loop_graph.node = [⟨1, "A".toList⟩]
    ∧ loop_graph.edge = [⟨1, 1, false, false⟩]
    ∧ loop_graph.paths = []
    ∧ go_left_start (flip_doubly_reversed_edges loop_graph) ⟨1, "A".toList⟩ []
        = some { l := ⟨1, "A".toList⟩, sides := [⟨1, true⟩], c := [], seen := [⟨1, "A".toList⟩] }
    ∧ ∀ n : Nat, ∃ w : LeftWalk,
        go_left_passes simple_match (flip_doubly_reversed_edges loop_graph) n
            { l := ⟨1, "A".toList⟩, sides := [⟨1, true⟩], c := [], seen := [⟨1, "A".toList⟩] }
          = WalkStep.running w
        ∧ w.c = List.replicate n ⟨1, "A".toList⟩ := by
  refine ⟨by decide, by decide, by decide, by decide, ?_⟩
  have hgen : ∀ (n : Nat) (c seen : List Node), ∃ w : LeftWalk,
      go_left_passes simple_match (flip_doubly_reversed_edges loop_graph) n
          { l := ⟨1, "A".toList⟩, sides := [⟨1, true⟩], c := c, seen := seen }
        = WalkStep.running w
      ∧ w.c = List.replicate n ⟨1, "A".toList⟩ ++ c := by
    intro n
    induction n with
    | zero => intro c seen; exact ⟨_, rfl, by simp⟩
    | succ k ih =>
      intro c seen
      obtain ⟨w, hw1, hw2⟩ := ih (⟨1, "A".toList⟩ :: c)
        (if (⟨1, "A".toList⟩ : Node) ∈ seen then seen else ⟨1, "A".toList⟩ :: seen)
      refine ⟨w, ?_, ?_⟩
      · simp only [go_left_passes, loop_walk_step]
        exact hw1
      · rw [hw2, List.replicate_succ']
        simp
  intro n
  obtain ⟨w, h1, h2⟩ := hgen n [] [⟨1, "A".toList⟩]
  exact ⟨w, h1, by simpa using h2⟩

theorem divide_path_mappings_untouched (cut_mapping : Mapping → Int → Mapping × Mapping)
    (node : Node) (positions : List Int) (parts : List Node) (ms : List Mapping)
    (h : ∀ m ∈ ms, m.position.node_id ≠ node.id) :
    divide_path_mappings cut_mapping node positions parts ms = (true, ms) := by
  induction ms with
  | nil => rfl
  | cons m rest ih =>
    have h1 := h m (List.mem_cons_self _ _)
    have h2 := ih (fun m2 hm2 => h m2 (List.mem_cons_of_mem _ hm2))
    simp only [divide_path_mappings, h1, if_false, h2]

theorem divide_paths_untouched (cut_mapping : Mapping → Int → Mapping × Mapping)
    (node : Node) (positions : List Int) (parts : List Node) (paths : Paths)
    (h : ∀ p ∈ paths, ∀ m ∈ p.2, m.position.node_id ≠ node.id) :
    divide_paths cut_mapping node positions parts paths = (true, paths) := by
  induction paths with
  | nil => rfl
  | cons p rest ih =>
    obtain ⟨name, ms⟩ := p
    have h1 := divide_path_mappings_untouched cut_mapping node positions parts ms
      (h (name, ms) (List.mem_cons_self _ _))
    have h2 := ih (fun p2 hp2 => h p2 (List.mem_cons_of_mem _ hp2))
    simp only [divide_paths, h1, if_true, h2]

theorem create_node_fresh_eq (g : VG) (seq : List Char) (hcur : 1 ≤ g.current_id) :
    (create_node g seq 0).2 = ⟨next_id g, seq⟩ := by
  have e1 := (create_node_alloc g seq hcur).1
  have e2 := create_node_sequence g seq 0
  generalize (create_node g seq 0).2 = L at e1 e2
  obtain ⟨i, s⟩ := L
  simp only at e1 e2
  rw [e1, e2]

theorem connect_parts_frame (parts : List Node) :
    ∀ (g : VG), (connect_parts g parts).node = g.node
      ∧ (connect_parts g parts).current_id = g.current_id := by
  induction parts with
  | nil => intro g; exact ⟨rfl, rfl⟩
  | cons a rest ih =>
    intro g
    cases rest with
    | nil => exact ⟨rfl, rfl⟩
    | cons b rest2 =>
      simp only [connect_parts]
      obtain ⟨f1, _, _, f4⟩ := create_edge_frame g a.id b.id false false
      obtain ⟨j1, j2⟩ := ih (create_edge g a.id b.id false false).1
      exact ⟨by rw [j1, f1], by rw [j2, f4]⟩

theorem wire_parts_frame (g : VG) (node : Node) (parts : List Node) :
    (wire_parts g node parts).node = g.node
    ∧ (wire_parts g node parts).current_id = g.current_id
    ∧ (wire_parts g node parts).paths = g.paths := by
  unfold wire_parts
  obtain ⟨c1, c2⟩ := connect_parts_frame parts (create_edges g (edges_to_create_of g node parts))
  obtain ⟨e1, _, _, e4⟩ := create_edges_frame (edges_to_create_of g node parts) g
  exact ⟨by rw [c1, e1], by rw [c2, e4], by rw [connect_parts_paths, create_edges_paths]⟩

theorem destroy_node_current_id (g : VG) (hc : edges_consistent g) (node : Node) :
    (destroy_node g node).current_id = g.current_id := by
  by_cases hh : has_node g node.id = true
  · rw [(destroy_node_edge_fields g node hh).2.2.2.2.2.2]
    exact (destroy_edges_spec (edges_to_destroy_of g node.id) g hc).2.2.2.2.2.2.2.1
  · rw [destroy_node_absent g node (by simpa using hh)]

theorem substr_zero (s : List Char) (pos : Int) (h0 : 0 ≤ pos) (h1 : pos < 2 ^ 64) :
    substr s (0 : Int).toNat (pos - 0) = s.take pos.toNat := by
  unfold substr
  simp only [Int.toNat_zero, List.drop_zero, sub_zero]
  rw [Int.emod_eq_of_lt h0 h1]

theorem make_parts_one (g : VG) (node : Node) (pos : Int) (hcur : 1 ≤ g.current_id)
    (h0 : 0 ≤ pos) (h1 : pos < 2 ^ 64) :
    (make_parts g node [pos] []).2
        = [⟨next_id g, node.sequence.take pos.toNat⟩,
           ⟨next_id g + 1, node.sequence.drop pos.toNat⟩]
    ∧ (make_parts g node [pos] []).1.node
        = g.node ++ [⟨next_id g, node.sequence.take pos.toNat⟩,
           ⟨next_id g + 1, node.sequence.drop pos.toNat⟩]
    ∧ (make_parts g node [pos] []).1.current_id = next_id g + 2
    ∧ (make_parts g node [pos] []).1.paths = g.paths := by
  have hsub := substr_zero node.sequence pos h0 h1
  have hunf : make_parts g node [pos] []
      = ((create_node (create_node g (node.sequence.take pos.toNat) 0).1
          (node.sequence.drop pos.toNat) 0).1,
         [(create_node g (node.sequence.take pos.toNat) 0).2,
          (create_node (create_node g (node.sequence.take pos.toNat) 0).1
            (node.sequence.drop pos.toNat) 0).2]) := by
    simp only [make_parts, create_parts, hsub, List.nil_append, List.cons_append]
  have hA := create_node_alloc g (node.sequence.take pos.toNat) hcur
  have hL := create_node_fresh_eq g (node.sequence.take pos.toNat) hcur
  have hAn := (create_node_node_fields g (node.sequence.take pos.toNat) 0).1
  have hR := create_node_fresh_eq (create_node g (node.sequence.take pos.toNat) 0).1
    (node.sequence.drop pos.toNat) hA.2.2
  have hBid := create_node_id (create_node g (node.sequence.take pos.toNat) 0).1
    (node.sequence.drop pos.toNat)
  have hBn := (create_node_node_fields (create_node g (node.sequence.take pos.toNat) 0).1
    (node.sequence.drop pos.toNat) 0).1
  rw [hA.2.1] at hR
  rw [hunf]
  refine ⟨by rw [hL, hR], ?_, ?_, ?_⟩
  · simp only []
    rw [hBn, hAn, hL, hR]
    simp
  · simp only []
    rw [hBid.2, hR]
    simp only []
    ring
  · simp only []
    rw [create_node_frame_other, create_node_frame_other]

theorem divide_node_at_spec (cut_mapping : Mapping → Int → Mapping × Mapping) (g : VG)
    (node : Node) (pos : Int) (hs : store_consistent g) (ha : counter_ahead g)
    (hmem : node ∈ g.node) (h0 : 0 ≤ pos) (h1 : pos ≤ node.sequence.length)
    (hlen : (node.sequence.length : Int) < 2 ^ 64)
    (hpaths : ∀ p ∈ g.paths, ∀ m ∈ p.2, m.position.node_id ≠ node.id) :
    ∃ g2, divide_node_at cut_mapping g node pos
        = some (g2, ⟨next_id g, node.sequence.take pos.toNat⟩,
            ⟨next_id g + 1, node.sequence.drop pos.toNat⟩)
      ∧ store_consistent g2 ∧ counter_ahead g2
      ∧ next_id g2 = next_id g + 2
      ∧ g2.paths = g.paths
      ∧ (∀ nd, nd ∈ g2.node ↔
          ((nd ∈ g.node ∧ nd ≠ node) ∨ nd = ⟨next_id g, node.sequence.take pos.toNat⟩
            ∨ nd = ⟨next_id g + 1, node.sequence.drop pos.toNat⟩))
      ∧ node_count g2 = node_count g + 1 := by
  obtain ⟨p1, p2, p3, p4⟩ := make_parts_one g node pos ha.1 h0 (by omega)
  obtain ⟨m1, m2, m3, m4, m5⟩ := make_parts_inv g node [pos] hs ha
  obtain ⟨w1, w2, _, _⟩ := wire_parts_inv (make_parts g node [pos] []).1 node
    (make_parts g node [pos] []).2 m1 m2 m5 m4
  obtain ⟨f1, f2, f3⟩ := wire_parts_frame (make_parts g node [pos] []).1 node
    (make_parts g node [pos] []).2
  have hrange : [pos].any
      (fun pos => decide (pos < 0) || decide (pos > (node.sequence.length : Int))) = false := by
    simp only [List.any_cons, List.any_nil, Bool.or_false, Bool.or_eq_false_iff,
      decide_eq_false_iff_not]
    constructor <;> omega
  have hdp := divide_paths_untouched cut_mapping node [pos] (make_parts g node [pos] []).2
    g.paths hpaths
  have hg3paths : (wire_parts (make_parts g node [pos] []).1 node
      (make_parts g node [pos] []).2).paths = g.paths := by rw [f3, p4]
  have hunf : divide_node cut_mapping g node [pos] []
      = (Outcome.returned,
         destroy_node
          { wire_parts (make_parts g node [pos] []).1 node (make_parts g node [pos] []).2 with
            paths := g.paths } node,
         (make_parts g node [pos] []).2) := by
    unfold divide_node
    simp only [hrange, Bool.false_eq_true, if_false, hg3paths, hdp, if_true]
  obtain ⟨g4, hg4⟩ : ∃ g4 : VG, g4 =
      { wire_parts (make_parts g node [pos] []).1 node (make_parts g node [pos] []).2 with
        paths := g.paths } := ⟨_, rfl⟩
  rw [← hg4] at hunf
  obtain ⟨q1, q2⟩ : store_consistent g4 ∧ counter_ahead g4 := by
    rw [hg4]
    exact store_consistent_paths
      (wire_parts (make_parts g node [pos] []).1 node (make_parts g node [pos] []).2)
      g.paths w1 w2
  have hnode4 : g4.node = g.node ++ [⟨next_id g, node.sequence.take pos.toNat⟩,
      ⟨next_id g + 1, node.sequence.drop pos.toNat⟩] := by
    rw [hg4]
    show (wire_parts (make_parts g node [pos] []).1 node (make_parts g node [pos] []).2).node = _
    rw [f1, p2]
  have hcur4 : g4.current_id = next_id g + 2 := by
    rw [hg4]
    show (wire_parts (make_parts g node [pos] []).1 node
      (make_parts g node [pos] []).2).current_id = _
    rw [f2, p3]
  have hpaths4 : g4.paths = g.paths := by rw [hg4]
  have hmem4 : node ∈ g4.node := by
    rw [hnode4]; exact List.mem_append_left _ hmem
  obtain ⟨d1, d2⟩ := destroy_node_inv g4 node q1 q2 hmem4
  obtain ⟨_, _, n3⟩ := destroy_node_nodes_consistent g4 q1.edges_ok q1.nodes_ok node hmem4
  obtain ⟨i, last, hi, hl, hdn, _⟩ := destroy_node_node_fields g4 q1.edges_ok q1.nodes_ok node hmem4
  have hcount := (destroyed_list_spec g4.node i node q1.nodes_ok.node_nodup hi).2.2
  have hcur : (destroy_node g4 node).current_id = next_id g + 2 := by
    rw [destroy_node_current_id g4 q1.edges_ok, hcur4]
  have hnid : node.id < next_id g := ha.2 node hmem
  have hpos1 : 1 ≤ next_id g := next_id_pos g ha.1
  refine ⟨destroy_node g4 node, ?_, d1, d2, ?_, by rw [destroy_node_paths, hpaths4],
    fun nd => ?_, ?_⟩
  · unfold divide_node_at
    simp only [hunf, if_true, p1]
    rfl
  · have hn2 : next_id (destroy_node g4 node) = (destroy_node g4 node).current_id := by
      unfold next_id
      rw [if_neg (by rw [hcur]; omega)]
    rw [hn2, hcur]
  · rw [n3 nd, hnode4]
    simp only [List.mem_append, List.mem_cons, List.mem_singleton, List.not_mem_nil, or_false]
    constructor
    · rintro ⟨h | h | h, hne⟩
      · exact Or.inl ⟨h, hne⟩
      · exact Or.inr (Or.inl h)
      · exact Or.inr (Or.inr h)
    · rintro (⟨h, hne⟩ | h | h)
      · exact ⟨Or.inl h, hne⟩
      · refine ⟨Or.inr (Or.inl h), fun heq => ?_⟩
        rw [h] at heq
        rw [← heq] at hnid
        simp at hnid
      · refine ⟨Or.inr (Or.inr h), fun heq => ?_⟩
        rw [h] at heq
        rw [← heq] at hnid
        simp at hnid
  · have hl4 := congrArg List.length hnode4
    simp only [List.length_append, List.length_cons, List.length_nil] at hl4
    simp only [node_count]
    rw [hdn]
    omega

theorem to_int_small (x : Int) (h0 : 0 ≤ x) (h1 : x < 2 ^ 31) : to_int x = x := by
  unfold to_int
  omega

theorem take_drop_between (s : List Char) (a b : Int) (ha : 0 ≤ a) (hab : a ≤ b) :
    (s.drop a.toNat).take (b - a).toNat = between s a b := by
  unfold between
  rw [List.drop_take]
  congr 1
  omega

theorem between_full (s : List Char) (a : Int) :
    between s a (s.length : Int) = s.drop a.toNat := by
  unfold between
  simp

theorem getLastD_cons_eq {α : Type} (x d : α) (l : List α) :
    (x :: l).getLastD d = l.getLastD x := by
  cases l with
  | nil => rfl
  | cons y rest => simp [List.getLastD, List.getLast_cons]

theorem inner_offsets_skip (n : Int) (b : pos_t) (rest : List pos_t)
    (h : b.offset = 0 ∨ b.offset = n) :
    inner_offsets n (b :: rest) = inner_offsets n rest := by
  unfold inner_offsets
  rw [List.map_cons, List.filter_cons_of_neg]
  rcases h with h | h <;> simp [h]

theorem inner_offsets_cut (n : Int) (b : pos_t) (rest : List pos_t)
    (h0 : 0 < b.offset) (h1 : b.offset < n) :
    inner_offsets n (b :: rest) = b.offset :: inner_offsets n rest := by
  unfold inner_offsets
  rw [List.map_cons, List.filter_cons_of_pos]
  simp [h0, h1]

theorem ensure_breakpoint_loop_spec (cut_mapping : Mapping → Int → Mapping × Mapping)
    (g0 : VG) (i : Int) (S : List Char) (hS : (S.length : Int) < 2 ^ 31)
    (hfree : ∀ p ∈ g0.paths, ∀ m ∈ p.2, m.position.node_id < next_id g0)
    (bps : List pos_t) :
    ∀ (s : BreakState), break_inv g0 i S s →
      (∀ b ∈ bps, b.id = i ∧ b.is_rev = false ∧ 0 ≤ b.offset ∧ b.offset ≤ (S.length : Int)
        ∧ (b.offset = 0 ∨ s.current_offset < b.offset)) →
      bps.Pairwise (fun a b => a.offset < b.offset) →
      ∃ s2, ensure_breakpoint_loop cut_mapping (S.length : Int) s bps = some s2
        ∧ break_inv g0 i S s2
        ∧ ∃ lefts : List Node,
          lefts.map (fun nd => nd.sequence) ++ [s2.right_part.sequence]
              = expected_sequences S (inner_offsets (S.length : Int) bps) s.current_offset
          ∧ lefts.length = (inner_offsets (S.length : Int) bps).length
          ∧ (∀ bp ∈ (s.current_offset :: inner_offsets (S.length : Int) bps).zip lefts,
              map_find s2.toReturn ⟨i, false, bp.1⟩ = some (some bp.2)
              ∧ bp.2.sequence <+: S.drop bp.1.toNat
              ∧ bp.1 < s2.current_offset)
          ∧ s.current_offset ≤ s2.current_offset
          ∧ s2.current_offset
              = (inner_offsets (S.length : Int) bps).getLastD s.current_offset
          ∧ (∀ k : pos_t, k.is_rev = false → (k.id ≠ i ∨ k.offset < s.current_offset) →
              map_find s2.toReturn k = map_find s.toReturn k)
          ∧ (∀ nd, nd ∈ s2.g.node ↔
              ((nd ∈ s.g.node ∧ nd ≠ s.right_part) ∨ nd ∈ lefts ∨ nd = s2.right_part))
          ∧ node_count s2.g
              = node_count s.g + (inner_offsets (S.length : Int) bps).length := by
  induction bps with
  | nil =>
    intro s hinv _ _
    refine ⟨s, rfl, hinv, [], ?_, rfl, ?_, le_refl _, rfl, fun _ _ _ => rfl, fun nd => ?_, ?_⟩
    · simp only [inner_offsets, List.map_nil, List.filter_nil, expected_sequences,
        List.nil_append, between_full]
      rw [hinv.right_seq]
    · intro bp hbp; simp at hbp
    · simp only [List.not_mem_nil, false_or]
      constructor
      · intro h
        by_cases he : nd = s.right_part
        · exact Or.inr he
        · exact Or.inl ⟨h, he⟩
      · rintro (⟨h, _⟩ | h)
        · exact h
        · rw [h]; exact hinv.right_mem
    · simp [inner_offsets]
  | cons b rest ih =>
    intro s hinv hb hsorted
    obtain ⟨hbid, hbrev, hb0, hbn, hbcur⟩ := hb b (List.mem_cons_self _ _)
    rw [List.pairwise_cons] at hsorted
    by_cases hskip : b.offset = 0 ∨ b.offset = (S.length : Int)
    · have hstep : ensure_breakpoint cut_mapping (S.length : Int) s b = some s := by
        unfold ensure_breakpoint
        simp [hbrev, hskip]
      obtain ⟨s2, h1, h2, lefts, h3⟩ := ih s hinv
        (fun b2 hb2 => hb b2 (List.mem_cons_of_mem _ hb2)) hsorted.2
      refine ⟨s2, ?_, h2, lefts, ?_⟩
      · simp only [ensure_breakpoint_loop, hstep]
        exact h1
      · rw [inner_offsets_skip _ b rest hskip]
        exact h3
    · push_neg at hskip
      have hcurlt : s.current_offset < b.offset := by
        rcases hbcur with h | h
        · exact absurd h hskip.1
        · exact h
      have hbpos : 0 < b.offset := lt_of_le_of_ne hb0 (Ne.symm hskip.1)
      have hblt : b.offset < (S.length : Int) := lt_of_le_of_ne hbn hskip.2
      have hrlen : (s.right_part.sequence.length : Int) = (S.length : Int) - s.current_offset := by
        rw [hinv.right_seq, List.length_drop]
        have := hinv.offset_lo
        omega
      obtain ⟨g2, d1, d2, d3, d4, d5, d6, d7⟩ := divide_node_at_spec cut_mapping s.g
        s.right_part (b.offset - s.current_offset) hinv.store hinv.ahead hinv.right_mem
        (by omega) (by rw [hrlen]; omega) (by rw [hrlen]; have := hinv.offset_lo; omega)
        (by rw [hinv.paths_eq]; exact hinv.right_free)
      have hstep : ensure_breakpoint cut_mapping (S.length : Int) s b
          = some { g := g2,
                   toReturn := map_insert (map_insert s.toReturn s.last_bp
                      (some ⟨next_id s.g,
                        s.right_part.sequence.take (b.offset - s.current_offset).toNat⟩))
                      (reverse b (S.length : Int))
                      (some ⟨next_id s.g,
                        s.right_part.sequence.take (b.offset - s.current_offset).toNat⟩),
                   right_part := ⟨next_id s.g + 1,
                      s.right_part.sequence.drop (b.offset - s.current_offset).toNat⟩,
                   left_part := some ⟨next_id s.g,
                      s.right_part.sequence.take (b.offset - s.current_offset).toNat⟩,
                   last_bp := b,
                   current_offset := s.current_offset + (b.offset - s.current_offset) } := by
        unfold ensure_breakpoint
        have hti : to_int (b.offset - s.current_offset) = b.offset - s.current_offset :=
          to_int_small _ (by omega) (by have := hinv.offset_lo; omega)
        simp only [hbrev, Bool.false_eq_true, if_false, hskip.1, hskip.2, or_self, hti, d1,
          gt_iff_lt, hbpos, not_true_eq_false, hblt]
      obtain ⟨s1, hs1⟩ : ∃ s1 : BreakState, s1 =
          { g := g2,
            toReturn := map_insert (map_insert s.toReturn s.last_bp
              (some ⟨next_id s.g,
                s.right_part.sequence.take (b.offset - s.current_offset).toNat⟩))
              (reverse b (S.length : Int))
              (some ⟨next_id s.g,
                s.right_part.sequence.take (b.offset - s.current_offset).toNat⟩),
            right_part := ⟨next_id s.g + 1,
              s.right_part.sequence.drop (b.offset - s.current_offset).toNat⟩,
            left_part := some ⟨next_id s.g,
              s.right_part.sequence.take (b.offset - s.current_offset).toNat⟩,
            last_bp := b,
            current_offset := s.current_offset + (b.offset - s.current_offset) } := ⟨_, rfl⟩
      rw [← hs1] at hstep
      have e_g : s1.g = g2 := by rw [hs1]
      have e_r : s1.right_part = ⟨next_id s.g + 1,
          s.right_part.sequence.drop (b.offset - s.current_offset).toNat⟩ := by rw [hs1]
      have e_c : s1.current_offset = b.offset := by rw [hs1]; simp
      have e_l : s1.last_bp = b := by rw [hs1]
      have e_t : s1.toReturn = map_insert (map_insert s.toReturn s.last_bp
          (some ⟨next_id s.g, s.right_part.sequence.take (b.offset - s.current_offset).toNat⟩))
          (reverse b (S.length : Int))
          (some ⟨next_id s.g, s.right_part.sequence.take (b.offset - s.current_offset).toNat⟩) := by
        rw [hs1]
      have hnextpos : 1 ≤ next_id s.g := next_id_pos s.g hinv.ahead.1
      have hinv1 : break_inv g0 i S s1 := by
        refine ⟨by rw [e_g]; exact d2, by rw [e_g]; exact d3, ?_, ?_, ?_, ?_, ?_, ?_, ?_, ?_⟩
        · rw [e_g, e_r, d6]; exact Or.inr (Or.inr rfl)
        · rw [e_r, e_c]
          simp only []
          rw [hinv.right_seq, List.drop_drop]
          congr 1
          have := hinv.offset_lo
          omega
        · rw [e_l, e_c]
          obtain ⟨bi, br, bo⟩ := b
          simp only at hbid hbrev
          rw [hbid, hbrev]
        · rw [e_c]; exact hb0
        · rw [e_c]; exact Or.inr hblt
        · rw [e_g, d5]; exact hinv.paths_eq
        · rw [e_g, d4]; have := hinv.next_ge; omega
        · intro p hp m hm
          rw [e_r]
          simp only []
          have := hfree p hp m hm
          have := hinv.next_ge
          omega
      obtain ⟨s2, h1, h2, lefts, i1, i2, i3, imono, i4, i5, i6, i7⟩ := ih s1 hinv1
        (fun b2 hb2 => by
          obtain ⟨x1, x2, x3, x4, _⟩ := hb b2 (List.mem_cons_of_mem _ hb2)
          refine ⟨x1, x2, x3, x4, Or.inr ?_⟩
          rw [e_c]
          exact hsorted.1 b2 hb2) hsorted.2
      rw [e_c] at i1 i3 i4 i5 imono
      rw [e_g] at i6 i7
      rw [e_r] at i6
      refine ⟨s2, ?_, h2,
        ⟨next_id s.g, s.right_part.sequence.take (b.offset - s.current_offset).toNat⟩ :: lefts,
        ?_, ?_, ?_, by omega, ?_, ?_, ?_, ?_⟩
      · simp only [ensure_breakpoint_loop, hstep]
        exact h1
      · rw [inner_offsets_cut _ b rest hbpos hblt]
        simp only [List.map_cons, List.cons_append, expected_sequences]
        rw [i1, hinv.right_seq, take_drop_between S _ _ hinv.offset_lo (le_of_lt hcurlt)]
      · rw [inner_offsets_cut _ b rest hbpos hblt]
        simp [i2]
      · rw [inner_offsets_cut _ b rest hbpos hblt]
        intro bp hbp
        simp only [List.zip_cons_cons, List.mem_cons] at hbp
        rcases hbp with hbp | hbp
        · rw [hbp]
          simp only []
          refine ⟨?_, ?_⟩
          · rw [i5 ⟨i, false, s.current_offset⟩ rfl (Or.inr hcurlt), e_t, map_find_insert,
              map_find_insert, hinv.last]
            have hne : reverse b (S.length : Int) ≠ ⟨i, false, s.current_offset⟩ := by
              unfold reverse
              rw [hbrev]
              intro heq
              have := congrArg pos_t.is_rev heq
              simp at this
            simp [hne]
          · rw [hinv.right_seq]
            exact ⟨List.take_prefix _ _, by omega⟩
        · exact i3 bp hbp
      · rw [inner_offsets_cut _ b rest hbpos hblt, i4, getLastD_cons_eq]
      · intro k hk1 hk2
        rw [i5 k hk1 (by rcases hk2 with h | h; exact Or.inl h; exact Or.inr (by omega)),
          e_t, map_find_insert, map_find_insert, hinv.last]
        have hne1 : reverse b (S.length : Int) ≠ k := by
          unfold reverse
          rw [hbrev]
          intro heq
          have := congrArg pos_t.is_rev heq
          rw [hk1] at this
          simp at this
        have hne2 : (⟨i, false, s.current_offset⟩ : pos_t) ≠ k := by
          intro heq
          rw [← heq] at hk2
          simp at hk2
        simp [hne1, hne2]
      · intro nd
        rw [i6, d6]
        have hRnot : (⟨next_id s.g + 1,
            s.right_part.sequence.drop (b.offset - s.current_offset).toNat⟩ : Node) ∉ s.g.node := by
          intro hm
          have := hinv.ahead.2 _ hm
          simp at this
        simp only [List.mem_cons]
        constructor
        · rintro (⟨(⟨h, hne⟩ | h | h), hnr⟩ | h | h)
          · exact Or.inl ⟨h, hne⟩
          · exact Or.inr (Or.inl (Or.inl h))
          · exact absurd h hnr
          · exact Or.inr (Or.inl (Or.inr h))
          · exact Or.inr (Or.inr h)
        · rintro (⟨h, hne⟩ | (h | h) | h)
          · refine Or.inl ⟨Or.inl ⟨h, hne⟩, fun heq => hRnot ?_⟩
            rw [← heq]; exact h
          · refine Or.inl ⟨Or.inr (Or.inl h), ?_⟩
            rw [h]
            intro heq
            have := congrArg Node.id heq
            simp at this
          · exact Or.inr (Or.inl h)
          · exact Or.inr (Or.inr h)
      · rw [inner_offsets_cut _ b rest hbpos hblt, i7, d7]
        simp only [List.length_cons]
        omega

theorem zip_append_last {α β : Type} (d : α) (xs : List α) :
    ∀ (ys : List β) (y : β), xs.length = ys.length + 1 →
      ∀ bp ∈ xs.zip (ys ++ [y]), bp ∈ xs.zip ys ∨ bp = (xs.getLastD d, y) := by
  induction xs generalizing d with
  | nil => intro ys y h; simp at h
  | cons x rest ih =>
    intro ys y h bp hbp
    cases ys with
    | nil =>
      have hr : rest = [] := by
        simp only [List.length_cons, List.length_nil, zero_add, add_left_eq_self,
          List.length_eq_zero] at h
        exact h
      subst hr
      simp only [List.nil_append, List.zip_cons_cons, List.zip_nil_right, List.mem_singleton]
        at hbp
      exact Or.inr hbp
    | cons y0 ys0 =>
      simp only [List.cons_append, List.zip_cons_cons, List.mem_cons] at hbp ⊢
      rcases hbp with h1 | h1
      · exact Or.inl (Or.inl h1)
      · rcases ih x ys0 y (by simpa using h) bp h1 with h2 | h2
        · exact Or.inl (Or.inr h2)
        · right
          rw [h2, getLastD_cons_eq]

/-- Breakpoints on a node without mappings when the id counter is ahead: in a
graph whose stores and indexes agree and whose id counter is ahead of the ids
in use, for a stored node of length n with
1 <= n < 2^31 that no path mapping lies on, and a set B of forward breakpoints
on it with offsets in [0, n], given in ascending order, `ensure_breakpoints`
returns; the node is replaced by |B ∩ (0,n)| + 1 nodes (by itself when no
offset lies strictly inside) whose sequences are the consecutive substrings of
the original between the offsets of B ∩ (0,n); and the returned map sends the
forward position (id, b), for b = 0 and for every b in B ∩ (0,n), to the part
whose sequence starts at the original offset b. -/
theorem ensure_breakpoints_spec (cut_mapping : Mapping → Int → Mapping × Mapping)
    (g : VG) (N : Node) (B : List pos_t)
    (hs : store_consistent g) (ha : allocator_fresh g)
    (hN : get_node g N.id = some N)
    (hlen1 : 1 ≤ N.sequence.length) (hlen2 : (N.sequence.length : Int) < 2 ^ 31)
    (hB : ∀ b ∈ B, b.id = N.id ∧ b.is_rev = false ∧ 0 ≤ b.offset
      ∧ b.offset ≤ (N.sequence.length : Int))
    (hsorted : B.Pairwise (fun a b => a.offset < b.offset))
    (hpaths : ∀ p ∈ g.paths, ∀ m ∈ p.2,
      m.position.node_id ≠ N.id ∧ m.position.node_id < next_id g) :
    ∃ g2 tr parts, ensure_breakpoints cut_mapping g [(N.id, B)] = some (g2, tr)
      ∧ parts.length = (inner_offsets (N.sequence.length : Int) B).length + 1
      ∧ parts.map (fun nd => nd.sequence)
          = expected_sequences N.sequence (inner_offsets (N.sequence.length : Int) B) 0
      ∧ (∀ nd, nd ∈ g2.node ↔ ((nd ∈ g.node ∧ nd ≠ N) ∨ nd ∈ parts))
      ∧ node_count g2 = node_count g + (inner_offsets (N.sequence.length : Int) B).length
      ∧ (∀ bp ∈ (0 :: inner_offsets (N.sequence.length : Int) B).zip parts,
          map_find tr ⟨N.id, false, bp.1⟩ = some (some bp.2)
          ∧ bp.2.sequence <+: N.sequence.drop bp.1.toNat) := by
  have hac := fresh_counter_ahead g hs ha
  have hmem : N ∈ g.node := (hs.nodes_ok.by_id_sound _ _ hN).1
  have hinv0 : break_inv g N.id N.sequence
      { g := g, toReturn := [], right_part := N, left_part := none,
        last_bp := ⟨N.id, false, 0⟩, current_offset := 0 } :=
    ⟨hs, hac, hmem, by simp, rfl, le_refl _, Or.inl rfl, rfl, le_refl _,
      fun p hp m hm => (hpaths p hp m hm).1⟩
  obtain ⟨s2, h1, h2, lefts, i1, i2, i3, _, i4, i5, i6, i7⟩ :=
    ensure_breakpoint_loop_spec cut_mapping g N.id N.sequence hlen2
      (fun p hp m hm => (hpaths p hp m hm).2) B _ hinv0
      (fun b hb => by
        obtain ⟨x1, x2, x3, x4⟩ := hB b hb
        refine ⟨x1, x2, x3, x4, ?_⟩
        show b.offset = 0 ∨ (0 : Int) < b.offset
        omega) hsorted
  simp only [] at i1 i3 i4 i5 i6 i7
  have hc : s2.current_offset ≠ (N.sequence.length : Int) := by
    rcases h2.offset_hi with h | h <;> omega
  refine ⟨s2.g,
    map_insert (map_insert (map_insert (map_insert s2.toReturn s2.last_bp (some s2.right_part))
      ⟨N.id, true, 0⟩ (some s2.right_part)) ⟨N.id, true, (N.sequence.length : Int)⟩ none)
      ⟨N.id, false, (N.sequence.length : Int)⟩ none,
    lefts ++ [s2.right_part], ?_, ?_, ?_, ?_, ?_, ?_⟩
  · simp only [ensure_breakpoints, ensure_breakpoints_loop, ensure_node_breakpoints, hN, h1]
  · simp [i2]
  · rw [List.map_append, List.map_singleton, i1]
  · intro nd
    rw [i6, List.mem_append, List.mem_singleton]
  · exact i7
  · intro bp hbp
    rcases zip_append_last (0 : Int) _ lefts s2.right_part (by simp [i2]) bp hbp with h | h
    · obtain ⟨j1, j2, j3⟩ := i3 bp h
      refine ⟨?_, j2⟩
      rw [map_find_insert, map_find_insert, map_find_insert, map_find_insert, h2.last]
      have n1 : (⟨N.id, false, (N.sequence.length : Int)⟩ : pos_t) ≠ ⟨N.id, false, bp.1⟩ := by
        intro heq
        have := congrArg pos_t.offset heq
        simp only at this
        rcases h2.offset_hi with h | h <;> omega
      have n2 : (⟨N.id, true, (N.sequence.length : Int)⟩ : pos_t) ≠ ⟨N.id, false, bp.1⟩ := by
        intro heq
        have := congrArg pos_t.is_rev heq
        simp at this
      have n3 : (⟨N.id, true, 0⟩ : pos_t) ≠ ⟨N.id, false, bp.1⟩ := by
        intro heq
        have := congrArg pos_t.is_rev heq
        simp at this
      have n4 : (⟨N.id, false, s2.current_offset⟩ : pos_t) ≠ ⟨N.id, false, bp.1⟩ := by
        intro heq
        have := congrArg pos_t.offset heq
        simp only at this
        omega
      simp only [n1, n2, n3, n4, if_false]
      exact j1
    · rw [h, getLastD_cons_eq, ← i4]
      simp only []
      refine ⟨?_, ?_⟩
      · rw [map_find_insert, map_find_insert, map_find_insert, map_find_insert, h2.last]
        have n1 : (⟨N.id, false, (N.sequence.length : Int)⟩ : pos_t)
            ≠ ⟨N.id, false, s2.current_offset⟩ := by
          intro heq
          have := congrArg pos_t.offset heq
          simp only at this
          exact hc this.symm
        have n2 : (⟨N.id, true, (N.sequence.length : Int)⟩ : pos_t)
            ≠ ⟨N.id, false, s2.current_offset⟩ := by
          intro heq
          have := congrArg pos_t.is_rev heq
          simp at this
        have n3 : (⟨N.id, true, 0⟩ : pos_t) ≠ ⟨N.id, false, s2.current_offset⟩ := by
          intro heq
          have := congrArg pos_t.is_rev heq
          simp at this
        simp [n1, n2, n3]
      · rw [h2.right_seq]

/-- An instance of `ensure_breakpoints_spec`: the node 1 = `ACGTACGT` with the
breakpoints 0, 3, 5 and 8 is replaced by the nodes `ACG`, `TA` and `CGT`. -/
theorem ensure_breakpoints_spec_witness :
    (ensure_breakpoints (fun m _ => (m, m)) (create_node VG.empty "ACGTACGT".toList 0).1
        [(1, [⟨1, false, 0⟩, ⟨1, false, 3⟩, ⟨1, false, 5⟩, ⟨1, false, 8⟩])]).map
        (fun r => (r.1.node, map_find r.2 ⟨1, false, 3⟩))
      = some ([⟨5, "CGT".toList⟩, ⟨2, "ACG".toList⟩, ⟨4, "TA".toList⟩],
          some (some ⟨4, "TA".toList⟩))
    ∧ ∃ g2 tr parts,
        ensure_breakpoints (fun m _ => (m, m)) (create_node VG.empty "ACGTACGT".toList 0).1
          [((⟨1, "ACGTACGT".toList⟩ : Node).id,
            [⟨1, false, 0⟩, ⟨1, false, 3⟩, ⟨1, false, 5⟩, ⟨1, false, 8⟩])] = some (g2, tr)
        ∧ parts.length = (inner_offsets (("ACGTACGT".toList.length : Nat) : Int)
            [⟨1, false, 0⟩, ⟨1, false, 3⟩, ⟨1, false, 5⟩, ⟨1, false, 8⟩]).length + 1
        ∧ parts.map (fun nd => nd.sequence)
            = expected_sequences "ACGTACGT".toList
                (inner_offsets (("ACGTACGT".toList.length : Nat) : Int)
                  [⟨1, false, 0⟩, ⟨1, false, 3⟩, ⟨1, false, 5⟩, ⟨1, false, 8⟩]) 0
        ∧ (∀ nd, nd ∈ g2.node ↔
            ((nd ∈ (create_node VG.empty "ACGTACGT".toList 0).1.node
                ∧ nd ≠ ⟨1, "ACGTACGT".toList⟩) ∨ nd ∈ parts))
        ∧ node_count g2 = node_count (create_node VG.empty "ACGTACGT".toList 0).1
            + (inner_offsets (("ACGTACGT".toList.length : Nat) : Int)
                [⟨1, false, 0⟩, ⟨1, false, 3⟩, ⟨1, false, 5⟩, ⟨1, false, 8⟩]).length
        ∧ (∀ bp ∈ (0 :: inner_offsets (("ACGTACGT".toList.length : Nat) : Int)
              [⟨1, false, 0⟩, ⟨1, false, 3⟩, ⟨1, false, 5⟩, ⟨1, false, 8⟩]).zip parts,
            map_find tr ⟨(⟨1, "ACGTACGT".toList⟩ : Node).id, false, bp.1⟩ = some (some bp.2)
            ∧ bp.2.sequence <+: "ACGTACGT".toList.drop bp.1.toNat) :=
  ⟨by decide,
   ensure_breakpoints_spec (fun m _ => (m, m)) (create_node VG.empty "ACGTACGT".toList 0).1
    ⟨1, "ACGTACGT".toList⟩ [⟨1, false, 0⟩, ⟨1, false, 3⟩, ⟨1, false, 5⟩, ⟨1, false, 8⟩]
    (create_node_inv VG.empty "ACGTACGT".toList 0 empty_store_consistent
      (counter_ahead_of_one _ rfl) (Or.inl rfl)).1
    (allocator_fresh_of_lists _ (by decide) (by decide) (by decide))
    (by decide) (by decide) (by decide) (by decide) (by decide)
    (fun p hp => by simp [create_node, VG.empty] at hp)⟩

/-- Breakpoints on an empty node: for the node 1 with the empty sequence
(length 0) and the breakpoint set holding offset 0, the returned map sends the forward
position (1, 0) to the null pointer, not to a node. -/
theorem ensure_breakpoints_null_node :
    (create_node VG.empty [] 0).1.node = [⟨1, []⟩]
    ∧ (ensure_breakpoints (fun m _ => (m, m)) (create_node VG.empty [] 0).1
        [(1, [⟨1, false, 0⟩])]).map (fun r => (r.1.node, map_find r.2 ⟨1, false, 0⟩))
      = some ([⟨1, []⟩], some none) := by
  decide

theorem divide_node_at_unfold (cut_mapping : Mapping → Int → Mapping × Mapping) (g : VG)
    (node : Node) (pos : Int) (h0 : 0 ≤ pos) (h1 : pos ≤ node.sequence.length)
    (hp3 : (wire_parts (make_parts g node [pos] []).1 node (make_parts g node [pos] []).2).paths
      = []) :
    divide_node_at cut_mapping g node pos
      = some (destroy_node
          (wire_parts (make_parts g node [pos] []).1 node (make_parts g node [pos] []).2) node,
          (make_parts g node [pos] []).2.headD ⟨0, []⟩,
          (make_parts g node [pos] []).2.getLastD ⟨0, []⟩) := by
  have hrange : [pos].any
      (fun pos => decide (pos < 0) || decide (pos > (node.sequence.length : Int))) = false := by
    simp only [List.any_cons, List.any_nil, Bool.or_false, Bool.or_eq_false_iff,
      decide_eq_false_iff_not]
    constructor <;> omega
  obtain ⟨g3, hg3⟩ : ∃ g3, g3
      = wire_parts (make_parts g node [pos] []).1 node (make_parts g node [pos] []).2 := ⟨_, rfl⟩
  rw [← hg3] at hp3 ⊢
  have hg3b : ({ g3 with paths := [] } : VG) = g3 := by
    cases g3; simp only [VG.mk.injEq] at hp3 ⊢; simp_all
  unfold divide_node_at divide_node
  simp only [hrange, Bool.false_eq_true, if_false, ← hg3, hp3, divide_paths, hg3b, if_true]

theorem wire_make_parts_paths (g : VG) (node : Node) (pos : Int) (hp : g.paths = []) :
    (wire_parts (make_parts g node [pos] []).1 node (make_parts g node [pos] []).2).paths
      = [] := by
  rw [(wire_parts_frame _ node _).2.2]
  simp only [make_parts, create_parts, create_node_paths]
  exact hp

theorem divide_path_cut (cut_mapping : Mapping → Int → Mapping × Mapping) (g : VG)
    (path : List (Int × Int)) (pos : Int) (target : Int × Int) (old : Node)
    (r : VG × Node × Node) (hfloor : map_floor path pos = some target)
    (hget : get_node g target.2 = some old) (hne : target.1 ≠ pos)
    (hdiv : divide_node_at cut_mapping g old (to_int (pos - target.1)) = some r) :
    divide_path cut_mapping g path pos
      = some (r.1, map_insert (map_insert path target.1 r.2.1.id) pos r.2.2.id, r.2.1, r.2.2) := by
  unfold divide_path
  rw [hfloor]
  simp only []
  rw [hget]
  simp only [if_neg hne]
  rw [hdiv]

theorem divide_path_found (cut_mapping : Mapping → Int → Mapping × Mapping) (g : VG)
    (path : List (Int × Int)) (pos : Int) (target n : Int × Int) (old left : Node)
    (hfloor : map_floor path pos = some target)
    (hget : get_node g target.2 = some old) (heq : target.1 = pos)
    (hpred : map_pred path target.1 = some n) (hleft : get_node g n.2 = some left) :
    divide_path cut_mapping g path pos = some (g, path, left, old) := by
  unfold divide_path
  rw [hfloor]
  simp only []
  rw [hget]
  simp only [if_pos heq]
  rw [hpred]
  simp only []
  rw [hleft]

theorem cut_allele_inner (cut_mapping : Mapping → Int → Mapping × Mapping) (st : AlleleState)
    (allele : VariantAllele) (d1 d2 : VG × List (Int × Int) × Node × Node) (target : Int × Int)
    (middle_seq_nodes : List Node) (hpos : allele.position ≠ 0) (href : allele.ref ≠ [])
    (h1 : divide_path cut_mapping st.g st.seq_node_ids allele.position = some d1)
    (h2 : divide_path cut_mapping d1.1 d1.2.1 (allele.position + (allele.ref.length : Int))
      = some d2)
    (hfloor : map_floor d2.2.1 (allele.position + (allele.ref.length : Int)) = some target)
    (htarget : target.2 = d2.2.2.2.id)
    (hwalk : middle_walk d2.1 d1.2.2.1
      ((map_entries d2.2.1).filter (fun p => decide (p.1 < target.1))).reverse []
        = some middle_seq_nodes)
    (hmiddle : middle_seq_nodes ≠ []) :
    cut_allele cut_mapping st allele
      = some ({ st with g := d2.1, seq_node_ids := d2.2.1 }, d1.2.2.1, middle_seq_nodes,
          d2.2.2.2) := by
  have hne : (!allele.ref.isEmpty) = true := by
    cases h : allele.ref with
    | nil => exact absurd h href
    | cons a l => rfl
  have hlen : ¬ middle_seq_nodes.length = 0 := by
    intro h
    exact hmiddle (List.length_eq_zero.mp h)
  unfold cut_allele
  simp only [if_neg hpos]
  rw [h1]
  simp only [hne, if_true]
  rw [h2]
  simp only []
  rw [hfloor]
  simp only [htarget, ne_eq, not_true_eq_false, if_false]
  rw [hwalk]
  simp only [if_neg hlen]

theorem thread_allele_plain (allele_key : Int × Int) (st : AlleleState) (allele : VariantAllele)
    (left_seq_node : Node) (alt_nodes : List Node) :
    thread_allele [] 0 [] allele_key st allele left_seq_node alt_nodes = st := by
  unfold thread_allele
  simp only [gt_iff_lt, lt_self_iff_false, false_and, and_false, if_false, map_find]

theorem process_allele_plain (cut_mapping : Mapping → Int → Mapping × Mapping) (seq : List Char)
    (site : Int) (alleles : List VariantAllele) (st : AlleleState) (allele_number : Nat)
    (allele : VariantAllele) (c : AlleleState × Node × List Node × Node)
    (hget : alleles.get? allele_number = some allele) (hne : allele.ref ≠ allele.alt)
    (hcut : cut_allele cut_mapping st allele = some c) :
    process_allele cut_mapping [] 0 [] seq site alleles st allele_number
      = some (close_allele seq (place_allele c.1 allele c.2.1 c.2.2.1 c.2.2.2).1 allele c.2.2.1
          (place_allele c.1 allele c.2.1 c.2.2.1 c.2.2.2).2) := by
  unfold process_allele
  rw [hget]
  simp only [hne, false_and, if_false]
  rw [hcut]
  simp only [thread_allele_plain]

theorem process_allele_skip (cut_mapping : Mapping → Int → Mapping × Mapping) (seq : List Char)
    (site : Int) (alleles : List VariantAllele) (st : AlleleState) (allele_number : Nat)
    (allele : VariantAllele) (hget : alleles.get? allele_number = some allele)
    (heq : allele.ref = allele.alt) :
    process_allele cut_mapping [] 0 [] seq site alleles st allele_number = some st := by
  unfold process_allele
  rw [hget]
  simp only [heq, map_find, Option.isNone_none, and_self, if_true]

theorem process_site_plain (cut_mapping : Mapping → Int → Mapping × Mapping) (seq : List Char)
    (st st2 : AlleleState) (va : Int × List VariantAllele) (last : Int × Int) (node : Node)
    (hne : va.2 ≠ [])
    (hsome : va.2.all (fun allele => decide (allele.ref = allele.alt)) = false)
    (hproc : process_alleles cut_mapping [] 0 [] seq va.1 va.2
      { st with first_allele_processed := true } (allele_numbers_by_ref_length va.2) = some st2)
    (hlast : map_rbegin (connect_abutting st2 va.1).seq_node_ids = some last)
    (hnode : get_node (connect_abutting st2 va.1).g last.2 = some node) :
    process_site cut_mapping [] 0 [] seq st va
      = some { connect_abutting st2 va.1 with
          nodes_by_end_position :=
            erase_below (connect_abutting st2 va.1).nodes_by_end_position va.1,
          nodes_by_start_position :=
            erase_below (connect_abutting st2 va.1).nodes_by_start_position va.1,
          last_variant_end := (seq.length : Int) - (node.sequence.length : Int) } := by
  have hemp : va.2.isEmpty = false := by
    cases h : va.2 with
    | nil => exact absurd h hne
    | cons a l => rfl
  unfold process_site
  simp only [hemp, Bool.false_eq_true, if_false, hsome, Bool.false_and]
  rw [hproc]
  simp only []
  rw [hlast]
  simp only []
  rw [hnode]

theorem alleles_graph_plain (cut_mapping : Mapping → Int → Mapping × Mapping) (g : VG)
    (altp : List (Int × List VariantAllele)) (seq : List Char) (name : String) (st : AlleleState)
    (hsites : process_sites cut_mapping [] 0 [] seq
      { g := (create_node g seq 0).1, seq_node_ids := [(0, (create_node g seq 0).2.id)],
        nodes_by_end_position := [], nodes_by_start_position := [], last_variant_end := -1,
        first_allele_processed := true } (map_entries altp) = some st) :
    alleles_graph cut_mapping g altp [] 0 [] seq name
      = some (force_path_match { st.g with
          paths := (map_entries st.seq_node_ids).foldl
            (fun paths p => append_mapping_id paths name p.2) st.g.paths }) := by
  unfold alleles_graph
  simp only []
  rw [hsites]
  simp only [gt_iff_lt, lt_self_iff_false, if_false]

theorem from_alleles_of (cut_mapping : Mapping → Int → Mapping × Mapping) (g : VG)
    (altp : List (Int × List VariantAllele)) (visits : List ((Int × Int) × List Bool))
    (num_phasings : Nat) (variant_alts : List ((Int × Int) × List (String × Int)))
    (seq : List Char) (name : String) (g1 g2 : VG)
    (hgraph : alleles_graph cut_mapping g altp visits num_phasings variant_alts seq name
      = some g1)
    (hsort : sort g1 = some g2) :
    from_alleles cut_mapping g altp visits num_phasings variant_alts seq name
      = some (compact_ids g2) := by
  unfold from_alleles
  rw [hgraph]
  simp only []
  rw [hsort]

theorem bubble_cut_left (cut_mapping : Mapping → Int → Mapping × Mapping) (L R T : List Char)
    (hlen : (L ++ R ++ T).length < 2 ^ 31) :
    divide_node_at cut_mapping (bubble_start L R T) ⟨1, L ++ (R ++ T)⟩ (L.length : Int)
      = some (bubble_left_cut L R T, ⟨2, L⟩, ⟨3, R ++ T⟩) := by
  simp only [List.length_append] at hlen
  have h0 : (0 : Int) ≤ L.length := by omega
  have h1 : (L.length : Int) ≤ ((⟨1, L ++ (R ++ T)⟩ : Node).sequence.length : Int) := by
    simp only [List.length_append]; push_cast; omega
  have hp : (bubble_start L R T).paths = [] := rfl
  have e2 : ((L.length : Int) % 18446744073709551616).toNat = L.length := by omega
  rw [divide_node_at_unfold cut_mapping (bubble_start L R T) ⟨1, L ++ (R ++ T)⟩ (L.length : Int)
    h0 h1 (wire_make_parts_paths _ _ _ hp)]
  simp [bubble_start, make_parts, create_parts, substr, create_node, max_node_id, map_insert,
    map_erase, e2]
  simp [wire_parts, edges_to_create_of, edges_start, edges_end, map_find, create_edges,
    connect_parts, create_edge, get_edge, minmax, NodeSide.lt, set_edge, has_edge_rec,
    pair_from_edge, index_edge_by_node_sides, push_side, map_insert, map_erase]
  simp [destroy_node, has_node, edges_to_destroy_of, edges_start, edges_end, map_find,
    destroy_edges, map_erase, map_insert, swap_elements, bubble_left_cut]

theorem bubble_cut_right (cut_mapping : Mapping → Int → Mapping × Mapping) (L R T : List Char)
    (hlen : (L ++ R ++ T).length < 2 ^ 31) :
    divide_node_at cut_mapping (bubble_left_cut L R T) ⟨3, R ++ T⟩ (R.length : Int)
      = some (bubble_right_cut L R T, ⟨4, R⟩, ⟨5, T⟩) := by
  simp only [List.length_append] at hlen
  have h0 : (0 : Int) ≤ R.length := by omega
  have h1 : (R.length : Int) ≤ ((⟨3, R ++ T⟩ : Node).sequence.length : Int) := by
    simp only [List.length_append]; push_cast; omega
  have hp : (bubble_left_cut L R T).paths = [] := rfl
  have e2 : ((R.length : Int) % 18446744073709551616).toNat = R.length := by omega
  rw [divide_node_at_unfold cut_mapping (bubble_left_cut L R T) ⟨3, R ++ T⟩ (R.length : Int)
    h0 h1 (wire_make_parts_paths _ _ _ hp)]
  simp [bubble_left_cut, make_parts, create_parts, substr, create_node, max_node_id, map_insert,
    map_erase, e2]
  simp [wire_parts, edges_to_create_of, edges_start, edges_end, map_find, create_edges,
    connect_parts, create_edge, get_edge, minmax, NodeSide.lt, set_edge, has_edge_rec,
    pair_from_edge, index_edge_by_node_sides, push_side, map_insert, map_erase, set_insert,
    reroute_start, reroute_end]
  simp [destroy_node, has_node, edges_to_destroy_of, edges_start, edges_end, map_find,
    destroy_edges, map_erase, map_insert, swap_elements, set_insert, pair_from_start_edge,
    pair_from_end_edge, minmax, NodeSide.lt, destroy_edge, get_edge, destroy_edge_ptr,
    destroy_edge_rec, has_edge_rec, pair_from_edge, unindex_edge_by_node_sides, unindex_side,
    swap_remove, set_edge, index_edge_by_node_sides, push_side, bubble_right_cut]

theorem bubble_path_left (cut_mapping : Mapping → Int → Mapping × Mapping) (L R T : List Char)
    (hL : L ≠ []) (hlen : (L ++ R ++ T).length < 2 ^ 31) :
    divide_path cut_mapping (bubble_start L R T) [(0, 1)] (L.length : Int)
      = some (bubble_left_cut L R T, [((L.length : Int), 3), (0, 2)], ⟨2, L⟩, ⟨3, R ++ T⟩) := by
  have hL0 : 0 < L.length := List.length_pos.mpr hL
  have hlen2 := hlen
  simp only [List.length_append] at hlen2
  have e1 : to_int ((L.length : Int) - 0) = L.length := by
    unfold to_int; omega
  have hfloor : map_floor [((0 : Int), (1 : Int))] (L.length : Int) = some (0, 1) := by
    simp [map_floor]
  have hne : ((0 : Int), (1 : Int)).1 ≠ (L.length : Int) := by
    simp only [ne_eq]; omega
  have hdiv : divide_node_at cut_mapping (bubble_start L R T) ⟨1, L ++ (R ++ T)⟩
      (to_int ((L.length : Int) - ((0 : Int), (1 : Int)).1))
        = some (bubble_left_cut L R T, ⟨2, L⟩, ⟨3, R ++ T⟩) := by
    simp only [e1]
    exact bubble_cut_left cut_mapping L R T hlen
  rw [divide_path_cut cut_mapping (bubble_start L R T) [(0, 1)] (L.length : Int) (0, 1)
    ⟨1, L ++ (R ++ T)⟩ _ hfloor rfl hne hdiv]
  have c : ¬ ((0 : Int) = L.length) := by omega
  simp [map_insert, map_erase, c]

theorem bubble_path_right (cut_mapping : Mapping → Int → Mapping × Mapping) (L R T : List Char)
    (hL : L ≠ []) (hR : R ≠ []) (hlen : (L ++ R ++ T).length < 2 ^ 31) :
    divide_path cut_mapping (bubble_left_cut L R T) [((L.length : Int), 3), (0, 2)]
        ((L.length : Int) + (R.length : Int))
      = some (bubble_right_cut L R T,
          [((L.length : Int) + (R.length : Int), 5), ((L.length : Int), 4), (0, 2)],
          ⟨4, R⟩, ⟨5, T⟩) := by
  have hL0 : 0 < L.length := List.length_pos.mpr hL
  have hR0 : 0 < R.length := List.length_pos.mpr hR
  have hlen2 := hlen
  simp only [List.length_append] at hlen2
  have e1 : to_int ((L.length : Int) + (R.length : Int) - (L.length : Int)) = R.length := by
    unfold to_int; omega
  have c1 : (0 : Int) < L.length := by omega
  have hfloor : map_floor [((L.length : Int), (3 : Int)), (0, 2)]
      ((L.length : Int) + (R.length : Int)) = some ((L.length : Int), 3) := by
    have c0 : (0 : Int) ≤ (L.length : Int) + (R.length : Int) := by omega
    simp [map_floor, c1, c0]
  have hne : ((L.length : Int), (3 : Int)).1 ≠ (L.length : Int) + (R.length : Int) := by
    simp only [ne_eq]; omega
  have hdiv : divide_node_at cut_mapping (bubble_left_cut L R T) ⟨3, R ++ T⟩
      (to_int ((L.length : Int) + (R.length : Int) - ((L.length : Int), (3 : Int)).1))
        = some (bubble_right_cut L R T, ⟨4, R⟩, ⟨5, T⟩) := by
    simp only [e1]
    exact bubble_cut_right cut_mapping L R T hlen
  rw [divide_path_cut cut_mapping (bubble_left_cut L R T) _ _ ((L.length : Int), 3)
    ⟨3, R ++ T⟩ _ hfloor rfl hne hdiv]
  have c2 : ¬ ((0 : Int) = (L.length : Int) + (R.length : Int)) := by omega
  have c3 : ¬ ((0 : Int) = L.length) := by omega
  have c4 : (R.length : Int) ≠ 0 := by omega
  simp [map_insert, map_erase, c2, c3, c4]

theorem bubble_cut_allele (cut_mapping : Mapping → Int → Mapping × Mapping)
    (L R A T : List Char) (hL : L ≠ []) (hR : R ≠ [])
    (hlen : (L ++ R ++ T).length < 2 ^ 31) (st : AlleleState)
    (hg : st.g = bubble_start L R T) (hpath : st.seq_node_ids = [(0, 1)]) :
    cut_allele cut_mapping st ⟨R, A, (L.length : Int)⟩
      = some ({ st with g := bubble_right_cut L R T,
                        seq_node_ids := [((L.length : Int) + (R.length : Int), 5),
                          ((L.length : Int), 4), (0, 2)] },
          ⟨2, L⟩, [⟨4, R⟩], ⟨5, T⟩) := by
  have hL0 : 0 < L.length := List.length_pos.mpr hL
  have hR0 : 0 < R.length := List.length_pos.mpr hR
  have hpos : (⟨R, A, (L.length : Int)⟩ : VariantAllele).position ≠ 0 := by
    simp only [ne_eq]; omega
  have h1 := bubble_path_left cut_mapping L R T hL hlen
  have h2 := bubble_path_right cut_mapping L R T hL hR hlen
  rw [← hg, ← hpath] at h1
  have c0 : (0 : Int) ≤ (L.length : Int) + (R.length : Int) := by omega
  have c1 : (0 : Int) < (L.length : Int) + (R.length : Int) := by omega
  have c2 : (0 : Int) < (L.length : Int) := by omega
  have c3 : (0 : Int) < (R.length : Int) := by omega
  have c4 : ¬ ((L.length : Int) + (R.length : Int) < (L.length : Int)) := by omega
  have c5 : ¬ ((L.length : Int) + (R.length : Int) < 0) := by omega
  have c6 : ¬ ((L.length : Int) < 0) := by omega
  have hfloor : map_floor [((L.length : Int) + (R.length : Int), (5 : Int)),
      ((L.length : Int), 4), (0, 2)] ((L.length : Int) + (R.length : Int))
        = some ((L.length : Int) + (R.length : Int), 5) := by
    simp [map_floor, c0, c1, c2, c3]
  have hwalk : middle_walk (bubble_right_cut L R T) ⟨2, L⟩
      ((map_entries [((L.length : Int) + (R.length : Int), (5 : Int)),
        ((L.length : Int), 4), (0, 2)]).filter
          (fun p => decide (p.1 < ((L.length : Int) + (R.length : Int), (5 : Int)).1))).reverse []
        = some [⟨4, R⟩] := by
    simp [map_entries, entry_insert, c0, c1, c2, c3, c4, c5, c6, List.filter, middle_walk,
      get_node, bubble_right_cut, map_find]
  exact cut_allele_inner cut_mapping st ⟨R, A, (L.length : Int)⟩ _ _ _ [⟨4, R⟩] hpos hR h1 h2
    hfloor rfl hwalk (by simp)

theorem bubble_place_allele (L R A T : List Char) (hR : R ≠ []) (hA : A ≠ []) (hne : R ≠ A)
    (st : AlleleState) (hg : st.g = bubble_right_cut L R T) :
    ((place_allele st ⟨R, A, (L.length : Int)⟩ ⟨2, L⟩ [⟨4, R⟩] ⟨5, T⟩).1.g = bubble_wired L R A T
      ∧ (place_allele st ⟨R, A, (L.length : Int)⟩ ⟨2, L⟩ [⟨4, R⟩] ⟨5, T⟩).1.seq_node_ids
          = st.seq_node_ids)
      ∧ (place_allele st ⟨R, A, (L.length : Int)⟩ ⟨2, L⟩ [⟨4, R⟩] ⟨5, T⟩).2 = [⟨6, A⟩] := by
  simp [place_allele, hR, hA, hne, hg, bubble_right_cut, create_node, max_node_id, create_edge,
    get_edge, minmax, NodeSide.lt, set_edge, has_edge_rec, pair_from_edge, map_find, map_insert,
    map_erase, index_edge_by_node_sides, push_side, bubble_wired]

theorem close_allele_inside (seq : List Char) (st : AlleleState) (allele : VariantAllele)
    (middle_seq_nodes alt_nodes : List Node)
    (h : allele.position + (allele.ref.length : Int) ≠ (seq.length : Int)) :
    close_allele seq st allele middle_seq_nodes alt_nodes = st := by
  unfold close_allele
  simp only [if_neg h]

theorem connect_abutting_none (st : AlleleState) (site : Int)
    (h : map_find st.nodes_by_end_position site = none) : connect_abutting st site = st := by
  unfold connect_abutting
  rw [h]

theorem bubble_place_ends (L R A T : List Char) (hR : R ≠ []) (hA : A ≠ []) (hne : R ≠ A)
    (st : AlleleState) (hends : st.nodes_by_end_position = []) :
    map_find (place_allele st ⟨R, A, (L.length : Int)⟩ ⟨2, L⟩ [⟨4, R⟩] ⟨5, T⟩).1.nodes_by_end_position
      (L.length : Int) = none := by
  have hR0 : 0 < R.length := List.length_pos.mpr hR
  have c : ¬ ((L.length : Int) + (R.length : Int) = (L.length : Int)) := by omega
  have c2 : (R.length : Int) ≠ 0 := by omega
  simp [place_allele, hR, hA, hne, hends, position_insert, map_insert, map_erase, map_find, c,
    c2]

theorem bubble_sites (cut_mapping : Mapping → Int → Mapping × Mapping) (L R A T : List Char)
    (hL : L ≠ []) (hR : R ≠ []) (hA : A ≠ []) (hT : T ≠ []) (hne : R ≠ A)
    (hlen : (L ++ R ++ T).length < 2 ^ 31) :
    ∃ st, process_sites cut_mapping [] 0 [] (L ++ (R ++ T))
        { g := (create_node VG.empty (L ++ (R ++ T)) 0).1,
          seq_node_ids := [(0, (create_node VG.empty (L ++ (R ++ T)) 0).2.id)],
          nodes_by_end_position := [],
          nodes_by_start_position := [],
          last_variant_end := -1,
          first_allele_processed := true }
        (map_entries [((L.length : Int), [⟨R, A, (L.length : Int)⟩])]) = some st
      ∧ st.g = bubble_wired L R A T
      ∧ st.seq_node_ids
          = [((L.length : Int) + (R.length : Int), 5), ((L.length : Int), 4), (0, 2)] := by
  have hL0 : 0 < L.length := List.length_pos.mpr hL
  have hR0 : 0 < R.length := List.length_pos.mpr hR
  have hT0 : 0 < T.length := List.length_pos.mpr hT
  have hcn : create_node VG.empty (L ++ (R ++ T)) 0 = (bubble_start L R T, ⟨1, L ++ (R ++ T)⟩) :=
    rfl
  rw [hcn]
  obtain ⟨st0, hst0⟩ : ∃ st0 : AlleleState, st0 =
      { g := bubble_start L R T,
        seq_node_ids := [(0, 1)],
        nodes_by_end_position := [],
        nodes_by_start_position := [],
        last_variant_end := -1,
        first_allele_processed := true } := ⟨_, rfl⟩
  have hentries : map_entries [((L.length : Int), [(⟨R, A, (L.length : Int)⟩ : VariantAllele)])]
      = [((L.length : Int), [⟨R, A, (L.length : Int)⟩])] := rfl
  rw [hentries]
  simp only [← hst0]
  have hg0 : ({ st0 with first_allele_processed := true } : AlleleState).g = bubble_start L R T := by
    rw [hst0]
  have hp0 : ({ st0 with first_allele_processed := true } : AlleleState).seq_node_ids
      = [(0, 1)] := by
    rw [hst0]
  have hcut := bubble_cut_allele cut_mapping L R A T hL hR hlen
    { st0 with first_allele_processed := true } hg0 hp0
  have hpa := process_allele_plain cut_mapping (L ++ (R ++ T)) (L.length : Int)
    [⟨R, A, (L.length : Int)⟩] { st0 with first_allele_processed := true } 0
    ⟨R, A, (L.length : Int)⟩ _ rfl hne hcut
  obtain ⟨st3, hst3⟩ : ∃ st3 : AlleleState, st3 =
      { ({ st0 with first_allele_processed := true } : AlleleState) with
        g := bubble_right_cut L R T,
        seq_node_ids := [((L.length : Int) + (R.length : Int), 5), ((L.length : Int), 4),
          (0, 2)] } := ⟨_, rfl⟩
  simp only [← hst3] at hpa
  have hg3 : st3.g = bubble_right_cut L R T := by rw [hst3]
  obtain ⟨⟨hp1, hp2⟩, hp3⟩ := bubble_place_allele L R A T hR hA hne st3 hg3
  have hend : (⟨R, A, (L.length : Int)⟩ : VariantAllele).position
      + (((⟨R, A, (L.length : Int)⟩ : VariantAllele).ref.length : Nat) : Int)
        ≠ ((L ++ (R ++ T)).length : Int) := by
    simp only [List.length_append, ne_eq]
    push_cast
    omega
  rw [close_allele_inside _ _ _ _ _ hend] at hpa
  have hends := bubble_place_ends L R A T hR hA hne st3 (by rw [hst3, hst0])
  obtain ⟨st4, hst4⟩ : ∃ st4 : AlleleState,
      st4 = (place_allele st3 ⟨R, A, (L.length : Int)⟩ ⟨2, L⟩ [⟨4, R⟩] ⟨5, T⟩).1 := ⟨_, rfl⟩
  rw [← hst4] at hpa hp1 hp2 hends
  have hnum : allele_numbers_by_ref_length [(⟨R, A, (L.length : Int)⟩ : VariantAllele)] = [0] :=
    rfl
  have hproc : process_alleles cut_mapping [] 0 [] (L ++ (R ++ T)) (L.length : Int)
      [⟨R, A, (L.length : Int)⟩] { st0 with first_allele_processed := true }
      (allele_numbers_by_ref_length [(⟨R, A, (L.length : Int)⟩ : VariantAllele)]) = some st4 := by
    rw [hnum]
    simp only [process_alleles, hpa]
  have hab : connect_abutting st4 (L.length : Int) = st4 := connect_abutting_none st4 _ hends
  have hpath3 : st4.seq_node_ids
      = [((L.length : Int) + (R.length : Int), 5), ((L.length : Int), 4), (0, 2)] := by
    rw [hp2, hst3]
  have c0 : (0 : Int) < (L.length : Int) := by omega
  have c1 : (0 : Int) < (R.length : Int) := by omega
  have c2 : (0 : Int) < (L.length : Int) + (R.length : Int) := by omega
  have hlast : map_rbegin (connect_abutting st4 (L.length : Int)).seq_node_ids
      = some ((L.length : Int) + (R.length : Int), 5) := by
    rw [hab, hpath3]
    simp [map_rbegin, c0, c1, c2]
  have hnode : get_node (connect_abutting st4 (L.length : Int)).g
      ((L.length : Int) + (R.length : Int), (5 : Int)).2 = some ⟨5, T⟩ := by
    rw [hab, hp1]
    rfl
  have hsome : [(⟨R, A, (L.length : Int)⟩ : VariantAllele)].all
      (fun allele => decide (allele.ref = allele.alt)) = false := by
    simp [hne]
  have hsite := process_site_plain cut_mapping (L ++ (R ++ T)) st0 st4
    ((L.length : Int), [⟨R, A, (L.length : Int)⟩]) _ _ (by simp) hsome hproc hlast hnode
  obtain ⟨st5, h5, h5g, h5p⟩ : ∃ st5, process_site cut_mapping [] 0 [] (L ++ (R ++ T)) st0
      ((L.length : Int), [⟨R, A, (L.length : Int)⟩]) = some st5
      ∧ st5.g = bubble_wired L R A T
      ∧ st5.seq_node_ids
          = [((L.length : Int) + (R.length : Int), 5), ((L.length : Int), 4), (0, 2)] :=
    ⟨_, hsite, by simp only []; rw [hab, hp1], by simp only []; rw [hab, hpath3]⟩
  exact ⟨st5, by simp only [process_sites, h5], h5g, h5p⟩

set_option maxRecDepth 8000 in
set_option maxHeartbeats 1000000 in
theorem bubble_topological_sort (L R A T : List Char) (paths : Paths) :
    topological_sort { bubble_wired L R A T with paths := paths }
      = some (bubble_reindexed L R A T paths,
          [⟨⟨2, L⟩, false⟩, ⟨⟨4, R⟩, false⟩, ⟨⟨6, A⟩, false⟩, ⟨⟨5, T⟩, false⟩]) := by
  rw [topological_sort]
  simp [bubble_wired, head_nodes, start_degree, edges_start, edges_end, map_find, map_insert,
    map_erase]
  rw [topological_loop]
  simp [take_seeds, map_begin, map_find, map_insert, map_erase]
  rw [drain]
  simp [map_begin, map_erase, map_insert, map_find, nodes_prev, nodes_next, all_some,
    edges_start, edges_end, get_node, unindex_prev, visit_next, node_count_prev, get_edge_trav,
    get_edge, minmax, NodeSide.lt, unindex_edge_ptr, unindex_edge_by_node_sides, has_edge_rec,
    pair_from_edge, unindex_side, swap_remove, swap_elements]
  rw [drain]
  simp [map_begin, map_erase, map_insert, map_find, nodes_prev, nodes_next, all_some,
    edges_start, edges_end, get_node, unindex_prev, visit_next, node_count_prev, get_edge_trav,
    get_edge, minmax, NodeSide.lt, unindex_edge_ptr, unindex_edge_by_node_sides, has_edge_rec,
    pair_from_edge, unindex_side, swap_remove, swap_elements]
  rw [drain]
  simp [map_begin, map_erase, map_insert, map_find, nodes_prev, nodes_next, all_some,
    edges_start, edges_end, get_node, unindex_prev, visit_next, node_count_prev, get_edge_trav,
    get_edge, minmax, NodeSide.lt, unindex_edge_ptr, unindex_edge_by_node_sides, has_edge_rec,
    pair_from_edge, unindex_side, swap_remove, swap_elements]
  rw [drain]
  simp [map_begin, map_erase, map_insert, map_find, nodes_prev, nodes_next, all_some,
    edges_start, edges_end, get_node, unindex_prev, visit_next, node_count_prev, get_edge_trav,
    get_edge, minmax, NodeSide.lt, unindex_edge_ptr, unindex_edge_by_node_sides, has_edge_rec,
    pair_from_edge, unindex_side, swap_remove, swap_elements]
  rw [drain]
  simp only [List.isEmpty_nil, if_true]
  rw [topological_loop]
  simp [rebuild_indexes, clear_node_indexes, clear_edge_indexes, build_node_indexes,
    build_node_indexes_loop, build_edge_indexes, build_edge_indexes_loop, rebuild_edge_indexes,
    set_edge, has_edge_rec, pair_from_edge, minmax, NodeSide.lt, index_edge_by_node_sides,
    push_side, map_find, map_insert, map_erase, bubble_reindexed]

set_option maxRecDepth 8000 in
set_option maxHeartbeats 1000000 in
theorem bubble_sort (L R A T : List Char) (name : String) :
    (sort { bubble_wired L R A T with paths := bubble_path L R T name 2 4 5 }).map compact_ids
      = some (bubble L R A T name) := by
  have hcount : ¬ ({ bubble_wired L R A T with
      paths := bubble_path L R T name 2 4 5 } : VG).node.length ≤ 1 := by
    simp [bubble_wired]
  rw [sort]
  simp only [if_neg hcount, bubble_topological_sort, Option.map_some']
  rw [sort_loop]
  simp [bubble_reindexed, swap_nodes, map_find, map_insert, map_erase, swap_elements]
  rw [sort_loop]
  simp [swap_nodes, map_find, map_insert, map_erase, swap_elements]
  rw [sort_loop]
  simp [swap_nodes, map_find, map_insert, map_erase, swap_elements]
  rw [sort_loop]
  simp [swap_nodes, map_find, map_insert, map_erase, swap_elements]
  rw [sort_loop, compact_ids]
  simp [assign_new_ids, id_map_at, id_map_touch, renumber_nodes, renumber_edges, renumber_edge,
    map_find, map_insert, map_erase]
  simp [rebuild_indexes, clear_node_indexes, clear_edge_indexes, build_node_indexes,
    build_node_indexes_loop, build_edge_indexes, build_edge_indexes_loop, rebuild_edge_indexes,
    set_edge, has_edge_rec, pair_from_edge, minmax, NodeSide.lt, index_edge_by_node_sides,
    push_side, map_find, map_insert, map_erase, bubble, swap_node_ids, bubble_path]

theorem bubble_alleles_graph (cut_mapping : Mapping → Int → Mapping × Mapping)
    (L R A T : List Char) (name : String) (hL : L ≠ []) (hR : R ≠ []) (hA : A ≠ [])
    (hT : T ≠ []) (hne : R ≠ A) (hlen : (L ++ R ++ T).length < 2 ^ 31) :
    alleles_graph cut_mapping VG.empty [((L.length : Int), [⟨R, A, (L.length : Int)⟩])] [] 0 []
        (L ++ (R ++ T)) name
      = some { bubble_wired L R A T with paths := bubble_path L R T name 2 4 5 } := by
  have hL0 : 0 < L.length := List.length_pos.mpr hL
  have hR0 : 0 < R.length := List.length_pos.mpr hR
  obtain ⟨st, hst, hg, hp⟩ := bubble_sites cut_mapping L R A T hL hR hA hT hne hlen
  rw [alleles_graph_plain cut_mapping VG.empty _ _ name st hst, hg, hp]
  have c0 : (0 : Int) ≤ (L.length : Int) + (R.length : Int) := by omega
  have c1 : (0 : Int) < (L.length : Int) + (R.length : Int) := by omega
  have c2 : (0 : Int) < (L.length : Int) := by omega
  have c3 : (0 : Int) < (R.length : Int) := by omega
  have c4 : ¬ ((L.length : Int) + (R.length : Int) < (L.length : Int)) := by omega
  have c5 : ¬ ((L.length : Int) + (R.length : Int) < 0) := by omega
  have c6 : ¬ ((L.length : Int) < 0) := by omega
  simp [map_entries, entry_insert, c0, c1, c2, c3, c4, c5, c6, bubble_wired, append_mapping_id,
    append_mapping, map_find, force_path_match, bubble_path]

/-- C17 (SNP bubble): on the empty graph, `from_alleles` with the reference
`L ++ R ++ T` (all three parts nonempty, fewer than 2^31 bases in total) and
the single allele at position `|L|` that replaces `R` by a nonempty `A ≠ R`,
without phase visits and alt paths, returns the bubble: exactly the four
nodes 1 = `L`, 2 = `R`, 3 = `A`, 4 = `T`, exactly the four plain edges
2 → 4, 1 → 2, 1 → 3 and 3 → 4, and one path, the primary one, whose mappings
lie forward at offset 0 on the nodes 1, 2, 4 in this order. -/
theorem from_alleles_bubble (cut_mapping : Mapping → Int → Mapping × Mapping)
    (L R A T : List Char) (name : String) (hL : L ≠ []) (hR : R ≠ []) (hA : A ≠ [])
    (hT : T ≠ []) (hne : R ≠ A) (hlen : (L ++ R ++ T).length < 2 ^ 31) :
    from_alleles cut_mapping VG.empty [((L.length : Int), [⟨R, A, (L.length : Int)⟩])] [] 0 []
        (L ++ R ++ T) name = some (bubble L R A T name)
      ∧ (bubble L R A T name).node = [⟨1, L⟩, ⟨2, R⟩, ⟨3, A⟩, ⟨4, T⟩]
      ∧ (bubble L R A T name).edge
          = [⟨2, 4, false, false⟩, ⟨1, 2, false, false⟩, ⟨1, 3, false, false⟩,
             ⟨3, 4, false, false⟩]
      ∧ (bubble L R A T name).paths.map (fun p => (p.1, p.2.map (fun m => m.position)))
          = [(name, [⟨1, 0, false⟩, ⟨2, 0, false⟩, ⟨4, 0, false⟩])] := by
  refine ⟨?_, rfl, rfl, rfl⟩
  have hgraph := bubble_alleles_graph cut_mapping L R A T name hL hR hA hT hne hlen
  have hsort := bubble_sort L R A T name
  cases hs : sort { bubble_wired L R A T with paths := bubble_path L R T name 2 4 5 } with
  | none => rw [hs] at hsort; exact absurd hsort (by simp)
  | some g2 =>
    rw [hs] at hsort
    simp only [Option.map_some', Option.some.injEq] at hsort
    rw [List.append_assoc, from_alleles_of cut_mapping VG.empty _ [] 0 [] _ name _ g2 hgraph hs,
      hsort]

theorem from_alleles_bubble_witness :
    ("AC".toList ≠ [] ∧ "G".toList ≠ [] ∧ "A".toList ≠ [] ∧ "T".toList ≠ []
        ∧ "G".toList ≠ "A".toList ∧ ("AC".toList ++ "G".toList ++ "T".toList).length < 2 ^ 31)
      ∧ from_alleles (fun m _ => (m, m)) VG.empty [(2, [⟨"G".toList, "A".toList, 2⟩])] [] 0 []
          "ACGT".toList "ref"
        = some (bubble "AC".toList "G".toList "A".toList "T".toList "ref")
      ∧ (bubble "AC".toList "G".toList "A".toList "T".toList "ref").node
          = [⟨1, "AC".toList⟩, ⟨2, "G".toList⟩, ⟨3, "A".toList⟩, ⟨4, "T".toList⟩]
      ∧ (bubble "AC".toList "G".toList "A".toList "T".toList "ref").edge
          = [⟨2, 4, false, false⟩, ⟨1, 2, false, false⟩, ⟨1, 3, false, false⟩,
             ⟨3, 4, false, false⟩]
      ∧ (bubble "AC".toList "G".toList "A".toList "T".toList "ref").paths.map
            (fun p => (p.1, p.2.map (fun m => m.position)))
          = [("ref", [⟨1, 0, false⟩, ⟨2, 0, false⟩, ⟨4, 0, false⟩])] :=
  ⟨⟨by decide, by decide, by decide, by decide, by decide, by decide⟩,
    from_alleles_bubble (fun m _ => (m, m)) "AC".toList "G".toList "A".toList "T".toList "ref"
      (by decide) (by decide) (by decide) (by decide) (by decide) (by decide)⟩

theorem entry_insert_perm {ν : Type} (p : Int × ν) (l : List (Int × ν)) :
    (entry_insert p l).Perm (p :: l) := by
  induction l with
  | nil => exact List.Perm.refl _
  | cons q rest ih =>
    unfold entry_insert
    split_ifs
    · exact List.Perm.refl _
    · exact (List.Perm.cons q ih).trans (List.Perm.swap p q rest)

theorem map_entries_perm {ν : Type} (m : List (Int × ν)) : (map_entries m).Perm m := by
  induction m with
  | nil => exact List.Perm.refl _
  | cons p rest ih =>
    unfold map_entries at ih ⊢
    rw [List.foldr_cons]
    exact (entry_insert_perm p _).trans (List.Perm.cons p ih)

theorem keys_nodup_perm {κ ν : Type} (m1 m2 : List (κ × ν)) (h : m1.Perm m2)
    (hk : keys_nodup m2) : keys_nodup m1 := by
  unfold keys_nodup at hk ⊢
  exact (List.Perm.nodup_iff (List.Perm.map _ h)).mpr hk

theorem map_find_perm {κ ν : Type} [DecidableEq κ] (m1 m2 : List (κ × ν)) (h : m1.Perm m2)
    (hk : keys_nodup m2) (k : κ) : map_find m1 k = map_find m2 k := by
  have hk1 := keys_nodup_perm m1 m2 h hk
  cases h2 : map_find m2 k with
  | some v =>
    exact map_find_of_mem m1 k v hk1 ((List.Perm.mem_iff h).mpr (map_find_mem m2 k v h2))
  | none =>
    cases h1 : map_find m1 k with
    | none => rfl
    | some v =>
      have := map_find_of_mem m2 k v hk ((List.Perm.mem_iff h).mp (map_find_mem m1 k v h1))
      rw [h2] at this
      exact absurd this (by simp)

/-- The loop of an overlay over a list of entries with distinct keys: a key of
the list gets the value computed from its entry, another key keeps its
value. -/
theorem overlay_fold_find (under : List (Int × (Int × Bool))) :
    ∀ (l : List (Int × (Int × Bool))) (base : List (Int × (Int × Bool))) (n : Int),
      keys_nodup l →
      map_find (l.foldl
        (fun overlay o =>
          match map_find under o.2.1 with
          | some u => map_insert overlay o.1 (u.1, xor o.2.2 u.2)
          | none => map_insert overlay o.1 o.2) base) n
      = match map_find l n with
        | some v =>
          (match map_find under v.1 with
           | some u => some (u.1, xor v.2 u.2)
           | none => some v)
        | none => map_find base n := by
  intro l
  induction l with
  | nil => intro base n _; rfl
  | cons o rest ih =>
    intro base n hk
    obtain ⟨k, v⟩ := o
    unfold keys_nodup at hk
    rw [List.map_cons, List.nodup_cons] at hk
    rw [List.foldl_cons, ih _ n hk.2]
    by_cases hkn : k = n
    · subst hkn
      have hnone : map_find rest k = none := by
        cases h : map_find rest k with
        | none => rfl
        | some w =>
          exact absurd (List.mem_map_of_mem (fun p => p.1) (map_find_mem rest k w h)) hk.1
      simp only [hnone, map_find, if_true]
      cases hu : map_find under v.1 with
      | some u => simp only [map_find_insert, if_true]
      | none => simp only [map_find_insert, if_true]
    · simp only [map_find, if_neg hkn]
      cases hr : map_find rest n with
      | some w => rfl
      | none =>
        simp only []
        cases hu : map_find under v.1 with
        | some u => simp only [map_find_insert, if_neg hkn]
        | none => simp only [map_find_insert, if_neg hkn]

theorem overlay_find (over under : List (Int × (Int × Bool))) (hk : keys_nodup over) (n : Int) :
    map_find (overlay_node_translations over under) n
      = match map_find over n with
        | some v =>
          (match map_find under v.1 with
           | some u => some (u.1, xor v.2 u.2)
           | none => some v)
        | none => map_find under n := by
  have hp := map_entries_perm over
  have h := overlay_fold_find under (map_entries over) under n (keys_nodup_perm _ _ hp hk)
  rw [map_find_perm _ _ hp hk n] at h
  exact h

/-- C28: with `over` a map (one entry per key), the overlay sends a key `n` of
`over` with entry `(m, r)` to `(b, r XOR s)` when `under` sends `m` to
`(b, s)`, and to `(m, r)` when `m` is not a key of `under`; a key that `over`
does not have is looked up in `under`, so the keys of `under` outside `over`
keep their entries and the overlay has no other keys. -/
theorem overlay_node_translations_spec (over under : List (Int × (Int × Bool)))
    (hk : keys_nodup over) (n : Int) :
    (∀ m r b s, map_find over n = some (m, r) → map_find under m = some (b, s) →
        map_find (overlay_node_translations over under) n = some (b, xor r s))
    ∧ (∀ m r, map_find over n = some (m, r) → map_find under m = none →
        map_find (overlay_node_translations over under) n = some (m, r))
    ∧ (map_find over n = none →
        map_find (overlay_node_translations over under) n = map_find under n) := by
  refine ⟨?_, ?_, ?_⟩
  · intro m r b s h1 h2
    rw [overlay_find over under hk, h1]
    simp only [h2]
  · intro m r h1 h2
    rw [overlay_find over under hk, h1]
    simp only [h2]
  · intro h1
    rw [overlay_find over under hk, h1]

theorem overlay_node_translations_spec_witness :
    keys_nodup [((3 : Int), ((2 : Int), true)), (4, (9, false))]
    ∧ ((∀ m r b s, map_find [((3 : Int), ((2 : Int), true)), (4, (9, false))] 3 = some (m, r) →
          map_find [((2 : Int), ((1 : Int), true)), (7, (7, false))] m = some (b, s) →
          map_find (overlay_node_translations [(3, (2, true)), (4, (9, false))]
            [(2, (1, true)), (7, (7, false))]) 3 = some (b, xor r s))
      ∧ (∀ m r, map_find [((3 : Int), ((2 : Int), true)), (4, (9, false))] 3 = some (m, r) →
          map_find [((2 : Int), ((1 : Int), true)), (7, (7, false))] m = none →
          map_find (overlay_node_translations [(3, (2, true)), (4, (9, false))]
            [(2, (1, true)), (7, (7, false))]) 3 = some (m, r))
      ∧ (map_find [((3 : Int), ((2 : Int), true)), (4, (9, false))] 3 = none →
          map_find (overlay_node_translations [(3, (2, true)), (4, (9, false))]
            [(2, (1, true)), (7, (7, false))]) 3
            = map_find [((2 : Int), ((1 : Int), true)), (7, (7, false))] 3)) :=
  ⟨by unfold keys_nodup; decide,
    overlay_node_translations_spec _ _ (by unfold keys_nodup; decide) 3⟩

theorem overlay_keys_nodup (over under : List (Int × (Int × Bool))) (hk : keys_nodup under) :
    keys_nodup (overlay_node_translations over under) := by
  unfold overlay_node_translations
  have key : ∀ (l : List (Int × (Int × Bool))) (base : List (Int × (Int × Bool))),
      keys_nodup base →
      keys_nodup (l.foldl
        (fun overlay o =>
          match map_find under o.2.1 with
          | some u => map_insert overlay o.1 (u.1, xor o.2.2 u.2)
          | none => map_insert overlay o.1 o.2) base) := by
    intro l
    induction l with
    | nil => intro base hb; exact hb
    | cons o rest ih =>
      intro base hb
      rw [List.foldl_cons]
      apply ih
      cases hu : map_find under o.2.1 with
      | some u => exact keys_nodup_insert base _ _ hb
      | none => exact keys_nodup_insert base _ _ hb
  exact key _ _ hk

/-- C29: translation overlay is associative as a map: with `A` and `B` maps
(one entry per key), the two ways of overlaying `A`, `B` and `C` give every id
the same entry, and are defined on the same ids. -/
theorem overlay_node_translations_assoc (A B C : List (Int × (Int × Bool)))
    (hA : keys_nodup A) (hB : keys_nodup B) (n : Int) :
    map_find (overlay_node_translations (overlay_node_translations A B) C) n
      = map_find (overlay_node_translations A (overlay_node_translations B C)) n := by
  rw [overlay_find (overlay_node_translations A B) C (overlay_keys_nodup A B hB),
    overlay_find A (overlay_node_translations B C) hA, overlay_find A B hA]
  cases hAn : map_find A n with
  | none =>
    simp only []
    rw [overlay_find B C hB]
  | some v =>
    simp only []
    rw [overlay_find B C hB]
    cases hBv : map_find B v.1 with
    | none =>
      simp only []
    | some u =>
      simp only []
      cases hCu : map_find C u.1 with
      | none => simp only []
      | some w => simp only [Bool.xor_assoc]

theorem overlay_node_translations_assoc_witness :
    (keys_nodup [((5 : Int), ((3 : Int), true))] ∧ keys_nodup [((3 : Int), ((2 : Int), true))])
    ∧ map_find (overlay_node_translations
          (overlay_node_translations [(5, (3, true))] [(3, (2, true))]) [(2, (1, true))]) 5
        = map_find (overlay_node_translations [(5, (3, true))]
          (overlay_node_translations [(3, (2, true))] [(2, (1, true))])) 5 :=
  ⟨⟨by unfold keys_nodup; decide, by unfold keys_nodup; decide⟩,
    overlay_node_translations_assoc _ _ _ (by unfold keys_nodup; decide)
      (by unfold keys_nodup; decide) 5⟩

theorem char_at_inside (s : List Char) (i : Int) (h0 : 0 ≤ i) (h1 : i < (s.length : Int)) :
    ∃ c, s.get? i.toNat = some c ∧ char_at s i = some c := by
  have hlt : i.toNat < s.length := by omega
  refine ⟨s.get ⟨i.toNat, hlt⟩, List.get?_eq_get hlt, ?_⟩
  unfold char_at
  rw [if_pos ⟨h0, h1⟩]
  exact List.get?_eq_get hlt

theorem to_size_small (x : Int) (h0 : 0 ≤ x) (h1 : x < 2 ^ 64) : to_size x = x := by
  unfold to_size
  omega

/-- C30: for a k-mer that lies inside one forward node of the path, at start
offset `o` of its sequence `s` (`0 ≤ o`, `o + k ≤ |s| < 2^31`), where the node
has no neighbour before it if `o = 0` and none after it if `o + k = |s|`,
`kmer_context` called with empty sets returns with the end node at the start
node; the previous positions are exactly `(s[o-1], id, forward, o-1)` when
`o > 0` and none when `o = 0`; the next positions are exactly
`(s[o+k], id, forward, o+k)` when `o + k < |s|` and none when `o + k = |s|`. -/
theorem kmer_context_inside_node (reverse_complement : Char → Char)
    (node_path_traversals : Int → Bool → List String)
    (over_edge : Int → Bool → Int → Bool → List String → List String) (g : VG)
    (kmer : List Char) (path_only : Bool) (path : List NodeTraversal) (start_node : Nat)
    (node : Node) (o : Int)
    (hstart : path.get? start_node = some ⟨node, false⟩)
    (h0 : 0 ≤ o) (hk : o + (kmer.length : Int) ≤ (node.sequence.length : Int))
    (hlen : (node.sequence.length : Int) < 2 ^ 31)
    (hprev : o = 0 → nodes_prev g ⟨node, false⟩ = some [])
    (hnext : o + (kmer.length : Int) = (node.sequence.length : Int) →
      nodes_next g ⟨node, false⟩ = some []) :
    ∃ r, kmer_context reverse_complement node_path_traversals over_edge g kmer path_only path
        start_node o [] [] = some r
      ∧ r.end_node = start_node
      ∧ (0 < o → ∃ c, node.sequence.get? (o - 1).toNat = some c
          ∧ r.prev_positions = [(c, node.id, false, o - 1)])
      ∧ (o = 0 → r.prev_positions = [])
      ∧ (o + (kmer.length : Int) < (node.sequence.length : Int) →
          ∃ c, node.sequence.get? (o + (kmer.length : Int)).toNat = some c
            ∧ r.next_positions = [(c, node.id, false, o + (kmer.length : Int))])
      ∧ (o + (kmer.length : Int) = (node.sequence.length : Int) → r.next_positions = []) := by
  have hkl : (0 : Int) ≤ (kmer.length : Int) := Int.natCast_nonneg _
  have hlt : start_node < path.length := by
    by_contra hcon
    rw [List.get?_eq_none.mpr (by omega)] at hstart
    exact absurd hstart (by simp)
  have hdrop : path.drop start_node = ⟨node, false⟩ :: path.drop (start_node + 1) := by
    rw [List.drop_eq_getElem_cons hlt]
    congr 1
    have := List.get?_eq_get hlt
    rw [hstart] at this
    exact (Option.some.inj this).symm
  -- the previous positions
  obtain ⟨prev, hprev_eq, hp1, hp2⟩ : ∃ prev : List (Char × Int × Bool × Int),
      (if o = 0 then
        match nodes_prev g ⟨node, false⟩ with
        | none => none
        | some prev_nodes =>
          prev_of_neighbours reverse_complement over_edge path_only ⟨node, false⟩
            (if path_only then
              follow_path over_edge (path.drop start_node) (node_path_traversals node.id false)
             else []) prev_nodes []
      else
        match (if (⟨node, false⟩ : NodeTraversal).backward then
                 (char_at node.sequence (to_size ((node.sequence.length : Int) - o))).map
                   reverse_complement
               else char_at node.sequence (to_size (o - 1))) with
        | none => none
        | some c =>
          some (set_insert kmer_position_lt (c, node.id, false, to_int (o - 1)) [])) = some prev
      ∧ (0 < o → ∃ c, node.sequence.get? (o - 1).toNat = some c
          ∧ prev = [(c, node.id, false, o - 1)])
      ∧ (o = 0 → prev = []) := by
    by_cases ho : o = 0
    · refine ⟨[], ?_, fun h => absurd ho (by omega), fun _ => rfl⟩
      rw [if_pos ho, hprev ho]
      rfl
    · obtain ⟨c, hc1, hc2⟩ := char_at_inside node.sequence (o - 1) (by omega) (by omega)
      refine ⟨[(c, node.id, false, o - 1)], ?_, fun _ => ⟨c, hc1, rfl⟩, fun h => absurd h ho⟩
      rw [if_neg ho]
      simp only [Bool.false_eq_true, if_false]
      rw [to_size_small _ (by omega) (by omega), hc2, to_int_small _ (by omega) (by omega)]
      rfl
  -- the end of the k-mer
  have hnew : to_int (to_size ((node.sequence.length : Int) - o))
      = (node.sequence.length : Int) - o := by
    rw [to_size_small _ (by omega) (by omega), to_int_small _ (by omega) (by omega)]
  obtain ⟨r, hr, hr1, hr2, hr3, hr4⟩ : ∃ r,
      find_kmer_end reverse_complement over_edge g kmer path_only
        (if path_only then
          follow_path over_edge (path.drop start_node) (node_path_traversals node.id false)
         else []) prev [] (⟨node, false⟩ :: path.drop (start_node + 1)) start_node o true
        = some r
      ∧ r.end_node = start_node ∧ r.prev_positions = prev
      ∧ (o + (kmer.length : Int) < (node.sequence.length : Int) →
          ∃ c, node.sequence.get? (o + (kmer.length : Int)).toNat = some c
            ∧ r.next_positions = [(c, node.id, false, o + (kmer.length : Int))])
      ∧ (o + (kmer.length : Int) = (node.sequence.length : Int) → r.next_positions = []) := by
    unfold find_kmer_end
    simp only [if_true, hnew]
    rw [to_size_small _ (by omega) (by omega)]
    by_cases hend : o + (kmer.length : Int) = (node.sequence.length : Int)
    · have he : (node.sequence.length : Int) - o = (kmer.length : Int) := by omega
      rw [if_pos he, hnext hend]
      exact ⟨_, rfl, rfl, rfl, fun h => absurd hend (by omega), fun _ => rfl⟩
    · have he : ¬ (node.sequence.length : Int) - o = (kmer.length : Int) := by omega
      have hgt : (node.sequence.length : Int) - o > (kmer.length : Int) := by omega
      have hoff : to_int (to_size ((node.sequence.length : Int)
          - to_size ((node.sequence.length : Int) - o - (kmer.length : Int))))
            = o + (kmer.length : Int) := by
        rw [to_size_small ((node.sequence.length : Int) - o - (kmer.length : Int)) (by omega)
          (by omega)]
        have : (node.sequence.length : Int) - ((node.sequence.length : Int) - o
            - (kmer.length : Int)) = o + (kmer.length : Int) := by omega
        rw [this, to_size_small _ (by omega) (by omega), to_int_small _ (by omega) (by omega)]
      obtain ⟨c, hc1, hc2⟩ := char_at_inside node.sequence (o + (kmer.length : Int)) (by omega)
        (by omega)
      rw [if_neg he, if_pos hgt]
      simp only [hoff, Bool.false_eq_true, if_false]
      rw [to_size_small (o + (kmer.length : Int)) (by omega) (by omega), hc2]
      exact ⟨_, rfl, rfl, rfl, fun _ => ⟨c, hc1, rfl⟩, fun h => absurd h hend⟩
  refine ⟨r, ?_, hr1, ?_, ?_, hr3, hr4⟩
  · unfold kmer_context
    rw [hstart]
    simp only []
    rw [hprev_eq]
    simp only []
    rw [hdrop] at hr ⊢
    exact hr
  · intro h
    rw [hr2]
    exact hp1 h
  · intro h
    rw [hr2]
    exact hp2 h

theorem kmer_context_inside_node_witness :
    (∃ r, kmer_context id (fun _ _ => []) (fun _ _ _ _ f => f) acgt_graph "ACG".toList false
        [⟨⟨1, "ACGT".toList⟩, false⟩] 0 0 [] [] = some r
      ∧ r.prev_positions = [] ∧ r.next_positions = [('T', 1, false, 3)])
    ∧ (∃ r, kmer_context id (fun _ _ => []) (fun _ _ _ _ f => f) acgt_graph "CGT".toList false
        [⟨⟨1, "ACGT".toList⟩, false⟩] 0 1 [] [] = some r
      ∧ r.prev_positions = [('A', 1, false, 0)] ∧ r.next_positions = []) := by
  constructor
  · obtain ⟨r, h1, _, _, h3, h4, _⟩ := kmer_context_inside_node id (fun _ _ => [])
      (fun _ _ _ _ f => f) acgt_graph "ACG".toList false [⟨⟨1, "ACGT".toList⟩, false⟩] 0
      ⟨1, "ACGT".toList⟩ 0 rfl (by decide) (by decide) (by decide) (fun _ => by decide)
      (fun h => absurd h (by decide))
    obtain ⟨c, hc, hn⟩ := h4 (by decide)
    have hc2 : c = 'T' := (Option.some.inj hc).symm
    rw [hc2] at hn
    exact ⟨r, h1, h3 rfl, hn⟩
  · obtain ⟨r, h1, _, h2, _, _, h5⟩ := kmer_context_inside_node id (fun _ _ => [])
      (fun _ _ _ _ f => f) acgt_graph "CGT".toList false [⟨⟨1, "ACGT".toList⟩, false⟩] 0
      ⟨1, "ACGT".toList⟩ 1 rfl (by decide) (by decide) (by decide)
      (fun h => absurd h (by decide)) (fun _ => by decide)
    obtain ⟨c, hc, hp⟩ := h2 (by decide)
    have hc2 : c = 'A' := (Option.some.inj hc).symm
    rw [hc2] at hp
    exact ⟨r, h1, hp, h5 (by decide)⟩

set_option maxRecDepth 8000 in
set_option maxHeartbeats 1000000 in
theorem topological_sort_fork :
    topological_sort fork_graph
      = some (fork_graph,
          [⟨⟨1, "A".toList⟩, false⟩, ⟨⟨2, "C".toList⟩, false⟩, ⟨⟨3, "G".toList⟩, false⟩]) := by
  rw [topological_sort]
  simp [fork_graph, create_node, create_edge, VG.empty, max_node_id, get_edge, minmax,
    NodeSide.lt, set_edge, has_edge_rec, pair_from_edge, index_edge_by_node_sides, push_side,
    head_nodes, start_degree, edges_start, edges_end, map_find, map_insert, map_erase]
  rw [topological_loop]
  simp [take_seeds, map_begin, map_find, map_insert, map_erase]
  rw [drain]
  simp [map_begin, map_erase, map_insert, map_find, nodes_prev, nodes_next, all_some,
    edges_start, edges_end, get_node, unindex_prev, visit_next, node_count_prev, get_edge_trav,
    get_edge, minmax, NodeSide.lt, unindex_edge_ptr, unindex_edge_by_node_sides, has_edge_rec,
    pair_from_edge, unindex_side, swap_remove, swap_elements]
  rw [drain]
  simp [map_begin]
  rw [topological_loop]
  simp [take_seeds, map_begin, map_find, map_insert, map_erase]
  rw [drain]
  simp [map_begin, map_erase, map_insert, map_find, nodes_prev, nodes_next, all_some,
    edges_start, edges_end, get_node, unindex_prev, visit_next, node_count_prev, get_edge_trav,
    get_edge, minmax, NodeSide.lt, unindex_edge_ptr, unindex_edge_by_node_sides, has_edge_rec,
    pair_from_edge, unindex_side, swap_remove, swap_elements]
  rw [drain]
  simp [map_begin]
  rw [topological_loop]
  simp [take_seeds, map_begin, map_find, map_insert, map_erase]
  rw [drain]
  simp [map_begin, map_erase, map_insert, map_find, nodes_prev, nodes_next, all_some,
    edges_start, edges_end, get_node, unindex_prev, visit_next, node_count_prev, get_edge_trav,
    get_edge, minmax, NodeSide.lt, unindex_edge_ptr, unindex_edge_by_node_sides, has_edge_rec,
    pair_from_edge, unindex_side, swap_remove, swap_elements]
  rw [drain]
  simp [map_begin]
  rw [topological_loop]
  simp [rebuild_indexes, clear_node_indexes, clear_edge_indexes, build_node_indexes,
    build_node_indexes_loop, build_edge_indexes, build_edge_indexes_loop, rebuild_edge_indexes,
    set_edge, has_edge_rec, pair_from_edge, minmax, NodeSide.lt, index_edge_by_node_sides,
    push_side, map_find, map_insert, map_erase]

set_option maxRecDepth 8000 in
/-- C26 (the code at the failing input): on the acyclic graph with the plain
edges 1 → 2 and 3 → 2, `topological_sort` returns the order 1, 2, 3 (after
the head 1, the seed suggested for node 2 is taken before the head 3), and
`sort` leaves the node store in this order: node 3, the from-node of the edge
3 → 2, stands after its to-node 2. -/
theorem sort_fork_not_topological :
    (topological_sort fork_graph).map (fun r => r.2.map (fun t => (t.node.id, t.backward)))
        = some [(1, false), (2, false), (3, false)]
    ∧ (sort fork_graph).map (fun g => (g.node.map (fun n => n.id), g.edge))
        = some ([1, 2, 3], [⟨1, 2, false, false⟩, ⟨3, 2, false, false⟩]) := by
  constructor
  · rw [topological_sort_fork]
    rfl
  · have hcount : ¬ fork_graph.node.length ≤ 1 := by decide
    rw [sort]
    simp only [if_neg hcount, topological_sort_fork, Option.map_some']
    rw [sort_loop]
    simp [fork_graph, create_node, create_edge, VG.empty, max_node_id, get_edge, minmax,
      NodeSide.lt, set_edge, has_edge_rec, pair_from_edge, index_edge_by_node_sides, push_side,
      swap_nodes, map_find, map_insert, map_erase, swap_elements]
    rw [sort_loop]
    simp [swap_nodes, map_find, map_insert, map_erase, swap_elements]
    rw [sort_loop]
    simp [swap_nodes, map_find, map_insert, map_erase, swap_elements]
    rw [sort_loop]
    simp

theorem add_edge_eq_create_edge (g : VG) (e : Edge) :
    add_edge g e = (create_edge g e.from_ e.to_ e.from_start e.to_end).1 := by
  obtain ⟨a, b, fs, te⟩ := e
  unfold add_edge create_edge has_edge_rec get_edge pair_from_edge
  cases h : map_find g.edge_by_sides (minmax ⟨a, !fs⟩ ⟨b, te⟩) with
  | some e2 => simp
  | none => simp

theorem build_step_eq_add_edge (G : VG) (done : List Edge) (e : Edge)
    (h : has_edge_rec G e = false) :
    ({ set_edge { G with edge_index := map_insert G.edge_index e done.length } e with
        edge := done ++ [e] } : VG)
      = add_edge { G with edge := done } e := by
  have h2 : has_edge_rec { G with edge := done } e = false := h
  have h3 : has_edge_rec { G with edge_index := map_insert G.edge_index e done.length } e
      = false := h
  have h4 : has_edge_rec { G with edge := done ++ [e] } e = false := h
  unfold add_edge set_edge
  simp only [h2, h3, h4, Bool.not_false, if_true]
  unfold index_edge_by_node_sides
  simp only [List.length_append, List.length_singleton, Nat.add_sub_cancel]
  split_ifs <;> simp

theorem pairs_nodup_of_consistent (g : VG) (hc : edges_consistent g) :
    (g.edge.map pair_from_edge).Nodup := by
  refine List.Nodup.map_on ?_ hc.edge_nodup
  intro e1 h1 e2 h2 heq
  have f1 := hc.by_sides_complete e1 h1
  have f2 := hc.by_sides_complete e2 h2
  rw [heq, f2] at f1
  exact (Option.some.inj f1).symm

theorem build_edge_indexes_loop_consistent :
    ∀ (rest done : List Edge) (G : VG),
      edges_consistent { G with edge := done } →
      ((done ++ rest).map pair_from_edge).Nodup →
      edges_consistent
        { build_edge_indexes_loop G rest done.length with edge := done ++ rest } := by
  intro rest
  induction rest with
  | nil =>
    intro done G hc _
    simp only [build_edge_indexes_loop, List.append_nil]
    exact hc
  | cons e rest ih =>
    intro done G hc hnd
    have hfresh : has_edge_rec G e = false := by
      unfold has_edge_rec
      cases hf : map_find G.edge_by_sides (pair_from_edge e) with
      | none => rfl
      | some e2 =>
        obtain ⟨hm, hp⟩ := hc.by_sides_sound _ e2 hf
        have hm2 : e2 ∈ done := hm
        rw [List.map_append, List.nodup_append] at hnd
        have h1 : pair_from_edge e ∈ done.map pair_from_edge := by
          rw [← hp]; exact List.mem_map_of_mem pair_from_edge hm2
        exact (hnd.2.2 h1
          (List.mem_map_of_mem pair_from_edge (List.mem_cons_self e rest))).elim
    have hstep := build_step_eq_add_edge G done e hfresh
    have hc2 : edges_consistent
        { set_edge { G with edge_index := map_insert G.edge_index e done.length } e with
          edge := done ++ [e] } := by
      rw [hstep, add_edge_eq_create_edge]
      exact create_edge_consistent _ _ _ _ _ hc
    have hnd2 : (((done ++ [e]) ++ rest).map pair_from_edge).Nodup := by
      rw [List.append_assoc]; exact hnd
    have := ih (done ++ [e])
      (set_edge { G with edge_index := map_insert G.edge_index e done.length } e) hc2 hnd2
    simp only [List.length_append, List.length_singleton, List.append_assoc,
      List.singleton_append] at this
    simp only [build_edge_indexes_loop]
    exact this

theorem rebuild_edge_indexes_consistent (g : VG) (hnd : (g.edge.map pair_from_edge).Nodup) :
    edges_consistent (rebuild_edge_indexes g) := by
  have h0 : edges_consistent { clear_edge_indexes g with edge := [] } := by
    refine edges_consistent_congr VG.empty _ empty_consistent rfl rfl rfl rfl rfl
  have h := build_edge_indexes_loop_consistent g.edge [] (clear_edge_indexes g) h0
    (by simpa using hnd)
  have hedge := (build_edge_indexes_loop_spec g.edge (clear_edge_indexes g) 0).1
  simp only [List.length_nil, List.nil_append] at h
  have heq : ({ build_edge_indexes_loop (clear_edge_indexes g) g.edge 0 with edge := g.edge } : VG)
      = rebuild_edge_indexes g := by
    unfold rebuild_edge_indexes build_edge_indexes
    have hg : (clear_edge_indexes g).edge = g.edge := rfl
    rw [hg]
    rw [hg] at hedge
    cases hb : build_edge_indexes_loop (clear_edge_indexes g) g.edge 0
    rw [hb] at hedge
    simp only at hedge
    rw [hedge]
  rw [← heq]
  exact h

theorem flip_consistent (g : VG) (hc : edges_consistent g) :
    edges_consistent (flip_doubly_reversed_edges g) := by
  unfold flip_doubly_reversed_edges
  apply rebuild_edge_indexes_consistent
  have h := pairs_nodup_of_consistent g hc
  simp only [List.map_map]
  have : (pair_from_edge ∘ flip_edge) = pair_from_edge := by
    funext e; exact pair_from_edge_flip e
  rw [this]
  exact h

theorem flip_edges_list (g : VG) :
    (flip_doubly_reversed_edges g).edge = g.edge.map flip_edge
    ∧ (flip_doubly_reversed_edges g).node = g.node
    ∧ (flip_doubly_reversed_edges g).node_by_id = g.node_by_id
    ∧ (flip_doubly_reversed_edges g).current_id = g.current_id := by
  unfold flip_doubly_reversed_edges rebuild_edge_indexes build_edge_indexes
  have h1 := (build_edge_indexes_loop_spec (clear_edge_indexes
    { g with edge := g.edge.map flip_edge }).edge
    (clear_edge_indexes { g with edge := g.edge.map flip_edge }) 0).1
  obtain ⟨f1, f2, _, _, f5⟩ := build_edge_indexes_loop_frame (clear_edge_indexes
    { g with edge := g.edge.map flip_edge }).edge
    (clear_edge_indexes { g with edge := g.edge.map flip_edge }) 0
  exact ⟨h1, f1, f2, f5⟩

theorem flip_edge_not_doubly (e : Edge) : ((flip_edge e).from_start && (flip_edge e).to_end) = false := by
  unfold flip_edge
  split_ifs with h
  · rfl
  · simpa using h

theorem flip_no_doubly (g : VG) : no_doubly_reversed (flip_doubly_reversed_edges g) := by
  intro e he
  rw [(flip_edges_list g).1, List.mem_map] at he
  obtain ⟨e0, _, rfl⟩ := he
  exact flip_edge_not_doubly e0

theorem add_plain_edge_keeps (g : VG) (a b : Int)
    (h : edges_consistent g ∧ no_doubly_reversed g) :
    edges_consistent (add_edge g ⟨a, b, false, false⟩)
      ∧ no_doubly_reversed (add_edge g ⟨a, b, false, false⟩) := by
  rw [add_edge_eq_create_edge]
  obtain ⟨s1, _, s3, _⟩ := create_edge_summary g h.1 a b false false
  refine ⟨s1, ?_⟩
  intro e he
  rcases s3 e he with h1 | h1
  · exact h.2 e h1
  · subst h1; rfl

theorem foldl_add_plain_edges {α : Type} (f : α → Int) (k : α → Int) (l : List α) :
    ∀ (g : VG), edges_consistent g ∧ no_doubly_reversed g →
      edges_consistent (l.foldl (fun u e => add_edge u ⟨f e, k e, false, false⟩) g)
      ∧ no_doubly_reversed (l.foldl (fun u e => add_edge u ⟨f e, k e, false, false⟩) g) := by
  induction l with
  | nil => intro g h; exact h
  | cons x rest ih =>
    intro g h
    simp only [List.foldl_cons]
    exact ih _ (add_plain_edge_keeps g (f x) (k x) h)

theorem add_flipped_edges (rc : List Char → List Char) (l : List NodeTraversal) :
    ∀ (s : VG × List (Int × (Int × Bool)) × List (NodeTraversal × Int)),
      edges_consistent s.1 ∧ no_doubly_reversed s.1 →
      edges_consistent (add_flipped rc l s).1 ∧ no_doubly_reversed (add_flipped rc l s).1 := by
  induction l with
  | nil => intro s h; exact h
  | cons t rest ih =>
    intro s h
    simp only [add_flipped]
    apply ih
    refine ⟨create_node_consistent _ _ _ h.1, ?_⟩
    intro e he
    rw [(create_node_edge_fields s.1 (rc t.node.sequence) 0).1] at he
    exact h.2 e he

theorem destroy_edges_fold (l : List (NodeSide × NodeSide)) :
    ∀ (g : VG), edges_consistent g →
      edges_consistent (l.foldl (fun g edge => destroy_edge g edge.1 edge.2) g)
      ∧ ∀ e, e ∈ (l.foldl (fun g edge => destroy_edge g edge.1 edge.2) g).edge ↔
          (e ∈ g.edge ∧ ∀ p ∈ l, pair_from_edge e ≠ minmax p.1 p.2) := by
  induction l with
  | nil => intro g hc; exact ⟨hc, fun e => by simp⟩
  | cons p rest ih =>
    intro g hc
    obtain ⟨d1, _, d3, _⟩ := destroy_edge_spec g hc p.1 p.2
    obtain ⟨i1, i2⟩ := ih (destroy_edge g p.1 p.2) d1
    simp only [List.foldl_cons]
    refine ⟨i1, fun e => ?_⟩
    rw [i2, d3]
    simp only [List.mem_cons, forall_eq_or_imp]
    tauto

theorem remove_inverting_edges_spec (g : VG) (hc : edges_consistent g) :
    edges_consistent (remove_inverting_edges g)
    ∧ ∀ e, e ∈ (remove_inverting_edges g).edge ↔ (e ∈ g.edge ∧ is_inverting e = false) := by
  unfold remove_inverting_edges
  obtain ⟨h1, h2⟩ := destroy_edges_fold (g.edge.foldl
    (fun edges edge =>
      if is_inverting edge then set_insert side_pair_lt (pair_from_edge edge) edges else edges) [])
    g hc
  refine ⟨h1, fun e => ?_⟩
  have hmem : ∀ (l : List Edge) (init : List (NodeSide × NodeSide)) (y : NodeSide × NodeSide),
      y ∈ l.foldl (fun edges edge =>
        if is_inverting edge then set_insert side_pair_lt (pair_from_edge edge) edges
        else edges) init ↔ (y ∈ init ∨ ∃ b ∈ l, is_inverting b = true ∧ y = pair_from_edge b) := by
    intro l
    induction l with
    | nil => intro init y; simp
    | cons b rest ih =>
      intro init y
      simp only [List.foldl_cons]
      rw [ih]
      by_cases hb : is_inverting b = true
      · simp only [hb, if_true, set_insert_mem side_pair_lt side_pair_lt_total, List.mem_cons,
          exists_eq_or_imp, true_and]
        tauto
      · simp only [hb, if_false, List.mem_cons, exists_eq_or_imp, false_and, false_or]
        simp
  rw [h2]
  constructor
  · rintro ⟨he, hp⟩
    refine ⟨he, ?_⟩
    by_contra hinv
    have hinv2 : is_inverting e = true := by simpa using hinv
    have hin := (hmem g.edge [] (pair_from_edge e)).mpr (Or.inr ⟨e, he, hinv2, rfl⟩)
    exact hp _ hin (pair_from_edge_minmax e).symm
  · rintro ⟨he, hinv⟩
    refine ⟨he, fun p hp heq => ?_⟩
    rcases (hmem g.edge [] p).mp hp with h | ⟨b, hb, hbi, hbp⟩
    · simp at h
    · subst hbp
      rw [pair_from_edge_minmax] at heq
      have f1 := hc.by_sides_complete e he
      have f2 := hc.by_sides_complete b hb
      rw [heq, f2] at f1
      have := Option.some.inj f1
      subst this
      rw [hbi] at hinv
      exact Bool.noConfusion hinv

theorem plain_of_not_inverting (e : Edge) (h1 : is_inverting e = false)
    (h2 : (e.from_start && e.to_end) = false) : e.from_start = false ∧ e.to_end = false := by
  unfold is_inverting at h1
  cases hf : e.from_start <;> cases ht : e.to_end <;> simp [hf, ht] at h1 h2 ⊢

theorem unfold_edges_plain (rc : List Char → List Char) (fuel : Nat) (g : VG) (max_length : Int)
    (nt : List (Int × (Int × Bool))) (hc : edges_consistent g)
    (r : VG × List (Int × (Int × Bool))) (hr : unfold rc fuel g max_length nt = some r) :
    ∀ e ∈ r.1.edge, e.from_start = false ∧ e.to_end = false := by
  have hf : edges_consistent (flip_doubly_reversed_edges g)
      ∧ no_doubly_reversed (flip_doubly_reversed_edges g) :=
    ⟨flip_consistent g hc, flip_no_doubly g⟩
  unfold unfold at hr
  simp only at hr
  split_ifs at hr with hinv
  · simp only [Option.some.injEq] at hr
    subst hr
    intro e he
    refine plain_of_not_inverting e ?_ (hf.2 e he)
    unfold has_inverting_edges at hinv
    simp only [Bool.not_eq_true_eq_eq_false, List.any_eq_false] at hinv
    simpa using hinv e he
  · cases hw : walk_all g fuel max_length g.node ⟨[], [], [], [], []⟩ with
    | none => rw [hw] at hr; exact Option.noConfusion hr
    | some st =>
      rw [hw] at hr
      simp only [Option.some.injEq] at hr
      subst hr
      have h0 := add_flipped_edges rc st.travs_to_flip
        (flip_doubly_reversed_edges g, nt, []) hf
      have h1 := foldl_add_plain_edges
        (fun e : NodeTraversal × NodeTraversal =>
          inv_at (add_flipped rc st.travs_to_flip (flip_doubly_reversed_edges g, nt, [])).2.2 e.1)
        (fun e => inv_at
          (add_flipped rc st.travs_to_flip (flip_doubly_reversed_edges g, nt, [])).2.2 e.2)
        st.edges_to_flip _ h0
      have h2 := foldl_add_plain_edges
        (fun e : NodeTraversal × NodeTraversal =>
          inv_at (add_flipped rc st.travs_to_flip (flip_doubly_reversed_edges g, nt, [])).2.2 e.1)
        (fun e => e.2.node.id) st.edges_to_forward _ h1
      have h3 := foldl_add_plain_edges
        (fun e : NodeTraversal × NodeTraversal => e.1.node.id)
        (fun e => inv_at
          (add_flipped rc st.travs_to_flip (flip_doubly_reversed_edges g, nt, [])).2.2 e.2)
        st.edges_from_forward _ h2
      intro e he
      have hm := ((remove_inverting_edges_spec _ h3.1).2 e).mp he
      exact plain_of_not_inverting e hm.2 (h3.2 e hm.1)

theorem set_insert_subset {α : Type} (lt : α → α → Bool) (x : α) (l : List α) (y : α)
    (h : y ∈ set_insert lt x l) : y = x ∨ y ∈ l := by
  induction l with
  | nil => simpa [set_insert] using h
  | cons z rest ih =>
    unfold set_insert at h
    split_ifs at h
    · simpa using h
    · rcases List.mem_cons.mp h with h1 | h1
      · exact Or.inr (by rw [h1]; exact List.mem_cons_self _ _)
      · rcases ih h1 with h2 | h2
        · exact Or.inl h2
        · exact Or.inr (List.mem_cons_of_mem _ h2)
    · exact Or.inr h

theorem foldl_set_insert_subset {α : Type} (lt : α → α → Bool) (l : List α) :
    ∀ (init : List α) (y : α), y ∈ l.foldl (fun s t => set_insert lt t s) init →
      y ∈ init ∨ y ∈ l := by
  induction l with
  | nil => intro init y h; exact Or.inl h
  | cons b rest ih =>
    intro init y h
    simp only [List.foldl_cons] at h
    rcases ih _ y h with h1 | h1
    · rcases set_insert_subset lt b init y h1 with h2 | h2
      · exact Or.inr (by rw [h2]; exact List.mem_cons_self _ _)
      · exact Or.inl h2
    · exact Or.inr (List.mem_cons_of_mem _ h1)

theorem all_some_map {α β : Type} (f : α → Option β) (l : List α)
    (h : ∀ x ∈ l, ∃ y, f x = some y) :
    ∃ r, all_some (l.map f) = some r ∧ ∀ t ∈ r, ∃ x ∈ l, f x = some t := by
  induction l with
  | nil => exact ⟨[], rfl, fun t ht => by simp at ht⟩
  | cons a rest ih =>
    obtain ⟨y, hy⟩ := h a (List.mem_cons_self _ _)
    obtain ⟨r, hr, hm⟩ := ih (fun x hx => h x (List.mem_cons_of_mem _ hx))
    refine ⟨y :: r, ?_, ?_⟩
    · simp only [List.map_cons, hy, all_some, hr]
    · intro t ht
      rcases List.mem_cons.mp ht with h1 | h1
      · exact ⟨a, List.mem_cons_self _ _, by rw [h1]; exact hy⟩
      · obtain ⟨x, hx, hfx⟩ := hm t h1
        exact ⟨x, List.mem_cons_of_mem _ hx, hfx⟩

theorem store_sides_resolvable (g : VG) (hs : store_consistent g) : sides_resolvable g := by
  intro n x hx
  rcases hx with h | h
  · exact (has_node_iff g x.1).mp (start_neighbour_present g hs n x h)
  · exact (has_node_iff g x.1).mp (end_neighbour_present g hs n x h)

theorem nodes_next_some (g : VG) (hr : sides_resolvable g) (node : NodeTraversal) :
    ∃ l, nodes_next g node = some l ∧
      ∀ t ∈ l, ∃ x ∈ (if node.backward then edges_start g node.node.id
          else edges_end g node.node.id),
        get_node g x.1 = some t.node ∧ t.backward = (x.2 != node.backward) := by
  unfold nodes_next
  obtain ⟨r, h1, h2⟩ := all_some_map
    (fun next : Int × Bool =>
      (get_node g next.1).map (fun nd => (⟨nd, next.2 != node.backward⟩ : NodeTraversal)))
    (if node.backward then edges_start g node.node.id else edges_end g node.node.id)
    (by
      intro x hx
      have hx2 : x ∈ edges_start g node.node.id ∨ x ∈ edges_end g node.node.id := by
        split_ifs at hx
        · exact Or.inl hx
        · exact Or.inr hx
      obtain ⟨nd, hnd⟩ := hr _ x hx2
      exact ⟨_, by simp only [hnd]; rfl⟩)
  refine ⟨r, h1, fun t ht => ?_⟩
  obtain ⟨x, hx, hfx⟩ := h2 t ht
  refine ⟨x, hx, ?_⟩
  cases hg : get_node g x.1 with
  | none => rw [hg] at hfx; exact Option.noConfusion hfx
  | some nd =>
    rw [hg] at hfx
    simp only [Option.map_some', Option.some.injEq] at hfx
    subst hfx
    exact ⟨rfl, rfl⟩

theorem nodes_prev_some (g : VG) (hr : sides_resolvable g) (node : NodeTraversal) :
    ∃ l, nodes_prev g node = some l ∧
      ∀ t ∈ l, ∃ x ∈ (if node.backward then edges_end g node.node.id
          else edges_start g node.node.id),
        get_node g x.1 = some t.node ∧ t.backward = (x.2 != node.backward) := by
  unfold nodes_prev
  obtain ⟨r, h1, h2⟩ := all_some_map
    (fun prev : Int × Bool =>
      (get_node g prev.1).map (fun nd => (⟨nd, prev.2 != node.backward⟩ : NodeTraversal)))
    (if node.backward then edges_end g node.node.id else edges_start g node.node.id)
    (by
      intro x hx
      have hx2 : x ∈ edges_start g node.node.id ∨ x ∈ edges_end g node.node.id := by
        split_ifs at hx
        · exact Or.inr hx
        · exact Or.inl hx
      obtain ⟨nd, hnd⟩ := hr _ x hx2
      exact ⟨_, by simp only [hnd]; rfl⟩)
  refine ⟨r, h1, fun t ht => ?_⟩
  obtain ⟨x, hx, hfx⟩ := h2 t ht
  refine ⟨x, hx, ?_⟩
  cases hg : get_node g x.1 with
  | none => rw [hg] at hfx; exact Option.noConfusion hfx
  | some nd =>
    rw [hg] at hfx
    simp only [Option.map_some', Option.some.injEq] at hfx
    subst hfx
    exact ⟨rfl, rfl⟩

theorem travs_from_some (g : VG) (hs : store_consistent g) (node : NodeTraversal) :
    ∃ l, travs_from g node = some l ∧ ∀ t ∈ l, t.node ∈ g.node := by
  obtain ⟨l, h1, h2⟩ := nodes_next_some g (store_sides_resolvable g hs) node
  unfold travs_from
  rw [h1]
  refine ⟨_, rfl, fun t ht => ?_⟩
  rcases foldl_set_insert_subset NodeTraversal.lt l [] t ht with h | h
  · simp at h
  · obtain ⟨x, _, hx, _⟩ := h2 t h
    exact (hs.nodes_ok.by_id_sound _ _ hx).1

theorem travs_to_some (g : VG) (hs : store_consistent g) (node : NodeTraversal) :
    ∃ l, travs_to g node = some l ∧ ∀ t ∈ l, t.node ∈ g.node := by
  obtain ⟨l, h1, h2⟩ := nodes_prev_some g (store_sides_resolvable g hs) node
  unfold travs_to
  rw [h1]
  refine ⟨_, rfl, fun t ht => ?_⟩
  rcases foldl_set_insert_subset NodeTraversal.lt l [] t ht with h | h
  · simp at h
  · obtain ⟨x, _, hx, _⟩ := h2 t h
    exact (hs.nodes_ok.by_id_sound _ _ hx).1

theorem travs_of_some (g : VG) (hs : store_consistent g) (node : NodeTraversal) :
    ∃ l, travs_of g node = some l ∧ ∀ t ∈ l, t.node ∈ g.node := by
  obtain ⟨l1, h1, m1⟩ := travs_to_some g hs node
  obtain ⟨l2, h2, m2⟩ := travs_from_some g hs node
  unfold travs_of
  rw [h1, h2]
  refine ⟨_, rfl, fun t ht => ?_⟩
  rcases foldl_set_insert_subset NodeTraversal.lt l2 l1 t ht with h | h
  · exact m1 t h
  · exact m2 t h

theorem foldl_option_some {σ β : Type} (step : Option σ → β → Option σ) (l : List β)
    (h : ∀ t ∈ l, ∀ s, ∃ s2, step (some s) t = some s2) :
    ∀ s, ∃ s2, l.foldl step (some s) = some s2 := by
  induction l with
  | nil => intro s; exact ⟨s, rfl⟩
  | cons t rest ih =>
    intro s
    obtain ⟨s1, h1⟩ := h t (List.mem_cons_self _ _) s
    simp only [List.foldl_cons, h1]
    exact ih (fun t2 ht2 => h t2 (List.mem_cons_of_mem _ ht2)) s1

theorem foldl_option_ne_none {σ β : Type} (step : Option σ → β → Option σ) (l : List β)
    (h : ∀ t ∈ l, ∀ s, ∃ s2, step (some s) t = some s2) (s : σ) :
    l.foldl step (some s) ≠ none := by
  obtain ⟨s2, h2⟩ := foldl_option_some step l h s
  rw [h2]
  exact fun h => Option.noConfusion h

theorem foldl_option_some_twice {σ β : Type} (step1 step2 : Option σ → β → Option σ)
    (l1 l2 : List β)
    (h1 : ∀ t ∈ l1, ∀ s, ∃ s2, step1 (some s) t = some s2)
    (h2 : ∀ t ∈ l2, ∀ s, ∃ s2, step2 (some s) t = some s2) (s : σ) :
    ∃ s2, l2.foldl step2 (l1.foldl step1 (some s)) = some s2 := by
  obtain ⟨s1, e1⟩ := foldl_option_some step1 l1 h1 s
  rw [e1]
  exact foldl_option_some step2 l2 h2 s1

theorem to_int_id (x : Int) (h0 : -(2 ^ 31) ≤ x) (h1 : x < 2 ^ 31) : to_int x = x := by
  unfold to_int
  omega

theorem to_int_lt (x : Int) : to_int x < 2 ^ 31 := by
  unfold to_int
  omega

theorem walk_some (g : VG) (hs : store_consistent g)
    (hseq : ∀ n ∈ g.node, 1 ≤ n.sequence.length ∧ (n.sequence.length : Int) < 2 ^ 31) :
    ∀ (fuel : Nat) (curr : NodeTraversal) (length : Int) (st : WalkState),
      0 < fuel → length < fuel → length < 2 ^ 31 → ∃ st2, walk g fuel curr length st = some st2 := by
  intro fuel
  induction fuel with
  | zero => intro _ _ _ h; exact absurd h (by decide)
  | succ fuel ih =>
    intro curr length st _ hlt h31
    rw [walk]
    simp only []
    split_ifs with hstop
    · exact ⟨_, rfl⟩
    · have hpos : 0 < length := by
        by_contra hneg
        exact hstop (Or.inl (by omega))
      obtain ⟨froms, hf, mf⟩ := travs_from_some g hs curr
      obtain ⟨tos, ht, mt⟩ := travs_to_some g hs curr
      rw [hf, ht]
      simp only []
      have hrec : ∀ t : NodeTraversal, t.node ∈ g.node → ∀ s : WalkState,
          ∃ s2, walk g fuel t (to_int (length - (t.node.sequence.length : Int))) s = some s2 := by
        intro t hn s
        obtain ⟨b1, b2⟩ := hseq t.node hn
        have hb1 : (1 : Int) ≤ (t.node.sequence.length : Int) := by exact_mod_cast b1
        have hid := to_int_id (length - (t.node.sequence.length : Int)) (by omega) (by omega)
        rw [hid]
        have hfl : (0 : Int) < (fuel : Int) := by push_cast at hlt; omega
        exact ih t _ s (by exact_mod_cast hfl) (by push_cast at hlt; omega) (by omega)
      exact foldl_option_some_twice _ _ froms tos
        (by
          intro t htm s
          simp only []
          split_ifs
          · exact hrec t (mf t htm) _
          · exact ⟨_, rfl⟩)
        (by
          intro t htm s
          simp only []
          split_ifs
          · exact hrec t (mt t htm) _
          · exact ⟨_, rfl⟩)
        _

theorem walk_all_some (g : VG) (hs : store_consistent g)
    (hseq : ∀ n ∈ g.node, 1 ≤ n.sequence.length ∧ (n.sequence.length : Int) < 2 ^ 31)
    (fuel : Nat) (max_length : Int) (hfuel : to_int max_length < fuel) (h0 : 0 < fuel) :
    ∀ (nodes : List Node) (st : WalkState), ∃ st2, walk_all g fuel max_length nodes st = some st2 := by
  intro nodes
  induction nodes with
  | nil => intro st; exact ⟨st, rfl⟩
  | cons node rest ih =>
    intro st
    obtain ⟨travs, h1, _⟩ := travs_of_some g hs ⟨node, false⟩
    rw [walk_all]
    simp only [h1]
    split
    · rename_i heq
      exact absurd heq (foldl_option_ne_none _ travs
        (by
          intro t _ s
          simp only []
          split_ifs
          · exact walk_some g hs hseq fuel t _ s h0 hfuel (to_int_lt _)
          · exact ⟨_, rfl⟩)
        st)
    · exact ih _

theorem unfold_returns (rc : List Char → List Char) (fuel : Nat) (g : VG) (max_length : Int)
    (nt : List (Int × (Int × Bool))) (hs : store_consistent g)
    (hseq : ∀ n ∈ g.node, 1 ≤ n.sequence.length ∧ (n.sequence.length : Int) < 2 ^ 31)
    (hfuel : to_int max_length < fuel) (h0 : 0 < fuel) :
    ∃ r, unfold rc fuel g max_length nt = some r := by
  unfold unfold
  simp only []
  split_ifs
  · exact ⟨_, rfl⟩
  · obtain ⟨st, hst⟩ := walk_all_some g hs hseq fuel max_length hfuel h0 g.node ⟨[], [], [], [], []⟩
    rw [hst]
    exact ⟨_, rfl⟩

theorem inversion_graph_store : store_consistent inversion_graph := by
  have h0 : store_consistent VG.empty ∧ counter_ahead VG.empty :=
    ⟨empty_store_consistent, by unfold counter_ahead; exact ⟨by decide, fun _ h => by simp [VG.empty] at h⟩⟩
  have h1 := create_node_inv VG.empty "AAAA".toList 0 h0.1 h0.2 (Or.inl rfl)
  have h2 := create_node_inv _ "CCCC".toList 0 h1.1 h1.2 (Or.inl rfl)
  exact (create_edge_inv _ 1 2 false true h2.1 h2.2 (by decide) (by decide)).1

theorem inversion_graph_nodes :
    inversion_graph.node = [⟨1, "AAAA".toList⟩, ⟨2, "CCCC".toList⟩] := by
  decide

theorem inversion_graph_sequences :
    ∀ n ∈ inversion_graph.node, 1 ≤ n.sequence.length ∧ (n.sequence.length : Int) < 2 ^ 31 := by
  intro n hn
  rw [inversion_graph_nodes] at hn
  simp only [List.mem_cons, List.mem_singleton, List.not_mem_nil, or_false] at hn
  rcases hn with h | h <;> subst h <;> exact ⟨by decide, by decide⟩

/-- C21: on a graph whose edge store and indexes agree, every edge of the
graph that `unfold` returns is a plain end-to-start edge (neither flag set),
whatever `max_length` is; and on a consistent store whose node sequences are
non-empty (and shorter than 2^31) `unfold` returns as soon as the recursion
bound exceeds `max_length`. -/
theorem unfold_leaves_plain_edges (reverse_complement : List Char → List Char) (g : VG)
    (max_length : Int) (node_translation : List (Int × (Int × Bool)))
    (hc : edges_consistent g) :
    (∀ fuel r, unfold reverse_complement fuel g max_length node_translation = some r →
      ∀ e ∈ r.1.edge, e.from_start = false ∧ e.to_end = false)
    ∧ (store_consistent g →
        (∀ n ∈ g.node, 1 ≤ n.sequence.length ∧ (n.sequence.length : Int) < 2 ^ 31) →
        ∀ fuel : Nat, 0 < fuel → to_int max_length < fuel →
          ∃ r, unfold reverse_complement fuel g max_length node_translation = some r) :=
  ⟨fun fuel r hr => unfold_edges_plain reverse_complement fuel g max_length node_translation hc r hr,
   fun hs hseq fuel h0 hfuel =>
    unfold_returns reverse_complement fuel g max_length node_translation hs hseq hfuel h0⟩

theorem unfold_leaves_plain_edges_witness :
    edges_consistent inversion_graph
    ∧ ∃ r, unfold dna_reverse_complement 10 inversion_graph 8 [] = some r
        ∧ ∀ e ∈ r.1.edge, e.from_start = false ∧ e.to_end = false :=
  ⟨inversion_graph_store.edges_ok,
   ((unfold_leaves_plain_edges dna_reverse_complement inversion_graph 8 []
      inversion_graph_store.edges_ok).2 inversion_graph_store inversion_graph_sequences 10
      (by decide) (by decide)).elim
    (fun r hr => ⟨r, hr,
      (unfold_leaves_plain_edges dna_reverse_complement inversion_graph 8 []
        inversion_graph_store.edges_ok).1 10 r hr⟩)⟩

theorem foldl_option_inv {σ β : Type} (Q : σ → Prop) (step : Option σ → β → Option σ)
    (l : List β)
    (hnone : ∀ t, step none t = none)
    (h : ∀ t ∈ l, ∀ s s2, Q s → step (some s) t = some s2 → Q s2) :
    ∀ (acc : Option σ) (r : σ), (∀ s, acc = some s → Q s) → l.foldl step acc = some r → Q r := by
  induction l with
  | nil => intro acc r hacc hr; exact hacc r hr
  | cons t rest ih =>
    intro acc r hacc hr
    simp only [List.foldl_cons] at hr
    refine ih (fun t2 ht2 => h t2 (List.mem_cons_of_mem _ ht2)) (step acc t) r ?_ hr
    intro s hs
    cases acc with
    | none => rw [hnone] at hs; exact Option.noConfusion hs
    | some s0 => exact h t (List.mem_cons_self _ _) s0 s (hacc s0 rfl) hs

theorem walk_travs (g : VG) (hs : store_consistent g) :
    ∀ (fuel : Nat) (curr : NodeTraversal) (length : Int) (st st2 : WalkState),
      curr.backward = true → curr.node ∈ g.node →
      (∀ t ∈ st.travs_to_flip, t.backward = true ∧ t.node ∈ g.node) →
      walk g fuel curr length st = some st2 →
      ∀ t ∈ st2.travs_to_flip, t.backward = true ∧ t.node ∈ g.node := by
  intro fuel
  induction fuel with
  | zero => intro curr length st st2 _ _ _ h; rw [walk] at h; exact Option.noConfusion h
  | succ fuel ih =>
    intro curr length st st2 hb hn hst h
    have hins : ∀ t ∈ set_insert NodeTraversal.lt curr st.travs_to_flip,
        t.backward = true ∧ t.node ∈ g.node := by
      intro t ht
      rcases set_insert_subset _ _ _ _ ht with h1 | h1
      · rw [h1]; exact ⟨hb, hn⟩
      · exact hst t h1
    rw [walk] at h
    simp only [] at h
    split_ifs at h with hstop
    · simp only [Option.some.injEq] at h
      subst h
      exact hins
    · obtain ⟨froms, hf, mf⟩ := travs_from_some g hs curr
      obtain ⟨tos, ht, mt⟩ := travs_to_some g hs curr
      rw [hf, ht] at h
      simp only [] at h
      refine foldl_option_inv
        (fun s : WalkState => ∀ t ∈ s.travs_to_flip, t.backward = true ∧ t.node ∈ g.node)
        _ tos ?_ ?_ _ st2 ?_ h
      · intro t; rfl
      · intro t htm s s2 hq hstep
        simp only [] at hstep
        split_ifs at hstep with hbk
        · refine ih t _ _ s2 hbk (mt t htm) ?_ hstep
          exact hq
        · simp only [Option.some.injEq] at hstep
          subst hstep
          exact hq
      · intro s0 hs0
        refine foldl_option_inv
          (fun s : WalkState => ∀ t ∈ s.travs_to_flip, t.backward = true ∧ t.node ∈ g.node)
          _ froms ?_ ?_ _ s0 ?_ hs0
        · intro t; rfl
        · intro t htm s s2 hq hstep
          simp only [] at hstep
          split_ifs at hstep with hbk
          · refine ih t _ _ s2 hbk (mf t htm) ?_ hstep
            exact hq
          · simp only [Option.some.injEq] at hstep
            subst hstep
            exact hq
        · intro s hsome
          simp only [Option.some.injEq] at hsome
          subst hsome
          exact hins

theorem walk_all_travs (g : VG) (hs : store_consistent g) (fuel : Nat) (max_length : Int) :
    ∀ (nodes : List Node) (st st2 : WalkState),
      (∀ t ∈ st.travs_to_flip, t.backward = true ∧ t.node ∈ g.node) →
      walk_all g fuel max_length nodes st = some st2 →
      ∀ t ∈ st2.travs_to_flip, t.backward = true ∧ t.node ∈ g.node := by
  intro nodes
  induction nodes with
  | nil =>
    intro st st2 hst h
    simp only [walk_all, Option.some.injEq] at h
    subst h
    exact hst
  | cons node rest ih =>
    intro st st2 hst h
    obtain ⟨travs, h1, m1⟩ := travs_of_some g hs ⟨node, false⟩
    rw [walk_all] at h
    simp only [h1] at h
    split at h
    · exact Option.noConfusion h
    · rename_i st1 heq
      refine ih st1 st2 ?_ h
      refine foldl_option_inv
        (fun s : WalkState => ∀ t ∈ s.travs_to_flip, t.backward = true ∧ t.node ∈ g.node)
        _ travs ?_ ?_ _ st1 ?_ heq
      · intro t; rfl
      · intro t htm s s2 hq hstep
        simp only [] at hstep
        split_ifs at hstep with hbk
        · exact walk_travs g hs fuel t _ s s2 hbk (m1 t htm) hq hstep
        · simp only [Option.some.injEq] at hstep
          subst hstep
          exact hq
      · intro s hsome
        simp only [Option.some.injEq] at hsome
        subst hsome
        exact hst

theorem create_node_handle (g : VG) (seq : List Char) (id : Int) :
    (create_node g seq id).2.sequence = seq := by
  unfold create_node
  rfl

theorem add_flipped_spec (rc : List Char → List Char) (l : List NodeTraversal) :
    ∀ (s : VG × List (Int × (Int × Bool)) × List (NodeTraversal × Int)),
      1 ≤ s.1.current_id →
      ∃ added, (add_flipped rc l s).1.node = s.1.node ++ added
        ∧ (∀ n ∈ added, next_id s.1 ≤ n.id
            ∧ ∃ t ∈ l, map_find (add_flipped rc l s).2.1 n.id = some (t.node.id, t.backward)
                ∧ n.sequence = rc t.node.sequence)
        ∧ (∀ k, k < next_id s.1 → map_find (add_flipped rc l s).2.1 k = map_find s.2.1 k) := by
  induction l with
  | nil =>
    intro s _
    exact ⟨[], by simp [add_flipped], fun n hn => by simp at hn, fun k _ => rfl⟩
  | cons t rest ih =>
    intro s hcur
    obtain ⟨a1, a2, a3⟩ := create_node_alloc s.1 (rc t.node.sequence) hcur
    have hnode := (create_node_node_fields s.1 (rc t.node.sequence) 0).1
    obtain ⟨added, e1, e2, e3⟩ := ih
      ((create_node s.1 (rc t.node.sequence) 0).1,
        map_insert s.2.1 (create_node s.1 (rc t.node.sequence) 0).2.id (t.node.id, t.backward),
        map_insert s.2.2 t (create_node s.1 (rc t.node.sequence) 0).2.id) a3
    simp only [] at e1 e2 e3
    rw [a2] at e2 e3
    refine ⟨(create_node s.1 (rc t.node.sequence) 0).2 :: added, ?_, ?_, ?_⟩
    · simp only [add_flipped]
      rw [e1, hnode, List.append_assoc, List.singleton_append]
    · intro n hn
      rcases List.mem_cons.mp hn with h | h
      · subst h
        refine ⟨by rw [a1], t, List.mem_cons_self _ _, ?_, create_node_handle _ _ _⟩
        simp only [add_flipped]
        rw [e3 _ (by rw [a1]; omega), map_find_insert, if_pos rfl]
      · obtain ⟨b1, t2, ht2, b2, b3⟩ := e2 n h
        exact ⟨by omega, t2, List.mem_cons_of_mem _ ht2, by simp only [add_flipped]; exact b2, b3⟩
    · intro k hk
      simp only [add_flipped]
      rw [e3 k (by omega), map_find_insert, if_neg (by rw [a1]; omega)]

theorem foldl_add_edge_node {α : Type} (f : α → Edge) (l : List α) :
    ∀ (g : VG), (l.foldl (fun u e => add_edge u (f e)) g).node = g.node := by
  induction l with
  | nil => intro g; rfl
  | cons x rest ih =>
    intro g
    simp only [List.foldl_cons]
    rw [ih, add_edge_eq_create_edge]
    exact (create_edge_frame _ _ _ _ _).1

theorem destroy_edges_fold_node (l : List (NodeSide × NodeSide)) :
    ∀ (g : VG), edges_consistent g →
      (l.foldl (fun g edge => destroy_edge g edge.1 edge.2) g).node = g.node := by
  induction l with
  | nil => intro g _; rfl
  | cons p rest ih =>
    intro g hc
    obtain ⟨d1, _, _, _, d5, _⟩ := destroy_edge_spec g hc p.1 p.2
    simp only [List.foldl_cons]
    rw [ih _ d1, d5]

theorem unfold_nodes (rc : List Char → List Char) (fuel : Nat) (g : VG) (max_length : Int)
    (nt : List (Int × (Int × Bool))) (hs : store_consistent g) (hcur : 1 ≤ g.current_id)
    (r : VG × List (Int × (Int × Bool))) (hr : unfold rc fuel g max_length nt = some r) :
    ∃ added, r.1.node = g.node ++ added
      ∧ ∀ n ∈ added, ∃ orig ∈ g.node,
          map_find r.2 n.id = some (orig.id, true) ∧ n.sequence = rc orig.sequence := by
  obtain ⟨_, fn, _, fc⟩ := flip_edges_list g
  have hf : edges_consistent (flip_doubly_reversed_edges g)
      ∧ no_doubly_reversed (flip_doubly_reversed_edges g) :=
    ⟨flip_consistent g hs.edges_ok, flip_no_doubly g⟩
  unfold unfold at hr
  simp only at hr
  split_ifs at hr with hinv
  · simp only [Option.some.injEq] at hr
    subst hr
    exact ⟨[], by simp [fn], fun n hn => by simp at hn⟩
  · cases hw : walk_all g fuel max_length g.node ⟨[], [], [], [], []⟩ with
    | none => rw [hw] at hr; exact Option.noConfusion hr
    | some st =>
      rw [hw] at hr
      simp only [Option.some.injEq] at hr
      subst hr
      have htr := walk_all_travs g hs fuel max_length g.node ⟨[], [], [], [], []⟩ st
        (fun t ht => by simp at ht) hw
      obtain ⟨added, e1, e2, _⟩ := add_flipped_spec rc st.travs_to_flip
        (flip_doubly_reversed_edges g, nt, []) (by simp only [fc]; exact hcur)
      have h0 := add_flipped_edges rc st.travs_to_flip
        (flip_doubly_reversed_edges g, nt, []) hf
      have h1 := foldl_add_plain_edges
        (fun e : NodeTraversal × NodeTraversal =>
          inv_at (add_flipped rc st.travs_to_flip (flip_doubly_reversed_edges g, nt, [])).2.2 e.1)
        (fun e => inv_at
          (add_flipped rc st.travs_to_flip (flip_doubly_reversed_edges g, nt, [])).2.2 e.2)
        st.edges_to_flip _ h0
      have h2 := foldl_add_plain_edges
        (fun e : NodeTraversal × NodeTraversal =>
          inv_at (add_flipped rc st.travs_to_flip (flip_doubly_reversed_edges g, nt, [])).2.2 e.1)
        (fun e => e.2.node.id) st.edges_to_forward _ h1
      have h3 := foldl_add_plain_edges
        (fun e : NodeTraversal × NodeTraversal => e.1.node.id)
        (fun e => inv_at
          (add_flipped rc st.travs_to_flip (flip_doubly_reversed_edges g, nt, [])).2.2 e.2)
        st.edges_from_forward _ h2
      refine ⟨added, ?_, ?_⟩
      · simp only []
        unfold remove_inverting_edges
        rw [destroy_edges_fold_node _ _ h3.1, foldl_add_edge_node, foldl_add_edge_node,
          foldl_add_edge_node, e1, fn]
      · intro n hn
        obtain ⟨_, t, ht, b2, b3⟩ := e2 n hn
        obtain ⟨c1, c2⟩ := htr t ht
        rw [c1] at b2
        exact ⟨t.node, c2, b2, b3⟩

/-- C22: on a consistent store whose id counter is at least 1, the nodes of
the graph that `unfold` returns are the nodes of the input followed by added
nodes, and every added node is recorded in the translation as (id of an
original node, reversed) and carries the reverse complement of the sequence
of that node.  For `AAAA` and `CCCC` joined by the reversing edge between
their ends and `max_length = 8` the result holds the clone 4 = `GGGG`, the
plain edge from node 1 to node 4, no reversing edge, and the translation
4 -> (2, reversed). -/
theorem unfold_clones_reverse_complement (reverse_complement : List Char → List Char)
    (fuel : Nat) (g : VG) (max_length : Int) (node_translation : List (Int × (Int × Bool))) :
    (store_consistent g → 1 ≤ g.current_id →
      ∀ r, unfold reverse_complement fuel g max_length node_translation = some r →
        ∃ added, r.1.node = g.node ++ added
          ∧ ∀ n ∈ added, ∃ orig ∈ g.node,
              map_find r.2 n.id = some (orig.id, true)
              ∧ n.sequence = reverse_complement orig.sequence)
    ∧ (unfold dna_reverse_complement 10 inversion_graph 8 []).map
          (fun r => (r.1.node, r.1.edge, r.2))
        = some ([⟨1, "AAAA".toList⟩, ⟨2, "CCCC".toList⟩, ⟨3, "TTTT".toList⟩,
              ⟨4, "GGGG".toList⟩],
            [⟨2, 3, false, false⟩, ⟨1, 4, false, false⟩],
            [(4, (2, true)), (3, (1, true))]) :=
  ⟨fun hs hcur r hr =>
      unfold_nodes reverse_complement fuel g max_length node_translation hs hcur r hr,
   by decide⟩

theorem unfold_clones_reverse_complement_witness :
    store_consistent inversion_graph ∧ 1 ≤ inversion_graph.current_id
    ∧ ∃ r, unfold dna_reverse_complement 10 inversion_graph 8 [] = some r
        ∧ ∃ added, r.1.node = inversion_graph.node ++ added
          ∧ ∀ n ∈ added, ∃ orig ∈ inversion_graph.node,
              map_find r.2 n.id = some (orig.id, true)
              ∧ n.sequence = dna_reverse_complement orig.sequence :=
  ⟨inversion_graph_store, by decide,
   (unfold_returns dna_reverse_complement 10 inversion_graph 8 [] inversion_graph_store
      inversion_graph_sequences (by decide) (by decide)).elim
    (fun r hr => ⟨r, hr,
      (unfold_clones_reverse_complement dna_reverse_complement 10 inversion_graph 8 []).1
        inversion_graph_store (by decide) r hr⟩)⟩

theorem unindex_side_nonempty (m : List (Int × List (Int × Bool))) (id : Int) (x : Int × Bool)
    (h : ∀ p ∈ m, p.2 ≠ []) : ∀ p ∈ unindex_side m id x, p.2 ≠ [] := by
  unfold unindex_side
  cases map_find m id with
  | none => exact h
  | some v =>
    simp only []
    split_ifs with he
    · intro p hp
      unfold map_erase at hp
      exact h p (List.mem_filter.mp hp).1
    · intro p hp
      unfold map_insert at hp
      rcases List.mem_cons.mp hp with h1 | h1
      · subst h1
        simpa [List.isEmpty_iff] using he
      · unfold map_erase at h1
        exact h p (List.mem_filter.mp h1).1

theorem unindex_edge_nonempty (g : VG) (e : Edge)
    (h : (∀ p ∈ g.edges_on_start, p.2 ≠ []) ∧ (∀ p ∈ g.edges_on_end, p.2 ≠ [])) :
    (∀ p ∈ (unindex_edge_by_node_sides g e).edges_on_start, p.2 ≠ [])
    ∧ (∀ p ∈ (unindex_edge_by_node_sides g e).edges_on_end, p.2 ≠ []) := by
  obtain ⟨hs, he⟩ := h
  unfold unindex_edge_by_node_sides
  simp only []
  split_ifs <;>
    first
    | exact ⟨hs, he⟩
    | exact ⟨unindex_side_nonempty _ _ _ hs, he⟩
    | exact ⟨hs, unindex_side_nonempty _ _ _ he⟩
    | exact ⟨unindex_side_nonempty _ _ _ hs, unindex_side_nonempty _ _ _ he⟩
    | exact ⟨unindex_side_nonempty _ _ _ (unindex_side_nonempty _ _ _ hs), he⟩
    | exact ⟨hs, unindex_side_nonempty _ _ _ (unindex_side_nonempty _ _ _ he)⟩

theorem unindex_edge_index (g : VG) (hI : index_consistent g) (e : Edge)
    (hhas : has_edge_rec g e = true) :
    index_consistent (unindex_edge_by_node_sides g e)
    ∧ (unindex_edge_by_node_sides g e).edge_by_sides
        = map_erase g.edge_by_sides (pair_from_edge e)
    ∧ (unindex_edge_by_node_sides g e).node_by_id = g.node_by_id := by
  obtain ⟨_, _, hu3, _, _, _, _, hu8⟩ := unindex_edge_fields g e hhas
  have hstart := fun n => unindex_edge_start g e n hhas
  have hend := fun n => unindex_edge_end g e n hhas
  obtain ⟨hne1, hne2⟩ := unindex_edge_nonempty g e ⟨hI.start_nonempty, hI.end_nonempty⟩
  refine ⟨⟨?_, ?_, ?_, ?_, ?_, hne1, hne2, ?_, ?_⟩, hu8, hu3⟩
  · intro p e2 hp
    rw [hu8, map_find_erase] at hp
    split_ifs at hp
    exact hI.by_sides_pair p e2 hp
  · intro n
    rw [hstart]
    exact (foldl_swap_remove_spec _ _ (hI.start_nodup n)).1
  · intro n x
    rw [hstart, (foldl_swap_remove_spec _ _ (hI.start_nodup n)).2, mem_start_entries, hu8,
      map_find_erase, hI.start_iff]
    by_cases hpe : pair_from_start_edge n x = pair_from_edge e
    · simp [hpe]
    · have : ¬ pair_from_edge e = pair_from_start_edge n x := fun h => hpe h.symm
      simp [hpe, this]
  · intro n
    rw [hend]
    exact (foldl_swap_remove_spec _ _ (hI.end_nodup n)).1
  · intro n x
    rw [hend, (foldl_swap_remove_spec _ _ (hI.end_nodup n)).2, mem_end_entries, hu8,
      map_find_erase, hI.end_iff]
    by_cases hpe : pair_from_end_edge n x = pair_from_edge e
    · simp [hpe]
    · have : ¬ pair_from_edge e = pair_from_end_edge n x := fun h => hpe h.symm
      simp [hpe, this]
  · intro n x hx
    have hold : x ∈ edges_start g n ∨ x ∈ edges_end g n := by
      rcases hx with h | h
      · rw [hstart, (foldl_swap_remove_spec _ _ (hI.start_nodup n)).2] at h
        exact Or.inl h.1
      · rw [hend, (foldl_swap_remove_spec _ _ (hI.end_nodup n)).2] at h
        exact Or.inr h.1
    obtain ⟨nd, hnd⟩ := hI.resolvable n x hold
    exact ⟨nd, by unfold get_node at hnd ⊢; rw [hu3]; exact hnd⟩
  · intro id nd hnd
    unfold get_node at hnd
    rw [hu3] at hnd
    exact hI.by_id_sound id nd hnd

theorem unindex_ptr_index (g : VG) (hI : index_consistent g) (a b : NodeSide) :
    index_consistent (unindex_edge_ptr g (get_edge g a b))
    ∧ (∀ p, map_find (unindex_edge_ptr g (get_edge g a b)).edge_by_sides p
        = if minmax a b = p then none else map_find g.edge_by_sides p)
    ∧ (unindex_edge_ptr g (get_edge g a b)).node_by_id = g.node_by_id := by
  cases h : get_edge g a b with
  | none =>
    refine ⟨hI, fun p => ?_, rfl⟩
    simp only [unindex_edge_ptr]
    split_ifs with hp
    · rw [← hp]; exact h
    · rfl
  | some e =>
    have hp : pair_from_edge e = minmax a b := hI.by_sides_pair _ e h
    have hhas : has_edge_rec g e = true := by
      unfold has_edge_rec
      rw [hp]
      unfold get_edge at h
      rw [h]; rfl
    obtain ⟨h1, h2, h3⟩ := unindex_edge_index g hI e hhas
    refine ⟨h1, fun p => ?_, h3⟩
    simp only [unindex_edge_ptr]
    rw [h2, map_find_erase, hp]

theorem left_list_iff (g : VG) (hI : index_consistent g) (n : NodeTraversal) (x : Int × Bool) :
    x ∈ (if n.backward then edges_end g n.node.id else edges_start g n.node.id) ↔
      (map_find g.edge_by_sides
        (minmax ⟨x.1, !(x.2 != n.backward)⟩ (left_side n))).isSome = true := by
  unfold left_side
  cases hb : n.backward
  · simp only [Bool.false_eq_true, if_false]
    rw [hI.start_iff, minmax_comm]
    unfold pair_from_start_edge
    cases x.2 <;> exact Iff.rfl
  · simp only [if_true]
    rw [hI.end_iff, minmax_comm]
    unfold pair_from_end_edge
    cases x.2 <;> exact Iff.rfl

theorem right_list_iff (g : VG) (hI : index_consistent g) (n : NodeTraversal) (x : Int × Bool) :
    x ∈ (if n.backward then edges_start g n.node.id else edges_end g n.node.id) ↔
      (map_find g.edge_by_sides
        (minmax (right_side n) ⟨x.1, x.2 != n.backward⟩)).isSome = true := by
  unfold right_side
  cases hb : n.backward
  · simp only [Bool.false_eq_true, if_false]
    rw [hI.end_iff]
    unfold pair_from_end_edge
    cases x.2 <;> exact Iff.rfl
  · simp only [if_true]
    rw [hI.start_iff]
    unfold pair_from_start_edge
    cases x.2 <;> exact Iff.rfl

theorem map_erase_length_le {κ ν : Type} [DecidableEq κ] (m : List (κ × ν)) (k : κ) :
    (map_erase m k).length ≤ m.length := by
  unfold map_erase
  exact List.length_filter_le _ _

theorem map_erase_length_lt {κ ν : Type} [DecidableEq κ] (m : List (κ × ν)) (k : κ)
    (h : (map_find m k).isSome = true) : (map_erase m k).length < m.length := by
  induction m with
  | nil => simp [map_find] at h
  | cons p rest ih =>
    obtain ⟨k1, v⟩ := p
    by_cases hk : k1 = k
    · subst hk
      have := map_erase_length_le rest k1
      simp only [map_erase, List.filter_cons, ne_eq, not_true_eq_false, decide_False,
        Bool.false_eq_true, if_false, List.length_cons] at this ⊢
      omega
    · have h2 : (map_find rest k).isSome = true := by
        simpa [map_find, hk] using h
      have := ih h2
      simp only [map_erase, List.filter_cons, ne_eq, hk, not_false_eq_true, decide_True,
        if_true, List.length_cons] at this ⊢
      omega

theorem map_insert_length_le {κ ν : Type} [DecidableEq κ] (m : List (κ × ν)) (k : κ) (v : ν) :
    (map_insert m k v).length ≤ m.length + 1 := by
  unfold map_insert
  have := map_erase_length_le m k
  simp only [List.length_cons]
  omega

theorem map_begin_mem {ν : Type} (m : List (Int × ν)) (p : Int × ν)
    (h : map_begin m = some p) : p ∈ m := by
  induction m generalizing p with
  | nil => simp [map_begin] at h
  | cons q rest ih =>
    unfold map_begin at h
    cases hr : map_begin rest with
    | none =>
      rw [hr] at h
      simp only [Option.some.injEq] at h
      rw [← h]; exact List.mem_cons_self _ _
    | some r =>
      rw [hr] at h
      simp only [] at h
      split_ifs at h
      · simp only [Option.some.injEq] at h
        rw [← h]; exact List.mem_cons_of_mem _ (ih r hr)
      · simp only [Option.some.injEq] at h
        rw [← h]; exact List.mem_cons_self _ _

theorem map_begin_none {ν : Type} (m : List (Int × ν)) (h : map_begin m = none) : m = [] := by
  cases m with
  | nil => rfl
  | cons q rest =>
    unfold map_begin at h
    cases hr : map_begin rest with
    | none => rw [hr] at h; exact Option.noConfusion h
    | some r =>
      rw [hr] at h
      simp only [] at h
      split_ifs at h

theorem map_find_isSome_of_mem {κ ν : Type} [DecidableEq κ] (m : List (κ × ν)) (p : κ × ν)
    (h : p ∈ m) : (map_find m p.1).isSome = true := by
  induction m with
  | nil => simp at h
  | cons q rest ih =>
    obtain ⟨k1, v⟩ := q
    by_cases hk : k1 = p.1
    · simp [map_find, hk]
    · rcases List.mem_cons.mp h with h1 | h1
      · rw [h1] at hk; exact absurd rfl hk
      · simpa [map_find, hk] using ih h1

theorem map_erase_mem {κ ν : Type} [DecidableEq κ] (m : List (κ × ν)) (k : κ) (p : κ × ν)
    (h : p ∈ map_erase m k) : p ∈ m := by
  unfold map_erase at h
  exact (List.mem_filter.mp h).1

theorem map_insert_mem {κ ν : Type} [DecidableEq κ] (m : List (κ × ν)) (k : κ) (v : ν)
    (p : κ × ν) (h : p ∈ map_insert m k v) : p = (k, v) ∨ p ∈ m := by
  unfold map_insert at h
  rcases List.mem_cons.mp h with h1 | h1
  · exact Or.inl h1
  · exact Or.inr (map_erase_mem m k p h1)

theorem topo_le_refl (st : TopoState) : topo_le st st :=
  ⟨rfl, fun _ _ h => h, fun _ h => h, Nat.le_refl _, Nat.le_refl _⟩

theorem topo_le_trans (a b c : TopoState) (h1 : topo_le a b) (h2 : topo_le b c) : topo_le a c :=
  ⟨by rw [h2.by_id, h1.by_id], fun p e h => h1.sides p e (h2.sides p e h),
   fun k h => h1.done k (h2.done k h), Nat.le_trans h2.unv h1.unv,
   Nat.le_trans h2.measure h1.measure⟩

theorem topo_le_none (a b : TopoState) (h : topo_le a b) (p : NodeSide × NodeSide)
    (hn : map_find a.g.edge_by_sides p = none) : map_find b.g.edge_by_sides p = none := by
  cases hb : map_find b.g.edge_by_sides p with
  | none => rfl
  | some e =>
    have := h.sides p e hb
    rw [hn] at this
    exact Option.noConfusion this

theorem no_done_pair_le (a b : TopoState) (h : topo_le a b) (hn : no_done_pair a) :
    no_done_pair b :=
  fun p e hp hd => hn p e (h.sides p e hp) ⟨h.done _ hd.1, h.done _ hd.2⟩

theorem topo_same (st st2 : TopoState) (hinv : topo_inv st) (hg : st2.g = st.g)
    (hs : st2.s = st.s) (hun : st2.unvisited = st.unvisited) :
    topo_inv st2 ∧ topo_le st st2 := by
  refine ⟨⟨by rw [hg]; exact hinv.idx, by rw [hs]; exact hinv.s_keys,
    by rw [hun]; exact hinv.u_keys, by rw [hs, hun]; exact hinv.disjoint⟩,
    ⟨by rw [hg], fun p e h => by rw [hg] at h; exact h, ?_, by rw [hun], by rw [hs, hun]⟩⟩
  intro k hk
  unfold topo_done at hk ⊢
  rw [hs, hun] at hk
  exact hk

theorem topo_unindex (st st2 : TopoState) (hinv : topo_inv st) (a b : NodeSide)
    (hg : st2.g = unindex_edge_ptr st.g (get_edge st.g a b))
    (hs : st2.s = st.s) (hun : st2.unvisited = st.unvisited) :
    topo_inv st2 ∧ topo_le st st2 ∧ map_find st2.g.edge_by_sides (minmax a b) = none := by
  obtain ⟨h1, h2, h3⟩ := unindex_ptr_index st.g hinv.idx a b
  refine ⟨⟨by rw [hg]; exact h1, by rw [hs]; exact hinv.s_keys,
    by rw [hun]; exact hinv.u_keys, by rw [hs, hun]; exact hinv.disjoint⟩,
    ⟨by rw [hg]; exact h3, ?_, ?_, by rw [hun], by rw [hs, hun]⟩, ?_⟩
  · intro p e h
    rw [hg, h2] at h
    split_ifs at h
    exact h
  · intro k hk
    unfold topo_done at hk ⊢
    rw [hs, hun] at hk
    exact hk
  · rw [hg, h2, if_pos rfl]

theorem topo_move (st st2 : TopoState) (hinv : topo_inv st) (k : Int) (t : NodeTraversal)
    (hk : t.node.id = k) (hu : (map_find st.unvisited k).isSome = true)
    (hg : st2.g = st.g) (hs : st2.s = map_insert st.s k t)
    (hun : st2.unvisited = map_erase st.unvisited k) :
    topo_inv st2 ∧ topo_le st st2 ∧ st2.unvisited.length < st.unvisited.length := by
  have hlt := map_erase_length_lt st.unvisited k hu
  have hle := map_insert_length_le st.s k t
  refine ⟨⟨by rw [hg]; exact hinv.idx, ?_, ?_, ?_⟩,
    ⟨by rw [hg], fun p e h => by rw [hg] at h; exact h, ?_, by rw [hun]; omega,
      by rw [hs, hun]; omega⟩, by rw [hun]; exact hlt⟩
  · intro p hp
    rw [hs] at hp
    rcases map_insert_mem _ _ _ _ hp with h | h
    · rw [h]; exact hk
    · exact hinv.s_keys p h
  · intro p hp
    rw [hun] at hp
    exact hinv.u_keys p (map_erase_mem _ _ _ hp)
  · intro k2 h2
    rw [hs, map_find_insert] at h2
    rw [hun, map_find_erase]
    split_ifs with hkk
    · rfl
    · rw [if_neg hkk] at h2
      exact hinv.disjoint k2 h2
  · intro k2 hd
    unfold topo_done at hd ⊢
    rw [hs, hun, map_find_erase, map_find_insert] at hd
    by_cases hkk : k = k2
    · rw [if_pos hkk, if_pos hkk] at hd
      exact absurd hd.2 (fun h => Option.noConfusion h)
    · rw [if_neg hkk, if_neg hkk] at hd
      exact hd

theorem unindex_prev_spec (n : NodeTraversal) (prev : List NodeTraversal) :
    ∀ st, topo_inv st →
      topo_inv (unindex_prev n st prev) ∧ topo_le st (unindex_prev n st prev)
      ∧ (unindex_prev n st prev).s = st.s
      ∧ (unindex_prev n st prev).unvisited = st.unvisited
      ∧ (unindex_prev n st prev).l = st.l
      ∧ ∀ t ∈ prev, map_find st.unvisited t.node.id = none →
          map_find (unindex_prev n st prev).g.edge_by_sides
            (minmax (right_side t) (left_side n)) = none := by
  induction prev with
  | nil =>
    intro st hinv
    exact ⟨hinv, topo_le_refl st, rfl, rfl, rfl, fun t ht => by simp at ht⟩
  | cons t rest ih =>
    intro st hinv
    unfold unindex_prev
    simp only [List.foldl_cons]
    by_cases hc : (map_find st.unvisited t.node.id).isNone = true
    · simp only [hc, if_true]
      obtain ⟨a1, a2, a3⟩ := topo_unindex st
        { st with g := unindex_edge_ptr st.g (get_edge_trav st.g t n) } hinv
        (right_side t) (left_side n) rfl rfl rfl
      obtain ⟨b1, b2, b3, b4, b5, b6⟩ := ih _ a1
      unfold unindex_prev at b1 b2 b3 b4 b5 b6
      refine ⟨b1, topo_le_trans _ _ _ a2 b2, b3, b4, b5, ?_⟩
      intro t2 ht2 hun
      rcases List.mem_cons.mp ht2 with h | h
      · subst h
        exact topo_le_none _ _ b2 _ a3
      · exact b6 t2 h hun
    · simp only [hc, if_false]
      obtain ⟨b1, b2, b3, b4, b5, b6⟩ := ih st hinv
      unfold unindex_prev at b1 b2 b3 b4 b5 b6
      refine ⟨b1, b2, b3, b4, b5, ?_⟩
      intro t2 ht2 hun
      rcases List.mem_cons.mp ht2 with h | h
      · subst h
        rw [hun] at hc
        exact absurd rfl hc
      · exact b6 t2 h hun

theorem node_count_prev_some (g : VG) (hI : index_consistent g) (n : NodeTraversal) :
    ∃ c, node_count_prev g n = some c := by
  obtain ⟨l, hl, _⟩ := nodes_prev_some g hI.resolvable n
  exact ⟨l.length, by unfold node_count_prev; rw [hl]; rfl⟩

theorem visit_next_spec (n : NodeTraversal) (next : List NodeTraversal) :
    ∀ st, topo_inv st →
      ∃ st2, visit_next n st next = some st2 ∧ topo_inv st2 ∧ topo_le st st2
        ∧ st2.l = st.l
        ∧ ∀ t ∈ next, map_find st2.g.edge_by_sides
            (minmax (right_side n) (left_side t)) = none := by
  induction next with
  | nil =>
    intro st hinv
    exact ⟨st, rfl, hinv, topo_le_refl st, rfl, fun t ht => by simp at ht⟩
  | cons t rest ih =>
    intro st hinv
    obtain ⟨a1, a2, a3⟩ := topo_unindex st
      { st with g := unindex_edge_ptr st.g (get_edge_trav st.g n t) } hinv
      (right_side n) (left_side t) rfl rfl rfl
    have hfin : ∀ st1 : TopoState, topo_inv st1 →
        topo_le { st with g := unindex_edge_ptr st.g (get_edge_trav st.g n t) } st1 →
        st1.l = st.l →
        ∃ st2, visit_next n st1 rest = some st2 ∧ topo_inv st2 ∧ topo_le st st2
          ∧ st2.l = st.l
          ∧ ∀ t2 ∈ t :: rest, map_find st2.g.edge_by_sides
              (minmax (right_side n) (left_side t2)) = none := by
      intro st1 i1 l1 hl
      obtain ⟨st2, c1, c2, c3, c4, c5⟩ := ih st1 i1
      refine ⟨st2, c1, c2, topo_le_trans _ _ _ a2 (topo_le_trans _ _ _ l1 c3), by rw [c4, hl], ?_⟩
      intro t2 ht2
      rcases List.mem_cons.mp ht2 with h | h
      · subst h
        exact topo_le_none _ _ (topo_le_trans _ _ _ l1 c3) _ a3
      · exact c5 t2 h
    obtain ⟨c, hc⟩ := node_count_prev_some
      (unindex_edge_ptr st.g (get_edge_trav st.g n t)) a1.idx t
    rw [visit_next]
    simp only [hc]
    split_ifs with hu h0 hseed
    · obtain ⟨m1, m2, _⟩ := topo_move
        { st with g := unindex_edge_ptr st.g (get_edge_trav st.g n t) }
        { st with g := unindex_edge_ptr st.g (get_edge_trav st.g n t),
                  s := map_insert st.s t.node.id t,
                  unvisited := map_erase st.unvisited t.node.id }
        a1 t.node.id t rfl hu rfl rfl rfl
      exact hfin _ m1 m2 rfl
    · obtain ⟨m1, m2⟩ := topo_same
        { st with g := unindex_edge_ptr st.g (get_edge_trav st.g n t) }
        { st with g := unindex_edge_ptr st.g (get_edge_trav st.g n t),
                  seeds := map_insert st.seeds t.node.id t }
        a1 rfl rfl rfl
      exact hfin _ m1 m2 rfl
    · exact hfin _ a1 (topo_le_refl _) rfl
    · exact hfin _ a1 (topo_le_refl _) rfl

theorem all_some_map_complete {α β : Type} (f : α → Option β) (l : List α) :
    ∀ r, all_some (l.map f) = some r → ∀ x ∈ l, ∃ t ∈ r, f x = some t := by
  induction l with
  | nil => intro r _ x hx; simp at hx
  | cons a rest ih =>
    intro r h x hx
    simp only [List.map_cons] at h
    cases hfa : f a with
    | none => rw [hfa] at h; simp [all_some] at h
    | some y =>
      rw [hfa] at h
      simp only [all_some] at h
      cases hr : all_some (rest.map f) with
      | none => rw [hr] at h; exact Option.noConfusion h
      | some r2 =>
        rw [hr] at h
        simp only [Option.some.injEq] at h
        subst h
        rcases List.mem_cons.mp hx with h1 | h1
        · subst h1
          exact ⟨y, List.mem_cons_self _ _, hfa⟩
        · obtain ⟨t, ht, hft⟩ := ih r2 hr x h1
          exact ⟨t, List.mem_cons_of_mem _ ht, hft⟩

theorem nodes_next_complete (g : VG) (hI : index_consistent g) (n : NodeTraversal)
    (next : List NodeTraversal) (h : nodes_next g n = some next) :
    ∀ x ∈ (if n.backward then edges_start g n.node.id else edges_end g n.node.id),
      ∃ t ∈ next, left_side t = ⟨x.1, x.2 != n.backward⟩ := by
  intro x hx
  unfold nodes_next at h
  obtain ⟨t, ht, hft⟩ := all_some_map_complete _ _ next h x hx
  refine ⟨t, ht, ?_⟩
  cases hg : get_node g x.1 with
  | none => rw [hg] at hft; exact Option.noConfusion hft
  | some nd =>
    rw [hg] at hft
    simp only [Option.map_some', Option.some.injEq] at hft
    subst hft
    unfold left_side
    simp only [hI.by_id_sound _ _ hg]

theorem nodes_prev_complete (g : VG) (hI : index_consistent g) (n : NodeTraversal)
    (prev : List NodeTraversal) (h : nodes_prev g n = some prev) :
    ∀ x ∈ (if n.backward then edges_end g n.node.id else edges_start g n.node.id),
      ∃ t ∈ prev, right_side t = ⟨x.1, !(x.2 != n.backward)⟩ := by
  intro x hx
  unfold nodes_prev at h
  obtain ⟨t, ht, hft⟩ := all_some_map_complete _ _ prev h x hx
  refine ⟨t, ht, ?_⟩
  cases hg : get_node g x.1 with
  | none => rw [hg] at hft; exact Option.noConfusion hft
  | some nd =>
    rw [hg] at hft
    simp only [Option.map_some', Option.some.injEq] at hft
    subst hft
    unfold right_side
    simp only [hI.by_id_sound _ _ hg]

theorem indexed_pair_ordered (g : VG) (hI : index_consistent g) (p : NodeSide × NodeSide)
    (e : Edge) (h : map_find g.edge_by_sides p = some e) : minmax p.1 p.2 = p := by
  rw [← hI.by_sides_pair p e h]
  exact pair_from_edge_minmax e

theorem topo_pop (st : TopoState) (hinv : topo_inv st) (hnd : no_done_pair st)
    (first : Int × NodeTraversal) (hfirst : map_begin st.s = some first) :
    ∃ prev next st3,
      nodes_prev st.g first.2 = some prev
      ∧ nodes_next
          (unindex_prev first.2
            { st with s := map_erase st.s first.2.node.id, l := st.l ++ [first.2] } prev).g
          first.2 = some next
      ∧ visit_next first.2
          (unindex_prev first.2
            { st with s := map_erase st.s first.2.node.id, l := st.l ++ [first.2] } prev)
          next = some st3
      ∧ topo_inv st3 ∧ no_done_pair st3
      ∧ st3.s.length + st3.unvisited.length + 1 ≤ st.s.length + st.unvisited.length
      ∧ st3.unvisited.length ≤ st.unvisited.length
      ∧ st3.g.node_by_id = st.g.node_by_id := by
  have hmem := map_begin_mem st.s first hfirst
  have hkey := hinv.s_keys first hmem
  have hsome : (map_find st.s first.2.node.id).isSome = true := by
    rw [hkey]; exact map_find_isSome_of_mem st.s first hmem
  have hunk : map_find st.unvisited first.2.node.id = none := hinv.disjoint _ hsome
  have hinv1 : topo_inv
      { st with s := map_erase st.s first.2.node.id, l := st.l ++ [first.2] } := by
    refine ⟨hinv.idx, fun p hp => hinv.s_keys p (map_erase_mem _ _ _ hp), hinv.u_keys, ?_⟩
    intro k hk
    simp only [map_find_erase] at hk
    split_ifs at hk
    · exact absurd hk (by simp)
    · exact hinv.disjoint k hk
  have hdone1 : ∀ k, topo_done
      { st with s := map_erase st.s first.2.node.id, l := st.l ++ [first.2] } k →
      map_find st.unvisited k = none ∧ (k = first.2.node.id ∨ topo_done st k) := by
    intro k hk
    unfold topo_done at hk ⊢
    simp only [map_find_erase] at hk
    refine ⟨hk.1, ?_⟩
    by_cases hkk : first.2.node.id = k
    · exact Or.inl hkk.symm
    · rw [if_neg hkk] at hk
      exact Or.inr hk
  obtain ⟨prev, hprev, _⟩ := nodes_prev_some st.g hinv.idx.resolvable first.2
  obtain ⟨i2, l2, s2, u2, _, p2⟩ := unindex_prev_spec first.2 prev _ hinv1
  obtain ⟨next, hnext, _⟩ := nodes_next_some
    (unindex_prev first.2
      { st with s := map_erase st.s first.2.node.id, l := st.l ++ [first.2] } prev).g
    i2.idx.resolvable first.2
  obtain ⟨st3, h3, i3, l3, _, p3⟩ := visit_next_spec first.2 next _ i2
  have l13 := topo_le_trans _ _ _ l2 l3
  have hlt := map_erase_length_lt st.s first.2.node.id hsome
  have hside : ∀ a b : NodeSide, a.node = first.2.node.id →
      (map_find st3.g.edge_by_sides (minmax a b)).isSome = true →
      map_find st.unvisited b.node = none → False := by
    intro a b ha hidx hub
    obtain ⟨e, he⟩ := Option.isSome_iff_exists.mp hidx
    by_cases hz : a.is_end = first.2.backward
    · have ha2 : a = left_side first.2 := by
        cases a; unfold left_side; simp only [NodeSide.mk.injEq]; exact ⟨ha, hz⟩
      have h1 : (map_find st.g.edge_by_sides (minmax b (left_side first.2))).isSome = true := by
        rw [minmax_comm, ← ha2]
        exact Option.isSome_iff_exists.mpr ⟨e, l13.sides _ e he⟩
      have hb : b = ⟨b.node, !(((!b.is_end) != first.2.backward) != first.2.backward)⟩ := by
        cases b; simp
      rw [hb] at h1
      have hx := (left_list_iff st.g hinv.idx first.2
        (b.node, (!b.is_end) != first.2.backward)).mpr h1
      obtain ⟨t, ht, hrt⟩ := nodes_prev_complete st.g hinv.idx first.2 prev hprev _ hx
      simp only [] at hrt
      rw [← hb] at hrt
      have htid : t.node.id = b.node := by
        have := congrArg NodeSide.node hrt
        exact this
      have hnone := p2 t ht (by rw [htid]; exact hub)
      have hnone3 := topo_le_none _ _ l3 _ hnone
      rw [hrt, minmax_comm, ← ha2, he] at hnone3
      exact Option.noConfusion hnone3
    · have ha2 : a = right_side first.2 := by
        cases a
        unfold right_side
        simp only [NodeSide.mk.injEq]
        refine ⟨ha, ?_⟩
        simp only at hz
        revert hz
        cases first.2.backward <;> simp
      have h1 : (map_find
          (unindex_prev first.2
            { st with s := map_erase st.s first.2.node.id, l := st.l ++ [first.2] }
            prev).g.edge_by_sides (minmax (right_side first.2) b)).isSome = true := by
        rw [← ha2]
        exact Option.isSome_iff_exists.mpr ⟨e, l3.sides _ e he⟩
      have hb : b = ⟨b.node, (b.is_end != first.2.backward) != first.2.backward⟩ := by
        cases b; simp
      rw [hb] at h1
      have hx := (right_list_iff _ i2.idx first.2
        (b.node, b.is_end != first.2.backward)).mpr h1
      obtain ⟨t, ht, hlt2⟩ := nodes_next_complete _ i2.idx first.2 next hnext _ hx
      simp only [] at hlt2
      rw [← hb] at hlt2
      have hnone3 := p3 t ht
      rw [hlt2, ← ha2, he] at hnone3
      exact Option.noConfusion hnone3
  refine ⟨prev, next, st3, hprev, hnext, h3, i3, ?_, ?_, ?_, ?_⟩
  · intro p e hp hd
    obtain ⟨u1, c1⟩ := hdone1 _ (l13.done _ hd.1)
    obtain ⟨u2b, c2⟩ := hdone1 _ (l13.done _ hd.2)
    have hord := indexed_pair_ordered st3.g i3.idx p e hp
    have hsomep : (map_find st3.g.edge_by_sides (minmax p.1 p.2)).isSome = true := by
      rw [hord, hp]; rfl
    rcases c1 with c1 | c1
    · exact hside p.1 p.2 c1 hsomep u2b
    · rcases c2 with c2 | c2
      · rw [minmax_comm] at hsomep
        exact hside p.2 p.1 c2 hsomep u1
      · exact hnd p e (l13.sides p e hp) ⟨c1, c2⟩
  · have := l13.measure
    simp only [] at this
    omega
  · exact l13.unv
  · exact l13.by_id

theorem drain_spec :
    ∀ (fuel : Nat) (st : TopoState), topo_inv st → no_done_pair st →
      st.s.length + st.unvisited.length ≤ fuel →
      ∃ st2, drain fuel st = some st2 ∧ topo_inv st2 ∧ no_done_pair st2 ∧ st2.s = []
        ∧ st2.unvisited.length ≤ st.unvisited.length
        ∧ st2.g.node_by_id = st.g.node_by_id := by
  intro fuel
  induction fuel with
  | zero =>
    intro st hinv hnd hm
    have hs : st.s = [] := List.length_eq_zero.mp (by omega)
    refine ⟨st, ?_, hinv, hnd, hs, Nat.le_refl _, rfl⟩
    rw [drain, hs]
    rfl
  | succ fuel ih =>
    intro st hinv hnd hm
    rw [drain]
    cases hb : map_begin st.s with
    | none =>
      exact ⟨st, rfl, hinv, hnd, map_begin_none _ hb, Nat.le_refl _, rfl⟩
    | some first =>
      obtain ⟨prev, next, st3, h1, h2, h3, i3, n3, m3, u3, b3⟩ := topo_pop st hinv hnd first hb
      simp only []
      rw [h1]
      simp only []
      rw [h2]
      simp only []
      rw [h3]
      simp only []
      obtain ⟨st4, d1, d2, d3, d4, d5, d6⟩ := ih st3 i3 n3 (by omega)
      exact ⟨st4, d1, d2, d3, d4, Nat.le_trans d5 u3, by rw [d6, b3]⟩

theorem take_seeds_spec :
    ∀ (fuel : Nat) (st : TopoState), topo_inv st →
      topo_inv (take_seeds fuel st) ∧ topo_le st (take_seeds fuel st)
      ∧ (st.s = [] → (take_seeds fuel st).s.isEmpty = false →
          (take_seeds fuel st).unvisited.length < st.unvisited.length) := by
  intro fuel
  induction fuel with
  | zero =>
    intro st hinv
    refine ⟨hinv, topo_le_refl st, fun h1 h2 => ?_⟩
    simp only [take_seeds] at h2
    rw [h1] at h2
    exact absurd h2 (by simp)
  | succ fuel ih =>
    intro st hinv
    rw [take_seeds]
    by_cases hs : st.s.isEmpty = true
    · simp only [hs, if_true]
      cases hb : map_begin st.seeds with
      | none =>
        refine ⟨hinv, topo_le_refl st, fun h1 h2 => ?_⟩
        simp only [] at h2
        rw [hs] at h2
        exact absurd h2 (by simp)
      | some first_seed =>
        simp only []
        by_cases hu : (map_find st.unvisited first_seed.2.node.id).isSome = true
        · simp only [hu, if_true]
          obtain ⟨m1, m2, m3⟩ := topo_move st
            { st with s := map_insert st.s first_seed.2.node.id first_seed.2,
                      unvisited := map_erase st.unvisited first_seed.2.node.id,
                      seeds := map_erase st.seeds first_seed.1 }
            hinv first_seed.2.node.id first_seed.2 rfl hu rfl rfl rfl
          obtain ⟨i1, i2, _⟩ := ih _ m1
          refine ⟨i1, topo_le_trans _ _ _ m2 i2, fun _ _ => ?_⟩
          exact Nat.lt_of_le_of_lt i2.unv m3
        · simp only [hu, Bool.false_eq_true, if_false]
          obtain ⟨m1, m2⟩ := topo_same st { st with seeds := map_erase st.seeds first_seed.1 }
            hinv rfl rfl rfl
          obtain ⟨i1, i2, i3⟩ := ih _ m1
          exact ⟨i1, topo_le_trans _ _ _ m2 i2, fun h1 h2 => i3 h1 h2⟩
    · simp only [hs, Bool.false_eq_true, if_false]
      refine ⟨hinv, topo_le_refl st, fun h1 _ => ?_⟩
      rw [h1] at hs
      exact absurd rfl hs

theorem topological_loop_spec :
    ∀ (fuel : Nat) (st : TopoState), topo_inv st → no_done_pair st → st.s = [] →
      st.unvisited.length ≤ fuel →
      ∃ st2, topological_loop fuel st = some st2 ∧ topo_inv st2 ∧ no_done_pair st2
        ∧ st2.s = [] ∧ st2.unvisited = []
        ∧ st2.g.node_by_id = st.g.node_by_id := by
  intro fuel
  induction fuel with
  | zero =>
    intro st hinv hnd hs hm
    have hu : st.unvisited = [] := List.length_eq_zero.mp (by omega)
    refine ⟨st, ?_, hinv, hnd, hs, hu, rfl⟩
    rw [topological_loop, hu]
    rfl
  | succ fuel ih =>
    intro st hinv hnd hs hm
    have tail : ∀ st2 : TopoState, topo_inv st2 → topo_le st st2 →
        st2.unvisited.length ≤ fuel →
        ∃ st3 st4, drain (st2.s.length + st2.unvisited.length) st2 = some st3
          ∧ topological_loop fuel st3 = some st4 ∧ topo_inv st4 ∧ no_done_pair st4
          ∧ st4.s = [] ∧ st4.unvisited = []
          ∧ st4.g.node_by_id = st.g.node_by_id := by
      intro st2 i2 l2 hf
      obtain ⟨st3, d1, d2, d3, d4, d5, d6⟩ := drain_spec _ st2 i2 (no_done_pair_le _ _ l2 hnd)
        (Nat.le_refl _)
      obtain ⟨st4, e1, e2, e3, e4, e5, e6⟩ := ih st3 d2 d3 d4 (Nat.le_trans d5 hf)
      exact ⟨st3, st4, d1, e1, e2, e3, e4, e5, by rw [e6, d6, l2.by_id]⟩
    obtain ⟨t1, t2, t3⟩ := take_seeds_spec st.seeds.length st hinv
    rw [topological_loop]
    by_cases hue : st.unvisited.isEmpty = true
    · simp only [hue, if_true]
      exact ⟨st, rfl, hinv, hnd, hs, List.isEmpty_iff.mp hue, rfl⟩
    · simp only [hue, Bool.false_eq_true, if_false]
      by_cases hse : (take_seeds st.seeds.length st).s.isEmpty = true
      · simp only [hse, if_true]
        cases hb : map_begin (take_seeds st.seeds.length st).unvisited with
        | none =>
          simp only []
          have hu0 := map_begin_none _ hb
          obtain ⟨st3, st4, d1, r⟩ := tail _ t1 t2 (by rw [hu0]; exact Nat.zero_le _)
          rw [d1]
          exact ⟨st4, r⟩
        | some first =>
          simp only []
          have hmem := map_begin_mem _ first hb
          obtain ⟨m1, m2, m3⟩ := topo_move (take_seeds st.seeds.length st)
            { take_seeds st.seeds.length st with
                s := map_insert (take_seeds st.seeds.length st).s first.1 ⟨first.2, false⟩,
                unvisited := map_erase (take_seeds st.seeds.length st).unvisited first.1 }
            t1 first.1 ⟨first.2, false⟩ (t1.u_keys first hmem)
            (map_find_isSome_of_mem _ first hmem) rfl rfl rfl
          have hlen := t2.unv
          obtain ⟨st3, st4, d1, r⟩ := tail _ m1 (topo_le_trans _ _ _ t2 m2) (by omega)
          rw [d1]
          exact ⟨st4, r⟩
      · simp only [hse, Bool.false_eq_true, if_false]
        have hlt := t3 hs (by simpa using hse)
        obtain ⟨st3, st4, d1, r⟩ := tail _ t1 t2 (by omega)
        rw [d1]
        exact ⟨st4, r⟩

theorem foldl_insert_keys (l : List Node) :
    ∀ (init : List (Int × Node)), (∀ p ∈ init, p.2.id = p.1) →
      ∀ p ∈ l.foldl (fun unvisited node => map_insert unvisited node.id node) init,
        p.2.id = p.1 := by
  induction l with
  | nil => intro init h; exact h
  | cons nd rest ih =>
    intro init h
    simp only [List.foldl_cons]
    apply ih
    intro p hp
    rcases map_insert_mem _ _ _ _ hp with h1 | h1
    · rw [h1]
    · exact h p h1

theorem foldl_insert_find (l : List Node) :
    ∀ (init : List (Int × Node)) (k : Int),
      ((map_find init k).isSome = true ∨ ∃ nd ∈ l, nd.id = k) →
      (map_find (l.foldl (fun unvisited node => map_insert unvisited node.id node) init)
        k).isSome = true := by
  induction l with
  | nil =>
    intro init k h
    rcases h with h | ⟨nd, hnd, _⟩
    · exact h
    · simp at hnd
  | cons nd rest ih =>
    intro init k h
    simp only [List.foldl_cons]
    apply ih
    by_cases hk : nd.id = k
    · left; rw [map_find_insert, if_pos hk]; rfl
    · rcases h with h | ⟨nd2, hnd2, hid⟩
      · left; rw [map_find_insert, if_neg hk]; exact h
      · rcases List.mem_cons.mp hnd2 with h1 | h1
        · rw [h1] at hid; exact absurd hid hk
        · right; exact ⟨nd2, h1, hid⟩

theorem store_index_consistent (g : VG) (hs : store_consistent g) (hne : sides_nonempty g) :
    index_consistent g :=
  ⟨fun p e h => (hs.edges_ok.by_sides_sound p e h).2, hs.edges_ok.start_nodup,
   hs.edges_ok.start_iff, hs.edges_ok.end_nodup, hs.edges_ok.end_iff, hne.1, hne.2,
   store_sides_resolvable g hs, fun id nd h => (hs.nodes_ok.by_id_sound id nd h).2⟩

theorem side_map_empty (m : List (Int × List (Int × Bool))) (hne : ∀ p ∈ m, p.2 ≠ [])
    (h : ∀ n, (map_find m n).getD [] = []) : m = [] := by
  cases m with
  | nil => rfl
  | cons q rest =>
    obtain ⟨k, l⟩ := q
    have h1 := h k
    simp only [map_find, if_true, Option.getD_some] at h1
    exact absurd h1 (hne (k, l) (List.mem_cons_self _ _))

theorem topological_sort_total (g : VG) (hs : store_consistent g) (hne : sides_nonempty g) :
    ∃ st, topological_loop
        (g.node.foldl (fun unvisited node => map_insert unvisited node.id node) []).length
        { g := g, s := [],
          seeds := (head_nodes g).foldl
            (fun seeds head => map_insert seeds head.id (⟨head, false⟩ : NodeTraversal)) [],
          unvisited := g.node.foldl (fun unvisited node => map_insert unvisited node.id node) [],
          l := [] } = some st
      ∧ st.unvisited = [] ∧ st.g.edges_on_start = [] ∧ st.g.edges_on_end = []
      ∧ topological_sort g = some (rebuild_indexes st.g, st.l) := by
  have hI := store_index_consistent g hs hne
  have hinv : topo_inv
      { g := g, s := [],
        seeds := (head_nodes g).foldl
          (fun seeds head => map_insert seeds head.id (⟨head, false⟩ : NodeTraversal)) [],
        unvisited := g.node.foldl (fun unvisited node => map_insert unvisited node.id node) [],
        l := [] } :=
    ⟨hI, fun p hp => by simp at hp, foldl_insert_keys g.node [] (fun p hp => by simp at hp),
     fun k hk => by simp [map_find] at hk⟩
  have hnode : ∀ id, has_node g id = true →
      (map_find (g.node.foldl (fun unvisited node => map_insert unvisited node.id node) [])
        id).isSome = true := by
    intro id hid
    obtain ⟨nd, hnd⟩ := (has_node_iff g id).mp hid
    obtain ⟨h1, h2⟩ := hs.nodes_ok.by_id_sound id nd hnd
    exact foldl_insert_find g.node [] id (Or.inr ⟨nd, h1, h2⟩)
  have hnd : no_done_pair
      { g := g, s := [],
        seeds := (head_nodes g).foldl
          (fun seeds head => map_insert seeds head.id (⟨head, false⟩ : NodeTraversal)) [],
        unvisited := g.node.foldl (fun unvisited node => map_insert unvisited node.id node) [],
        l := [] } := by
    intro p e hp hd
    obtain ⟨hmem, hpair⟩ := hs.edges_ok.by_sides_sound p e hp
    obtain ⟨hf, ht⟩ := hs.endpoints e hmem
    have htouch := (pair_from_edge_touch e p.1.node).mp (Or.inl (by rw [hpair]))
    have hhas : has_node g p.1.node = true := by
      rcases htouch with h | h
      · rw [← h]; exact hf
      · rw [← h]; exact ht
    have := hnode _ hhas
    have hd1 := hd.1.1
    simp only [] at hd1
    rw [hd1] at this
    exact absurd this (by simp)
  obtain ⟨st, h1, h2, h3, _, h5, _⟩ := topological_loop_spec _ _ hinv hnd rfl (Nat.le_refl _)
  have hnone : ∀ p, map_find st.g.edge_by_sides p = none := by
    intro p
    cases hp : map_find st.g.edge_by_sides p with
    | none => rfl
    | some e =>
      exfalso
      refine h3 p e hp ⟨⟨?_, ?_⟩, ⟨?_, ?_⟩⟩ <;> simp [h5, ‹st.s = []›, map_find]
  have hstart : st.g.edges_on_start = [] := by
    apply side_map_empty _ h2.idx.start_nonempty
    intro n
    have hiff := h2.idx.start_iff n
    unfold edges_start at hiff
    apply List.eq_nil_iff_forall_not_mem.mpr
    intro x hx
    have := (hiff x).mp hx
    rw [hnone] at this
    exact absurd this (by simp)
  have hend : st.g.edges_on_end = [] := by
    apply side_map_empty _ h2.idx.end_nonempty
    intro n
    have hiff := h2.idx.end_iff n
    unfold edges_end at hiff
    apply List.eq_nil_iff_forall_not_mem.mpr
    intro x hx
    have := (hiff x).mp hx
    rw [hnone] at this
    exact absurd this (by simp)
  refine ⟨st, h1, h5, hstart, hend, ?_⟩
  unfold topological_sort
  simp only [h1, hstart, hend, List.isEmpty_nil, Bool.not_true, Bool.or_self,
    Bool.false_eq_true, if_false]

theorem knot_graph_store : store_consistent knot_graph := by
  have h0 : store_consistent VG.empty ∧ counter_ahead VG.empty :=
    ⟨empty_store_consistent, counter_ahead_of_one _ rfl⟩
  have h1 := create_node_inv VG.empty "A".toList 0 h0.1 h0.2 (Or.inl rfl)
  have h2 := create_node_inv _ "C".toList 0 h1.1 h1.2 (Or.inl rfl)
  have h3 := create_edge_inv _ 1 2 false false h2.1 h2.2 (by decide) (by decide)
  have h4 := create_edge_inv _ 2 1 false false h3.1 h3.2 (by decide) (by decide)
  exact (create_edge_inv _ 2 2 false true h4.1 h4.2 (by decide) (by decide)).1

/-- C27: on a graph whose stores and indexes agree and whose side maps hold
no empty list - cyclic or not, with or without reversing edges and self
loops - the main loop of `topological_sort` ends, within the number of passes
given by the count of the nodes, in a state with no unvisited node and with
`edges_on_start` and `edges_on_end` both empty, so that `topological_sort`
returns (the exit taken when edges remain is not reached). -/
theorem topological_sort_unindexes_all (g : VG) (hs : store_consistent g)
    (hne : sides_nonempty g) :
    ∃ st, topological_loop
        (g.node.foldl (fun unvisited node => map_insert unvisited node.id node) []).length
        { g := g, s := [],
          seeds := (head_nodes g).foldl
            (fun seeds head => map_insert seeds head.id (⟨head, false⟩ : NodeTraversal)) [],
          unvisited := g.node.foldl (fun unvisited node => map_insert unvisited node.id node) [],
          l := [] } = some st
      ∧ st.unvisited = [] ∧ st.g.edges_on_start = [] ∧ st.g.edges_on_end = []
      ∧ topological_sort g = some (rebuild_indexes st.g, st.l) :=
  topological_sort_total g hs hne

theorem topological_sort_unindexes_all_witness :
    store_consistent knot_graph ∧ sides_nonempty knot_graph
    ∧ ∃ st, topological_loop
        (knot_graph.node.foldl
          (fun unvisited node => map_insert unvisited node.id node) []).length
        { g := knot_graph, s := [],
          seeds := (head_nodes knot_graph).foldl
            (fun seeds head => map_insert seeds head.id (⟨head, false⟩ : NodeTraversal)) [],
          unvisited := knot_graph.node.foldl
            (fun unvisited node => map_insert unvisited node.id node) [],
          l := [] } = some st
      ∧ st.unvisited = [] ∧ st.g.edges_on_start = [] ∧ st.g.edges_on_end = []
      ∧ topological_sort knot_graph = some (rebuild_indexes st.g, st.l) :=
  ⟨knot_graph_store, by unfold sides_nonempty; decide,
   topological_sort_unindexes_all knot_graph knot_graph_store
     (by unfold sides_nonempty; decide)⟩

/-- C25 (the code at the failing input): `dagify` with `expand_scc_steps = 1`,
no walk-length target and no length cap, on the graph that consists of one
node with a plain self loop, returns three nodes carrying the sequence of the
node - the node itself and two copies - joined by the two plain edges 1 → 2
and 2 → 3; the translation records the copies 2 and 3 and has no entry for
node 1. With `expand_scc_steps = 0` the result is the two nodes 1, 2 with
the one edge 1 → 2. -/
theorem dagify_self_loop_three_nodes :
    (dagify loop_graph 1 [] 0 0).map (fun r => (r.1.node, r.1.edge, r.2))
      = some ([⟨1, "A".toList⟩, ⟨2, "A".toList⟩, ⟨3, "A".toList⟩],
          [⟨1, 2, false, false⟩, ⟨2, 3, false, false⟩],
          [(3, (1, false)), (2, (1, false))])
    ∧ (dagify loop_graph 0 [] 0 0).map (fun r => (r.1.node, r.1.edge, r.2))
      = some ([⟨1, "A".toList⟩, ⟨2, "A".toList⟩],
          [⟨1, 2, false, false⟩],
          [(2, (1, false))]) := by
  constructor <;> decide

theorem dagify_flips (g : VG) (expand_scc_steps : Nat)
    (node_translation : List (Int × (Int × Bool)))
    (target_min_walk_length component_length_max : Nat)
    (r : VG × List (Int × (Int × Bool)))
    (h : dagify g expand_scc_steps node_translation target_min_walk_length
      component_length_max = some r) :
    ∃ dag, r.1 = flip_doubly_reversed_edges dag := by
  unfold dagify at h
  split at h
  · exact Option.noConfusion h
  · split at h
    · exact Option.noConfusion h
    · split at h
      · exact Option.noConfusion h
      · split at h
        · exact Option.noConfusion h
        · split at h
          · exact Option.noConfusion h
          · rename_i r0 _
            simp only [Option.some.injEq] at h
            exact ⟨r0.1, by rw [← h]⟩

/-- C24 (amended): for every input graph and all parameters, no edge of the
graph that `dagify` returns has both `from_start` and `to_end` set; the nodes
stand in the order in which `dagify` added them, which is not sorted. -/
theorem dagify_no_doubly_reversed (g : VG) (expand_scc_steps : Nat)
    (node_translation : List (Int × (Int × Bool)))
    (target_min_walk_length component_length_max : Nat)
    (r : VG × List (Int × (Int × Bool)))
    (h : dagify g expand_scc_steps node_translation target_min_walk_length
      component_length_max = some r) :
    ∀ e ∈ r.1.edge, (e.from_start && e.to_end) = false := by
  obtain ⟨dag, hd⟩ := dagify_flips g expand_scc_steps node_translation target_min_walk_length
    component_length_max r h
  rw [hd]
  exact flip_no_doubly dag

theorem dagify_no_doubly_reversed_witness :
    ∃ r, dagify back_graph 1 [] 0 0 = some r
      ∧ ∀ e ∈ r.1.edge, (e.from_start && e.to_end) = false :=
  have h : (dagify back_graph 1 [] 0 0).isSome = true := by decide
  (Option.isSome_iff_exists.mp h).elim
    (fun r hr => ⟨r, hr, dagify_no_doubly_reversed back_graph 1 [] 0 0 r hr⟩)

/-- C24 (counterexample): on the acyclic graph with the nodes 1, 2 and the
plain edge 2 → 1, `dagify` returns the nodes in the order 1, 2 with the edge
2 → 1, whose from-node is stored after its to-node. -/
theorem dagify_order_not_topological :
    (dagify back_graph 1 [] 0 0).map (fun r => (r.1.node.map (fun n => n.id), r.1.edge))
      = some ([1, 2], [⟨2, 1, false, false⟩]) := by
  decide

/-- The side-pair index after `divide_node`, self loops included: a pair is
indexed exactly when it does not touch the divided node and was indexed
before, or is the pair of an entry of `edges_to_create`, or joins two
consecutive parts; no stored edge refers to the divided node. -/
theorem divide_node_index (cut_mapping : Mapping → Int → Mapping × Mapping)
    (g : VG) (node : Node) (positions : List Int)
    (hc : edges_consistent g) (hN : has_node g node.id = true) (hcur : 1 ≤ g.current_id)
    (hasc : List.Chain (· ≤ ·) 0 positions)
    (hhi : ∀ p ∈ positions, p ≤ node.sequence.length)
    (hmap : mappings_divisible g.paths node) :
    (divide_node cut_mapping g node positions []).1 = Outcome.returned
    ∧ ids_from (next_id g) (divide_node cut_mapping g node positions []).2.2
    ∧ (divide_node cut_mapping g node positions []).2.2.length = positions.length + 1
    ∧ edges_consistent (divide_node cut_mapping g node positions []).2.1
    ∧ (∀ p, (map_find (divide_node cut_mapping g node positions []).2.1.edge_by_sides p).isSome
          = true ↔
        (¬ (p.1.node = node.id ∨ p.2.node = node.id)
          ∧ ((map_find g.edge_by_sides p).isSome = true
            ∨ (∃ q ∈ edges_to_create_of g node
                  (divide_node cut_mapping g node positions []).2.2,
                minmax ⟨q.1.1, !q.1.2⟩ ⟨q.2.1, q.2.2⟩ = p)
            ∨ (∃ ab ∈ adjacent_pairs (divide_node cut_mapping g node positions []).2.2,
                minmax ⟨ab.1.id, true⟩ ⟨ab.2.id, false⟩ = p))))
    ∧ (∀ e ∈ (divide_node cut_mapping g node positions []).2.1.edge,
        e.from_ ≠ node.id ∧ e.to_ ≠ node.id) := by
  obtain ⟨hids, hlen, hm1, hm2, hm3, hm4, hm5, hm6⟩ := make_parts_spec g hcur node positions
  have hc1 : edges_consistent (make_parts g node positions []).1 :=
    edges_consistent_congr g _ hc hm1 hm2 hm3 hm4 hm5
  have hs1 : ∀ n, edges_start (make_parts g node positions []).1 n = edges_start g n :=
    si_start_congr _ _ hm4
  have he1 : ∀ n, edges_end (make_parts g node positions []).1 n = edges_end g n :=
    si_end_congr _ _ hm5
  have hetc : edges_to_create_of (make_parts g node positions []).1 node
      (make_parts g node positions []).2
      = edges_to_create_of g node (make_parts g node positions []).2 := by
    unfold edges_to_create_of
    rw [hs1, he1]
  obtain ⟨h1, h2, _, h4⟩ := create_edges_spec
    (edges_to_create_of (make_parts g node positions []).1 node
      (make_parts g node positions []).2) (make_parts g node positions []).1 hc1
  obtain ⟨hw1, h6, _, h8⟩ := connect_parts_spec (make_parts g node positions []).2
    (create_edges (make_parts g node positions []).1
      (edges_to_create_of (make_parts g node positions []).1 node
        (make_parts g node positions []).2)) h1
  have hw4 : (wire_parts (make_parts g node positions []).1 node
      (make_parts g node positions []).2).node_by_id
      = (make_parts g node positions []).1.node_by_id := h8.trans h4
  have hpaths : (wire_parts (make_parts g node positions []).1 node
      (make_parts g node positions []).2).paths = g.paths := by
    unfold wire_parts make_parts
    rw [connect_parts_paths, create_edges_paths, create_node_paths, create_parts_paths]
  have hflag := divide_paths_flag cut_mapping node positions (make_parts g node positions []).2
    (wire_parts (make_parts g node positions []).1 node (make_parts g node positions []).2).paths
    (by rw [hpaths]; exact hmap)
  have heq : divide_node cut_mapping g node positions []
      = (Outcome.returned,
          destroy_node
            { wire_parts (make_parts g node positions []).1 node
                (make_parts g node positions []).2 with
              paths := (divide_paths cut_mapping node positions
                (make_parts g node positions []).2
                (wire_parts (make_parts g node positions []).1 node
                  (make_parts g node positions []).2).paths).2 } node,
          (make_parts g node positions []).2) := by
    unfold divide_node
    rw [range_check_passes node positions hasc hhi]
    simp only [Bool.false_eq_true, if_false, hflag, if_true]
  have hc4 : edges_consistent
      { wire_parts (make_parts g node positions []).1 node
          (make_parts g node positions []).2 with
        paths := (divide_paths cut_mapping node positions
          (make_parts g node positions []).2
          (wire_parts (make_parts g node positions []).1 node
            (make_parts g node positions []).2).paths).2 } :=
    edges_consistent_congr _ _ hw1 rfl rfl rfl rfl rfl
  have hhas4 : has_node
      { wire_parts (make_parts g node positions []).1 node
          (make_parts g node positions []).2 with
        paths := (divide_paths cut_mapping node positions
          (make_parts g node positions []).2
          (wire_parts (make_parts g node positions []).1 node
            (make_parts g node positions []).2).paths).2 } node.id = true := by
    have := hm6 node.id hN
    unfold has_node at this ⊢
    show (map_find (wire_parts (make_parts g node positions []).1 node
      (make_parts g node positions []).2).node_by_id node.id).isSome = true
    rw [hw4]
    exact this
  obtain ⟨hd1, hd2, hd3⟩ := destroy_node_edges_spec _ hc4 node hhas4
  rw [heq]
  refine ⟨rfl, hids, hlen, hd1, ?_, ?_⟩
  · intro p
    simp only []
    rw [hd2 p]
    by_cases ht : p.1.node = node.id ∨ p.2.node = node.id
    · simp [ht]
    · simp only [ht, if_false, not_false_eq_true, true_and]
      show (map_find (connect_parts (create_edges (make_parts g node positions []).1
        (edges_to_create_of (make_parts g node positions []).1 node
          (make_parts g node positions []).2))
        (make_parts g node positions []).2).edge_by_sides p).isSome = true ↔ _
      rw [h6 p, h2 p, hm2, hetc]
      simp only [or_assoc]
  · intro e he
    simp only [] at he
    rw [hd3] at he
    exact he.2

/-- Self-loop routing in `divide_node` when the id counter is ahead: when node
`N` is divided in a graph whose edge store and indexes agree and whose id
counter is ahead of every id in use (the positions ascending and inside the
node, the path mappings divisible), a plain
self loop from the end of `N` to its start becomes the edge from the end of the
last part to the start of the first part, a start-to-start self loop on `N`
becomes a start-to-start self loop on the first part, an end-to-end self loop
on `N` becomes an end-to-end self loop on the last part, and no edge of the
result refers to `N`. -/
theorem divide_node_routes_self_loops (cut_mapping : Mapping → Int → Mapping × Mapping)
    (g : VG) (node : Node) (positions : List Int)
    (hc : edges_consistent g) (hN : has_node g node.id = true) (hfresh : allocator_fresh g)
    (hasc : List.Chain (· ≤ ·) 0 positions)
    (hhi : ∀ p ∈ positions, p ≤ node.sequence.length)
    (hmap : mappings_divisible g.paths node) :
    (divide_node cut_mapping g node positions []).1 = Outcome.returned
    ∧ (has_edge g ⟨node.id, true⟩ ⟨node.id, false⟩ = true →
        has_edge (divide_node cut_mapping g node positions []).2.1
          ⟨((divide_node cut_mapping g node positions []).2.2.getLastD ⟨0, []⟩).id, true⟩
          ⟨((divide_node cut_mapping g node positions []).2.2.headD ⟨0, []⟩).id, false⟩ = true)
    ∧ (has_edge g ⟨node.id, false⟩ ⟨node.id, false⟩ = true →
        has_edge (divide_node cut_mapping g node positions []).2.1
          ⟨((divide_node cut_mapping g node positions []).2.2.headD ⟨0, []⟩).id, false⟩
          ⟨((divide_node cut_mapping g node positions []).2.2.headD ⟨0, []⟩).id, false⟩ = true)
    ∧ (has_edge g ⟨node.id, true⟩ ⟨node.id, true⟩ = true →
        has_edge (divide_node cut_mapping g node positions []).2.1
          ⟨((divide_node cut_mapping g node positions []).2.2.getLastD ⟨0, []⟩).id, true⟩
          ⟨((divide_node cut_mapping g node positions []).2.2.getLastD ⟨0, []⟩).id, true⟩ = true)
    ∧ (∀ e ∈ (divide_node cut_mapping g node positions []).2.1.edge,
        e.from_ ≠ node.id ∧ e.to_ ≠ node.id)
    ∧ (∀ p, (map_find (divide_node cut_mapping g node positions []).2.1.edge_by_sides p).isSome
          = true → p.1.node ≠ node.id ∧ p.2.node ≠ node.id) := by
  obtain ⟨hret, hids, hlen, _, hidx, hedges⟩ :=
    divide_node_index cut_mapping g node positions hc hN hfresh.1 hasc hhi hmap
  have hne : (divide_node cut_mapping g node positions []).2.2 ≠ [] := by
    intro h
    rw [h] at hlen
    simp at hlen
  obtain ⟨hhead, hlast⟩ := ids_from_head_last _ ⟨0, []⟩ hne _ hids
  have hNlt : node.id < next_id g := by
    unfold has_node at hN
    cases hf : map_find g.node_by_id node.id with
    | none => rw [hf] at hN; simp at hN
    | some nd => exact hfresh.2.1 _ _ hf
  have hfirst : ((divide_node cut_mapping g node positions []).2.2.headD ⟨0, []⟩).id ≠ node.id := by
    rw [hhead]; omega
  have hlastne : ((divide_node cut_mapping g node positions []).2.2.getLastD ⟨0, []⟩).id
      ≠ node.id := by
    rw [hlast, hlen]; push_cast; omega
  refine ⟨hret, ?_, ?_, ?_, hedges, ?_⟩
  · intro h
    have hx : ((node.id, false) : Int × Bool) ∈ edges_start g node.id := by
      rw [hc.start_iff]
      unfold has_edge at h
      unfold pair_from_start_edge
      rw [minmax_comm]
      exact h
    unfold has_edge
    rw [hidx]
    refine ⟨?_, Or.inr (Or.inl ⟨_, (mem_edges_to_create_of g node _ _).mpr
      (Or.inl ⟨_, hx, rfl⟩), ?_⟩)⟩
    · unfold minmax
      split_ifs <;> simp only [not_or] <;>
        first | exact ⟨hfirst, hlastne⟩ | exact ⟨hlastne, hfirst⟩
    · simp [reroute_start]
  · intro h
    have hx : ((node.id, true) : Int × Bool) ∈ edges_start g node.id := by
      rw [hc.start_iff]
      unfold has_edge at h
      unfold pair_from_start_edge
      exact h
    unfold has_edge
    rw [hidx]
    refine ⟨?_, Or.inr (Or.inl ⟨_, (mem_edges_to_create_of g node _ _).mpr
      (Or.inl ⟨_, hx, rfl⟩), ?_⟩)⟩
    · unfold minmax
      split_ifs <;> simp only [not_or] <;> exact ⟨hfirst, hfirst⟩
    · simp [reroute_start]
  · intro h
    have hx : ((node.id, true) : Int × Bool) ∈ edges_end g node.id := by
      rw [hc.end_iff]
      unfold has_edge at h
      unfold pair_from_end_edge
      exact h
    unfold has_edge
    rw [hidx]
    refine ⟨?_, Or.inr (Or.inl ⟨_, (mem_edges_to_create_of g node _ _).mpr
      (Or.inr ⟨_, hx, rfl⟩), ?_⟩)⟩
    · unfold minmax
      split_ifs <;> simp only [not_or] <;> exact ⟨hlastne, hlastne⟩
    · simp [reroute_end]
  · intro p hp
    have := ((hidx p).mp hp).1
    push_neg at this
    exact this

theorem self_loops_graph_consistent : edges_consistent self_loops_graph :=
  create_edge_consistent _ 1 1 false true
    (create_edge_consistent _ 1 1 true false
      (create_edge_consistent _ 1 1 false false
        (create_node_consistent _ _ 0 empty_consistent)))

/-- An instance of `divide_node_routes_self_loops`: node 1 = `ACGT` with its
three self loops is divided at offset 2; the end of the last part is joined to the start of the first part,
the first part has the start-to-start loop and the last part the end-to-end
loop. -/
theorem divide_node_routes_self_loops_witness :
    has_edge (divide_node (fun m _ => (m, m)) self_loops_graph ⟨1, "ACGT".toList⟩ [2] []).2.1
        ⟨((divide_node (fun m _ => (m, m)) self_loops_graph ⟨1, "ACGT".toList⟩ [2] []).2.2.getLastD
            ⟨0, []⟩).id, true⟩
        ⟨((divide_node (fun m _ => (m, m)) self_loops_graph ⟨1, "ACGT".toList⟩ [2] []).2.2.headD
            ⟨0, []⟩).id, false⟩ = true
    ∧ has_edge (divide_node (fun m _ => (m, m)) self_loops_graph ⟨1, "ACGT".toList⟩ [2] []).2.1
        ⟨((divide_node (fun m _ => (m, m)) self_loops_graph ⟨1, "ACGT".toList⟩ [2] []).2.2.headD
            ⟨0, []⟩).id, false⟩
        ⟨((divide_node (fun m _ => (m, m)) self_loops_graph ⟨1, "ACGT".toList⟩ [2] []).2.2.headD
            ⟨0, []⟩).id, false⟩ = true
    ∧ has_edge (divide_node (fun m _ => (m, m)) self_loops_graph ⟨1, "ACGT".toList⟩ [2] []).2.1
        ⟨((divide_node (fun m _ => (m, m)) self_loops_graph ⟨1, "ACGT".toList⟩ [2] []).2.2.getLastD
            ⟨0, []⟩).id, true⟩
        ⟨((divide_node (fun m _ => (m, m)) self_loops_graph ⟨1, "ACGT".toList⟩ [2] []).2.2.getLastD
            ⟨0, []⟩).id, true⟩ = true :=
  have h := divide_node_routes_self_loops (fun m _ => (m, m)) self_loops_graph
    ⟨1, "ACGT".toList⟩ [2] self_loops_graph_consistent (by decide)
    (allocator_fresh_of_lists self_loops_graph (by decide) (by decide) (by decide))
    (by simp) (by simp) (by unfold mappings_divisible; decide)
  ⟨h.2.1 (by decide), h.2.2.1 (by decide), h.2.2.2.1 (by decide)⟩

/-- Counterexample for C32: the node 1 = `A` divided at offset 0 is replaced by
the two nodes 2 with the empty sequence and 3 = `A`, joined by the plain edge
from node 2 to node 3; divided at offset 1 it is replaced by 2 = `A` and node 3
with the empty sequence (`destroy_node` moves the last node of the store into
the place of node 1). -/
theorem divide_node_creates_empty_node :
    (divide_node (fun m _ => (m, m)) (create_node VG.empty "A".toList 0).1
        ⟨1, "A".toList⟩ [0] []).2.1.node = [⟨3, "A".toList⟩, ⟨2, []⟩]
    ∧ (divide_node (fun m _ => (m, m)) (create_node VG.empty "A".toList 0).1
        ⟨1, "A".toList⟩ [0] []).2.1.edge = [⟨2, 3, false, false⟩]
    ∧ (divide_node (fun m _ => (m, m)) (create_node VG.empty "A".toList 0).1
        ⟨1, "A".toList⟩ [1] []).2.1.node = [⟨3, []⟩, ⟨2, "A".toList⟩]
    ∧ (divide_node (fun m _ => (m, m)) (create_node VG.empty "A".toList 0).1
        ⟨1, "A".toList⟩ [1] []).2.1.edge = [⟨2, 3, false, false⟩] := by
  decide

theorem membership_step_find (m : List (Node × Int)) (t : NodeTraversal) (n : Node) :
    (map_find (membership_step m t) n).getD 0
      = (map_find m n).getD 0 + (if t.node = n then 1 else 0) := by
  unfold membership_step
  cases h : map_find m t.node with
  | none =>
    simp only [map_find_insert]
    by_cases hn : t.node = n
    · subst hn; simp [h]
    · simp [hn]
  | some c =>
    simp only [map_find_insert]
    by_cases hn : t.node = n
    · subst hn; simp [h]
    · simp [hn]

theorem membership_fold_find (s : List NodeTraversal) (n : Node) :
    ∀ (m : List (Node × Int)),
      (map_find (s.foldl membership_step m) n).getD 0
        = (map_find m n).getD 0 + ((s.map (fun t => t.node)).count n : Nat) := by
  induction s with
  | nil => intro m; simp
  | cons t rest ih =>
    intro m
    rw [List.foldl_cons, ih, membership_step_find, List.map_cons, List.count_cons]
    by_cases hn : t.node = n
    · simp [hn]; omega
    · simp [hn]

theorem count_membership_find (sibs : List (List NodeTraversal)) (n : Node) :
    (map_find (count_membership sibs) n).getD 0 = (node_occurrences sibs n : Int) := by
  have h : ∀ (l : List (List NodeTraversal)) (m : List (Node × Int)),
      (map_find (l.foldl (fun membership s => s.foldl membership_step membership) m) n).getD 0
        = (map_find m n).getD 0 + (node_occurrences l n : Nat) := by
    intro l
    induction l with
    | nil => intro m; simp [node_occurrences]
    | cons s rest ih =>
      intro m
      rw [List.foldl_cons, ih, membership_fold_find]
      unfold node_occurrences
      simp only [List.flatten_cons, List.map_append, List.count_append]
      push_cast
      omega
  have := h sibs []
  unfold count_membership
  rw [this]
  simp [map_find]

theorem is_transitive_iff (sibs : List (List NodeTraversal)) (s : List NodeTraversal) :
    is_transitive (count_membership sibs) s = true ↔ ∀ t ∈ s, node_occurrences sibs t.node ≤ 1 := by
  unfold is_transitive
  simp only [Bool.not_eq_true', List.any_eq_false, decide_eq_true_eq, count_membership_find]
  constructor
  · intro h t ht
    have := h t ht
    omega
  · intro h t ht
    have := h t ht
    omega

theorem travlt_asymm (a b : NodeTraversal) (h : NodeTraversal.lt a b = true) :
    NodeTraversal.lt b a = false := by
  unfold NodeTraversal.lt at h ⊢
  cases ha : a.backward <;> cases hb : b.backward <;> simp_all <;> omega

theorem trav_set_lt_asymm (a : List NodeTraversal) :
    ∀ (b : List NodeTraversal), trav_set_lt a b = true → trav_set_lt b a = false := by
  induction a with
  | nil =>
    intro b h
    cases b with
    | nil => simp [trav_set_lt] at h
    | cons y ys => simp [trav_set_lt]
  | cons x xs ih =>
    intro b h
    cases b with
    | nil => simp [trav_set_lt] at h
    | cons y ys =>
      simp only [trav_set_lt, Bool.or_eq_true, Bool.and_eq_true, Bool.not_eq_true'] at h
      simp only [trav_set_lt, Bool.or_eq_false_iff, Bool.and_eq_false_imp, Bool.not_eq_true']
      rcases h with h | ⟨h1, h2⟩
      · exact ⟨travlt_asymm x y h, fun hc => by rw [h] at hc; exact absurd hc (by decide)⟩
      · exact ⟨h1, fun _ => ih ys h2⟩

theorem set_insert_append {α : Type} (lt : α → α → Bool)
    (hasymm : ∀ a b, lt a b = true → lt b a = false) (x : α) (acc : List α)
    (h : ∀ a ∈ acc, lt a x = true) : set_insert lt x acc = acc ++ [x] := by
  induction acc with
  | nil => rfl
  | cons y rest ih =>
    have hy := h y (List.mem_cons_self _ _)
    unfold set_insert
    rw [hasymm y x hy, hy]
    simp only [Bool.false_eq_true, if_false, if_true, List.cons_append, List.cons.injEq, true_and]
    exact ih (fun a ha => h a (List.mem_cons_of_mem _ ha))

theorem foldl_insert_sorted {α : Type} (lt : α → α → Bool)
    (hasymm : ∀ a b, lt a b = true → lt b a = false) (p : α → Bool) (l : List α) :
    ∀ (acc : List α), (∀ a ∈ acc, ∀ x ∈ l, lt a x = true) →
      l.Pairwise (fun a b => lt a b = true) →
      l.foldl (fun acc s => if p s = true then set_insert lt s acc else acc) acc
        = acc ++ l.filter p := by
  induction l with
  | nil => intro acc _ _; simp
  | cons x rest ih =>
    intro acc hacc hp
    rw [List.pairwise_cons] at hp
    rw [List.foldl_cons]
    by_cases hx : p x = true
    · simp only [hx, if_true, List.filter_cons]
      rw [set_insert_append lt hasymm x acc (fun a ha => hacc a ha x (List.mem_cons_self _ _))]
      rw [ih _ ?_ hp.2]
      · simp
      · intro a ha y hy
        rw [List.mem_append, List.mem_singleton] at ha
        rcases ha with ha | ha
        · exact hacc a ha y (List.mem_cons_of_mem _ hy)
        · rw [ha]; exact hp.1 y hy
    · simp only [hx, Bool.false_eq_true, if_false, List.filter_cons]
      exact ih acc (fun a ha y hy => hacc a ha y (List.mem_cons_of_mem _ hy)) hp.2

theorem node_occurrences_pos (sibs : List (List NodeTraversal)) (s : List NodeTraversal)
    (hs : s ∈ sibs) (t : NodeTraversal) (ht : t ∈ s) : 1 ≤ node_occurrences sibs t.node := by
  unfold node_occurrences
  rw [Nat.succ_le_iff, List.count_pos_iff]
  exact List.mem_map.mpr ⟨t, List.mem_flatten.mpr ⟨s, hs, ht⟩, rfl⟩

theorem node_occurrences_two (sibs : List (List NodeTraversal)) :
    ∀ (s s2 : List NodeTraversal), s ∈ sibs → s2 ∈ sibs → s ≠ s2 →
      ∀ (t t2 : NodeTraversal), t ∈ s → t2 ∈ s2 → t2.node = t.node →
        2 ≤ node_occurrences sibs t.node := by
  induction sibs with
  | nil => intro s s2 hs; exact absurd hs (List.not_mem_nil _)
  | cons a rest ih =>
    intro s s2 hs hs2 hne t t2 ht ht2 hn
    have hcons : node_occurrences (a :: rest) t.node
        = (a.map (fun t => t.node)).count t.node + node_occurrences rest t.node := by
      unfold node_occurrences
      simp [List.count_append]
    have hin : ∀ (u : NodeTraversal), u ∈ a → u.node = t.node →
        1 ≤ (a.map (fun t => t.node)).count t.node := by
      intro u hu hun
      rw [Nat.succ_le_iff, List.count_pos_iff]
      exact List.mem_map.mpr ⟨u, hu, hun⟩
    rw [hcons]
    rcases List.mem_cons.mp hs with h1 | h1 <;> rcases List.mem_cons.mp hs2 with h2 | h2
    · exact absurd (h1.trans h2.symm) hne
    · have e1 := hin t (h1 ▸ ht) rfl
      have e2 := node_occurrences_pos rest s2 h2 t2 ht2
      rw [hn] at e2
      omega
    · have e1 := hin t2 (h2 ▸ ht2) hn
      have e2 := node_occurrences_pos rest s h1 t ht
      omega
    · have := ih s s2 h1 h2 hne t t2 ht ht2 hn
      omega

/-- What `transitive_sibling_sets` computes: on a set of sibling sets (a list
strictly ascending in the order of `std::set<set<NodeTraversal>>`) it returns,
in the
same order, exactly the input sets all of whose members have a node that is
counted once over all traversals of all input sets.  No node of a returned set
occurs in another input set, and no node belongs to two returned sets. -/
theorem transitive_sibling_sets_spec (sibs : List (List NodeTraversal))
    (hsorted : sibs.Pairwise (fun a b => trav_set_lt a b = true)) :
    transitive_sibling_sets sibs
        = sibs.filter (fun s => s.all (fun t => decide (node_occurrences sibs t.node ≤ 1)))
    ∧ (∀ s ∈ transitive_sibling_sets sibs, s ∈ sibs
        ∧ ∀ t ∈ s, ∀ s2 ∈ sibs, s2 ≠ s → ∀ t2 ∈ s2, t2.node ≠ t.node)
    ∧ (∀ s1 ∈ transitive_sibling_sets sibs, ∀ s2 ∈ transitive_sibling_sets sibs, s1 ≠ s2 →
        ∀ t1 ∈ s1, ∀ t2 ∈ s2, t1.node ≠ t2.node) := by
  have heq : transitive_sibling_sets sibs
      = sibs.filter (fun s => s.all (fun t => decide (node_occurrences sibs t.node ≤ 1))) := by
    unfold transitive_sibling_sets
    simp only []
    rw [foldl_insert_sorted trav_set_lt trav_set_lt_asymm _ sibs []
      (fun a ha => absurd ha (List.not_mem_nil _)) hsorted, List.nil_append]
    apply List.filter_congr
    intro s _
    rw [Bool.eq_iff_iff, is_transitive_iff]
    simp
  have hmem : ∀ s ∈ transitive_sibling_sets sibs,
      s ∈ sibs ∧ ∀ t ∈ s, node_occurrences sibs t.node ≤ 1 := by
    intro s hs
    rw [heq, List.mem_filter] at hs
    refine ⟨hs.1, ?_⟩
    have := hs.2
    simp only [List.all_eq_true, decide_eq_true_eq] at this
    exact this
  refine ⟨heq, ?_, ?_⟩
  · intro s hs
    obtain ⟨h1, h2⟩ := hmem s hs
    refine ⟨h1, ?_⟩
    intro t ht s2 hs2 hne t2 ht2 hn
    have := node_occurrences_two sibs s s2 h1 hs2 (Ne.symm hne) t t2 ht ht2 hn
    have := h2 t ht
    omega
  · intro s1 hs1 s2 hs2 hne t1 ht1 t2 ht2 hn
    obtain ⟨h1, h2⟩ := hmem s1 hs1
    obtain ⟨h3, _⟩ := hmem s2 hs2
    have := node_occurrences_two sibs s1 s2 h1 h3 hne t1 t2 ht1 ht2 hn.symm
    have := h2 t1 ht1
    omega

/-- An instance of `transitive_sibling_sets_spec`: of the sets `{1+, 2+}`,
`{2+, 3+}` and `{4+, 5+}` only the last is kept. -/
theorem transitive_sibling_sets_spec_witness :
    transitive_sibling_sets
        [[⟨⟨1, "A".toList⟩, false⟩, ⟨⟨2, "C".toList⟩, false⟩],
         [⟨⟨2, "C".toList⟩, false⟩, ⟨⟨3, "G".toList⟩, false⟩],
         [⟨⟨4, "T".toList⟩, false⟩, ⟨⟨5, "A".toList⟩, false⟩]]
      = [[⟨⟨4, "T".toList⟩, false⟩, ⟨⟨5, "A".toList⟩, false⟩]] :=
  ((transitive_sibling_sets_spec
      [[⟨⟨1, "A".toList⟩, false⟩, ⟨⟨2, "C".toList⟩, false⟩],
       [⟨⟨2, "C".toList⟩, false⟩, ⟨⟨3, "G".toList⟩, false⟩],
       [⟨⟨4, "T".toList⟩, false⟩, ⟨⟨5, "A".toList⟩, false⟩]]
      (by decide)).1).trans (by decide)

/-- C34 fails on the input that holds the single sibling set `{1+, 1-}`, node 1
in both orientations: node 1 is in one sibling set and no member of the set
occurs in another set, yet `transitive_sibling_sets` returns no set, because
the map `membership` counts the two traversals of node 1, not the sets that
node 1 is in. -/
theorem transitive_sibling_sets_drops_both_orientations :
    transitive_sibling_sets [[⟨⟨1, "A".toList⟩, false⟩, ⟨⟨1, "A".toList⟩, true⟩]] = [] := by
  decide

/-- The search of `strongly_connected_components` on a graph whose only node
`n` carries the plain self loop: both orientations of `n` are visited, each
closes the component of `n`, and the set of components holds it once. -/
theorem scc_single_loop (g : VG) (n : Node)
    (hnode : g.node = [n]) (hedge : g.edge = [⟨n.id, n.id, false, false⟩])
    (hget : get_node g n.id = some n)
    (hstart : edges_start g n.id = [(n.id, false)])
    (hend : edges_end g n.id = [(n.id, false)])
    (hby : get_edge g ⟨n.id, true⟩ ⟨n.id, false⟩ = some ⟨n.id, n.id, false, false⟩) :
    strongly_connected_components g = some [[n.id]] := by
  have hby2 : get_edge g ⟨n.id, false⟩ ⟨n.id, true⟩ = some ⟨n.id, n.id, false, false⟩ := by
    unfold get_edge at hby ⊢
    rw [minmax_comm]
    exact hby
  have hf1 : travs_from g ⟨n, false⟩ = some [⟨n, false⟩] := by
    simp [travs_from, nodes_next, hend, hget, all_some, set_insert]
  have hf2 : travs_from g ⟨n, true⟩ = some [⟨n, true⟩] := by
    simp [travs_from, nodes_next, hstart, hget, all_some, set_insert]
  have he1 : frame_edges g ⟨n, false⟩ = some [⟨n.id, n.id, false, false⟩] := by
    simp [frame_edges, hf1, get_edge_trav, hby, all_some]
  have he2 : frame_edges g ⟨n, true⟩ = some [⟨n.id, n.id, false, false⟩] := by
    simp [frame_edges, hf2, get_edge_trav, hby2, all_some]
  have ht1 : dfs_target g ⟨n, false⟩ ⟨n.id, n.id, false, false⟩ = some ⟨n, false⟩ := by
    simp [dfs_target]
  have ht2 : dfs_target g ⟨n, true⟩ ⟨n.id, n.id, false, false⟩ = some ⟨n, true⟩ := by
    simp [dfs_target]
  unfold strongly_connected_components dfs
  rw [hnode, hedge]
  simp [dfs_root, dfs_walk, he1, he2, ht1, ht2, map_find, map_insert, map_erase, scc_begin,
    scc_end, hf1, hf2, set_mem, set_insert, set_erase, NodeTraversal.lt, pop_component,
    id_set_lt, id_lt]

/-- C35. For the graph of a single node with a plain self loop from its end to
its start, whatever the sequence and the id of the node,
`strongly_connected_components` returns exactly one component, the singleton
of the id of the node. -/
theorem scc_self_loop_singleton (seq : List Char) (id : Int) :
    (self_loop_graph seq id).node = [(create_node VG.empty seq id).2]
    ∧ (self_loop_graph seq id).edge
        = [⟨(create_node VG.empty seq id).2.id, (create_node VG.empty seq id).2.id, false, false⟩]
    ∧ strongly_connected_components (self_loop_graph seq id)
        = some [[(create_node VG.empty seq id).2.id]] := by
  have hnode : (self_loop_graph seq id).node = [(create_node VG.empty seq id).2] := by
    by_cases h : id = 0 <;>
      simp [self_loop_graph, create_node, create_edge, get_edge, VG.empty, map_find, set_edge,
        has_edge_rec, index_edge_by_node_sides, h]
  have hedge : (self_loop_graph seq id).edge
      = [⟨(create_node VG.empty seq id).2.id, (create_node VG.empty seq id).2.id,
          false, false⟩] := by
    by_cases h : id = 0 <;>
      simp [self_loop_graph, create_node, create_edge, get_edge, VG.empty, map_find, set_edge,
        has_edge_rec, index_edge_by_node_sides, h]
  refine ⟨hnode, hedge, scc_single_loop _ _ hnode hedge ?_ ?_ ?_ ?_⟩
  · by_cases h : id = 0 <;>
      simp [self_loop_graph, create_node, create_edge, get_edge, get_node, VG.empty, map_find,
        map_insert, map_erase, set_edge, has_edge_rec, index_edge_by_node_sides, h]
  · by_cases h : id = 0 <;>
      simp [self_loop_graph, create_node, create_edge, get_edge, edges_start, VG.empty, map_find,
        map_insert, map_erase, set_edge, has_edge_rec, index_edge_by_node_sides, push_side, h]
  · by_cases h : id = 0 <;>
      simp [self_loop_graph, create_node, create_edge, get_edge, edges_end, VG.empty, map_find,
        map_insert, map_erase, set_edge, has_edge_rec, index_edge_by_node_sides, push_side, h]
  · by_cases h : id = 0 <;>
      simp [self_loop_graph, create_node, create_edge, get_edge, VG.empty, map_find,
        map_insert, map_erase, set_edge, has_edge_rec, index_edge_by_node_sides, pair_from_edge,
        minmax, NodeSide.lt, h]

/-- C36. `adjacent` answers `false` for every two positions on the same node,
whatever their offsets and orientations: the test for consecutive offsets
compares the offset of the first position with itself plus one.  On the node
1 the positions at the offsets 0 and 1 are reported as not adjacent. -/
theorem adjacent_same_node_false (g : VG) (node_id offset1 offset2 : Int) (rev1 rev2 : Bool) :
    adjacent g ⟨node_id, offset1, rev1⟩ ⟨node_id, offset2, rev2⟩ = some false
    ∧ adjacent (create_node VG.empty "AC".toList 0).1 ⟨1, 0, false⟩ ⟨1, 1, false⟩ = some false := by
  constructor
  · simp [adjacent]
  · decide

/-- C40. On a graph whose stores and indexes agree and whose node sequences
are non-empty (and shorter than 2^31), the recursive walk inside `unfold`
terminates: started with a length below 2^31 it returns within a recursion
depth of that length plus one, every nested call being made with a smaller
length; and `unfold` returns for every `max_length`, with the depth bound
taken from `max_length`. -/
theorem unfold_walk_terminates (reverse_complement : List Char → List Char) (g : VG)
    (max_length : Int) (node_translation : List (Int × (Int × Bool)))
    (hs : store_consistent g)
    (hseq : ∀ n ∈ g.node, 1 ≤ n.sequence.length ∧ (n.sequence.length : Int) < 2 ^ 31) :
    (∀ (curr : NodeTraversal) (length : Int) (st : WalkState), length < 2 ^ 31 →
        ∃ st2, walk g (length.toNat + 1) curr length st = some st2)
    ∧ ∃ r, unfold reverse_complement ((to_int max_length).toNat + 1) g max_length
        node_translation = some r := by
  constructor
  · intro curr length st h31
    refine walk_some g hs hseq _ curr length st (Nat.succ_pos _) ?_ h31
    push_cast
    omega
  · refine unfold_returns reverse_complement _ g max_length node_translation hs hseq ?_
      (Nat.succ_pos _)
    push_cast
    omega

theorem knot_graph_sequences :
    ∀ n ∈ knot_graph.node, 1 ≤ n.sequence.length ∧ (n.sequence.length : Int) < 2 ^ 31 := by
  intro n hn
  have h : n = ⟨1, "A".toList⟩ ∨ n = ⟨2, "C".toList⟩ := by
    have : knot_graph.node = [⟨1, "A".toList⟩, ⟨2, "C".toList⟩] := by decide
    rw [this] at hn
    simpa using hn
  rcases h with rfl | rfl <;> exact ⟨by decide, by norm_num⟩

/-- Witness for C40: the two-node cycle 1 → 2 → 1 with a reversing self loop
on the end of node 2; `unfold` with `max_length` 3 returns. -/
theorem unfold_walk_terminates_witness :
    ∃ r, unfold dna_reverse_complement 4 knot_graph 3 [] = some r :=
  (unfold_walk_terminates dna_reverse_complement knot_graph 3 [] knot_graph_store
    knot_graph_sequences).2

theorem map_erase_none {κ ν : Type} [DecidableEq κ] (m : List (κ × ν)) (k : κ)
    (h : map_find m k = none) : map_erase m k = m := by
  induction m with
  | nil => rfl
  | cons p rest ih =>
    obtain ⟨k1, v1⟩ := p
    unfold map_find at h
    by_cases hk : k1 = k
    · simp [hk] at h
    · simp only [hk, if_false] at h
      unfold map_erase at ih ⊢
      simp only [List.filter_cons, ne_eq, hk, not_false_eq_true, decide_True, if_true]
      rw [ih h]

theorem map_erase_perm {κ ν : Type} [DecidableEq κ] (m : List (κ × ν)) (k : κ) (v : ν)
    (hk : keys_nodup m) (h : (k, v) ∈ m) : m.Perm ((k, v) :: map_erase m k) := by
  induction m with
  | nil => simp at h
  | cons p rest ih =>
    obtain ⟨k1, v1⟩ := p
    have hk2 := hk
    unfold keys_nodup at hk2
    rw [List.map_cons, List.nodup_cons] at hk2
    rcases List.mem_cons.mp h with h1 | h1
    · simp only [Prod.mk.injEq] at h1
      obtain ⟨e1, e2⟩ := h1
      subst e1 e2
      have hnone : map_find rest k = none := by
        cases hf : map_find rest k with
        | none => rfl
        | some w =>
          exact absurd (List.mem_map.mpr ⟨(k, w), map_find_mem _ _ _ hf, rfl⟩) hk2.1
      have : map_erase ((k, v) :: rest) k = rest := by
        have h2 := map_erase_none rest k hnone
        unfold map_erase at h2 ⊢
        simp only [List.filter_cons, ne_eq, not_true_eq_false, decide_False, Bool.false_eq_true,
          if_false]
        exact h2
      rw [this]
    · have hne : k1 ≠ k := by
        intro e
        apply hk2.1
        rw [e]
        exact List.mem_map.mpr ⟨(k, v), h1, rfl⟩
      have : map_erase ((k1, v1) :: rest) k = (k1, v1) :: map_erase rest k := by
        unfold map_erase
        simp only [List.filter_cons, ne_eq, hne, not_false_eq_true, decide_True, if_true]
      rw [this]
      exact ((ih hk2.2 h1).cons (k1, v1)).trans (List.Perm.swap _ _ _)

theorem unindex_ptr_by_id (g : VG) (e : Option Edge) :
    (unindex_edge_ptr g e).node_by_id = g.node_by_id := by
  cases e with
  | none => rfl
  | some e =>
    unfold unindex_edge_ptr unindex_edge_by_node_sides
    simp only []
    split_ifs <;> rfl

theorem unindex_ptr_node (g : VG) (e : Option Edge) :
    (unindex_edge_ptr g e).node = g.node := by
  cases e with
  | none => rfl
  | some e =>
    unfold unindex_edge_ptr unindex_edge_by_node_sides
    simp only []
    split_ifs <;> rfl

theorem nodes_next_get (g : VG) (n : NodeTraversal) (next : List NodeTraversal)
    (h : nodes_next g n = some next) : ∀ t ∈ next, ∃ id, get_node g id = some t.node := by
  unfold nodes_next at h
  simp only [] at h
  intro t ht
  by_cases hall : ∀ x ∈ (if n.backward then edges_start g n.node.id else edges_end g n.node.id),
      ∃ y, (fun next => (get_node g next.1).map
        (fun nd => (⟨nd, next.2 != n.backward⟩ : NodeTraversal))) x = some y
  · obtain ⟨r, hr, hr2⟩ := all_some_map _ _ hall
    rw [hr] at h
    cases h
    obtain ⟨x, _, hx⟩ := hr2 t ht
    cases hg : get_node g x.1 with
    | none => rw [hg] at hx; exact Option.noConfusion hx
    | some nd =>
      rw [hg] at hx
      simp only [Option.map_some', Option.some.injEq] at hx
      exact ⟨x.1, by rw [hg, ← hx]⟩
  · exfalso
    push_neg at hall
    obtain ⟨x, hx, hnone⟩ := hall
    obtain ⟨t2, _, ht2⟩ := all_some_map_complete _ _ next h x hx
    exact hnone t2 ht2

theorem topo_part_move (g0 : VG) (huniq : ∀ a ∈ g0.node, ∀ b ∈ g0.node, a.id = b.id → a = b)
    (st st2 : TopoState) (hp : topo_part g0 st) (k : Int) (t : NodeTraversal)
    (hk : t.node.id = k) (ht : t.node ∈ g0.node)
    (hu : (map_find st.unvisited k).isSome = true)
    (hg : st2.g.node_by_id = st.g.node_by_id) (hgn : st2.g.node = st.g.node)
    (hs : st2.s = map_insert st.s k t)
    (hun : st2.unvisited = map_erase st.unvisited k)
    (hseeds : ∀ p ∈ st2.seeds, p.2.node ∈ g0.node) (hl : st2.l = st.l) :
    topo_part g0 st2 := by
  obtain ⟨nd, hnd⟩ := Option.isSome_iff_exists.mp hu
  have hmem := map_find_mem _ _ _ hnd
  obtain ⟨u1, u2⟩ := hp.u_vals _ hmem
  have hnd2 : nd = t.node := huniq nd u2 t.node ht (by rw [u1, hk])
  have hsnone : map_find st.s k = none := by
    cases hf : map_find st.s k with
    | none => rfl
    | some w =>
      have := hp.disjoint k (by rw [hf]; rfl)
      rw [hnd] at this
      exact Option.noConfusion this
  have hs2 : st2.s = (k, t) :: st.s := by
    rw [hs]
    unfold map_insert
    rw [map_erase_none _ _ hsnone]
  refine ⟨hg.trans hp.by_id, hgn.trans hp.nodes, ?_, ?_, hseeds, ?_, ?_, ?_, ?_⟩
  · intro p hpm
    rw [hs2] at hpm
    rcases List.mem_cons.mp hpm with h | h
    · rw [h]; exact ⟨hk, ht⟩
    · exact hp.s_vals p h
  · intro p hpm
    rw [hun] at hpm
    exact hp.u_vals p (map_erase_mem _ _ _ hpm)
  · rw [hs]; exact keys_nodup_insert _ _ _ hp.s_nodup
  · rw [hun]; exact keys_nodup_erase _ _ hp.u_nodup
  · intro k2 hk2
    rw [hun, map_find_erase]
    split_ifs with hkk
    · rfl
    · rw [hs, map_find_insert] at hk2
      simp only [hkk, if_false] at hk2
      exact hp.disjoint k2 hk2
  · rw [hl, hs2, hun]
    have h1 := map_erase_perm st.unvisited k nd hp.u_nodup hmem
    have h2 : (st.unvisited.map (fun p => p.2)).Perm
        (t.node :: (map_erase st.unvisited k).map (fun p => p.2)) := by
      have := h1.map (fun p => p.2)
      rw [List.map_cons] at this
      rw [← hnd2]
      exact this
    refine List.Perm.trans ?_ hp.perm
    simp only [List.map_cons, List.append_assoc, List.cons_append]
    refine List.Perm.append_left _ ?_
    refine List.Perm.trans ?_ (List.Perm.append_left _ h2.symm)
    exact (List.perm_middle).symm

theorem topo_part_same (g0 : VG) (st st2 : TopoState) (hp : topo_part g0 st)
    (hg : st2.g.node_by_id = st.g.node_by_id) (hgn : st2.g.node = st.g.node)
    (hs : st2.s = st.s)
    (hun : st2.unvisited = st.unvisited)
    (hseeds : ∀ p ∈ st2.seeds, p.2.node ∈ g0.node) (hl : st2.l = st.l) :
    topo_part g0 st2 :=
  ⟨hg.trans hp.by_id, hgn.trans hp.nodes, by rw [hs]; exact hp.s_vals, by rw [hun]; exact hp.u_vals, hseeds,
   by rw [hs]; exact hp.s_nodup, by rw [hun]; exact hp.u_nodup,
   by rw [hs, hun]; exact hp.disjoint, by rw [hl, hs, hun]; exact hp.perm⟩

theorem topo_part_pop (g0 : VG) (st : TopoState) (hp : topo_part g0 st)
    (first : Int × NodeTraversal) (hfirst : first ∈ st.s) :
    topo_part g0 { st with s := map_erase st.s first.2.node.id, l := st.l ++ [first.2] } := by
  have hkey := (hp.s_vals first hfirst).1
  have hperm := map_erase_perm st.s first.1 first.2 hp.s_nodup hfirst
  refine ⟨hp.by_id, hp.nodes, ?_, hp.u_vals, hp.seed_vals, ?_, hp.u_nodup, ?_, ?_⟩
  · intro p hpm
    exact hp.s_vals p (map_erase_mem _ _ _ hpm)
  · exact keys_nodup_erase _ _ hp.s_nodup
  · intro k hk
    simp only [map_find_erase] at hk
    split_ifs at hk with hkk
    · simp at hk
    · exact hp.disjoint k hk
  · simp only [List.map_append, List.map_cons, List.map_nil, List.append_assoc,
      List.singleton_append]
    refine List.Perm.trans ?_ hp.perm
    rw [List.append_assoc]
    refine List.Perm.append_left _ ?_
    rw [hkey]
    refine List.Perm.append_right _ ?_
    have := (hperm.map (fun p => p.2.node)).symm
    rw [List.map_cons] at this
    exact this

theorem take_seeds_part (g0 : VG)
    (huniq : ∀ a ∈ g0.node, ∀ b ∈ g0.node, a.id = b.id → a = b) :
    ∀ (fuel : Nat) (st : TopoState), topo_part g0 st → topo_part g0 (take_seeds fuel st) := by
  intro fuel
  induction fuel with
  | zero => intro st hp; exact hp
  | succ fuel ih =>
    intro st hp
    rw [take_seeds]
    split_ifs with hs
    · cases hb : map_begin st.seeds with
      | none => exact hp
      | some first_seed =>
        simp only []
        have hmem := map_begin_mem _ _ hb
        have hnode := hp.seed_vals first_seed hmem
        apply ih
        by_cases hu : (map_find st.unvisited first_seed.2.node.id).isSome = true
        · simp only [hu, if_true]
          exact topo_part_move g0 huniq st _ hp first_seed.2.node.id first_seed.2 rfl hnode hu
            rfl rfl rfl rfl
            (fun p hpm => hp.seed_vals p (map_erase_mem _ _ _ hpm)) rfl
        · simp only [hu, Bool.false_eq_true, if_false]
          exact topo_part_same g0 st _ hp rfl rfl rfl rfl
            (fun p hpm => hp.seed_vals p (map_erase_mem _ _ _ hpm)) rfl
    · exact hp

theorem unindex_prev_part (g0 : VG) (n : NodeTraversal) (prev : List NodeTraversal) :
    ∀ st, topo_part g0 st → topo_part g0 (unindex_prev n st prev) := by
  induction prev with
  | nil => intro st hp; exact hp
  | cons t rest ih =>
    intro st hp
    unfold unindex_prev
    rw [List.foldl_cons]
    apply ih
    split_ifs
    · exact topo_part_same g0 st _ hp (unindex_ptr_by_id _ _) (unindex_ptr_node _ _) rfl rfl
        hp.seed_vals rfl
    · exact hp

theorem visit_next_part (g0 : VG)
    (huniq : ∀ a ∈ g0.node, ∀ b ∈ g0.node, a.id = b.id → a = b)
    (n : NodeTraversal) (next : List NodeTraversal) :
    ∀ (st st2 : TopoState), topo_part g0 st → (∀ t ∈ next, t.node ∈ g0.node) →
      visit_next n st next = some st2 → topo_part g0 st2 := by
  induction next with
  | nil =>
    intro st st2 hp _ h
    simp only [visit_next, Option.some.injEq] at h
    rw [← h]
    exact hp
  | cons t rest ih =>
    intro st st2 hp hnext h
    have ht := hnext t (List.mem_cons_self _ _)
    have hrest : ∀ t2 ∈ rest, t2.node ∈ g0.node :=
      fun t2 h2 => hnext t2 (List.mem_cons_of_mem _ h2)
    have hp1 : topo_part g0 { st with g := unindex_edge_ptr st.g (get_edge_trav st.g n t) } :=
      topo_part_same g0 st _ hp (unindex_ptr_by_id _ _) (unindex_ptr_node _ _) rfl rfl
        hp.seed_vals rfl
    rw [visit_next] at h
    simp only [] at h
    by_cases hu : (map_find st.unvisited t.node.id).isSome = true
    · simp only [hu, if_true] at h
      cases hc : node_count_prev (unindex_edge_ptr st.g (get_edge_trav st.g n t)) t with
      | none => rw [hc] at h; exact Option.noConfusion h
      | some c =>
        rw [hc] at h
        simp only [] at h
        split_ifs at h with h0 hseed
        · refine ih _ st2 ?_ hrest h
          exact topo_part_move g0 huniq _ _ hp1 t.node.id t rfl ht hu rfl rfl rfl rfl
            hp.seed_vals rfl
        · refine ih _ st2 ?_ hrest h
          refine topo_part_same g0 _ _ hp1 rfl rfl rfl rfl ?_ rfl
          intro p hpm
          rcases map_insert_mem _ _ _ _ hpm with e | e
          · rw [e]; exact ht
          · exact hp.seed_vals p e
        · exact ih _ st2 hp1 hrest h
    · simp only [hu, Bool.false_eq_true, if_false] at h
      exact ih _ st2 hp1 hrest h

theorem drain_part (g0 : VG) (hn : nodes_consistent g0)
    (huniq : ∀ a ∈ g0.node, ∀ b ∈ g0.node, a.id = b.id → a = b) :
    ∀ (fuel : Nat) (st st2 : TopoState), topo_part g0 st → drain fuel st = some st2 →
      topo_part g0 st2 ∧ st2.s = [] := by
  intro fuel
  induction fuel with
  | zero =>
    intro st st2 hp h
    rw [drain] at h
    split_ifs at h with hs
    simp only [Option.some.injEq] at h
    rw [← h]
    exact ⟨hp, List.isEmpty_iff.mp hs⟩
  | succ fuel ih =>
    intro st st2 hp h
    rw [drain] at h
    cases hb : map_begin st.s with
    | none =>
      rw [hb] at h
      simp only [Option.some.injEq] at h
      rw [← h]
      exact ⟨hp, map_begin_none _ hb⟩
    | some first =>
      rw [hb] at h
      simp only [] at h
      have hp1 := topo_part_pop g0 st hp first (map_begin_mem _ _ hb)
      cases hprev : nodes_prev st.g first.2 with
      | none => rw [hprev] at h; exact Option.noConfusion h
      | some prev =>
        rw [hprev] at h
        simp only [] at h
        have hp2 := unindex_prev_part g0 first.2 prev _ hp1
        cases hnext : nodes_next
            (unindex_prev first.2
              { st with s := map_erase st.s first.2.node.id, l := st.l ++ [first.2] } prev).g
            first.2 with
        | none => rw [hnext] at h; exact Option.noConfusion h
        | some next =>
          rw [hnext] at h
          simp only [] at h
          cases hv : visit_next first.2
              (unindex_prev first.2
                { st with s := map_erase st.s first.2.node.id, l := st.l ++ [first.2] } prev)
              next with
          | none => rw [hv] at h; exact Option.noConfusion h
          | some st3 =>
            rw [hv] at h
            simp only [] at h
            refine ih st3 st2 ?_ h
            refine visit_next_part g0 huniq first.2 next _ st3 hp2 ?_ hv
            intro t ht
            obtain ⟨id, hid⟩ := nodes_next_get _ _ _ hnext t ht
            unfold get_node at hid
            rw [hp2.by_id] at hid
            exact (hn.by_id_sound id t.node hid).1

theorem topological_loop_part (g0 : VG) (hn : nodes_consistent g0)
    (huniq : ∀ a ∈ g0.node, ∀ b ∈ g0.node, a.id = b.id → a = b) :
    ∀ (fuel : Nat) (st st2 : TopoState), topo_part g0 st → st.s = [] →
      topological_loop fuel st = some st2 →
      topo_part g0 st2 ∧ st2.s = [] ∧ st2.unvisited = [] := by
  intro fuel
  induction fuel with
  | zero =>
    intro st st2 hp hs h
    rw [topological_loop] at h
    split_ifs at h with hu
    simp only [Option.some.injEq] at h
    rw [← h]
    exact ⟨hp, hs, List.isEmpty_iff.mp hu⟩
  | succ fuel ih =>
    intro st st2 hp hs h
    rw [topological_loop] at h
    split_ifs at h with hu
    · simp only [Option.some.injEq] at h
      rw [← h]
      exact ⟨hp, hs, List.isEmpty_iff.mp hu⟩
    · simp only [] at h
      have hp1 := take_seeds_part g0 huniq st.seeds.length st hp
      have hp2 : topo_part g0
          (if (take_seeds st.seeds.length st).s.isEmpty then
            match map_begin (take_seeds st.seeds.length st).unvisited with
            | none => take_seeds st.seeds.length st
            | some first =>
              { take_seeds st.seeds.length st with
                s := map_insert (take_seeds st.seeds.length st).s first.1 ⟨first.2, false⟩,
                unvisited := map_erase (take_seeds st.seeds.length st).unvisited first.1 }
          else take_seeds st.seeds.length st) := by
        split_ifs
        · cases hb : map_begin (take_seeds st.seeds.length st).unvisited with
          | none => exact hp1
          | some first =>
            simp only []
            have hmem := map_begin_mem _ _ hb
            obtain ⟨u1, u2⟩ := hp1.u_vals first hmem
            exact topo_part_move g0 huniq _ _ hp1 first.1 ⟨first.2, false⟩ u1 u2
              (map_find_isSome_of_mem _ _ hmem) rfl rfl rfl rfl hp1.seed_vals rfl
        · exact hp1
      cases hd : drain _ _ with
      | none => rw [hd] at h; exact Option.noConfusion h
      | some st3 =>
        rw [hd] at h
        simp only [] at h
        obtain ⟨hp3, hs3⟩ := drain_part g0 hn huniq _ _ st3 hp2 hd
        exact ih st3 st2 hp3 hs3 h

theorem swap_elements_perm {α : Type} [DecidableEq α] (l : List α) (i j : Nat) :
    (swap_elements l i j).Perm l := by
  unfold swap_elements
  cases hi : l.get? i with
  | none => exact List.Perm.refl _
  | some a =>
    cases hj : l.get? j with
    | none => exact List.Perm.refl _
    | some b =>
      simp only []
      obtain ⟨hil, hia⟩ := List.get?_eq_some.mp hi
      obtain ⟨hjl, hjb⟩ := List.get?_eq_some.mp hj
      have hjl2 : j < (l.set i b).length := by rw [List.length_set]; exact hjl
      have hget : (l.set i b)[j] = b := by
        rw [List.getElem_set]
        split_ifs
        · rfl
        · exact hjb
      have hia2 : l[i] = a := hia
      rw [List.perm_iff_count]
      intro x
      rw [List.count_set a x (l.set i b) j hjl2, List.count_set b x l i hil, hget, hia2]
      have hpos : (if (a == x) = true then 1 else 0) ≤ l.count x := by
        split_ifs with hax
        · have : a = x := by simpa using hax
          rw [← this, Nat.succ_le_iff, List.count_pos_iff, ← hia2]
          exact List.getElem_mem _
        · exact Nat.zero_le _
      omega

theorem swap_nodes_perm (g : VG) (a b : Node) : (swap_nodes g a b).node.Perm g.node := by
  unfold swap_nodes
  simp only []
  split_ifs <;> exact swap_elements_perm _ _ _

theorem sort_loop_perm (l : List NodeTraversal) :
    ∀ (g : VG) (i : Nat), (sort_loop g i l).node.Perm g.node := by
  induction l with
  | nil => intro g i; exact List.Perm.refl _
  | cons n rest ih =>
    intro g i
    rw [sort_loop]
    cases hg : g.node.get? i with
    | none => exact List.Perm.refl _
    | some node =>
      simp only []
      exact (ih _ _).trans (swap_nodes_perm g node n.node)

theorem nodes_unique (g : VG) (hn : nodes_consistent g) :
    ∀ a ∈ g.node, ∀ b ∈ g.node, a.id = b.id → a = b := by
  intro a ha b hb hab
  have h1 := hn.by_id_complete a ha
  have h2 := hn.by_id_complete b hb
  rw [hab, h2] at h1
  exact (Option.some.inj h1).symm

theorem foldl_insert_perm (l : List Node) :
    ∀ (init : List (Int × Node)), (∀ nd ∈ l, map_find init nd.id = none) →
      (l.map (fun nd => nd.id)).Nodup →
      ((l.foldl (fun unvisited node => map_insert unvisited node.id node) init).map
        (fun p => p.2)).Perm (init.map (fun p => p.2) ++ l) := by
  induction l with
  | nil => intro init _ _; simp
  | cons nd rest ih =>
    intro init hnone hnodup
    rw [List.map_cons, List.nodup_cons] at hnodup
    rw [List.foldl_cons]
    have hins : map_insert init nd.id nd = (nd.id, nd) :: init := by
      unfold map_insert
      rw [map_erase_none _ _ (hnone nd (List.mem_cons_self _ _))]
    rw [hins]
    refine (ih _ ?_ hnodup.2).trans ?_
    · intro nd2 h2
      unfold map_find
      have hne : nd.id ≠ nd2.id := by
        intro e
        apply hnodup.1
        rw [e]
        exact List.mem_map.mpr ⟨nd2, h2, rfl⟩
      simp only [hne, if_false]
      exact hnone nd2 (List.mem_cons_of_mem _ h2)
    · simp only [List.map_cons, List.cons_append]
      exact List.perm_middle.symm

theorem foldl_insert_values (l : List Node) :
    ∀ (init : List (Int × Node)) (P : Node → Prop), (∀ p ∈ init, P p.2) → (∀ nd ∈ l, P nd) →
      ∀ p ∈ l.foldl (fun unvisited node => map_insert unvisited node.id node) init, P p.2 := by
  induction l with
  | nil => intro init P h _; exact h
  | cons nd rest ih =>
    intro init P h hl
    rw [List.foldl_cons]
    apply ih _ P
    · intro p hp
      rcases map_insert_mem _ _ _ _ hp with e | e
      · rw [e]; exact hl nd (List.mem_cons_self _ _)
      · exact h p e
    · exact fun nd2 h2 => hl nd2 (List.mem_cons_of_mem _ h2)

theorem foldl_insert_nodup (l : List Node) :
    ∀ (init : List (Int × Node)), keys_nodup init →
      keys_nodup (l.foldl (fun unvisited node => map_insert unvisited node.id node) init) := by
  induction l with
  | nil => intro init h; exact h
  | cons nd rest ih =>
    intro init h
    rw [List.foldl_cons]
    exact ih _ (keys_nodup_insert _ _ _ h)

theorem foldl_seed_values (l : List Node) (P : Node → Prop) :
    ∀ (init : List (Int × NodeTraversal)), (∀ p ∈ init, P p.2.node) → (∀ nd ∈ l, P nd) →
      ∀ p ∈ l.foldl
        (fun seeds head => map_insert seeds head.id (⟨head, false⟩ : NodeTraversal)) init,
        P p.2.node := by
  induction l with
  | nil => intro init h _; exact h
  | cons nd rest ih =>
    intro init h hl
    rw [List.foldl_cons]
    apply ih
    · intro p hp
      rcases map_insert_mem _ _ _ _ hp with e | e
      · rw [e]; exact hl nd (List.mem_cons_self _ _)
      · exact h p e
    · exact fun nd2 h2 => hl nd2 (List.mem_cons_of_mem _ h2)

theorem topo_part_init (g : VG) (hn : nodes_consistent g) :
    topo_part g
      { g := g, s := [],
        seeds := (head_nodes g).foldl
          (fun seeds head => map_insert seeds head.id (⟨head, false⟩ : NodeTraversal)) [],
        unvisited := g.node.foldl (fun unvisited node => map_insert unvisited node.id node) [],
        l := [] } := by
  have huniq := nodes_unique g hn
  refine ⟨rfl, rfl, fun p hp => absurd hp (List.not_mem_nil _), ?_, ?_, List.nodup_nil,
    foldl_insert_nodup _ _ List.nodup_nil, fun k hk => by simp [map_find] at hk, ?_⟩
  · intro p hp
    exact ⟨foldl_insert_keys g.node [] (fun q hq => absurd hq (List.not_mem_nil _)) p hp,
      foldl_insert_values g.node [] (fun nd => nd ∈ g.node)
        (fun q hq => absurd hq (List.not_mem_nil _)) (fun nd h => h) p hp⟩
  · refine foldl_seed_values (head_nodes g) (fun nd => nd ∈ g.node) []
      (fun q hq => absurd hq (List.not_mem_nil _)) ?_
    intro nd h
    unfold head_nodes at h
    exact (List.mem_filter.mp h).1
  · simp only [List.map_nil, List.nil_append]
    have := foldl_insert_perm g.node [] (fun nd _ => rfl)
      (List.Nodup.map_on (fun a ha b hb hab => huniq a ha b hb hab) hn.node_nodup)
    simpa using this

/-- C38. On a graph whose stores and indexes agree and whose side maps hold
no empty list, `topological_sort` returns, and the node handles of its output
are a rearrangement of the node store: every stored node occurs exactly once in
the output (hence in one orientation only); `sort` returns as well, and the
node store after it is a rearrangement of the node store before. -/
theorem topological_sort_permutes (g : VG) (hs : store_consistent g) (hne : sides_nonempty g) :
    (∃ g2 l, topological_sort g = some (g2, l)
      ∧ (l.map (fun t => t.node)).Perm g.node
      ∧ (l.map (fun t => t.node)).Nodup
      ∧ g2.node = g.node)
    ∧ ∃ g3, sort g = some g3 ∧ g3.node.Perm g.node := by
  obtain ⟨st, hloop, _, _, _, hsort⟩ := topological_sort_total g hs hne
  obtain ⟨hp, hs2, hu2⟩ := topological_loop_part g hs.nodes_ok (nodes_unique g hs.nodes_ok) _ _ st
    (topo_part_init g hs.nodes_ok) rfl hloop
  have hperm : (st.l.map (fun t => t.node)).Perm g.node := by
    have := hp.perm
    rw [hs2, hu2] at this
    simpa using this
  have hnode : (rebuild_indexes st.g).node = g.node :=
    (rebuild_indexes_nodes st.g).1.trans hp.nodes
  refine ⟨⟨_, _, hsort, hperm, (List.Perm.nodup_iff hperm).mpr hs.nodes_ok.node_nodup, hnode⟩, ?_⟩
  unfold sort
  split_ifs
  · exact ⟨g, rfl, List.Perm.refl _⟩
  · rw [hsort]
    refine ⟨_, rfl, ?_⟩
    simp only []
    exact (sort_loop_perm st.l _ 0).trans (by rw [hnode])

/-- Witness for C38: the two-node cycle 1 → 2 → 1 with a reversing self loop
on the end of node 2. -/
theorem topological_sort_permutes_witness :
    (∃ g2 l, topological_sort knot_graph = some (g2, l)
      ∧ (l.map (fun t => t.node)).Perm knot_graph.node
      ∧ (l.map (fun t => t.node)).Nodup
      ∧ g2.node = knot_graph.node)
    ∧ ∃ g3, sort knot_graph = some g3 ∧ g3.node.Perm knot_graph.node :=
  topological_sort_permutes knot_graph knot_graph_store (by unfold sides_nonempty; decide)

theorem dice_div_spec (N max_node_size : Int) (hmax : 1 ≤ max_node_size)
    (hN : max_node_size < N) (h30 : N < 2 ^ 30) :
    ∀ (fuel : Nat) (div : Int), 2 ≤ div → div ≤ N + 1 → N + 1 - div < fuel →
      (div = 2 ∨ max_node_size < N / (div - 1)) →
      ∃ d, dice_div fuel N max_node_size div = some d ∧ 2 ≤ d ∧ d ≤ N + 1
        ∧ N / d ≤ max_node_size ∧ (d = 2 ∨ max_node_size < N / (d - 1)) := by
  intro fuel
  induction fuel with
  | zero =>
    intro div _ h2 h3 _
    exfalso
    simp only [Nat.cast_zero] at h3
    omega
  | succ fuel ih =>
    intro div h1 h2 h3 h4
    have hdiv : Int.tdiv N div = N / div := Int.tdiv_eq_ediv (by omega) (by omega)
    rw [dice_div, hdiv]
    split_ifs with hgt
    · have hle : div ≤ N := by
        by_contra hc
        have hd : div = N + 1 := by omega
        rw [hd, Int.ediv_eq_zero_of_lt (by omega) (by omega)] at hgt
        omega
      rw [to_int_id (div + 1) (by omega) (by omega)]
      refine ih (div + 1) (by omega) (by omega) ?_ (Or.inr ?_)
      · push_cast at h3
        omega
      · rw [show div + 1 - 1 = div by ring]
        exact hgt
    · exact ⟨div, rfl, h1, h2, by omega, h4⟩

theorem dice_segment_pos (N max_node_size d : Int) (hmax : 1 ≤ max_node_size)
    (hN : max_node_size < N) (h2 : 2 ≤ d) (h : d = 2 ∨ max_node_size < N / (d - 1)) :
    1 ≤ N / d := by
  rw [Int.le_ediv_iff_mul_le (by omega)]
  rcases h with h | h
  · omega
  · have h3 : 2 ≤ N / (d - 1) := by omega
    rw [Int.le_ediv_iff_mul_le (by omega)] at h3
    omega

theorem dice_divisions_spec (N s : Int) (hs : 1 ≤ s) (h30 : N < 2 ^ 30) (hsN : s ≤ N) :
    ∀ (fuel : Nat) (last : Int) (divisions : List Int), 0 ≤ last → last < N → N - last ≤ fuel →
      ∃ tail, dice_divisions fuel N s last divisions = some (divisions ++ tail)
        ∧ List.Chain (fun a b => b = a + s) last tail
        ∧ (∀ p ∈ tail, p < N)
        ∧ N ≤ tail.getLastD last + s := by
  intro fuel
  induction fuel with
  | zero =>
    intro last divisions _ h2 h3
    exfalso
    simp only [Nat.cast_zero] at h3
    omega
  | succ fuel ih =>
    intro last divisions h1 h2 h3
    rw [dice_divisions, to_int_id (last + s) (by omega) (by omega)]
    split_ifs with hlt
    · obtain ⟨tail, e1, e2, e3, e4⟩ := ih (last + s) (divisions ++ [last + s]) (by omega) hlt
        (by push_cast at h3; omega)
      refine ⟨(last + s) :: tail, ?_, List.Chain.cons rfl e2, ?_, ?_⟩
      · rw [e1]; simp
      · intro p hp
        rcases List.mem_cons.mp hp with h | h
        · rw [h]; exact hlt
        · exact e3 p h
      · rw [List.getLastD_cons]
        exact e4
    · exact ⟨[], by simp, List.Chain.nil, fun p hp => absurd hp (List.not_mem_nil _),
        by simp only [List.getLastD_nil]; omega⟩

theorem between_length (S : List Char) (a b : Int) (h0 : 0 ≤ a) (h1 : a ≤ b)
    (h2 : b ≤ S.length) : ((between S a b).length : Int) = b - a := by
  unfold between
  rw [List.length_drop, List.length_take]
  omega

theorem expected_sequences_steps (S : List Char) (s : Int) (hs : 1 ≤ s) :
    ∀ (tail : List Int) (last : Int), 0 ≤ last → last < S.length →
      List.Chain (fun a b => b = a + s) last tail → (∀ p ∈ tail, p < S.length) →
      (S.length : Int) ≤ tail.getLastD last + s →
      ∀ x ∈ expected_sequences S tail last, 1 ≤ (x.length : Int) ∧ (x.length : Int) ≤ s := by
  intro tail
  induction tail with
  | nil =>
    intro last h0 h1 _ _ h4 x hx
    simp only [expected_sequences, List.mem_singleton] at hx
    rw [hx, between_length S last S.length h0 (by omega) (le_refl _)]
    simp only [List.getLastD_nil] at h4
    omega
  | cons p rest ih =>
    intro last h0 h1 h2 h3 h4 x hx
    rw [List.chain_cons] at h2
    have hp := h3 p (List.mem_cons_self _ _)
    simp only [expected_sequences, List.mem_cons] at hx
    rcases hx with hx | hx
    · rw [hx, between_length S last p h0 (by omega) (by omega)]
      omega
    · rw [List.getLastD_cons] at h4
      exact ih p (by omega) hp h2.2 (fun q hq => h3 q (List.mem_cons_of_mem _ hq)) h4 x hx

theorem chain_step_le (s : Int) (hs : 0 ≤ s) :
    ∀ (tail : List Int) (last : Int), List.Chain (fun a b => b = a + s) last tail →
      List.Chain (· ≤ ·) last tail := by
  intro tail
  induction tail with
  | nil => intro last _; exact List.Chain.nil
  | cons p rest ih =>
    intro last h
    rw [List.chain_cons] at h
    exact List.Chain.cons (by omega) (ih p h.2)

theorem create_parts_node (node : Node) (positions : List Int) :
    ∀ (last_pos : Int) (g : VG) (parts : List Node),
      ∃ news : List Node,
        (create_parts node positions last_pos g parts).2.2 = parts ++ news
        ∧ (create_parts node positions last_pos g parts).1.node = g.node ++ news := by
  induction positions with
  | nil => intro last_pos g parts; exact ⟨[], by simp [create_parts], by simp [create_parts]⟩
  | cons p rest ih =>
    intro last_pos g parts
    obtain ⟨news, h1, h2⟩ := ih p
      (create_node g (substr node.sequence last_pos.toNat (p - last_pos)) 0).1
      (parts ++ [(create_node g (substr node.sequence last_pos.toNat (p - last_pos)) 0).2])
    refine ⟨(create_node g (substr node.sequence last_pos.toNat (p - last_pos)) 0).2 :: news,
      ?_, ?_⟩
    · simp only [create_parts]
      rw [h1]
      simp
    · simp only [create_parts]
      rw [h2, (create_node_node_fields g _ 0).1]
      simp

theorem make_parts_node (g : VG) (node : Node) (positions : List Int) :
    (make_parts g node positions []).1.node = g.node ++ (make_parts g node positions []).2 := by
  obtain ⟨news, h1, h2⟩ := create_parts_node node positions 0 g []
  unfold make_parts
  simp only []
  rw [(create_node_node_fields _ _ 0).1, h2, h1]
  simp

theorem make_parts_sequences (g : VG) (node : Node) (positions : List Int)
    (hasc : List.Chain (· ≤ ·) 0 positions)
    (hhi : ∀ p ∈ positions, p ≤ node.sequence.length)
    (hsize : node.sequence.length < 2 ^ 64) :
    (make_parts g node positions []).2.map (fun n => n.sequence)
      = expected_sequences node.sequence positions 0 := by
  have hspec := (create_parts_spec node positions 0 g [] (le_refl _) hasc hhi
    (Int.ofNat_nonneg _) hsize).1
  unfold make_parts
  simp only [List.map_append, List.map_cons, List.map_nil, create_node_sequence]
  simpa using hspec

theorem mapping_parts_loop_ids (cut_mapping : Mapping → Int → Mapping × Mapping)
    (node : Node) (parts : List Node) (positions : List Int) :
    ∀ (i : Nat) (rem : Mapping) (local_offset : Int) (acc : List Mapping),
      i + positions.length ≤ parts.length →
      ∀ m ∈ (mapping_parts_loop cut_mapping node parts positions i rem local_offset acc).1,
        m ∈ acc ∨ ∃ part ∈ parts, m.position.node_id = part.id := by
  induction positions with
  | nil => intro i rem lo acc _ m hm; exact Or.inl hm
  | cons pos rest ih =>
    intro i rem lo acc hlen m hm
    simp only [List.length_cons] at hlen
    simp only [mapping_parts_loop] at hm
    rcases ih (i + 1) _ pos _ (by omega) m hm with h | h
    · rcases List.mem_append.mp h with h2 | h2
      · exact Or.inl h2
      · right
        simp only [List.mem_singleton] at h2
        have hi : i < parts.length := by omega
        refine ⟨parts.getD i ⟨0, []⟩, ?_, ?_⟩
        · rw [List.getD_eq_getElem _ _ hi]
          exact List.getElem_mem _
        · rw [h2]; rfl
    · exact Or.inr h

theorem mapping_parts_ids (cut_mapping : Mapping → Int → Mapping × Mapping)
    (node : Node) (positions : List Int) (parts : List Node)
    (hlen : parts.length = positions.length + 1) (m0 : Mapping) :
    ∀ m ∈ mapping_parts_of cut_mapping node positions parts m0,
      ∃ part ∈ parts, m.position.node_id = part.id := by
  intro m hm
  unfold mapping_parts_of at hm
  simp only [List.mem_append, List.mem_singleton] at hm
  rcases hm with h | h
  · rcases mapping_parts_loop_ids cut_mapping node parts positions 0 m0 0 [] (by omega) m h
      with h2 | h2
    · exact absurd h2 (List.not_mem_nil _)
    · exact h2
  · refine ⟨parts.getLastD ⟨0, []⟩, getLastD_mem parts _ ?_, ?_⟩
    · intro e; rw [e] at hlen; simp at hlen
    · rw [h]; rfl

theorem divide_path_mappings_mem (cut_mapping : Mapping → Int → Mapping × Mapping)
    (node : Node) (positions : List Int) (parts : List Node)
    (hlen : parts.length = positions.length + 1) (ms : List Mapping) :
    ∀ m ∈ (divide_path_mappings cut_mapping node positions parts ms).2,
      m ∈ ms ∨ ∃ part ∈ parts, m.position.node_id = part.id := by
  induction ms with
  | nil => intro m hm; simp [divide_path_mappings] at hm
  | cons m0 rest ih =>
    intro m hm
    simp only [divide_path_mappings] at hm
    split_ifs at hm with h1 h2 h3
    · rcases List.mem_append.mp hm with h | h
      · right
        exact mapping_parts_ids cut_mapping node positions parts hlen m0 m
          (List.mem_reverse.mp h)
      · rcases ih m h with h4 | h4
        · exact Or.inl (List.mem_cons_of_mem _ h4)
        · exact Or.inr h4
    · rcases List.mem_append.mp hm with h | h
      · right
        exact mapping_parts_ids cut_mapping node positions parts hlen m0 m h
      · rcases ih m h with h4 | h4
        · exact Or.inl (List.mem_cons_of_mem _ h4)
        · exact Or.inr h4
    · exact Or.inl hm
    · rcases List.mem_cons.mp hm with h | h
      · exact Or.inl (h ▸ List.mem_cons_self _ _)
      · rcases ih m h with h4 | h4
        · exact Or.inl (List.mem_cons_of_mem _ h4)
        · exact Or.inr h4

theorem divide_paths_mem (cut_mapping : Mapping → Int → Mapping × Mapping)
    (node : Node) (positions : List Int) (parts : List Node)
    (hlen : parts.length = positions.length + 1) (paths : Paths) :
    ∀ p2 ∈ (divide_paths cut_mapping node positions parts paths).2, ∀ m ∈ p2.2,
      (∃ p ∈ paths, m ∈ p.2) ∨ ∃ part ∈ parts, m.position.node_id = part.id := by
  induction paths with
  | nil => intro p2 hp2; simp [divide_paths] at hp2
  | cons p rest ih =>
    obtain ⟨name, ms⟩ := p
    intro p2 hp2 m hm
    simp only [divide_paths] at hp2
    split_ifs at hp2 with h1
    · rcases List.mem_cons.mp hp2 with h | h
      · rw [h] at hm
        rcases divide_path_mappings_mem cut_mapping node positions parts hlen ms m hm with h2 | h2
        · exact Or.inl ⟨(name, ms), List.mem_cons_self _ _, h2⟩
        · exact Or.inr h2
      · rcases ih p2 h m hm with ⟨q, hq, hmq⟩ | h2
        · exact Or.inl ⟨q, List.mem_cons_of_mem _ hq, hmq⟩
        · exact Or.inr h2
    · rcases List.mem_cons.mp hp2 with h | h
      · rw [h] at hm
        rcases divide_path_mappings_mem cut_mapping node positions parts hlen ms m hm with h2 | h2
        · exact Or.inl ⟨(name, ms), List.mem_cons_self _ _, h2⟩
        · exact Or.inr h2
      · exact Or.inl ⟨p2, List.mem_cons_of_mem _ h, hm⟩

theorem ids_from_ge (l : List Node) : ∀ (c : Int), ids_from c l → ∀ p ∈ l, c ≤ p.id := by
  induction l with
  | nil => intro c _ p hp; exact absurd hp (List.not_mem_nil _)
  | cons a rest ih =>
    intro c h p hp
    obtain ⟨h1, h2⟩ := h
    rcases List.mem_cons.mp hp with e | e
    · rw [e, h1]
    · have := ih (c + 1) h2 p e
      omega

/-- The division of a stored node at ascending positions inside it, the
mappings on the node being divisible: the call returns, the stores stay
consistent, the node store holds the other nodes and the parts, the parts have
fresh ids and the expected sequences, and every mapping of the result is a
mapping of the input or lies on a part. -/
theorem divide_node_general (cut_mapping : Mapping → Int → Mapping × Mapping) (g : VG)
    (node : Node) (positions : List Int) (hs : store_consistent g) (ha : counter_ahead g)
    (hmem : node ∈ g.node)
    (hasc : List.Chain (· ≤ ·) 0 positions)
    (hhi : ∀ p ∈ positions, p ≤ node.sequence.length)
    (hsize : node.sequence.length < 2 ^ 64)
    (hmap : mappings_divisible g.paths node) :
    (divide_node cut_mapping g node positions []).1 = Outcome.returned
    ∧ store_consistent (divide_node cut_mapping g node positions []).2.1
    ∧ counter_ahead (divide_node cut_mapping g node positions []).2.1
    ∧ (∀ nd, nd ∈ (divide_node cut_mapping g node positions []).2.1.node ↔
        ((nd ∈ g.node ∧ nd ≠ node) ∨ nd ∈ (divide_node cut_mapping g node positions []).2.2))
    ∧ (∀ p ∈ (divide_node cut_mapping g node positions []).2.2, next_id g ≤ p.id)
    ∧ (divide_node cut_mapping g node positions []).2.2.map (fun n => n.sequence)
        = expected_sequences node.sequence positions 0
    ∧ (∀ p2 ∈ (divide_node cut_mapping g node positions []).2.1.paths, ∀ m ∈ p2.2,
        (∃ p ∈ g.paths, m ∈ p.2)
        ∨ ∃ part ∈ (divide_node cut_mapping g node positions []).2.2,
            m.position.node_id = part.id) := by
  have hN : has_node g node.id = true := mem_has_node g hs.nodes_ok node hmem
  obtain ⟨hret, hids, hlen, _, _, _⟩ :=
    divide_node_index cut_mapping g node positions hs.edges_ok hN ha.1 hasc hhi hmap
  obtain ⟨hs2, ha2⟩ := divide_node_inv cut_mapping g node positions hs ha hmem hret
  obtain ⟨m1, m2, m3, m4, m5⟩ := make_parts_inv g node positions hs ha
  obtain ⟨w1, w2, _, _⟩ := wire_parts_inv (make_parts g node positions []).1 node
    (make_parts g node positions []).2 m1 m2 m5 m4
  obtain ⟨f1, f2, f3⟩ := wire_parts_frame (make_parts g node positions []).1 node
    (make_parts g node positions []).2
  have hpaths : (wire_parts (make_parts g node positions []).1 node
      (make_parts g node positions []).2).paths = g.paths := by
    unfold wire_parts make_parts
    rw [connect_parts_paths, create_edges_paths, create_node_paths, create_parts_paths]
  have hflag := divide_paths_flag cut_mapping node positions (make_parts g node positions []).2
    (wire_parts (make_parts g node positions []).1 node (make_parts g node positions []).2).paths
    (by rw [hpaths]; exact hmap)
  have heq : divide_node cut_mapping g node positions []
      = (Outcome.returned,
          destroy_node
            { wire_parts (make_parts g node positions []).1 node
                (make_parts g node positions []).2 with
              paths := (divide_paths cut_mapping node positions
                (make_parts g node positions []).2
                (wire_parts (make_parts g node positions []).1 node
                  (make_parts g node positions []).2).paths).2 } node,
          (make_parts g node positions []).2) := by
    unfold divide_node
    rw [range_check_passes node positions hasc hhi]
    simp only [Bool.false_eq_true, if_false, hflag, if_true]
  obtain ⟨q1, q2⟩ := store_consistent_paths
    (wire_parts (make_parts g node positions []).1 node (make_parts g node positions []).2)
    (divide_paths cut_mapping node positions (make_parts g node positions []).2
      (wire_parts (make_parts g node positions []).1 node
        (make_parts g node positions []).2).paths).2 w1 w2
  have hmem4 : node ∈ (wire_parts (make_parts g node positions []).1 node
      (make_parts g node positions []).2).node := by
    rw [f1]; exact m3 node hmem
  obtain ⟨_, _, n3⟩ := destroy_node_nodes_consistent _ q1.edges_ok q1.nodes_ok node hmem4
  have hparts : (divide_node cut_mapping g node positions []).2.2
      = (make_parts g node positions []).2 := by rw [heq]
  have hlen2 : (make_parts g node positions []).2.length = positions.length + 1 := by
    rw [← hparts]; exact hlen
  have hge : ∀ p ∈ (make_parts g node positions []).2, next_id g ≤ p.id := by
    rw [← hparts]; exact ids_from_ge _ _ hids
  refine ⟨hret, hs2, ha2, ?_, ?_, ?_, ?_⟩
  · intro nd
    rw [heq]
    simp only []
    rw [n3 nd]
    show (nd ∈ (wire_parts (make_parts g node positions []).1 node
      (make_parts g node positions []).2).node ∧ nd ≠ node) ↔ _
    rw [f1, make_parts_node, List.mem_append]
    constructor
    · rintro ⟨h | h, hne⟩
      · exact Or.inl ⟨h, hne⟩
      · exact Or.inr h
    · rintro (⟨h, hne⟩ | h)
      · exact ⟨Or.inl h, hne⟩
      · refine ⟨Or.inr h, fun e => ?_⟩
        have h1 := hge nd h
        have h2 := ha.2 node hmem
        rw [e] at h1
        omega
  · rw [hparts]; exact hge
  · rw [hparts]; exact make_parts_sequences g node positions hasc hhi hsize
  · rw [heq]
    simp only []
    rw [destroy_node_paths]
    show ∀ p2 ∈ (divide_paths cut_mapping node positions (make_parts g node positions []).2
      (wire_parts (make_parts g node positions []).1 node
        (make_parts g node positions []).2).paths).2, _
    rw [hpaths]
    exact divide_paths_mem cut_mapping node positions _ hlen2 g.paths

theorem dice_node_short (cut_mapping : Mapping → Int → Mapping × Mapping) (max_node_size : Int)
    (fuel : Nat) (g : VG) (n : Node) (h30 : (n.sequence.length : Int) < 2 ^ 30)
    (hshort : (n.sequence.length : Int) ≤ max_node_size) :
    dice_node cut_mapping max_node_size fuel g n = some g := by
  unfold dice_node
  simp only []
  rw [to_int_id _ (by omega) (by omega)]
  rw [if_neg (by omega)]

theorem dice_node_long (cut_mapping : Mapping → Int → Mapping × Mapping) (max_node_size : Int)
    (hmax : 1 ≤ max_node_size) (fuel : Nat) (g : VG) (n : Node)
    (hs : store_consistent g) (ha : counter_ahead g) (hmem : n ∈ g.node)
    (h30 : (n.sequence.length : Int) < 2 ^ 30) (hfuel : n.sequence.length < fuel)
    (hlong : max_node_size < (n.sequence.length : Int))
    (hmap : mappings_divisible g.paths n) :
    ∃ (g2 : VG) (parts : List Node), dice_node cut_mapping max_node_size fuel g n = some g2
      ∧ store_consistent g2 ∧ counter_ahead g2
      ∧ (∀ nd, nd ∈ g2.node ↔ ((nd ∈ g.node ∧ nd ≠ n) ∨ nd ∈ parts))
      ∧ (∀ p ∈ parts, next_id g ≤ p.id ∧ 1 ≤ (p.sequence.length : Int)
          ∧ (p.sequence.length : Int) ≤ max_node_size)
      ∧ (parts.map (fun p => p.sequence)).flatten = n.sequence
      ∧ (∀ p2 ∈ g2.paths, ∀ m ∈ p2.2,
          (∃ p ∈ g.paths, m ∈ p.2) ∨ ∃ part ∈ parts, m.position.node_id = part.id) := by
  obtain ⟨d, hd, d2, d3, d4, d5⟩ := dice_div_spec n.sequence.length max_node_size hmax hlong h30
    fuel 2 (le_refl _) (by omega) (by have : (n.sequence.length : Int) < fuel := by
                                        exact_mod_cast hfuel
                                      omega) (Or.inl rfl)
  have hseg := dice_segment_pos n.sequence.length max_node_size d hmax hlong d2 d5
  have htd : Int.tdiv (n.sequence.length : Int) d = (n.sequence.length : Int) / d :=
    Int.tdiv_eq_ediv (by omega) (by omega)
  have hsegle : (n.sequence.length : Int) / d ≤ n.sequence.length :=
    Int.ediv_le_self _ (by omega)
  obtain ⟨tail, t1, t2, t3, t4⟩ := dice_divisions_spec n.sequence.length
    ((n.sequence.length : Int) / d) hseg h30 hsegle fuel 0 [] (le_refl _) (by omega)
    (by have : (n.sequence.length : Int) < fuel := by exact_mod_cast hfuel
        omega)
  have hasc : List.Chain (· ≤ ·) 0 tail := chain_step_le _ (by omega) tail 0 t2
  have hhi : ∀ p ∈ tail, p ≤ (n.sequence.length : Int) := fun p hp => le_of_lt (t3 p hp)
  obtain ⟨r1, r2, r3, r4, r5, r6, r7⟩ := divide_node_general cut_mapping g n tail hs ha hmem
    hasc hhi (by omega) hmap
  have hsteps := expected_sequences_steps n.sequence ((n.sequence.length : Int) / d) hseg tail 0
    (le_refl _) (by omega) t2 t3 t4
  refine ⟨(divide_node cut_mapping g n tail []).2.1, (divide_node cut_mapping g n tail []).2.2,
    ?_, r2, r3, r4, ?_, ?_, r7⟩
  · unfold dice_node
    simp only []
    rw [to_int_id _ (by omega) (by omega), if_pos (by omega), hd]
    simp only [htd]
    rw [t1]
    simp only [List.nil_append, r1, if_true]
  · intro p hp
    have hx : p.sequence ∈ expected_sequences n.sequence tail 0 := by
      rw [← r6]
      exact List.mem_map.mpr ⟨p, hp, rfl⟩
    obtain ⟨h1, h2⟩ := hsteps p.sequence hx
    exact ⟨r5 p hp, h1, by omega⟩
  · rw [r6, flatten_expected_sequences n.sequence tail 0 (le_refl _) hasc hhi
      (Int.ofNat_nonneg _)]
    simp

theorem dice_step_some (cut_mapping : Mapping → Int → Mapping × Mapping) (max_node_size : Int)
    (fuel : Nat) (g : VG) (n : Node) :
    dice_step cut_mapping max_node_size fuel (some g) n
      = dice_node cut_mapping max_node_size fuel g n := rfl

theorem dice_loop_spec (cut_mapping : Mapping → Int → Mapping × Mapping) (max_node_size : Int)
    (hmax : 1 ≤ max_node_size) (fuel : Nat) :
    ∀ (rest : List Node) (g : VG), store_consistent g → counter_ahead g → rest.Nodup →
      (∀ n ∈ rest, n ∈ g.node) →
      (∀ n ∈ rest, (n.sequence.length : Int) < 2 ^ 30 ∧ n.sequence.length < fuel) →
      (∀ n ∈ rest, max_node_size < (n.sequence.length : Int) → mappings_divisible g.paths n) →
      ∃ g2, dice_loop cut_mapping max_node_size fuel rest g = some g2
        ∧ (∀ nd ∈ g2.node,
            (nd ∈ g.node ∧ (nd ∉ rest ∨ (nd.sequence.length : Int) ≤ max_node_size))
            ∨ (next_id g ≤ nd.id ∧ 1 ≤ (nd.sequence.length : Int)
                ∧ (nd.sequence.length : Int) ≤ max_node_size))
        ∧ (∀ nd ∈ g.node, (nd ∉ rest ∨ (nd.sequence.length : Int) ≤ max_node_size) →
            nd ∈ g2.node)
        ∧ (∀ n ∈ rest, max_node_size < (n.sequence.length : Int) →
            n ∉ g2.node ∧ ∃ parts : List Node,
              (∀ p ∈ parts, p ∈ g2.node ∧ 1 ≤ (p.sequence.length : Int)
                ∧ (p.sequence.length : Int) ≤ max_node_size)
              ∧ (parts.map (fun p => p.sequence)).flatten = n.sequence)
        ∧ next_id g ≤ next_id g2 := by
  intro rest
  induction rest with
  | nil =>
    intro g _ _ _ _ _ _
    refine ⟨g, rfl, fun nd h => Or.inl ⟨h, Or.inl (List.not_mem_nil _)⟩, fun nd h _ => h,
      fun n hn => absurd hn (List.not_mem_nil _), le_refl _⟩
  | cons n rest ih =>
    intro g hs ha hnodup hin hlen hmap
    rw [List.nodup_cons] at hnodup
    have hn := hin n (List.mem_cons_self _ _)
    obtain ⟨h30, hfuel⟩ := hlen n (List.mem_cons_self _ _)
    by_cases hlong : max_node_size < (n.sequence.length : Int)
    · obtain ⟨g1, parts, e1, s1, a1, n1, p1, fl, pm⟩ := dice_node_long cut_mapping max_node_size
        hmax fuel g n hs ha hn h30 hfuel hlong (hmap n (List.mem_cons_self _ _) hlong)
      have hidlt : ∀ nd ∈ g.node, nd.id < next_id g := ha.2
      have hne : parts ≠ [] := by
        intro e
        rw [e] at fl
        simp only [List.map_nil, List.flatten_nil] at fl
        rw [← fl] at hlong
        simp only [List.length_nil, Nat.cast_zero] at hlong
        omega
      have hnext : next_id g ≤ next_id g1 := by
        obtain ⟨p, hp⟩ := List.exists_mem_of_ne_nil parts hne
        have h1 := (p1 p hp).1
        have h2 := a1.2 p ((n1 p).mpr (Or.inr hp))
        omega
      obtain ⟨g2, e2, q1, q2, q4, q5⟩ := ih g1 s1 a1 hnodup.2
        (fun n2 h2 => (n1 n2).mpr (Or.inl ⟨hin n2 (List.mem_cons_of_mem _ h2),
          fun e => hnodup.1 (e ▸ h2)⟩))
        (fun n2 h2 => hlen n2 (List.mem_cons_of_mem _ h2))
        (by
          intro n2 h2 hl2 p2 hp2 m hm hid
          rcases pm p2 hp2 m hm with ⟨p, hp, hmp⟩ | ⟨part, hpart, hpid⟩
          · exact hmap n2 (List.mem_cons_of_mem _ h2) hl2 p hp m hmp hid
          · exfalso
            have h3 := (p1 part hpart).1
            have h4 := hidlt n2 (hin n2 (List.mem_cons_of_mem _ h2))
            omega)
      refine ⟨g2, ?_, ?_, ?_, ?_, by omega⟩
      · unfold dice_loop at e2 ⊢
        rw [List.foldl_cons, dice_step_some, e1]
        exact e2
      · intro nd hnd
        rcases q1 nd hnd with ⟨h1, h2⟩ | ⟨h1, h2, h3⟩
        · rcases (n1 nd).mp h1 with ⟨h4, h5⟩ | h4
          · left
            refine ⟨h4, ?_⟩
            rcases h2 with h2 | h2
            · left
              intro hm
              rcases List.mem_cons.mp hm with e | e
              · exact h5 e
              · exact h2 e
            · exact Or.inr h2
          · right
            exact p1 nd h4
        · right
          exact ⟨by omega, h2, h3⟩
      · intro nd hnd hc
        have hne2 : nd ≠ n := by
          intro e
          rcases hc with hc | hc
          · exact hc (e ▸ List.mem_cons_self _ _)
          · rw [e] at hc; omega
        refine q2 nd ((n1 nd).mpr (Or.inl ⟨hnd, hne2⟩)) ?_
        rcases hc with hc | hc
        · exact Or.inl (fun hm => hc (List.mem_cons_of_mem _ hm))
        · exact Or.inr hc
      · intro n2 h2 hl2
        rcases List.mem_cons.mp h2 with e | e
        · subst e
          refine ⟨?_, parts, ?_, fl⟩
          · intro hmem
            have hlt := hidlt n2 hn
            rcases q1 n2 hmem with ⟨h1, _⟩ | ⟨h1, _, _⟩
            · rcases (n1 n2).mp h1 with ⟨_, h5⟩ | h4
              · exact h5 rfl
              · have := (p1 n2 h4).1
                omega
            · omega
          · intro p hp
            obtain ⟨h1, h3, h4⟩ := p1 p hp
            refine ⟨q2 p ((n1 p).mpr (Or.inr hp)) (Or.inl ?_), h3, h4⟩
            intro hm
            have := hidlt p (hin p (List.mem_cons_of_mem _ hm))
            omega
        · exact q4 n2 e hl2
    · have hshort : (n.sequence.length : Int) ≤ max_node_size := by omega
      have e1 := dice_node_short cut_mapping max_node_size fuel g n h30 hshort
      obtain ⟨g2, e2, q1, q2, q4, q5⟩ := ih g hs ha hnodup.2
        (fun n2 h2 => hin n2 (List.mem_cons_of_mem _ h2))
        (fun n2 h2 => hlen n2 (List.mem_cons_of_mem _ h2))
        (fun n2 h2 => hmap n2 (List.mem_cons_of_mem _ h2))
      refine ⟨g2, ?_, ?_, ?_, ?_, q5⟩
      · unfold dice_loop at e2 ⊢
        rw [List.foldl_cons, dice_step_some, e1]
        exact e2
      · intro nd hnd
        rcases q1 nd hnd with ⟨h1, h2⟩ | h
        · left
          refine ⟨h1, ?_⟩
          rcases h2 with h2 | h2
          · by_cases e : nd = n
            · right; rw [e]; exact hshort
            · left
              intro hm
              rcases List.mem_cons.mp hm with e2 | e2
              · exact e e2
              · exact h2 e2
          · exact Or.inr h2
        · exact Or.inr h
      · intro nd hnd hc
        refine q2 nd hnd ?_
        rcases hc with hc | hc
        · exact Or.inl (fun hm => hc (List.mem_cons_of_mem _ hm))
        · exact Or.inr hc
      · intro n2 h2 hl2
        rcases List.mem_cons.mp h2 with e | e
        · rw [e] at hl2; omega
        · exact q4 n2 e hl2

theorem mappings_divisible_clear (paths : Paths) (node : Node)
    (h : mappings_divisible paths node) : mappings_divisible (clear_mapping_ranks paths) node := by
  intro p hp m hm hid
  unfold clear_mapping_ranks at hp
  obtain ⟨p0, hp0, e0⟩ := List.mem_map.mp hp
  rw [← e0] at hm
  obtain ⟨m0, hm0, e1⟩ := List.mem_map.mp hm
  rw [← e1] at hid ⊢
  exact h p0 hp0 m0 hm0 hid

/-- Dicing when the id counter is ahead: for `max_node_size >= 1`, on a graph
whose stores and indexes agree, whose id counter is ahead of the stored ids, whose node sequences are shorter
than 2^30 and whose mappings on the nodes longer than `max_node_size` pass the
assertions of `divide_node`: the computation of `div` and of the division
points ends, with `1 <= segment_size <= max_node_size`; `dice_nodes` returns;
afterwards every node has a sequence of length at most `max_node_size`, the
nodes that were no longer than that are still stored, and every longer node is
gone and stands replaced by stored nodes with non-empty sequences whose
concatenation, in order, is its sequence. -/
theorem dice_nodes_spec (cut_mapping : Mapping → Int → Mapping × Mapping) (fuel : Nat) (g : VG)
    (max_node_size : Int) (hmax : 1 ≤ max_node_size)
    (hs : store_consistent g) (ha : counter_ahead g)
    (hlen : ∀ n ∈ g.node, (n.sequence.length : Int) < 2 ^ 30 ∧ n.sequence.length < fuel)
    (hmap : ∀ n ∈ g.node, max_node_size < (n.sequence.length : Int) →
      mappings_divisible g.paths n) :
    (∀ n ∈ g.node, max_node_size < (n.sequence.length : Int) →
      ∃ div divisions, dice_div fuel n.sequence.length max_node_size 2 = some div
        ∧ 1 ≤ Int.tdiv n.sequence.length div
        ∧ Int.tdiv n.sequence.length div ≤ max_node_size
        ∧ dice_divisions fuel n.sequence.length (Int.tdiv n.sequence.length div) 0 []
            = some divisions)
    ∧ ∃ g2, dice_nodes cut_mapping fuel g max_node_size = some g2
      ∧ (∀ nd ∈ g2.node, (nd.sequence.length : Int) ≤ max_node_size)
      ∧ (∀ n ∈ g.node, (n.sequence.length : Int) ≤ max_node_size → n ∈ g2.node)
      ∧ (∀ n ∈ g.node, max_node_size < (n.sequence.length : Int) →
          n ∉ g2.node ∧ ∃ parts : List Node,
            (∀ p ∈ parts, p ∈ g2.node ∧ 1 ≤ (p.sequence.length : Int)
              ∧ (p.sequence.length : Int) ≤ max_node_size)
            ∧ (parts.map (fun p => p.sequence)).flatten = n.sequence) := by
  constructor
  · intro n hn hlong
    obtain ⟨h30, hfuel⟩ := hlen n hn
    have hfuel2 : (n.sequence.length : Int) < fuel := by exact_mod_cast hfuel
    obtain ⟨d, hd, d2, d3, d4, d5⟩ := dice_div_spec n.sequence.length max_node_size hmax hlong
      h30 fuel 2 (le_refl _) (by omega) (by omega) (Or.inl rfl)
    have hseg := dice_segment_pos n.sequence.length max_node_size d hmax hlong d2 d5
    have htd : Int.tdiv (n.sequence.length : Int) d = (n.sequence.length : Int) / d :=
      Int.tdiv_eq_ediv (by omega) (by omega)
    obtain ⟨tail, t1, _, _, _⟩ := dice_divisions_spec n.sequence.length
      ((n.sequence.length : Int) / d) hseg h30 (Int.ediv_le_self _ (by omega)) fuel 0 []
      (le_refl _) (by omega) (by omega)
    refine ⟨d, tail, hd, by rw [htd]; exact hseg, by rw [htd]; exact d4, ?_⟩
    rw [htd, t1]
    rfl
  · obtain ⟨s1, a1⟩ := store_consistent_paths g (clear_mapping_ranks g.paths) hs ha
    obtain ⟨g2, e2, q1, q2, q4, _⟩ := dice_loop_spec cut_mapping max_node_size hmax fuel g.node
      { g with paths := clear_mapping_ranks g.paths } s1 a1 hs.nodes_ok.node_nodup
      (fun n hn => hn) hlen
      (fun n hn hl => mappings_divisible_clear g.paths n (hmap n hn hl))
    refine ⟨{ g2 with paths := compact_ranks g2.paths }, ?_, ?_, ?_, ?_⟩
    · unfold dice_nodes
      simp only []
      rw [if_pos (by omega)]
      rw [show dice_loop cut_mapping max_node_size fuel g.node
          { g with paths := clear_mapping_ranks g.paths } = some g2 from e2]
      rfl
    · intro nd hnd
      rcases q1 nd hnd with ⟨h1, h2⟩ | ⟨_, _, h3⟩
      · rcases h2 with h2 | h2
        · exact absurd h1 h2
        · exact h2
      · exact h3
    · intro n hn hshort
      exact q2 n hn (Or.inr hshort)
    · intro n hn hlong
      exact q4 n hn hlong

theorem long_node_graph_store : store_consistent long_node_graph ∧ counter_ahead long_node_graph := by
  have h0 : store_consistent VG.empty ∧ counter_ahead VG.empty :=
    ⟨empty_store_consistent, counter_ahead_of_one _ rfl⟩
  have h1 := create_node_inv VG.empty "ACGTACGTAC".toList 0 h0.1 h0.2 (Or.inl rfl)
  exact create_node_inv _ "GG".toList 0 h1.1 h1.2 (Or.inl rfl)

theorem long_node_graph_nodes :
    long_node_graph.node = [⟨1, "ACGTACGTAC".toList⟩, ⟨2, "GG".toList⟩] := by decide

/-- An instance of `dice_nodes_spec`: the nodes `ACGTACGTAC` and `GG` diced
with `max_node_size` 3; no node longer than 3 is left and `GG` is kept. -/
theorem dice_nodes_spec_witness :
    ∃ g2, dice_nodes (fun m _ => (m, m)) 20 long_node_graph 3 = some g2
      ∧ (∀ nd ∈ g2.node, (nd.sequence.length : Int) ≤ 3)
      ∧ (∀ n ∈ long_node_graph.node, (n.sequence.length : Int) ≤ 3 → n ∈ g2.node)
      ∧ (∀ n ∈ long_node_graph.node, 3 < (n.sequence.length : Int) →
          n ∉ g2.node ∧ ∃ parts : List Node,
            (∀ p ∈ parts, p ∈ g2.node ∧ 1 ≤ (p.sequence.length : Int)
              ∧ (p.sequence.length : Int) ≤ 3)
            ∧ (parts.map (fun p => p.sequence)).flatten = n.sequence) :=
  (dice_nodes_spec (fun m _ => (m, m)) 20 long_node_graph 3 (by decide)
    long_node_graph_store.1 long_node_graph_store.2
    (by
      intro n hn
      rw [long_node_graph_nodes] at hn
      simp only [List.mem_cons, List.mem_singleton, List.not_mem_nil, or_false] at hn
      rcases hn with h | h <;> subst h <;> exact ⟨by norm_num, by decide⟩)
    (by
      intro n _ _ p hp
      exact absurd hp (List.not_mem_nil _))).2

theorem min_fold_spec (l : List (List Char)) :
    ∀ (init : Nat),
      l.foldl (fun m s => if s.length < m then s.length else m) init ≤ init
      ∧ (∀ s ∈ l, l.foldl (fun m s => if s.length < m then s.length else m) init ≤ s.length)
      ∧ (l.foldl (fun m s => if s.length < m then s.length else m) init = init
          ∨ ∃ s ∈ l, s.length = l.foldl (fun m s => if s.length < m then s.length else m) init) := by
  induction l with
  | nil => intro init; simp
  | cons a rest ih =>
    intro init
    rw [List.foldl_cons]
    obtain ⟨h1, h2, h3⟩ := ih (if a.length < init then a.length else init)
    have hm : (if a.length < init then a.length else init) ≤ init
        ∧ (if a.length < init then a.length else init) ≤ a.length
        ∧ ((if a.length < init then a.length else init) = init
            ∨ (if a.length < init then a.length else init) = a.length) := by
      split_ifs <;> omega
    generalize (if a.length < init then a.length else init) = m at h1 h2 h3 hm ⊢
    refine ⟨by omega, ?_, ?_⟩
    · intro s hs
      rcases List.mem_cons.mp hs with e | e
      · rw [e]; omega
      · exact h2 s e
    · rcases h3 with h3 | ⟨s, hs, e⟩
      · rcases hm.2.2 with e | e
        · left; omega
        · exact Or.inr ⟨a, List.mem_cons_self _ _, by omega⟩
      · exact Or.inr ⟨s, List.mem_cons_of_mem _ hs, e⟩

theorem min_seq_size_spec (seqs : List (List Char)) (hne : seqs ≠ []) :
    (∀ s ∈ seqs, min_seq_size seqs ≤ s.length)
    ∧ ∃ s ∈ seqs, s.length = min_seq_size seqs := by
  obtain ⟨h1, h2, h3⟩ := min_fold_spec seqs (seqs.headD []).length
  unfold min_seq_size
  refine ⟨h2, ?_⟩
  rcases h3 with h3 | h3
  · exact ⟨seqs.headD [], headD_mem seqs [] hne, h3.symm⟩
  · exact h3

theorem shared_loop_spec (seqs : List (List Char)) :
    ∀ (k j : Nat), j ≤ shared_loop seqs k j ∧ shared_loop seqs k j ≤ j + k
      ∧ (∀ i, j ≤ i → i < shared_loop seqs k j →
          ∀ s ∈ seqs, s.get? i = (seqs.headD []).get? i)
      ∧ (shared_loop seqs k j = j + k
          ∨ ∃ s ∈ seqs, s.get? (shared_loop seqs k j) ≠ (seqs.headD []).get? (shared_loop seqs k j)) := by
  intro k
  induction k with
  | zero =>
    intro j
    simp only [shared_loop]
    exact ⟨le_refl _, le_refl _, fun i h1 h2 => by omega, Or.inl rfl⟩
  | succ k ih =>
    intro j
    rw [shared_loop]
    split_ifs with hall
    · obtain ⟨h1, h2, h3, h4⟩ := ih (j + 1)
      refine ⟨by omega, by omega, ?_, ?_⟩
      · intro i hi1 hi2 s hs
        by_cases hij : i = j
        · rw [hij]
          have := List.all_eq_true.mp hall s hs
          simpa using this
        · exact h3 i (by omega) hi2 s hs
      · rcases h4 with h4 | h4
        · left; omega
        · exact Or.inr h4
    · refine ⟨le_refl _, by omega, fun i h1 h2 => by omega, Or.inr ?_⟩
      rw [Bool.not_eq_true, List.all_eq_false] at hall
      obtain ⟨s, hs, hne⟩ := hall
      exact ⟨s, hs, by simpa using hne⟩

theorem take_eq_of_get {α : Type} (r : Nat) (s t : List α)
    (h : ∀ i, i < r → s.get? i = t.get? i) : s.take r = t.take r := by
  apply List.ext_get?
  intro i
  simp only [List.get?_eq_getElem?, List.getElem?_take]
  split_ifs with hi
  · have := h i hi
    simpa [List.get?_eq_getElem?] using this
  · rfl

theorem shared_prefix_spec (seqs : List (List Char)) (hne : seqs ≠ []) :
    is_longest_common_prefix
        ((seqs.headD []).take (shared_loop seqs (min_seq_size seqs) 0)) seqs
    ∧ ((seqs.headD []).take (shared_loop seqs (min_seq_size seqs) 0)).length
        = shared_loop seqs (min_seq_size seqs) 0
    ∧ ∀ s ∈ seqs, (seqs.headD []).take (shared_loop seqs (min_seq_size seqs) 0)
        ++ s.drop (shared_loop seqs (min_seq_size seqs) 0) = s := by
  obtain ⟨m1, s0, hs0, m2⟩ := min_seq_size_spec seqs hne
  obtain ⟨_, l2, l3, l4⟩ := shared_loop_spec seqs (min_seq_size seqs) 0
  have hfirst := headD_mem seqs [] hne
  have htake : ∀ s ∈ seqs, s.take (shared_loop seqs (min_seq_size seqs) 0)
      = (seqs.headD []).take (shared_loop seqs (min_seq_size seqs) 0) :=
    fun s hs => take_eq_of_get _ _ _ (fun i hi => l3 i (Nat.zero_le _) hi s hs)
  have hlen : ((seqs.headD []).take (shared_loop seqs (min_seq_size seqs) 0)).length
      = shared_loop seqs (min_seq_size seqs) 0 := by
    rw [List.length_take]
    have := m1 _ hfirst
    omega
  refine ⟨⟨?_, ?_⟩, hlen, ?_⟩
  · intro s hs
    rw [← htake s hs]
    exact List.take_prefix _ _
  · intro q hq
    rw [hlen]
    by_contra hc
    rcases l4 with l4 | ⟨s, hs, hne2⟩
    · have := (hq s0 hs0).length_le
      omega
    · apply hne2
      have hlt : shared_loop seqs (min_seq_size seqs) 0 < q.length := by omega
      have e1 := List.prefix_iff_eq_take.mp (hq s hs)
      have e2 := List.prefix_iff_eq_take.mp (hq _ hfirst)
      have g1 : s.get? (shared_loop seqs (min_seq_size seqs) 0)
          = q.get? (shared_loop seqs (min_seq_size seqs) 0) := by
        conv_rhs => rw [e1]
        simp only [List.get?_eq_getElem?, List.getElem?_take, hlt, if_true]
      have g2 : (seqs.headD []).get? (shared_loop seqs (min_seq_size seqs) 0)
          = q.get? (shared_loop seqs (min_seq_size seqs) 0) := by
        conv_rhs => rw [e2]
        simp only [List.get?_eq_getElem?, List.getElem?_take, hlt, if_true]
      rw [g1, g2]
  · intro s hs
    rw [← htake s hs]
    exact List.take_append_drop _ _

theorem map_find_map_value {κ ν : Type} [DecidableEq κ] (f : κ × ν → κ × ν)
    (hf : ∀ p, (f p).1 = p.1) (m : List (κ × ν)) (k : κ) :
    map_find (m.map f) k = (map_find m k).map (fun v => (f (k, v)).2) := by
  induction m with
  | nil => rfl
  | cons p rest ih =>
    obtain ⟨k1, v1⟩ := p
    rw [List.map_cons]
    have h1 : f (k1, v1) = (k1, (f (k1, v1)).2) := by
      have := hf (k1, v1)
      exact Prod.ext this rfl
    rw [h1]
    unfold map_find
    by_cases hk : k1 = k
    · subst hk; simp
    · simp only [hk, if_false]
      exact ih

theorem get_node_set_sequence (g : VG) (node : Node) (seq : List Char) (id : Int) :
    get_node (set_node_sequence g node seq) id
      = (get_node g id).map (fun n => if n = node then ⟨node.id, seq⟩ else n) := by
  unfold get_node set_node_sequence
  simp only []
  rw [map_find_map_value _ (fun p => by split_ifs <;> rfl)]
  cases map_find g.node_by_id id with
  | none => rfl
  | some n =>
    simp only [Option.map_some', Option.some.injEq]
    split_ifs <;> rfl

theorem get_node_shorten (reassign : Paths → Node → Nat → Int → Paths) (l : Nat) (new_id : Int)
    (g : VG) (sib : NodeTraversal) (hb : by_id_sound g) (id : Int) :
    get_node (shorten_sibling reassign l new_id g sib) id
      = if id = sib.node.id then (get_node g id).map (fun n => ⟨n.id, n.sequence.drop l⟩)
        else get_node g id := by
  unfold shorten_sibling
  cases hg : get_node g sib.node.id with
  | none =>
    simp only []
    split_ifs with h
    · rw [h, hg]; rfl
    · rfl
  | some nd =>
    simp only []
    show get_node (set_node_sequence g nd (nd.sequence.drop l)) id = _
    rw [get_node_set_sequence]
    split_ifs with h
    · rw [h, hg]
      simp
    · cases hg2 : get_node g id with
      | none => rfl
      | some n =>
        simp only [Option.map_some', Option.some.injEq]
        have h1 := hb id n hg2
        have h2 := hb _ nd hg
        have hne : n ≠ nd := by
          intro e
          rw [e, h2] at h1
          exact h (h1.symm)
        simp [hne]

theorem shorten_by_id_sound (reassign : Paths → Node → Nat → Int → Paths) (l : Nat)
    (new_id : Int) (g : VG) (sib : NodeTraversal) (hb : by_id_sound g) :
    by_id_sound (shorten_sibling reassign l new_id g sib) := by
  intro id nd h
  rw [get_node_shorten reassign l new_id g sib hb] at h
  split_ifs at h with he
  · cases hg : get_node g id with
    | none => rw [hg] at h; exact Option.noConfusion h
    | some n =>
      rw [hg] at h
      simp only [Option.map_some', Option.some.injEq] at h
      rw [← h]
      exact hb id n hg
  · exact hb id nd h

theorem shorten_edge_fields (reassign : Paths → Node → Nat → Int → Paths) (l : Nat)
    (new_id : Int) (g : VG) (sib : NodeTraversal) :
    (shorten_sibling reassign l new_id g sib).edge = g.edge
    ∧ (shorten_sibling reassign l new_id g sib).edge_by_sides = g.edge_by_sides
    ∧ (shorten_sibling reassign l new_id g sib).edge_index = g.edge_index
    ∧ (shorten_sibling reassign l new_id g sib).edges_on_start = g.edges_on_start
    ∧ (shorten_sibling reassign l new_id g sib).edges_on_end = g.edges_on_end := by
  unfold shorten_sibling
  cases get_node g sib.node.id with
  | none => exact ⟨rfl, rfl, rfl, rfl, rfl⟩
  | some nd => exact ⟨rfl, rfl, rfl, rfl, rfl⟩

theorem shorten_all (reassign : Paths → Node → Nat → Int → Paths) (l : Nat) (new_id : Int)
    (sibs : List NodeTraversal) :
    ∀ (g : VG), by_id_sound g → (sibs.map (fun t => t.node.id)).Nodup →
      by_id_sound (sibs.foldl (shorten_sibling reassign l new_id) g)
      ∧ (∀ id, get_node (sibs.foldl (shorten_sibling reassign l new_id) g) id
          = if id ∈ sibs.map (fun t => t.node.id)
            then (get_node g id).map (fun n => ⟨n.id, n.sequence.drop l⟩)
            else get_node g id)
      ∧ (sibs.foldl (shorten_sibling reassign l new_id) g).edge = g.edge
      ∧ (sibs.foldl (shorten_sibling reassign l new_id) g).edge_by_sides = g.edge_by_sides
      ∧ (sibs.foldl (shorten_sibling reassign l new_id) g).edge_index = g.edge_index
      ∧ (sibs.foldl (shorten_sibling reassign l new_id) g).edges_on_start = g.edges_on_start
      ∧ (sibs.foldl (shorten_sibling reassign l new_id) g).edges_on_end = g.edges_on_end := by
  induction sibs with
  | nil => intro g hb _; exact ⟨hb, fun id => by simp, rfl, rfl, rfl, rfl, rfl⟩
  | cons sib rest ih =>
    intro g hb hnodup
    rw [List.map_cons, List.nodup_cons] at hnodup
    rw [List.foldl_cons]
    obtain ⟨i1, i2, i3, i4, i5, i6, i7⟩ := ih (shorten_sibling reassign l new_id g sib)
      (shorten_by_id_sound reassign l new_id g sib hb) hnodup.2
    obtain ⟨e1, e2, e3, e4, e5⟩ := shorten_edge_fields reassign l new_id g sib
    refine ⟨i1, ?_, i3.trans e1, i4.trans e2, i5.trans e3, i6.trans e4, i7.trans e5⟩
    intro id
    rw [i2 id, get_node_shorten reassign l new_id g sib hb]
    simp only [List.map_cons, List.mem_cons]
    by_cases h1 : id = sib.node.id
    · have h2 : id ∉ rest.map (fun t => t.node.id) := by rw [h1]; exact hnodup.1
      rw [if_neg h2, if_pos h1, if_pos (Or.inl h1)]
    · by_cases h2 : id ∈ rest.map (fun t => t.node.id)
      · rw [if_pos h2, if_neg h1, if_pos (Or.inr h2)]
      · rw [if_neg h2, if_neg h1, if_neg (not_or.mpr ⟨h1, h2⟩)]

theorem edges_of_node_spec (g : VG) (hc : edges_consistent g) (node : Node) :
    ∃ L, edges_of_node g node = some L
      ∧ ∀ e, e ∈ L ↔
        ((∃ x ∈ edges_start g node.id,
            map_find g.edge_by_sides (pair_from_start_edge node.id x) = some e)
          ∨ (∃ x ∈ edges_end g node.id,
              map_find g.edge_by_sides (pair_from_end_edge node.id x) = some e
              ∧ ¬ (e.from_ = e.to_ ∧ e.from_start = e.to_end))) := by
  have h1 : ((edges_start g node.id).map
      (fun off_start => map_find g.edge_by_sides (pair_from_start_edge node.id off_start))).all
        Option.isSome = true := by
    rw [List.all_eq_true]
    intro o ho
    obtain ⟨x, hx, e⟩ := List.mem_map.mp ho
    rw [← e]
    exact (hc.start_iff node.id x).mp hx
  have h2 : ((edges_end g node.id).map
      (fun off_end => map_find g.edge_by_sides (pair_from_end_edge node.id off_end))).all
        Option.isSome = true := by
    rw [List.all_eq_true]
    intro o ho
    obtain ⟨x, hx, e⟩ := List.mem_map.mp ho
    rw [← e]
    exact (hc.end_iff node.id x).mp hx
  have hL : edges_of_node g node
      = some (((edges_start g node.id).map
          (fun off_start =>
            map_find g.edge_by_sides (pair_from_start_edge node.id off_start))).filterMap id ++
        (((edges_end g node.id).map
          (fun off_end =>
            map_find g.edge_by_sides (pair_from_end_edge node.id off_end))).filterMap id).filter
          (fun edge => !(decide (edge.from_ = edge.to_) && (edge.from_start == edge.to_end)))) := by
    unfold edges_of_node
    simp only [h1, h2, Bool.and_self, if_true]
  refine ⟨_, hL, ?_⟩
  intro e
  simp only [List.mem_append, List.mem_filterMap, List.mem_filter, List.mem_map, id_eq,
    exists_exists_and_eq_and, Bool.not_eq_true', Bool.and_eq_false_imp, decide_eq_true_eq,
    beq_eq_false_iff_ne, ne_eq, not_and]
  constructor
  · rintro (⟨x, hx, h⟩ | ⟨⟨x, hx, h⟩, hf⟩)
    · exact Or.inl ⟨x, hx, h⟩
    · exact Or.inr ⟨x, hx, h, hf⟩
  · rintro (⟨x, hx, h⟩ | ⟨x, hx, h, hf⟩)
    · exact Or.inl ⟨x, hx, h⟩
    · exact Or.inr ⟨⟨x, hx, h⟩, hf⟩

theorem foldl_cond_insert_mem {α β : Type} (lt : α → α → Bool)
    (htotal : ∀ a b, lt a b = false → lt b a = false → a = b) (f : β → α)
    (c : β → Prop) [DecidablePred c] (l : List β) :
    ∀ (init : List α) (y : α),
      y ∈ l.foldl (fun s b => if c b then set_insert lt (f b) s else s) init
        ↔ (y ∈ init ∨ ∃ b ∈ l, c b ∧ y = f b) := by
  induction l with
  | nil => intro init y; simp
  | cons b rest ih =>
    intro init y
    rw [List.foldl_cons, ih]
    by_cases hb : c b
    · simp only [hb, if_true, set_insert_mem lt htotal, List.mem_cons, exists_eq_or_imp, true_and]
      tauto
    · simp only [hb, if_false, List.mem_cons, exists_eq_or_imp, false_and, false_or]

theorem sides_to_spec (g : VG) (hc : edges_consistent g) (side : NodeSide) (node : Node)
    (hget : get_node g side.node = some node) (hid : node.id = side.node) :
    ∃ L, sides_to g side = some L ∧ ∀ s, s ∈ L ↔ enters g s side := by
  obtain ⟨E, hE, hmem⟩ := edges_of_node_spec g hc node
  have hL : sides_to g side
      = some (E.foldl
        (fun other_sides edge =>
          if edge.to_ = side.node ∧ edge.to_end = side.is_end
          then set_insert NodeSide.lt ⟨edge.from_, !edge.from_start⟩ other_sides
          else other_sides) []) := by
    unfold sides_to
    rw [hget]
    simp only [hE]
  refine ⟨_, hL, ?_⟩
  intro s
  rw [foldl_cond_insert_mem NodeSide.lt NodeSide.lt_total
    (fun (edge : Edge) => (⟨edge.from_, !edge.from_start⟩ : NodeSide))
    (fun (edge : Edge) => edge.to_ = side.node ∧ edge.to_end = side.is_end) E [] s]
  simp only [List.not_mem_nil, false_or]
  unfold enters
  constructor
  · rintro ⟨e, he, ⟨h1, h2⟩, hs⟩
    have hstored : map_find g.edge_by_sides (pair_from_edge e) = some e := by
      rcases (hmem e).mp he with ⟨x, _, hx⟩ | ⟨x, _, hx, _⟩
      · rw [(hc.by_sides_sound _ _ hx).2]; exact hx
      · rw [(hc.by_sides_sound _ _ hx).2]; exact hx
    have e_side : side = ⟨e.to_, e.to_end⟩ := by
      cases side with
      | mk n b => simp only at h1 h2; rw [h1, h2]
    refine ⟨e, ?_, h1, h2, by rw [hs], by rw [hs]; simp⟩
    have : minmax s side = pair_from_edge e := by
      unfold pair_from_edge
      rw [hs, e_side]
    rw [this]
    exact hstored
  · rintro ⟨e, he, h1, h2, h3, h4⟩
    have e_s : s = ⟨e.from_, !e.from_start⟩ := by
      cases s with
      | mk n b =>
        simp only at h3 h4
        rw [h3, h4]
        simp
    refine ⟨e, (hmem e).mpr ?_, ⟨h1, h2⟩, e_s⟩
    have hto : e.to_ = node.id := h1.trans hid.symm
    have e_side : side = ⟨node.id, e.to_end⟩ := by
      cases side with
      | mk n b => simp only at hid h2; rw [hid, h2]
    rw [e_s, e_side] at he
    by_cases hte : e.to_end = true
    · by_cases hloop : e.from_ = e.to_ ∧ e.from_start = e.to_end
      · left
        have hp : pair_from_start_edge node.id (node.id, false)
            = minmax ⟨e.from_, !e.from_start⟩ ⟨node.id, e.to_end⟩ := by
          rw [hloop.1, hloop.2, hto, hte]
          rfl
        refine ⟨(node.id, false), ?_, by rw [hp, he]⟩
        rw [hc.start_iff, hp, he]
        rfl
      · right
        have hp : pair_from_end_edge node.id (e.from_, !e.from_start)
            = minmax ⟨e.from_, !e.from_start⟩ ⟨node.id, e.to_end⟩ := by
          rw [hte]
          unfold pair_from_end_edge
          exact minmax_comm _ _
        refine ⟨(e.from_, !e.from_start), ?_, by rw [hp, he], hloop⟩
        rw [hc.end_iff, hp, he]
        rfl
    · left
      have hte2 : e.to_end = false := by simpa using hte
      have hp : pair_from_start_edge node.id (e.from_, e.from_start)
          = minmax ⟨e.from_, !e.from_start⟩ ⟨node.id, e.to_end⟩ := by
        rw [hte2]
        unfold pair_from_start_edge
        exact minmax_comm _ _
      refine ⟨(e.from_, e.from_start), ?_, by rw [hp, he]⟩
      rw [hc.start_iff, hp, he]
      rfl

theorem create_edge_value (g : VG) (hc : edges_consistent g) (a b : Int) (fs te : Bool) :
    edges_consistent (create_edge g a b fs te).1
    ∧ (create_edge g a b fs te).1.node_by_id = g.node_by_id
    ∧ (∀ p, minmax ⟨a, !fs⟩ ⟨b, te⟩ ≠ p →
        map_find (create_edge g a b fs te).1.edge_by_sides p = map_find g.edge_by_sides p)
    ∧ ((∃ e0, map_find g.edge_by_sides (minmax ⟨a, !fs⟩ ⟨b, te⟩) = some e0
          ∧ map_find (create_edge g a b fs te).1.edge_by_sides (minmax ⟨a, !fs⟩ ⟨b, te⟩)
              = some e0)
        ∨ (map_find g.edge_by_sides (minmax ⟨a, !fs⟩ ⟨b, te⟩) = none
          ∧ map_find (create_edge g a b fs te).1.edge_by_sides (minmax ⟨a, !fs⟩ ⟨b, te⟩)
              = some ⟨a, b, fs, te⟩)) := by
  obtain ⟨h1, h2, _, _, _⟩ := create_edge_spec g hc a b fs te
  refine ⟨h1, (create_edge_frame g a b fs te).2.1, ?_, ?_⟩
  · intro p hp
    rw [h2, if_neg hp]
  · cases h : get_edge g ⟨a, !fs⟩ ⟨b, te⟩ with
    | some e0 =>
      left
      refine ⟨e0, h, ?_⟩
      rw [h2, if_pos rfl, create_edge_existing g a b fs te e0 h]
    | none =>
      right
      refine ⟨h, ?_⟩
      rw [h2, if_pos rfl, (create_edge_fresh g a b fs te h).1]

theorem connect_left (N : Int) (sides : List NodeSide) :
    ∀ (g : VG), edges_consistent g →
      edges_consistent (sides.foldl (fun g side => (create_edge_sides g side ⟨N, false⟩).1) g)
      ∧ (sides.foldl (fun g side => (create_edge_sides g side ⟨N, false⟩).1) g).node_by_id
          = g.node_by_id
      ∧ (∀ s ∈ sides,
          has_edge (sides.foldl (fun g side => (create_edge_sides g side ⟨N, false⟩).1) g)
            s ⟨N, false⟩ = true)
      ∧ (∀ p e, map_find g.edge_by_sides p = some e →
          map_find (sides.foldl (fun g side => (create_edge_sides g side ⟨N, false⟩).1)
            g).edge_by_sides p = some e)
      ∧ (∀ p e,
          map_find (sides.foldl (fun g side => (create_edge_sides g side ⟨N, false⟩).1)
            g).edge_by_sides p = some e →
          map_find g.edge_by_sides p = some e ∨ e.to_ = N) := by
  induction sides with
  | nil =>
    intro g hc
    exact ⟨hc, rfl, fun s hs => absurd hs (List.not_mem_nil _), fun p e h => h,
      fun p e h => Or.inl h⟩
  | cons s rest ih =>
    intro g hc
    rw [List.foldl_cons]
    obtain ⟨c1, c2, c3, c4⟩ := create_edge_value g hc s.node N (!s.is_end) false
    have hpair : minmax (⟨s.node, !(!s.is_end)⟩ : NodeSide) ⟨N, false⟩ = minmax s ⟨N, false⟩ := by
      rw [Bool.not_not]
    rw [hpair] at c3 c4
    have hces : create_edge g s.node N (!s.is_end) false = create_edge_sides g s ⟨N, false⟩ := rfl
    rw [hces] at c1 c2 c3 c4
    obtain ⟨i1, i2, i3, i4, i5⟩ := ih (create_edge_sides g s ⟨N, false⟩).1 c1
    have hmono : ∀ p e, map_find g.edge_by_sides p = some e →
        map_find (create_edge_sides g s ⟨N, false⟩).1.edge_by_sides p = some e := by
      intro p e h
      by_cases hp : minmax s ⟨N, false⟩ = p
      · rcases c4 with ⟨e0, h0, h1⟩ | ⟨h0, _⟩
        · rw [← hp, h1]
          rw [← hp, h0] at h
          exact h
        · rw [← hp, h0] at h
          exact Option.noConfusion h
      · exact (c3 p hp).trans h
    refine ⟨i1, i2.trans c2, ?_, fun p e h => i4 p e (hmono p e h), ?_⟩
    · intro s2 hs2
      rcases List.mem_cons.mp hs2 with e | e
      · rw [e]
        unfold has_edge
        rcases c4 with ⟨e0, _, h1⟩ | ⟨_, h1⟩
        · rw [i4 _ _ h1]; rfl
        · rw [i4 _ _ h1]; rfl
      · exact i3 s2 e
    · intro p e h
      rcases i5 p e h with h2 | h2
      · by_cases hp : minmax s ⟨N, false⟩ = p
        · rcases c4 with ⟨e0, h0, h1⟩ | ⟨_, h1⟩
          · left
            rw [← hp, h1] at h2
            rw [← hp, h0]
            exact h2
          · right
            rw [← hp] at h2
            have h3 : map_find (create_edge_sides g s ⟨N, false⟩).1.edge_by_sides
                (minmax s ⟨N, false⟩) = some ⟨s.node, N, !s.is_end, false⟩ := h1
            rw [h3] at h2
            rw [← Option.some.inj h2]
        · left
          exact (c3 p hp).symm.trans h2
      · exact Or.inr h2

theorem destroy_fold_eq (old_side : NodeSide) (sides : List NodeSide) :
    ∀ (g : VG), sides.foldl (fun g side => destroy_edge g side old_side) g
      = destroy_edges g (sides.map (fun s => (s, old_side))) := by
  induction sides with
  | nil => intro g; rfl
  | cons s rest ih =>
    intro g
    rw [List.foldl_cons, ih]
    rfl

/-- One pass of the last loop of `simplify_to_siblings`: the sibling side has
lost the edges from the sides that entered it and is joined to the end of the
new node; all other pairs of the edge index are as before. -/
theorem reconnect_step (g : VG) (hc : edges_consistent g) (N : Int) (X : NodeTraversal)
    (node : Node) (hget : get_node g X.node.id = some node) (hid : node.id = X.node.id) :
    ∃ g2, reconnect_sibling ⟨N, true⟩ (some g) X = some g2
      ∧ edges_consistent g2 ∧ g2.node_by_id = g.node_by_id
      ∧ has_edge g2 ⟨N, true⟩ ⟨X.node.id, X.backward⟩ = true
      ∧ (∀ p, minmax ⟨N, true⟩ ⟨X.node.id, X.backward⟩ ≠ p →
          (∃ s, enters g s ⟨X.node.id, X.backward⟩ ∧ minmax s ⟨X.node.id, X.backward⟩ = p) →
          map_find g2.edge_by_sides p = none)
      ∧ (∀ p, minmax ⟨N, true⟩ ⟨X.node.id, X.backward⟩ ≠ p →
          (∀ s, enters g s ⟨X.node.id, X.backward⟩ → minmax s ⟨X.node.id, X.backward⟩ ≠ p) →
          map_find g2.edge_by_sides p = map_find g.edge_by_sides p) := by
  obtain ⟨L, hL, hmem⟩ := sides_to_spec g hc ⟨X.node.id, X.backward⟩ node hget hid
  obtain ⟨d1, d2, d3, _, _, d6, _, _, _⟩ := destroy_edges_spec
    (L.map (fun s => (s, (⟨X.node.id, X.backward⟩ : NodeSide)))) g hc
  obtain ⟨c1, c2, c3, c4⟩ := create_edge_value
    (destroy_edges g (L.map (fun s => (s, (⟨X.node.id, X.backward⟩ : NodeSide))))) d1
    N X.node.id false X.backward
  have hpair : minmax (⟨N, !false⟩ : NodeSide) ⟨X.node.id, X.backward⟩
      = minmax ⟨N, true⟩ ⟨X.node.id, X.backward⟩ := rfl
  rw [hpair] at c3 c4
  refine ⟨(create_edge
    (destroy_edges g (L.map (fun s => (s, (⟨X.node.id, X.backward⟩ : NodeSide)))))
    N X.node.id false X.backward).1, ?_, c1, c2.trans d6, ?_, ?_, ?_⟩
  · unfold reconnect_sibling
    simp only [hL]
    rw [destroy_fold_eq]
    rfl
  · unfold has_edge
    rcases c4 with ⟨e0, _, h1⟩ | ⟨_, h1⟩
    · rw [h1]; rfl
    · rw [h1]; rfl
  · intro p hp ⟨s, hs, hsp⟩
    rw [c3 p hp]
    apply d2
    exact ⟨(s, ⟨X.node.id, X.backward⟩),
      List.mem_map.mpr ⟨s, (hmem s).mpr hs, rfl⟩, hsp⟩
  · intro p hp hall
    rw [c3 p hp]
    apply d3
    intro q hq
    obtain ⟨s, hs, e⟩ := List.mem_map.mp hq
    rw [← e]
    exact hall s ((hmem s).mp hs)

theorem reconnect_all (N : Int) (parents : List NodeSide) (hparN : ∀ P ∈ parents, P.node ≠ N) :
    ∀ (todo : List NodeTraversal) (g : VG) (done : List NodeTraversal),
      edges_consistent g →
      (∀ X ∈ todo, ∃ nd, get_node g X.node.id = some nd ∧ nd.id = X.node.id) →
      (∀ X ∈ todo, X.node.id ≠ N) → (∀ X ∈ done, X.node.id ≠ N) →
      (todo.map (fun t => t.node.id)).Nodup →
      (∀ X ∈ done, ∀ Y ∈ todo, X.node.id ≠ Y.node.id) →
      (∀ X ∈ done, has_edge g ⟨N, true⟩ ⟨X.node.id, X.backward⟩ = true) →
      (∀ X ∈ done, ∀ P ∈ parents, has_edge g P ⟨X.node.id, X.backward⟩ = false) →
      (∀ P ∈ parents, has_edge g P ⟨N, false⟩ = true) →
      (∀ X ∈ todo, ∀ s, enters g s ⟨X.node.id, X.backward⟩ ↔ s ∈ parents) →
      ∃ g2, todo.foldl (reconnect_sibling ⟨N, true⟩) (some g) = some g2
        ∧ g2.node_by_id = g.node_by_id
        ∧ (∀ X, X ∈ done ∨ X ∈ todo →
            has_edge g2 ⟨N, true⟩ ⟨X.node.id, X.backward⟩ = true)
        ∧ (∀ X, X ∈ done ∨ X ∈ todo → ∀ P ∈ parents,
            has_edge g2 P ⟨X.node.id, X.backward⟩ = false)
        ∧ (∀ P ∈ parents, has_edge g2 P ⟨N, false⟩ = true) := by
  intro todo
  induction todo with
  | nil =>
    intro g done _ _ _ _ _ _ ha hb hcc _
    refine ⟨g, rfl, rfl, ?_, ?_, hcc⟩
    · rintro X (h | h)
      · exact ha X h
      · exact absurd h (List.not_mem_nil _)
    · rintro X (h | h)
      · exact hb X h
      · exact absurd h (List.not_mem_nil _)
  | cons X rest ih =>
    intro g done hc hget htN hdN hnodup hdisj ha hb hcc hd
    rw [List.map_cons, List.nodup_cons] at hnodup
    obtain ⟨nd, hnd, hndid⟩ := hget X (List.mem_cons_self _ _)
    obtain ⟨g1, e1, c1, n1, s1, s2, s3⟩ := reconnect_step g hc N X nd hnd hndid
    have hXN : X.node.id ≠ N := htN X (List.mem_cons_self _ _)
    have hXrest : ∀ Y ∈ rest, X.node.id ≠ Y.node.id := by
      intro Y hY e
      apply hnodup.1
      rw [e]
      exact List.mem_map.mpr ⟨Y, hY, rfl⟩
    have hdX := hd X (List.mem_cons_self _ _)
    obtain ⟨g2, e2, n2, r1, r2, r3⟩ := ih g1 (X :: done) c1
      (by
        intro Y hY
        obtain ⟨nd2, h1, h2⟩ := hget Y (List.mem_cons_of_mem _ hY)
        refine ⟨nd2, ?_, h2⟩
        unfold get_node at h1 ⊢
        rw [n1]
        exact h1)
      (fun Y hY => htN Y (List.mem_cons_of_mem _ hY))
      (by
        intro Y hY
        rcases List.mem_cons.mp hY with e | e
        · rw [e]; exact hXN
        · exact hdN Y e)
      hnodup.2
      (by
        intro Z hZ Y hY
        rcases List.mem_cons.mp hZ with e | e
        · rw [e]; exact hXrest Y hY
        · exact hdisj Z e Y (List.mem_cons_of_mem _ hY))
      (by
        intro Z hZ
        rcases List.mem_cons.mp hZ with e | e
        · rw [e]; exact s1
        · have hZX : Z.node.id ≠ X.node.id := hdisj Z e X (List.mem_cons_self _ _)
          have hold := ha Z e
          unfold has_edge at hold ⊢
          by_cases hp : minmax (⟨N, true⟩ : NodeSide) ⟨X.node.id, X.backward⟩
              = minmax ⟨N, true⟩ ⟨Z.node.id, Z.backward⟩
          · rw [← hp]; exact s1
          · rw [s3 _ hp ?_]
            · exact hold
            · intro s hs h
              rcases (minmax_eq_iff _ _ _ _).mp h with ⟨h1, h2⟩ | ⟨h1, h2⟩
              · exact hZX (congrArg NodeSide.node h2).symm
              · exact hXN (congrArg NodeSide.node h2))
      (by
        intro Z hZ P hP
        have hPN := hparN P hP
        rcases List.mem_cons.mp hZ with e | e
        · rw [e]
          unfold has_edge
          rw [s2 _ ?_ ⟨P, (hdX P).mpr hP, rfl⟩]
          · rfl
          · intro h
            rcases (minmax_eq_iff _ _ _ _).mp h with ⟨h1, h2⟩ | ⟨h1, h2⟩
            · exact hPN (congrArg NodeSide.node h1).symm
            · exact hXN (congrArg NodeSide.node h1).symm
        · have hZX : Z.node.id ≠ X.node.id := hdisj Z e X (List.mem_cons_self _ _)
          have hZN := hdN Z e
          have hold := hb Z e P hP
          unfold has_edge at hold ⊢
          have hp : minmax (⟨N, true⟩ : NodeSide) ⟨X.node.id, X.backward⟩
              ≠ minmax P ⟨Z.node.id, Z.backward⟩ := by
            intro h
            rcases (minmax_eq_iff _ _ _ _).mp h with ⟨h1, h2⟩ | ⟨h1, h2⟩
            · exact hPN (congrArg NodeSide.node h1).symm
            · exact hZN (congrArg NodeSide.node h1).symm
          by_cases hdes : ∃ s, enters g s ⟨X.node.id, X.backward⟩
              ∧ minmax s ⟨X.node.id, X.backward⟩ = minmax P ⟨Z.node.id, Z.backward⟩
          · rw [s2 _ hp hdes]; rfl
          · rw [s3 _ hp (fun s hs h => hdes ⟨s, hs, h⟩)]
            exact hold)
      (by
        intro P hP
        have hPN := hparN P hP
        have hold := hcc P hP
        unfold has_edge at hold ⊢
        rw [s3 _ ?_ ?_]
        · exact hold
        · intro h
          rcases (minmax_eq_iff _ _ _ _).mp h with ⟨h1, h2⟩ | ⟨h1, h2⟩
          · exact hPN (congrArg NodeSide.node h1).symm
          · exact Bool.noConfusion (congrArg NodeSide.is_end h1)
        · intro s hs h
          rcases (minmax_eq_iff _ _ _ _).mp h with ⟨h1, h2⟩ | ⟨h1, h2⟩
          · exact hXN (congrArg NodeSide.node h2)
          · exact hparN s ((hdX s).mp hs) (congrArg NodeSide.node h1))
      (by
        intro Y hY s
        have hYX : X.node.id ≠ Y.node.id := hXrest Y hY
        have hYN := htN Y (List.mem_cons_of_mem _ hY)
        rw [← hd Y (List.mem_cons_of_mem _ hY) s]
        have hp : minmax (⟨N, true⟩ : NodeSide) ⟨X.node.id, X.backward⟩
            ≠ minmax s ⟨Y.node.id, Y.backward⟩ := by
          intro h
          rcases (minmax_eq_iff _ _ _ _).mp h with ⟨h1, h2⟩ | ⟨h1, h2⟩
          · exact hYX (congrArg NodeSide.node h2)
          · exact hYN (congrArg NodeSide.node h1).symm
        by_cases hdes : ∃ s2, enters g s2 ⟨X.node.id, X.backward⟩
            ∧ minmax s2 ⟨X.node.id, X.backward⟩ = minmax s ⟨Y.node.id, Y.backward⟩
        · have hnone := s2 _ hp hdes
          constructor
          · rintro ⟨e, he, _⟩
            rw [hnone] at he
            exact Option.noConfusion he
          · rintro ⟨e, he, hto, _⟩
            exfalso
            obtain ⟨s2, ⟨e3, he3, hto3, _⟩, h⟩ := hdes
            rw [h, he] at he3
            rw [← Option.some.inj he3] at hto3
            simp only at hto hto3
            exact hYX (hto3.symm.trans hto)
        · have hsame := s3 _ hp (fun s2 hs2 h => hdes ⟨s2, hs2, h⟩)
          unfold enters
          rw [hsame])
    refine ⟨g2, ?_, n2.trans n1, ?_, ?_, r3⟩
    · rw [List.foldl_cons, e1]
      exact e2
    · rintro Z (h | h)
      · exact r1 Z (Or.inl (List.mem_cons_of_mem _ h))
      · rcases List.mem_cons.mp h with e | e
        · exact r1 Z (Or.inl (e ▸ List.mem_cons_self _ _))
        · exact r1 Z (Or.inr e)
    · rintro Z (h | h)
      · exact r2 Z (Or.inl (List.mem_cons_of_mem _ h))
      · rcases List.mem_cons.mp h with e | e
        · exact r2 Z (Or.inl (e ▸ List.mem_cons_self _ _))
        · exact r2 Z (Or.inr e)

theorem all_some_of_forall {α β : Type} (f : α → Option β) (h : α → β) (l : List α)
    (hf : ∀ x ∈ l, f x = some (h x)) : all_some (l.map f) = some (l.map h) := by
  induction l with
  | nil => rfl
  | cons a rest ih =>
    rw [List.map_cons, hf a (List.mem_cons_self _ _)]
    simp only [all_some, ih (fun x hx => hf x (List.mem_cons_of_mem _ hx)), List.map_cons]

theorem longest_common_prefix_unique (p q : List Char) (seqs : List (List Char))
    (hne : seqs ≠ []) (hp : is_longest_common_prefix p seqs)
    (hq : is_longest_common_prefix q seqs) : p = q := by
  have h1 := hp.2 q hq.1
  have h2 := hq.2 p hp.1
  obtain ⟨s, hs⟩ := List.exists_mem_of_ne_nil seqs hne
  have e1 := List.prefix_iff_eq_take.mp (hp.1 s hs)
  have e2 := List.prefix_iff_eq_take.mp (hq.1 s hs)
  rw [e1, e2, show p.length = q.length by omega]

theorem enters_congr (g g2 : VG) (h : g2.edge_by_sides = g.edge_by_sides) (s side : NodeSide) :
    enters g2 s side ↔ enters g s side := by
  unfold enters
  rw [h]

/-- The step of `simplify_to_siblings` when the id counter is ahead: on a graph
whose stores and indexes agree and whose id counter is ahead of the stored
ids, for a set of stored sibling nodes with distinct ids
that all have the same sides `parents` in front of them (`sides_to`) and whose
sequences have the longest common prefix `p`, not empty: the step of
`simplify_to_siblings` for this set returns; it has created one node, under the
next free id, whose sequence is `p`; every sibling now carries its old sequence
without the first `|p|` characters, so that `p` followed by the new sequence is
the old one; every parent side, which was joined to every sibling before, is
joined to the start of the new node, the end of the new node is joined to every
sibling, and no parent side is joined to a sibling any more. -/
theorem simplify_to_siblings_spec (reassign : Paths → Node → Nat → Int → Paths) (g : VG)
    (sibs : List NodeTraversal) (parents : List NodeSide) (p : List Char)
    (hs : store_consistent g) (ha : counter_ahead g)
    (hmem : ∀ sib ∈ sibs, sib.node ∈ g.node)
    (hnodup : (sibs.map (fun t => t.node.id)).Nodup)
    (hpar : ∀ sib ∈ sibs, sides_to g ⟨sib.node.id, sib.backward⟩ = some parents)
    (hne : sibs ≠ [])
    (hp : is_longest_common_prefix p (sibs.map (fun t => t.node.sequence)))
    (hpos : p ≠ []) :
    ∃ g2, simplify_to_sibling_set reassign g sibs = some g2
      ∧ simplify_to_siblings reassign g [sibs]
          = some { g2 with paths := compact_ranks g2.paths }
      ∧ get_node g (next_id g) = none
      ∧ get_node g2 (next_id g) = some ⟨next_id g, p⟩
      ∧ (∀ sib ∈ sibs,
          get_node g2 sib.node.id = some ⟨sib.node.id, sib.node.sequence.drop p.length⟩
          ∧ p ++ sib.node.sequence.drop p.length = sib.node.sequence)
      ∧ (∀ P ∈ parents, ∀ sib ∈ sibs, has_edge g P ⟨sib.node.id, sib.backward⟩ = true)
      ∧ (∀ P ∈ parents, has_edge g2 P ⟨next_id g, false⟩ = true)
      ∧ (∀ sib ∈ sibs, has_edge g2 ⟨next_id g, true⟩ ⟨sib.node.id, sib.backward⟩ = true)
      ∧ (∀ sib ∈ sibs, ∀ P ∈ parents,
          has_edge g2 P ⟨sib.node.id, sib.backward⟩ = false) := by
  -- the sequences read through the handles
  have hgetg : ∀ sib ∈ sibs, get_node g sib.node.id = some sib.node :=
    fun sib h => hs.nodes_ok.by_id_complete sib.node (hmem sib h)
  have hseqs : all_some (sibs.map (fun sib => (get_node g sib.node.id).map (fun n => n.sequence)))
      = some (sibs.map (fun t => t.node.sequence)) :=
    all_some_of_forall _ _ sibs (fun sib h => by rw [hgetg sib h]; rfl)
  have hsne : sibs.map (fun t => t.node.sequence) ≠ [] := by
    intro e
    exact hne (List.map_eq_nil_iff.mp e)
  obtain ⟨l1, l2, l3⟩ := shared_prefix_spec (sibs.map (fun t => t.node.sequence)) hsne
  have hpe := longest_common_prefix_unique p _ _ hsne hp l1
  have hlen : shared_loop (sibs.map (fun t => t.node.sequence))
      (min_seq_size (sibs.map (fun t => t.node.sequence))) 0 = p.length := by
    rw [← l2, ← hpe]
  rw [← hpe, hlen] at l3
  have hl0 : p.length ≠ 0 := fun e => hpos (List.length_eq_zero.mp e)
  -- the new node
  have hfresh := counter_ahead_fresh g hs ha
  have hr2 := create_node_fresh_eq g p ha.1
  obtain ⟨f1, f2, f3, f4, f5⟩ := create_node_edge_fields g p 0
  have hcr : edges_consistent (create_node g p 0).1 := create_node_consistent g p 0 hs.edges_ok
  have hgetr : ∀ id, get_node (create_node g p 0).1 id
      = if next_id g = id then some ⟨next_id g, p⟩ else get_node g id := by
    intro id
    unfold get_node
    rw [(create_node_node_fields g p 0).2.1, map_find_insert, hr2]
  have hgN : get_node g (next_id g) = none := by
    cases h : get_node g (next_id g) with
    | none => rfl
    | some nd =>
      have := hfresh.2.1 _ _ h
      omega
  have hbr : by_id_sound (create_node g p 0).1 := by
    intro id nd h
    rw [hgetr] at h
    split_ifs at h with e
    · rw [← Option.some.inj h]; exact e
    · exact (hs.nodes_ok.by_id_sound id nd h).2
  have hidN : ∀ sib ∈ sibs, sib.node.id ≠ next_id g := by
    intro sib h e
    have := ha.2 sib.node (hmem sib h)
    omega
  -- the siblings are shortened
  obtain ⟨b1, b2, b3, b4, b5, b6, b7⟩ := shorten_all reassign p.length (next_id g) sibs
    (create_node g p 0).1 hbr hnodup
  have hc1 : edges_consistent
      (sibs.foldl (shorten_sibling reassign p.length (next_id g)) (create_node g p 0).1) :=
    edges_consistent_congr _ _ hcr b3 b4 b5 b6 b7
  have hebs1 : (sibs.foldl (shorten_sibling reassign p.length (next_id g))
      (create_node g p 0).1).edge_by_sides = g.edge_by_sides := b4.trans f2
  have hget1 : ∀ sib ∈ sibs,
      get_node (sibs.foldl (shorten_sibling reassign p.length (next_id g))
        (create_node g p 0).1) sib.node.id
        = some ⟨sib.node.id, sib.node.sequence.drop p.length⟩ := by
    intro sib h
    rw [b2, if_pos (List.mem_map.mpr ⟨sib, h, rfl⟩), hgetr,
      if_neg (fun e => hidN sib h e.symm), hgetg sib h]
    rfl
  have hget1N : get_node (sibs.foldl (shorten_sibling reassign p.length (next_id g))
      (create_node g p 0).1) (next_id g) = some ⟨next_id g, p⟩ := by
    rw [b2, if_neg, hgetr, if_pos rfl]
    intro hm
    obtain ⟨sib, h, e⟩ := List.mem_map.mp hm
    exact hidN sib h e
  -- the parents
  have hent : ∀ sib ∈ sibs, ∀ s, enters g s ⟨sib.node.id, sib.backward⟩ ↔ s ∈ parents := by
    intro sib h s
    obtain ⟨L, hL, hm⟩ := sides_to_spec g hs.edges_ok ⟨sib.node.id, sib.backward⟩ sib.node
      (hgetg sib h) rfl
    rw [hpar sib h] at hL
    rw [Option.some.inj hL, hm]
  obtain ⟨first, rest, hsibs⟩ : ∃ first rest, sibs = first :: rest := by
    cases sibs with
    | nil => exact absurd rfl hne
    | cons a b => exact ⟨a, b, rfl⟩
  have hfirst : first ∈ sibs := by rw [hsibs]; exact List.mem_cons_self _ _
  have hparN : ∀ P ∈ parents, P.node ≠ next_id g := by
    intro P hP e
    obtain ⟨ed, hed, _, _, _, _⟩ := (hent first hfirst P).mpr hP
    have := hfresh.2.2 _ _ hed
    unfold minmax at this
    split_ifs at this
    · simp only at this; omega
    · simp only at this; omega
  obtain ⟨L1, hL1, hm1⟩ := sides_to_spec _ hc1 ⟨first.node.id, first.backward⟩ _
    (hget1 first hfirst) rfl
  have hm1p : ∀ s, s ∈ L1 ↔ s ∈ parents := by
    intro s
    rw [hm1, enters_congr _ _ hebs1, hent first hfirst]
  obtain ⟨k1, k2, k3, k4, k5⟩ := connect_left (next_id g) L1 _ hc1
  -- the last loop
  obtain ⟨g2, e2, n2, r1, r2, r3⟩ := reconnect_all (next_id g) parents hparN sibs _ [] k1
    (by
      intro X hX
      refine ⟨⟨X.node.id, X.node.sequence.drop p.length⟩, ?_, rfl⟩
      unfold get_node
      rw [k2]
      exact hget1 X hX)
    hidN (fun X hX => absurd hX (List.not_mem_nil _)) hnodup
    (fun X hX => absurd hX (List.not_mem_nil _))
    (fun X hX => absurd hX (List.not_mem_nil _))
    (fun X hX => absurd hX (List.not_mem_nil _))
    (fun P hP => k3 P ((hm1p P).mpr hP))
    (by
      intro X hX s
      rw [← hent X hX s, ← enters_congr _ _ hebs1]
      constructor
      · rintro ⟨e, he, hto, h3, h4, h5⟩
        rcases k5 _ _ he with h | h
        · exact ⟨e, h, hto, h3, h4, h5⟩
        · exfalso
          simp only at hto
          exact hidN X hX (hto.symm.trans h)
      · rintro ⟨e, he, hto, h3, h4, h5⟩
        exact ⟨e, k4 _ _ he, hto, h3, h4, h5⟩)
  have hset : simplify_to_sibling_set reassign g sibs = some g2 := by
    rw [hsibs] at hseqs ⊢
    unfold simplify_to_sibling_set
    simp only [hseqs]
    rw [← hsibs]
    have hpe2 : List.take p.length ((sibs.map (fun t => t.node.sequence)).headD []) = p := by
      rw [← hlen]
      exact hpe.symm
    simp only [hlen, hl0, if_false, hpe2, hr2]
    rw [hL1]
    exact e2
  refine ⟨g2, hset, ?_, hgN, ?_, ?_, ?_, r3, ?_, ?_⟩
  · unfold simplify_to_siblings
    simp only [List.foldl_cons, List.foldl_nil, simplify_to_step, hset, Option.map_some']
  · unfold get_node
    rw [n2, k2]
    exact hget1N
  · intro sib h
    refine ⟨?_, l3 _ (List.mem_map.mpr ⟨sib, h, rfl⟩)⟩
    unfold get_node
    rw [n2, k2]
    exact hget1 sib h
  · intro P hP sib h
    obtain ⟨e, he, _⟩ := (hent sib h P).mpr hP
    unfold has_edge
    rw [he]
    rfl
  · intro sib h
    exact r1 sib (Or.inr h)
  · intro sib h P hP
    exact r2 sib (Or.inr h) P hP

theorem sibling_graph_store : store_consistent sibling_graph ∧ counter_ahead sibling_graph := by
  have h0 : store_consistent VG.empty ∧ counter_ahead VG.empty :=
    ⟨empty_store_consistent, counter_ahead_of_one _ rfl⟩
  have h1 := create_node_inv VG.empty "T".toList 0 h0.1 h0.2 (Or.inl rfl)
  have h2 := create_node_inv _ "ACG".toList 0 h1.1 h1.2 (Or.inl rfl)
  have h3 := create_node_inv _ "ACT".toList 0 h2.1 h2.2 (Or.inl rfl)
  have h4 := create_edge_inv _ 1 2 false false h3.1 h3.2 (by decide) (by decide)
  exact create_edge_inv _ 1 3 false false h4.1 h4.2 (by decide) (by decide)

theorem sibling_graph_prefix :
    is_longest_common_prefix "AC".toList ["ACG".toList, "ACT".toList] := by
  have h := (shared_prefix_spec ["ACG".toList, "ACT".toList] (by simp)).1
  have e : List.take
      (shared_loop ["ACG".toList, "ACT".toList] (min_seq_size ["ACG".toList, "ACT".toList]) 0)
      (["ACG".toList, "ACT".toList].headD []) = "AC".toList := by decide
  rw [e] at h
  exact h

/-- An instance of `simplify_to_siblings_spec`: the siblings 2 = `ACG` and
3 = `ACT` behind the end of node 1; the new node 4 = `AC` stands between node 1 and the siblings, which are
left with `G` and `T`. -/
theorem simplify_to_siblings_spec_witness :
    ∃ g2, simplify_to_siblings (fun paths _ _ _ => paths) sibling_graph
          [[⟨⟨2, "ACG".toList⟩, false⟩, ⟨⟨3, "ACT".toList⟩, false⟩]]
        = some { g2 with paths := compact_ranks g2.paths }
      ∧ get_node g2 (next_id sibling_graph) = some ⟨next_id sibling_graph, "AC".toList⟩
      ∧ (∀ sib ∈ [(⟨⟨2, "ACG".toList⟩, false⟩ : NodeTraversal), ⟨⟨3, "ACT".toList⟩, false⟩],
          get_node g2 sib.node.id
            = some ⟨sib.node.id, sib.node.sequence.drop "AC".toList.length⟩)
      ∧ has_edge g2 ⟨1, true⟩ ⟨next_id sibling_graph, false⟩ = true
      ∧ (∀ sib ∈ [(⟨⟨2, "ACG".toList⟩, false⟩ : NodeTraversal), ⟨⟨3, "ACT".toList⟩, false⟩],
          has_edge g2 ⟨next_id sibling_graph, true⟩ ⟨sib.node.id, sib.backward⟩ = true
          ∧ has_edge g2 ⟨1, true⟩ ⟨sib.node.id, sib.backward⟩ = false) :=
  have h := simplify_to_siblings_spec (fun paths _ _ _ => paths) sibling_graph
    [⟨⟨2, "ACG".toList⟩, false⟩, ⟨⟨3, "ACT".toList⟩, false⟩] [⟨1, true⟩] "AC".toList
    sibling_graph_store.1 sibling_graph_store.2 (by decide) (by decide) (by decide) (by simp)
    sibling_graph_prefix (by simp)
  h.elim (fun g2 hg =>
    ⟨g2, hg.2.1, hg.2.2.2.1, fun sib hsib => (hg.2.2.2.2.1 sib hsib).1,
      hg.2.2.2.2.2.2.1 ⟨1, true⟩ (List.mem_singleton.mpr rfl),
      fun sib hsib => ⟨hg.2.2.2.2.2.2.2.1 sib hsib,
        hg.2.2.2.2.2.2.2.2 sib hsib ⟨1, true⟩ (List.mem_singleton.mpr rfl)⟩⟩)

/-! ## Test for cycles -/

theorem trav_equiv_iff (a b : NodeTraversal) :
    (!NodeTraversal.lt a b && !NodeTraversal.lt b a) = true ↔
      (a.node.id = b.node.id ∧ a.backward = b.backward) := by
  unfold NodeTraversal.lt
  cases ha : a.backward <;> cases hb : b.backward <;> simp <;> omega

theorem set_mem_trav_iff (t : NodeTraversal) (s : List NodeTraversal) :
    set_mem NodeTraversal.lt t s = true ↔
      ∃ y ∈ s, t.node.id = y.node.id ∧ t.backward = y.backward := by
  unfold set_mem
  rw [List.any_eq_true]
  constructor
  · rintro ⟨y, hy, h⟩
    exact ⟨y, hy, (trav_equiv_iff t y).mp h⟩
  · rintro ⟨y, hy, h⟩
    exact ⟨y, hy, (trav_equiv_iff t y).mpr h⟩

theorem set_insert_trav_mem (x : NodeTraversal) (s : List NodeTraversal) :
    set_mem NodeTraversal.lt x (set_insert NodeTraversal.lt x s) = true
      ∧ ∀ y ∈ s, y ∈ set_insert NodeTraversal.lt x s := by
  induction s with
  | nil =>
    refine ⟨?_, fun y hy => by simp at hy⟩
    rw [set_mem_trav_iff]
    exact ⟨x, by simp [set_insert], rfl, rfl⟩
  | cons z rest ih =>
    unfold set_insert
    by_cases h1 : NodeTraversal.lt x z = true
    · rw [if_pos h1]
      refine ⟨?_, fun y hy => List.mem_cons_of_mem _ hy⟩
      rw [set_mem_trav_iff]
      exact ⟨x, List.mem_cons_self _ _, rfl, rfl⟩
    · rw [if_neg h1]
      by_cases h2 : NodeTraversal.lt z x = true
      · rw [if_pos h2]
        refine ⟨?_, fun y hy => ?_⟩
        · rw [set_mem_trav_iff]
          obtain ⟨y, hy, h⟩ := (set_mem_trav_iff _ _).mp ih.1
          exact ⟨y, List.mem_cons_of_mem _ hy, h⟩
        · rcases List.mem_cons.mp hy with h | h
          · rw [h]; exact List.mem_cons_self _ _
          · exact List.mem_cons_of_mem _ (ih.2 y h)
      · rw [if_neg h2]
        refine ⟨?_, fun y hy => hy⟩
        rw [set_mem_trav_iff]
        refine ⟨z, List.mem_cons_self _ _, (trav_equiv_iff x z).mp ?_⟩
        simp only [Bool.not_eq_true] at h1 h2
        rw [h1, h2]; rfl

theorem set_erase_trav_mem (x y : NodeTraversal) (s : List NodeTraversal) :
    y ∈ set_erase NodeTraversal.lt x s ↔
      (y ∈ s ∧ ¬ (x.node.id = y.node.id ∧ x.backward = y.backward)) := by
  unfold set_erase
  rw [List.mem_filter, ← trav_equiv_iff]
  cases NodeTraversal.lt x y <;> cases NodeTraversal.lt y x <;> simp

theorem follows_edge (g : VG) (hs : store_consistent g) (t u : NodeTraversal)
    (h : follows g t u) :
    get_node g u.node.id = some u.node ∧
      ∃ e, get_edge_trav g t u = some e ∧ e ∈ g.edge ∧
        ((e.from_ = t.node.id ∧ e.from_start = t.backward ∧ e.to_ = u.node.id
            ∧ e.to_end = u.backward)
          ∨ (e.from_ = u.node.id ∧ e.from_start = (!u.backward) ∧ e.to_ = t.node.id
            ∧ e.to_end = (!t.backward))) := by
  obtain ⟨nexts, h1, h2⟩ := h
  obtain ⟨l, hl, hl2⟩ := nodes_next_some g (store_sides_resolvable g hs) t
  unfold travs_from at h1
  rw [hl] at h1
  simp only [Option.map_some', Option.some.injEq] at h1
  subst h1
  have hu : u ∈ l := by
    rcases foldl_set_insert_subset NodeTraversal.lt l [] u h2 with h | h
    · simp at h
    · exact h
  obtain ⟨x, hx, hg, hb⟩ := hl2 u hu
  have hid : u.node.id = x.1 := (hs.nodes_ok.by_id_sound _ _ hg).2
  have hgu : get_node g u.node.id = some u.node := by rw [hid]; exact hg
  refine ⟨hgu, ?_⟩
  have hsome : (map_find g.edge_by_sides
      (minmax ⟨t.node.id, !t.backward⟩ ⟨u.node.id, u.backward⟩)).isSome = true := by
    cases htb : t.backward
    · rw [htb] at hx hb
      simp only [Bool.false_eq_true, if_false] at hx
      have := (hs.edges_ok.end_iff _ _).mp hx
      unfold pair_from_end_edge at this
      rw [hid, hb]
      simpa using this
    · rw [htb] at hx hb
      simp only [if_true] at hx
      have := (hs.edges_ok.start_iff _ _).mp hx
      unfold pair_from_start_edge at this
      rw [hid, hb]
      simpa using this
  cases he : map_find g.edge_by_sides
      (minmax ⟨t.node.id, !t.backward⟩ ⟨u.node.id, u.backward⟩) with
  | none => rw [he] at hsome; exact absurd hsome (by simp)
  | some e =>
    obtain ⟨hmem, hpair⟩ := hs.edges_ok.by_sides_sound _ _ he
    refine ⟨e, he, hmem, ?_⟩
    unfold pair_from_edge at hpair
    rcases (minmax_eq_iff _ _ _ _).mp hpair with ⟨a, b⟩ | ⟨a, b⟩
    · left
      simp only [NodeSide.mk.injEq] at a b
      refine ⟨a.1, ?_, b.1, b.2⟩
      have := a.2
      revert this
      cases e.from_start <;> cases t.backward <;> simp
    · right
      simp only [NodeSide.mk.injEq] at a b
      refine ⟨a.1, ?_, b.1, b.2⟩
      have := a.2
      revert this
      cases e.from_start <;> cases u.backward <;> simp

theorem dfs_target_follows (g : VG) (t u : NodeTraversal) (e : Edge)
    (ht : get_node g t.node.id = some t.node) (hu : get_node g u.node.id = some u.node)
    (he : (e.from_ = t.node.id ∧ e.from_start = t.backward ∧ e.to_ = u.node.id
            ∧ e.to_end = u.backward)
          ∨ (e.from_ = u.node.id ∧ e.from_start = (!u.backward) ∧ e.to_ = t.node.id
            ∧ e.to_end = (!t.backward))) :
    dfs_target g t e = some u := by
  obtain ⟨un, ub⟩ := u
  obtain ⟨tn, tb⟩ := t
  simp only at ht hu he
  unfold dfs_target
  simp only
  by_cases hid : un.id = tn.id
  · have hn : un = tn := by
      rw [hid, ht] at hu
      exact (Option.some.inj hu).symm
    subst hn
    rcases he with ⟨a, b, c, d⟩ | ⟨a, b, c, d⟩
    · rw [a, b, c, d]
      simp only [ne_eq, not_true_eq_false, and_false, if_false, Option.some.injEq,
        NodeTraversal.mk.injEq, true_and]
      cases tb <;> cases ub <;> rfl
    · rw [a, b, c, d]
      simp only [ne_eq, not_true_eq_false, and_false, if_false, Option.some.injEq,
        NodeTraversal.mk.injEq, true_and]
      cases tb <;> cases ub <;> rfl
  · rcases he with ⟨a, b, c, d⟩ | ⟨a, b, c, d⟩
    · rw [a, b, c, d, if_pos ⟨rfl, hid⟩, hu]
      simp only [Option.map_some', Option.some.injEq, NodeTraversal.mk.injEq, true_and]
      cases tb <;> cases ub <;> rfl
    · rw [a, b, c, d, if_neg (fun h => hid h.1), if_pos ⟨rfl, hid⟩, hu]
      simp only [Option.map_some', Option.some.injEq, NodeTraversal.mk.injEq, true_and]
      cases tb <;> cases ub <;> rfl

theorem frame_edges_targets (g : VG) (hs : store_consistent g) (t : NodeTraversal)
    (es : List Edge) (ht : get_node g t.node.id = some t.node)
    (h : frame_edges g t = some es) :
    ∀ u, follows g t u → ∃ e ∈ es, dfs_target g t e = some u := by
  intro u hu
  obtain ⟨hgu, e, he, _, hcase⟩ := follows_edge g hs t u hu
  obtain ⟨nexts, h1, h2⟩ := hu
  unfold frame_edges at h
  rw [h1] at h
  simp only at h
  obtain ⟨e2, he2, hfe⟩ := all_some_map_complete _ _ es h u h2
  rw [he] at hfe
  cases hfe
  exact ⟨e, he2, dfs_target_follows g t u e ht hgu hcase⟩

theorem self_loop_found (g : VG) (hc : edges_consistent g) (n : Node) (e : Edge)
    (he : e ∈ g.edge) (hf : e.from_ = n.id) (ht : e.to_ = n.id) :
    is_self_looping g n = some true := by
  obtain ⟨L, hL, hspec⟩ := edges_of_node_spec g hc n
  unfold is_self_looping
  rw [hL]
  simp only [Option.map_some', Option.some.injEq, List.any_eq_true, decide_eq_true_eq]
  refine ⟨e, (hspec e).mpr ?_, hf, ht⟩
  have hfind := hc.by_sides_complete e he
  unfold pair_from_edge at hfind
  rw [hf, ht] at hfind
  cases hfs : e.from_start <;> cases hte : e.to_end <;> rw [hfs, hte] at hfind
  · left
    have hk : pair_from_start_edge n.id (n.id, false) = minmax ⟨n.id, !false⟩ ⟨n.id, false⟩ := by
      unfold pair_from_start_edge
      exact minmax_comm _ _
    refine ⟨(n.id, false), (hc.start_iff _ _).mpr ?_, ?_⟩
    · rw [hk, hfind]; rfl
    · rw [hk, hfind]
  · right
    have hk : pair_from_end_edge n.id (n.id, true) = minmax ⟨n.id, !false⟩ ⟨n.id, true⟩ := rfl
    refine ⟨(n.id, true), (hc.end_iff _ _).mpr ?_, ?_, ?_⟩
    · rw [hk, hfind]; rfl
    · rw [hk, hfind]
    · simp
  · left
    have hk : pair_from_start_edge n.id (n.id, true) = minmax ⟨n.id, !true⟩ ⟨n.id, false⟩ := rfl
    refine ⟨(n.id, true), (hc.start_iff _ _).mpr ?_, ?_⟩
    · rw [hk, hfind]; rfl
    · rw [hk, hfind]
  · left
    have hk : pair_from_start_edge n.id (n.id, false) = minmax ⟨n.id, !true⟩ ⟨n.id, true⟩ := rfl
    refine ⟨(n.id, false), (hc.start_iff _ _).mpr ?_, ?_⟩
    · rw [hk, hfind]; rfl
    · rw [hk, hfind]

theorem not_follows_self (g : VG) (hs : store_consistent g) (t : NodeTraversal)
    (h : is_self_looping g t.node = some false) : ¬ follows g t t := by
  intro hf
  obtain ⟨_, e, _, hmem, hcase⟩ := follows_edge g hs t t hf
  have : is_self_looping g t.node = some true := by
    rcases hcase with ⟨a, _, c, _⟩ | ⟨a, _, c, _⟩
    · exact self_loop_found g hs.edges_ok t.node e hmem a c
    · exact self_loop_found g hs.edges_ok t.node e hmem a c
  rw [this] at h
  exact absurd h (by simp)

theorem search_state_insert {σ : Type} (st : DfsState σ) (user : σ) (k t : NodeTraversal)
    (v : Nat) :
    search_state ({ state := map_insert st.state k v, user := user } : DfsState σ) t
      = if k = t then v else search_state st t := by
  unfold search_state
  simp only [map_find_insert]
  split_ifs <;> rfl

theorem frame_pending_mono {σ : Type} (g : VG) (st st2 : DfsState σ)
    (frame : NodeTraversal × List Edge)
    (hmono : ∀ t, search_state st t ≠ 0 → search_state st2 t ≠ 0)
    (h : frame_pending g st frame) : frame_pending g st2 frame := by
  intro u hu
  rcases h u hu with h1 | h1
  · exact Or.inl (hmono u h1)
  · exact Or.inr h1

theorem trav_eq_of_stored (g : VG) (a b : NodeTraversal)
    (ha : get_node g a.node.id = some a.node) (hb : get_node g b.node.id = some b.node)
    (hid : a.node.id = b.node.id) (hbw : a.backward = b.backward) : a = b := by
  obtain ⟨an, ab⟩ := a
  obtain ⟨bn, bb⟩ := b
  simp only at ha hb hid hbw
  rw [hid, hb] at ha
  cases ha
  rw [hbw]

theorem dfs_target_stored (g : VG) (hs : store_consistent g) (trav target : NodeTraversal)
    (edge : Edge) (ht : get_node g trav.node.id = some trav.node)
    (h : dfs_target g trav edge = some target) :
    get_node g target.node.id = some target.node := by
  unfold dfs_target at h
  simp only at h
  split_ifs at h
  · cases hg : get_node g edge.to_ with
    | none => rw [hg] at h; exact Option.noConfusion h
    | some nd =>
      rw [hg] at h
      simp only [Option.map_some', Option.some.injEq] at h
      rw [← h]
      simp only
      rw [(hs.nodes_ok.by_id_sound _ _ hg).2]
      exact hg
  · cases hg : get_node g edge.from_ with
    | none => rw [hg] at h; exact Option.noConfusion h
    | some nd =>
      rw [hg] at h
      simp only [Option.map_some', Option.some.injEq] at h
      rw [← h]
      simp only
      rw [(hs.nodes_ok.by_id_sound _ _ hg).2]
      exact hg
  · simp only [Option.some.injEq] at h
    rw [← h]
    exact ht

theorem acyclic_begin_true (g : VG) (user user2 : AcyclicState) (trav : NodeTraversal)
    (h : acyclic_begin g user trav = some user2) (hflag : user2.acyclic = true) :
    user.acyclic = true ∧ is_self_looping g trav.node = some false
      ∧ (∀ u, follows g trav u → set_mem NodeTraversal.lt u user.seen = false)
      ∧ user2.seen = set_insert NodeTraversal.lt trav user.seen := by
  unfold acyclic_begin at h
  cases hl : is_self_looping g trav.node with
  | none => rw [hl] at h; exact Option.noConfusion h
  | some looping =>
    cases hn : travs_from g trav with
    | none => rw [hl, hn] at h; exact Option.noConfusion h
    | some nexts =>
      rw [hl, hn] at h
      simp only [Option.some.injEq] at h
      subst h
      simp only at hflag ⊢
      by_cases hany : nexts.any (fun next => set_mem NodeTraversal.lt next user.seen) = true
      · rw [if_pos hany] at hflag
        exact absurd hflag (by simp)
      · rw [if_neg hany] at hflag ⊢
        cases looping with
        | true => exact absurd hflag (by simp)
        | false =>
          simp only [Bool.false_eq_true, if_false] at hflag ⊢
          refine ⟨hflag, trivial, ?_, ?_⟩
          · intro u hu
            obtain ⟨nexts2, e1, e2⟩ := hu
            rw [hn] at e1
            cases e1
            cases hm : set_mem NodeTraversal.lt u user.seen with
            | false => rfl
            | true =>
              exact absurd (List.any_eq_true.mpr ⟨u, e2, hm⟩) hany
          · rw [if_pos hflag]

theorem acyclic_inv_push (g : VG) (st : DfsState AcyclicState)
    (stack : List NodeTraversal) (target : NodeTraversal) (user : AcyclicState)
    (hinv : acyclic_inv g st stack) (hpre : search_state st target = 0)
    (hst : get_node g target.node.id = some target.node)
    (hb : acyclic_begin g st.user target = some user) (hflag : user.acyclic = true) :
    acyclic_inv g { state := map_insert st.state target 1, user := user } (target :: stack) := by
  obtain ⟨_, hloop, hseen, huser⟩ := acyclic_begin_true g st.user user target hb hflag
  have hnot : target ∉ stack := fun h => by
    have := (hinv.curr target).mpr h
    omega
  refine ⟨?_, ?_, ?_, ?_, ?_, ?_, ?_, ?_, ?_⟩
  · intro t
    rw [search_state_insert, List.mem_cons]
    by_cases h : target = t
    · rw [if_pos h]; exact ⟨fun _ => Or.inl h.symm, fun _ => rfl⟩
    · rw [if_neg h, hinv.curr]
      exact ⟨fun h1 => Or.inr h1, fun h1 => h1.resolve_left (fun h2 => h h2.symm)⟩
  · intro t
    rw [search_state_insert]
    split_ifs
    · omega
    · exact hinv.range t
  · exact List.nodup_cons.mpr ⟨hnot, hinv.nodup⟩
  · intro t ht
    simp only
    rw [huser]
    rcases List.mem_cons.mp ht with h | h
    · rw [h]; exact (set_insert_trav_mem target st.user.seen).1
    · obtain ⟨y, hy, hy2⟩ := (set_mem_trav_iff _ _).mp (hinv.seen t h)
      exact (set_mem_trav_iff _ _).mpr
        ⟨y, (set_insert_trav_mem target st.user.seen).2 y hy, hy2⟩
  · intro t
    rw [search_state_insert]
    by_cases h : target = t
    · intro _; rw [← h]; exact hst
    · rw [if_neg h]; exact hinv.stored t
  · intro t
    rw [search_state_insert]
    by_cases h : target = t
    · intro _; rw [← h]; exact hloop
    · rw [if_neg h]; exact hinv.no_loop t
  · intro t u
    rw [search_state_insert, search_state_insert]
    by_cases h : target = t
    · rw [if_pos h]; intro h1; omega
    · rw [if_neg h]
      intro h1 h2
      have h3 := hinv.closed t u h1 h2
      by_cases h4 : target = u
      · rw [← h4] at h3; omega
      · rw [if_neg h4]; exact h3
  · intro t
    rw [search_state_insert]
    by_cases h : target = t
    · rw [if_pos h]; intro h1; omega
    · rw [if_neg h]; exact hinv.post_acyclic t
  · refine List.pairwise_cons.mpr ⟨fun b hb2 hf => ?_, hinv.above⟩
    have h1 := hseen b hf
    rw [hinv.seen b hb2] at h1
    exact absurd h1 (by simp)

theorem closed_reach (g : VG) (st : DfsState AcyclicState)
    (hclosed : ∀ t u, search_state st t = 2 → follows g t u → search_state st u = 2)
    (a b : NodeTraversal) (h : Relation.ReflTransGen (follows g) a b)
    (ha : search_state st a = 2) : search_state st b = 2 := by
  induction h with
  | refl => exact ha
  | tail _ hstep ih => exact hclosed _ _ ih hstep

theorem acyclic_inv_pop (g : VG) (hs : store_consistent g) (st : DfsState AcyclicState)
    (stack : List NodeTraversal) (trav : NodeTraversal) (user : AcyclicState)
    (hinv : acyclic_inv g st (trav :: stack)) (hpend : frame_pending g st (trav, []))
    (he : acyclic_end st.user trav = some user) :
    acyclic_inv g { state := map_insert st.state trav 2, user := user } stack := by
  have hcur : search_state st trav = 1 := (hinv.curr trav).mpr (List.mem_cons_self _ _)
  have hnot : trav ∉ stack := (List.nodup_cons.mp hinv.nodup).1
  have hnext : ∀ u, follows g trav u → search_state st u = 2 := by
    intro u hu
    rcases hpend u hu with h | ⟨e, h, _⟩
    · by_cases h1 : search_state st u = 1
      · rcases List.mem_cons.mp ((hinv.curr u).mp h1) with h2 | h2
        · rw [h2] at hu
          exact absurd hu (not_follows_self g hs trav (hinv.no_loop trav (by omega)))
        · exact absurd hu ((List.pairwise_cons.mp hinv.above).1 u h2)
      · have := hinv.range u
        omega
    · simp at h
  unfold acyclic_end at he
  simp only [Option.some.injEq] at he
  subst he
  refine ⟨?_, ?_, ?_, ?_, ?_, ?_, ?_, ?_, ?_⟩
  · intro t
    rw [search_state_insert]
    by_cases h : trav = t
    · rw [if_pos h]
      exact ⟨fun h1 => by omega, fun h1 => absurd (h ▸ h1) hnot⟩
    · rw [if_neg h, hinv.curr, List.mem_cons]
      exact ⟨fun h1 => h1.resolve_left (fun h2 => h h2.symm), fun h1 => Or.inr h1⟩
  · intro t
    rw [search_state_insert]
    split_ifs
    · omega
    · exact hinv.range t
  · exact (List.nodup_cons.mp hinv.nodup).2
  · intro t ht
    simp only
    obtain ⟨y, hy, hy1, hy2⟩ :=
      (set_mem_trav_iff _ _).mp (hinv.seen t (List.mem_cons_of_mem _ ht))
    refine (set_mem_trav_iff _ _).mpr ⟨y, (set_erase_trav_mem _ _ _).mpr ⟨hy, fun h => ?_⟩, hy1, hy2⟩
    have ht1 : search_state st t = 1 := (hinv.curr t).mpr (List.mem_cons_of_mem _ ht)
    have heq : trav = t :=
      trav_eq_of_stored g trav t (hinv.stored trav (by omega)) (hinv.stored t (by omega))
        (by rw [h.1, hy1]) (by rw [h.2, hy2])
    exact hnot (heq ▸ ht)
  · intro t
    rw [search_state_insert]
    by_cases h : trav = t
    · intro _; rw [← h]; exact hinv.stored trav (by omega)
    · rw [if_neg h]; exact hinv.stored t
  · intro t
    rw [search_state_insert]
    by_cases h : trav = t
    · intro _; rw [← h]; exact hinv.no_loop trav (by omega)
    · rw [if_neg h]; exact hinv.no_loop t
  · intro t u
    rw [search_state_insert, search_state_insert]
    intro h1 h2
    have h3 : search_state st u = 2 := by
      by_cases h : trav = t
      · rw [← h] at h2; exact hnext u h2
      · rw [if_neg h] at h1; exact hinv.closed t u h1 h2
    split_ifs
    · rfl
    · exact h3
  · intro t
    rw [search_state_insert]
    by_cases h : trav = t
    · intro _ hcyc
      rw [← h] at hcyc
      obtain ⟨u, hu1, hu2⟩ := Relation.TransGen.head'_iff.mp hcyc
      have := closed_reach g st hinv.closed u trav hu2 (hnext u hu1)
      omega
    · rw [if_neg h]; exact hinv.post_acyclic t
  · exact (List.pairwise_cons.mp hinv.above).2

theorem dfs_break_walk_flag (g : VG) :
    ∀ (fuel : Nat) (trav : NodeTraversal) (rest : List Edge)
      (todo : List (NodeTraversal × List Edge)) (st st2 : DfsState AcyclicState),
      dfs_break_walk g (acyclic_begin g) acyclic_end fuel trav rest todo st = some st2 →
      st2.user.acyclic = true → st.user.acyclic = true := by
  intro fuel
  induction fuel with
  | zero => intro trav rest todo st st2 h; simp [dfs_break_walk] at h
  | succ fuel ih =>
    intro trav rest todo st st2 h hflag
    cases rest with
    | nil =>
      rw [dfs_break_walk] at h
      simp only [acyclic_end] at h
      cases todo with
      | nil =>
        simp only [Option.some.injEq] at h
        rw [← h] at hflag
        exact hflag
      | cons frame todo1 =>
        simp only at h
        have h2 := ih _ _ _ _ _ h hflag
        exact h2
    | cons edge rest =>
      rw [dfs_break_walk] at h
      cases ht : dfs_target g trav edge with
      | none => rw [ht] at h; exact Option.noConfusion h
      | some target =>
        rw [ht] at h
        simp only at h
        split_ifs at h with hpre
        · cases hf : frame_edges g target with
          | none => rw [hf] at h; exact Option.noConfusion h
          | some es =>
            cases hb : acyclic_begin g st.user target with
            | none => rw [hf, hb] at h; exact Option.noConfusion h
            | some user =>
              rw [hf, hb] at h
              simp only at h
              exact (acyclic_begin_true g st.user user target hb (ih _ _ _ _ _ h hflag)).1
        · exact ih _ _ _ _ _ h hflag

theorem dfs_break_walk_inv (g : VG) (hs : store_consistent g) :
    ∀ (fuel : Nat) (trav : NodeTraversal) (rest : List Edge)
      (todo : List (NodeTraversal × List Edge)) (st st2 : DfsState AcyclicState),
      dfs_break_walk g (acyclic_begin g) acyclic_end fuel trav rest todo st = some st2 →
      st2.user.acyclic = true →
      acyclic_inv g st (trav :: todo.map Prod.fst) →
      frame_pending g st (trav, rest) → (∀ f ∈ todo, frame_pending g st f) →
      acyclic_inv g st2 [] ∧ ∀ t, search_state st t ≠ 0 → search_state st2 t ≠ 0 := by
  intro fuel
  induction fuel with
  | zero => intro trav rest todo st st2 h; simp [dfs_break_walk] at h
  | succ fuel ih =>
    intro trav rest todo st st2 h hflag hinv hpend htodo
    cases rest with
    | nil =>
      rw [dfs_break_walk] at h
      cases he : acyclic_end st.user trav with
      | none => rw [he] at h; exact Option.noConfusion h
      | some user =>
        rw [he] at h
        simp only at h
        have hinv1 := acyclic_inv_pop g hs st (todo.map Prod.fst) trav user hinv hpend he
        have hmono : ∀ t, search_state st t ≠ 0 →
            search_state ({ state := map_insert st.state trav 2, user := user } :
              DfsState AcyclicState) t ≠ 0 := by
          intro t ht
          rw [search_state_insert]
          split_ifs
          · omega
          · exact ht
        cases todo with
        | nil =>
          simp only [Option.some.injEq] at h
          subst h
          exact ⟨hinv1, hmono⟩
        | cons frame todo1 =>
          simp only at h
          obtain ⟨r1, r2⟩ := ih _ _ _ _ _ h hflag hinv1
            (frame_pending_mono g _ _ _ hmono (htodo frame (List.mem_cons_self _ _)))
            (fun f hf => frame_pending_mono g _ _ _ hmono
              (htodo f (List.mem_cons_of_mem _ hf)))
          exact ⟨r1, fun t ht => r2 t (hmono t ht)⟩
    | cons edge rest =>
      rw [dfs_break_walk] at h
      have hstored : get_node g trav.node.id = some trav.node :=
        hinv.stored trav (by
          have := (hinv.curr trav).mpr (List.mem_cons_self _ _)
          omega)
      cases ht : dfs_target g trav edge with
      | none => rw [ht] at h; exact Option.noConfusion h
      | some target =>
        rw [ht] at h
        simp only at h
        split_ifs at h with hpre
        · cases hf : frame_edges g target with
          | none => rw [hf] at h; exact Option.noConfusion h
          | some es =>
            cases hb : acyclic_begin g st.user target with
            | none => rw [hf, hb] at h; exact Option.noConfusion h
            | some user =>
              rw [hf, hb] at h
              simp only at h
              have hflag1 := dfs_break_walk_flag g _ _ _ _ _ _ h hflag
              have htst := dfs_target_stored g hs trav target edge hstored ht
              have hinv1 := acyclic_inv_push g st (trav :: todo.map Prod.fst) target user hinv
                hpre htst hb hflag1
              have hmono : ∀ t, search_state st t ≠ 0 →
                  search_state ({ state := map_insert st.state target 1, user := user } :
                    DfsState AcyclicState) t ≠ 0 := by
                intro t ht2
                rw [search_state_insert]
                split_ifs
                · omega
                · exact ht2
              obtain ⟨r1, r2⟩ := ih _ _ _ _ _ h hflag hinv1
                (fun u hu => Or.inr (frame_edges_targets g hs target es htst hf u hu))
                (fun f hf2 => by
                  rcases List.mem_cons.mp hf2 with h1 | h1
                  · rw [h1]
                    intro u hu
                    rcases hpend u hu with h2 | ⟨e, h2, h3⟩
                    · exact Or.inl (hmono u h2)
                    · rcases List.mem_cons.mp h2 with h4 | h4
                      · left
                        rw [h4, ht] at h3
                        cases h3
                        rw [search_state_insert, if_pos rfl]
                        omega
                      · exact Or.inr ⟨e, h4, h3⟩
                  · exact frame_pending_mono g _ _ _ hmono (htodo f h1))
              exact ⟨r1, fun t ht2 => r2 t (hmono t ht2)⟩
        · refine ih _ _ _ _ _ h hflag hinv (fun u hu => ?_) htodo
          rcases hpend u hu with h2 | ⟨e, h2, h3⟩
          · exact Or.inl h2
          · rcases List.mem_cons.mp h2 with h4 | h4
            · left
              rw [h4, ht] at h3
              cases h3
              exact hpre
            · exact Or.inr ⟨e, h4, h3⟩

theorem dfs_break_root_inv (g : VG) (hs : store_consistent g) (fuel : Nat)
    (st : DfsState AcyclicState) (root : NodeTraversal) (r : DfsState AcyclicState × Bool)
    (h : dfs_break_root g (acyclic_begin g) acyclic_end (fun st => !st.acyclic) fuel st root
      = some r)
    (hflag : r.1.user.acyclic = true)
    (hroot : get_node g root.node.id = some root.node) :
    st.user.acyclic = true ∧ r.2 = false ∧
      (acyclic_inv g st [] →
        acyclic_inv g r.1 [] ∧ (∀ t, search_state st t ≠ 0 → search_state r.1 t ≠ 0)
          ∧ search_state r.1 root ≠ 0) := by
  unfold dfs_break_root at h
  split_ifs at h with hpre
  · cases hf : frame_edges g root with
    | none => rw [hf] at h; exact Option.noConfusion h
    | some es =>
      cases hb : acyclic_begin g st.user root with
      | none => rw [hf, hb] at h; exact Option.noConfusion h
      | some user =>
        rw [hf, hb] at h
        simp only at h
        split_ifs at h with hbrk
        · simp only [Option.some.injEq] at h
          rw [← h] at hflag
          simp only at hflag
          rw [hflag] at hbrk
          exact absurd hbrk (by simp)
        · cases hw : dfs_break_walk g (acyclic_begin g) acyclic_end fuel root es []
              { state := map_insert st.state root 1, user := user } with
          | none => rw [hw] at h; exact Option.noConfusion h
          | some st2 =>
            rw [hw] at h
            simp only [Option.map_some', Option.some.injEq] at h
            rw [← h] at hflag ⊢
            simp only at hflag ⊢
            have hflag1 := dfs_break_walk_flag g _ _ _ _ _ _ hw hflag
            refine ⟨(acyclic_begin_true g st.user user root hb hflag1).1, trivial, fun hinv => ?_⟩
            have hinv1 := acyclic_inv_push g st [] root user hinv hpre hroot hb hflag1
            obtain ⟨r1, r2⟩ := dfs_break_walk_inv g hs _ _ _ _ _ _ hw hflag hinv1
              (fun u hu => Or.inr (frame_edges_targets g hs root es hroot hf u hu))
              (fun f hf2 => by simp at hf2)
            have hmono : ∀ t, search_state st t ≠ 0 →
                search_state ({ state := map_insert st.state root 1, user := user } :
                  DfsState AcyclicState) t ≠ 0 := by
              intro t ht2
              rw [search_state_insert]
              split_ifs
              · omega
              · exact ht2
            refine ⟨r1, fun t ht => r2 t (hmono t ht), r2 root ?_⟩
            rw [search_state_insert, if_pos rfl]
            omega
  · simp only [Option.some.injEq] at h
    rw [← h] at hflag ⊢
    exact ⟨hflag, rfl, fun hinv => ⟨hinv, fun t ht => ht, hpre⟩⟩

theorem dfs_break_node_inv (g : VG) (hs : store_consistent g) (fuel : Nat)
    (st st2 : DfsState AcyclicState) (n : Node)
    (h : dfs_break_node g (acyclic_begin g) acyclic_end (fun st => !st.acyclic) fuel (some st) n
      = some st2)
    (hflag : st2.user.acyclic = true) (hn : n ∈ g.node) :
    st.user.acyclic = true ∧
      (acyclic_inv g st [] →
        acyclic_inv g st2 [] ∧ (∀ t, search_state st t ≠ 0 → search_state st2 t ≠ 0)
          ∧ search_state st2 ⟨n, false⟩ ≠ 0 ∧ search_state st2 ⟨n, true⟩ ≠ 0) := by
  have hget : get_node g n.id = some n := hs.nodes_ok.by_id_complete n hn
  unfold dfs_break_node at h
  simp only at h
  cases h1 : dfs_break_root g (acyclic_begin g) acyclic_end (fun st => !st.acyclic) fuel st
      ⟨n, false⟩ with
  | none => rw [h1] at h; exact Option.noConfusion h
  | some r =>
    rw [h1] at h
    simp only at h
    split_ifs at h with hbrk
    · simp only [Option.some.injEq] at h
      rw [← h] at hflag
      have := (dfs_break_root_inv g hs fuel st ⟨n, false⟩ r h1 hflag hget).2.1
      rw [this] at hbrk
      exact absurd hbrk (by simp)
    · cases h2 : dfs_break_root g (acyclic_begin g) acyclic_end (fun st => !st.acyclic) fuel r.1
          ⟨n, true⟩ with
      | none => rw [h2] at h; exact Option.noConfusion h
      | some r2 =>
        rw [h2] at h
        simp only [Option.map_some', Option.some.injEq] at h
        rw [← h] at hflag ⊢
        obtain ⟨f2, _, i2⟩ := dfs_break_root_inv g hs fuel r.1 ⟨n, true⟩ r2 h2 hflag hget
        obtain ⟨f1, _, i1⟩ := dfs_break_root_inv g hs fuel st ⟨n, false⟩ r h1 f2 hget
        refine ⟨f1, fun hinv => ?_⟩
        obtain ⟨a1, a2, a3⟩ := i1 hinv
        obtain ⟨b1, b2, b3⟩ := i2 a1
        exact ⟨b1, fun t ht => b2 t (a2 t ht), b2 _ a3, b3⟩

theorem dfs_break_node_none {σ : Type} (g : VG) (node_begin_fn : σ → NodeTraversal → Option σ)
    (node_end_fn : σ → NodeTraversal → Option σ) (break_fn : σ → Bool) (fuel : Nat)
    (l : List Node) :
    l.foldl (dfs_break_node g node_begin_fn node_end_fn break_fn fuel) none = none := by
  induction l with
  | nil => rfl
  | cons n rest ih => exact ih

theorem dfs_break_fold_inv (g : VG) (hs : store_consistent g) (fuel : Nat) :
    ∀ (l : List Node) (st st2 : DfsState AcyclicState),
      l.foldl (dfs_break_node g (acyclic_begin g) acyclic_end (fun st => !st.acyclic) fuel)
        (some st) = some st2 →
      st2.user.acyclic = true → (∀ n ∈ l, n ∈ g.node) →
      st.user.acyclic = true ∧
        (acyclic_inv g st [] →
          acyclic_inv g st2 [] ∧ (∀ t, search_state st t ≠ 0 → search_state st2 t ≠ 0)
            ∧ ∀ n ∈ l, search_state st2 ⟨n, false⟩ ≠ 0 ∧ search_state st2 ⟨n, true⟩ ≠ 0) := by
  intro l
  induction l with
  | nil =>
    intro st st2 h hflag _
    simp only [List.foldl_nil, Option.some.injEq] at h
    subst h
    exact ⟨hflag, fun hinv => ⟨hinv, fun t ht => ht, fun n hn => by simp at hn⟩⟩
  | cons n rest ih =>
    intro st st2 h hflag hl
    simp only [List.foldl_cons] at h
    cases h1 : dfs_break_node g (acyclic_begin g) acyclic_end (fun st => !st.acyclic) fuel
        (some st) n with
    | none =>
      rw [h1, dfs_break_node_none] at h
      exact Option.noConfusion h
    | some st1 =>
      rw [h1] at h
      obtain ⟨f2, i2⟩ := ih st1 st2 h hflag (fun m hm => hl m (List.mem_cons_of_mem _ hm))
      obtain ⟨f1, i1⟩ := dfs_break_node_inv g hs fuel st st1 n h1 f2
        (hl n (List.mem_cons_self _ _))
      refine ⟨f1, fun hinv => ?_⟩
      obtain ⟨a1, a2, a3, a4⟩ := i1 hinv
      obtain ⟨b1, b2, b3⟩ := i2 a1
      refine ⟨b1, fun t ht => b2 t (a2 t ht), fun m hm => ?_⟩
      rcases List.mem_cons.mp hm with h3 | h3
      · rw [h3]; exact ⟨b2 _ a3, b2 _ a4⟩
      · exact b3 m h3

theorem acyclic_inv_init (g : VG) :
    acyclic_inv g ({ state := [], user := ⟨[], true⟩ } : DfsState AcyclicState) [] := by
  have h0 : ∀ t, search_state ({ state := [], user := ⟨[], true⟩ } : DfsState AcyclicState) t
      = 0 := fun t => rfl
  refine ⟨?_, ?_, List.nodup_nil, ?_, ?_, ?_, ?_, ?_, List.Pairwise.nil⟩
  · intro t; rw [h0]; simp
  · intro t; rw [h0]; omega
  · intro t ht; simp at ht
  · intro t ht; exact absurd (h0 t) ht
  · intro t ht; exact absurd (h0 t) ht
  · intro t u ht; rw [h0] at ht; omega
  · intro t ht; rw [h0] at ht; omega

theorem chain_trans_gen {α : Type} (r : α → α → Prop) :
    ∀ (ts : List α) (t0 : α), ts ≠ [] → List.Chain r t0 ts →
      Relation.TransGen r t0 ((t0 :: ts).getLast (List.cons_ne_nil _ _)) := by
  intro ts
  induction ts with
  | nil => intro t0 hne; exact absurd rfl hne
  | cons b rest ih =>
    intro t0 _ hc
    obtain ⟨h1, h2⟩ := List.chain_cons.mp hc
    cases rest with
    | nil => exact Relation.TransGen.single h1
    | cons c rest2 =>
      have := ih b (List.cons_ne_nil _ _) h2
      rw [List.getLast_cons (List.cons_ne_nil _ _)]
      exact Relation.TransGen.head h1 this

/-- C39. On a graph whose stores and indexes agree, with any number of steps
allowed to the searches: if `is_acyclic` returns true, then no stored edge
joins a node to itself, and no walk of one step or more along `travs_from`
leads from a node traversal back to it. -/
theorem is_acyclic_sound (g : VG) (fuel : Nat) (hs : store_consistent g)
    (h : is_acyclic g fuel = some true) :
    (∀ e ∈ g.edge, e.from_ ≠ e.to_)
      ∧ ∀ (t0 : NodeTraversal) (ts : List NodeTraversal), ts ≠ [] →
          List.Chain (follows g) t0 ts →
          (t0 :: ts).getLast (List.cons_ne_nil _ _) ≠ t0 := by
  unfold is_acyclic dfs_break at h
  cases hfold : g.node.foldl
      (dfs_break_node g (acyclic_begin g) acyclic_end (fun st => !st.acyclic) fuel)
      (some { state := [], user := ⟨[], true⟩ }) with
  | none => rw [hfold] at h; exact Option.noConfusion h
  | some st2 =>
    rw [hfold] at h
    simp only [Option.map_some', Option.some.injEq] at h
    obtain ⟨_, hi⟩ := dfs_break_fold_inv g hs fuel g.node _ st2 hfold h (fun n hn => hn)
    obtain ⟨hinv, _, hall⟩ := hi (acyclic_inv_init g)
    have hmet : ∀ t : NodeTraversal, get_node g t.node.id = some t.node →
        search_state st2 t ≠ 0 := by
      intro t ht
      have hn := (hs.nodes_ok.by_id_sound _ _ ht).1
      obtain ⟨tn, tb⟩ := t
      cases tb
      · exact (hall tn hn).1
      · exact (hall tn hn).2
    constructor
    · intro e he heq
      obtain ⟨nd, hnd⟩ := (has_node_iff g e.from_).mp (hs.endpoints e he).1
      have hid := (hs.nodes_ok.by_id_sound _ _ hnd).2
      have h1 := hinv.no_loop ⟨nd, false⟩ (hmet ⟨nd, false⟩ (by rw [hid]; exact hnd))
      have h2 := self_loop_found g hs.edges_ok nd e he hid.symm (by rw [← heq, hid])
      simp only at h1
      rw [h2] at h1
      exact absurd h1 (by simp)
    · intro t0 ts hne hc hlast
      have hcyc := chain_trans_gen (follows g) ts t0 hne hc
      rw [hlast] at hcyc
      obtain ⟨b, _, hb⟩ := Relation.TransGen.tail'_iff.mp hcyc
      have hst := (follows_edge g hs b t0 hb).1
      have h0 := hmet t0 hst
      have h1 : search_state st2 t0 ≠ 1 := fun h2 => by
        have := (hinv.curr t0).mp h2
        simp at this
      have h2 := hinv.range t0
      exact hinv.post_acyclic t0 (by omega) hcyc

/-- Witness for C39: on the graph with parent 1 and the siblings 2 and 3
`is_acyclic` returns true. -/
theorem is_acyclic_sound_witness :
    is_acyclic sibling_graph 20 = some true
      ∧ (∀ e ∈ sibling_graph.edge, e.from_ ≠ e.to_)
      ∧ ∀ (t0 : NodeTraversal) (ts : List NodeTraversal), ts ≠ [] →
          List.Chain (follows sibling_graph) t0 ts →
          (t0 :: ts).getLast (List.cons_ne_nil _ _) ≠ t0 :=
  ⟨by decide, is_acyclic_sound sibling_graph 20 sibling_graph_store.1 (by decide)⟩

/-! ## Editing paths into the graph -/

theorem make_parts_paths (g : VG) (node : Node) (positions : List Int) (parts : List Node) :
    (make_parts g node positions parts).1.paths = g.paths := by
  unfold make_parts
  simp only [create_node_paths, create_parts_paths]

theorem divide_node_no_paths (cut_mapping cut_mapping2 : Mapping → Int → Mapping × Mapping)
    (g : VG) (node : Node) (positions : List Int) (parts : List Node) (hp : g.paths = []) :
    divide_node cut_mapping g node positions parts
        = divide_node cut_mapping2 g node positions parts
      ∧ (divide_node cut_mapping g node positions parts).2.1.paths = [] := by
  have hw : (wire_parts (make_parts g node positions parts).1 node
      (make_parts g node positions parts).2).paths = [] := by
    rw [(wire_parts_frame _ node _).2.2, make_parts_paths]
    exact hp
  obtain ⟨g3, hg3⟩ : ∃ g3, g3 = wire_parts (make_parts g node positions parts).1 node
      (make_parts g node positions parts).2 := ⟨_, rfl⟩
  rw [← hg3] at hw
  unfold divide_node
  by_cases hr : positions.any
      (fun pos => decide (pos < 0) || decide (pos > (node.sequence.length : Int))) = true
  · rw [if_pos hr, if_pos hr]
    exact ⟨rfl, hp⟩
  · rw [if_neg hr, if_neg hr]
    simp only [← hg3, hw, divide_paths, if_true]
    exact ⟨trivial, by rw [destroy_node_paths]⟩

theorem ensure_breakpoint_no_paths (cut_mapping cut_mapping2 : Mapping → Int → Mapping × Mapping)
    (original_node_length : Int) (s : BreakState) (breakpoint : pos_t) (hp : s.g.paths = []) :
    ensure_breakpoint cut_mapping original_node_length s breakpoint
        = ensure_breakpoint cut_mapping2 original_node_length s breakpoint
      ∧ ∀ s2, ensure_breakpoint cut_mapping original_node_length s breakpoint = some s2 →
          s2.g.paths = [] := by
  obtain ⟨h1, h2⟩ := divide_node_no_paths cut_mapping cut_mapping2 s.g s.right_part
    [to_int (breakpoint.offset - s.current_offset)] [] hp
  unfold ensure_breakpoint divide_node_at
  simp only
  rw [← h1]
  refine ⟨rfl, fun s2 hs2 => ?_⟩
  split_ifs at hs2
  · simp only [Option.some.injEq] at hs2
    rw [← hs2]; exact hp
  · simp only [Option.some.injEq] at hs2
    rw [← hs2]; exact h2

theorem ensure_breakpoint_loop_no_paths
    (cut_mapping cut_mapping2 : Mapping → Int → Mapping × Mapping)
    (original_node_length : Int) (breakpoints : List pos_t) :
    ∀ (s : BreakState), s.g.paths = [] →
      ensure_breakpoint_loop cut_mapping original_node_length s breakpoints
          = ensure_breakpoint_loop cut_mapping2 original_node_length s breakpoints
        ∧ ∀ s2, ensure_breakpoint_loop cut_mapping original_node_length s breakpoints = some s2 →
            s2.g.paths = [] := by
  induction breakpoints with
  | nil =>
    intro s hp
    refine ⟨rfl, fun s2 hs2 => ?_⟩
    simp only [ensure_breakpoint_loop, Option.some.injEq] at hs2
    rw [← hs2]; exact hp
  | cons b rest ih =>
    intro s hp
    obtain ⟨h1, h2⟩ := ensure_breakpoint_no_paths cut_mapping cut_mapping2 original_node_length
      s b hp
    simp only [ensure_breakpoint_loop]
    rw [← h1]
    cases hb : ensure_breakpoint cut_mapping original_node_length s b with
    | none => exact ⟨rfl, fun s2 hs2 => Option.noConfusion hs2⟩
    | some s1 => exact ih s1 (h2 s1 hb)

theorem ensure_breakpoints_loop_no_paths
    (cut_mapping cut_mapping2 : Mapping → Int → Mapping × Mapping)
    (breakpoints : List (Int × List pos_t)) :
    ∀ (g : VG) (toReturn : List (pos_t × Option Node)), g.paths = [] →
      ensure_breakpoints_loop cut_mapping g toReturn breakpoints
        = ensure_breakpoints_loop cut_mapping2 g toReturn breakpoints := by
  induction breakpoints with
  | nil => intro g toReturn _; rfl
  | cons kv rest ih =>
    intro g toReturn hp
    simp only [ensure_breakpoints_loop, ensure_node_breakpoints]
    cases hg : get_node g kv.1 with
    | none => rfl
    | some node =>
      simp only
      obtain ⟨h1, h2⟩ := ensure_breakpoint_loop_no_paths cut_mapping cut_mapping2
        node.sequence.length kv.2
        { g := g, toReturn := toReturn, right_part := node, left_part := none,
          last_bp := ⟨kv.1, false, 0⟩, current_offset := 0 } hp
      rw [← h1]
      cases hl : ensure_breakpoint_loop cut_mapping node.sequence.length
          { g := g, toReturn := toReturn, right_part := node, left_part := none,
            last_bp := ⟨kv.1, false, 0⟩, current_offset := 0 } kv.2 with
      | none => rfl
      | some s => exact ih _ _ (h2 s hl)

theorem ensure_breakpoints_no_paths (cut_mapping cut_mapping2 : Mapping → Int → Mapping × Mapping)
    (g : VG) (breakpoints : List (Int × List pos_t)) (hp : g.paths = []) :
    ensure_breakpoints cut_mapping g breakpoints
      = ensure_breakpoints cut_mapping2 g breakpoints :=
  ensure_breakpoints_loop_no_paths cut_mapping cut_mapping2 breakpoints g [] hp

theorem add_novel_edit_forward (reverse_complement reverse_complement2 : List Char → List Char)
    (reverse_complement_path reverse_complement_path2 : Path → (Int → Option Int) → Option Path)
    (path : Path) (orig_node_sizes : List (Int × Int)) (m : Mapping) (e : Edit)
    (edit_first_position : pos_t) (next_position : Option Position) (st : EditState)
    (h1 : edit_first_position.is_rev = false) (h2 : m.position.is_reverse = false) :
    add_novel_edit reverse_complement reverse_complement_path path orig_node_sizes m e
        edit_first_position next_position st
      = add_novel_edit reverse_complement2 reverse_complement_path2 path orig_node_sizes m e
        edit_first_position next_position st := by
  unfold add_novel_edit
  simp only [h1, h2, Bool.false_eq_true, if_false]

theorem add_edits_forward (reverse_complement reverse_complement2 : List Char → List Char)
    (reverse_complement_path reverse_complement_path2 : Path → (Int → Option Int) → Option Path)
    (node_translation : List (pos_t × Option Node)) (path : Path)
    (orig_node_sizes : List (Int × Int)) (m : Mapping) (next_mapping : Option Mapping)
    (h2 : m.position.is_reverse = false) (edits : List Edit) :
    ∀ (edit_first_position : pos_t) (st : EditState), edit_first_position.is_rev = false →
      add_edits reverse_complement reverse_complement_path node_translation path
          orig_node_sizes m next_mapping edit_first_position edits st
        = add_edits reverse_complement2 reverse_complement_path2 node_translation path
          orig_node_sizes m next_mapping edit_first_position edits st := by
  induction edits with
  | nil => intro p st _; rfl
  | cons e rest ih =>
    intro p st h1
    simp only [add_edits]
    rw [add_novel_edit_forward reverse_complement reverse_complement2 reverse_complement_path
      reverse_complement_path2 path orig_node_sizes m e p _ st h1 h2]
    cases hst : (if (edit_is_insertion e || edit_is_sub e) = true then
        add_novel_edit reverse_complement2 reverse_complement_path2 path orig_node_sizes m e p
          (if (!rest.isEmpty) = true then
            some (make_position { p with offset := p.offset + e.from_length })
           else next_mapping.map (fun nm => nm.position))
          st
      else if edit_is_match e = true then
        add_match_edit node_translation path m p
          { p with offset := p.offset + (if e.from_length ≠ 0 then e.from_length - 1 else 0) } st
      else some st) with
    | none => rfl
    | some st2 => exact ih _ st2 h1

theorem add_mappings_forward (reverse_complement reverse_complement2 : List Char → List Char)
    (reverse_complement_path reverse_complement_path2 : Path → (Int → Option Int) → Option Path)
    (node_translation : List (pos_t × Option Node)) (path : Path)
    (orig_node_sizes : List (Int × Int)) (ms : List Mapping) :
    (∀ m ∈ ms, m.position.is_reverse = false) → ∀ (st : EditState),
      add_mappings reverse_complement reverse_complement_path node_translation path
          orig_node_sizes ms st
        = add_mappings reverse_complement2 reverse_complement_path2 node_translation path
          orig_node_sizes ms st := by
  induction ms with
  | nil => intro _ st; rfl
  | cons m rest ih =>
    intro h st
    have hm := h m (List.mem_cons_self _ _)
    simp only [add_mappings]
    rw [add_edits_forward reverse_complement reverse_complement2 reverse_complement_path
      reverse_complement_path2 node_translation path orig_node_sizes m rest.head? hm m.edit
      (make_pos_t m.position) st hm]
    cases add_edits reverse_complement2 reverse_complement_path2 node_translation path
        orig_node_sizes m rest.head? (make_pos_t m.position) m.edit st with
    | none => rfl
    | some st1 => exact ih (fun m2 hm2 => h m2 (List.mem_cons_of_mem _ hm2)) st1

theorem add_nodes_and_edges_forward
    (reverse_complement reverse_complement2 : List Char → List Char)
    (reverse_complement_path reverse_complement_path2 : Path → (Int → Option Int) → Option Path)
    (g : VG) (path : Path) (node_translation : List (pos_t × Option Node))
    (added_seqs : List ((pos_t × List Char) × Node)) (added_nodes : List (Node × Path))
    (orig_node_sizes : List (Int × Int))
    (h : ∀ m ∈ path.mapping, m.position.is_reverse = false) :
    add_nodes_and_edges reverse_complement reverse_complement_path g path node_translation
        added_seqs added_nodes orig_node_sizes
      = add_nodes_and_edges reverse_complement2 reverse_complement_path2 g path node_translation
        added_seqs added_nodes orig_node_sizes := by
  unfold add_nodes_and_edges
  rw [add_mappings_forward reverse_complement reverse_complement2 reverse_complement_path
    reverse_complement_path2 node_translation path orig_node_sizes path.mapping h]

theorem add_path_none (reverse_complement : List Char → List Char)
    (reverse_complement_path : Path → (Int → Option Int) → Option Path)
    (node_translation : List (pos_t × Option Node)) (orig_node_sizes : List (Int × Int))
    (path : Path) :
    add_path reverse_complement reverse_complement_path node_translation orig_node_sizes none
      path = none := by
  unfold add_path
  rfl

theorem add_path_some (reverse_complement : List Char → List Char)
    (reverse_complement_path : Path → (Int → Option Int) → Option Path)
    (node_translation : List (pos_t × Option Node)) (orig_node_sizes : List (Int × Int))
    (s : VG × List ((pos_t × List Char) × Node) × List (Node × Path)) (path : Path) :
    add_path reverse_complement reverse_complement_path node_translation orig_node_sizes
        (some s) path
      = add_nodes_and_edges reverse_complement reverse_complement_path s.1 path node_translation
        s.2.1 s.2.2 orig_node_sizes := by
  unfold add_path
  rfl

theorem add_paths_forward (reverse_complement reverse_complement2 : List Char → List Char)
    (reverse_complement_path reverse_complement_path2 : Path → (Int → Option Int) → Option Path)
    (node_translation : List (pos_t × Option Node)) (orig_node_sizes : List (Int × Int))
    (paths : List Path) :
    (∀ path ∈ paths, ∀ m ∈ path.mapping, m.position.is_reverse = false) →
    ∀ (acc : Option (VG × List ((pos_t × List Char) × Node) × List (Node × Path))),
      paths.foldl
          (add_path reverse_complement reverse_complement_path node_translation orig_node_sizes)
          acc
        = paths.foldl
          (add_path reverse_complement2 reverse_complement_path2 node_translation
            orig_node_sizes) acc := by
  induction paths with
  | nil => intro _ acc; rw [List.foldl_nil, List.foldl_nil]
  | cons path rest ih =>
    intro h acc
    have hstep : add_path reverse_complement reverse_complement_path node_translation
        orig_node_sizes acc path
        = add_path reverse_complement2 reverse_complement_path2 node_translation
          orig_node_sizes acc path := by
      cases acc with
      | none => rw [add_path_none, add_path_none]
      | some s =>
        rw [add_path_some, add_path_some]
        exact add_nodes_and_edges_forward reverse_complement reverse_complement2
          reverse_complement_path reverse_complement_path2 s.1 path node_translation s.2.1 s.2.2
          orig_node_sizes (h path (List.mem_cons_self _ _))
    rw [List.foldl_cons, List.foldl_cons, hstep]
    exact ih (fun p hp => h p (List.mem_cons_of_mem _ hp)) _

theorem ensure_breakpoints_paths (cut_mapping : Mapping → Int → Mapping × Mapping)
    (breakpoints : List (Int × List pos_t)) :
    ∀ (g : VG) (toReturn : List (pos_t × Option Node)), g.paths = [] →
      ∀ r, ensure_breakpoints_loop cut_mapping g toReturn breakpoints = some r →
        r.1.paths = [] := by
  induction breakpoints with
  | nil =>
    intro g toReturn hp r hr
    simp only [ensure_breakpoints_loop, Option.some.injEq] at hr
    rw [← hr]; exact hp
  | cons kv rest ih =>
    intro g toReturn hp r hr
    simp only [ensure_breakpoints_loop, ensure_node_breakpoints] at hr
    cases hg : get_node g kv.1 with
    | none => rw [hg] at hr; exact Option.noConfusion hr
    | some node =>
      rw [hg] at hr
      simp only at hr
      obtain ⟨_, h2⟩ := ensure_breakpoint_loop_no_paths cut_mapping cut_mapping
        node.sequence.length kv.2
        { g := g, toReturn := toReturn, right_part := node, left_part := none,
          last_bp := ⟨kv.1, false, 0⟩, current_offset := 0 } hp
      cases hl : ensure_breakpoint_loop cut_mapping node.sequence.length
          { g := g, toReturn := toReturn, right_part := node, left_part := none,
            last_bp := ⟨kv.1, false, 0⟩, current_offset := 0 } kv.2 with
      | none => rw [hl] at hr; exact Option.noConfusion hr
      | some s =>
        rw [hl] at hr
        exact ih _ _ (h2 s hl) r hr

theorem create_edge_sides_paths (g : VG) (s1 s2 : NodeSide) :
    (create_edge_sides g s1 s2).1.paths = g.paths := by
  unfold create_edge_sides
  exact create_edge_paths _ _ _ _ _

theorem add_novel_edit_paths (reverse_complement : List Char → List Char)
    (reverse_complement_path : Path → (Int → Option Int) → Option Path)
    (path : Path) (orig_node_sizes : List (Int × Int)) (m : Mapping) (e : Edit)
    (edit_first_position : pos_t) (next_position : Option Position) (st st2 : EditState)
    (hname : path.name.isEmpty = true)
    (h : add_novel_edit reverse_complement reverse_complement_path path orig_node_sizes m e
      edit_first_position next_position st = some st2) :
    st2.g.paths = st.g.paths := by
  unfold add_novel_edit at h
  simp only [hname, Bool.not_true, Bool.false_eq_true, if_false] at h
  split at h
  · exact Option.noConfusion h
  · split at h
    · exact Option.noConfusion h
    · simp only [Option.some.injEq] at h
      rw [← h]
      simp only
      split_ifs <;> (try split) <;>
        simp only [create_edge_sides_paths, create_node_paths]

theorem add_match_edit_paths (node_translation : List (pos_t × Option Node)) (path : Path)
    (m : Mapping) (edit_first_position edit_last_position : pos_t) (st st2 : EditState)
    (hname : path.name.isEmpty = true)
    (h : add_match_edit node_translation path m edit_first_position edit_last_position st
      = some st2) :
    st2.g.paths = st.g.paths := by
  unfold add_match_edit at h
  simp only [hname, Bool.not_true, Bool.false_eq_true, if_false] at h
  split at h
  · split_ifs at h
    · rename_i left_node right_node _ _ _
      cases left_node with
      | none => simp at h
      | some l =>
        simp only [Option.map_some', Option.some.injEq] at h
        rw [← h]
        simp only [create_edge_sides_paths]
    · simp only [Option.some.injEq] at h
      rw [← h]
  · exact Option.noConfusion h

theorem add_edits_paths (reverse_complement : List Char → List Char)
    (reverse_complement_path : Path → (Int → Option Int) → Option Path)
    (node_translation : List (pos_t × Option Node)) (path : Path)
    (orig_node_sizes : List (Int × Int)) (m : Mapping) (next_mapping : Option Mapping)
    (hname : path.name.isEmpty = true) (edits : List Edit) :
    ∀ (edit_first_position : pos_t) (st st2 : EditState),
      add_edits reverse_complement reverse_complement_path node_translation path
          orig_node_sizes m next_mapping edit_first_position edits st = some st2 →
      st2.g.paths = st.g.paths := by
  induction edits with
  | nil =>
    intro p st st2 h
    simp only [add_edits, Option.some.injEq] at h
    rw [← h]
  | cons e rest ih =>
    intro p st st2 h
    simp only [add_edits] at h
    split at h
    · exact Option.noConfusion h
    · rename_i st1 hst1
      rw [ih _ _ _ h]
      split_ifs at hst1 <;>
        first
        | exact add_novel_edit_paths _ _ _ _ _ _ _ _ _ _ hname hst1
        | exact add_match_edit_paths _ _ _ _ _ _ _ hname hst1
        | (simp only [Option.some.injEq] at hst1
           rw [← hst1])

theorem add_mappings_paths (reverse_complement : List Char → List Char)
    (reverse_complement_path : Path → (Int → Option Int) → Option Path)
    (node_translation : List (pos_t × Option Node)) (path : Path)
    (orig_node_sizes : List (Int × Int)) (hname : path.name.isEmpty = true)
    (ms : List Mapping) :
    ∀ (st st2 : EditState),
      add_mappings reverse_complement reverse_complement_path node_translation path
          orig_node_sizes ms st = some st2 →
      st2.g.paths = st.g.paths := by
  induction ms with
  | nil =>
    intro st st2 h
    simp only [add_mappings, Option.some.injEq] at h
    rw [← h]
  | cons m rest ih =>
    intro st st2 h
    simp only [add_mappings] at h
    split at h
    · exact Option.noConfusion h
    · rename_i st1 hst1
      rw [ih _ _ h]
      exact add_edits_paths _ _ _ _ _ _ _ hname _ _ _ _ hst1

theorem add_paths_paths (reverse_complement : List Char → List Char)
    (reverse_complement_path : Path → (Int → Option Int) → Option Path)
    (node_translation : List (pos_t × Option Node)) (orig_node_sizes : List (Int × Int))
    (paths : List Path) :
    (∀ path ∈ paths, path.name.isEmpty = true) →
    ∀ (s s2 : VG × List ((pos_t × List Char) × Node) × List (Node × Path)),
      paths.foldl
          (add_path reverse_complement reverse_complement_path node_translation orig_node_sizes)
          (some s) = some s2 →
      s2.1.paths = s.1.paths := by
  induction paths with
  | nil =>
    intro _ s s2 h
    simp only [List.foldl_nil, Option.some.injEq] at h
    rw [← h]
  | cons path rest ih =>
    intro hn s s2 h
    simp only [List.foldl_cons] at h
    cases h1 : add_path reverse_complement reverse_complement_path node_translation
        orig_node_sizes (some s) path with
    | none =>
      rw [h1] at h
      have hnone : ∀ l : List Path, l.foldl
          (add_path reverse_complement reverse_complement_path node_translation orig_node_sizes)
          none = none := by
        intro l
        induction l with
        | nil => rfl
        | cons a r ih2 => exact ih2
      rw [hnone] at h
      exact Option.noConfusion h
    | some s1 =>
      rw [h1] at h
      rw [ih (fun p hp => hn p (List.mem_cons_of_mem _ hp)) s1 s2 h]
      have hname := hn path (List.mem_cons_self _ _)
      unfold add_path add_nodes_and_edges at h1
      simp only [hname, Bool.not_true, Bool.false_and, Bool.false_eq_true, if_false] at h1
      cases h2 : add_mappings reverse_complement reverse_complement_path node_translation path
          orig_node_sizes path.mapping
          { g := s.1, added_seqs := s.2.1, added_nodes := s.2.2, dangling := ⟨0, false⟩ } with
      | none => rw [h2] at h1; exact Option.noConfusion h1
      | some st =>
        rw [h2] at h1
        simp only [Option.map_some', Option.some.injEq] at h1
        rw [← h1]
        exact add_mappings_paths _ _ _ _ _ hname _ _ _ h2

theorem edit_graph_params (cut_mapping cut_mapping2 : Mapping → Int → Mapping × Mapping)
    (reverse_complement reverse_complement2 : List Char → List Char)
    (reverse_complement_path reverse_complement_path2 : Path → (Int → Option Int) → Option Path)
    (adjacent_mappings adjacent_mappings2 : Mapping → Mapping → Bool)
    (g : VG) (paths_to_add : List Path) (hp : g.paths = [])
    (hn : ∀ path ∈ paths_to_add.map simplify, path.name.isEmpty = true)
    (hf : ∀ path ∈ paths_to_add.map simplify, ∀ m ∈ path.mapping,
      m.position.is_reverse = false) :
    edit_graph cut_mapping reverse_complement reverse_complement_path adjacent_mappings g
        paths_to_add
      = edit_graph cut_mapping2 reverse_complement2 reverse_complement_path2 adjacent_mappings2 g
        paths_to_add := by
  have hg1 : ({ g with paths := clear_mapping_ranks g.paths } : VG).paths = [] := by
    simp only [hp]
    rfl
  unfold edit_graph
  simp only
  cases forwardize_breakpoints g
      ((paths_to_add.map simplify).foldl (fun b path => find_breakpoints path b) []) with
  | none => rfl
  | some fwd =>
    simp only
    rw [ensure_breakpoints_no_paths cut_mapping cut_mapping2 _ _ hg1]
    cases hb : ensure_breakpoints cut_mapping2 { g with paths := clear_mapping_ranks g.paths }
        (map_entries fwd) with
    | none => rfl
    | some b =>
      simp only
      rw [add_paths_forward reverse_complement reverse_complement2 reverse_complement_path
        reverse_complement_path2 _ _ _ hf]
      have hbp : b.1.paths = [] := ensure_breakpoints_paths cut_mapping2 _ _ [] hg1 b hb
      cases hs : (paths_to_add.map simplify).foldl
          (add_path reverse_complement2 reverse_complement_path2 b.2
            (g.node.foldl
              (fun sizes node => map_insert sizes node.id (node.sequence.length : Int)) []))
          (some (b.1, [], [])) with
      | none => rfl
      | some s =>
        have hsp : s.1.paths = [] := (add_paths_paths _ _ _ _ _ hn _ _ hs).trans hbp
        have hc : compact_ranks s.1.paths = [] := by rw [hsp]; rfl
        simp only [hc, List.foldl_nil]

theorem insertion_state_value : insertion_state = some insertion_result := by decide

theorem insertion_translations :
    forward_translations insertion_result.g insertion_result.node_translation
        insertion_result.added_nodes
      = [⟨⟨"", [⟨⟨1, 0, false⟩, [⟨3, 3, []⟩], 0⟩]⟩, ⟨"", [⟨⟨2, 0, false⟩, [⟨3, 3, []⟩], 0⟩]⟩⟩,
         ⟨⟨"", [⟨⟨1, 3, false⟩, [⟨0, 2, "TT".toList⟩], 0⟩, ⟨⟨1, 3, false⟩, [], 0⟩]⟩,
           ⟨"", [⟨⟨4, 0, false⟩, [⟨2, 2, []⟩], 0⟩]⟩⟩,
         ⟨⟨"", [⟨⟨1, 3, false⟩, [⟨1, 1, []⟩], 0⟩]⟩, ⟨"", [⟨⟨3, 0, false⟩, [⟨1, 1, []⟩], 0⟩]⟩⟩] := by
  decide

/-- C20. On the graph with the single node 1 = `ACGT`, `edit` applied to the
path with one mapping at offset 0 of the forward strand of node 1 and the
edits match 3, insertion `TT`, match 1, whatever the functions declared outside
`src/` are: the graph holds the nodes `ACG` (2), `TT` (4) and `T` (3) and no
node 1; the positions of node 1 from offset 0 lie on `ACG`, those from offset 3
on `T`; the edges are exactly `ACG → T`, `ACG → TT` and `TT → T`; every result
of `edit` holds this graph and a translation with an entry whose to-path is the
whole node `TT` and whose from-path starts at offset 3 of node 1 with an edit
that carries `TT`; and `edit` returns when `reverse_complement_path` returns
for the paths whose nodes have a length. -/
theorem edit_insertion (cut_mapping : Mapping → Int → Mapping × Mapping)
    (reverse_complement : List Char → List Char)
    (reverse_complement_path : Path → (Int → Option Int) → Option Path)
    (adjacent_mappings : Mapping → Mapping → Bool) :
    ∃ s : EditGraph,
      edit_graph cut_mapping reverse_complement reverse_complement_path adjacent_mappings
          acgt_graph [insertion_path] = some s
        ∧ acgt_graph.node = [⟨1, "ACGT".toList⟩]
        ∧ s.g.node = [⟨2, "ACG".toList⟩, ⟨4, "TT".toList⟩, ⟨3, "T".toList⟩]
        ∧ get_node s.g 1 = none
        ∧ map_find s.node_translation ⟨1, false, 0⟩ = some (some ⟨2, "ACG".toList⟩)
        ∧ map_find s.node_translation ⟨1, false, 3⟩ = some (some ⟨3, "T".toList⟩)
        ∧ s.g.edge = [⟨2, 3, false, false⟩, ⟨2, 4, false, false⟩, ⟨4, 3, false, false⟩]
        ∧ (∀ r, edit cut_mapping reverse_complement reverse_complement_path adjacent_mappings
              acgt_graph [insertion_path] = some r →
            r.1 = s.g ∧ ∃ t ∈ r.2,
              t.to_.mapping = [⟨⟨4, 0, false⟩, [⟨2, 2, []⟩], 0⟩]
                ∧ t.from_.mapping.head? = some ⟨⟨1, 3, false⟩, [⟨0, 2, "TT".toList⟩], 0⟩)
        ∧ ((∀ (p : Path) (f : Int → Option Int),
              (∀ m ∈ p.mapping, (f m.position.node_id).isSome = true) →
                (reverse_complement_path p f).isSome = true) →
            (edit cut_mapping reverse_complement reverse_complement_path adjacent_mappings
              acgt_graph [insertion_path]).isSome = true) := by
  have hg : edit_graph cut_mapping reverse_complement reverse_complement_path adjacent_mappings
      acgt_graph [insertion_path] = some insertion_result :=
    (edit_graph_params cut_mapping (fun m _ => (m, m)) reverse_complement (fun s => s)
      reverse_complement_path (fun p _ => some p) adjacent_mappings (fun _ _ => false)
      acgt_graph [insertion_path] rfl (by decide) (by decide)).trans insertion_state_value
  have he : edit cut_mapping reverse_complement reverse_complement_path adjacent_mappings
      acgt_graph [insertion_path]
      = (make_translation reverse_complement_path insertion_result.g
          insertion_result.node_translation insertion_result.added_nodes
          insertion_result.orig_node_sizes).map (fun translation =>
            (insertion_result.g, translation)) := by
    unfold edit
    rw [hg]
  refine ⟨insertion_result, hg, by decide, by decide, by decide, by decide, by decide,
    by decide, ?_, ?_⟩
  · intro r hr
    rw [he] at hr
    unfold make_translation at hr
    simp only at hr
    rw [insertion_translations] at hr
    split at hr
    · exact Option.noConfusion hr
    · simp only [Option.map_some', Option.some.injEq] at hr
      rw [← hr]
      refine ⟨rfl, _, List.mem_append_left _
        (List.mem_cons_of_mem _ (List.mem_cons_self _ _)), rfl, rfl⟩
  · intro hrcp
    rw [he]
    unfold make_translation
    simp only
    rw [insertion_translations]
    have hall : ∀ x ∈ ([⟨⟨"", [⟨⟨1, 0, false⟩, [⟨3, 3, []⟩], 0⟩]⟩,
            ⟨"", [⟨⟨2, 0, false⟩, [⟨3, 3, []⟩], 0⟩]⟩⟩,
          ⟨⟨"", [⟨⟨1, 3, false⟩, [⟨0, 2, "TT".toList⟩], 0⟩, ⟨⟨1, 3, false⟩, [], 0⟩]⟩,
            ⟨"", [⟨⟨4, 0, false⟩, [⟨2, 2, []⟩], 0⟩]⟩⟩,
          ⟨⟨"", [⟨⟨1, 3, false⟩, [⟨1, 1, []⟩], 0⟩]⟩,
            ⟨"", [⟨⟨3, 0, false⟩, [⟨1, 1, []⟩], 0⟩]⟩⟩] : List Translation),
        ∃ y, reverse_translation_of reverse_complement_path insertion_result.g
          insertion_result.orig_node_sizes x = some y := by
      intro x hx
      have h1 : ∀ m ∈ x.to_.mapping, ((get_node insertion_result.g m.position.node_id).map
          (fun n => (n.sequence.length : Int))).isSome = true := by
        revert x
        decide
      have h2 : ∀ m ∈ x.from_.mapping,
          (map_find insertion_result.orig_node_sizes m.position.node_id).isSome = true := by
        revert x
        decide
      have r1 := hrcp x.to_
        (fun id => (get_node insertion_result.g id).map (fun n => (n.sequence.length : Int))) h1
      have r2 := hrcp x.from_ (fun id => map_find insertion_result.orig_node_sizes id) h2
      unfold reverse_translation_of
      cases ha : reverse_complement_path x.to_
          (fun id => (get_node insertion_result.g id).map (fun n => (n.sequence.length : Int)))
        with
      | none => rw [ha] at r1; exact absurd r1 (by simp)
      | some a =>
        cases hb : reverse_complement_path x.from_
            (fun id => map_find insertion_result.orig_node_sizes id) with
        | none => rw [hb] at r2; exact absurd r2 (by simp)
        | some b => exact ⟨_, rfl⟩
    obtain ⟨r, hr, _⟩ := all_some_map _ _ hall
    rw [hr]
    rfl

/-- Witness for C20: with functions that leave their argument as it is for
those declared outside `src/`, `edit` returns on the insertion example. -/
theorem edit_insertion_witness :
    (edit (fun m _ => (m, m)) (fun s => s) (fun p _ => some p) (fun _ _ => false)
      acgt_graph [insertion_path]).isSome = true :=
  (edit_insertion (fun m _ => (m, m)) (fun s => s) (fun p _ => some p) (fun _ _ => false)).elim
    (fun _ hs => hs.2.2.2.2.2.2.2.2 (fun _ _ _ => rfl))

/-! ## Normalization -/

theorem divide_path_mappings_flag_true (cut_mapping : Mapping → Int → Mapping × Mapping)
    (node : Node) (positions : List Int) (parts : List Node) (ms : List Mapping)
    (h : (divide_path_mappings cut_mapping node positions parts ms).1 = true) :
    ∀ m ∈ ms, m.position.node_id = node.id → divide_assertions node m = true := by
  induction ms with
  | nil => intro m hm; simp at hm
  | cons m0 rest ih =>
    unfold divide_path_mappings at h
    by_cases hn : m0.position.node_id = node.id
    · by_cases ha : divide_assertions node m0 = true
      · simp only [hn, if_true, ha] at h
        intro m hm hmn
        rcases List.mem_cons.mp hm with h1 | h1
        · rw [h1]; exact ha
        · exact ih h m h1 hmn
      · simp [hn, ha] at h
    · simp only [hn, if_false] at h
      intro m hm hmn
      rcases List.mem_cons.mp hm with h1 | h1
      · rw [h1] at hmn; exact absurd hmn hn
      · exact ih h m h1 hmn

theorem divide_paths_flag_true (cut_mapping : Mapping → Int → Mapping × Mapping)
    (node : Node) (positions : List Int) (parts : List Node) (paths : Paths)
    (h : (divide_paths cut_mapping node positions parts paths).1 = true) :
    mappings_divisible paths node := by
  induction paths with
  | nil => intro p hp; simp at hp
  | cons p0 rest ih =>
    obtain ⟨name, ms⟩ := p0
    simp only [divide_paths] at h
    by_cases h1 : (divide_path_mappings cut_mapping node positions parts ms).1 = true
    · simp only [h1, if_true] at h
      intro p hp m hm hmn
      rcases List.mem_cons.mp hp with h2 | h2
      · rw [h2] at hm
        exact divide_path_mappings_flag_true cut_mapping node positions parts ms h1 m hm hmn
      · exact ih h p h2 m hm hmn
    · simp [h1] at h

theorem create_parts_length (node : Node) (positions : List Int) :
    ∀ (last_pos : Int) (g : VG) (parts : List Node),
      (create_parts node positions last_pos g parts).2.2.length
        = parts.length + positions.length := by
  induction positions with
  | nil => intro last_pos g parts; simp [create_parts]
  | cons p rest ih =>
    intro last_pos g parts
    simp only [create_parts, ih, List.length_append, List.length_singleton, List.length_cons,
      List.length_nil]
    omega

theorem create_parts_consistent (node : Node) (positions : List Int) :
    ∀ (last_pos : Int) (g : VG) (parts : List Node), edges_consistent g →
      edges_consistent (create_parts node positions last_pos g parts).1 := by
  induction positions with
  | nil => intro last_pos g parts hc; exact hc
  | cons p rest ih =>
    intro last_pos g parts hc
    simp only [create_parts]
    exact ih _ _ _ (create_node_consistent g _ 0 hc)

theorem make_parts_created (g : VG) (node : Node) (positions : List Int) (parts : List Node) :
    ∃ created : List Node,
      created.length = positions.length + 1
      ∧ (make_parts g node positions parts).2 = parts ++ created
      ∧ (make_parts g node positions parts).1.node = g.node ++ created := by
  obtain ⟨news, h1, h2⟩ := create_parts_node node positions 0 g parts
  have hlen := create_parts_length node positions 0 g parts
  rw [h1, List.length_append] at hlen
  refine ⟨news ++ [(create_node (create_parts node positions 0 g parts).1
    (node.sequence.drop (create_parts node positions 0 g parts).2.1.toNat) 0).2], ?_, ?_, ?_⟩
  · rw [List.length_append, List.length_singleton]; omega
  · unfold make_parts
    simp only []
    rw [h1, List.append_assoc]
  · unfold make_parts
    simp only []
    rw [(create_node_node_fields _ _ 0).1, h2, List.append_assoc]

/-- C3 as amended: `divide_node` ends with the position error if and only if
some requested offset is < 0 or > |sequence of N|; this check comes before any
change, so the graph and the vector `parts` are then as they were.  The call
returns if and only if all offsets are in range and every mapping on the node
passes the function's assertions (offset 0, perfect match, full length); it is
aborted by an assertion if and only if all offsets are in range and some
mapping on the node does not pass them.  At the abort the new parts, one more
than there are positions, have been appended to the vector `parts` and to the
node store (the divided node is still stored), the graph is, apart from the
path index, the one in which the parts were created and wired, and in a graph
whose edge store and indexes agree every two consecutive nodes of `parts` are
joined by an edge from the end of the first to the start of the second. -/
theorem divide_node_ends (cut_mapping : Mapping → Int → Mapping × Mapping)
    (g : VG) (node : Node) (positions : List Int) (parts : List Node) :
    ((divide_node cut_mapping g node positions parts).1 = Outcome.position_out_of_range
      ↔ ∃ p ∈ positions, p < 0 ∨ p > (node.sequence.length : Int))
    ∧ ((divide_node cut_mapping g node positions parts).1 = Outcome.position_out_of_range →
        (divide_node cut_mapping g node positions parts).2 = (g, parts))
    ∧ ((divide_node cut_mapping g node positions parts).1 = Outcome.returned
      ↔ ((∀ p ∈ positions, 0 ≤ p ∧ p ≤ (node.sequence.length : Int))
          ∧ mappings_divisible g.paths node))
    ∧ ((divide_node cut_mapping g node positions parts).1 = Outcome.assertion_failed
      ↔ ((∀ p ∈ positions, 0 ≤ p ∧ p ≤ (node.sequence.length : Int))
          ∧ ¬ mappings_divisible g.paths node))
    ∧ ((divide_node cut_mapping g node positions parts).1 = Outcome.assertion_failed →
        ∃ created : List Node,
          created.length = positions.length + 1
          ∧ (divide_node cut_mapping g node positions parts).2.2 = parts ++ created
          ∧ (divide_node cut_mapping g node positions parts).2.1.node = g.node ++ created
          ∧ { (divide_node cut_mapping g node positions parts).2.1 with paths := g.paths }
              = wire_parts (make_parts g node positions parts).1 node
                  (make_parts g node positions parts).2)
    ∧ ((divide_node cut_mapping g node positions parts).1 = Outcome.assertion_failed →
        edges_consistent g →
        ∀ ab ∈ adjacent_pairs (divide_node cut_mapping g node positions parts).2.2,
          has_edge (divide_node cut_mapping g node positions parts).2.1
            ⟨ab.1.id, true⟩ ⟨ab.2.id, false⟩ = true) := by
  have hpaths : (wire_parts (make_parts g node positions parts).1 node
      (make_parts g node positions parts).2).paths = g.paths := by
    unfold wire_parts make_parts
    rw [connect_parts_paths, create_edges_paths, create_node_paths, create_parts_paths]
  obtain ⟨o1, o2, _, _⟩ := divide_node_outcome cut_mapping g node positions parts
  by_cases hany : positions.any
      (fun pos => decide (pos < 0) || decide (pos > (node.sequence.length : Int))) = true
  · have hex : ∃ p ∈ positions, p < 0 ∨ p > (node.sequence.length : Int) := by
      rw [List.any_eq_true] at hany
      obtain ⟨p, hp, hbad⟩ := hany
      exact ⟨p, hp, by simpa using hbad⟩
    have hnin : ¬ ∀ p ∈ positions, 0 ≤ p ∧ p ≤ (node.sequence.length : Int) := by
      intro hin
      obtain ⟨p, hp, hbad⟩ := hex
      have := hin p hp
      omega
    have hout : (divide_node cut_mapping g node positions parts).1
        = Outcome.position_out_of_range := o1.mpr hex
    refine ⟨o1, o2, ?_, ?_, ?_, ?_⟩
    · rw [hout]
      exact ⟨fun h => Outcome.noConfusion h, fun h => absurd h.1 hnin⟩
    · rw [hout]
      exact ⟨fun h => Outcome.noConfusion h, fun h => absurd h.1 hnin⟩
    · rw [hout]; intro h; exact Outcome.noConfusion h
    · rw [hout]; intro h; exact Outcome.noConfusion h
  · have hin : ∀ p ∈ positions, 0 ≤ p ∧ p ≤ (node.sequence.length : Int) := by
      intro p hp
      by_contra hbad
      apply hany
      rw [List.any_eq_true]
      exact ⟨p, hp, by simp only [Bool.or_eq_true, decide_eq_true_eq]; omega⟩
    have hdef : divide_node cut_mapping g node positions parts
        = if (divide_paths cut_mapping node positions (make_parts g node positions parts).2
              (wire_parts (make_parts g node positions parts).1 node
                (make_parts g node positions parts).2).paths).1 = true
          then (Outcome.returned,
            destroy_node
              { wire_parts (make_parts g node positions parts).1 node
                  (make_parts g node positions parts).2 with
                paths := (divide_paths cut_mapping node positions
                  (make_parts g node positions parts).2
                  (wire_parts (make_parts g node positions parts).1 node
                    (make_parts g node positions parts).2).paths).2 } node,
            (make_parts g node positions parts).2)
          else (Outcome.assertion_failed,
            { wire_parts (make_parts g node positions parts).1 node
                (make_parts g node positions parts).2 with
              paths := (divide_paths cut_mapping node positions
                (make_parts g node positions parts).2
                (wire_parts (make_parts g node positions parts).1 node
                  (make_parts g node positions parts).2).paths).2 },
            (make_parts g node positions parts).2) := by
      unfold divide_node
      simp only [hany, Bool.false_eq_true, if_false]
    by_cases hflag : (divide_paths cut_mapping node positions (make_parts g node positions parts).2
        (wire_parts (make_parts g node positions parts).1 node
          (make_parts g node positions parts).2).paths).1 = true
    · have hd : mappings_divisible g.paths node := by
        have := divide_paths_flag_true _ _ _ _ _ hflag
        rw [hpaths] at this
        exact this
      rw [if_pos hflag] at hdef
      refine ⟨o1, o2, ?_⟩
      rw [hdef]
      exact ⟨⟨fun _ => ⟨hin, hd⟩, fun _ => rfl⟩,
        ⟨fun h => Outcome.noConfusion h, fun h => absurd hd h.2⟩,
        fun h => Outcome.noConfusion h, fun h => Outcome.noConfusion h⟩
    · have hnd : ¬ mappings_divisible g.paths node := by
        have := divide_paths_flag_false _ _ _ _ _ (by simpa using hflag)
        rw [hpaths] at this
        exact this
      rw [if_neg hflag] at hdef
      refine ⟨o1, o2, ?_⟩
      rw [hdef]
      refine ⟨⟨fun h => Outcome.noConfusion h, fun h => absurd h.2 hnd⟩,
        ⟨fun _ => ⟨hin, hnd⟩, fun _ => rfl⟩, fun _ => ?_, fun _ hc ab hab => ?_⟩
      · obtain ⟨created, c1, c2, c3⟩ := make_parts_created g node positions parts
        refine ⟨created, c1, c2, ?_, ?_⟩
        · show (wire_parts (make_parts g node positions parts).1 node
            (make_parts g node positions parts).2).node = _
          rw [(wire_parts_frame _ _ _).1, c3]
        · show ({ wire_parts (make_parts g node positions parts).1 node
              (make_parts g node positions parts).2 with paths := g.paths } : VG) = _
          rw [← hpaths]
      · have hc1 : edges_consistent (make_parts g node positions parts).1 := by
          unfold make_parts
          exact create_node_consistent _ _ 0 (create_parts_consistent node positions 0 g parts hc)
        obtain ⟨k1, _, _, _⟩ := create_edges_spec
          (edges_to_create_of (make_parts g node positions parts).1 node
            (make_parts g node positions parts).2) (make_parts g node positions parts).1 hc1
        obtain ⟨_, k2, _, _⟩ := connect_parts_spec (make_parts g node positions parts).2 _ k1
        show (map_find (wire_parts (make_parts g node positions parts).1 node
          (make_parts g node positions parts).2).edge_by_sides
            (minmax ⟨ab.1.id, true⟩ ⟨ab.2.id, false⟩)).isSome = true
        unfold wire_parts
        rw [k2]
        exact Or.inr ⟨ab, hab, rfl⟩

/-- Witness for C3 as amended: on the one-node graph `ACGT`, whose path `ref`
maps the whole node, the offsets 1 and 3 are in range and the call returns;
with a mapping that starts at offset 1 the division at offset 2 is aborted by
an assertion, two parts have been appended to the node store by then, and the
end of the first is joined to the start of the second. -/
theorem divide_node_ends_witness :
    (divide_node (fun m _ => (m, m))
        { (create_node VG.empty "ACGT".toList 0).1 with
          paths := [("ref", [⟨⟨1, 0, false⟩, [], 1⟩])] }
        ⟨1, "ACGT".toList⟩ [1, 3] []).1 = Outcome.returned
    ∧ (∃ created : List Node,
        created.length = [(2 : Int)].length + 1
        ∧ (divide_node (fun m _ => (m, m))
            { (create_node VG.empty "ACGT".toList 0).1 with
              paths := [("ref", [⟨⟨1, 1, false⟩, [], 1⟩])] }
            ⟨1, "ACGT".toList⟩ [2] []).2.2 = [] ++ created
        ∧ (divide_node (fun m _ => (m, m))
            { (create_node VG.empty "ACGT".toList 0).1 with
              paths := [("ref", [⟨⟨1, 1, false⟩, [], 1⟩])] }
            ⟨1, "ACGT".toList⟩ [2] []).2.1.node
            = ({ (create_node VG.empty "ACGT".toList 0).1 with
                paths := [("ref", [⟨⟨1, 1, false⟩, [], 1⟩])] } : VG).node ++ created
        ∧ { (divide_node (fun m _ => (m, m))
            { (create_node VG.empty "ACGT".toList 0).1 with
              paths := [("ref", [⟨⟨1, 1, false⟩, [], 1⟩])] }
            ⟨1, "ACGT".toList⟩ [2] []).2.1 with
            paths := ({ (create_node VG.empty "ACGT".toList 0).1 with
                paths := [("ref", [⟨⟨1, 1, false⟩, [], 1⟩])] } : VG).paths }
          = wire_parts
              (make_parts
                { (create_node VG.empty "ACGT".toList 0).1 with
                  paths := [("ref", [⟨⟨1, 1, false⟩, [], 1⟩])] }
                ⟨1, "ACGT".toList⟩ [2] []).1 ⟨1, "ACGT".toList⟩
              (make_parts
                { (create_node VG.empty "ACGT".toList 0).1 with
                  paths := [("ref", [⟨⟨1, 1, false⟩, [], 1⟩])] }
                ⟨1, "ACGT".toList⟩ [2] []).2)
    ∧ has_edge (divide_node (fun m _ => (m, m))
        { (create_node VG.empty "ACGT".toList 0).1 with
          paths := [("ref", [⟨⟨1, 1, false⟩, [], 1⟩])] }
        ⟨1, "ACGT".toList⟩ [2] []).2.1 ⟨2, true⟩ ⟨3, false⟩ = true :=
  ⟨(divide_node_ends (fun m _ => (m, m))
      { (create_node VG.empty "ACGT".toList 0).1 with
        paths := [("ref", [⟨⟨1, 0, false⟩, [], 1⟩])] }
      ⟨1, "ACGT".toList⟩ [1, 3] []).2.2.1.mpr
      ⟨by decide, by unfold mappings_divisible; decide⟩,
   (divide_node_ends (fun m _ => (m, m))
      { (create_node VG.empty "ACGT".toList 0).1 with
        paths := [("ref", [⟨⟨1, 1, false⟩, [], 1⟩])] }
      ⟨1, "ACGT".toList⟩ [2] []).2.2.2.2.1 (by decide),
   (divide_node_ends (fun m _ => (m, m))
      { (create_node VG.empty "ACGT".toList 0).1 with
        paths := [("ref", [⟨⟨1, 1, false⟩, [], 1⟩])] }
      ⟨1, "ACGT".toList⟩ [2] []).2.2.2.2.2 (by decide)
      (edges_consistent_congr (create_node VG.empty "ACGT".toList 0).1 _
        (create_node_consistent VG.empty _ 0 empty_consistent) rfl rfl rfl rfl rfl)
      (⟨2, "AC".toList⟩, ⟨3, "GT".toList⟩) (by decide)⟩

/-! ## Calls on graphs whose id counter lags behind an explicit id -/

/-- Whenever the id counter is ahead of the stored nodes, `create_node(seq)`
called without an id returns the next id of the counter, which no stored node
uses. -/
theorem create_node_fresh_of_ahead (g : VG) (seq : List Char) (ha : counter_ahead g) :
    (create_node g seq 0).2.id = next_id g
      ∧ ∀ nd ∈ g.node, nd.id ≠ (create_node g seq 0).2.id := by
  have h1 := (create_node_alloc g seq ha.1).1
  refine ⟨h1, fun nd hnd => ?_⟩
  have := ha.2 nd hnd
  omega

/-- C10 fails on a graph built by the public calls `create_node("A")` and
`create_node("C", 2)`: the graph passes `is_valid`, holds the nodes 1 and 2 and
has the id counter 2, since a call with an explicit id does not move the
counter.  `create_node("G")` then returns the id 2, not 1 + the maximum id 2,
and that id is used by the stored node `C`: the store holds two nodes with
id 2, the id index now leads to the new node, and `is_valid` fails. -/
theorem create_node_reuses_stored_id :
    is_valid lagging_graph true true = true
      ∧ lagging_graph.node = [⟨1, "A".toList⟩, ⟨2, "C".toList⟩]
      ∧ lagging_graph.current_id = 2
      ∧ max_node_id lagging_graph = 2
      ∧ (create_node lagging_graph "G".toList 0).2 = ⟨2, "G".toList⟩
      ∧ (create_node lagging_graph "G".toList 0).1.node
          = [⟨1, "A".toList⟩, ⟨2, "C".toList⟩, ⟨2, "G".toList⟩]
      ∧ get_node (create_node lagging_graph "G".toList 0).1 2 = some ⟨2, "G".toList⟩
      ∧ is_valid (create_node lagging_graph "G".toList 0).1 true true = false := by
  decide

/-- C2 fails on a graph built by the public calls `create_node("AC")`,
`create_node("T", 5)`, `create_node("G", 2)` and `create_edge(5, 2)`: the graph
passes `is_valid`, its id counter is 2, node 1 = `AC` has no edge at all and
the end of node 5 is joined to the start of node 2 = `G`.  `divide_node` of
node 1 at offset 1 returns with the parts 2 = `A` and 3 = `C`: the first part
has the id of the stored node `G`, so the end of node 5 is connected to the
start of the first part although it was not connected to the start of the
divided node.  This holds for every `cut_mapping`. -/
theorem divide_node_joins_unrelated_side (cut_mapping : Mapping → Int → Mapping × Mapping) :
    is_valid lagging_edge_graph true true = true
      ∧ lagging_edge_graph.current_id = 2
      ∧ has_edge lagging_edge_graph ⟨5, true⟩ ⟨1, false⟩ = false
      ∧ (divide_node cut_mapping lagging_edge_graph ⟨1, "AC".toList⟩ [1] []).1
          = Outcome.returned
      ∧ (divide_node cut_mapping lagging_edge_graph ⟨1, "AC".toList⟩ [1] []).2.2
          = [⟨2, "A".toList⟩, ⟨3, "C".toList⟩]
      ∧ has_edge (divide_node cut_mapping lagging_edge_graph ⟨1, "AC".toList⟩ [1] []).2.1
          ⟨5, true⟩ ⟨2, false⟩ = true := by
  rw [(divide_node_no_paths cut_mapping (fun m _ => (m, m)) lagging_edge_graph
    ⟨1, "AC".toList⟩ [1] [] (by decide)).1]
  decide

/-- C31 fails on a graph built by the public calls `create_node("A")`,
`create_node("ACGT", 2)` and `create_edge(2, 2)`: the graph passes `is_valid`,
its id counter is 2 and node 2 = `ACGT` has the plain self loop from its end to
its start.  `divide_node` of node 2 at offset 2 returns with the parts
2 = `AC` and 3 = `GT`: the first part has the id of the divided node, so
`destroy_node` removes every edge on it; the result has no edge at all, and
the end of the last part is not joined to the start of the first part.  This
holds for every `cut_mapping`. -/
theorem divide_node_loses_self_loop (cut_mapping : Mapping → Int → Mapping × Mapping) :
    is_valid lagging_loop_graph true true = true
      ∧ lagging_loop_graph.current_id = 2
      ∧ has_edge lagging_loop_graph ⟨2, true⟩ ⟨2, false⟩ = true
      ∧ (divide_node cut_mapping lagging_loop_graph ⟨2, "ACGT".toList⟩ [2] []).1
          = Outcome.returned
      ∧ (divide_node cut_mapping lagging_loop_graph ⟨2, "ACGT".toList⟩ [2] []).2.2
          = [⟨2, "AC".toList⟩, ⟨3, "GT".toList⟩]
      ∧ (divide_node cut_mapping lagging_loop_graph ⟨2, "ACGT".toList⟩ [2] []).2.1.edge = []
      ∧ has_edge (divide_node cut_mapping lagging_loop_graph ⟨2, "ACGT".toList⟩ [2] []).2.1
          ⟨3, true⟩ ⟨2, false⟩ = false := by
  rw [(divide_node_no_paths cut_mapping (fun m _ => (m, m)) lagging_loop_graph
    ⟨2, "ACGT".toList⟩ [2] [] (by decide)).1]
  decide

/-- C33 fails on a graph built by the public calls `create_node("T")`,
`create_node("ACG", 2)`, `create_node("ACT", 3)`, `create_edge(1, 2)` and
`create_edge(1, 3)`: the graph passes `is_valid`, its id counter is 2, and the
nodes 2 and 3 are siblings behind the end of node 1 with the common prefix
`AC`.  The node that `simplify_to_siblings` creates for the prefix gets the
id 2 of the first sibling, so the call leaves exactly the edges 2 → 2 and
2 → 3: the end of the parent 1 is joined to nothing. -/
theorem simplify_to_siblings_disconnects_parent :
    is_valid lagging_sibling_graph true true = true
      ∧ lagging_sibling_graph.current_id = 2
      ∧ lagging_sibling_graph.edge = [⟨1, 2, false, false⟩, ⟨1, 3, false, false⟩]
      ∧ (create_node lagging_sibling_graph "AC".toList 0).2.id = 2
      ∧ (simplify_to_siblings (fun paths _ _ _ => paths) lagging_sibling_graph
          [[⟨⟨2, "ACG".toList⟩, false⟩, ⟨⟨3, "ACT".toList⟩, false⟩]]).map (fun g => g.edge)
          = some [⟨2, 2, false, false⟩, ⟨2, 3, false, false⟩]
      ∧ (simplify_to_siblings (fun paths _ _ _ => paths) lagging_sibling_graph
          [[⟨⟨2, "ACG".toList⟩, false⟩, ⟨⟨3, "ACT".toList⟩, false⟩]]).map
            (fun g => edges_end g 1) = some [] := by
  decide

/-- C37 fails on a graph built by the public calls `create_node("GG")` and
`create_node("ACGTACGTAC", 2)`: the graph passes `is_valid` and its id counter
is 2.  `dice_nodes(3)` cuts node 2 into the pieces 2 = `ACG`, 3 = `TAC`,
4 = `GTA` and 5 = `C`; the first piece has the id of the divided node, so
`destroy_node` removes the edge from the first piece to the second and the
entry of id 2 in the id index: the pieces `ACG` and `TAC` are not consecutive
in the result, and `get_node(2)` throws although a node with id 2 is
stored. -/
theorem dice_nodes_first_piece_cut_off :
    is_valid lagging_long_node_graph true true = true
      ∧ lagging_long_node_graph.current_id = 2
      ∧ (dice_nodes (fun m _ => (m, m)) 20 lagging_long_node_graph 3).map (fun g => g.node)
          = some [⟨1, "GG".toList⟩, ⟨5, "C".toList⟩, ⟨2, "ACG".toList⟩, ⟨3, "TAC".toList⟩,
              ⟨4, "GTA".toList⟩]
      ∧ (dice_nodes (fun m _ => (m, m)) 20 lagging_long_node_graph 3).map (fun g => g.edge)
          = some [⟨4, 5, false, false⟩, ⟨3, 4, false, false⟩]
      ∧ (dice_nodes (fun m _ => (m, m)) 20 lagging_long_node_graph 3).map
          (fun g => has_edge g ⟨2, true⟩ ⟨3, false⟩) = some false
      ∧ (dice_nodes (fun m _ => (m, m)) 20 lagging_long_node_graph 3).map
          (fun g => get_node g 2) = some none
      ∧ (dice_nodes (fun m _ => (m, m)) 20 lagging_long_node_graph 3).map
          (fun g => is_valid g true true) = some false := by
  decide

/-- C19 fails on a graph built by the public calls `create_node("GG")` and
`create_node("ACGTACGT", 3)`: the graph passes `is_valid` and its id counter
is 2.  `ensure_breakpoints` with the forward breakpoints 3 and 5 on node 3
returns.  The first division creates the parts 2 = `ACG` and 3 = `TACGT`; the
right part has the id of the divided node, so `destroy_node` removes its entry
from the id index and its edge to the left part.  The second division creates
4 = `TA` and 5 = `CGT` from the right part, and its `destroy_node(right part)`
does nothing, because no node is indexed under id 3.  The node `ACGTACGT` is
thus replaced by four nodes, not three, one of which, `TACGT`, is not a
substring between two consecutive breakpoints, the part `ACG` is joined to
nothing and the result does not pass `is_valid`; the returned map leads to
`ACG`, `TA` and `CGT`.  This holds for every `cut_mapping`. -/
theorem ensure_breakpoints_keeps_divided_part
    (cut_mapping : Mapping → Int → Mapping × Mapping) :
    is_valid lagging_break_graph true true = true
      ∧ lagging_break_graph.current_id = 2
      ∧ (ensure_breakpoints cut_mapping lagging_break_graph
          [(3, [⟨3, false, 3⟩, ⟨3, false, 5⟩])]).map (fun r => r.1.node)
          = some [⟨1, "GG".toList⟩, ⟨3, "TACGT".toList⟩, ⟨2, "ACG".toList⟩, ⟨4, "TA".toList⟩,
              ⟨5, "CGT".toList⟩]
      ∧ (ensure_breakpoints cut_mapping lagging_break_graph
          [(3, [⟨3, false, 3⟩, ⟨3, false, 5⟩])]).map (fun r => r.1.edge)
          = some [⟨4, 5, false, false⟩]
      ∧ (ensure_breakpoints cut_mapping lagging_break_graph
          [(3, [⟨3, false, 3⟩, ⟨3, false, 5⟩])]).map (fun r => has_node r.1 3)
          = some false
      ∧ (ensure_breakpoints cut_mapping lagging_break_graph
          [(3, [⟨3, false, 3⟩, ⟨3, false, 5⟩])]).map
            (fun r => has_edge r.1 ⟨2, true⟩ ⟨4, false⟩) = some false
      ∧ (ensure_breakpoints cut_mapping lagging_break_graph
          [(3, [⟨3, false, 3⟩, ⟨3, false, 5⟩])]).map (fun r => is_valid r.1 true true)
          = some false
      ∧ (ensure_breakpoints cut_mapping lagging_break_graph
          [(3, [⟨3, false, 3⟩, ⟨3, false, 5⟩])]).map
            (fun r => (map_find r.2 ⟨3, false, 0⟩, map_find r.2 ⟨3, false, 3⟩,
              map_find r.2 ⟨3, false, 5⟩))
          = some (some (some ⟨2, "ACG".toList⟩), some (some ⟨4, "TA".toList⟩),
              some (some ⟨5, "CGT".toList⟩)) := by
  rw [ensure_breakpoints_no_paths cut_mapping (fun m _ => (m, m)) lagging_break_graph
    [(3, [⟨3, false, 3⟩, ⟨3, false, 5⟩])] (by decide)]
  decide

/-! ## Division of a node of length 1 -/

/-- C32 as amended.  Dividing a node of length 1 is not an identity division:
the range check accepts the offsets 0 and 1, and the first loop of
`divide_node` appends two new nodes to the node store, which are the parts: at
offset 0 a node with the empty sequence followed by a node with the base, at
offset 1 a node with the base followed by a node with the empty sequence. -/
theorem divide_node_length_one (cut_mapping : Mapping → Int → Mapping × Mapping)
    (g : VG) (id : Int) (c : Char) :
    (divide_node cut_mapping g ⟨id, [c]⟩ [0] []).1 ≠ Outcome.position_out_of_range
    ∧ (divide_node cut_mapping g ⟨id, [c]⟩ [0] []).2.2.map (fun n => n.sequence) = [[], [c]]
    ∧ (make_parts g ⟨id, [c]⟩ [0] []).1.node
        = g.node ++ (divide_node cut_mapping g ⟨id, [c]⟩ [0] []).2.2
    ∧ (divide_node cut_mapping g ⟨id, [c]⟩ [1] []).1 ≠ Outcome.position_out_of_range
    ∧ (divide_node cut_mapping g ⟨id, [c]⟩ [1] []).2.2.map (fun n => n.sequence) = [[c], []]
    ∧ (make_parts g ⟨id, [c]⟩ [1] []).1.node
        = g.node ++ (divide_node cut_mapping g ⟨id, [c]⟩ [1] []).2.2 := by
  have h0 : (divide_node cut_mapping g ⟨id, [c]⟩ [0] []).2.2
      = (make_parts g ⟨id, [c]⟩ [0] []).2 := by
    unfold divide_node
    simp only [List.any_cons, List.any_nil, List.length_singleton]
    split_ifs <;> simp_all
  have h1 : (divide_node cut_mapping g ⟨id, [c]⟩ [1] []).2.2
      = (make_parts g ⟨id, [c]⟩ [1] []).2 := by
    unfold divide_node
    simp only [List.any_cons, List.any_nil, List.length_singleton]
    split_ifs <;> simp_all
  refine ⟨?_, ?_, ?_, ?_, ?_, ?_⟩
  · unfold divide_node
    simp only [List.any_cons, List.any_nil, List.length_singleton]
    split_ifs <;> simp_all
  · unfold divide_node make_parts
    simp only [List.any_cons, List.any_nil, List.length_singleton]
    split_ifs <;> simp_all [create_parts, create_node_sequence, substr]
  · rw [h0]; exact make_parts_node g ⟨id, [c]⟩ [0]
  · unfold divide_node
    simp only [List.any_cons, List.any_nil, List.length_singleton]
    split_ifs <;> simp_all
  · unfold divide_node make_parts
    simp only [List.any_cons, List.any_nil, List.length_singleton]
    split_ifs <;> simp_all [create_parts, create_node_sequence, substr]
  · rw [h1]; exact make_parts_node g ⟨id, [c]⟩ [1]

/-! ## Normalization of a graph that a pass leaves the same up to renaming -/

theorem set_insert_mem_fresh {α : Type} (lt : α → α → Bool) (x : α) (l : List α)
    (h : ∀ z ∈ l, lt x z = true ∨ lt z x = true) (y : α) :
    y ∈ set_insert lt x l ↔ (y = x ∨ y ∈ l) := by
  induction l with
  | nil => simp [set_insert]
  | cons z rest ih =>
    unfold set_insert
    by_cases h1 : lt x z = true
    · simp [h1]
    · by_cases h2 : lt z x = true
      · simp only [h1, h2, if_true, Bool.false_eq_true, if_false, List.mem_cons,
          ih (fun w hw => h w (List.mem_cons_of_mem _ hw))]
        tauto
      · rcases h z (List.mem_cons_self _ _) with h3 | h3
        · exact absurd h3 h1
        · exact absurd h3 h2

theorem id_lt_total (a b : Int) (h1 : id_lt a b = false) (h2 : id_lt b a = false) : a = b := by
  unfold id_lt at h1 h2
  simp only [decide_eq_false_iff_not, not_lt] at h1 h2
  omega

theorem id_set_lt_total :
    ∀ (a b : List Int), id_set_lt a b = false → id_set_lt b a = false → a = b
  | [], [], _, _ => rfl
  | [], _ :: _, h1, _ => by simp [id_set_lt] at h1
  | _ :: _, [], _, h2 => by simp [id_set_lt] at h2
  | a :: as, b :: bs, h1, h2 => by
    simp only [id_set_lt, Bool.or_eq_false_iff, decide_eq_false_iff_not, not_lt,
      Bool.and_eq_false_imp, Bool.not_eq_true', decide_eq_false_iff_not] at h1 h2
    have hab : a = b := by omega
    subst hab
    rw [id_set_lt_total as bs (h1.2 (le_refl _)) (h2.2 (le_refl _))]

theorem pairwise_disc_inj {α : Type} (f : α → Int) (l : List α)
    (h : l.Pairwise (fun a b => f b < f a)) :
    ∀ a ∈ l, ∀ b ∈ l, f a = f b → a = b := by
  induction l with
  | nil => intro a ha; simp at ha
  | cons x rest ih =>
    obtain ⟨h1, h2⟩ := List.pairwise_cons.mp h
    intro a ha b hb hab
    rcases List.mem_cons.mp ha with ha1 | ha1 <;> rcases List.mem_cons.mp hb with hb1 | hb1
    · rw [ha1, hb1]
    · have := h1 b hb1
      rw [ha1] at hab
      omega
    · have := h1 a ha1
      rw [hb1] at hab
      omega
    · exact ih h2 a ha1 b hb1 hab

theorem pairwise_disc_split {α : Type} (f : α → Int) (pre rest : List α) (t : α)
    (h : (pre ++ t :: rest).Pairwise (fun a b => f b < f a)) :
    (∀ v ∈ pre, f t < f v) ∧ (∀ v ∈ rest, f v < f t)
      ∧ (∀ v ∈ pre, ∀ w ∈ rest, f w < f v) := by
  obtain ⟨_, h2, h3⟩ := List.pairwise_append.mp h
  obtain ⟨h4, _⟩ := List.pairwise_cons.mp h2
  exact ⟨fun v hv => h3 v hv t (List.mem_cons_self _ _), h4,
    fun v hv w hw => h3 v hv w (List.mem_cons_of_mem _ hw)⟩

theorem pop_component_spec (trav : NodeTraversal) :
    ∀ (stack on_stack : List NodeTraversal) (component : List Int), trav ∈ stack →
      ∃ pre rest, stack = pre ++ trav :: rest ∧ trav ∉ pre
        ∧ pop_component trav stack on_stack component
          = some (rest,
              (pre ++ [trav]).foldl (fun os o => set_erase NodeTraversal.lt o os) on_stack,
              (pre ++ [trav]).foldl (fun c o => set_insert id_lt o.node.id c) component) := by
  intro stack
  induction stack with
  | nil => intro _ _ h; simp at h
  | cons other rest ih =>
    intro on_stack component h
    by_cases ho : other = trav
    · refine ⟨[], rest, by rw [ho]; rfl, by simp, ?_⟩
      unfold pop_component
      simp only [ho, if_true, List.nil_append, List.foldl_cons, List.foldl_nil]
    · have h2 : trav ∈ rest := by
        rcases List.mem_cons.mp h with h3 | h3
        · exact absurd h3.symm ho
        · exact h3
      obtain ⟨pre, rest2, e1, e2, e3⟩ :=
        ih (set_erase NodeTraversal.lt other on_stack) (set_insert id_lt other.node.id component) h2
      refine ⟨other :: pre, rest2, by rw [e1]; rfl, ?_, ?_⟩
      · intro h4
        rcases List.mem_cons.mp h4 with h5 | h5
        · exact ho h5.symm
        · exact e2 h5
      · unfold pop_component
        simp only [ho, if_false]
        rw [e3]
        rfl

theorem foldl_set_erase_mem (l : List NodeTraversal) :
    ∀ (os : List NodeTraversal) (y : NodeTraversal),
      y ∈ l.foldl (fun os o => set_erase NodeTraversal.lt o os) os ↔
        (y ∈ os ∧ ∀ o ∈ l, ¬ (o.node.id = y.node.id ∧ o.backward = y.backward)) := by
  induction l with
  | nil => intro os y; simp
  | cons o rest ih =>
    intro os y
    simp only [List.foldl_cons, ih, set_erase_trav_mem, List.mem_cons, forall_eq_or_imp]
    tauto

theorem scc_begin_disc (st : SccState) (t x : NodeTraversal) :
    scc_disc (scc_begin st t) x = if t = x then st.index else scc_disc st x := by
  unfold scc_disc scc_begin
  simp only [map_find_insert]
  split_ifs <;> rfl

theorem scc_begin_root (st : SccState) (t x : NodeTraversal) :
    scc_root (scc_begin st t) x = if t = x then t else scc_root st x := by
  unfold scc_root scc_begin
  simp only [map_find_insert]
  split_ifs <;> rfl

theorem scc_set_root (st : SccState) (trav r : NodeTraversal) :
    (∀ t, t ≠ trav → scc_root { st with roots := map_insert st.roots trav r } t = scc_root st t)
      ∧ scc_root { st with roots := map_insert st.roots trav r } trav = r
      ∧ (∀ x, scc_disc { st with roots := map_insert st.roots trav r } x = scc_disc st x) := by
  refine ⟨fun t ht => ?_, ?_, fun _ => rfl⟩
  · unfold scc_root
    simp only [map_find_insert]
    rw [if_neg (fun h2 => ht h2.symm)]
  · unfold scc_root
    simp only [map_find_insert, if_true, Option.getD_some]

theorem scc_end_fold (trav : NodeTraversal) (nexts : List NodeTraversal) :
    ∀ st st1 : SccState,
      nexts.foldl
        (fun (st : SccState) next =>
          if set_mem NodeTraversal.lt next st.on_stack then
            { st with roots := map_insert st.roots trav
                        (if scc_disc st (scc_root st trav) < scc_disc st (scc_root st next)
                          then scc_root st trav else scc_root st next) }
          else st) st = st1 →
      st1.index = st.index ∧ st1.discover_idx = st.discover_idx ∧ st1.stack = st.stack
        ∧ st1.on_stack = st.on_stack ∧ st1.components = st.components
        ∧ (∀ t, t ≠ trav → scc_root st1 t = scc_root st t)
        ∧ (scc_root st1 trav = scc_root st trav
            ∨ ∃ next ∈ nexts, next ≠ trav ∧ set_mem NodeTraversal.lt next st.on_stack = true
                ∧ scc_root st1 trav = scc_root st next)
        ∧ scc_disc st (scc_root st1 trav) ≤ scc_disc st (scc_root st trav)
        ∧ (∀ next ∈ nexts, next ≠ trav → set_mem NodeTraversal.lt next st.on_stack = true →
            scc_disc st (scc_root st1 trav) ≤ scc_disc st (scc_root st next)) := by
  induction nexts with
  | nil =>
    intro st st1 h
    simp only [List.foldl_nil] at h
    subst h
    exact ⟨rfl, rfl, rfl, rfl, rfl, fun _ _ => rfl, Or.inl rfl, le_refl _,
      fun _ h => by simp at h⟩
  | cons next rest ih =>
    intro st st1 h
    simp only [List.foldl_cons] at h
    by_cases hon : set_mem NodeTraversal.lt next st.on_stack = true
    · rw [if_pos hon] at h
      obtain ⟨a1, a2, a3, a4, a5, a6, a7, a8, a9⟩ := ih _ st1 h
      simp only at a1 a2 a3 a4 a5
      have hroot := fun r => (scc_set_root st trav r).1
      have hself := fun r => (scc_set_root st trav r).2.1
      have hdisc := fun r => (scc_set_root st trav r).2.2
      rw [hself] at a7 a8
      simp only [hdisc] at a8 a9
      refine ⟨a1, a2, a3, a4, a5, fun t ht => by rw [a6 t ht, hroot _ t ht], ?_, ?_, ?_⟩
      · rcases a7 with h1 | ⟨n2, hn2, hne, hon2, h1⟩
        · by_cases hnt : next = trav
          · left
            rw [h1, hnt]
            split_ifs <;> rfl
          · by_cases hlt : scc_disc st (scc_root st trav) < scc_disc st (scc_root st next)
            · left; rw [h1, if_pos hlt]
            · right
              exact ⟨next, List.mem_cons_self _ _, hnt, hon, by rw [h1, if_neg hlt]⟩
        · right
          exact ⟨n2, List.mem_cons_of_mem _ hn2, hne, hon2, by rw [h1, hroot _ n2 hne]⟩
      · split_ifs at a8 with hlt
        · exact a8
        · exact le_trans a8 (not_lt.mp hlt)
      · intro n2 hn2 hne hon2
        rcases List.mem_cons.mp hn2 with h3 | h3
        · rw [h3]
          split_ifs at a8 with hlt
          · exact le_trans a8 (le_of_lt hlt)
          · exact a8
        · have := a9 n2 h3 hne hon2
          rw [hroot _ n2 hne] at this
          exact this
    · rw [if_neg hon] at h
      obtain ⟨a1, a2, a3, a4, a5, a6, a7, a8, a9⟩ := ih _ st1 h
      refine ⟨a1, a2, a3, a4, a5, a6, ?_, a8, ?_⟩
      · rcases a7 with h1 | ⟨n2, hn2, hne, hon2, h1⟩
        · exact Or.inl h1
        · exact Or.inr ⟨n2, List.mem_cons_of_mem _ hn2, hne, hon2, h1⟩
      · intro n2 hn2 hne hon2
        rcases List.mem_cons.mp hn2 with h3 | h3
        · rw [h3] at hon2; exact absurd hon2 hon
        · exact a9 n2 h3 hne hon2

theorem scc_end_spec (g : VG) (st : SccState) (trav : NodeTraversal)
    (nexts : List NodeTraversal) (hn : travs_from g trav = some nexts) (hin : trav ∈ st.stack) :
    ∃ st1 : SccState,
      (st1.index = st.index ∧ st1.discover_idx = st.discover_idx ∧ st1.stack = st.stack
        ∧ st1.on_stack = st.on_stack ∧ st1.components = st.components
        ∧ (∀ t, t ≠ trav → scc_root st1 t = scc_root st t)
        ∧ (scc_root st1 trav = scc_root st trav
            ∨ ∃ next ∈ nexts, next ≠ trav ∧ set_mem NodeTraversal.lt next st.on_stack = true
                ∧ scc_root st1 trav = scc_root st next)
        ∧ scc_disc st (scc_root st1 trav) ≤ scc_disc st (scc_root st trav)
        ∧ (∀ next ∈ nexts, next ≠ trav → set_mem NodeTraversal.lt next st.on_stack = true →
            scc_disc st (scc_root st1 trav) ≤ scc_disc st (scc_root st next)))
      ∧ ((scc_root st1 trav ≠ trav ∧ scc_end g st trav = some st1)
          ∨ (scc_root st1 trav = trav ∧
              ∃ pre rest, st.stack = pre ++ trav :: rest ∧ trav ∉ pre
                ∧ scc_end g st trav
                  = some { st1 with
                      stack := rest,
                      on_stack := (pre ++ [trav]).foldl
                        (fun os o => set_erase NodeTraversal.lt o os) st.on_stack,
                      components := set_insert id_set_lt
                        ((pre ++ [trav]).foldl (fun c o => set_insert id_lt o.node.id c) [])
                        st.components })) := by
  have hfold := scc_end_fold trav nexts st _ rfl
  refine ⟨_, hfold, ?_⟩
  obtain ⟨a1, a2, a3, a4, a5, _⟩ := hfold
  unfold scc_end
  rw [hn]
  simp only
  split
  · rename_i hc
    right
    refine ⟨hc, ?_⟩
    obtain ⟨pre, rest, e1, e2, e3⟩ := pop_component_spec trav st.stack st.on_stack [] hin
    refine ⟨pre, rest, e1, e2, ?_⟩
    rw [← a3, ← a4] at e3
    split
    · rename_i heq
      exact absurd (e3.symm.trans heq) (by simp)
    · rename_i r heq
      have hr := Option.some.inj (e3.symm.trans heq)
      subst hr
      show some (SccState.mk _ _ _ _ _ _) = some (SccState.mk _ _ _ _ _ _)
      refine congrArg some ?_
      congr 1
      · simp only [a4]
      · exact congrArg (set_insert id_set_lt _) a5
  · rename_i hc
    left
    exact ⟨hc, rfl⟩

theorem scc_inv_push (g : VG) (st : DfsState SccState) (gray : List NodeTraversal)
    (target : NodeTraversal) (hinv : scc_inv g st gray) (hpre : search_state st target = 0)
    (hst : get_node g target.node.id = some target.node)
    (hch : (target :: gray).Chain' (fun a b => follows g b a)) :
    scc_inv g { state := map_insert st.state target 1, user := scc_begin st.user target }
      (target :: gray) := by
  have hne : ∀ x, search_state st x ≠ 0 → target ≠ x := fun x hx h => hx (h ▸ hpre)
  have hneS : ∀ x ∈ st.user.stack, target ≠ x := fun x hx => hne x (hinv.met x hx)
  have hstate : ∀ x, search_state
      ({ state := map_insert st.state target 1, user := scc_begin st.user target } :
        DfsState SccState) x
        = if target = x then 1 else search_state st x :=
    fun x => search_state_insert st _ target x 1
  have hblack : ∀ x, search_state
      ({ state := map_insert st.state target 1, user := scc_begin st.user target } :
        DfsState SccState) x = 2 →
        search_state st x = 2 ∧ target ≠ x := by
    intro x hx
    rw [hstate] at hx
    split_ifs at hx with h
    · omega
    · exact ⟨hx, h⟩
  have hdS : ∀ x ∈ st.user.stack, scc_disc (scc_begin st.user target) x = scc_disc st.user x :=
    fun x hx => by rw [scc_begin_disc, if_neg (hneS x hx)]
  have hrS : ∀ x ∈ st.user.stack, scc_root (scc_begin st.user target) x = scc_root st.user x :=
    fun x hx => by rw [scc_begin_root, if_neg (hneS x hx)]
  have hdT : scc_disc (scc_begin st.user target) target = st.user.index := by
    rw [scc_begin_disc, if_pos rfl]
  have hS : (scc_begin st.user target).stack = target :: st.user.stack := rfl
  refine
    { curr := ?_, range := ?_, stored := ?_, black_next := ?_, chain := hch, gray_sorted := ?_,
      sorted := ?_, on_stack := ?_, met := ?_, gray_on := ?_, index := ?_, gray_root := ?_,
      black_root := ?_, low := ?_, parent := ?_, gray_below := ?_, closed := ?_, found := ?_,
      sound := hinv.sound }
  · intro t
    rw [hstate, List.mem_cons]
    by_cases h : target = t
    · rw [if_pos h]; exact ⟨fun _ => Or.inl h.symm, fun _ => rfl⟩
    · rw [if_neg h, hinv.curr]
      exact ⟨fun h1 => Or.inr h1, fun h1 => h1.resolve_left (fun h2 => h h2.symm)⟩
  · intro t
    rw [hstate]
    split_ifs
    · omega
    · exact hinv.range t
  · intro t
    rw [hstate]
    by_cases h : target = t
    · intro _; rw [← h]; exact hst
    · rw [if_neg h]; exact hinv.stored t
  · intro t u ht hu
    obtain ⟨h1, _⟩ := hblack t ht
    rw [hstate]
    split_ifs
    · omega
    · exact hinv.black_next t u h1 hu
  · refine List.pairwise_cons.mpr ⟨fun b hb => ?_, ?_⟩
    · have hbS := hinv.gray_on b hb
      simp only
      rw [hdT, hdS b hbS]
      exact hinv.index b hbS
    · refine hinv.gray_sorted.imp_of_mem ?_
      intro a b ha hb hab
      simp only
      rw [hdS a (hinv.gray_on a ha), hdS b (hinv.gray_on b hb)]
      exact hab
  · simp only [hS]
    refine List.pairwise_cons.mpr ⟨fun b hb => ?_, ?_⟩
    · rw [hdT, hdS b hb]
      exact hinv.index b hb
    · refine hinv.sorted.imp_of_mem ?_
      intro a b ha hb hab
      rw [hdS a ha, hdS b hb]
      exact hab
  · intro y
    simp only [hS]
    have hfresh : ∀ z ∈ st.user.on_stack,
        NodeTraversal.lt target z = true ∨ NodeTraversal.lt z target = true := by
      intro z hz
      have hzS := (hinv.on_stack z).mp hz
      by_contra hcon
      simp only [not_or, Bool.not_eq_true] at hcon
      have heq := (trav_equiv_iff target z).mp (by rw [hcon.1, hcon.2]; rfl)
      exact hneS z hzS
        (trav_eq_of_stored g target z hst (hinv.stored z (hinv.met z hzS)) heq.1 heq.2)
    have : (scc_begin st.user target).on_stack
        = set_insert NodeTraversal.lt target st.user.on_stack := rfl
    rw [this, set_insert_mem_fresh NodeTraversal.lt target _ hfresh, List.mem_cons, hinv.on_stack]
  · intro t ht
    simp only [hS] at ht
    rw [hstate]
    split_ifs
    · omega
    · rcases List.mem_cons.mp ht with h1 | h1
      · exact absurd h1.symm ‹_›
      · exact hinv.met t h1
  · intro t ht
    simp only [hS]
    rcases List.mem_cons.mp ht with h1 | h1
    · rw [h1]; exact List.mem_cons_self _ _
    · exact List.mem_cons_of_mem _ (hinv.gray_on t h1)
  · intro t ht
    simp only [hS] at ht
    have hidx : (scc_begin st.user target).index = st.user.index + 1 := rfl
    rw [hidx]
    rcases List.mem_cons.mp ht with h1 | h1
    · rw [h1, hdT]; omega
    · rw [hdS t h1]
      have := hinv.index t h1
      omega
  · intro t ht
    rcases List.mem_cons.mp ht with h1 | h1
    · rw [h1, scc_begin_root, if_pos rfl]
    · rw [hrS t (hinv.gray_on t h1)]
      exact hinv.gray_root t h1
  · intro t ht hb
    simp only [hS] at ht ⊢
    obtain ⟨hb1, hb2⟩ := hblack t hb
    have htS : t ∈ st.user.stack := by
      rcases List.mem_cons.mp ht with h1 | h1
      · exact absurd h1.symm hb2
      · exact h1
    obtain ⟨r1, r2, r3⟩ := hinv.black_root t htS hb1
    rw [hrS t htS, hdS t htS, hdS _ r1]
    exact ⟨List.mem_cons_of_mem _ r1, r2, r3⟩
  · intro t ht hb u hu hf
    simp only [hS] at ht hu
    obtain ⟨hb1, hb2⟩ := hblack t hb
    have htS : t ∈ st.user.stack := by
      rcases List.mem_cons.mp ht with h1 | h1
      · exact absurd h1.symm hb2
      · exact h1
    have huS : u ∈ st.user.stack := by
      rcases List.mem_cons.mp hu with h1 | h1
      · exact absurd (h1 ▸ hpre) (hinv.black_next t u hb1 hf)
      · exact h1
    obtain ⟨r1, _, _⟩ := hinv.black_root t htS hb1
    rw [hrS t htS, hdS _ r1, hdS u huS]
    exact hinv.low t htS hb1 u huS hf
  · intro v hv hb
    simp only [hS] at hv ⊢
    obtain ⟨hb1, hb2⟩ := hblack v hb
    have hvS : v ∈ st.user.stack := by
      rcases List.mem_cons.mp hv with h1 | h1
      · exact absurd h1.symm hb2
      · exact h1
    obtain ⟨u, huS, p1, p2, p3, p4⟩ := hinv.parent v hvS hb1
    obtain ⟨r1, _, _⟩ := hinv.black_root v hvS hb1
    refine ⟨u, List.mem_cons_of_mem _ huS, p1, ?_, ?_, ?_⟩
    · rw [hdS u huS, hdS v hvS]; exact p2
    · intro z hz
      rcases List.mem_cons.mp hz with h1 | h1
      · rw [h1, hdT, hdS v hvS]
        have := hinv.index v hvS
        omega
      · rw [hdS u huS, hdS v hvS, hdS z (hinv.gray_on z h1)]
        exact p3 z h1
    · intro hub
      obtain ⟨hub1, _⟩ := hblack u hub
      obtain ⟨q1, _, _⟩ := hinv.black_root u huS hub1
      rw [hrS u huS, hrS v hvS, hdS _ q1, hdS _ r1]
      exact p4 hub1
  · intro v hv
    simp only [hS] at hv
    rcases List.mem_cons.mp hv with h1 | h1
    · exact ⟨target, List.mem_cons_self _ _, by rw [h1]⟩
    · obtain ⟨z, hz, hzd⟩ := hinv.gray_below v h1
      refine ⟨z, List.mem_cons_of_mem _ hz, ?_⟩
      rw [hdS z (hinv.gray_on z hz), hdS v h1]
      exact hzd
  · intro t u hb ht hf
    simp only [hS] at ht ⊢
    obtain ⟨hb1, _⟩ := hblack t hb
    have htS : t ∉ st.user.stack := fun h => ht (List.mem_cons_of_mem _ h)
    obtain ⟨c1, c2⟩ := hinv.closed t u hb1 htS hf
    have hnu : target ≠ u := hne u (by omega)
    refine ⟨by rw [hstate, if_neg hnu]; exact c1, fun h => ?_⟩
    rcases List.mem_cons.mp h with h1 | h1
    · exact hnu h1.symm
    · exact c2 h1
  · intro t hb ht
    simp only [hS] at ht
    obtain ⟨hb1, _⟩ := hblack t hb
    exact hinv.found t hb1 (fun h => ht (List.mem_cons_of_mem _ h))

theorem scc_gray_fresh (g : VG) (st : DfsState SccState) (gray : List NodeTraversal)
    (trav : NodeTraversal) (hinv : scc_inv g st (trav :: gray)) :
    trav ∉ gray ∧ search_state st trav = 1 ∧ trav ∈ st.user.stack
      ∧ (∀ z ∈ gray, scc_disc st.user z < scc_disc st.user trav)
      ∧ (∀ z ∈ gray, z ≠ trav) := by
  obtain ⟨h1, _⟩ := List.pairwise_cons.mp hinv.gray_sorted
  have hn : trav ∉ gray := fun h => by
    have := h1 trav h
    omega
  exact ⟨hn, (hinv.curr trav).mpr (List.mem_cons_self _ _),
    hinv.gray_on trav (List.mem_cons_self _ _), h1, fun z hz h => hn (h ▸ hz)⟩

theorem scc_root_le (g : VG) (st : DfsState SccState) (gray : List NodeTraversal)
    (hinv : scc_inv g st gray) (u : NodeTraversal) (hu : u ∈ st.user.stack) :
    scc_root st.user u ∈ st.user.stack
      ∧ scc_disc st.user (scc_root st.user u) ≤ scc_disc st.user u
      ∧ reaches g u (scc_root st.user u) := by
  by_cases h1 : search_state st u = 1
  · rw [hinv.gray_root u ((hinv.curr u).mp h1)]
    exact ⟨hu, le_refl _, Relation.ReflTransGen.refl⟩
  · have h2 : search_state st u = 2 := by
      have := hinv.range u
      have := hinv.met u hu
      omega
    obtain ⟨r1, r2, r3⟩ := hinv.black_root u hu h2
    exact ⟨r1, le_of_lt r2, r3⟩

theorem scc_inv_stay (g : VG) (st : DfsState SccState) (gray : List NodeTraversal)
    (trav : NodeTraversal) (st1 : SccState)
    (hinv : scc_inv g st (trav :: gray))
    (hnext : ∀ u, follows g trav u → search_state st u ≠ 0)
    (e_index : st1.index = st.user.index)
    (e_disc : st1.discover_idx = st.user.discover_idx)
    (e_stack : st1.stack = st.user.stack)
    (e_on : st1.on_stack = st.user.on_stack)
    (e_comp : st1.components = st.user.components)
    (e_root : ∀ t, t ≠ trav → scc_root st1 t = scc_root st.user t)
    (hrS : scc_root st1 trav ∈ st.user.stack) (hrne : scc_root st1 trav ≠ trav)
    (hrd : scc_disc st.user (scc_root st1 trav) ≤ scc_disc st.user trav)
    (hrr : reaches g trav (scc_root st1 trav))
    (hlow : ∀ u ∈ st.user.stack, follows g trav u →
      scc_disc st.user (scc_root st1 trav) ≤ scc_disc st.user (scc_root st.user u)) :
    scc_inv g { state := map_insert st.state trav 2, user := st1 } gray := by
  obtain ⟨hfresh, hcur, htS, hgd, hgne⟩ := scc_gray_fresh g st gray trav hinv
  have hstate : ∀ x, search_state
      ({ state := map_insert st.state trav 2, user := st1 } : DfsState SccState) x
        = if trav = x then 2 else search_state st x :=
    fun x => search_state_insert st _ trav x 2
  have hd : ∀ x, scc_disc st1 x = scc_disc st.user x := by
    intro x; unfold scc_disc; rw [e_disc]
  have hinj := pairwise_disc_inj (scc_disc st.user) st.user.stack hinv.sorted
  have hrlt : scc_disc st.user (scc_root st1 trav) < scc_disc st.user trav := by
    rcases lt_or_eq_of_le hrd with h | h
    · exact h
    · exact absurd (hinj _ hrS _ htS h) hrne
  have hgray : ∃ u0 rest0, gray = u0 :: rest0 := by
    cases hg : gray with
    | nil =>
      obtain ⟨z, hz, hzd⟩ := hinv.gray_below _ hrS
      rw [hg] at hz
      simp only [List.mem_singleton] at hz
      rw [hz] at hzd
      omega
    | cons u0 rest0 => exact ⟨u0, rest0, rfl⟩
  obtain ⟨u0, rest0, hgray⟩ := hgray
  have hu0 : u0 ∈ gray := by rw [hgray]; exact List.mem_cons_self _ _
  have hmono : ∀ x, search_state st x ≠ 0 → search_state
      ({ state := map_insert st.state trav 2, user := st1 } : DfsState SccState) x ≠ 0 := by
    intro x hx
    rw [hstate]
    split_ifs
    · omega
    · exact hx
  have hblack : ∀ x, search_state
      ({ state := map_insert st.state trav 2, user := st1 } : DfsState SccState) x = 2 →
        x = trav ∨ (x ≠ trav ∧ search_state st x = 2) := by
    intro x hx
    rw [hstate] at hx
    by_cases h : trav = x
    · exact Or.inl h.symm
    · rw [if_neg h] at hx
      exact Or.inr ⟨fun h2 => h h2.symm, hx⟩
  refine
    { curr := ?_, range := ?_, stored := ?_, black_next := ?_, chain := hinv.chain.tail,
      gray_sorted := ?_, sorted := ?_, on_stack := ?_, met := ?_, gray_on := ?_, index := ?_,
      gray_root := ?_, black_root := ?_, low := ?_, parent := ?_, gray_below := ?_,
      closed := ?_, found := ?_, sound := ?_ }
  · intro t
    rw [hstate]
    by_cases h : trav = t
    · rw [if_pos h]
      exact ⟨fun h1 => by omega, fun h1 => absurd (h ▸ h1) hfresh⟩
    · rw [if_neg h, hinv.curr, List.mem_cons]
      exact ⟨fun h1 => h1.resolve_left (fun h2 => h h2.symm), fun h1 => Or.inr h1⟩
  · intro t
    rw [hstate]
    split_ifs
    · omega
    · exact hinv.range t
  · intro t
    rw [hstate]
    by_cases h : trav = t
    · intro _; rw [← h]; exact hinv.stored trav (by omega)
    · rw [if_neg h]; exact hinv.stored t
  · intro t u ht hu
    rcases hblack t ht with h | ⟨_, h⟩
    · rw [h] at hu; exact hmono u (hnext u hu)
    · exact hmono u (hinv.black_next t u h hu)
  · refine (List.pairwise_cons.mp hinv.gray_sorted).2.imp ?_
    intro a b hab
    simp only
    rw [hd, hd]
    exact hab
  · simp only [e_stack]
    refine hinv.sorted.imp ?_
    intro a b hab
    rw [hd, hd]
    exact hab
  · intro y
    simp only [e_on, e_stack]
    exact hinv.on_stack y
  · intro t ht
    simp only [e_stack] at ht
    exact hmono t (hinv.met t ht)
  · intro t ht
    simp only [e_stack]
    exact hinv.gray_on t (List.mem_cons_of_mem _ ht)
  · intro t ht
    simp only [e_stack] at ht
    simp only [e_index]
    rw [hd]
    exact hinv.index t ht
  · intro t ht
    simp only
    rw [e_root t (hgne t ht)]
    exact hinv.gray_root t (List.mem_cons_of_mem _ ht)
  · intro t ht hb
    simp only [e_stack] at ht ⊢
    rcases hblack t hb with h | ⟨h1, h2⟩
    · rw [h, hd, hd]
      exact ⟨hrS, hrlt, hrr⟩
    · rw [e_root t h1, hd, hd]
      exact hinv.black_root t ht h2
  · intro t ht hb u hu hf
    simp only [e_stack] at ht hu
    simp only
    rw [hd, hd]
    rcases hblack t hb with h | ⟨h1, h2⟩
    · rw [h] at hf ⊢
      exact le_trans (hlow u hu hf) (scc_root_le g st _ hinv u hu).2.1
    · rw [e_root t h1]
      exact hinv.low t ht h2 u hu hf
  · intro v hv hb
    simp only [e_stack] at hv ⊢
    rcases hblack v hb with h | ⟨h1, h2⟩
    · refine ⟨u0, hinv.gray_on u0 (List.mem_cons_of_mem _ hu0), ?_, ?_, ?_, ?_⟩
      · have := hinv.chain
        rw [hgray] at this
        rw [h]
        exact (List.chain'_cons.mp this).1
      · rw [h, hd, hd]; exact hgd u0 hu0
      · intro z hz
        rw [hd, hd, hd]
        have hs2 := (List.pairwise_cons.mp hinv.gray_sorted).2
        rw [hgray] at hs2 hz
        rcases List.mem_cons.mp hz with h3 | h3
        · rw [h3]; omega
        · have := (List.pairwise_cons.mp hs2).1 z h3
          omega
      · intro hub
        rw [hstate, if_neg (fun h3 => hgne u0 hu0 h3.symm)] at hub
        have := (hinv.curr u0).mpr (List.mem_cons_of_mem _ hu0)
        omega
    · obtain ⟨u, huS, p1, p2, p3, p4⟩ := hinv.parent v hv h2
      refine ⟨u, huS, p1, by rw [hd, hd]; exact p2, ?_, ?_⟩
      · intro z hz
        rw [hd, hd, hd]
        exact p3 z (List.mem_cons_of_mem _ hz)
      · intro hub
        rw [hd, hd, e_root v h1]
        rcases hblack u hub with h3 | ⟨h3, h4⟩
        · rw [h3] at p1 ⊢
          exact hlow v hv p1
        · rw [e_root u h3]
          exact p4 h4
  · intro v hv
    simp only [e_stack] at hv
    obtain ⟨z, hz, hzd⟩ := hinv.gray_below v hv
    rcases List.mem_cons.mp hz with h | h
    · refine ⟨u0, hu0, ?_⟩
      rw [hd, hd]
      have := hgd u0 hu0
      rw [h] at hzd
      omega
    · exact ⟨z, h, by rw [hd, hd]; exact hzd⟩
  · intro t u hb ht hf
    simp only [e_stack] at ht ⊢
    rcases hblack t hb with h | ⟨_, h2⟩
    · exact absurd (h ▸ htS) ht
    · obtain ⟨c1, c2⟩ := hinv.closed t u h2 ht hf
      refine ⟨?_, c2⟩
      rw [hstate]
      split_ifs
      · rfl
      · exact c1
  · intro t hb ht
    simp only [e_stack] at ht
    simp only [e_comp]
    rcases hblack t hb with h | ⟨_, h2⟩
    · exact absurd (h ▸ htS) ht
    · exact hinv.found t h2 ht
  · simp only [e_comp]
    exact hinv.sound

theorem scc_closed_reach (g : VG) (st : DfsState SccState) (gray : List NodeTraversal)
    (hinv : scc_inv g st gray) (a b : NodeTraversal) (h : reaches g a b)
    (ha : search_state st a = 2 ∧ a ∉ st.user.stack) :
    search_state st b = 2 ∧ b ∉ st.user.stack := by
  unfold reaches at h
  induction h with
  | refl => exact ha
  | tail _ hstep ih => exact hinv.closed _ _ ih.1 ih.2 hstep

theorem scc_inv_pop (g : VG) (st : DfsState SccState) (gray : List NodeTraversal)
    (trav : NodeTraversal) (user2 : SccState) (pre rest : List NodeTraversal)
    (hinv : scc_inv g st (trav :: gray))
    (hnext : ∀ u, follows g trav u → search_state st u ≠ 0)
    (hsplit : st.user.stack = pre ++ trav :: rest)
    (e_index : user2.index = st.user.index)
    (e_disc : user2.discover_idx = st.user.discover_idx)
    (e_stack : user2.stack = rest)
    (e_on : user2.on_stack
      = (pre ++ [trav]).foldl (fun os o => set_erase NodeTraversal.lt o os) st.user.on_stack)
    (e_comp : user2.components
      = set_insert id_set_lt
          ((pre ++ [trav]).foldl (fun c o => set_insert id_lt o.node.id c) [])
          st.user.components)
    (e_root : ∀ t, t ≠ trav → scc_root user2 t = scc_root st.user t)
    (hlow : ∀ u ∈ st.user.stack, follows g trav u →
      scc_disc st.user trav ≤ scc_disc st.user (scc_root st.user u)) :
    scc_inv g { state := map_insert st.state trav 2, user := user2 } gray := by
  obtain ⟨hfresh, hcur, htS, hgd, hgne⟩ := scc_gray_fresh g st gray trav hinv
  have hstate : ∀ x, search_state
      ({ state := map_insert st.state trav 2, user := user2 } : DfsState SccState) x
        = if trav = x then 2 else search_state st x :=
    fun x => search_state_insert st _ trav x 2
  have hd : ∀ x, scc_disc user2 x = scc_disc st.user x := by
    intro x; unfold scc_disc; rw [e_disc]
  have hsorted := hinv.sorted
  rw [hsplit] at hsorted
  obtain ⟨hpre_d, hrest_d, _⟩ := pairwise_disc_split (scc_disc st.user) pre rest trav hsorted
  have hmemS : ∀ x, x ∈ st.user.stack ↔ (x ∈ pre ∨ x = trav ∨ x ∈ rest) := by
    intro x
    rw [hsplit, List.mem_append, List.mem_cons]
  have htop : ∀ v ∈ st.user.stack, scc_disc st.user trav ≤ scc_disc st.user v →
      v ∈ pre ∨ v = trav := by
    intro v hv hle
    rcases (hmemS v).mp hv with h | h | h
    · exact Or.inl h
    · exact Or.inr h
    · have := hrest_d v h
      omega
  have hbelow : ∀ v ∈ st.user.stack, scc_disc st.user v < scc_disc st.user trav → v ∈ rest := by
    intro v hv hlt
    rcases (hmemS v).mp hv with h | h | h
    · have := hpre_d v h
      omega
    · rw [h] at hlt; omega
    · exact h
  have hrestS : ∀ v ∈ rest, v ∈ st.user.stack := fun v hv => (hmemS v).mpr (Or.inr (Or.inr hv))
  have hrest_ne : ∀ v ∈ rest, v ≠ trav := by
    intro v hv h
    have := hrest_d v hv
    rw [h] at this
    omega
  have hpreS : ∀ v ∈ pre, v ∈ st.user.stack := fun v hv => (hmemS v).mpr (Or.inl hv)
  have hpre_black : ∀ v ∈ pre, search_state st v = 2 := by
    intro v hv
    have h0 := hinv.met v (hpreS v hv)
    have h2 := hinv.range v
    have h1 : search_state st v ≠ 1 := by
      intro h1
      have hlt := hpre_d v hv
      rcases List.mem_cons.mp ((hinv.curr v).mp h1) with h | h
      · rw [h] at hlt; omega
      · have := hgd v h
        omega
    omega
  have hclaim : ∀ n : Nat, ∀ v ∈ pre,
      (scc_disc st.user v - scc_disc st.user trav).toNat ≤ n →
      scc_disc st.user trav ≤ scc_disc st.user (scc_root st.user v)
        ∧ reaches g trav v ∧ reaches g v trav := by
    intro n
    induction n with
    | zero =>
      intro v hv hn
      have := hpre_d v hv
      omega
    | succ n ih =>
      intro v hv hn
      have hvS := hpreS v hv
      have hvb := hpre_black v hv
      have hvd := hpre_d v hv
      obtain ⟨u, huS, p1, p2, p3, p4⟩ := hinv.parent v hvS hvb
      have hud : scc_disc st.user trav ≤ scc_disc st.user u := by
        by_contra hcon
        exact p3 trav (List.mem_cons_self _ _) ⟨by omega, hvd⟩
      have hA : scc_disc st.user trav ≤ scc_disc st.user (scc_root st.user v)
          ∧ reaches g trav v := by
        rcases htop u huS hud with h | h
        · obtain ⟨i1, i2, _⟩ := ih u h (by omega)
          exact ⟨le_trans i1 (p4 (hpre_black u h)),
            Relation.ReflTransGen.tail i2 p1⟩
        · rw [h] at p1
          exact ⟨hlow v hvS p1, Relation.ReflTransGen.single p1⟩
      refine ⟨hA.1, hA.2, ?_⟩
      obtain ⟨r1, r2, r3⟩ := hinv.black_root v hvS hvb
      rcases htop _ r1 hA.1 with h | h
      · obtain ⟨_, _, i3⟩ := ih _ h (by omega)
        exact Relation.ReflTransGen.trans r3 i3
      · rw [h] at r3; exact r3
  have hA : ∀ v ∈ pre, scc_disc st.user trav ≤ scc_disc st.user (scc_root st.user v) :=
    fun v hv => (hclaim _ v hv (le_refl _)).1
  have hB : ∀ v, v ∈ pre ∨ v = trav → reaches g trav v := by
    intro v hv
    rcases hv with h | h
    · exact (hclaim _ v h (le_refl _)).2.1
    · rw [h]; exact Relation.ReflTransGen.refl
  have hC : ∀ v, v ∈ pre ∨ v = trav → reaches g v trav := by
    intro v hv
    rcases hv with h | h
    · exact (hclaim _ v h (le_refl _)).2.2
    · rw [h]; exact Relation.ReflTransGen.refl
  have hclo : ∀ v, v ∈ pre ∨ v = trav → ∀ u, follows g v u →
      (u ∈ pre ∨ u = trav) ∨ (search_state st u = 2 ∧ u ∉ st.user.stack) := by
    intro v hv u hf
    have hu0 : search_state st u ≠ 0 := by
      rcases hv with h | h
      · exact hinv.black_next v u (hpre_black v h) hf
      · rw [h] at hf; exact hnext u hf
    by_cases huS : u ∈ st.user.stack
    · left
      refine htop u huS ?_
      rcases hv with h | h
      · exact le_trans (hA v h) (hinv.low v (hpreS v h) (hpre_black v h) u huS hf)
      · rw [h] at hf
        exact le_trans (hlow u huS hf) (scc_root_le g st _ hinv u huS).2.1
    · right
      refine ⟨?_, huS⟩
      have h1 : search_state st u ≠ 1 := fun h1 => huS (hinv.gray_on u ((hinv.curr u).mp h1))
      have := hinv.range u
      omega
  have hreach : ∀ x, x ∈ pre ∨ x = trav → ∀ u, reaches g x u →
      (u ∈ pre ∨ u = trav) ∨ (search_state st u = 2 ∧ u ∉ st.user.stack) := by
    intro x hx u hu
    unfold reaches at hu
    induction hu with
    | refl => exact Or.inl hx
    | tail _ hstep ih =>
      rcases ih with h | h
      · exact hclo _ h _ hstep
      · exact Or.inr (hinv.closed _ _ h.1 h.2 hstep)
  have hstoredT : ∀ x, x ∈ pre ∨ x = trav → get_node g x.node.id = some x.node := by
    intro x hx
    rcases hx with h | h
    · exact hinv.stored x (by rw [hpre_black x h]; omega)
    · rw [h]; exact hinv.stored trav (by omega)
  have hTS : ∀ x, x ∈ pre ∨ x = trav → x ∈ st.user.stack := by
    intro x hx
    rcases hx with h | h
    · exact hpreS x h
    · rw [h]; exact htS
  have hcomp : ∀ x, x ∈ pre ∨ x = trav →
      component_of g x ((pre ++ [trav]).foldl (fun c o => set_insert id_lt o.node.id c) []) := by
    intro x hx id
    have hmem := foldl_set_insert_mem id_lt id_lt_total (fun o : NodeTraversal => o.node.id)
      (pre ++ [trav]) [] id
    constructor
    · intro h
      rcases hmem.mp h with h1 | ⟨y, hy, h1⟩
      · simp at h1
      · have hyT : y ∈ pre ∨ y = trav := by
          rcases List.mem_append.mp hy with h2 | h2
          · exact Or.inl h2
          · exact Or.inr (List.mem_singleton.mp h2)
        exact ⟨y, h1.symm, hstoredT y hyT,
          Relation.ReflTransGen.trans (hC x hx) (hB y hyT),
          Relation.ReflTransGen.trans (hC y hyT) (hB x hx)⟩
    · rintro ⟨u, hid, _, hxu, hux⟩
      rcases hreach x hx u hxu with h | h
      · refine hmem.mpr (Or.inr ⟨u, ?_, hid.symm⟩)
        rcases h with h2 | h2
        · exact List.mem_append.mpr (Or.inl h2)
        · exact List.mem_append.mpr (Or.inr (List.mem_singleton.mpr h2))
      · exact absurd (hTS x hx) (scc_closed_reach g st _ hinv u x hux h).2
  have hmono : ∀ x, search_state st x ≠ 0 → search_state
      ({ state := map_insert st.state trav 2, user := user2 } : DfsState SccState) x ≠ 0 := by
    intro x hx
    rw [hstate]
    split_ifs
    · omega
    · exact hx
  have hblack : ∀ x, search_state
      ({ state := map_insert st.state trav 2, user := user2 } : DfsState SccState) x = 2 →
        x = trav ∨ (x ≠ trav ∧ search_state st x = 2) := by
    intro x hx
    rw [hstate] at hx
    by_cases h : trav = x
    · exact Or.inl h.symm
    · rw [if_neg h] at hx
      exact Or.inr ⟨fun h2 => h h2.symm, hx⟩
  have hblack2 : ∀ x, (x ∈ pre ∨ x = trav) ∨ (search_state st x = 2 ∧ x ∉ st.user.stack) →
      search_state ({ state := map_insert st.state trav 2, user := user2 } :
        DfsState SccState) x = 2 ∧ x ∉ rest := by
    intro x hx
    rw [hstate]
    rcases hx with (h | h) | h
    · refine ⟨by split_ifs <;> [rfl; exact hpre_black x h], fun h2 => ?_⟩
      have := hpre_d x h
      have := hrest_d x h2
      omega
    · exact ⟨by rw [if_pos h.symm], fun h2 => hrest_ne x h2 h⟩
    · exact ⟨by split_ifs <;> [rfl; exact h.1], fun h2 => h.2 (hrestS x h2)⟩
  have hout : ∀ x, search_state ({ state := map_insert st.state trav 2, user := user2 } :
        DfsState SccState) x = 2 → x ∉ rest →
      (x ∈ pre ∨ x = trav) ∨ (search_state st x = 2 ∧ x ∉ st.user.stack) := by
    intro x hb hx
    rcases hblack x hb with h | ⟨h1, h2⟩
    · exact Or.inl (Or.inr h)
    · by_cases hxS : x ∈ st.user.stack
      · rcases (hmemS x).mp hxS with h3 | h3 | h3
        · exact Or.inl (Or.inl h3)
        · exact Or.inl (Or.inr h3)
        · exact absurd h3 hx
      · exact Or.inr ⟨h2, hxS⟩
  refine
    { curr := ?_, range := ?_, stored := ?_, black_next := ?_, chain := hinv.chain.tail,
      gray_sorted := ?_, sorted := ?_, on_stack := ?_, met := ?_, gray_on := ?_, index := ?_,
      gray_root := ?_, black_root := ?_, low := ?_, parent := ?_, gray_below := ?_,
      closed := ?_, found := ?_, sound := ?_ }
  · intro t
    rw [hstate]
    by_cases h : trav = t
    · rw [if_pos h]
      exact ⟨fun h1 => by omega, fun h1 => absurd (h ▸ h1) hfresh⟩
    · rw [if_neg h, hinv.curr, List.mem_cons]
      exact ⟨fun h1 => h1.resolve_left (fun h2 => h h2.symm), fun h1 => Or.inr h1⟩
  · intro t
    rw [hstate]
    split_ifs
    · omega
    · exact hinv.range t
  · intro t
    rw [hstate]
    by_cases h : trav = t
    · intro _; rw [← h]; exact hinv.stored trav (by omega)
    · rw [if_neg h]; exact hinv.stored t
  · intro t u ht hu
    rcases hblack t ht with h | ⟨_, h⟩
    · rw [h] at hu; exact hmono u (hnext u hu)
    · exact hmono u (hinv.black_next t u h hu)
  · refine (List.pairwise_cons.mp hinv.gray_sorted).2.imp ?_
    intro a b hab
    simp only
    rw [hd, hd]
    exact hab
  · simp only [e_stack]
    have h2 := (List.pairwise_append.mp hsorted).2.1
    refine (List.pairwise_cons.mp h2).2.imp ?_
    intro a b hab
    rw [hd, hd]
    exact hab
  · intro y
    simp only [e_on, e_stack]
    rw [foldl_set_erase_mem, hinv.on_stack]
    constructor
    · rintro ⟨h1, h2⟩
      rcases (hmemS y).mp h1 with h3 | h3 | h3
      · exact absurd ⟨rfl, rfl⟩ (h2 y (List.mem_append.mpr (Or.inl h3)))
      · exact absurd ⟨rfl, rfl⟩
          (h2 y (List.mem_append.mpr (Or.inr (List.mem_singleton.mpr h3))))
      · exact h3
    · intro h
      refine ⟨hrestS y h, fun o ho heq => ?_⟩
      have hoT : o ∈ pre ∨ o = trav := by
        rcases List.mem_append.mp ho with h2 | h2
        · exact Or.inl h2
        · exact Or.inr (List.mem_singleton.mp h2)
      have hoy : o = y :=
        trav_eq_of_stored g o y (hstoredT o hoT)
          (hinv.stored y (hinv.met y (hrestS y h))) heq.1 heq.2
      have := hrest_d y h
      rcases hoT with h3 | h3
      · have := hpre_d o h3
        rw [hoy] at this
        omega
      · rw [← hoy, h3] at this
        omega
  · intro t ht
    simp only [e_stack] at ht
    exact hmono t (hinv.met t (hrestS t ht))
  · intro t ht
    simp only [e_stack]
    exact hbelow t (hinv.gray_on t (List.mem_cons_of_mem _ ht)) (hgd t ht)
  · intro t ht
    simp only [e_stack] at ht
    simp only [e_index]
    rw [hd]
    exact hinv.index t (hrestS t ht)
  · intro t ht
    simp only
    rw [e_root t (hgne t ht)]
    exact hinv.gray_root t (List.mem_cons_of_mem _ ht)
  · intro t ht hb
    simp only [e_stack] at ht ⊢
    rcases hblack t hb with h | ⟨h1, h2⟩
    · exact absurd h (hrest_ne t ht)
    · rw [e_root t h1, hd, hd]
      obtain ⟨r1, r2, r3⟩ := hinv.black_root t (hrestS t ht) h2
      have := hrest_d t ht
      exact ⟨hbelow _ r1 (by omega), r2, r3⟩
  · intro t ht hb u hu hf
    simp only [e_stack] at ht hu
    simp only
    rw [hd, hd]
    rcases hblack t hb with h | ⟨h1, h2⟩
    · exact absurd h (hrest_ne t ht)
    · rw [e_root t h1]
      exact hinv.low t (hrestS t ht) h2 u (hrestS u hu) hf
  · intro v hv hb
    simp only [e_stack] at hv ⊢
    rcases hblack v hb with h | ⟨h1, h2⟩
    · exact absurd h (hrest_ne v hv)
    · obtain ⟨u, huS, p1, p2, p3, p4⟩ := hinv.parent v (hrestS v hv) h2
      have hvd := hrest_d v hv
      have hur : u ∈ rest := hbelow u huS (by omega)
      refine ⟨u, hur, p1, by rw [hd, hd]; exact p2, ?_, ?_⟩
      · intro z hz
        rw [hd, hd, hd]
        exact p3 z (List.mem_cons_of_mem _ hz)
      · intro hub
        rw [hd, hd, e_root v h1, e_root u (hrest_ne u hur)]
        rcases hblack u hub with h3 | ⟨_, h4⟩
        · exact absurd h3 (hrest_ne u hur)
        · exact p4 h4
  · intro v hv
    simp only [e_stack] at hv
    obtain ⟨z, hz, hzd⟩ := hinv.gray_below v (hrestS v hv)
    rcases List.mem_cons.mp hz with h | h
    · have := hrest_d v hv
      rw [h] at hzd
      omega
    · exact ⟨z, h, by rw [hd, hd]; exact hzd⟩
  · intro t u hb ht hf
    simp only [e_stack] at ht ⊢
    rcases hout t hb ht with h | h
    · exact hblack2 u (hclo t h u hf)
    · exact hblack2 u (Or.inr (hinv.closed t u h.1 h.2 hf))
  · intro t hb ht
    simp only [e_stack] at ht
    simp only [e_comp]
    rcases hout t hb ht with h | h
    · exact ⟨_, (set_insert_mem id_set_lt id_set_lt_total _ _ _).mpr (Or.inl rfl), hcomp t h⟩
    · obtain ⟨c, hc, hc2⟩ := hinv.found t h.1 h.2
      exact ⟨c, (set_insert_mem id_set_lt id_set_lt_total _ _ _).mpr (Or.inr hc), hc2⟩
  · intro c hc
    simp only [e_comp] at hc
    rcases (set_insert_mem id_set_lt id_set_lt_total _ _ _).mp hc with h | h
    · rw [h]
      exact ⟨trav, hstoredT trav (Or.inr rfl), hcomp trav (Or.inr rfl)⟩
    · exact hinv.sound c h

theorem frame_edges_some (g : VG) (hs : store_consistent g) (t : NodeTraversal)
    (ht : get_node g t.node.id = some t.node) :
    ∃ es, frame_edges g t = some es ∧ frame_valid g (t, es) := by
  obtain ⟨nexts, hn, _⟩ := travs_from_some g hs t
  have hall : ∀ x ∈ nexts, ∃ y, (fun next => get_edge_trav g t next) x = some y := by
    intro x hx
    obtain ⟨_, e, he, _, _⟩ := follows_edge g hs t x ⟨nexts, hn, hx⟩
    exact ⟨e, he⟩
  obtain ⟨es, hes, hes2⟩ := all_some_map (fun next => get_edge_trav g t next) nexts hall
  refine ⟨es, ?_, ?_⟩
  · unfold frame_edges
    rw [hn]
    exact hes
  · intro e he
    obtain ⟨x, hx, hxe⟩ := hes2 e he
    have hf : follows g t x := ⟨nexts, hn, hx⟩
    obtain ⟨hgx, e2, he2, _, hcase⟩ := follows_edge g hs t x hf
    rw [he2] at hxe
    have hee : e2 = e := Option.some.inj hxe
    rw [← hee]
    exact ⟨x, dfs_target_follows g t x e2 ht hgx hcase, hf⟩

theorem scc_inv_finish (g : VG) (hs : store_consistent g) (st : DfsState SccState)
    (gray : List NodeTraversal) (trav : NodeTraversal)
    (hinv : scc_inv g st (trav :: gray)) (hpend : frame_pending g st (trav, [])) :
    ∃ user, scc_end g st.user trav = some user
      ∧ scc_inv g { state := map_insert st.state trav 2, user := user } gray := by
  obtain ⟨_, hcur, htS, _, _⟩ := scc_gray_fresh g st gray trav hinv
  obtain ⟨nexts, hn, _⟩ := travs_from_some g hs trav
  obtain ⟨st1, ⟨a1, a2, a3, a4, a5, a6, a7, a8, a9⟩, hcase⟩ :=
    scc_end_spec g st.user trav nexts hn htS
  have hnext : ∀ u, follows g trav u → search_state st u ≠ 0 := by
    intro u hu
    rcases hpend u hu with h | ⟨e, h, _⟩
    · exact h
    · simp at h
  have hself : scc_root st.user trav = trav := hinv.gray_root trav (List.mem_cons_self _ _)
  have hon : ∀ u ∈ st.user.stack, set_mem NodeTraversal.lt u st.user.on_stack = true :=
    fun u hu => (set_mem_trav_iff _ _).mpr ⟨u, (hinv.on_stack u).mpr hu, rfl, rfl⟩
  have hon2 : ∀ u, follows g trav u → set_mem NodeTraversal.lt u st.user.on_stack = true →
      u ∈ st.user.stack := by
    intro u hu h
    obtain ⟨y, hy, h1, h2⟩ := (set_mem_trav_iff _ _).mp h
    have hyS := (hinv.on_stack y).mp hy
    have : u = y := trav_eq_of_stored g u y (follows_edge g hs trav u hu).1
      (hinv.stored y (hinv.met y hyS)) h1 h2
    rw [this]; exact hyS
  have hmem : ∀ u, u ∈ nexts → follows g trav u := fun u hu => ⟨nexts, hn, hu⟩
  have hmem2 : ∀ u, follows g trav u → u ∈ nexts := by
    rintro u ⟨n2, h1, h2⟩
    rw [hn] at h1
    cases h1
    exact h2
  rw [hself] at a7 a8
  have hrf : scc_root st1 trav ∈ st.user.stack ∧ reaches g trav (scc_root st1 trav) := by
    rcases a7 with h | ⟨next, h1, _, h3, h4⟩
    · rw [h]; exact ⟨htS, Relation.ReflTransGen.refl⟩
    · have hf := hmem next h1
      obtain ⟨r1, _, r3⟩ := scc_root_le g st _ hinv next (hon2 next hf h3)
      rw [h4]
      exact ⟨r1, Relation.ReflTransGen.head hf r3⟩
  have hlow : ∀ u ∈ st.user.stack, follows g trav u →
      scc_disc st.user (scc_root st1 trav) ≤ scc_disc st.user (scc_root st.user u) := by
    intro u hu hf
    by_cases hut : u = trav
    · rw [hut, hself]; exact a8
    · exact a9 u (hmem2 u hf) hut (hon u hu)
  rcases hcase with ⟨hne, hend⟩ | ⟨heq, pre, rest, hsplit, _, hend⟩
  · exact ⟨st1, hend,
      scc_inv_stay g st gray trav st1 hinv hnext a1 a2 a3 a4 a5 a6 hrf.1 hne a8 hrf.2 hlow⟩
  · refine ⟨_, hend, scc_inv_pop g st gray trav _ pre rest hinv hnext hsplit a1 a2 rfl ?_ rfl ?_ ?_⟩
    · rfl
    · intro t ht
      rw [← a6 t ht]
      rfl
    · intro u hu hf
      have := hlow u hu hf
      rw [heq] at this
      exact this

theorem sum_filter_remove {α : Type} (f : α → Nat) (p q : α → Bool) (x : α) :
    ∀ (l : List α), l.Nodup → x ∈ l → p x = true → q x = false →
      (∀ y, y ≠ x → q y = p y) →
      ((l.filter q).map f).sum + f x = ((l.filter p).map f).sum := by
  intro l
  induction l with
  | nil => intro _ hx; simp at hx
  | cons a rest ih =>
    intro hnd hx hp hq hpq
    obtain ⟨hna, hnd2⟩ := List.nodup_cons.mp hnd
    by_cases hax : a = x
    · subst hax
      have hsame : rest.filter q = rest.filter p := by
        refine List.filter_congr ?_
        intro y hy
        exact hpq y (fun h => hna (h ▸ hy))
      rw [List.filter_cons_of_pos hp, List.filter_cons_of_neg (by rw [hq]; simp), hsame]
      simp only [List.map_cons, List.sum_cons]
      omega
    · have hxr : x ∈ rest := by
        rcases List.mem_cons.mp hx with h | h
        · exact absurd h.symm hax
        · exact h
      have := ih hnd2 hxr hp hq hpq
      have hqa := hpq a hax
      cases hpa : p a
      · rw [hpa] at hqa
        rw [List.filter_cons_of_neg (by rw [hqa]; simp),
          List.filter_cons_of_neg (by rw [hpa]; simp)]
        exact this
      · rw [hpa] at hqa
        rw [List.filter_cons_of_pos hpa, List.filter_cons_of_pos hqa]
        simp only [List.map_cons, List.sum_cons]
        omega

theorem all_travs_nodup (g : VG) (h : g.node.Nodup) : (all_travs g).Nodup := by
  unfold all_travs
  rw [List.nodup_flatMap]
  refine ⟨fun n _ => by simp, ?_⟩
  refine h.imp ?_
  intro a b hab
  simp only [Function.onFun]
  intro t h1 h2
  simp only [List.mem_cons, List.mem_singleton, List.not_mem_nil, or_false] at h1 h2
  rcases h1 with h1 | h1 <;> rcases h2 with h2 | h2 <;>
    · rw [h1] at h2
      exact hab (NodeTraversal.mk.inj h2).1

theorem all_travs_mem (g : VG) (hs : store_consistent g) (t : NodeTraversal)
    (ht : get_node g t.node.id = some t.node) : t ∈ all_travs g := by
  unfold all_travs
  rw [List.mem_flatMap]
  refine ⟨t.node, (hs.nodes_ok.by_id_sound _ _ ht).1, ?_⟩
  obtain ⟨n, b⟩ := t
  cases b <;> simp

theorem white_cost_same {σ : Type} (g : VG) (st st2 : DfsState σ)
    (h : ∀ t, search_state st2 t = 0 ↔ search_state st t = 0) :
    white_cost g st2 = white_cost g st := by
  unfold white_cost
  have : (fun t => decide (search_state st2 t = 0)) = (fun t => decide (search_state st t = 0)) := by
    funext t
    by_cases h1 : search_state st t = 0
    · rw [decide_eq_true h1, decide_eq_true ((h t).mpr h1)]
    · rw [decide_eq_false h1, decide_eq_false (fun h2 => h1 ((h t).mp h2))]
  rw [this]

theorem white_cost_push {σ : Type} (g : VG) (hs : store_consistent g) (st st2 : DfsState σ)
    (target : NodeTraversal) (es : List Edge)
    (ht : get_node g target.node.id = some target.node)
    (hes : frame_edges g target = some es)
    (hpre : search_state st target = 0)
    (h2 : ∀ x, search_state st2 x = if target = x then 1 else search_state st x) :
    white_cost g st2 + (1 + es.length) = white_cost g st := by
  have hc : trav_cost g target = 1 + es.length := by
    unfold trav_cost
    rw [hes]
    rfl
  rw [← hc]
  unfold white_cost
  refine sum_filter_remove (trav_cost g) _ _ target (all_travs g)
    (all_travs_nodup g hs.nodes_ok.node_nodup) (all_travs_mem g hs target ht) ?_ ?_ ?_
  · exact decide_eq_true hpre
  · rw [h2, if_pos rfl]
    rfl
  · intro y hy
    rw [h2, if_neg (fun h => hy h.symm)]

theorem scc_walk (g : VG) (hs : store_consistent g) :
    ∀ (fuel : Nat) (trav : NodeTraversal) (rest : List Edge)
      (todo : List (NodeTraversal × List Edge)) (st : DfsState SccState),
      scc_inv g st (trav :: todo.map Prod.fst) →
      frame_pending g st (trav, rest) → (∀ f ∈ todo, frame_pending g st f) →
      frame_valid g (trav, rest) → (∀ f ∈ todo, frame_valid g f) →
      walk_cost g st rest todo ≤ fuel →
      ∃ st2, dfs_walk g scc_begin (scc_end g) fuel trav rest todo st = some st2
        ∧ scc_inv g st2 [] ∧ ∀ t, search_state st t ≠ 0 → search_state st2 t ≠ 0 := by
  intro fuel
  induction fuel with
  | zero =>
    intro trav rest todo st _ _ _ _ _ hfuel
    unfold walk_cost at hfuel
    omega
  | succ fuel ih =>
    intro trav rest todo st hinv hpend htodo hval hvtodo hfuel
    have hcur : search_state st trav = 1 := (hinv.curr trav).mpr (List.mem_cons_self _ _)
    have hstored : get_node g trav.node.id = some trav.node := hinv.stored trav (by omega)
    cases rest with
    | nil =>
      obtain ⟨user, hend, hinv1⟩ :=
        scc_inv_finish g hs st (todo.map Prod.fst) trav hinv hpend
      have hstate : ∀ x, search_state
          ({ state := map_insert st.state trav 2, user := user } : DfsState SccState) x
            = if trav = x then 2 else search_state st x :=
        fun x => search_state_insert st _ trav x 2
      have hmono : ∀ t, search_state st t ≠ 0 → search_state
          ({ state := map_insert st.state trav 2, user := user } : DfsState SccState) t ≠ 0 := by
        intro t ht
        rw [hstate]
        split_ifs
        · omega
        · exact ht
      rw [dfs_walk, hend]
      simp only
      cases todo with
      | nil => exact ⟨_, rfl, hinv1, hmono⟩
      | cons frame todo1 =>
        simp only
        have hw : white_cost g ({ state := map_insert st.state trav 2, user := user } :
            DfsState SccState) = white_cost g st := by
          refine white_cost_same g _ _ (fun t => ?_)
          rw [hstate]
          by_cases h : trav = t
          · rw [if_pos h, ← h, hcur]; omega
          · rw [if_neg h]
        obtain ⟨st2, r0, r1, r2⟩ := ih frame.1 frame.2 todo1 _ hinv1
          (frame_pending_mono g _ _ _ hmono (htodo frame (List.mem_cons_self _ _)))
          (fun f hf => frame_pending_mono g _ _ _ hmono (htodo f (List.mem_cons_of_mem _ hf)))
          (hvtodo frame (List.mem_cons_self _ _))
          (fun f hf => hvtodo f (List.mem_cons_of_mem _ hf))
          (by
            unfold walk_cost at hfuel ⊢
            rw [hw]
            simp only [List.map_cons, List.sum_cons, List.length_nil] at hfuel
            omega)
        exact ⟨st2, r0, r1, fun t ht => r2 t (hmono t ht)⟩
    | cons edge rest =>
      obtain ⟨target, ht, hft⟩ := hval edge (List.mem_cons_self _ _)
      simp only at ht hft
      have htst := dfs_target_stored g hs trav target edge hstored ht
      rw [dfs_walk, ht]
      simp only
      by_cases hpre : search_state st target = 0
      · have hpre2 : (map_find st.state target).getD 0 = 0 := hpre
        rw [if_pos hpre2]
        obtain ⟨es, hes, hesv⟩ := frame_edges_some g hs target htst
        rw [hes]
        simp only
        have hstate : ∀ x, search_state
            ({ state := map_insert st.state target 1, user := scc_begin st.user target } :
              DfsState SccState) x = if target = x then 1 else search_state st x :=
          fun x => search_state_insert st _ target x 1
        have hmono : ∀ t, search_state st t ≠ 0 → search_state
            ({ state := map_insert st.state target 1, user := scc_begin st.user target } :
              DfsState SccState) t ≠ 0 := by
          intro t ht2
          rw [hstate]
          split_ifs
          · omega
          · exact ht2
        have hinv1 := scc_inv_push g st (trav :: todo.map Prod.fst) target hinv hpre htst
          (List.chain'_cons.mpr ⟨hft, hinv.chain⟩)
        have hw := white_cost_push g hs st _ target es htst hes hpre hstate
        obtain ⟨st2, r0, r1, r2⟩ := ih target es ((trav, rest) :: todo) _ hinv1
          (fun u hu => Or.inr (frame_edges_targets g hs target es htst hes u hu))
          (fun f hf2 => by
            rcases List.mem_cons.mp hf2 with h1 | h1
            · rw [h1]
              intro u hu
              rcases hpend u hu with h2 | ⟨e, h2, h3⟩
              · exact Or.inl (hmono u h2)
              · rcases List.mem_cons.mp h2 with h4 | h4
                · left
                  rw [h4, ht] at h3
                  cases h3
                  rw [hstate, if_pos rfl]
                  omega
                · exact Or.inr ⟨e, h4, h3⟩
            · exact frame_pending_mono g _ _ _ hmono (htodo f h1))
          hesv
          (fun f hf2 => by
            rcases List.mem_cons.mp hf2 with h1 | h1
            · rw [h1]
              exact fun e he => hval e (List.mem_cons_of_mem _ he)
            · exact hvtodo f h1)
          (by
            unfold walk_cost at hfuel ⊢
            simp only [List.map_cons, List.sum_cons, List.length_cons] at hfuel ⊢
            omega)
        exact ⟨st2, r0, r1, fun t ht2 => r2 t (hmono t ht2)⟩
      · have hpre2 : ¬ (map_find st.state target).getD 0 = 0 := hpre
        rw [if_neg hpre2]
        refine ih trav rest todo st hinv (fun u hu => ?_) htodo
          (fun e he => hval e (List.mem_cons_of_mem _ he))
          hvtodo
          (by
            unfold walk_cost at hfuel ⊢
            simp only [List.length_cons] at hfuel
            omega)
        rcases hpend u hu with h2 | ⟨e, h2, h3⟩
        · exact Or.inl h2
        · rcases List.mem_cons.mp h2 with h4 | h4
          · left
            rw [h4, ht] at h3
            cases h3
            exact hpre
          · exact Or.inr ⟨e, h4, h3⟩

theorem sum_filter_le {α : Type} (f : α → Nat) (p : α → Bool) (l : List α) :
    ((l.filter p).map f).sum ≤ (l.map f).sum := by
  induction l with
  | nil => simp
  | cons a rest ih =>
    cases hp : p a
    · rw [List.filter_cons_of_neg (by rw [hp]; simp)]
      simp only [List.map_cons, List.sum_cons]
      omega
    · rw [List.filter_cons_of_pos hp]
      simp only [List.map_cons, List.sum_cons]
      omega

theorem dfs_eq_fold {σ : Type} (g : VG) (node_begin_fn : σ → NodeTraversal → σ)
    (node_end_fn : σ → NodeTraversal → Option σ) (fuel : Nat) (init : σ) :
    dfs g node_begin_fn node_end_fn fuel init
      = (g.node.foldl (dfs_node g node_begin_fn node_end_fn fuel)
          (some { state := [], user := init })).map (fun st => st.user) := rfl

theorem scc_root_step (g : VG) (hs : store_consistent g) (fuel : Nat)
    (hfuel : total_cost g ≤ fuel) (st : DfsState SccState) (root : NodeTraversal)
    (hroot : get_node g root.node.id = some root.node) (hinv : scc_inv g st []) :
    ∃ st2, dfs_root g scc_begin (scc_end g) fuel st root = some st2
      ∧ scc_inv g st2 [] ∧ (∀ t, search_state st t ≠ 0 → search_state st2 t ≠ 0)
      ∧ search_state st2 root ≠ 0 := by
  unfold dfs_root
  by_cases hpre : search_state st root = 0
  · have hpre2 : (map_find st.state root).getD 0 = 0 := hpre
    rw [if_pos hpre2]
    obtain ⟨es, hes, hesv⟩ := frame_edges_some g hs root hroot
    rw [hes]
    simp only
    have hstate : ∀ x, search_state
        ({ state := map_insert st.state root 1, user := scc_begin st.user root } :
          DfsState SccState) x = if root = x then 1 else search_state st x :=
      fun x => search_state_insert st _ root x 1
    have hmono : ∀ t, search_state st t ≠ 0 → search_state
        ({ state := map_insert st.state root 1, user := scc_begin st.user root } :
          DfsState SccState) t ≠ 0 := by
      intro t ht2
      rw [hstate]
      split_ifs
      · omega
      · exact ht2
    have hinv1 := scc_inv_push g st [] root hinv hpre hroot (List.chain'_singleton _)
    have hw := white_cost_push g hs st _ root es hroot hes hpre hstate
    have hle : white_cost g st ≤ total_cost g := sum_filter_le _ _ _
    obtain ⟨st2, r0, r1, r2⟩ := scc_walk g hs fuel root es [] _ hinv1
      (fun u hu => Or.inr (frame_edges_targets g hs root es hroot hes u hu))
      (fun f hf => by simp at hf) hesv (fun f hf => by simp at hf)
      (by
        unfold walk_cost
        simp only [List.map_nil, List.sum_nil]
        omega)
    refine ⟨st2, r0, r1, fun t ht => r2 t (hmono t ht), r2 root ?_⟩
    rw [hstate, if_pos rfl]
    omega
  · have hpre2 : ¬ (map_find st.state root).getD 0 = 0 := hpre
    rw [if_neg hpre2]
    exact ⟨st, rfl, hinv, fun _ h => h, hpre⟩

theorem scc_fold (g : VG) (hs : store_consistent g) (fuel : Nat)
    (hfuel : total_cost g ≤ fuel) :
    ∀ (l : List Node) (st : DfsState SccState), (∀ n ∈ l, n ∈ g.node) → scc_inv g st [] →
      ∃ st2,
        l.foldl (dfs_node g scc_begin (scc_end g) fuel)
          (some st) = some st2
        ∧ scc_inv g st2 [] ∧ (∀ t, search_state st t ≠ 0 → search_state st2 t ≠ 0)
        ∧ ∀ n ∈ l, ∀ b, search_state st2 ⟨n, b⟩ ≠ 0 := by
  intro l
  induction l with
  | nil =>
    intro st _ hinv
    exact ⟨st, rfl, hinv, fun _ h => h, fun n hn => by simp at hn⟩
  | cons n rest ih =>
    intro st hl hinv
    have hn : get_node g n.id = some n :=
      hs.nodes_ok.by_id_complete n (hl n (List.mem_cons_self _ _))
    obtain ⟨st1, e1, i1, m1, w1⟩ := scc_root_step g hs fuel hfuel st ⟨n, false⟩ hn hinv
    obtain ⟨st2, e2, i2, m2, w2⟩ := scc_root_step g hs fuel hfuel st1 ⟨n, true⟩ hn i1
    obtain ⟨st3, e3, i3, m3, w3⟩ := ih st2 (fun x hx => hl x (List.mem_cons_of_mem _ hx)) i2
    refine ⟨st3, ?_, i3, fun t ht => m3 t (m2 t (m1 t ht)), ?_⟩
    · simp only [List.foldl_cons, dfs_node, e1, e2]
      exact e3
    · intro x hx b
      rcases List.mem_cons.mp hx with h | h
      · rw [h]
        cases b
        · exact m3 _ (m2 _ w1)
        · exact m3 _ w2
      · exact w3 x h b

theorem scc_inv_init (g : VG) :
    scc_inv g ({ state := [], user := ⟨0, [], [], [], [], []⟩ } : DfsState SccState) [] := by
  have h0 : ∀ t, search_state
      ({ state := [], user := ⟨0, [], [], [], [], []⟩ } : DfsState SccState) t = 0 :=
    fun _ => rfl
  refine
    { curr := ?_, range := ?_, stored := ?_, black_next := ?_, chain := List.chain'_nil,
      gray_sorted := List.Pairwise.nil, sorted := List.Pairwise.nil, on_stack := ?_, met := ?_,
      gray_on := ?_, index := ?_, gray_root := ?_, black_root := ?_, low := ?_, parent := ?_,
      gray_below := ?_, closed := ?_, found := ?_, sound := ?_ }
  · intro t; rw [h0]; simp
  · intro t; rw [h0]; omega
  · intro t h; exact absurd (h0 t) h
  · intro t u h; rw [h0] at h; omega
  · intro y; exact Iff.rfl
  · intro t h; simp at h
  · intro t h; simp at h
  · intro t h; simp at h
  · intro t h; simp at h
  · intro t h; simp at h
  · intro t h; simp at h
  · intro t h; simp at h
  · intro t h; simp at h
  · intro t u h; rw [h0] at h; omega
  · intro t h; rw [h0] at h; omega
  · intro c h; simp at h

theorem scc_components_spec (g : VG) (hs : store_consistent g)
    (hfuel : total_cost g ≤ 2 * g.node.length + 2 * g.edge.length + 1) :
    ∃ comps, strongly_connected_components g = some comps
      ∧ (∀ t : NodeTraversal, get_node g t.node.id = some t.node →
          ∃ c ∈ comps, component_of g t c)
      ∧ (∀ c ∈ comps, ∃ t : NodeTraversal, get_node g t.node.id = some t.node
          ∧ component_of g t c) := by
  obtain ⟨st2, e, hinv, _, hall⟩ := scc_fold g hs _ hfuel g.node _ (fun _ h => h) (scc_inv_init g)
  refine ⟨st2.user.components, ?_, ?_, hinv.sound⟩
  · unfold strongly_connected_components
    rw [dfs_eq_fold, e]
    rfl
  · intro t ht
    have hmem : t.node ∈ g.node := (hs.nodes_ok.by_id_sound _ _ ht).1
    have h0 : search_state st2 t ≠ 0 := hall t.node hmem t.backward
    have h1 : search_state st2 t ≠ 1 := fun h => by
      have := (hinv.curr t).mp h
      simp at this
    have h2 := hinv.range t
    have hS : t ∉ st2.user.stack := fun h => by
      obtain ⟨z, hz, _⟩ := hinv.gray_below t h
      simp at hz
    exact hinv.found t (by omega) hS

theorem all_some_length {α : Type} :
    ∀ (l : List (Option α)) (r : List α), all_some l = some r → r.length = l.length
  | [], r, h => by
    simp only [all_some, Option.some.injEq] at h
    rw [← h]
    rfl
  | none :: _, r, h => by simp [all_some] at h
  | some a :: rest, r, h => by
    simp only [all_some] at h
    cases hr : all_some rest with
    | none => rw [hr] at h; exact Option.noConfusion h
    | some l =>
      rw [hr] at h
      simp only [Option.some.injEq] at h
      rw [← h, List.length_cons, List.length_cons, all_some_length rest l hr]

theorem set_insert_length_le {α : Type} (lt : α → α → Bool) (x : α) (l : List α) :
    (set_insert lt x l).length ≤ l.length + 1 := by
  induction l with
  | nil => simp [set_insert]
  | cons y rest ih =>
    unfold set_insert
    split_ifs
    · simp
    · simp only [List.length_cons]; omega
    · simp

theorem foldl_set_insert_length_le {α : Type} (lt : α → α → Bool) (l : List α) :
    ∀ init : List α, (l.foldl (fun s t => set_insert lt t s) init).length
      ≤ init.length + l.length := by
  induction l with
  | nil => intro init; simp
  | cons a rest ih =>
    intro init
    simp only [List.foldl_cons, List.length_cons]
    have := ih (set_insert lt a init)
    have := set_insert_length_le lt a init
    omega

theorem trav_cost_le (g : VG) (t : NodeTraversal) :
    trav_cost g t
      ≤ 1 + (if t.backward then edges_start g t.node.id else edges_end g t.node.id).length := by
  unfold trav_cost frame_edges travs_from nodes_next
  simp only
  cases h1 : all_some
      ((if t.backward then edges_start g t.node.id else edges_end g t.node.id).map
        (fun next => (get_node g next.1).map
          (fun nd => (⟨nd, next.2 != t.backward⟩ : NodeTraversal)))) with
  | none => simp
  | some l =>
    have hl := all_some_length _ _ h1
    rw [List.length_map] at hl
    simp only [Option.map_some']
    cases h2 : all_some
        ((l.foldl (fun froms t => set_insert NodeTraversal.lt t froms) []).map
          (fun next => get_edge_trav g t next)) with
    | none => simp
    | some es =>
      have hes := all_some_length _ _ h2
      rw [List.length_map] at hes
      have := foldl_set_insert_length_le NodeTraversal.lt l []
      simp only [Option.getD_some, List.length_nil] at this ⊢
      omega

theorem total_cost_le_slots (g : VG) :
    ∀ l : List Node,
      ((l.flatMap (fun n => [(⟨n, false⟩ : NodeTraversal), ⟨n, true⟩])).map (trav_cost g)).sum
        ≤ 2 * l.length + (l.flatMap (side_slots g)).length := by
  intro l
  induction l with
  | nil => simp
  | cons n rest ih =>
    have h1 := trav_cost_le g ⟨n, false⟩
    have h2 := trav_cost_le g ⟨n, true⟩
    simp only [Bool.false_eq_true, if_false, if_true] at h1 h2
    simp only [List.flatMap_cons, List.map_append, List.sum_append, List.length_append,
      List.length_cons, List.map_cons, List.map_nil, List.sum_cons, List.sum_nil, side_slots,
      List.length_map, List.cons_append, List.nil_append] at ih ⊢
    omega

theorem node_id_inj (g : VG) (hn : nodes_consistent g) (a b : Node) (ha : a ∈ g.node)
    (hb : b ∈ g.node) (h : a.id = b.id) : a = b := by
  have h1 := hn.by_id_complete a ha
  have h2 := hn.by_id_complete b hb
  rw [h, h2] at h1
  exact (Option.some.inj h1).symm

theorem side_slots_nodup (g : VG) (hs : store_consistent g) :
    (g.node.flatMap (side_slots g)).Nodup := by
  rw [List.nodup_flatMap]
  constructor
  · intro n _
    unfold side_slots
    refine List.Nodup.append ?_ ?_ ?_
    · refine List.Nodup.map ?_ (hs.edges_ok.start_nodup n.id)
      intro x y hxy
      simp only [Prod.mk.injEq, NodeSide.mk.injEq, true_and] at hxy
      exact Prod.ext hxy.1 (Bool.not_inj hxy.2)
    · refine List.Nodup.map ?_ (hs.edges_ok.end_nodup n.id)
      intro x y hxy
      simp only [Prod.mk.injEq, NodeSide.mk.injEq, true_and] at hxy
      exact Prod.ext hxy.1 hxy.2
    · intro p h1 h2
      obtain ⟨x, _, hx⟩ := List.mem_map.mp h1
      obtain ⟨y, _, hy⟩ := List.mem_map.mp h2
      rw [← hy] at hx
      simp at hx
  · refine (hs.nodes_ok.node_nodup).imp_of_mem ?_
    intro a b ha hb hab
    simp only [Function.onFun]
    intro p h1 h2
    have e1 : p.1.node = a.id := by
      unfold side_slots at h1
      rcases List.mem_append.mp h1 with h | h
      · obtain ⟨x, _, hx⟩ := List.mem_map.mp h
        rw [← hx]
      · obtain ⟨x, _, hx⟩ := List.mem_map.mp h
        rw [← hx]
    have e2 : p.1.node = b.id := by
      unfold side_slots at h2
      rcases List.mem_append.mp h2 with h | h
      · obtain ⟨x, _, hx⟩ := List.mem_map.mp h
        rw [← hx]
      · obtain ⟨x, _, hx⟩ := List.mem_map.mp h
        rw [← hx]
    exact hab (node_id_inj g hs.nodes_ok a b ha hb (e1.symm.trans e2))

theorem side_slots_subset (g : VG) (hs : store_consistent g) :
    g.node.flatMap (side_slots g) ⊆ g.edge.flatMap edge_slots := by
  intro p hp
  obtain ⟨n, _, hn⟩ := List.mem_flatMap.mp hp
  have key : ∃ e, map_find g.edge_by_sides (minmax p.1 p.2) = some e := by
    unfold side_slots at hn
    rcases List.mem_append.mp hn with h | h
    · obtain ⟨x, hx, hxp⟩ := List.mem_map.mp h
      have := (hs.edges_ok.start_iff n.id x).mp hx
      rw [← hxp]
      exact Option.isSome_iff_exists.mp this
    · obtain ⟨x, hx, hxp⟩ := List.mem_map.mp h
      have := (hs.edges_ok.end_iff n.id x).mp hx
      rw [← hxp]
      exact Option.isSome_iff_exists.mp this
  obtain ⟨e, he⟩ := key
  obtain ⟨hmem, hpair⟩ := hs.edges_ok.by_sides_sound _ _ he
  refine List.mem_flatMap.mpr ⟨e, hmem, ?_⟩
  unfold pair_from_edge at hpair
  unfold edge_slots
  rcases (minmax_eq_iff _ _ _ _).mp hpair with ⟨a, b⟩ | ⟨a, b⟩
  · rw [a, b]
    exact List.mem_cons_self _ _
  · rw [a, b]
    exact List.mem_cons_of_mem _ (List.mem_cons_self _ _)

theorem total_cost_le (g : VG) (hs : store_consistent g) :
    total_cost g ≤ 2 * g.node.length + 2 * g.edge.length := by
  have h1 := total_cost_le_slots g g.node
  have h2 := ((side_slots_nodup g hs).subperm (side_slots_subset g hs)).length_le
  have h3 : (g.edge.flatMap edge_slots).length = 2 * g.edge.length := by
    rw [List.length_flatMap]
    have : (List.length ∘ edge_slots) = fun _ => 2 := by
      funext e
      rfl
    rw [this]
    simp only [List.map_const', List.sum_replicate, smul_eq_mul]
    omega
  unfold total_cost all_travs
  omega

theorem scc_components_total (g : VG) (hs : store_consistent g) :
    ∃ comps, strongly_connected_components g = some comps
      ∧ (∀ t : NodeTraversal, get_node g t.node.id = some t.node →
          ∃ c ∈ comps, component_of g t c)
      ∧ (∀ c ∈ comps, ∃ t : NodeTraversal, get_node g t.node.id = some t.node
          ∧ component_of g t c) :=
  scc_components_spec g hs (by
    have := total_cost_le g hs
    omega)

/-! ## Strongly connected components of a graph without reversing edges -/

theorem foldl_set_insert_stored (g : VG) (x : NodeTraversal) :
    ∀ (l init : List NodeTraversal),
      (∀ y ∈ l, get_node g y.node.id = some y.node) →
      (∀ y ∈ init, get_node g y.node.id = some y.node) →
      x ∈ l ∨ x ∈ init →
      x ∈ l.foldl (fun s t => set_insert NodeTraversal.lt t s) init := by
  intro l
  induction l with
  | nil =>
    intro init _ _ h
    rcases h with h | h
    · simp at h
    · exact h
  | cons a rest ih =>
    intro init hl hi h
    simp only [List.foldl_cons]
    have hi2 : ∀ y ∈ set_insert NodeTraversal.lt a init,
        get_node g y.node.id = some y.node := by
      intro y hy
      rcases set_insert_subset _ _ _ _ hy with h1 | h1
      · rw [h1]; exact hl a (List.mem_cons_self _ _)
      · exact hi y h1
    refine ih _ (fun y hy => hl y (List.mem_cons_of_mem _ hy)) hi2 ?_
    rcases h with h | h
    · rcases List.mem_cons.mp h with h1 | h1
      · right
        obtain ⟨y, hy, e1, e2⟩ :=
          (set_mem_trav_iff _ _).mp (set_insert_trav_mem a init).1
        have : a = y := trav_eq_of_stored g a y (hl a (List.mem_cons_self _ _)) (hi2 y hy) e1 e2
        rw [h1.trans this]
        exact hy
      · exact Or.inl h1
    · exact Or.inr ((set_insert_trav_mem a init).2 x h)

theorem follows_plain (g : VG) (hs : store_consistent g) (hp : plain_edges g)
    (t u : NodeTraversal) (h : follows g t u) :
    u.backward = t.backward
      ∧ (t.backward = false → edge_rel g t.node.id u.node.id)
      ∧ (t.backward = true → edge_rel g u.node.id t.node.id) := by
  obtain ⟨_, e, _, hmem, hcase⟩ := follows_edge g hs t u h
  obtain ⟨p1, p2⟩ := hp e hmem
  rcases hcase with ⟨a, b, c, d⟩ | ⟨a, b, c, d⟩
  · rw [p1] at b
    rw [p2] at d
    rw [← b, ← d]
    exact ⟨rfl, fun _ => ⟨e, hmem, a, c⟩, fun h2 => by simp at h2⟩
  · rw [p1] at b
    rw [p2] at d
    have hu : u.backward = true := by
      revert b; cases u.backward <;> simp
    have ht : t.backward = true := by
      revert d; cases t.backward <;> simp
    rw [hu, ht]
    exact ⟨rfl, fun h2 => by simp at h2, fun _ => ⟨e, hmem, a, c⟩⟩

theorem follows_of_edge (g : VG) (hs : store_consistent g) (e : Edge) (he : e ∈ g.edge)
    (hp : e.from_start = false ∧ e.to_end = false) (na nb : Node)
    (ha : get_node g e.from_ = some na) (hb : get_node g e.to_ = some nb) :
    follows g ⟨na, false⟩ ⟨nb, false⟩ ∧ follows g ⟨nb, true⟩ ⟨na, true⟩ := by
  have hida : na.id = e.from_ := (hs.nodes_ok.by_id_sound _ _ ha).2
  have hidb : nb.id = e.to_ := (hs.nodes_ok.by_id_sound _ _ hb).2
  have hfind := hs.edges_ok.by_sides_complete e he
  unfold pair_from_edge at hfind
  rw [hp.1, hp.2] at hfind
  constructor
  · obtain ⟨l, hl, hl2⟩ := nodes_next_some g (store_sides_resolvable g hs) ⟨na, false⟩
    have hmem : (e.to_, false) ∈ edges_end g na.id := by
      rw [hs.edges_ok.end_iff, hida]
      unfold pair_from_end_edge
      simp only [Bool.not_false] at hfind
      rw [hfind]
      rfl
    have hl3 := hl
    unfold nodes_next at hl3
    simp only [Bool.false_eq_true, if_false] at hl3
    obtain ⟨t, ht, hft⟩ := all_some_map_complete _ _ l hl3 _ hmem
    simp only [hb, Option.map_some', Option.some.injEq] at hft
    refine ⟨_, by unfold travs_from; rw [hl]; rfl, ?_⟩
    refine foldl_set_insert_stored g _ l [] ?_
      (fun y hy => by simp at hy) (Or.inl ?_)
    · intro y hy
      obtain ⟨x, _, hx, _⟩ := hl2 y hy
      rw [(hs.nodes_ok.by_id_sound _ _ hx).2]
      exact hx
    · rw [← hft] at ht
      exact ht
  · obtain ⟨l, hl, hl2⟩ := nodes_next_some g (store_sides_resolvable g hs) ⟨nb, true⟩
    have hmem : (e.from_, false) ∈ edges_start g nb.id := by
      rw [hs.edges_ok.start_iff, hidb]
      unfold pair_from_start_edge
      simp only [Bool.not_false] at hfind ⊢
      rw [minmax_comm, hfind]
      rfl
    have hl3 := hl
    unfold nodes_next at hl3
    simp only [if_true] at hl3
    obtain ⟨t, ht, hft⟩ := all_some_map_complete _ _ l hl3 _ hmem
    simp only [ha, Option.map_some', Option.some.injEq] at hft
    refine ⟨_, by unfold travs_from; rw [hl]; rfl, ?_⟩
    refine foldl_set_insert_stored g _ l [] ?_
      (fun y hy => by simp at hy) (Or.inl ?_)
    · intro y hy
      obtain ⟨x, _, hx, _⟩ := hl2 y hy
      rw [(hs.nodes_ok.by_id_sound _ _ hx).2]
      exact hx
    · rw [← hft] at ht
      exact ht

theorem reaches_plain (g : VG) (hs : store_consistent g) (hp : plain_edges g)
    (t u : NodeTraversal) (h : reaches g t u) :
    u.backward = t.backward
      ∧ (t.backward = false → id_reaches g t.node.id u.node.id)
      ∧ (t.backward = true → id_reaches g u.node.id t.node.id) := by
  unfold reaches at h
  induction h with
  | refl => exact ⟨rfl, fun _ => Relation.ReflTransGen.refl, fun _ => Relation.ReflTransGen.refl⟩
  | tail _ hstep ih =>
    obtain ⟨a1, a2, a3⟩ := follows_plain g hs hp _ _ hstep
    obtain ⟨b1, b2, b3⟩ := ih
    refine ⟨a1.trans b1, fun h2 => ?_, fun h2 => ?_⟩
    · exact Relation.ReflTransGen.tail (b2 h2) (a2 (b1.trans h2))
    · exact Relation.ReflTransGen.head (a3 (b1.trans h2)) (b3 h2)

theorem reaches_of_id (g : VG) (hs : store_consistent g) (hp : plain_edges g) (a b : Int)
    (h : id_reaches g a b) (na : Node) (ha : get_node g a = some na) :
    ∃ nb, get_node g b = some nb ∧ reaches g ⟨na, false⟩ ⟨nb, false⟩
      ∧ reaches g ⟨nb, true⟩ ⟨na, true⟩ := by
  unfold id_reaches at h
  induction h with
  | refl => exact ⟨na, ha, Relation.ReflTransGen.refl, Relation.ReflTransGen.refl⟩
  | tail _ hstep ih =>
    obtain ⟨nc, hc, r1, r2⟩ := ih
    obtain ⟨e, he, e1, e2⟩ := hstep
    obtain ⟨nb, hb⟩ := (has_node_iff g _).mp (hs.endpoints e he).2
    rw [← e1] at hc
    obtain ⟨f1, f2⟩ := follows_of_edge g hs e he (hp e he) nc nb hc hb
    rw [e2] at hb
    exact ⟨nb, hb, Relation.ReflTransGen.tail r1 f1, Relation.ReflTransGen.head f2 r2⟩

theorem component_of_plain (g : VG) (hs : store_consistent g) (hp : plain_edges g)
    (t : NodeTraversal) (ht : get_node g t.node.id = some t.node) (c : List Int)
    (h : component_of g t c) (id : Int) :
    id ∈ c ↔ (has_node g id = true ∧ id_reaches g t.node.id id ∧ id_reaches g id t.node.id) := by
  rw [h id]
  constructor
  · rintro ⟨u, hid, hu, r1, r2⟩
    obtain ⟨a1, a2, a3⟩ := reaches_plain g hs hp t u r1
    obtain ⟨b1, b2, b3⟩ := reaches_plain g hs hp u t r2
    rw [← hid]
    refine ⟨(has_node_iff g _).mpr ⟨_, hu⟩, ?_⟩
    cases htb : t.backward
    · exact ⟨a2 htb, b2 (a1.trans htb)⟩
    · exact ⟨b3 (a1.trans htb), a3 htb⟩
  · rintro ⟨hn, r1, r2⟩
    obtain ⟨m, hm⟩ := (has_node_iff g _).mp hn
    obtain ⟨n1, h1, p1, p2⟩ := reaches_of_id g hs hp _ _ r1 t.node ht
    obtain ⟨n2, h2, q1, q2⟩ := reaches_of_id g hs hp _ _ r2 m hm
    rw [hm] at h1
    cases h1
    rw [ht] at h2
    cases h2
    have hmid : m.id = id := (hs.nodes_ok.by_id_sound _ _ hm).2
    obtain ⟨tn, tb⟩ := t
    cases tb
    · exact ⟨⟨m, false⟩, hmid, by simp only; rw [hmid]; exact hm, p1, q1⟩
    · exact ⟨⟨m, true⟩, hmid, by simp only; rw [hmid]; exact hm, q2, p2⟩

theorem scc_plain_spec (g : VG) (hs : store_consistent g) (hp : plain_edges g) :
    ∃ comps, strongly_connected_components g = some comps
      ∧ (∀ n ∈ g.node, ∃ c ∈ comps, n.id ∈ c)
      ∧ (∀ c ∈ comps, ∀ a ∈ c, has_node g a = true
          ∧ ∀ b, b ∈ c ↔ (has_node g b = true ∧ id_reaches g a b ∧ id_reaches g b a)) := by
  obtain ⟨comps, h1, h2, h3⟩ := scc_components_total g hs
  refine ⟨comps, h1, ?_, ?_⟩
  · intro n hn
    have hg : get_node g n.id = some n := hs.nodes_ok.by_id_complete n hn
    obtain ⟨c, hc, hcomp⟩ := h2 ⟨n, false⟩ hg
    refine ⟨c, hc, ?_⟩
    rw [component_of_plain g hs hp ⟨n, false⟩ hg c hcomp]
    exact ⟨(has_node_iff g _).mpr ⟨n, hg⟩, Relation.ReflTransGen.refl,
      Relation.ReflTransGen.refl⟩
  · intro c hc a ha
    obtain ⟨t, ht, hcomp⟩ := h3 c hc
    have key := component_of_plain g hs hp t ht c hcomp
    obtain ⟨a1, a2, a3⟩ := (key a).mp ha
    refine ⟨a1, fun b => ?_⟩
    rw [key b]
    constructor
    · rintro ⟨b1, b2, b3⟩
      exact ⟨b1, Relation.ReflTransGen.trans a3 b2, Relation.ReflTransGen.trans b3 a2⟩
    · rintro ⟨b1, b2, b3⟩
      exact ⟨b1, Relation.ReflTransGen.trans a2 b2, Relation.ReflTransGen.trans b3 a3⟩

/-! ## Components are sorted sets; ranks along the edges -/

theorem dfs_walk_user_inv {σ : Type} (P : σ → Prop) (g : VG)
    (node_begin_fn : σ → NodeTraversal → σ) (node_end_fn : σ → NodeTraversal → Option σ)
    (hb : ∀ s t, P s → P (node_begin_fn s t))
    (he : ∀ s t s2, P s → node_end_fn s t = some s2 → P s2) :
    ∀ (fuel : Nat) (trav : NodeTraversal) (rest : List Edge)
      (todo : List (NodeTraversal × List Edge)) (st st2 : DfsState σ),
      P st.user → dfs_walk g node_begin_fn node_end_fn fuel trav rest todo st = some st2 →
      P st2.user := by
  intro fuel
  induction fuel with
  | zero => intro trav rest todo st st2 _ h; simp [dfs_walk] at h
  | succ fuel ih =>
    intro trav rest todo st st2 hP h
    cases rest with
    | nil =>
      simp only [dfs_walk] at h
      cases hend : node_end_fn st.user trav with
      | none => rw [hend] at h; exact Option.noConfusion h
      | some user =>
        rw [hend] at h
        simp only at h
        have hu : P user := he _ _ _ hP hend
        cases todo with
        | nil =>
          simp only [Option.some.injEq] at h
          rw [← h]; exact hu
        | cons frame todo1 => exact ih _ _ _ _ _ hu h
    | cons edge rest1 =>
      simp only [dfs_walk] at h
      cases ht : dfs_target g trav edge with
      | none => rw [ht] at h; exact Option.noConfusion h
      | some target =>
        rw [ht] at h
        simp only at h
        split_ifs at h with h0
        · cases hf : frame_edges g target with
          | none => rw [hf] at h; exact Option.noConfusion h
          | some es =>
            rw [hf] at h
            exact ih _ _ _ _ _ (hb _ _ hP) h
        · exact ih _ _ _ _ _ hP h

theorem dfs_user_inv {σ : Type} (P : σ → Prop) (g : VG)
    (node_begin_fn : σ → NodeTraversal → σ) (node_end_fn : σ → NodeTraversal → Option σ)
    (hb : ∀ s t, P s → P (node_begin_fn s t))
    (he : ∀ s t s2, P s → node_end_fn s t = some s2 → P s2)
    (fuel : Nat) (init r : σ) (hinit : P init)
    (h : dfs g node_begin_fn node_end_fn fuel init = some r) : P r := by
  have hroot : ∀ (st st2 : DfsState σ) (root : NodeTraversal), P st.user →
      dfs_root g node_begin_fn node_end_fn fuel st root = some st2 → P st2.user := by
    intro st st2 root hP h2
    unfold dfs_root at h2
    split_ifs at h2 with h0
    · cases hf : frame_edges g root with
      | none => rw [hf] at h2; exact Option.noConfusion h2
      | some es =>
        rw [hf] at h2
        exact dfs_walk_user_inv P g node_begin_fn node_end_fn hb he _ _ _ _ _ _ (hb _ _ hP) h2
    · simp only [Option.some.injEq] at h2
      rw [← h2]; exact hP
  unfold dfs at h
  rw [Option.map_eq_some'] at h
  obtain ⟨stf, hfold, hr⟩ := h
  rw [← hr]
  refine foldl_option_inv (fun st : DfsState σ => P st.user) _ g.node (fun _ => rfl) ?_ _ stf
    (fun s hs => by
      simp only [Option.some.injEq] at hs
      rw [← hs]; exact hinit) hfold
  intro n _ s s2 hs hstep
  simp only at hstep
  cases h1 : dfs_root g node_begin_fn node_end_fn fuel s ⟨n, false⟩ with
  | none => rw [h1] at hstep; exact Option.noConfusion hstep
  | some st1 =>
    rw [h1] at hstep
    exact hroot _ _ _ (hroot _ _ _ hs h1) hstep

theorem id_lt_asymm (a b : Int) (h : id_lt a b = true) : id_lt b a = false := by
  unfold id_lt at *
  simp only [decide_eq_true_eq, decide_eq_false_iff_not] at *
  omega

theorem set_insert_sorted (x : Int) (l : List Int) (h : l.Pairwise (· < ·)) :
    (set_insert id_lt x l).Pairwise (· < ·) := by
  induction l with
  | nil => simp [set_insert]
  | cons y rest ih =>
    obtain ⟨h1, h2⟩ := List.pairwise_cons.mp h
    unfold set_insert
    by_cases hxy : id_lt x y = true
    · rw [if_pos hxy]
      have hlt : x < y := by simpa [id_lt] using hxy
      refine List.pairwise_cons.mpr ⟨fun z hz => ?_, h⟩
      rcases List.mem_cons.mp hz with hz1 | hz1
      · rw [hz1]; exact hlt
      · have := h1 z hz1
        omega
    · rw [if_neg hxy]
      by_cases hyx : id_lt y x = true
      · rw [if_pos hyx]
        have hlt : y < x := by simpa [id_lt] using hyx
        refine List.pairwise_cons.mpr ⟨fun z hz => ?_, ih h2⟩
        rcases set_insert_subset id_lt x rest z hz with hz1 | hz1
        · rw [hz1]; exact hlt
        · exact h1 z hz1
      · rw [if_neg hyx]; exact h

theorem foldl_set_insert_sorted {β : Type} (f : β → Int) (l : List β) :
    ∀ (init : List Int), init.Pairwise (· < ·) →
      (l.foldl (fun c o => set_insert id_lt (f o) c) init).Pairwise (· < ·) := by
  induction l with
  | nil => intro init h; exact h
  | cons b rest ih =>
    intro init h
    simp only [List.foldl_cons]
    exact ih _ (set_insert_sorted (f b) init h)

theorem pop_component_sorted (trav : NodeTraversal) :
    ∀ (stack on_stack : List NodeTraversal) (component : List Int)
      (r : List NodeTraversal × List NodeTraversal × List Int),
      component.Pairwise (· < ·) → pop_component trav stack on_stack component = some r →
      r.2.2.Pairwise (· < ·) := by
  intro stack
  induction stack with
  | nil => intro _ _ _ _ h; simp [pop_component] at h
  | cons other rest ih =>
    intro on_stack component r hc h
    unfold pop_component at h
    simp only at h
    split_ifs at h with ho
    · simp only [Option.some.injEq] at h
      rw [← h]
      exact set_insert_sorted _ _ hc
    · exact ih _ _ _ (set_insert_sorted _ _ hc) h

theorem scc_end_components (g : VG) (st st2 : SccState) (trav : NodeTraversal)
    (h : scc_end g st trav = some st2) :
    ∀ c ∈ st2.components, c ∈ st.components ∨ c.Pairwise (· < ·) := by
  unfold scc_end at h
  cases hn : travs_from g trav with
  | none => rw [hn] at h; exact Option.noConfusion h
  | some nexts =>
    rw [hn] at h
    simp only at h
    generalize hst1 : List.foldl _ st nexts = st1 at h
    have a5 : st1.components = st.components :=
      (scc_end_fold trav nexts st st1 hst1).2.2.2.2.1
    split_ifs at h with hroot
    · cases hpop : pop_component trav st1.stack st1.on_stack [] with
      | none => rw [hpop] at h; exact Option.noConfusion h
      | some r =>
        rw [hpop] at h
        simp only [Option.some.injEq] at h
        rw [← h]
        intro c hc2
        simp only at hc2
        rcases set_insert_subset id_set_lt _ _ c hc2 with h1 | h1
        · right
          rw [h1]
          exact pop_component_sorted trav _ _ [] r List.Pairwise.nil hpop
        · left
          rw [← a5]; exact h1
    · simp only [Option.some.injEq] at h
      rw [← h, a5]
      intro c hc2
      exact Or.inl hc2

theorem scc_components_sorted (g : VG) (comps : List (List Int))
    (h : strongly_connected_components g = some comps) :
    ∀ c ∈ comps, c.Pairwise (· < ·) := by
  unfold strongly_connected_components at h
  rw [Option.map_eq_some'] at h
  obtain ⟨st, hst, hc⟩ := h
  rw [← hc]
  refine dfs_user_inv (fun s : SccState => ∀ c ∈ s.components, c.Pairwise (· < ·)) g scc_begin
    (scc_end g) ?_ ?_ _ _ st (fun c hc2 => by simp at hc2) hst
  · intro s t hP
    exact hP
  · intro s t s2 hP hend c hc2
    rcases scc_end_components g s s2 t hend c hc2 with h1 | h1
    · exact hP c h1
    · exact h1

/-! ## A rank that falls along the edges between components -/

theorem countP_lt_of_imp {α : Type} (p q : α → Bool) (l : List α)
    (himp : ∀ x ∈ l, p x = true → q x = true) (y : α) (hy : y ∈ l) (hq : q y = true)
    (hp : p y = false) : l.countP p < l.countP q := by
  induction l with
  | nil => simp at hy
  | cons x rest ih =>
    have hle : rest.countP p ≤ rest.countP q :=
      List.countP_mono_left (fun z hz hpz => himp z (List.mem_cons_of_mem _ hz) hpz)
    rcases List.mem_cons.mp hy with h1 | h1
    · subst h1
      rw [List.countP_cons_of_neg _ _ (by simp [hp]), List.countP_cons_of_pos _ _ hq]
      omega
    · have ih2 := ih (fun z hz => himp z (List.mem_cons_of_mem _ hz)) h1
      by_cases hpx : p x = true
      · rw [List.countP_cons_of_pos _ _ hpx,
          List.countP_cons_of_pos _ _ (himp x (List.mem_cons_self _ _) hpx)]
        omega
      · by_cases hqx : q x = true
        · rw [List.countP_cons_of_neg _ _ hpx, List.countP_cons_of_pos _ _ hqx]
          omega
        · rw [List.countP_cons_of_neg _ _ hpx, List.countP_cons_of_neg _ _ hqx]
          exact ih2

theorem exists_rank (g : VG) :
    ∃ rank : Int → Int,
      (∀ a b, id_reaches g a b → rank b ≤ rank a)
      ∧ (∀ a b, has_node g a = true → id_reaches g a b → ¬ id_reaches g b a →
          rank b < rank a) := by
  classical
  refine ⟨fun a => ((g.node_by_id.map (fun p => p.1)).countP
    (fun x => decide (id_reaches g a x)) : Nat), ?_, ?_⟩
  · intro a b hab
    simp only [Nat.cast_le]
    apply List.countP_mono_left
    intro x _ hx
    simp only [decide_eq_true_eq] at *
    exact Relation.ReflTransGen.trans hab hx
  · intro a b ha hab hba
    simp only [Nat.cast_lt]
    have hmem : a ∈ g.node_by_id.map (fun p => p.1) := by
      unfold has_node at ha
      cases hf : map_find g.node_by_id a with
      | none => rw [hf] at ha; simp at ha
      | some nd =>
        exact List.mem_map.mpr ⟨(a, nd), map_find_mem _ _ _ hf, rfl⟩
    refine countP_lt_of_imp _ _ _ ?_ a hmem ?_ ?_
    · intro x _ hx
      simp only [decide_eq_true_eq] at *
      exact Relation.ReflTransGen.trans hab hx
    · simp only [decide_eq_true_eq]
      exact Relation.ReflTransGen.refl
    · simp only [decide_eq_false_iff_not]
      exact hba

theorem key_lt_trans (a b c : Int × Int × Int) (h1 : key_lt a b) (h2 : key_lt b c) :
    key_lt a c := by
  unfold key_lt at *
  omega

theorem key_lt_irrefl (a : Int × Int × Int) : ¬ key_lt a a := by
  unfold key_lt
  omega

theorem acyclic_of_ranked (dag : VG) (K : Int → Int × Int × Int)
    (h : ∀ e ∈ dag.edge, key_lt (K e.to_) (K e.from_)) : acyclic dag := by
  have hwalk : ∀ a b, Relation.TransGen (edge_rel dag) a b → key_lt (K b) (K a) := by
    intro a b hab
    induction hab with
    | single hs =>
      obtain ⟨e, he, h1, h2⟩ := hs
      have := h e he
      rw [h1, h2] at this
      exact this
    | tail _ hs ih =>
      obtain ⟨e, he, h1, h2⟩ := hs
      have := h e he
      rw [h1, h2] at this
      exact key_lt_trans _ _ _ this ih
  intro a ha
  exact key_lt_irrefl _ (hwalk a a ha)

/-! ## Ranked graphs under `add_edge` and `create_node` -/

theorem add_edge_fields (g : VG) (e : Edge) :
    (∀ x ∈ (add_edge g e).edge, x ∈ g.edge ∨ x = e)
      ∧ (add_edge g e).node = g.node
      ∧ (add_edge g e).node_by_id = g.node_by_id
      ∧ (add_edge g e).current_id = g.current_id := by
  refine ⟨?_, (add_edge_node_fields g e).1, (add_edge_node_fields g e).2, ?_⟩
  · intro x hx
    unfold add_edge at hx
    split_ifs at hx
    · simp only at hx
      rw [(set_edge_fields _ e).1] at hx
      simp only [List.mem_append, List.mem_singleton] at hx
      exact hx
    · exact Or.inl hx
  · rw [add_edge_eq_create_edge]
    exact (create_edge_frame g _ _ _ _).2.2.2

theorem add_edge_next_id (g : VG) (e : Edge) : next_id (add_edge g e) = next_id g :=
  next_id_congr g _ (add_edge_fields g e).2.1 (add_edge_fields g e).2.2.2

theorem dag_ranked_congr (dag : VG) (K K2 : Int → Int × Int × Int)
    (h : dag_ranked dag K)
    (hk : ∀ e ∈ dag.edge, K2 e.from_ = K e.from_ ∧ K2 e.to_ = K e.to_) : dag_ranked dag K2 := by
  refine ⟨h.plain, fun e he => ?_, h.bound, h.counter, h.by_id⟩
  rw [(hk e he).1, (hk e he).2]
  exact h.mono e he

theorem add_edge_ranked (dag : VG) (K : Int → Int × Int × Int) (e : Edge)
    (h : dag_ranked dag K) (hp : e.from_start = false ∧ e.to_end = false)
    (hk : key_lt (K e.to_) (K e.from_))
    (hb : e.from_ < next_id dag ∧ e.to_ < next_id dag) :
    dag_ranked (add_edge dag e) K := by
  obtain ⟨f1, f2, f3, f4⟩ := add_edge_fields dag e
  refine ⟨fun x hx => ?_, fun x hx => ?_, fun x hx => ?_, by rw [f4]; exact h.counter,
    by rw [f3]; exact h.by_id⟩
  · rcases f1 x hx with h1 | h1
    · exact h.plain x h1
    · rw [h1]; exact hp
  · rcases f1 x hx with h1 | h1
    · exact h.mono x h1
    · rw [h1]; exact hk
  · rw [add_edge_next_id]
    rcases f1 x hx with h1 | h1
    · exact h.bound x h1
    · rw [h1]; exact hb

theorem create_node_ranked (dag : VG) (K K2 : Int → Int × Int × Int) (seq : List Char)
    (h : dag_ranked dag K) (hk : ∀ x, x < next_id dag → K2 x = K x) :
    dag_ranked (create_node dag seq 0).1 K2
      ∧ (create_node dag seq 0).2.id = next_id dag
      ∧ next_id (create_node dag seq 0).1 = next_id dag + 1 := by
  obtain ⟨a1, a2, a3⟩ := create_node_alloc dag seq h.counter
  obtain ⟨e1, _, _, _, _⟩ := create_node_edge_fields dag seq 0
  refine ⟨⟨?_, ?_, ?_, a3, ?_⟩, a1, a2⟩
  · rw [e1]; exact h.plain
  · rw [e1]
    intro e he
    rw [hk _ (h.bound e he).1, hk _ (h.bound e he).2]
    exact h.mono e he
  · rw [e1, a2]
    intro e he
    have := h.bound e he
    omega
  · intro id nd hf
    rw [(create_node_node_fields dag seq 0).2.1, map_find_insert] at hf
    split_ifs at hf with hid
    · simp only [Option.some.injEq] at hf
      rw [← hf]; exact hid
    · exact h.by_id id nd hf

/-! ## One pass of the unrolling: the edges -/

theorem set_mem_id_iff (x : Int) (s : List Int) : set_mem id_lt x s = true ↔ x ∈ s := by
  unfold set_mem
  rw [List.any_eq_true]
  constructor
  · rintro ⟨y, hy, h⟩
    simp only [id_lt, Bool.and_eq_true, Bool.not_eq_true', decide_eq_false_iff_not] at h
    have : x = y := by omega
    rw [this]; exact hy
  · intro h
    exact ⟨x, h, by simp [id_lt]⟩

theorem set_insert_id_mem (x y : Int) (s : List Int) :
    y ∈ set_insert id_lt x s ↔ (y = x ∨ y ∈ s) :=
  set_insert_mem id_lt id_lt_total x s y

theorem copy_inv_add_edge (rank : Int → Int) (component : List Int) (n0 n1 lv : Int)
    (last : List (Int × Node)) (K : Int → Int × Int × Int) (dag : VG)
    (curr : List (Int × Node)) (seen : List Int) (e : Edge)
    (h : copy_inv rank component n0 n1 lv last K dag curr seen)
    (hp : e.from_start = false ∧ e.to_end = false)
    (hk : key_lt (K e.to_) (K e.from_))
    (hb : e.from_ < next_id dag ∧ e.to_ < next_id dag)
    (hiso : ∀ x ∈ component, x ∉ seen → ∀ c, map_find curr x = some c →
      e.from_ ≠ c.id ∧ e.to_ ≠ c.id) :
    copy_inv rank component n0 n1 lv last K (add_edge dag e) curr seen := by
  refine ⟨add_edge_ranked dag K e h.ranked hp hk hb, h.orig, h.n0_le,
    by rw [add_edge_next_id]; exact h.n1_le, h.last_ok, ?_, h.curr_inj, ?_⟩
  · intro x hx
    obtain ⟨c, c1, c2, c3, c4⟩ := h.curr_ok x hx
    exact ⟨c, c1, c2, by rw [add_edge_next_id]; exact c3, c4⟩
  · intro x hx hs c hc e2 he2
    rcases (add_edge_fields dag e).1 e2 he2 with h1 | h1
    · exact h.isolated x hx hs c hc e2 h1
    · rw [h1]; exact hiso x hx hs c hc

theorem copy_inv_see (rank : Int → Int) (component : List Int) (n0 n1 lv : Int)
    (last : List (Int × Node)) (K : Int → Int × Int × Int) (dag : VG)
    (curr : List (Int × Node)) (seen : List Int) (y : Int) (d : Node) (pot : Int)
    (h : copy_inv rank component n0 n1 lv last K dag curr seen)
    (hy : y ∈ component) (hs : y ∉ seen) (hd : map_find curr y = some d) :
    copy_inv rank component n0 n1 lv last
      (fun x => if x = d.id then ((K d.id).1, (K d.id).2.1, pot) else K x) dag curr
      (set_insert id_lt y seen)
    ∧ (fun x => if x = d.id then ((K d.id).1, (K d.id).2.1, pot) else K x) d.id
        = ((K d.id).1, (K d.id).2.1, pot) := by
  obtain ⟨d2, d21, d22, d23, d24⟩ := h.curr_ok y hy
  have hdd : d2 = d := Option.some.inj (d21.symm.trans hd)
  subst hdd
  refine ⟨⟨?_, ?_, h.n0_le, h.n1_le, ?_, ?_, h.curr_inj, ?_⟩, by simp⟩
  · refine dag_ranked_congr dag K _ h.ranked (fun e he => ?_)
    obtain ⟨i1, i2⟩ := h.isolated y hy hs d2 hd e he
    simp only [i1, i2, if_false, and_self]
  · intro x hx
    have hn0 := h.n0_le
    have : x ≠ d2.id := by omega
    simp only [this, if_false]
    exact h.orig x hx
  · intro x hx
    obtain ⟨l, l1, l2, l3⟩ := h.last_ok x hx
    have : l.id ≠ d2.id := by omega
    refine ⟨l, l1, l2, ?_⟩
    simp only [this, if_false]
    exact l3
  · intro x hx
    obtain ⟨c, c1, c2, c3, c4, c5⟩ := h.curr_ok x hx
    refine ⟨c, c1, c2, c3, ?_⟩
    by_cases hcd : c.id = d2.id
    · have hxy : x = y := h.curr_inj x hx y hy c d2 c1 hd hcd
      subst hxy
      simp only [hcd, if_true]
      rw [hcd] at c4 c5
      exact ⟨c4, c5⟩
    · simp only [hcd, if_false]
      exact ⟨c4, c5⟩
  · intro x hx hsx c hc
    have hsx2 : x ∉ seen := fun hh => hsx ((set_insert_id_mem y x seen).mpr (Or.inr hh))
    exact h.isolated x hx hsx2 c hc

theorem dagify_back_edge_inv (g : VG) (rank : Int → Int) (component : List Int)
    (n0 n1 lv : Int) (last : List (Int × Node)) (hctx : comp_ctx g rank component n0)
    (id : Int) (hid : id ∈ component) (e : Edge) (he : e ∈ g.edge) (hfrom : e.from_ ∈ component)
    (K : Int → Int × Int × Int) (cs cs2 : CopyState)
    (h : copy_inv rank component n0 n1 lv last K cs.dag cs.curr cs.seen)
    (hseen : id ∈ cs.seen)
    (hstep : dagify_back_edge last id cs e = some cs2) :
    copy_inv rank component n0 n1 lv last K cs2.dag cs2.curr cs2.seen ∧ cs2.seen = cs.seen := by
  obtain ⟨c, c1, c2, c3, c4, c5⟩ := h.curr_ok id hid
  obtain ⟨l, l1, l2, l3, l4⟩ := h.last_ok e.from_ hfrom
  unfold dagify_back_edge at hstep
  rw [c1, l1] at hstep
  simp only [Option.some.injEq] at hstep
  rw [← hstep]
  refine ⟨?_, rfl⟩
  show copy_inv rank component n0 n1 lv last K
    (add_edge cs.dag { e with to_ := c.id, from_ := l.id }) cs.curr cs.seen
  refine copy_inv_add_edge rank component n0 n1 lv last K cs.dag cs.curr cs.seen _ h
    (hctx.plain e he) ?_ ?_ ?_
  · show key_lt (K c.id) (K l.id)
    have := hctx.level id hid e.from_ hfrom
    unfold key_lt
    omega
  · show l.id < next_id cs.dag ∧ c.id < next_id cs.dag
    omega
  · intro x hx hsx cx hcx
    obtain ⟨cx2, x1, x2, _⟩ := h.curr_ok x hx
    have hcc : cx2 = cx := Option.some.inj (x1.symm.trans hcx)
    subst hcc
    refine ⟨?_, ?_⟩
    · show l.id ≠ cx2.id
      omega
    · show c.id ≠ cx2.id
      intro heq
      have := h.curr_inj id hid x hx c cx2 c1 hcx heq
      rw [← this] at hsx
      exact hsx hseen

theorem dagify_edge_inv (g : VG) (rank : Int → Int) (component : List Int)
    (n0 n1 lv : Int) (last : List (Int × Node)) (hctx : comp_ctx g rank component n0)
    (id : Int) (hid : id ∈ component) (e : Edge) (he : e ∈ g.edge)
    (K : Int → Int × Int × Int) (cs cs2 : CopyState)
    (h : copy_inv rank component n0 n1 lv last K cs.dag cs.curr cs.seen)
    (hseen : id ∈ cs.seen)
    (hstep : dagify_edge component last id cs e = some cs2) :
    ∃ K2, copy_inv rank component n0 n1 lv last K2 cs2.dag cs2.curr cs2.seen
      ∧ id ∈ cs2.seen := by
  obtain ⟨c, c1, c2, c3, c4, c5⟩ := h.curr_ok id hid
  have hn0 := h.n0_le
  have hbelow := hctx.below e he
  have hplain := hctx.plain e he
  -- an edge between the copy of `id` and a node outside the component
  have houter : ∀ (e2 : Edge), e2.from_start = false ∧ e2.to_end = false →
      key_lt (K e2.to_) (K e2.from_) →
      ((e2.from_ = c.id ∧ e2.to_ < n0) ∨ (e2.to_ = c.id ∧ e2.from_ < n0)) →
      copy_inv rank component n0 n1 lv last K (add_edge cs.dag e2) cs.curr cs.seen := by
    intro e2 hp2 hk2 hends
    refine copy_inv_add_edge rank component n0 n1 lv last K cs.dag cs.curr cs.seen e2 h hp2 hk2
      (by omega) ?_
    intro x hx hsx cx hcx
    obtain ⟨cx2, x1, x2, _⟩ := h.curr_ok x hx
    have hcc : cx2 = cx := Option.some.inj (x1.symm.trans hcx)
    subst hcc
    have hne : c.id ≠ cx2.id := by
      intro heq
      have := h.curr_inj id hid x hx c cx2 c1 hcx heq
      rw [← this] at hsx
      exact hsx hseen
    rcases hends with ⟨a, b⟩ | ⟨a, b⟩
    · exact ⟨by rw [a]; exact hne, by omega⟩
    · exact ⟨by omega, by rw [a]; exact hne⟩
  -- an edge inside the copy, to or from the copy of a node not seen so far
  have hinner : ∀ (y : Int), y ∈ component → y ∉ cs.seen → y ≠ id → ∀ d,
      map_find cs.curr y = some d → ∀ (forward : Bool),
      ∃ K2, copy_inv rank component n0 n1 lv last K2
          (add_edge cs.dag
            (if forward then { e with from_ := c.id, to_ := d.id }
             else { e with to_ := c.id, from_ := d.id }))
          cs.curr (set_insert id_lt y cs.seen) := by
    intro y hy hsy hne d hd forward
    obtain ⟨d2, y1, y2, y3, y4, y5⟩ := h.curr_ok y hy
    have hdd : d2 = d := Option.some.inj (y1.symm.trans hd)
    subst hdd
    have hcd : c.id ≠ d2.id := fun heq => hne (h.curr_inj id hid y hy c d2 c1 hd heq).symm
    have hkey : ∀ pot : Int, ∃ K2, copy_inv rank component n0 n1 lv last K2 cs.dag cs.curr
        (set_insert id_lt y cs.seen)
        ∧ K2 d2.id = ((K d2.id).1, (K d2.id).2.1, pot) ∧ K2 c.id = K c.id := by
      intro pot
      obtain ⟨a, b⟩ := copy_inv_see rank component n0 n1 lv last K cs.dag cs.curr cs.seen y d2
        pot h hy hsy hd
      exact ⟨_, a, b, by simp only [hcd, if_false]⟩
    obtain ⟨K2, hsee, hKd, hKc⟩ :=
      hkey (if forward then (K c.id).2.2 - 1 else (K c.id).2.2 + 1)
    refine ⟨K2, copy_inv_add_edge rank component n0 n1 lv last K2 cs.dag cs.curr _ _ hsee ?_ ?_
      ?_ ?_⟩
    · cases forward <;> exact hplain
    · have hlev := hctx.level id hid y hy
      cases forward
      · show key_lt (K2 c.id) (K2 d2.id)
        rw [hKd, hKc]
        unfold key_lt
        simp only [Bool.false_eq_true, if_false]
        omega
      · show key_lt (K2 d2.id) (K2 c.id)
        rw [hKd, hKc]
        unfold key_lt
        simp only [if_true]
        omega
    · cases forward
      · show d2.id < next_id cs.dag ∧ c.id < next_id cs.dag
        omega
      · show c.id < next_id cs.dag ∧ d2.id < next_id cs.dag
        omega
    · intro x hx hsx cx hcx
      have hx1 : x ≠ y := fun hh => hsx ((set_insert_id_mem y x cs.seen).mpr (Or.inl hh))
      have hx2 : x ∉ cs.seen := fun hh => hsx ((set_insert_id_mem y x cs.seen).mpr (Or.inr hh))
      have hx3 : x ≠ id := fun hh => hx2 (by rw [hh]; exact hseen)
      have n1 : c.id ≠ cx.id := fun heq => hx3 (h.curr_inj id hid x hx c cx c1 hcx heq).symm
      have n2 : d2.id ≠ cx.id := fun heq => hx1 (h.curr_inj y hy x hx d2 cx hd hcx heq).symm
      cases forward
      · exact ⟨n2, n1⟩
      · exact ⟨n1, n2⟩
  have hseen_ins : ∀ y, id ∈ set_insert id_lt y cs.seen :=
    fun y => (set_insert_id_mem y id cs.seen).mpr (Or.inr hseen)
  unfold dagify_edge at hstep
  by_cases hA : e.from_ = id ∧ e.to_ ≠ id
  · rw [if_pos hA] at hstep
    by_cases hto : set_mem id_lt e.to_ component = true
    · have hto2 : e.to_ ∈ component := (set_mem_id_iff _ _).mp hto
      rw [if_neg (by simp [hto])] at hstep
      by_cases hts : set_mem id_lt e.to_ cs.seen = true
      · rw [if_neg (by simp [hts])] at hstep
        simp only [Option.some.injEq] at hstep
        rw [← hstep]
        exact ⟨K, h, hseen⟩
      · rw [if_pos (by simpa using hts)] at hstep
        have hts2 : e.to_ ∉ cs.seen := fun hh => hts ((set_mem_id_iff _ _).mpr hh)
        obtain ⟨d, d1, _⟩ := h.curr_ok e.to_ hto2
        rw [c1, d1] at hstep
        simp only [Option.some.injEq] at hstep
        rw [← hstep]
        obtain ⟨K2, hK2⟩ := hinner e.to_ hto2 hts2 hA.2 d d1 true
        exact ⟨K2, hK2, hseen_ins _⟩
    · rw [if_pos (by simpa using hto)] at hstep
      have hto2 : e.to_ ∉ component := fun hh => hto ((set_mem_id_iff _ _).mpr hh)
      rw [c1] at hstep
      simp only [Option.some.injEq] at hstep
      rw [← hstep]
      refine ⟨K, houter { e with from_ := c.id } hplain ?_ (Or.inl ⟨rfl, hbelow.2⟩), hseen⟩
      show key_lt (K e.to_) (K c.id)
      have hr := hctx.cross e he (Or.inl ⟨by rw [hA.1]; exact hid, hto2⟩)
      rw [h.orig e.to_ hbelow.2]
      rw [hA.1] at hr
      unfold key_lt
      simp only
      omega
  · rw [if_neg hA] at hstep
    by_cases hB : e.to_ = id ∧ e.from_ ≠ id
    · rw [if_pos hB] at hstep
      simp only at hstep
      -- the first statement of the branch
      have hfirst : ∀ st1, (if (!set_mem id_lt e.from_ component) = true then
            match map_find cs.curr id with
            | some c => some { cs with dag := add_edge cs.dag { e with to_ := c.id } }
            | none => none
          else if (!set_mem id_lt e.from_ cs.seen) = true then
            match map_find cs.curr id, map_find cs.curr e.from_ with
            | some c, some d =>
              some { cs with dag := add_edge cs.dag { e with to_ := c.id, from_ := d.id },
                             seen := set_insert id_lt e.from_ cs.seen }
            | _, _ => none
          else some cs) = some st1 →
          ∃ K2, copy_inv rank component n0 n1 lv last K2 st1.dag st1.curr st1.seen
            ∧ id ∈ st1.seen := by
        intro st1 h1
        by_cases hfr : set_mem id_lt e.from_ component = true
        · have hfr2 : e.from_ ∈ component := (set_mem_id_iff _ _).mp hfr
          rw [if_neg (by simp [hfr])] at h1
          by_cases hfs : set_mem id_lt e.from_ cs.seen = true
          · rw [if_neg (by simp [hfs])] at h1
            simp only [Option.some.injEq] at h1
            rw [← h1]
            exact ⟨K, h, hseen⟩
          · rw [if_pos (by simpa using hfs)] at h1
            have hfs2 : e.from_ ∉ cs.seen := fun hh => hfs ((set_mem_id_iff _ _).mpr hh)
            obtain ⟨d, d1, _⟩ := h.curr_ok e.from_ hfr2
            rw [c1, d1] at h1
            simp only [Option.some.injEq] at h1
            rw [← h1]
            obtain ⟨K2, hK2⟩ := hinner e.from_ hfr2 hfs2 hB.2 d d1 false
            exact ⟨K2, hK2, hseen_ins _⟩
        · rw [if_pos (by simpa using hfr)] at h1
          have hfr2 : e.from_ ∉ component := fun hh => hfr ((set_mem_id_iff _ _).mpr hh)
          rw [c1] at h1
          simp only [Option.some.injEq] at h1
          rw [← h1]
          refine ⟨K, houter { e with to_ := c.id } hplain ?_ (Or.inr ⟨rfl, hbelow.1⟩), hseen⟩
          show key_lt (K c.id) (K e.from_)
          have hr := hctx.cross e he (Or.inr ⟨by rw [hB.1]; exact hid, hfr2⟩)
          rw [h.orig e.from_ hbelow.1]
          rw [hB.1] at hr
          unfold key_lt
          simp only
          omega
      split at hstep
      · exact Option.noConfusion hstep
      · rename_i st2 hst2
        obtain ⟨K2, hK2, hs2⟩ := hfirst st2 hst2
        split_ifs at hstep with hback
        · have hfr2 : e.from_ ∈ component := by
            simp only [Bool.and_eq_true] at hback
            exact (set_mem_id_iff _ _).mp hback.2
          obtain ⟨r1, r2⟩ := dagify_back_edge_inv g rank component n0 n1 lv last hctx id hid e he
            hfr2 K2 st2 cs2 hK2 hs2 hstep
          exact ⟨K2, r1, by rw [r2]; exact hs2⟩
        · simp only [Option.some.injEq] at hstep
          rw [← hstep]
          exact ⟨K2, hK2, hs2⟩
    · rw [if_neg hB] at hstep
      by_cases hC : e.to_ = id ∧ e.from_ = id
      · rw [if_pos hC] at hstep
        split_ifs at hstep with hl
        · obtain ⟨r1, r2⟩ := dagify_back_edge_inv g rank component n0 n1 lv last hctx id hid e he
            (by rw [hC.2]; exact hid) K cs cs2 h hseen hstep
          exact ⟨K, r1, by rw [r2]; exact hseen⟩
        · simp only [Option.some.injEq] at hstep
          rw [← hstep]
          exact ⟨K, h, hseen⟩
      · rw [if_neg hC] at hstep
        simp only [Option.some.injEq] at hstep
        rw [← hstep]
        exact ⟨K, h, hseen⟩

/-! ## One pass of the unrolling: the copies and the loop over the nodes -/

theorem edges_of_node_mem (g : VG) (hc : edges_consistent g) (node : Node) (edges : List Edge)
    (h : edges_of_node g node = some edges) : ∀ e ∈ edges, e ∈ g.edge := by
  obtain ⟨L, hL, hiff⟩ := edges_of_node_spec g hc node
  have hLe : L = edges := Option.some.inj (hL.symm.trans h)
  subst hLe
  intro e he
  rcases (hiff e).mp he with ⟨x, _, hf⟩ | ⟨x, _, hf, _⟩
  · exact (hc.by_sides_sound _ _ hf).1
  · exact (hc.by_sides_sound _ _ hf).1

theorem copy_inv_seen_mono (rank : Int → Int) (component : List Int) (n0 n1 lv : Int)
    (last : List (Int × Node)) (K : Int → Int × Int × Int) (dag : VG)
    (curr : List (Int × Node)) (seen seen2 : List Int)
    (h : copy_inv rank component n0 n1 lv last K dag curr seen)
    (hsub : ∀ x ∈ seen, x ∈ seen2) :
    copy_inv rank component n0 n1 lv last K dag curr seen2 :=
  ⟨h.ranked, h.orig, h.n0_le, h.n1_le, h.last_ok, h.curr_ok, h.curr_inj,
    fun x hx hs => h.isolated x hx (fun hh => hs (hsub x hh))⟩

theorem dagify_edges_inv (g : VG) (hc : edges_consistent g) (rank : Int → Int)
    (component : List Int) (n0 n1 lv : Int) (last : List (Int × Node))
    (hctx : comp_ctx g rank component n0) :
    ∀ (ids : List Int), (∀ id ∈ ids, id ∈ component) →
      ∀ (K : Int → Int × Int × Int) (cs cs2 : CopyState),
        copy_inv rank component n0 n1 lv last K cs.dag cs.curr cs.seen →
        dagify_edges g component last ids cs = some cs2 →
        ∃ K2, copy_inv rank component n0 n1 lv last K2 cs2.dag cs2.curr cs2.seen := by
  intro ids
  induction ids with
  | nil =>
    intro _ K cs cs2 h hstep
    simp only [dagify_edges, Option.some.injEq] at hstep
    rw [← hstep]
    exact ⟨K, h⟩
  | cons id rest ih =>
    intro hsub K cs cs2 h hstep
    have hid : id ∈ component := hsub id (List.mem_cons_self _ _)
    unfold dagify_edges at hstep
    cases hn : get_node g id with
    | none => rw [hn] at hstep; exact Option.noConfusion hstep
    | some node =>
      rw [hn] at hstep
      simp only at hstep
      cases hes : edges_of_node g node with
      | none => rw [hes] at hstep; exact Option.noConfusion hstep
      | some edges =>
        rw [hes] at hstep
        simp only at hstep
        have hmem := edges_of_node_mem g hc node edges hes
        split at hstep
        · exact Option.noConfusion hstep
        · rename_i st1 hfold
          have hQ : ∃ K1, copy_inv rank component n0 n1 lv last K1 st1.dag st1.curr st1.seen
              ∧ id ∈ st1.seen := by
            refine foldl_option_inv
              (fun s : CopyState => ∃ K1, copy_inv rank component n0 n1 lv last K1 s.dag s.curr
                s.seen ∧ id ∈ s.seen) _ edges (fun _ => rfl) ?_ _ st1 ?_ hfold
            · intro e he s s2 hs hstep2
              obtain ⟨K1, hK1, hs1⟩ := hs
              exact dagify_edge_inv g rank component n0 n1 lv last hctx id hid e (hmem e he) K1 s s2
                hK1 hs1 hstep2
            · intro s hs
              simp only [Option.some.injEq] at hs
              rw [← hs]
              refine ⟨K, copy_inv_seen_mono rank component n0 n1 lv last K cs.dag cs.curr cs.seen _
                h (fun x hx => (set_insert_id_mem id x cs.seen).mpr (Or.inr hx)),
                (set_insert_id_mem id id cs.seen).mpr (Or.inl rfl)⟩
          obtain ⟨K1, hK1, _⟩ := hQ
          exact ih (fun x hx => hsub x (List.mem_cons_of_mem _ hx)) K1 st1 cs2 hK1 hstep

theorem dagify_copy_nodes_inv (g : VG) (rank : Int → Int) (component : List Int)
    (n0 n1 lv : Int) (last : List (Int × Node)) :
    ∀ (ids : List Int), (∀ id ∈ ids, id ∈ component) →
      ∀ (P : Int → Prop) (K : Int → Int × Int × Int) (cs cs2 : CopyState),
        copy_pre rank component n0 n1 lv last K cs.dag cs.curr P →
        dagify_copy_nodes g last ids cs = some cs2 →
        ∃ K2, copy_pre rank component n0 n1 lv last K2 cs2.dag cs2.curr
            (fun x => P x ∨ x ∈ ids)
          ∧ cs2.seen = cs.seen := by
  intro ids
  induction ids with
  | nil =>
    intro _ P K cs cs2 h hstep
    simp only [dagify_copy_nodes, Option.some.injEq] at hstep
    rw [← hstep]
    refine ⟨K, ⟨h.ranked, h.orig, h.n0_le, h.n1_le, h.fresh, h.last_ok, ?_, ?_⟩, rfl⟩
    · intro x hx
      rcases hx with hx | hx
      · exact h.curr_ok x hx
      · simp at hx
    · intro x y hx hy
      rcases hx with hx | hx
      · rcases hy with hy | hy
        · exact h.curr_inj x y hx hy
        · simp at hy
      · simp at hx
  | cons id rest ih =>
    intro hsub P K cs cs2 h hstep
    have hid : id ∈ component := hsub id (List.mem_cons_self _ _)
    obtain ⟨l, l1, _⟩ := h.last_ok id hid
    have hne : last.isEmpty = false := by
      cases last with
      | nil => simp [map_find] at l1
      | cons _ _ => rfl
    unfold dagify_copy_nodes at hstep
    rw [if_neg (by simp [hne])] at hstep
    cases hn : get_node g id with
    | none => rw [hn] at hstep; exact Option.noConfusion hstep
    | some orig =>
      rw [hn] at hstep
      simp only at hstep
      obtain ⟨r1, r2, r3⟩ := create_node_ranked cs.dag K
        (fun x => if x = next_id cs.dag then (rank id, lv + 1, 0) else K x) orig.sequence
        h.ranked (fun x hx => by
          have : x ≠ next_id cs.dag := by omega
          simp only [this, if_false])
      have hn0 := h.n0_le
      have hn1 := h.n1_le
      have hpre : copy_pre rank component n0 n1 lv last
          (fun x => if x = next_id cs.dag then (rank id, lv + 1, 0) else K x)
          (create_node cs.dag orig.sequence 0).1
          (map_insert cs.curr id (create_node cs.dag orig.sequence 0).2)
          (fun x => P x ∨ x = id) := by
        have hcurr : ∀ x, map_find (map_insert cs.curr id (create_node cs.dag orig.sequence 0).2) x
            = if id = x then some (create_node cs.dag orig.sequence 0).2
              else map_find cs.curr x := fun x => map_find_insert _ _ _ _
        refine ⟨r1, ?_, h.n0_le, by omega, ?_, ?_, ?_, ?_⟩
        · intro x hx
          have : x ≠ next_id cs.dag := by omega
          simp only [this, if_false]
          exact h.orig x hx
        · rw [(create_node_edge_fields cs.dag orig.sequence 0).1]
          exact h.fresh
        · intro x hx
          obtain ⟨l2, a1, a2, a3⟩ := h.last_ok x hx
          have : l2.id ≠ next_id cs.dag := by omega
          refine ⟨l2, a1, a2, ?_⟩
          simp only [this, if_false]
          exact a3
        · intro x hx
          by_cases hxid : id = x
          · refine ⟨(create_node cs.dag orig.sequence 0).2, by rw [hcurr, if_pos hxid], by omega,
              by omega, ?_⟩
            simp only [r2, if_true]
            rw [hxid]
            exact ⟨rfl, trivial⟩
          · have hPx : P x := by
              rcases hx with hx | hx
              · exact hx
              · exact absurd hx.symm hxid
            obtain ⟨c, c1, c2, c3, c4⟩ := h.curr_ok x hPx
            have : c.id ≠ next_id cs.dag := by omega
            refine ⟨c, by rw [hcurr, if_neg hxid]; exact c1, c2, by omega, ?_⟩
            simp only [this, if_false]
            exact c4
        · intro x y hx hy c d hc hd hcd
          rw [hcurr] at hc hd
          by_cases hxid : id = x
          · by_cases hyid : id = y
            · rw [← hxid, ← hyid]
            · rw [if_pos hxid] at hc
              rw [if_neg hyid] at hd
              have hPy : P y := by
                rcases hy with hy | hy
                · exact hy
                · exact absurd hy.symm hyid
              obtain ⟨d2, d21, _, d23, _⟩ := h.curr_ok y hPy
              have : d2 = d := Option.some.inj (d21.symm.trans hd)
              subst this
              have hce := Option.some.inj hc
              rw [← hce, r2] at hcd
              omega
          · rw [if_neg hxid] at hc
            have hPx : P x := by
              rcases hx with hx | hx
              · exact hx
              · exact absurd hx.symm hxid
            by_cases hyid : id = y
            · rw [if_pos hyid] at hd
              obtain ⟨c2, c21, _, c23, _⟩ := h.curr_ok x hPx
              have : c2 = c := Option.some.inj (c21.symm.trans hc)
              subst this
              have hde := Option.some.inj hd
              rw [← hde, r2] at hcd
              omega
            · rw [if_neg hyid] at hd
              have hPy : P y := by
                rcases hy with hy | hy
                · exact hy
                · exact absurd hy.symm hyid
              exact h.curr_inj x y hPx hPy c d hc hd hcd
      obtain ⟨K2, hK2, hseen⟩ := ih (fun x hx => hsub x (List.mem_cons_of_mem _ hx))
        (fun x => P x ∨ x = id)
        (fun x => if x = next_id cs.dag then (rank id, lv + 1, 0) else K x) _ cs2 hpre hstep
      refine ⟨K2, ⟨hK2.ranked, hK2.orig, hK2.n0_le, hK2.n1_le, hK2.fresh, hK2.last_ok, ?_, ?_⟩,
        hseen⟩
      · intro x hx
        apply hK2.curr_ok x
        rcases hx with hx | hx
        · exact Or.inl (Or.inl hx)
        · rcases List.mem_cons.mp hx with hx | hx
          · exact Or.inl (Or.inr hx)
          · exact Or.inr hx
      · intro x y hx hy
        apply hK2.curr_inj x y
        · rcases hx with hx | hx
          · exact Or.inl (Or.inl hx)
          · rcases List.mem_cons.mp hx with hx | hx
            · exact Or.inl (Or.inr hx)
            · exact Or.inr hx
        · rcases hy with hy | hy
          · exact Or.inl (Or.inl hy)
          · rcases List.mem_cons.mp hy with hy | hy
            · exact Or.inl (Or.inr hy)
            · exact Or.inr hy

/-! ## The unrolling of one component -/

theorem dagify_pass_inv (g : VG) (hc : edges_consistent g) (rank : Int → Int)
    (component : List Int) (n0 lv : Int) (hctx : comp_ctx g rank component n0)
    (K : Int → Int × Int × Int) (dag : VG) (last base : List (Int × Node))
    (nt : List (Int × (Int × Bool))) (mrl : List (Node × Nat)) (cl : Nat)
    (c1 c2 : CopyState)
    (h : unroll_inv rank component n0 lv K dag last)
    (h1 : dagify_copy_nodes g last component
      { dag := dag, node_translation := nt, min_return_length := mrl, component_length := cl,
        curr := base, seen := [], curr_min_min_return_length := 0 } = some c1)
    (h2 : dagify_edges g component last component c1 = some c2) :
    ∃ K2, copy_inv rank component n0 (next_id dag) lv last K2 c2.dag c2.curr c2.seen := by
  have hpre : copy_pre rank component n0 (next_id dag) lv last K dag base (fun _ => False) :=
    ⟨h.ranked, h.orig, h.n0_le, le_refl _, h.ranked.bound, h.last_ok,
      fun _ hx => False.elim hx, fun _ _ hx => False.elim hx⟩
  obtain ⟨K1, hK1, hseen⟩ := dagify_copy_nodes_inv g rank component n0 (next_id dag) lv last
    component (fun _ hx => hx) (fun _ => False) K _ c1 hpre h1
  have hinv : copy_inv rank component n0 (next_id dag) lv last K1 c1.dag c1.curr c1.seen := by
    refine ⟨hK1.ranked, hK1.orig, hK1.n0_le, hK1.n1_le, hK1.last_ok,
      fun x hx => hK1.curr_ok x (Or.inr hx),
      fun x hx y hy => hK1.curr_inj x y (Or.inr hx) (Or.inr hy), ?_⟩
    intro x hx _ c hcx e he
    obtain ⟨c2, x1, x2, _⟩ := hK1.curr_ok x (Or.inr hx)
    have : c2 = c := Option.some.inj (x1.symm.trans hcx)
    subst this
    have := hK1.fresh e he
    omega
  exact dagify_edges_inv g hc rank component n0 (next_id dag) lv last hctx component
    (fun _ hx => hx) K1 c1 c2 hinv h2

theorem dagify_unroll_inv (g : VG) (hc : edges_consistent g) (rank : Int → Int)
    (component : List Int) (n0 : Int) (hctx : comp_ctx g rank component n0)
    (base : List (Int × Node)) (target_min_walk_length component_length_max : Nat) :
    ∀ (steps : Nat) (lv : Int) (K : Int → Int × Int × Int) (st st2 : UnrollState),
      unroll_inv rank component n0 lv K st.dag st.last →
      dagify_unroll g component base target_min_walk_length component_length_max steps st
        = some st2 →
      ∃ K2, dag_ranked st2.dag K2 ∧ (∀ x, x < n0 → K2 x = (rank x, 0, 0))
        ∧ n0 ≤ next_id st2.dag := by
  intro steps
  induction steps with
  | zero =>
    intro lv K st st2 h hstep
    simp only [dagify_unroll, Option.some.injEq] at hstep
    rw [← hstep]
    exact ⟨K, h.ranked, h.orig, h.n0_le⟩
  | succ steps ih =>
    intro lv K st st2 h hstep
    unfold dagify_unroll at hstep
    split at hstep
    · exact Option.noConfusion hstep
    · rename_i c1 hc1
      split at hstep
      · exact Option.noConfusion hstep
      · rename_i c2 hc2
        obtain ⟨K2, hK2⟩ := dagify_pass_inv g hc rank component n0 lv hctx K st.dag st.last base
          _ _ _ c1 c2 h hc1 hc2
        have hn0 : n0 ≤ next_id c2.dag := le_trans hK2.n0_le hK2.n1_le
        simp only at hstep
        split_ifs at hstep with ht hm
        · simp only [Option.some.injEq] at hstep
          rw [← hstep]
          exact ⟨K2, hK2.ranked, hK2.orig, hn0⟩
        · simp only [Option.some.injEq] at hstep
          rw [← hstep]
          exact ⟨K2, hK2.ranked, hK2.orig, hn0⟩
        · refine ih (lv + 1) K2 _ st2 ?_ hstep
          refine ⟨hK2.ranked, hK2.orig, hn0, ?_⟩
          intro x hx
          obtain ⟨c, c1, _, c3, c4⟩ := hK2.curr_ok x hx
          exact ⟨c, c1, c3, c4⟩

/-! ## The loop over the components -/

theorem dagify_base_spec (dag : VG) :
    ∀ (ids : List Int) (s r : List (Int × Node) × List (Node × Nat) × Nat),
      dagify_base dag ids s = some r →
      (∀ x ∈ ids, ∃ l, get_node dag x = some l ∧ map_find r.1 x = some l)
        ∧ (∀ x, x ∉ ids → map_find r.1 x = map_find s.1 x) := by
  intro ids
  induction ids with
  | nil =>
    intro s r h
    simp only [dagify_base, Option.some.injEq] at h
    rw [← h]
    exact ⟨fun x hx => by simp at hx, fun _ _ => rfl⟩
  | cons id rest ih =>
    intro s r h
    unfold dagify_base at h
    cases hn : get_node dag id with
    | none => rw [hn] at h; exact Option.noConfusion h
    | some node =>
      rw [hn] at h
      simp only at h
      obtain ⟨i1, i2⟩ := ih _ r h
      refine ⟨fun x hx => ?_, fun x hx => ?_⟩
      · by_cases hxr : x ∈ rest
        · exact i1 x hxr
        · have hxid : x = id := by
            rcases List.mem_cons.mp hx with h1 | h1
            · exact h1
            · exact absurd h1 hxr
          refine ⟨node, by rw [hxid]; exact hn, ?_⟩
          rw [i2 x hxr, hxid]
          simp only [map_find_insert, if_true]
      · have hxr : x ∉ rest := fun hh => hx (List.mem_cons_of_mem _ hh)
        have hxid : id ≠ x := fun hh => hx (by rw [hh]; exact List.mem_cons_self _ _)
        rw [i2 x hxr]
        simp only [map_find_insert, hxid, if_false]

theorem dagify_components_inv (g : VG) (hc : edges_consistent g) (rank : Int → Int) (n0 : Int)
    (expand_scc_steps target_min_walk_length component_length_max : Nat) :
    ∀ (comps : List (List Int)),
      (∀ c ∈ comps, comp_ctx g rank c n0 ∧ ∀ x ∈ c, x < n0) →
      ∀ (K : Int → Int × Int × Int) (s r : VG × List (Int × (Int × Bool))),
        dag_ranked s.1 K → (∀ x, x < n0 → K x = (rank x, 0, 0)) → n0 ≤ next_id s.1 →
        dagify_components g expand_scc_steps target_min_walk_length component_length_max
          comps s = some r →
        ∃ K2, dag_ranked r.1 K2 := by
  intro comps
  induction comps with
  | nil =>
    intro _ K s r h _ _ hstep
    simp only [dagify_components, Option.some.injEq] at hstep
    rw [← hstep]
    exact ⟨K, h⟩
  | cons component rest ih =>
    intro hall K s r h horig hn0 hstep
    obtain ⟨hctx, hlt⟩ := hall component (List.mem_cons_self _ _)
    unfold dagify_components at hstep
    split at hstep
    · exact Option.noConfusion hstep
    · rename_i b hb
      split at hstep
      · exact Option.noConfusion hstep
      · rename_i st hst
        obtain ⟨b1, _⟩ := dagify_base_spec s.1 component _ b hb
        have hun : unroll_inv rank component n0 0 K s.1 b.1 := by
          refine ⟨h, horig, hn0, ?_⟩
          intro x hx
          obtain ⟨l, l1, l2⟩ := b1 x hx
          have hid : l.id = x := h.by_id x l l1
          have hx0 := hlt x hx
          refine ⟨l, l2, by omega, ?_⟩
          rw [hid, horig x hx0]
          exact ⟨rfl, rfl⟩
        obtain ⟨K2, k1, k2, k3⟩ := dagify_unroll_inv g hc rank component n0 hctx b.1
          target_min_walk_length component_length_max _ 0 K _ st hun hst
        exact ih (fun c hc2 => hall c (List.mem_cons_of_mem _ hc2)) K2 _ r k1 k2 k3 hstep

theorem add_edge_no_zero (dag : VG) (e : Edge) (h : no_zero_node dag) :
    no_zero_node (add_edge dag e) := by
  obtain ⟨_, _, f3, f4⟩ := add_edge_fields dag e
  unfold no_zero_node has_node at *
  rw [f3, f4]
  exact h

theorem create_node_no_zero (dag : VG) (seq : List Char) (h : no_zero_node dag) :
    no_zero_node (create_node dag seq 0).1 := by
  obtain ⟨a1, _, a3⟩ := create_node_alloc dag seq h.1
  refine ⟨a3, ?_⟩
  rw [create_node_has_node, a1, h.2]
  have := next_id_pos dag h.1
  have hne : ¬ next_id dag = 0 := by omega
  simp [hne]

theorem dagify_back_edge_no_zero (last : List (Int × Node)) (id : Int) (cs cs2 : CopyState)
    (e : Edge) (h : dagify_back_edge last id cs e = some cs2) (hz : no_zero_node cs.dag) :
    no_zero_node cs2.dag := by
  unfold dagify_back_edge at h
  split at h
  · simp only [Option.some.injEq] at h
    rw [← h]
    exact add_edge_no_zero _ _ hz
  · exact Option.noConfusion h

theorem dagify_edge_no_zero (component : List Int) (last : List (Int × Node)) (id : Int)
    (cs cs2 : CopyState) (e : Edge) (h : dagify_edge component last id cs e = some cs2)
    (hz : no_zero_node cs.dag) : no_zero_node cs2.dag := by
  unfold dagify_edge at h
  by_cases hA : e.from_ = id ∧ e.to_ ≠ id
  · rw [if_pos hA] at h
    split_ifs at h
    · split at h
      · simp only [Option.some.injEq] at h
        rw [← h]; exact add_edge_no_zero _ _ hz
      · exact Option.noConfusion h
    · split at h
      · simp only [Option.some.injEq] at h
        rw [← h]; exact add_edge_no_zero _ _ hz
      · exact Option.noConfusion h
    · simp only [Option.some.injEq] at h
      rw [← h]; exact hz
  · rw [if_neg hA] at h
    by_cases hB : e.to_ = id ∧ e.from_ ≠ id
    · rw [if_pos hB] at h
      simp only at h
      split at h
      · exact Option.noConfusion h
      · rename_i st2 hst2
        have hz2 : no_zero_node st2.dag := by
          split_ifs at hst2
          · split at hst2
            · simp only [Option.some.injEq] at hst2
              rw [← hst2]; exact add_edge_no_zero _ _ hz
            · exact Option.noConfusion hst2
          · split at hst2
            · simp only [Option.some.injEq] at hst2
              rw [← hst2]; exact add_edge_no_zero _ _ hz
            · exact Option.noConfusion hst2
          · simp only [Option.some.injEq] at hst2
            rw [← hst2]; exact hz
        split_ifs at h
        · exact dagify_back_edge_no_zero _ _ _ _ _ h hz2
        · simp only [Option.some.injEq] at h
          rw [← h]; exact hz2
    · rw [if_neg hB] at h
      split_ifs at h
      · exact dagify_back_edge_no_zero _ _ _ _ _ h hz
      · simp only [Option.some.injEq] at h
        rw [← h]; exact hz
      · simp only [Option.some.injEq] at h
        rw [← h]; exact hz

theorem dagify_edges_no_zero (g : VG) (component : List Int) (last : List (Int × Node)) :
    ∀ (ids : List Int) (cs cs2 : CopyState),
      dagify_edges g component last ids cs = some cs2 → no_zero_node cs.dag →
      no_zero_node cs2.dag := by
  intro ids
  induction ids with
  | nil =>
    intro cs cs2 h hz
    simp only [dagify_edges, Option.some.injEq] at h
    rw [← h]; exact hz
  | cons id rest ih =>
    intro cs cs2 h hz
    unfold dagify_edges at h
    split at h
    · exact Option.noConfusion h
    · split at h
      · exact Option.noConfusion h
      · rename_i edges _
        split at h
        · exact Option.noConfusion h
        · rename_i st1 hfold
          refine ih st1 cs2 h ?_
          exact foldl_option_inv (fun s : CopyState => no_zero_node s.dag) _ edges
            (fun _ => rfl)
            (fun e _ s s2 hs hstep => dagify_edge_no_zero component last id s s2 e hstep hs)
            _ st1
            (fun s hs => by
              simp only [Option.some.injEq] at hs
              rw [← hs]; exact hz) hfold

theorem dagify_copy_nodes_no_zero (g : VG) (last : List (Int × Node)) :
    ∀ (ids : List Int) (cs cs2 : CopyState),
      dagify_copy_nodes g last ids cs = some cs2 → no_zero_node cs.dag →
      no_zero_node cs2.dag := by
  intro ids
  induction ids with
  | nil =>
    intro cs cs2 h hz
    simp only [dagify_copy_nodes, Option.some.injEq] at h
    rw [← h]; exact hz
  | cons id rest ih =>
    intro cs cs2 h hz
    unfold dagify_copy_nodes at h
    split_ifs at h
    · split at h
      · exact Option.noConfusion h
      · exact ih _ cs2 h hz
    · split at h
      · exact Option.noConfusion h
      · exact ih _ cs2 h (create_node_no_zero _ _ hz)

theorem dagify_unroll_no_zero (g : VG) (component : List Int) (base : List (Int × Node))
    (target_min_walk_length component_length_max : Nat) :
    ∀ (steps : Nat) (st st2 : UnrollState),
      dagify_unroll g component base target_min_walk_length component_length_max steps st
        = some st2 →
      no_zero_node st.dag → no_zero_node st2.dag := by
  intro steps
  induction steps with
  | zero =>
    intro st st2 h hz
    simp only [dagify_unroll, Option.some.injEq] at h
    rw [← h]; exact hz
  | succ steps ih =>
    intro st st2 h hz
    unfold dagify_unroll at h
    split at h
    · exact Option.noConfusion h
    · rename_i c1 hc1
      split at h
      · exact Option.noConfusion h
      · rename_i c2 hc2
        have hz2 : no_zero_node c2.dag :=
          dagify_edges_no_zero g component st.last component c1 c2 hc2
            (dagify_copy_nodes_no_zero g st.last component _ c1 hc1 hz)
        simp only at h
        split_ifs at h
        · simp only [Option.some.injEq] at h
          rw [← h]; exact hz2
        · simp only [Option.some.injEq] at h
          rw [← h]; exact hz2
        · exact ih _ st2 h hz2

theorem dagify_components_zero (g : VG)
    (expand_scc_steps target_min_walk_length component_length_max : Nat) :
    ∀ (comps : List (List Int)), (∃ c ∈ comps, (0 : Int) ∈ c) →
      ∀ (s : VG × List (Int × (Int × Bool))), no_zero_node s.1 →
        dagify_components g expand_scc_steps target_min_walk_length component_length_max
          comps s = none := by
  intro comps
  induction comps with
  | nil => intro h; obtain ⟨c, hc, _⟩ := h; simp at hc
  | cons component rest ih =>
    intro h s hz
    unfold dagify_components
    cases hb : dagify_base s.1 component ([], [], 0) with
    | none => rfl
    | some b =>
      simp only
      have hnot : (0 : Int) ∉ component := by
        intro h0
        obtain ⟨l, l1, _⟩ := (dagify_base_spec s.1 component _ b hb).1 0 h0
        have := hz.2
        unfold has_node at this
        unfold get_node at l1
        rw [l1] at this
        simp at this
      have hrest : ∃ c ∈ rest, (0 : Int) ∈ c := by
        obtain ⟨c, hc, h0⟩ := h
        rcases List.mem_cons.mp hc with h1 | h1
        · rw [h1] at h0; exact absurd h0 hnot
        · exact ⟨c, h1, h0⟩
      split
      · rfl
      · rename_i st hst
        exact ih hrest _ (dagify_unroll_no_zero g component b.1 target_min_walk_length
          component_length_max _ _ st hst hz)

/-! ## The first three loops of `dagify` -/

theorem add_node_fields (g : VG) (node : Node) :
    (add_node g node).edge = g.edge
      ∧ (add_node g node).current_id = g.current_id
      ∧ (∀ m ∈ g.node, m ∈ (add_node g node).node)
      ∧ (has_node g node.id = false → node ∈ (add_node g node).node)
      ∧ (∀ id nd, map_find (add_node g node).node_by_id id = some nd →
          (nd = node ∧ id = node.id) ∨ map_find g.node_by_id id = some nd) := by
  unfold add_node
  by_cases h : has_node g node.id = true
  · simp only [h, Bool.not_true, Bool.false_eq_true, if_false]
    exact ⟨trivial, trivial, fun _ hm => hm, fun h2 => Bool.noConfusion h2,
      fun _ _ hf => Or.inr hf⟩
  · simp only [h, Bool.not_false, if_true]
    refine ⟨trivial, trivial, fun m hm => List.mem_append_left _ hm,
      fun _ => List.mem_append_right _ (List.mem_singleton_self _), ?_⟩
    intro id nd hf
    simp only [map_find_insert] at hf
    split_ifs at hf with hid
    · simp only [Option.some.injEq] at hf
      exact Or.inl ⟨hf.symm, hid.symm⟩
    · exact Or.inr hf

theorem dagify_classify_inv (g : VG) (hs : store_consistent g) (comps : List (List Int)) :
    ∀ (l : List (List Int)), (∀ c ∈ l, c ∈ comps) →
      ∀ (s r : VG × List (Int × (Int × Bool)) × List Int × List (List Int)),
        classify_inv g comps s → dagify_classify g l s = some r →
        classify_inv g comps r
          ∧ (∀ c ∈ l, (∃ w, c = [w] ∧ w ∈ r.2.2.1) ∨ c ∈ r.2.2.2)
          ∧ (∀ w ∈ s.2.2.1, w ∈ r.2.2.1) ∧ (∀ c ∈ s.2.2.2, c ∈ r.2.2.2) := by
  intro l
  induction l with
  | nil =>
    intro _ s r h hstep
    simp only [dagify_classify, Option.some.injEq] at hstep
    rw [← hstep]
    exact ⟨h, fun c hc => by simp at hc, fun _ hw => hw, fun _ hc => hc⟩
  | cons component rest ih =>
    intro hl s r h hstep
    have hcomp : component ∈ comps := hl component (List.mem_cons_self _ _)
    have hrest : ∀ c ∈ rest, c ∈ comps := fun c hc => hl c (List.mem_cons_of_mem _ hc)
    -- the component is kept for unrolling
    have hkeep : (∀ id, component = [id] → ∀ node, get_node g id = some node →
          is_self_looping g node = some true) →
        dagify_classify g rest
          (s.1, s.2.1, s.2.2.1, set_insert id_set_lt component s.2.2.2) = some r →
        classify_inv g comps r
          ∧ (∀ c ∈ component :: rest, (∃ w, c = [w] ∧ w ∈ r.2.2.1) ∨ c ∈ r.2.2.2)
          ∧ (∀ w ∈ s.2.2.1, w ∈ r.2.2.1) ∧ (∀ c ∈ s.2.2.2, c ∈ r.2.2.2) := by
      intro hloop hstep2
      have hinv : classify_inv g comps
          (s.1, s.2.1, s.2.2.1, set_insert id_set_lt component s.2.2.2) := by
        refine ⟨h.no_edge, h.counter, h.in_store, h.by_id, h.weak_ok, ?_, h.only_weak⟩
        intro c hc
        rcases set_insert_subset id_set_lt component _ c hc with h1 | h1
        · rw [h1]; exact ⟨hcomp, hloop⟩
        · exact h.scc_ok c h1
      obtain ⟨i1, i2, i3, i4⟩ := ih hrest _ r hinv hstep2
      refine ⟨i1, fun c hc => ?_, i3, fun c hc => ?_⟩
      · rcases List.mem_cons.mp hc with h1 | h1
        · right
          rw [h1]
          exact i4 _ ((set_insert_mem id_set_lt id_set_lt_total component _ _).mpr (Or.inl rfl))
        · exact i2 c h1
      · exact i4 c ((set_insert_mem id_set_lt id_set_lt_total component _ _).mpr (Or.inr hc))
    unfold dagify_classify at hstep
    split at hstep
    · rename_i id
      cases hn : get_node g id with
      | none => rw [hn] at hstep; exact Option.noConfusion hstep
      | some node =>
        rw [hn] at hstep
        simp only at hstep
        cases hl2 : is_self_looping g node with
        | none => rw [hl2] at hstep; exact Option.noConfusion hstep
        | some b =>
          rw [hl2] at hstep
          cases b with
          | true =>
            simp only at hstep
            refine hkeep ?_ hstep
            intro id2 hid2 node2 hn2
            have : id2 = id := by
              simp only [List.cons.injEq, and_true] at hid2
              exact hid2.symm
            rw [this, hn] at hn2
            rw [← Option.some.inj hn2]
            exact hl2
          | false =>
            simp only at hstep
            have hnid : node.id = id := (hs.nodes_ok.by_id_sound id node hn).2
            obtain ⟨f1, f2, f3, f4, f5⟩ := add_node_fields s.1 node
            have hhas : ∀ x, has_node (add_node s.1 node) x
                = (decide (node.id = x) || has_node s.1 x) := add_node_has_node s.1 node
            have hinv : classify_inv g comps
                (add_node s.1 node, map_insert s.2.1 id (node.id, false),
                  set_insert id_lt id s.2.2.1, s.2.2.2) := by
              refine ⟨by rw [f1]; exact h.no_edge, by rw [f2]; exact h.counter, ?_, ?_, ?_,
                h.scc_ok, ?_⟩
              · intro x hx
                rw [hhas] at hx
                by_cases hxn : node.id = x
                · by_cases hold : has_node s.1 node.id = true
                  · obtain ⟨m, m1, m2⟩ := h.in_store node.id hold
                    exact ⟨m, f3 m m1, by rw [m2]; exact hxn⟩
                  · exact ⟨node, f4 (by simpa using hold), hxn⟩
                · simp only [hxn, decide_False, Bool.false_or] at hx
                  obtain ⟨m, m1, m2⟩ := h.in_store x hx
                  exact ⟨m, f3 m m1, m2⟩
              · intro id2 nd hf
                rcases f5 id2 nd hf with ⟨a, b⟩ | hb
                · rw [a, b]
                · exact h.by_id id2 nd hb
              · intro w hw
                rcases (set_insert_id_mem id w s.2.2.1).mp hw with h1 | h1
                · rw [h1]
                  refine ⟨hcomp, ?_, node, hn, hl2⟩
                  rw [hhas, hnid]
                  simp
                · obtain ⟨a, b, c⟩ := h.weak_ok w h1
                  refine ⟨a, ?_, c⟩
                  rw [hhas, b]
                  simp
              · intro x hx
                rw [hhas] at hx
                by_cases hxn : node.id = x
                · exact (set_insert_id_mem id x s.2.2.1).mpr (Or.inl (by rw [← hxn, hnid]))
                · simp only [hxn, decide_False, Bool.false_or] at hx
                  exact (set_insert_id_mem id x s.2.2.1).mpr (Or.inr (h.only_weak x hx))
            obtain ⟨i1, i2, i3, i4⟩ := ih hrest _ r hinv hstep
            refine ⟨i1, fun c hc => ?_, fun w hw => ?_, i4⟩
            · rcases List.mem_cons.mp hc with h1 | h1
              · left
                exact ⟨id, h1, i3 id ((set_insert_id_mem id id s.2.2.1).mpr (Or.inl rfl))⟩
              · exact i2 c h1
            · exact i3 w ((set_insert_id_mem id w s.2.2.1).mpr (Or.inr hw))
    · rename_i hne
      refine hkeep ?_ hstep
      intro id hid
      exact absurd hid (hne id)

theorem weak_edge_fold (weak : List Int) (P : Edge → Prop) :
    ∀ (edges : List Edge),
      (∀ e ∈ edges, e.from_ ∈ weak → e.to_ ∈ weak → P e) →
      ∀ (dag : VG), (∀ e ∈ dag.edge, P e) →
        (∀ e ∈ (edges.foldl
            (fun dag e =>
              if set_mem id_lt e.from_ weak && set_mem id_lt e.to_ weak
              then add_edge dag e else dag) dag).edge, P e)
          ∧ (edges.foldl
            (fun dag e =>
              if set_mem id_lt e.from_ weak && set_mem id_lt e.to_ weak
              then add_edge dag e else dag) dag).node = dag.node
          ∧ (edges.foldl
            (fun dag e =>
              if set_mem id_lt e.from_ weak && set_mem id_lt e.to_ weak
              then add_edge dag e else dag) dag).node_by_id = dag.node_by_id
          ∧ (edges.foldl
            (fun dag e =>
              if set_mem id_lt e.from_ weak && set_mem id_lt e.to_ weak
              then add_edge dag e else dag) dag).current_id = dag.current_id := by
  intro edges
  induction edges with
  | nil => intro _ dag h; exact ⟨h, rfl, rfl, rfl⟩
  | cons e rest ih =>
    intro hall dag h
    simp only [List.foldl_cons]
    have hrest : ∀ x ∈ rest, x.from_ ∈ weak → x.to_ ∈ weak → P x :=
      fun x hx => hall x (List.mem_cons_of_mem _ hx)
    by_cases hc : (set_mem id_lt e.from_ weak && set_mem id_lt e.to_ weak) = true
    · rw [if_pos hc]
      obtain ⟨f1, f2, f3, f4⟩ := add_edge_fields dag e
      simp only [Bool.and_eq_true, set_mem_id_iff] at hc
      have h2 : ∀ x ∈ (add_edge dag e).edge, P x := by
        intro x hx
        rcases f1 x hx with h3 | h3
        · exact h x h3
        · rw [h3]; exact hall e (List.mem_cons_self _ _) hc.1 hc.2
      obtain ⟨i1, i2, i3, i4⟩ := ih hrest _ h2
      exact ⟨i1, by rw [i2, f2], by rw [i3, f3], by rw [i4, f4]⟩
    · rw [if_neg hc]
      exact ih hrest dag h

theorem self_edge_loops (g : VG) (hc : edges_consistent g) (node : Node) (edges : List Edge)
    (h : edges_of_node g node = some edges) (e : Edge) (he : e ∈ edges)
    (hloop : e.from_ = e.to_) : is_self_looping g node = some true := by
  obtain ⟨L, hL, hiff⟩ := edges_of_node_spec g hc node
  have hLe : L = edges := Option.some.inj (hL.symm.trans h)
  subst hLe
  have hid : e.from_ = node.id ∧ e.to_ = node.id := by
    rcases (hiff e).mp he with ⟨x, _, hf⟩ | ⟨x, _, hf, _⟩
    · have h2 := (hc.by_sides_sound _ _ hf).2
      rcases (pair_start_cases node.id x e h2).1 with ⟨a, _⟩ | ⟨a, _⟩
      · exact ⟨by rw [hloop, a], a.symm⟩
      · exact ⟨a.symm, by rw [← hloop, a]⟩
    · have h2 := (hc.by_sides_sound _ _ hf).2
      rcases (pair_end_cases node.id x e h2).1 with ⟨a, _⟩ | ⟨a, _⟩
      · exact ⟨by rw [hloop, a], a.symm⟩
      · exact ⟨a.symm, by rw [← hloop, a]⟩
  unfold is_self_looping
  rw [hL]
  simp only [Option.map_some', Option.some.injEq, List.any_eq_true, decide_eq_true_eq]
  exact ⟨e, he, hid⟩

theorem dagify_weak_edges_inv (g : VG) (hc : edges_consistent g) (weak : List Int)
    (hw : ∀ w ∈ weak, ∃ node, get_node g w = some node ∧ is_self_looping g node = some false) :
    ∀ (ids : List Int), (∀ id ∈ ids, id ∈ weak) → ∀ (dag r : VG),
      dagify_weak_edges g weak ids dag = some r →
      (∀ e ∈ dag.edge, e ∈ g.edge ∧ e.from_ ∈ weak ∧ e.to_ ∈ weak ∧ e.from_ ≠ e.to_) →
      (∀ e ∈ r.edge, e ∈ g.edge ∧ e.from_ ∈ weak ∧ e.to_ ∈ weak ∧ e.from_ ≠ e.to_)
        ∧ r.node = dag.node ∧ r.node_by_id = dag.node_by_id
        ∧ r.current_id = dag.current_id := by
  intro ids
  induction ids with
  | nil =>
    intro _ dag r h hd
    simp only [dagify_weak_edges, Option.some.injEq] at h
    rw [← h]
    exact ⟨hd, rfl, rfl, rfl⟩
  | cons id rest ih =>
    intro hids dag r h hd
    unfold dagify_weak_edges at h
    cases hn : get_node g id with
    | none => rw [hn] at h; exact Option.noConfusion h
    | some node =>
      rw [hn] at h
      simp only at h
      cases hed : edges_of_node g node with
      | none => rw [hed] at h; exact Option.noConfusion h
      | some edges =>
        rw [hed] at h
        simp only at h
        obtain ⟨node2, hn2, hl2⟩ := hw id (hids id (List.mem_cons_self _ _))
        have hnode : node2 = node := Option.some.inj (hn2.symm.trans hn)
        rw [hnode] at hl2
        have hall : ∀ e ∈ edges, e.from_ ∈ weak → e.to_ ∈ weak →
            (e ∈ g.edge ∧ e.from_ ∈ weak ∧ e.to_ ∈ weak ∧ e.from_ ≠ e.to_) := by
          intro e he h1 h2
          refine ⟨edges_of_node_mem g hc node edges hed e he, h1, h2, fun hloop => ?_⟩
          have := self_edge_loops g hc node edges hed e he hloop
          rw [hl2] at this
          simp at this
        obtain ⟨j1, j2, j3, j4⟩ := weak_edge_fold weak
          (fun e => e ∈ g.edge ∧ e.from_ ∈ weak ∧ e.to_ ∈ weak ∧ e.from_ ≠ e.to_)
          edges hall dag hd
        obtain ⟨i1, i2, i3, i4⟩ :=
          ih (fun x hx => hids x (List.mem_cons_of_mem _ hx)) _ r h j1
        exact ⟨i1, by rw [i2, j2], by rw [i3, j3], by rw [i4, j4]⟩

theorem dagify_base_nodes_inv (g : VG) :
    ∀ (ids : List Int), (0 : Int) ∉ ids → ∀ (dag r : VG),
      dagify_base_nodes g ids dag = some r →
      r.edge = dag.edge ∧ r.current_id = dag.current_id
        ∧ ((∀ x, has_node dag x = true → ∃ m ∈ dag.node, m.id = x) →
            ∀ x, has_node r x = true → ∃ m ∈ r.node, m.id = x)
        ∧ ((∀ id nd, map_find dag.node_by_id id = some nd → nd.id = id) →
            ∀ id nd, map_find r.node_by_id id = some nd → nd.id = id)
        ∧ (∀ x, has_node dag x = true → has_node r x = true)
        ∧ (∀ id ∈ ids, has_node r id = true) := by
  intro ids
  induction ids with
  | nil =>
    intro _ dag r h
    simp only [dagify_base_nodes, Option.some.injEq] at h
    rw [← h]
    exact ⟨rfl, rfl, fun h => h, fun h => h, fun _ h => h, fun _ h => by simp at h⟩
  | cons id rest ih =>
    intro h0 dag r h
    unfold dagify_base_nodes at h
    cases hn : get_node g id with
    | none => rw [hn] at h; exact Option.noConfusion h
    | some node =>
      rw [hn] at h
      simp only at h
      have hid : id ≠ 0 := fun h2 => h0 (by rw [h2]; exact List.mem_cons_self _ _)
      obtain ⟨e1, e2⟩ := create_node_explicit dag node.sequence id hid
      obtain ⟨n1, n2, _⟩ := create_node_node_fields dag node.sequence id
      obtain ⟨d1, _, _, _, _⟩ := create_node_edge_fields dag node.sequence id
      have hhas := create_node_has_node dag node.sequence id
      rw [e1] at n1 n2 hhas
      simp only at n2 hhas
      obtain ⟨i1, i2, i3, i4, i5, i6⟩ :=
        ih (fun h2 => h0 (List.mem_cons_of_mem _ h2)) _ r h
      refine ⟨by rw [i1, d1], by rw [i2, e2], fun hin => i3 ?_, fun hby => i4 ?_,
        fun x hx => i5 x ?_, fun x hx => ?_⟩
      · intro x hx
        rw [hhas] at hx
        by_cases hxi : id = x
        · exact ⟨⟨id, node.sequence⟩, by rw [n1]; simp, hxi⟩
        · simp only [hxi, decide_False, Bool.false_or] at hx
          obtain ⟨m, m1, m2⟩ := hin x hx
          exact ⟨m, by rw [n1]; exact List.mem_append_left _ m1, m2⟩
      · intro id2 nd hf
        rw [n2, map_find_insert] at hf
        split_ifs at hf with h2
        · simp only [Option.some.injEq] at hf
          rw [← hf, ← h2]
        · exact hby id2 nd hf
      · rw [hhas, hx]
        simp
      · rcases List.mem_cons.mp hx with h1 | h1
        · apply i5
          rw [hhas, h1]
          simp
        · exact i6 x h1

theorem dagify_base_nodes_no_zero (g : VG) :
    ∀ (ids : List Int) (dag r : VG), dagify_base_nodes g ids dag = some r →
      no_zero_node dag → no_zero_node r := by
  intro ids
  induction ids with
  | nil =>
    intro dag r h hz
    simp only [dagify_base_nodes, Option.some.injEq] at h
    rw [← h]
    exact hz
  | cons id rest ih =>
    intro dag r h hz
    unfold dagify_base_nodes at h
    cases hn : get_node g id with
    | none => rw [hn] at h; exact Option.noConfusion h
    | some node =>
      rw [hn] at h
      simp only at h
      refine ih _ r h ?_
      by_cases hid : id = 0
      · rw [hid]
        exact create_node_no_zero dag node.sequence hz
      · obtain ⟨e1, e2⟩ := create_node_explicit dag node.sequence id hid
        refine ⟨by rw [e2]; exact hz.1, ?_⟩
        rw [create_node_has_node, e1, hz.2]
        simp [hid]

theorem sorted_of_zero (c : List Int) (hs : c.Pairwise (· < ·)) (h0 : (0 : Int) ∈ c)
    (hall : ∀ x ∈ c, x = 0) : c = [0] := by
  cases c with
  | nil => simp at h0
  | cons a rest =>
    have ha : a = 0 := hall a (List.mem_cons_self _ _)
    cases rest with
    | nil => rw [ha]
    | cons b rest2 =>
      have hb : b = 0 := hall b (List.mem_cons_of_mem _ (List.mem_cons_self _ _))
      have hlt := (List.pairwise_cons.mp hs).1 b (List.mem_cons_self _ _)
      omega

/-! ## `dagify` returns -/

theorem add_edge_has_node (dag : VG) (e : Edge) (x : Int) :
    has_node (add_edge dag e) x = has_node dag x := by
  unfold has_node
  rw [(add_edge_fields dag e).2.2.1]

theorem dagify_back_edge_total (last : List (Int × Node)) (id : Int) (st : CopyState) (e : Edge)
    (hc : ∃ c, map_find st.curr id = some c) (hl : ∃ l, map_find last e.from_ = some l) :
    ∃ st2, dagify_back_edge last id st e = some st2 ∧ st2.curr = st.curr
      ∧ ∀ x, has_node st.dag x = true → has_node st2.dag x = true := by
  obtain ⟨c, hc⟩ := hc
  obtain ⟨l, hl⟩ := hl
  unfold dagify_back_edge
  rw [hc, hl]
  refine ⟨_, rfl, rfl, fun x hx => ?_⟩
  show has_node (add_edge st.dag _) x = true
  rw [add_edge_has_node]
  exact hx

theorem dagify_edge_total (component : List Int) (last : List (Int × Node)) (id : Int)
    (st : CopyState) (e : Edge) (hid : id ∈ component)
    (hcur : ∀ x ∈ component, ∃ c, map_find st.curr x = some c)
    (hlast : ∀ x ∈ component, ∃ l, map_find last x = some l) :
    ∃ st2, dagify_edge component last id st e = some st2 ∧ st2.curr = st.curr
      ∧ ∀ x, has_node st.dag x = true → has_node st2.dag x = true := by
  obtain ⟨c, hc⟩ := hcur id hid
  unfold dagify_edge
  by_cases hA : e.from_ = id ∧ e.to_ ≠ id
  · rw [if_pos hA]
    by_cases h1 : set_mem id_lt e.to_ component = true
    · have hto : e.to_ ∈ component := (set_mem_id_iff _ _).mp h1
      obtain ⟨d, hd⟩ := hcur e.to_ hto
      simp only [h1, Bool.not_true, Bool.false_eq_true, if_false]
      by_cases h2 : set_mem id_lt e.to_ st.seen = true
      · simp only [h2, Bool.not_true, Bool.false_eq_true, if_false]
        exact ⟨st, rfl, rfl, fun _ hx => hx⟩
      · simp only [h2, Bool.not_false, if_true, hc, hd]
        refine ⟨_, rfl, rfl, fun x hx => ?_⟩
        show has_node (add_edge st.dag _) x = true
        rw [add_edge_has_node]
        exact hx
    · simp only [h1, Bool.not_false, if_true, hc]
      refine ⟨_, rfl, rfl, fun x hx => ?_⟩
      show has_node (add_edge st.dag _) x = true
      rw [add_edge_has_node]
      exact hx
  · rw [if_neg hA]
    by_cases hB : e.to_ = id ∧ e.from_ ≠ id
    · rw [if_pos hB]
      have htail : ∀ (m : Bool), m = set_mem id_lt e.from_ component →
          ∀ s1 : CopyState, s1.curr = st.curr →
          (∀ x, has_node st.dag x = true → has_node s1.dag x = true) →
          ∃ st2, (if (!last.isEmpty && m) = true
              then dagify_back_edge last id s1 e else some s1) = some st2
            ∧ st2.curr = st.curr
            ∧ ∀ x, has_node st.dag x = true → has_node st2.dag x = true := by
        intro m hm s1 e2 e3
        by_cases h3 : (!last.isEmpty && m) = true
        · rw [if_pos h3]
          rw [hm] at h3
          simp only [Bool.and_eq_true, set_mem_id_iff] at h3
          obtain ⟨s2, b1, b2, b3⟩ := dagify_back_edge_total last id s1 e
            ⟨c, by rw [e2]; exact hc⟩ (hlast e.from_ h3.2)
          exact ⟨s2, b1, by rw [b2, e2], fun x hx => b3 x (e3 x hx)⟩
        · rw [if_neg h3]
          exact ⟨s1, rfl, e2, e3⟩
      by_cases h1 : set_mem id_lt e.from_ component = true
      · have hfrom : e.from_ ∈ component := (set_mem_id_iff _ _).mp h1
        obtain ⟨d, hd⟩ := hcur e.from_ hfrom
        by_cases h2 : set_mem id_lt e.from_ st.seen = true
        · simp only [h1, h2, Bool.not_true, Bool.false_eq_true, if_false]
          exact htail true h1.symm st rfl (fun _ hx => hx)
        · simp only [h1, h2, Bool.not_true, Bool.false_eq_true, if_false, Bool.not_false,
            if_true, hc, hd]
          refine htail true h1.symm _ rfl (fun x hx => ?_)
          show has_node (add_edge st.dag _) x = true
          rw [add_edge_has_node]
          exact hx
      · simp only [h1, Bool.not_false, if_true, hc]
        refine htail false (Bool.eq_false_iff.mpr h1).symm _ rfl (fun x hx => ?_)
        show has_node (add_edge st.dag _) x = true
        rw [add_edge_has_node]
        exact hx
    · rw [if_neg hB]
      by_cases hC : e.to_ = id ∧ e.from_ = id
      · rw [if_pos hC]
        by_cases h3 : (!last.isEmpty) = true
        · rw [if_pos h3]
          exact dagify_back_edge_total last id st e ⟨c, hc⟩
            (hlast e.from_ (by rw [hC.2]; exact hid))
        · rw [if_neg h3]
          exact ⟨st, rfl, rfl, fun _ hx => hx⟩
      · rw [if_neg hC]
        exact ⟨st, rfl, rfl, fun _ hx => hx⟩

theorem dagify_edge_fold_total (component : List Int) (last : List (Int × Node)) (id : Int)
    (hid : id ∈ component) (hlast : ∀ x ∈ component, ∃ l, map_find last x = some l) :
    ∀ (edges : List Edge) (st : CopyState),
      (∀ x ∈ component, ∃ c, map_find st.curr x = some c) →
      ∃ st2, edges.foldl
          (fun (acc : Option CopyState) e =>
            match acc with
            | none => none
            | some s => dagify_edge component last id s e) (some st) = some st2
        ∧ st2.curr = st.curr ∧ ∀ x, has_node st.dag x = true → has_node st2.dag x = true := by
  intro edges
  induction edges with
  | nil => intro st _; exact ⟨st, rfl, rfl, fun _ hx => hx⟩
  | cons e rest ih =>
    intro st hcur
    obtain ⟨s1, a1, a2, a3⟩ := dagify_edge_total component last id st e hid hcur hlast
    simp only [List.foldl_cons, a1]
    obtain ⟨s2, b1, b2, b3⟩ := ih s1 (by rw [a2]; exact hcur)
    exact ⟨s2, b1, by rw [b2, a2], fun x hx => b3 x (a3 x hx)⟩

theorem dagify_edges_total (g : VG) (hc : edges_consistent g) (component : List Int)
    (last : List (Int × Node)) (hlast : ∀ x ∈ component, ∃ l, map_find last x = some l) :
    ∀ (ids : List Int), (∀ id ∈ ids, id ∈ component ∧ has_node g id = true) →
      ∀ (st : CopyState), (∀ x ∈ component, ∃ c, map_find st.curr x = some c) →
      ∃ st2, dagify_edges g component last ids st = some st2 ∧ st2.curr = st.curr
        ∧ ∀ x, has_node st.dag x = true → has_node st2.dag x = true := by
  intro ids
  induction ids with
  | nil => intro _ st _; exact ⟨st, rfl, rfl, fun _ hx => hx⟩
  | cons id rest ih =>
    intro hids st hcur
    obtain ⟨hid, hnode⟩ := hids id (List.mem_cons_self _ _)
    obtain ⟨node, hn⟩ := (has_node_iff g id).mp hnode
    obtain ⟨edges, hed, _⟩ := edges_of_node_spec g hc node
    obtain ⟨s1, a1, a2, a3⟩ := dagify_edge_fold_total component last id hid hlast edges
      { st with seen := set_insert id_lt id st.seen } hcur
    obtain ⟨s2, b1, b2, b3⟩ :=
      ih (fun x hx => hids x (List.mem_cons_of_mem _ hx)) s1 (by rw [a2]; exact hcur)
    unfold dagify_edges
    simp only [hn, hed]
    generalize hf : List.foldl _ _ edges = f
    have hf2 : f = some s1 := hf.symm.trans a1
    rw [hf2]
    exact ⟨s2, b1, by rw [b2, a2], fun x hx => b3 x (a3 x hx)⟩

theorem dagify_copy_nodes_total (g : VG) (last : List (Int × Node)) :
    ∀ (ids : List Int), (ids ≠ [] → last.isEmpty = false) →
      (∀ id ∈ ids, has_node g id = true) → ∀ (st : CopyState),
      ∃ st2, dagify_copy_nodes g last ids st = some st2
        ∧ (∀ x, (∃ c, map_find st.curr x = some c) → ∃ c, map_find st2.curr x = some c)
        ∧ ∀ x, has_node st.dag x = true → has_node st2.dag x = true := by
  intro ids
  induction ids with
  | nil => intro _ _ st; exact ⟨st, rfl, fun _ h => h, fun _ hx => hx⟩
  | cons id rest ih =>
    intro hne hids st
    have hl : last.isEmpty = false := hne (by simp)
    obtain ⟨orig, hn⟩ := (has_node_iff g id).mp (hids id (List.mem_cons_self _ _))
    unfold dagify_copy_nodes
    simp only [hl, Bool.false_eq_true, if_false, hn]
    obtain ⟨s2, b1, b2, b3⟩ := ih (fun _ => hl)
      (fun x hx => hids x (List.mem_cons_of_mem _ hx))
      { st with dag := (create_node st.dag orig.sequence 0).1,
                component_length :=
                  st.component_length + (create_node st.dag orig.sequence 0).2.sequence.length,
                curr := map_insert st.curr id (create_node st.dag orig.sequence 0).2,
                node_translation := map_insert st.node_translation
                  (create_node st.dag orig.sequence 0).2.id (id, false) }
    refine ⟨s2, b1, fun x hx => b2 x ?_, fun x hx => b3 x ?_⟩
    · obtain ⟨c, hc⟩ := hx
      simp only [map_find_insert]
      split_ifs
      · exact ⟨_, rfl⟩
      · exact ⟨c, hc⟩
    · show has_node (create_node st.dag orig.sequence 0).1 x = true
      rw [create_node_has_node, hx]
      simp

theorem dagify_unroll_total (g : VG) (hc : edges_consistent g) (component : List Int)
    (base : List (Int × Node)) (target_min_walk_length component_length_max : Nat)
    (hg : ∀ id ∈ component, has_node g id = true)
    (hbase : ∀ x ∈ component, ∃ c, map_find base x = some c) :
    ∀ (steps : Nat) (st : UnrollState),
      (∀ x ∈ component, ∃ l, map_find st.last x = some l) →
      ∃ r, dagify_unroll g component base target_min_walk_length component_length_max
          steps st = some r
        ∧ ∀ x, has_node st.dag x = true → has_node r.dag x = true := by
  intro steps
  induction steps with
  | zero => intro st _; exact ⟨st, rfl, fun _ hx => hx⟩
  | succ steps ih =>
    intro st hlast
    have hne : component ≠ [] → st.last.isEmpty = false := by
      intro h
      cases hcomp : component with
      | nil => exact absurd hcomp h
      | cons a rest =>
        obtain ⟨l, hl⟩ := hlast a (by rw [hcomp]; exact List.mem_cons_self _ _)
        cases hlast2 : st.last with
        | nil => rw [hlast2] at hl; simp [map_find] at hl
        | cons _ _ => rfl
    obtain ⟨c1, a1, a2, a3⟩ := dagify_copy_nodes_total g st.last component hne hg
      { dag := st.dag, node_translation := st.node_translation,
        min_return_length := st.min_return_length,
        component_length := st.component_length,
        curr := base, seen := [], curr_min_min_return_length := 0 }
    have hcur1 : ∀ x ∈ component, ∃ c, map_find c1.curr x = some c :=
      fun x hx => a2 x (hbase x hx)
    obtain ⟨c2, b1, b2, b3⟩ := dagify_edges_total g hc component st.last hlast component
      (fun id hid => ⟨hid, hg id hid⟩) c1 hcur1
    unfold dagify_unroll
    simp only [a1, b1]
    have hmono : ∀ x, has_node st.dag x = true → has_node c2.dag x = true :=
      fun x hx => b3 x (a3 x hx)
    split_ifs
    · exact ⟨_, rfl, hmono⟩
    · exact ⟨_, rfl, hmono⟩
    · obtain ⟨r, r1, r2⟩ := ih
        { dag := c2.dag, node_translation := c2.node_translation,
          min_return_length := c2.min_return_length,
          component_length := c2.component_length, last := c2.curr }
        (by
          intro x hx
          show ∃ l, map_find c2.curr x = some l
          rw [b2]
          exact hcur1 x hx)
      exact ⟨r, r1, fun x hx => r2 x (hmono x hx)⟩

theorem dagify_base_total (dag : VG) :
    ∀ (ids : List Int), (∀ id ∈ ids, has_node dag id = true) →
      ∀ (s : List (Int × Node) × List (Node × Nat) × Nat), ∃ r, dagify_base dag ids s = some r := by
  intro ids
  induction ids with
  | nil => intro _ s; exact ⟨s, rfl⟩
  | cons id rest ih =>
    intro hids s
    obtain ⟨node, hn⟩ := (has_node_iff dag id).mp (hids id (List.mem_cons_self _ _))
    unfold dagify_base
    simp only [hn]
    exact ih (fun x hx => hids x (List.mem_cons_of_mem _ hx)) _

theorem dagify_components_total (g : VG) (hc : edges_consistent g)
    (expand_scc_steps target_min_walk_length component_length_max : Nat) :
    ∀ (comps : List (List Int)), (∀ c ∈ comps, ∀ x ∈ c, has_node g x = true) →
      ∀ (s : VG × List (Int × (Int × Bool))),
        (∀ c ∈ comps, ∀ x ∈ c, has_node s.1 x = true) →
        ∃ r, dagify_components g expand_scc_steps target_min_walk_length component_length_max
          comps s = some r := by
  intro comps
  induction comps with
  | nil => intro _ s _; exact ⟨s, rfl⟩
  | cons component rest ih =>
    intro hg s hs
    obtain ⟨b, hb⟩ := dagify_base_total s.1 component
      (hs component (List.mem_cons_self _ _)) ([], [], 0)
    have hcov : ∀ x ∈ component, ∃ l, map_find b.1 x = some l := by
      intro x hx
      obtain ⟨l, _, h2⟩ := (dagify_base_spec s.1 component _ b hb).1 x hx
      exact ⟨l, h2⟩
    obtain ⟨st, u1, u2⟩ := dagify_unroll_total g hc component b.1 target_min_walk_length
      component_length_max (hg component (List.mem_cons_self _ _)) hcov
      ((expand_scc_steps + 1) % 2 ^ 32)
      { dag := s.1, node_translation := s.2, min_return_length := b.2.1,
        component_length := b.2.2, last := b.1 } hcov
    unfold dagify_components
    simp only [hb, u1]
    exact ih (fun c hc2 => hg c (List.mem_cons_of_mem _ hc2)) _
      (fun c hc2 x hx => u2 x (hs c (List.mem_cons_of_mem _ hc2) x hx))

theorem dagify_classify_total (g : VG) (hc : edges_consistent g) :
    ∀ (l : List (List Int)), (∀ c ∈ l, ∀ x ∈ c, has_node g x = true) →
      ∀ (s : VG × List (Int × (Int × Bool)) × List Int × List (List Int)),
        ∃ r, dagify_classify g l s = some r := by
  intro l
  induction l with
  | nil => intro _ s; exact ⟨s, rfl⟩
  | cons component rest ih =>
    intro hl s
    have hrest : ∀ c ∈ rest, ∀ x ∈ c, has_node g x = true :=
      fun c hc2 => hl c (List.mem_cons_of_mem _ hc2)
    unfold dagify_classify
    split
    · rename_i id
      obtain ⟨node, hn⟩ := (has_node_iff g id).mp
        (hl [id] (List.mem_cons_self _ _) id (List.mem_singleton_self _))
      obtain ⟨edges, hed, _⟩ := edges_of_node_spec g hc node
      have hloop : is_self_looping g node = some (edges.any
          (fun edge => decide (edge.from_ = node.id ∧ edge.to_ = node.id))) := by
        unfold is_self_looping
        rw [hed]
        rfl
      rw [hn]
      simp only [hloop]
      split
      · rename_i h2; exact Option.noConfusion h2
      · exact ih hrest _
      · exact ih hrest _
    · exact ih hrest _

theorem dagify_weak_edges_total (g : VG) (hc : edges_consistent g) (weak : List Int) :
    ∀ (ids : List Int), (∀ id ∈ ids, has_node g id = true) → ∀ (dag : VG),
      ∃ r, dagify_weak_edges g weak ids dag = some r := by
  intro ids
  induction ids with
  | nil => intro _ dag; exact ⟨dag, rfl⟩
  | cons id rest ih =>
    intro hids dag
    obtain ⟨node, hn⟩ := (has_node_iff g id).mp (hids id (List.mem_cons_self _ _))
    obtain ⟨edges, hed, _⟩ := edges_of_node_spec g hc node
    unfold dagify_weak_edges
    simp only [hn, hed]
    exact ih (fun x hx => hids x (List.mem_cons_of_mem _ hx)) _

theorem dagify_base_nodes_total (g : VG) :
    ∀ (ids : List Int), (∀ id ∈ ids, has_node g id = true) → ∀ (dag : VG),
      ∃ r, dagify_base_nodes g ids dag = some r := by
  intro ids
  induction ids with
  | nil => intro _ dag; exact ⟨dag, rfl⟩
  | cons id rest ih =>
    intro hids dag
    obtain ⟨node, hn⟩ := (has_node_iff g id).mp (hids id (List.mem_cons_self _ _))
    unfold dagify_base_nodes
    simp only [hn]
    exact ih (fun x hx => hids x (List.mem_cons_of_mem _ hx)) _

/-! ## The graph returned by `dagify` -/

theorem flip_edge_plain (e : Edge) (h : e.from_start = false ∧ e.to_end = false) :
    flip_edge e = e := by
  unfold flip_edge
  rw [h.1]
  simp

theorem dagify_phases (g : VG) (hs : store_consistent g) (hp : plain_edges g)
    (expand_scc_steps : Nat) (node_translation : List (Int × (Int × Bool)))
    (target_min_walk_length component_length_max : Nat) :
    (has_node g 0 = false →
        ∃ r, dagify g expand_scc_steps node_translation target_min_walk_length
          component_length_max = some r)
      ∧ ∀ r, dagify g expand_scc_steps node_translation target_min_walk_length
          component_length_max = some r →
        ∃ dag K, r.1 = flip_doubly_reversed_edges dag ∧ dag_ranked dag K := by
  obtain ⟨comps, hscc, hcover, hspec⟩ := scc_plain_spec g hs hp
  have hsorted := scc_components_sorted g comps hscc
  have hnodes : ∀ c ∈ comps, ∀ x ∈ c, has_node g x = true :=
    fun c hc x hx => (hspec c hc x hx).1
  obtain ⟨c, hcl⟩ := dagify_classify_total g hs.edges_ok comps hnodes
    (VG.empty, node_translation, [], [])
  have hinv0 : classify_inv g comps (VG.empty, node_translation, [], []) := by
    refine ⟨rfl, rfl, ?_, ?_, ?_, ?_, ?_⟩
    · intro x hx; simp [has_node, VG.empty, map_find] at hx
    · intro id nd hf; simp [VG.empty, map_find] at hf
    · intro w hw; simp at hw
    · intro c hc; simp at hc
    · intro x hx; simp [has_node, VG.empty, map_find] at hx
  obtain ⟨ci, ccov, _, _⟩ :=
    dagify_classify_inv g hs comps comps (fun _ h => h) _ c hinv0 hcl
  have hweak_nodes : ∀ id ∈ c.2.2.1, has_node g id = true := by
    intro id hid
    obtain ⟨_, _, node, hn, _⟩ := ci.weak_ok id hid
    exact (has_node_iff g id).mpr ⟨node, hn⟩
  obtain ⟨dag1, hd1⟩ :=
    dagify_weak_edges_total g hs.edges_ok c.2.2.1 c.2.2.1 hweak_nodes c.1
  obtain ⟨w1, w2, w3, w4⟩ := dagify_weak_edges_inv g hs.edges_ok c.2.2.1
    (fun w hw => (ci.weak_ok w hw).2.2) c.2.2.1 (fun _ h => h) c.1 dag1 hd1
    (by rw [ci.no_edge]; intro e he; simp at he)
  have hscc_nodes : ∀ id ∈ c.2.2.2.flatten, has_node g id = true := by
    intro id hid
    obtain ⟨C, hC, hidC⟩ := List.mem_flatten.mp hid
    exact hnodes C (ci.scc_ok C hC).1 id hidC
  obtain ⟨dag2, hd2⟩ := dagify_base_nodes_total g _ hscc_nodes dag1
  have hunf : dagify g expand_scc_steps node_translation target_min_walk_length
      component_length_max
      = (dagify_components g expand_scc_steps target_min_walk_length component_length_max
          c.2.2.2 (dag2, c.2.1)).map (fun r => (flip_doubly_reversed_edges r.1, r.2)) := by
    unfold dagify
    simp only [hscc, hcl, hd1, hd2]
    cases dagify_components g expand_scc_steps target_min_walk_length component_length_max
      c.2.2.2 (dag2, c.2.1) <;> rfl
  have hhas1 : ∀ x, has_node dag1 x = has_node c.1 x := by
    intro x
    unfold has_node
    rw [w3]
  by_cases h0 : (0 : Int) ∈ c.2.2.2.flatten
  · -- the node 0 is in a component to unroll: `dag.get_node(0)` throws
    obtain ⟨C0, hC0, h0C⟩ := List.mem_flatten.mp h0
    have hz1 : no_zero_node dag1 := by
      refine ⟨by rw [w4, ci.counter], ?_⟩
      rw [hhas1]
      cases hh : has_node c.1 0 with
      | false => rfl
      | true =>
        exfalso
        obtain ⟨hw1, _, node, hn, hloop⟩ := ci.weak_ok 0 (ci.only_weak 0 hh)
        obtain ⟨hCc, hsingle⟩ := ci.scc_ok C0 hC0
        have hall : ∀ x ∈ C0, x = 0 := by
          intro x hx
          have h1 := ((hspec C0 hCc 0 h0C).2 x).mp hx
          have h2 := ((hspec [0] hw1 0 (List.mem_singleton_self _)).2 x).mpr h1
          exact List.mem_singleton.mp h2
        have hC0eq := sorted_of_zero C0 (hsorted C0 hCc) h0C hall
        have := hsingle 0 hC0eq node hn
        rw [hloop] at this
        simp at this
    have hz2 := dagify_base_nodes_no_zero g _ dag1 dag2 hd2 hz1
    have hnone := dagify_components_zero g expand_scc_steps target_min_walk_length
      component_length_max c.2.2.2 ⟨C0, hC0, h0C⟩ (dag2, c.2.1) hz2
    refine ⟨fun hz => ?_, fun r hr => ?_⟩
    · have := hscc_nodes 0 h0
      rw [hz] at this
      exact Bool.noConfusion this
    · rw [hunf, hnone] at hr
      exact Option.noConfusion hr
  · obtain ⟨b1, b2, b3, b4, b5, b6⟩ := dagify_base_nodes_inv g _ h0 dag1 dag2 hd2
    have hcur2 : dag2.current_id = 1 := by rw [b2, w4, ci.counter]
    have hin2 : ∀ x, has_node dag2 x = true → ∃ m ∈ dag2.node, m.id = x := by
      apply b3
      intro x hx
      rw [hhas1] at hx
      rw [w2]
      exact ci.in_store x hx
    have hbelow : ∀ x, has_node dag2 x = true → x < next_id dag2 := by
      intro x hx
      obtain ⟨m, hm, hmx⟩ := hin2 x hx
      have := (max_node_id_ge dag2).2 m hm
      unfold next_id
      rw [if_pos hcur2]
      omega
    have hweak2 : ∀ w ∈ c.2.2.1, has_node dag2 w = true := by
      intro w hw
      apply b5
      rw [hhas1]
      exact (ci.weak_ok w hw).2.1
    have hall : ∀ x, has_node g x = true → has_node dag2 x = true := by
      intro x hx
      obtain ⟨nd, hnd⟩ := (has_node_iff g x).mp hx
      obtain ⟨hmem, hid⟩ := hs.nodes_ok.by_id_sound x nd hnd
      obtain ⟨C, hC, hxC⟩ := hcover nd hmem
      rw [hid] at hxC
      rcases ccov C hC with ⟨w, hCw, hw⟩ | hCs
      · rw [hCw] at hxC
        rw [List.mem_singleton.mp hxC]
        exact hweak2 w hw
      · exact b6 x (List.mem_flatten.mpr ⟨C, hCs, hxC⟩)
    obtain ⟨rank, hr1, hr2⟩ := exists_rank g
    have hedge : ∀ e ∈ g.edge, id_reaches g e.from_ e.to_ :=
      fun e he => Relation.ReflTransGen.single ⟨e, he, rfl, rfl⟩
    have hranked : dag_ranked dag2 (fun x => (rank x, (0 : Int), (0 : Int))) := by
      refine ⟨fun e he => ?_, fun e he => ?_, fun e he => ?_, by rw [hcur2], ?_⟩
      · rw [b1] at he
        exact hp e (w1 e he).1
      · rw [b1] at he
        obtain ⟨heg, hfw, _, hne⟩ := w1 e he
        obtain ⟨hfrom, hiff⟩ := hspec [e.from_] (ci.weak_ok e.from_ hfw).1 e.from_
          (List.mem_singleton_self _)
        refine Or.inl (hr2 e.from_ e.to_ hfrom (hedge e heg) (fun hback => hne ?_))
        have := (hiff e.to_).mpr ⟨(hs.endpoints e heg).2, hedge e heg, hback⟩
        exact (List.mem_singleton.mp this).symm
      · rw [b1] at he
        obtain ⟨_, hfw, htw, _⟩ := w1 e he
        exact ⟨hbelow _ (hweak2 _ hfw), hbelow _ (hweak2 _ htw)⟩
      · apply b4
        rw [w3]
        exact ci.by_id
    have hctx : ∀ C ∈ c.2.2.2, comp_ctx g rank C (next_id dag2) ∧ ∀ x ∈ C, x < next_id dag2 := by
      intro C hC
      have hCc := (ci.scc_ok C hC).1
      refine ⟨⟨hp, fun e he => ⟨hbelow _ (hall _ (hs.endpoints e he).1),
        hbelow _ (hall _ (hs.endpoints e he).2)⟩, ?_, ?_⟩,
        fun x hx => hbelow x (hall x (hspec C hCc x hx).1)⟩
      · intro a ha b hb
        obtain ⟨_, hab, hba⟩ := ((hspec C hCc a ha).2 b).mp hb
        exact le_antisymm (hr1 b a hba) (hr1 a b hab)
      · intro e he hcross
        rcases hcross with ⟨hfrom, hto⟩ | ⟨hto, hfrom⟩
        · exact hr2 e.from_ e.to_ (hs.endpoints e he).1 (hedge e he)
            (fun hback => hto (((hspec C hCc e.from_ hfrom).2 e.to_).mpr
              ⟨(hs.endpoints e he).2, hedge e he, hback⟩))
        · exact hr2 e.from_ e.to_ (hs.endpoints e he).1 (hedge e he)
            (fun hback => hfrom (((hspec C hCc e.to_ hto).2 e.from_).mpr
              ⟨(hs.endpoints e he).1, hback, hedge e he⟩))
    refine ⟨fun _ => ?_, fun r hr => ?_⟩
    · obtain ⟨r2, hr2⟩ := dagify_components_total g hs.edges_ok expand_scc_steps
        target_min_walk_length component_length_max c.2.2.2
        (fun C hC => hnodes C (ci.scc_ok C hC).1) (dag2, c.2.1)
        (fun C hC x hx => b6 x (List.mem_flatten.mpr ⟨C, hC, hx⟩))
      exact ⟨_, by rw [hunf, hr2]; rfl⟩
    · rw [hunf] at hr
      cases hdc : dagify_components g expand_scc_steps target_min_walk_length
          component_length_max c.2.2.2 (dag2, c.2.1) with
      | none => rw [hdc] at hr; exact Option.noConfusion hr
      | some r2 =>
        rw [hdc] at hr
        simp only [Option.map_some', Option.some.injEq] at hr
        obtain ⟨K2, hK2⟩ := dagify_components_inv g hs.edges_ok rank (next_id dag2)
          expand_scc_steps target_min_walk_length component_length_max c.2.2.2 hctx
          (fun x => (rank x, (0 : Int), (0 : Int))) (dag2, c.2.1) r2 hranked
          (fun _ _ => rfl) (le_refl _) hdc
        exact ⟨r2.1, K2, by rw [← hr], hK2⟩

theorem ranked_flip_acyclic (dag : VG) (K : Int → Int × Int × Int) (h : dag_ranked dag K) :
    plain_edges (flip_doubly_reversed_edges dag)
      ∧ (∀ e ∈ (flip_doubly_reversed_edges dag).edge, e.from_ ≠ e.to_)
      ∧ acyclic (flip_doubly_reversed_edges dag) := by
  have hsub : ∀ e ∈ (flip_doubly_reversed_edges dag).edge, e ∈ dag.edge := by
    intro e he
    rw [(flip_edges_list dag).1] at he
    obtain ⟨x, hx, hxe⟩ := List.mem_map.mp he
    rw [flip_edge_plain x (h.plain x hx)] at hxe
    rw [← hxe]
    exact hx
  have hac : acyclic (flip_doubly_reversed_edges dag) :=
    acyclic_of_ranked _ K (fun e he => h.mono e (hsub e he))
  refine ⟨fun e he => h.plain e (hsub e he), fun e he hloop => ?_, hac⟩
  exact hac e.from_ (Relation.TransGen.single ⟨e, he, rfl, hloop.symm⟩)

theorem two_cycle_store : store_consistent two_cycle_graph ∧ plain_edges two_cycle_graph := by
  have h0 : store_consistent VG.empty ∧ counter_ahead VG.empty :=
    ⟨empty_store_consistent, counter_ahead_of_one VG.empty rfl⟩
  have h1 := create_node_inv VG.empty "A".toList 0 h0.1 h0.2 (Or.inl rfl)
  have h2 := create_node_inv _ "C".toList 0 h1.1 h1.2 (Or.inl rfl)
  have h3 := create_edge_inv _ 1 2 false false h2.1 h2.2 (by decide) (by decide)
  have h4 := create_edge_inv _ 2 1 false false h3.1 h3.2 (by decide) (by decide)
  refine ⟨h4.1, ?_⟩
  unfold plain_edges
  decide

/-- C23: on a graph whose indexes agree with its node and edge lists and
whose edges are all plain (from the end of a node to the start of a node),
cyclic or not, for every `expand_scc_steps`, `node_translation`,
`target_min_walk_length` and `component_length_max`: `dagify` returns when no
node has the id 0 (with the id 0 in a component to unroll `dag.get_node(0)`
throws, since `create_node(sequence, 0)` allocates a new id), and every graph
that `dagify` returns has only plain edges, no self loop and no walk along its
edges that leads from a node back to that node. -/
theorem dagify_acyclic (g : VG) (hs : store_consistent g) (hp : plain_edges g)
    (expand_scc_steps : Nat) (node_translation : List (Int × (Int × Bool)))
    (target_min_walk_length component_length_max : Nat) :
    (has_node g 0 = false →
        ∃ r, dagify g expand_scc_steps node_translation target_min_walk_length
          component_length_max = some r)
      ∧ ∀ r, dagify g expand_scc_steps node_translation target_min_walk_length
          component_length_max = some r →
        plain_edges r.1 ∧ (∀ e ∈ r.1.edge, e.from_ ≠ e.to_) ∧ acyclic r.1 := by
  obtain ⟨h1, h2⟩ := dagify_phases g hs hp expand_scc_steps node_translation
    target_min_walk_length component_length_max
  refine ⟨h1, fun r hr => ?_⟩
  obtain ⟨dag, K, hdag, hK⟩ := h2 r hr
  rw [hdag]
  exact ranked_flip_acyclic dag K hK

/-- C23, witness: the graph with the nodes 1 and 2 and the plain edges from 1
to 2 and from 2 to 1 is consistent, plain and without a node 0; `dagify` with
one step returns on it, and what it returns is acyclic. -/
theorem dagify_acyclic_witness :
    store_consistent two_cycle_graph ∧ plain_edges two_cycle_graph
      ∧ has_node two_cycle_graph 0 = false
      ∧ (∃ r, dagify two_cycle_graph 1 [] 0 0 = some r)
      ∧ ∀ r, dagify two_cycle_graph 1 [] 0 0 = some r →
          plain_edges r.1 ∧ (∀ e ∈ r.1.edge, e.from_ ≠ e.to_) ∧ acyclic r.1 :=
  ⟨two_cycle_store.1, two_cycle_store.2, rfl,
    (dagify_acyclic two_cycle_graph two_cycle_store.1 two_cycle_store.2 1 [] 0 0).1 rfl,
    (dagify_acyclic two_cycle_graph two_cycle_store.1 two_cycle_store.2 1 [] 0 0).2⟩

end vg
